import Mathlib

/-!
# Verification development for `bsvm.cpp` (kernlab)

Shallow embedding of the kernel cache (`class Cache`) and of the decomposition
solvers of `src/src/bsvm.cpp`, followed by the theorems that settle the claims
of the specification.

## Memory model of the cache

`Cache` owns an array `head` of `l` records `head_t` and one sentinel record
`lru_head`; the records are linked into a circular doubly linked list through
their `prev`/`next` fields.  The embedding keeps the pointers: a pointer is
`Ptr.null`, the address of the sentinel (`Ptr.lru_head`) or the address of the
array element `head[i]` (`Ptr.head i`).  Dereferencing `null` or an element
outside the array is undefined behaviour and is modelled by `none`.  Of the
sentinel only the two link fields exist in the model (its `data` and `len` are
never initialised by the constructor, so reading them is `none` as well).

A buffer `Qfloat *data` is modelled by the list of its cells; a cell that was
allocated but never written is `none`.  The element type of the cells is a
parameter `α` (the cache only moves the values around).  `int` values are
integers; allocation always succeeds.

The two `while`/`for` loops over the list take a fuel argument: on an ill-formed
list they need not terminate.
-/

namespace Kernlab

/-! ## Kernel cache: data model -/

/-- A pointer to a node of the recency list. -/
inductive Ptr where
  | null : Ptr
  | lru_head : Ptr
  | head : Nat → Ptr
deriving DecidableEq, Repr

/-- The record `struct head_t`: links, buffer and filled length. -/
structure head_t (α : Type) where
  prev : Ptr
  next : Ptr
  data : List (Option α)
  len : Int
deriving DecidableEq, Repr

/-- The state of a `Cache` object; `lru_next`/`lru_prev` are `lru_head.next` and
`lru_head.prev`. -/
structure Cache (α : Type) where
  l : Nat
  size : Int
  head : List (head_t α)
  lru_next : Ptr
  lru_prev : Ptr
deriving DecidableEq, Repr

variable {α : Type}

/-- The constructor `Cache::Cache(l_, size_)` for `size_ ≥ 0`; `sizeof(Qfloat)` is 4 and
`sizeof(head_t)` is a parameter of the platform.  `calloc` zeroes the records. -/
def Cache.new (sizeof_head_t : Nat) (l_ : Nat) (size_ : Int) : Cache α :=
  { l := l_
    size := size_ / 4 - ((l_ * sizeof_head_t / 4 : Nat) : Int)
    head := List.replicate l_ { prev := Ptr.null, next := Ptr.null, data := [], len := 0 }
    lru_next := Ptr.lru_head
    lru_prev := Ptr.lru_head }

/-- Read `p->next`. -/
def Cache.get_next (c : Cache α) : Ptr → Option Ptr
  | Ptr.null => none
  | Ptr.lru_head => some c.lru_next
  | Ptr.head i => (c.head[i]?).map (fun e => e.next)

/-- Read `p->prev`. -/
def Cache.get_prev (c : Cache α) : Ptr → Option Ptr
  | Ptr.null => none
  | Ptr.lru_head => some c.lru_prev
  | Ptr.head i => (c.head[i]?).map (fun e => e.prev)

/-- Write `p->next = q`. -/
def Cache.set_next (c : Cache α) (p q : Ptr) : Option (Cache α) :=
  match p with
  | Ptr.null => none
  | Ptr.lru_head => some { c with lru_next := q }
  | Ptr.head i =>
    match c.head[i]? with
    | none => none
    | some e => some { c with head := c.head.set i { e with next := q } }

/-- Write `p->prev = q`. -/
def Cache.set_prev (c : Cache α) (p q : Ptr) : Option (Cache α) :=
  match p with
  | Ptr.null => none
  | Ptr.lru_head => some { c with lru_prev := q }
  | Ptr.head i =>
    match c.head[i]? with
    | none => none
    | some e => some { c with head := c.head.set i { e with prev := q } }

/-- `Cache::lru_delete(h)`: `h->prev->next = h->next; h->next->prev = h->prev;`. -/
def Cache.lru_delete (c : Cache α) (h : Ptr) : Option (Cache α) :=
  match c.get_prev h, c.get_next h with
  | some hp, some hn =>
    match c.set_next hp hn with
    | none => none
    | some c1 =>
      match c1.get_next h, c1.get_prev h with
      | some hn1, some hp1 => c1.set_prev hn1 hp1
      | _, _ => none
  | _, _ => none

/-- `Cache::lru_insert(h)`: insert `h` at the last position. -/
def Cache.lru_insert (c : Cache α) (h : Ptr) : Option (Cache α) :=
  match c.set_next h Ptr.lru_head with
  | none => none
  | some c1 =>
    match c1.set_prev h c1.lru_prev with
    | none => none
    | some c2 =>
      match c2.get_prev h with
      | none => none
      | some hp =>
        match c2.set_next hp h with
        | none => none
        | some c3 =>
          match c3.get_next h with
          | none => none
          | some hn => c3.set_prev hn h

/-- The statements `free(h->data); size += h->len; h->data = 0; h->len = 0;` on `head[k]`. -/
def Cache.release (c : Cache α) (k : Nat) : Option (Cache α) :=
  match c.head[k]? with
  | none => none
  | some e => some { c with size := c.size + e.len
                            head := c.head.set k { e with data := [], len := 0 } }

/-- The loop `while(size < more)` of `get_data` ("free old space"). -/
def Cache.free_old_space : Nat → Cache α → Int → Option (Cache α)
  | 0, c, more => if c.size < more then none else some c
  | fuel + 1, c, more =>
    if c.size < more then
      match c.lru_next with
      | Ptr.head k =>
        match c.lru_delete (Ptr.head k) with
        | none => none
        | some c1 =>
          match c1.release k with
          | none => none
          | some c2 => Cache.free_old_space fuel c2 more
      | _ => none
    else some c

/-- The call `realloc(data, sizeof(Qfloat)*n)`: the old cells are kept, new cells are
not initialised. -/
def realloc (data : List (Option α)) (n : Int) : List (Option α) :=
  data.take n.toNat ++ List.replicate (n.toNat - data.length) none

/-- `Cache::get_data(index, &data, len)`: the new state and the returned position; the
buffer handed out through `data` is the buffer of `head[index]` in the new state. -/
def Cache.get_data (fuel : Nat) (c : Cache α) (index : Nat) (len : Int) :
    Option (Cache α × Int) :=
  match c.head[index]? with
  | none => none
  | some h0 =>
    match (if h0.len ≠ 0 then c.lru_delete (Ptr.head index) else some c) with
    | none => none
    | some c1 =>
      match c1.head[index]? with
      | none => none
      | some h1 =>
        let more := len - h1.len
        if more > 0 then
          match c1.free_old_space fuel more with
          | none => none
          | some c2 =>
            match c2.head[index]? with
            | none => none
            | some h2 =>
              let c3 : Cache α :=
                { c2 with size := c2.size - more
                          head := c2.head.set index
                            { h2 with data := realloc h2.data len, len := len } }
              match c3.lru_insert (Ptr.head index) with
              | none => none
              | some c4 => some (c4, h2.len)
        else
          match c1.lru_insert (Ptr.head index) with
          | none => none
          | some c4 => some (c4, len)

/-- The statement `swap(data[i], data[j])` on a buffer; an offset outside the buffer is
undefined behaviour. -/
def swap_cells (data : List (Option α)) (i j : Nat) : Option (List (Option α)) :=
  match data[i]?, data[j]? with
  | some a, some b => some ((data.set i b).set j a)
  | _, _ => none

/-- The body of the `for` loop of `swap_index` on the node `head[k]` (with `i < j`). -/
def Cache.swap_body (c : Cache α) (k i j : Nat) : Option (Cache α) :=
  match c.head[k]? with
  | none => none
  | some h =>
    if h.len > (i : Int) then
      if h.len > (j : Int) then
        match swap_cells h.data i j with
        | none => none
        | some d => some { c with head := c.head.set k { h with data := d } }
      else
        match c.lru_delete (Ptr.head k) with
        | none => none
        | some c1 => c1.release k
    else some c

/-- The loop `for(h = lru_head.next; h != &lru_head; h = h->next)` of `swap_index`,
started at the node `h`. -/
def Cache.swap_loop : Nat → Cache α → Ptr → Nat → Nat → Option (Cache α)
  | _, c, Ptr.lru_head, _, _ => some c
  | _, _, Ptr.null, _, _ => none
  | 0, _, Ptr.head _, _, _ => none
  | fuel + 1, c, Ptr.head k, i, j =>
    match c.swap_body k i j with
    | none => none
    | some c1 =>
      match c1.get_next (Ptr.head k) with
      | none => none
      | some h1 => Cache.swap_loop fuel c1 h1 i j

/-- The statements `swap(head[i].data,head[j].data); swap(head[i].len,head[j].len);`. -/
def Cache.swap_entries (c : Cache α) (i j : Nat) : Option (Cache α) :=
  match c.head[i]?, c.head[j]? with
  | some ei, some ej =>
    some { c with head := (c.head.set i { ei with data := ej.data, len := ej.len }).set j
                    { ej with data := ei.data, len := ei.len } }
  | _, _ => none

/-- The statement `if(head[i].len) lru_delete(&head[i]);`. -/
def Cache.delete_if_cached (c : Cache α) (i : Nat) : Option (Cache α) :=
  match c.head[i]? with
  | none => none
  | some e => if e.len ≠ 0 then c.lru_delete (Ptr.head i) else some c

/-- The statement `if(head[i].len) lru_insert(&head[i]);`. -/
def Cache.insert_if_cached (c : Cache α) (i : Nat) : Option (Cache α) :=
  match c.head[i]? with
  | none => none
  | some e => if e.len ≠ 0 then c.lru_insert (Ptr.head i) else some c

/-- `Cache::swap_index(i, j)`. -/
def Cache.swap_index (fuel : Nat) (c : Cache α) (i j : Nat) : Option (Cache α) :=
  if i = j then some c
  else
    match c.delete_if_cached i with
    | none => none
    | some c1 =>
      match c1.delete_if_cached j with
      | none => none
      | some c2 =>
        match c2.swap_entries i j with
        | none => none
        | some c3 =>
          match c3.insert_if_cached i with
          | none => none
          | some c4 =>
            match c4.insert_if_cached j with
            | none => none
            | some c5 =>
              if i > j then Cache.swap_loop fuel c5 c5.lru_next j i
              else Cache.swap_loop fuel c5 c5.lru_next i j

/-- A call of one of the two public methods of `Cache`, with the fuel of its loop. -/
inductive Call where
  | get_data (fuel index : Nat) (len : Int) : Call
  | swap_index (fuel i j : Nat) : Call
deriving DecidableEq, Repr

/-- The state after one call, `none` when the call does not return. -/
def Cache.call (c : Cache α) : Call → Option (Cache α)
  | Call.get_data fuel index len => (c.get_data fuel index len).map Prod.fst
  | Call.swap_index fuel i j => c.swap_index fuel i j

/-- The state after a sequence of calls that all return. -/
def Cache.run (c : Cache α) : List Call → Option (Cache α)
  | [] => some c
  | x :: r =>
    match c.call x with
    | none => none
    | some c' => Cache.run c' r

/-- The call asks for at least one value (`len ≥ 1` for `get_data`). -/
def Call.requests_data : Call → Prop
  | Call.get_data _ _ len => 1 ≤ len
  | Call.swap_index _ _ _ => True

instance (x : Call) : Decidable x.requests_data := by
  cases x <;> simp only [Call.requests_data] <;> infer_instance

/-- A cache of five records with no budget left that holds `head[0]` (5 values), `head[1]`
(2 values) and `head[2]` (3 values), least recently used first, all cells written. -/
def demo_cache : Cache Nat :=
  { l := 5
    size := 0
    head := [⟨Ptr.lru_head, Ptr.head 1, [some 1, some 2, some 3, some 4, some 5], 5⟩,
             ⟨Ptr.head 0, Ptr.head 2, [some 10, some 20], 2⟩,
             ⟨Ptr.head 1, Ptr.lru_head, [some 7, some 8, some 9], 3⟩,
             ⟨Ptr.null, Ptr.null, [], 0⟩,
             ⟨Ptr.null, Ptr.null, [], 0⟩]
    lru_next := Ptr.head 0
    lru_prev := Ptr.head 2 }


/-! ## Kernel cache: auxiliary notions for the proofs -/

def Cache.contents (c : Cache α) : List (List (Option α) × Int) :=
  c.head.map (fun e => (e.data, e.len))

/-- A pointer that can be dereferenced: the sentinel or an element of the array. -/
def Cache.valid (c : Cache α) : Ptr → Prop
  | Ptr.null => False
  | Ptr.lru_head => True
  | Ptr.head i => i < c.head.length

/-- The nodes `a` and `b` are neighbours: `a->next == b` and `b->prev == a`. -/
def Linked (c : Cache α) (a b : Ptr) : Prop :=
  c.get_next a = some b ∧ c.get_prev b = some a

/-- The nodes of a circular list that holds the records `L` between two visits of the
sentinel. -/
def ring (L : List Nat) : List Ptr :=
  Ptr.lru_head :: (L.map Ptr.head ++ [Ptr.lru_head])

/-- The last node of the segment that starts at `s` and continues with the records `A`. -/
def lastFrom (s : Ptr) (A : List Nat) : Ptr :=
  match A.getLast? with
  | none => s
  | some a => Ptr.head a

/-- The first node of the segment made of the records `B` followed by the node `e`. -/
def firstTo (B : List Nat) (e : Ptr) : Ptr :=
  match B with
  | [] => e
  | b :: _ => Ptr.head b

/-- The recency list of `c` is well linked and holds exactly the records `L`, least
recently used first. -/
def Cache.Chain (c : Cache α) (L : List Nat) : Prop :=
  List.Chain' (Linked c) (ring L) ∧ L.Nodup

/-- The filled length recorded for `head[k]` in a table of contents. -/
def lenAt (ct : List (List (Option α) × Int)) (k : Nat) : Int :=
  match ct[k]? with
  | some e => e.2
  | none => 0

/-- The buffer recorded for `head[k]` in a table of contents. -/
def dataAt (ct : List (List (Option α) × Int)) (k : Nat) : List (Option α) :=
  match ct[k]? with
  | some e => e.1
  | none => []

/-- List view of a cache: remaining budget, contents of the records, recency list. -/
structure LruView (α : Type) where
  size : Int
  contents : List (List (Option α) × Int)
  lru : List Nat

/-- The cache `c` is represented by the list view `a`. -/
def Cache.Rep (c : Cache α) (a : LruView α) : Prop :=
  c.size = a.size ∧ c.contents = a.contents ∧ c.Chain a.lru

/-- List view of the loop `while(size < more)` of `get_data`: records are evicted from
the front of the recency list until the budget covers `more`. -/
def LruView.free_old_space (more : Int) :
    List Nat → Int → List (List (Option α) × Int) → Option (LruView α)
  | [], size, ct => if size < more then none else some ⟨size, ct, []⟩
  | k :: r, size, ct =>
    if size < more then
      LruView.free_old_space more r (size + lenAt ct k) (ct.set k ([], 0))
    else some ⟨size, ct, k :: r⟩

/-- List view of `Cache::get_data`. -/
def LruView.get_data (a : LruView α) (index : Nat) (len : Int) : Option (LruView α × Int) :=
  if index < a.contents.length then
    let L1 := if lenAt a.contents index ≠ 0 then a.lru.erase index else a.lru
    let more := len - lenAt a.contents index
    if more > 0 then
      match LruView.free_old_space more L1 a.size a.contents with
      | none => none
      | some a2 =>
        some ({ size := a2.size - more
                contents := a2.contents.set index (realloc (dataAt a2.contents index) len, len)
                lru := a2.lru ++ [index] }, lenAt a2.contents index)
    else some ({ a with lru := L1 ++ [index] }, len)
  else none

/-- Well-formed cache with recency list `L`: the list is well linked, a record is in the
list exactly when its filled length is not zero, and every buffer has its filled length. -/
structure Cache.WF (c : Cache α) (L : List Nat) : Prop where
  chain : c.Chain L
  cached : ∀ k, k < c.head.length → (k ∈ L ↔ lenAt c.contents k ≠ 0)
  buf : ∀ k, k < c.head.length → ((dataAt c.contents k).length : Int) = lenAt c.contents k

/-- List view of the `for` loop of `swap_index` over the records `R` of the recency list
(with `i < j`); the list of the result holds the records of `R` that were kept. -/
def LruView.swap_loop (i j : Nat) :
    List Nat → Int → List (List (Option α) × Int) → Option (LruView α)
  | [], size, ct => some ⟨size, ct, []⟩
  | k :: r, size, ct =>
    if lenAt ct k > (i : Int) then
      if lenAt ct k > (j : Int) then
        match swap_cells (dataAt ct k) i j with
        | none => none
        | some d =>
          (LruView.swap_loop i j r size (ct.set k (d, lenAt ct k))).map
            (fun a => { a with lru := k :: a.lru })
      else LruView.swap_loop i j r (size + lenAt ct k) (ct.set k ([], 0))
    else (LruView.swap_loop i j r size ct).map (fun a => { a with lru := k :: a.lru })

/-- The table of contents after `swap(head[i].data,head[j].data); swap(head[i].len,head[j].len)`. -/
def swap_contents (ct : List (List (Option α) × Int)) (i j : Nat) :
    List (List (Option α) × Int) :=
  (ct.set i (dataAt ct j, lenAt ct j)).set j (dataAt ct i, lenAt ct i)

/-- The recency list after the unlink/relink statements of `swap_index(i, j)`. -/
def relink (ct : List (List (Option α) × Int)) (L : List Nat) (i j : Nat) : List Nat :=
  let L1 := if lenAt ct i ≠ 0 then L.erase i else L
  let L2 := if lenAt ct j ≠ 0 then L1.erase j else L1
  let L3 := if lenAt ct j ≠ 0 then L2 ++ [i] else L2
  if lenAt ct i ≠ 0 then L3 ++ [j] else L3

/-- List view of `Cache::swap_index`. -/
def LruView.swap_index (a : LruView α) (i j : Nat) : Option (LruView α) :=
  if i = j then some a
  else if i < a.contents.length ∧ j < a.contents.length then
    if i > j then
      LruView.swap_loop j i (relink a.contents a.lru i j) a.size (swap_contents a.contents i j)
    else
      LruView.swap_loop i j (relink a.contents a.lru i j) a.size (swap_contents a.contents i j)
  else none

/-- Sum of the filled lengths of a table of contents. -/
def totalLen (ct : List (List (Option α) × Int)) : Int :=
  (ct.map Prod.snd).sum

/-- The cached length `sum of head[k].len` of a cache. -/
def Cache.total (c : Cache α) : Int :=
  (c.head.map (fun e => e.len)).sum

/-- Well-formedness of a list view (see `Cache.WF`). -/
structure WFv (ct : List (List (Option α) × Int)) (L : List Nat) : Prop where
  nodup : L.Nodup
  valid : ∀ k ∈ L, k < ct.length
  cached : ∀ k, k < ct.length → (k ∈ L ↔ lenAt ct k ≠ 0)
  buf : ∀ k, k < ct.length → ((dataAt ct k).length : Int) = lenAt ct k

/-- The record whose buffer and length `head[m]` holds after the exchange made by
`swap_index(i, j)`. -/
def swap_src (i j m : Nat) : Nat :=
  if m = i then j else if m = j then i else m


/-! ## Decomposition solvers: data model

`double` values are rationals (exact arithmetic); `HUGE_VAL` and `-HUGE_VAL` are the two
extra points of `Ext`.  The arrays of a solver are lists; an index outside an array reads
the default value and a write outside an array is dropped (in the runs of `Solve` all
indices are below `l`).  `int` counters that cannot become negative are natural numbers.

The kernel object `Q` is abstract: `Q i j` is entry `j` of the row `get_Q(i, len)` at the
current positions, and `Q->swap_index(i, j)` exchanges the positions `i` and `j` of both
coordinates.  `solvebqp` is not part of the file (it is declared `extern "C"`); it is a
parameter of the model, a function from the sub-problem to the new point `x`.
-/

/-- The values `enum { LOWER_BOUND, UPPER_BOUND, FREE }` of `alpha_status`. -/
inductive Status where
  | LOWER_BOUND : Status
  | UPPER_BOUND : Status
  | FREE : Status
deriving DecidableEq, Repr

/-- A `double` that may be `-INF` or `INF` (`INF/2` is `INF`). -/
inductive Ext where
  | neg_inf : Ext
  | fin : ℚ → Ext
  | pos_inf : Ext
deriving DecidableEq

/-- The comparison `a < b` of two extended values. -/
def Ext.lt : Ext → Ext → Bool
  | Ext.neg_inf, Ext.neg_inf => false
  | Ext.neg_inf, _ => true
  | Ext.fin _, Ext.neg_inf => false
  | Ext.fin a, Ext.fin b => decide (a < b)
  | Ext.fin _, Ext.pos_inf => true
  | Ext.pos_inf, _ => false

/-- The comparison `a <= b` of two extended values. -/
def Ext.le (a b : Ext) : Bool := !(Ext.lt b a)

/-- The statement `swap(xs[i], xs[j])` on an array. -/
def swap_at {β : Type} (xs : List β) (i j : Nat) : List β :=
  match xs[i]?, xs[j]? with
  | some a, some b => (xs.set i b).set j a
  | _, _ => xs

/-- The loop `for(i = lo; i < hi; i++) body(i)`. -/
def for_loop {σ : Type} (lo hi : Nat) (body : Nat → σ → σ) (s : σ) : σ :=
  (List.range' lo (hi - lo)).foldl (fun t i => body i t) s

/-- The position that `Q->swap_index(i, j)` moves to position `k`. -/
def swap_pos (i j k : Nat) : Nat :=
  if k = i then j else if k = j then i else k

/-- The sub-problem `struct BQP` handed to `solvebqp`. -/
structure BQP where
  eps : ℚ
  n : Nat
  x : List ℚ
  C : List ℚ
  Q : List ℚ
  p : List ℚ

/-- The members of `class Solver_B` (with the private `Cp`, `Cn`, `b`, `y`);
`working_set` holds the `q` entries written by the last `select_working_set`. -/
structure Solver_B where
  active_size : Nat
  G : List ℚ
  alpha_status : List Status
  alpha : List ℚ
  Q : Nat → Nat → ℚ
  eps : ℚ
  active_set : List Nat
  G_bar : List ℚ
  l : Nat
  unshrinked : Bool
  qpsize : Nat
  working_set : List Nat
  Cp : ℚ
  Cn : ℚ
  b : List ℚ
  y : List Int

/-! ## `Solver_B`: operations -/

/-- `Solver_B::get_C(i)`. -/
def Solver_B.get_C (s : Solver_B) (i : Nat) : ℚ :=
  if s.y.getD i 0 > 0 then s.Cp else s.Cn

/-- `Solver_B::update_alpha_status(i)`. -/
def Solver_B.update_alpha_status (s : Solver_B) (i : Nat) : Solver_B :=
  let st :=
    if s.alpha.getD i 0 ≥ s.get_C i then Status.UPPER_BOUND
    else if s.alpha.getD i 0 ≤ 0 then Status.LOWER_BOUND
    else Status.FREE
  { s with alpha_status := s.alpha_status.set i st }

/-- `Solver_B::is_upper_bound(i)`. -/
def Solver_B.is_upper_bound (s : Solver_B) (i : Nat) : Bool :=
  s.alpha_status[i]? = some Status.UPPER_BOUND

/-- `Solver_B::is_lower_bound(i)`. -/
def Solver_B.is_lower_bound (s : Solver_B) (i : Nat) : Bool :=
  s.alpha_status[i]? = some Status.LOWER_BOUND

/-- `Solver_B::is_free(i)`. -/
def Solver_B.is_free (s : Solver_B) (i : Nat) : Bool :=
  s.alpha_status[i]? = some Status.FREE

/-- `Solver_B::swap_index(i, j)`. -/
def Solver_B.swap_index (s : Solver_B) (i j : Nat) : Solver_B :=
  { s with Q := fun a c => s.Q (swap_pos i j a) (swap_pos i j c)
           y := swap_at s.y i j
           G := swap_at s.G i j
           alpha_status := swap_at s.alpha_status i j
           alpha := swap_at s.alpha i j
           b := swap_at s.b i j
           active_set := swap_at s.active_set i j
           G_bar := swap_at s.G_bar i j }

/-- The loop `for(j = lo; j < hi; j++) G[j] += a * row[j]` on an array. -/
def add_row (G : List ℚ) (lo hi : Nat) (a : ℚ) (row : Nat → ℚ) : List ℚ :=
  for_loop lo hi (fun j G' => G'.set j (G'.getD j 0 + a * row j)) G

/-- `Solver_B::reconstruct_gradient()`. -/
def Solver_B.reconstruct_gradient (s : Solver_B) : Solver_B :=
  if s.active_size = s.l then s
  else
    let G1 := for_loop s.active_size s.l
      (fun i G => G.set i (s.G_bar.getD i 0 + s.b.getD i 0)) s.G
    let G2 := for_loop 0 s.active_size
      (fun i G => if s.is_free i then add_row G s.active_size s.l (s.alpha.getD i 0) (s.Q i)
                  else G) G1
    { s with G := G2 }

/-- The inner loop of the first pass of `select_working_set`, from slot `j = 1` on: the
slots with a larger value move one place down and `(v, i)` is stored before the first slot
whose value is not larger. -/
def shift_smaller (v : ℚ) (i : Nat) : List (Ext × Nat) → List (Ext × Nat)
  | [] => [(Ext.fin v, i)]
  | e :: r =>
    if Ext.le e.1 (Ext.fin v) then (Ext.fin v, i) :: e :: r
    else e :: shift_smaller v i r

/-- The statement `if(v < positive_max[0]) { ... }` of the first pass. -/
def insert_smaller (v : ℚ) (i : Nat) (slots : List (Ext × Nat)) : List (Ext × Nat) :=
  match slots with
  | [] => []
  | e :: r => if Ext.lt (Ext.fin v) e.1 then shift_smaller v i r else slots

/-- The inner loop of the second pass of `select_working_set`, from slot `j = 1` on. -/
def shift_larger (v : ℚ) (i : Nat) : List (Ext × Nat) → List (Ext × Nat)
  | [] => [(Ext.fin v, i)]
  | e :: r =>
    if Ext.le (Ext.fin v) e.1 then (Ext.fin v, i) :: e :: r
    else e :: shift_larger v i r

/-- The statement `if (v > positive_max[0]) { ... }` of the second pass. -/
def insert_larger (v : ℚ) (i : Nat) (slots : List (Ext × Nat)) : List (Ext × Nat) :=
  match slots with
  | [] => []
  | e :: r => if Ext.lt e.1 (Ext.fin v) then shift_larger v i r else slots

/-- The slots `(positive_max[i], positive_set[i])` after the first pass of
`select_working_set` over the active FREE variables. -/
def Solver_B.first_pass (s : Solver_B) : List (Ext × Nat) :=
  for_loop 0 s.active_size
    (fun i slots => if !s.is_free i then slots else insert_smaller |s.G.getD i 0| i slots)
    (List.replicate (s.qpsize / 2) (Ext.pos_inf, 0))

/-- The value `max0 = q ? positive_max[0] : 0` of `select_working_set`. -/
def max0_of (q : Nat) (slots : List (Ext × Nat)) : Ext :=
  if q ≠ 0 then
    match slots with
    | [] => Ext.fin 0
    | e :: _ => e.1
  else Ext.fin 0

/-- The tests of the second pass of `select_working_set` that end in `continue`: a FREE
variable with `|G[i]| <= max0`, a variable at the upper bound with `G[i] < 0`, a variable
at the lower bound (and not at the upper bound) with `G[i] > 0`. -/
def Solver_B.second_pass_skips (s : Solver_B) (max0 : Ext) (i : Nat) : Bool :=
  (s.is_free i && Ext.le (Ext.fin |s.G.getD i 0|) max0) ||
  (s.is_upper_bound i && decide (s.G.getD i 0 < 0)) ||
  (!s.is_upper_bound i && s.is_lower_bound i && decide (s.G.getD i 0 > 0))

/-- The slots after the second pass of `select_working_set`, started with `q_2` slots. -/
def Solver_B.second_pass (s : Solver_B) (max0 : Ext) (q_2 : Nat) : List (Ext × Nat) :=
  for_loop 0 s.active_size
    (fun i slots =>
      if s.second_pass_skips max0 i then slots
      else insert_larger |s.G.getD i 0| i slots)
    (List.replicate q_2 (Ext.neg_inf, 0))

/-- The statement `maxvio = max(maxvio, positive_max[i])` for a slot that is not `-INF`. -/
def max_with (m : ℚ) (e : Ext) : ℚ :=
  match e with
  | Ext.fin v => max m v
  | _ => m

/-- The first entries of the working set: the indices of the slots of the first pass that
are not `INF`, in the order of the slots. -/
def Solver_B.first_block (s : Solver_B) : List Nat :=
  (s.first_pass.filter (fun e => e.1 ≠ Ext.pos_inf)).map Prod.snd

/-- The value `max0` of `select_working_set`. -/
def Solver_B.max0 (s : Solver_B) : Ext :=
  max0_of s.first_block.length s.first_pass

/-- The slots of the second pass that are not `-INF`, in the order of the slots. -/
def Solver_B.second_slots (s : Solver_B) : List (Ext × Nat) :=
  (s.second_pass s.max0 (s.qpsize - s.first_block.length)).filter
    (fun e => e.1 ≠ Ext.neg_inf)

/-- The entries of the working set written after the first block. -/
def Solver_B.second_block (s : Solver_B) : List Nat :=
  s.second_slots.map Prod.snd

/-- `Solver_B::select_working_set(q)`: the returned violation and the state with the new
working set (`q` is its length). -/
def Solver_B.select_working_set (s : Solver_B) : ℚ × Solver_B :=
  (s.second_slots.foldl (fun m e => max_with m e.1) 0,
   { s with working_set := s.first_block ++ s.second_block })

/-- `Solver_B::shrink_one(k)`. -/
def Solver_B.shrink_one (s : Solver_B) (k : Nat) : Solver_B :=
  s.swap_index k s.active_size

/-- `Solver_B::unshrink_one(k)`. -/
def Solver_B.unshrink_one (s : Solver_B) (k : Nat) : Solver_B :=
  s.swap_index k s.active_size

/-- The loop `for(k=0;k<active_size;k++)` of `do_shrinking`, from position `k` on; the
first argument bounds the number of iterations (`active_size - k` suffices, since every
iteration increases `k` or decreases `active_size`). -/
def Solver_B.shrink_loop : Nat → Solver_B → Nat → ℚ → Solver_B
  | 0, s, _, _ => s
  | n + 1, s, k, Gm =>
    if k < s.active_size then
      if s.is_lower_bound k then
        if s.G.getD k 0 ≤ Gm then Solver_B.shrink_loop n s (k + 1) Gm
        else
          Solver_B.shrink_loop n
            (Solver_B.shrink_one { s with active_size := s.active_size - 1 } k) k Gm
      else if s.is_upper_bound k then
        if s.G.getD k 0 ≥ -Gm then Solver_B.shrink_loop n s (k + 1) Gm
        else
          Solver_B.shrink_loop n
            (Solver_B.shrink_one { s with active_size := s.active_size - 1 } k) k Gm
      else Solver_B.shrink_loop n s (k + 1) Gm
    else s

/-- The loop `for(k=l-1;k>=active_size;k--)` of `do_shrinking`, from position `k` on; the
first argument bounds the number of iterations (`k + 1 - active_size` suffices). -/
def Solver_B.unshrink_loop : Nat → Solver_B → Int → ℚ → Solver_B
  | 0, s, _, _ => s
  | n + 1, s, k, Gm =>
    if k ≥ (s.active_size : Int) then
      if s.is_lower_bound k.toNat then
        if s.G.getD k.toNat 0 > Gm then Solver_B.unshrink_loop n s (k - 1) Gm
        else
          let s' := Solver_B.unshrink_one s k.toNat
          Solver_B.unshrink_loop n { s' with active_size := s.active_size + 1 } k Gm
      else if s.is_upper_bound k.toNat then
        if s.G.getD k.toNat 0 < -Gm then Solver_B.unshrink_loop n s (k - 1) Gm
        else
          let s' := Solver_B.unshrink_one s k.toNat
          Solver_B.unshrink_loop n { s' with active_size := s.active_size + 1 } k Gm
      else Solver_B.unshrink_loop n s (k - 1) Gm
    else s

/-- `Solver_B::do_shrinking()`. -/
def Solver_B.do_shrinking (s : Solver_B) : Solver_B :=
  let r := s.select_working_set
  let Gm := r.1
  let s0 := r.2
  if Gm < s0.eps then s0
  else
    let s1 := Solver_B.shrink_loop s0.active_size s0 0 Gm
    if s1.unshrinked || decide (Gm > s1.eps * 10) then s1
    else
      let s2 := Solver_B.reconstruct_gradient { s1 with unshrinked := true }
      Solver_B.unshrink_loop (s2.l - s2.active_size) s2 ((s2.l : Int) - 1) Gm

/-- The state of `Solver_B::Solve` before the optimization loop. -/
def Solver_B.init (l : Nat) (Q : Nat → Nat → ℚ) (b_ : List ℚ) (y_ : List Int)
    (alpha_ : List ℚ) (Cp Cn eps : ℚ) (shrinking : Bool) (qpsize : Nat) : Solver_B :=
  let s0 : Solver_B :=
    { active_size := l, G := (List.range l).map (fun i => b_.getD i 0),
      alpha_status := List.replicate l Status.LOWER_BOUND,
      alpha := (List.range l).map (fun i => alpha_.getD i 0), Q := Q, eps := eps,
      active_set := List.range l, G_bar := List.replicate l 0, l := l, unshrinked := false,
      qpsize := qpsize, working_set := [], Cp := Cp, Cn := Cn, b := b_,
      y := (List.range l).map (fun i => y_.getD i 0) }
  let s1 := for_loop 0 l (fun i s => s.update_alpha_status i) s0
  for_loop 0 l
    (fun i s =>
      if !s.is_lower_bound i then
        let s' := { s with G := add_row s.G 0 l (s.alpha.getD i 0) (s.Q i) }
        if shrinking && s'.is_upper_bound i then
          { s' with G_bar := add_row s'.G_bar 0 l (s'.get_C i) (s'.Q i) }
        else s'
      else s) s1

/-- The sub-problem built by `Solver_B::Solve` ("construct subproblem"). -/
def Solver_B.subproblem (s : Solver_B) : BQP :=
  let n := s.working_set.length
  let B := fun i => s.working_set.getD i 0
  let p0 := (List.range n).map (fun i => s.G.getD (B i) 0)
  let qp0 : BQP :=
    { eps := s.eps / 10, n := n, x := List.replicate n 0, C := List.replicate n 0,
      Q := List.replicate (n * n) 0, p := p0 }
  for_loop 0 n
    (fun i qp =>
      let qii := s.Q (B i) (B i)
      let qp1 : BQP :=
        { qp with x := qp.x.set i (s.alpha.getD (B i) 0)
                  C := qp.C.set i (s.get_C (B i))
                  Q := qp.Q.set (i * n + i) qii
                  p := qp.p.set i (qp.p.getD i 0 - qii * s.alpha.getD (B i) 0) }
      for_loop (i + 1) n
        (fun j qp2 =>
          let qij := s.Q (B i) (B j)
          let Q' := (qp2.Q.set (j * n + i) qij).set (i * n + j) qij
          let p' := qp2.p.set i (qp2.p.getD i 0 - qij * s.alpha.getD (B j) 0)
          { qp2 with Q := Q'
                     p := p'.set j (p'.getD j 0 - qij * s.alpha.getD (B i) 0) }) qp1) qp0

/-- The body of the loop "update G" of `Solver_B::Solve` for entry `i` of the working set;
`x` is the point returned by `solvebqp`. -/
def Solver_B.update_G_step (x : List ℚ) (i : Nat) (t : Solver_B) : Solver_B :=
  let d := x.getD i 0 - t.alpha.getD (t.working_set.getD i 0) 0
  if |d| > 1 / 1000000000000 then
    { t with alpha := t.alpha.set (t.working_set.getD i 0) (x.getD i 0)
             G := add_row t.G 0 t.active_size d (t.Q (t.working_set.getD i 0)) }
  else t

/-- The loop "update G" of `Solver_B::Solve` for the new point `x`. -/
def Solver_B.update_G (s : Solver_B) (x : List ℚ) : Solver_B :=
  for_loop 0 s.working_set.length (Solver_B.update_G_step x) s

/-- The body of the loop "update alpha_status and G_bar" of `Solver_B::Solve` for entry `i`
of the working set; `C` is `qp.C`. -/
def Solver_B.update_status_step (shrinking : Bool) (C : List ℚ) (i : Nat) (t : Solver_B) :
    Solver_B :=
  let Bi := t.working_set.getD i 0
  let u := t.is_upper_bound Bi
  let t1 := t.update_alpha_status Bi
  if !shrinking then t1
  else if u != t1.is_upper_bound Bi then
    if u then { t1 with G_bar := add_row t1.G_bar 0 t1.l (-(C.getD i 0)) (t1.Q Bi) }
    else { t1 with G_bar := add_row t1.G_bar 0 t1.l (C.getD i 0) (t1.Q Bi) }
  else t1

/-- The loop "update alpha_status and G_bar" of `Solver_B::Solve`; `C` is `qp.C`. -/
def Solver_B.update_status (s : Solver_B) (shrinking : Bool) (C : List ℚ) : Solver_B :=
  for_loop 0 s.working_set.length (Solver_B.update_status_step shrinking C) s

/-- One pass of the body of the loop of `Solver_B::Solve` after the convergence check:
sub-problem, `solvebqp`, update of `alpha`, `G`, `alpha_status` and `G_bar`. -/
def Solver_B.update (solvebqp : BQP → List ℚ) (shrinking : Bool) (s : Solver_B) :
    Solver_B :=
  let qp := s.subproblem
  Solver_B.update_status (s.update_G (solvebqp qp)) shrinking qp.C

/-- The component operations of one of the four `Solve` loops. -/
structure SolverOps (σ : Type) where
  reload : σ → Int
  do_shrinking : σ → σ
  select_working_set : σ → ℚ × σ
  reconstruct_gradient : σ → σ
  full_active : σ → σ
  recheck_failed : σ → σ
  update : σ → σ
  eps : σ → ℚ

/-- The outcome of one pass through the body of `while(1)`: the loop goes on with a state
and a counter, or it is left by `break`. -/
inductive Step (σ : Type) where
  | next : σ → Int → Step σ
  | done : σ → Step σ

/-- The two-phase convergence check of the loop body and what follows it: when the
selection returns less than `eps`, the gradient is reconstructed, the active set is reset
to the whole problem and the selection runs again; `break` when it returns less than `eps`
again, otherwise `counter = 1`; then the update. -/
def convergence_check {σ : Type} (ops : SolverOps σ) (s : σ) (counter : Int) : Step σ :=
  let r := ops.select_working_set s
  if r.1 < ops.eps r.2 then
    let s2 := ops.full_active (ops.reconstruct_gradient r.2)
    let r2 := ops.select_working_set s2
    if r2.1 < ops.eps r2.2 then Step.done r2.2
    else Step.next (ops.update (ops.recheck_failed r2.2)) 1
  else Step.next (ops.update r.2) counter

/-- One pass through the body of the loop `while(1)` shared by `Solver_B::Solve`,
`Solver_B_linear::Solve`, `Solver_MB::Solve` and `Solver_SPOC::Solve`: the counter and the
periodic shrinking, then the convergence check and the update.  `recheck_failed` is the
re-ordering that `Solver_MB` performs when the second check fails (nothing in the other
solvers). -/
def Solve_iteration {σ : Type} (ops : SolverOps σ) (shrinking : Bool) (s : σ)
    (counter : Int) : Step σ :=
  convergence_check ops
    (if counter - 1 = 0 then (if shrinking then ops.do_shrinking s else s) else s)
    (if counter - 1 = 0 then ops.reload s else counter - 1)

/-- The loop `while(1)`, with fuel: `none` when the fuel runs out before a `break`. -/
def Solve_loop {σ : Type} (ops : SolverOps σ) (shrinking : Bool) :
    Nat → σ → Int → Option σ
  | 0, _, _ => none
  | fuel + 1, s, counter =>
    match Solve_iteration ops shrinking s counter with
    | Step.done s' => some s'
    | Step.next s' counter' => Solve_loop ops shrinking fuel s' counter'

/-- The state and the counter at the head of the loop after `n` passes that did not leave
it (`none` once the loop is left). -/
def loop_head {σ : Type} (ops : SolverOps σ) (shrinking : Bool) :
    Nat → σ → Int → Option (σ × Int)
  | 0, s, counter => some (s, counter)
  | n + 1, s, counter =>
    match Solve_iteration ops shrinking s counter with
    | Step.done _ => none
    | Step.next s' counter' => loop_head ops shrinking n s' counter'

/-- The operations of `Solver_B::Solve`. -/
def Solver_B.ops (solvebqp : BQP → List ℚ) (shrinking : Bool) : SolverOps Solver_B :=
  { reload := fun s => min ((s.l : Int) * 2 / s.qpsize) (2000 / s.qpsize)
    do_shrinking := Solver_B.do_shrinking
    select_working_set := Solver_B.select_working_set
    reconstruct_gradient := Solver_B.reconstruct_gradient
    full_active := fun s => { s with active_size := s.l }
    recheck_failed := fun s => s
    update := Solver_B.update solvebqp shrinking
    eps := fun s => s.eps }

/-- The loop "put back the solution": `alpha_[active_set[i]] = alpha[i]` for `i < l`. -/
def put_back (l : Nat) (active_set : List Nat) (alpha alpha_ : List ℚ) : List ℚ :=
  for_loop 0 l (fun i out => out.set (active_set.getD i 0) (alpha.getD i 0)) alpha_

/-- `Solver_B::Solve`: the caller's `alpha_` and `b_` after the call and `si->obj`; `none`
when the loop is not left within the fuel. -/
def Solver_B.Solve (solvebqp : BQP → List ℚ) (fuel : Nat) (l : Nat) (Q : Nat → Nat → ℚ)
    (b_ : List ℚ) (y_ : List Int) (alpha_ : List ℚ) (Cp Cn eps : ℚ) (shrinking : Bool)
    (qpsize : Nat) : Option (List ℚ × List ℚ × ℚ) :=
  let s0 := Solver_B.init l Q b_ y_ alpha_ Cp Cn eps shrinking qpsize
  match Solve_loop (Solver_B.ops solvebqp shrinking) shrinking fuel s0
      (min ((l : Int) * 2 / qpsize) (2000 / qpsize) + 1) with
  | none => none
  | some s =>
    some (put_back l s.active_set s.alpha alpha_, s.b,
      (for_loop 0 l (fun i v => v + s.alpha.getD i 0 * (s.G.getD i 0 + s.b.getD i 0)) 0) / 2)

/-- A computation with fuel that returns no result, whatever the fuel. -/
def never_returns {β : Type} (f : Nat → Option β) : Prop :=
  ∀ fuel, f fuel = none

/-- Modelled from the spec: `solvebqp` is missing from the file; this is the exact solution
of a sub-problem whose matrix `Q` is diagonal with positive diagonal, the point a correct
box-constrained solver returns for it: every coordinate minimises `Q_ii x^2 / 2 + p_i x`
over `[0, C_i]`. -/
def solvebqp_diag (qp : BQP) : List ℚ :=
  (List.range qp.n).map
    (fun i => max 0 (min (qp.C.getD i 0) (-(qp.p.getD i 0) / qp.Q.getD (i * qp.n + i) 0)))

/-- The two points `(1,0) → +1` and `(-1,0) → -1` under the linear kernel:
`Q i j = y_i y_j (x_i . x_j + 1)`. -/
def two_point_Q (i j : Nat) : ℚ :=
  if i = j then 2 else 0

/-- A very small penalty parameter, `C = 1e-13`. -/
def tiny_C : ℚ := 1 / 10000000000000

/-- The state of `Solver_B::Solve` on the two points with `Cp = Cn = tiny_C`, `eps = 1e-3`,
`qpsize = 2` and start `alpha = 0`, with `w` in the working set. -/
def tiny_start (w : List Nat) : Solver_B :=
  { active_size := 2, G := [-1, -1],
    alpha_status := [Status.LOWER_BOUND, Status.LOWER_BOUND],
    alpha := [0, 0], Q := two_point_Q, eps := 1 / 1000,
    active_set := [0, 1], G_bar := [0, 0], l := 2, unshrinked := false,
    qpsize := 2, working_set := w, Cp := tiny_C, Cn := tiny_C, b := [-1, -1],
    y := [1, -1] }

/-- A state of `Solver_B::Solve` on the two points with `Cp = Cn = 1`, `eps = 1e-3` and
`qpsize = 2`. -/
def unit_state (G : List ℚ) (st : List Status) (alpha : List ℚ) (w : List Nat) : Solver_B :=
  { active_size := 2, G := G, alpha_status := st, alpha := alpha, Q := two_point_Q,
    eps := 1 / 1000, active_set := [0, 1], G_bar := [0, 0], l := 2, unshrinked := false,
    qpsize := 2, working_set := w, Cp := 1, Cn := 1, b := [-1, -1], y := [1, -1] }

/-- The state in which the loop of `Solver_B::Solve` is left on the two points with
`Cp = Cn = 1`. -/
def unit_exit : Solver_B :=
  unit_state [0, 0] [Status.FREE, Status.FREE] [1 / 2, 1 / 2] [0]

/-! ## Invariants of `Solver_B` -/

/-- The status that `update_alpha_status` assigns to a coefficient `a` with bound `C`. -/
def status_of (a C : ℚ) : Status :=
  if a ≥ C then Status.UPPER_BOUND
  else if a ≤ 0 then Status.LOWER_BOUND
  else Status.FREE

/-- The arrays `alpha_status`, `alpha` and `y` have `l` entries and every `alpha_status[i]`
is the status of `alpha[i]` with respect to `get_C(i)`. -/
def Solver_B.StatusOk (s : Solver_B) : Prop :=
  s.alpha_status.length = s.l ∧ s.alpha.length = s.l ∧ s.y.length = s.l ∧
    ∀ i, i < s.l → s.alpha_status[i]? = some (status_of (s.alpha.getD i 0) (s.get_C i))

/-- The exact gradient `b[j] + sum_i alpha[i] * Q[i][j]` at position `j`. -/
def Solver_B.gradient (s : Solver_B) (j : Nat) : ℚ :=
  s.b.getD j 0 + ∑ i in Finset.range s.l, s.alpha.getD i 0 * s.Q i j

/-- The sum of `C_i * Q[i][j]` over the positions `i` at the upper bound. -/
def Solver_B.upper_sum (s : Solver_B) (j : Nat) : ℚ :=
  ∑ i in Finset.range s.l, if s.is_upper_bound i then s.get_C i * s.Q i j else 0

/-- The state that the claims about `G` and `G_bar` describe: the arrays have `l` entries,
the bound status is right, every `alpha[i]` lies in `[0, C_i]`, `G_bar[j]` is the sum of
`C_i * Q[i][j]` over the positions at the upper bound, `G[j]` is the exact gradient for
`j < upto`, and no position from `active_size` on is `FREE`. -/
structure Solver_B.Inv (s : Solver_B) (upto : Nat) : Prop where
  status : s.StatusOk
  active_le : s.active_size ≤ s.l
  len_G : s.G.length = s.l
  len_G_bar : s.G_bar.length = s.l
  len_b : s.b.length = s.l
  box : ∀ i, i < s.l → 0 ≤ s.alpha.getD i 0 ∧ s.alpha.getD i 0 ≤ s.get_C i
  G_bar : ∀ j, j < s.l → s.G_bar.getD j 0 = s.upper_sum j
  G : ∀ j, j < upto → s.G.getD j 0 = s.gradient j
  shrunk : ∀ k, s.active_size ≤ k → k < s.l → s.is_free k = false

/-- The contract of the external `solvebqp` used here: for a sub-problem with non-negative
bounds the returned point lies in the box `[0, C]`. -/
def box_solver (solvebqp : BQP → List ℚ) : Prop :=
  ∀ (qp : BQP) (i : Nat), i < qp.n → 0 ≤ qp.C.getD i 0 →
    0 ≤ (solvebqp qp).getD i 0 ∧ (solvebqp qp).getD i 0 ≤ qp.C.getD i 0

/-- The indices stored in the slots of the first pass that are not `INF`. -/
def fin_idx (slots : List (Ext × Nat)) : List Nat :=
  (slots.filter (fun e => e.1 ≠ Ext.pos_inf)).map Prod.snd

/-- The number of FREE variables at the positions below `n`. -/
def Solver_B.free_below (s : Solver_B) (n : Nat) : Nat :=
  ((List.range n).filter (fun i => s.is_free i)).length

/-- What the slots of the first pass of `select_working_set` hold after the positions
below `n`: `q2` slots in descending order, each `INF` or a FREE position below `n` with its
`|G|`, no position twice, all of them when there are at most `q2`, and no FREE position
below `n` that is left out has a smaller `|G|` than a slot. -/
structure Solver_B.FirstInv (s : Solver_B) (q2 n : Nat) (slots : List (Ext × Nat)) : Prop where
  len : slots.length = q2
  sorted : slots.Pairwise (fun e f => Ext.le f.1 e.1 = true)
  src : ∀ e, e ∈ slots → e.1 = Ext.pos_inf ∨
    ∃ i, i < n ∧ s.is_free i = true ∧ e = (Ext.fin |s.G.getD i 0|, i)
  nodup : (fin_idx slots).Nodup
  rest : ∀ j, j < n → s.is_free j = true → j ∉ fin_idx slots →
    ∀ e, e ∈ slots → Ext.le e.1 (Ext.fin |s.G.getD j 0|) = true
  count : (fin_idx slots).length = min q2 (s.free_below n)

/-- A state of `Solver_B` for examples: gradient `G`, status `st`, `active_size` active
positions of `G.length`, working sets of size `qpsize`, `eps = 1e-3`, bounds `C = 1`,
`Q = 0` and `b = G`. -/
def sample_state (G : List ℚ) (st : List Status) (active_size qpsize : Nat) : Solver_B :=
  { active_size := active_size, G := G, alpha_status := st,
    alpha := st.map (fun t => if t = Status.UPPER_BOUND then 1
      else if t = Status.LOWER_BOUND then 0 else 1 / 2),
    Q := fun _ _ => 0, eps := 1 / 1000, active_set := List.range G.length,
    G_bar := List.replicate G.length 0, l := G.length, unshrinked := false,
    qpsize := qpsize, working_set := [], Cp := 1, Cn := 1,
    b := G, y := List.replicate G.length 1 }

/-- The indices stored in the slots of the second pass that are not `-INF`. -/
def low_idx (slots : List (Ext × Nat)) : List Nat :=
  (slots.filter (fun e => e.1 ≠ Ext.neg_inf)).map Prod.snd

/-- What the slots of the second pass of `select_working_set` hold after the positions
below `n`: `q2` slots in ascending order, each `-INF` or a position below `n` that the
pass does not skip with its `|G|`, no position twice, and some slot is at least the `|G|`
of every position below `n` that the pass does not skip. -/
structure Solver_B.SecondInv (s : Solver_B) (max0 : Ext) (q2 n : Nat)
    (slots : List (Ext × Nat)) : Prop where
  len : slots.length = q2
  sorted : slots.Pairwise (fun e f => Ext.le e.1 f.1 = true)
  src : ∀ e, e ∈ slots → e.1 = Ext.neg_inf ∨
    ∃ i, i < n ∧ s.second_pass_skips max0 i = false ∧ e = (Ext.fin |s.G.getD i 0|, i)
  nodup : (low_idx slots).Nodup
  top : ∀ j, j < n → s.second_pass_skips max0 j = false →
    ∃ e, e ∈ slots ∧ Ext.le (Ext.fin |s.G.getD j 0|) e.1 = true

/-- The test of the first loop of `do_shrinking` that ends in the shrink of position `k`:
`k` is at the lower bound with `G[k] > Gm`, or at the upper bound with `G[k] < -Gm`. -/
def Solver_B.shrink_rule (s : Solver_B) (Gm : ℚ) (k : Nat) : Bool :=
  (s.is_lower_bound k && decide (s.G.getD k 0 > Gm)) ||
  (!s.is_lower_bound k && s.is_upper_bound k && decide (s.G.getD k 0 < -Gm))

/-- The rule of the claim, with slack `Gm/2`: at the lower bound with `G[k] > Gm/2`, or at
the upper bound with `G[k] < -Gm/2`. -/
def Solver_B.shrink_rule_half (s : Solver_B) (Gm : ℚ) (k : Nat) : Bool :=
  (s.is_lower_bound k && decide (s.G.getD k 0 > Gm / 2)) ||
  (s.is_upper_bound k && decide (s.G.getD k 0 < -(Gm / 2)))

/-- The arrays `G`, `alpha_status` and `active_set` have `l` entries and
`active_size <= l`. -/
def Solver_B.Lens (s : Solver_B) : Prop :=
  s.G.length = s.l ∧ s.alpha_status.length = s.l ∧ s.active_set.length = s.l ∧
    s.active_size ≤ s.l

/-- The relation between a state `s` and the state `r` after the shrink loop from position
`k` on: `r` holds the entries of `s` re-ordered by the injective map `sigma` (position `p`
of `r` holds what position `sigma p` of `s` held), the positions below `k` and from
`active_size` on stay, the positions that remain active held entries that fail the shrink
test, and the positions between the new and the old `active_size` hold entries that pass
it. -/
structure Solver_B.Shrunk (s r : Solver_B) (Gm : ℚ) (k : Nat) (sigma : Nat → Nat) : Prop where
  maps : ∀ p, p < s.l → sigma p < s.l
  inj : ∀ p q, p < s.l → q < s.l → sigma p = sigma q → p = q
  below : ∀ p, p < k → sigma p = p
  above : ∀ p, s.active_size ≤ p → sigma p = p
  l_eq : r.l = s.l
  lens : r.Lens
  k_le : k ≤ r.active_size
  le : r.active_size ≤ s.active_size
  G : ∀ p, p < s.l → r.G.getD p 0 = s.G.getD (sigma p) 0
  status : ∀ p, p < s.l → r.alpha_status[p]? = s.alpha_status[sigma p]?
  origin : ∀ p, p < s.l → r.active_set[p]? = s.active_set[sigma p]?
  kept : ∀ p, k ≤ p → p < r.active_size →
    k ≤ sigma p ∧ sigma p < s.active_size ∧ s.shrink_rule Gm (sigma p) = false
  moved : ∀ p, r.active_size ≤ p → p < s.active_size →
    k ≤ sigma p ∧ sigma p < s.active_size ∧ s.shrink_rule Gm (sigma p) = true


/-! ## `Solver_SPOC`: the sub-problem of one point

`B`, `nu` and `C` are arrays of `nr_class` entries; `nr_class` is the length of `B`.
`qsort` with `compar` sorts in descending order; the sentinel `D[nr_class] = -INF` makes
the test of the prefix loop false, which is the case of the empty list below.
-/

/-- The call `qsort(D, nr_class, sizeof(double), compar)`: descending order. -/
def compar_sort (B : List ℚ) : List ℚ :=
  B.insertionSort (fun a b => a ≥ b)

/-- The loop `for (r=0;phi<(r+1)*D[r+1];r++) phi += D[r+1]` of `solve_sub_problem`, from
`phi` and `r` with the entries `D[r+1], ..., D[nr_class-1]` still ahead; the result is
`phi` and `r` after the loop. -/
def prefix_loop : ℚ → Nat → List ℚ → ℚ × Nat
  | phi, r, [] => (phi, r)
  | phi, r, d :: rest =>
    if phi < ((r : ℚ) + 1) * d then prefix_loop (phi + d) (r + 1) rest else (phi, r)

/-- The cutoff `phi` of `Solver_SPOC::solve_sub_problem(A, B, C, nu)` after
`phi /= (r+1)`. -/
def Solver_SPOC.cutoff (A : ℚ) (B : List ℚ) (C : ℚ) : ℚ :=
  let D := compar_sort B
  let r := prefix_loop (D.headD 0 - A * C) 0 D.tail
  r.1 / ((r.2 : ℚ) + 1)

/-- `Solver_SPOC::solve_sub_problem(A, B, C, nu)`: the array `nu` after the call. -/
def Solver_SPOC.solve_sub_problem (A : ℚ) (B : List ℚ) (C : ℚ) : List ℚ :=
  B.map (fun b => min 0 (Solver_SPOC.cutoff A B C - b) / A)

/-- The index chosen by the fallback branch of `Solver_SPOC::Solve`:
`i = 0; for (m=1;m<nr_class;m++) if (B[m] > B[i]) i = m`. -/
def Solver_SPOC.steepest (B : List ℚ) : Nat :=
  for_loop 1 B.length (fun m i => if B.getD m 0 > B.getD i 0 then m else i) 0

/-- The statements of `Solver_SPOC::Solve` that compute `nu` for the selected point:
`solve_sub_problem` when `fabs(A) > 0`, else `nu[i] = -C[y[q]]` for the steepest index,
and then the closing adjustment `nu[y[q]] += C[y[q]]`.  `nu` is the array as the previous
pass left it (it is allocated once, before the loop), `Cy` is `C[y[q]]`. -/
def Solver_SPOC.new_nu (A : ℚ) (B : List ℚ) (Cy : ℚ) (y : Nat) (nu : List ℚ) : List ℚ :=
  let nu1 :=
    if |A| > 0 then Solver_SPOC.solve_sub_problem A B Cy
    else nu.set (Solver_SPOC.steepest B) (-Cy)
  nu1.set y (nu1.getD y 0 + Cy)


/-! ## `Solver_MB`: the class-pair buckets

The labels `y`, `yy` and the entries of `start1`, `start2` are `int` values; positions are
natural numbers, and an index that is negative or outside an array leaves the array as it
is.
-/

/-- `Solver_MB::yyy(yi, yyi, yj, yyj)`. -/
def Solver_MB.yyy (yi yyi yj yyj : Int) : Int :=
  let xx0 : Int := 0
  let xx1 := if yi = yj then xx0 + 1 else xx0
  let xx2 := if yyi = yyj then xx1 + 1 else xx1
  let xx3 := if yi = yyj then xx2 - 1 else xx2
  let xx4 := if yj = yyi then xx3 - 1 else xx3
  xx4

/-- The statement `swap(xs[i], xs[j])` for `int` indices. -/
def swap_int {β : Type} (xs : List β) (i j : Int) : List β :=
  if 0 ≤ i ∧ 0 ≤ j then swap_at xs i.toNat j.toNat else xs

/-- The loop `for(i = hi; i > lo; i--) body(i)`. -/
def for_down {σ : Type} (hi lo : Nat) (body : Nat → σ → σ) (s : σ) : σ :=
  ((List.range' (lo + 1) (hi - lo)).reverse).foldl (fun t i => body i t) s

/-- The members of `class Solver_MB` that `swap_index`, `shrink_one`, `unshrink_one` and
`initial_index_table` read or write (with `G`, `alpha_status`, `alpha`, `active_set`,
`G_bar`, `l` and `active_size` of the base class). -/
structure Solver_MB where
  l : Nat
  active_size : Nat
  nr_class : Nat
  y : List Int
  yy : List Int
  G : List ℚ
  alpha_status : List Status
  alpha : List ℚ
  active_set : List Int
  real_i : List Int
  G_bar : List ℚ
  start1 : List Int
  start2 : List Int

/-- `Solver_MB::swap_index(i, j)`. -/
def Solver_MB.swap_index (s : Solver_MB) (i j : Int) : Solver_MB :=
  if i = j then s
  else
    { s with y := swap_int s.y i j
             yy := swap_int s.yy i j
             G := swap_int s.G i j
             alpha_status := swap_int s.alpha_status i j
             alpha := swap_int s.alpha i j
             active_set := swap_int s.active_set i j
             real_i := swap_int s.real_i i j
             G_bar := swap_int s.G_bar i j }

/-- The bucket index `yy[k]*nr_class+y[k]` of the variable at position `k`. -/
def Solver_MB.bucket (s : Solver_MB) (k : Nat) : Int :=
  s.yy.getD k 0 * s.nr_class + s.y.getD k 0

/-- The loop `for (i=lo;i<hi;i++) start[i]--`. -/
def decrement (start : List Int) (lo hi : Nat) : List Int :=
  for_loop lo hi (fun i a => a.set i (a.getD i 0 - 1)) start

/-- The loop `for (i=lo;i<hi;i++) start[i]++`. -/
def increment (start : List Int) (lo hi : Nat) : List Int :=
  for_loop lo hi (fun i a => a.set i (a.getD i 0 + 1)) start

/-- `Solver_MB::shrink_one(k)`. -/
def Solver_MB.shrink_one (s : Solver_MB) (k : Nat) : Solver_MB :=
  let b := s.bucket k
  let t := s.nr_class * s.nr_class
  let s1 : Solver_MB :=
    { s with start1 := decrement s.start1 (b + 1).toNat (t + 1)
             start2 := decrement s.start2 0 (b + 1).toNat }
  let s2 := s1.swap_index k (s1.start1.getD (b + 1).toNat 0)
  let s3 := for_loop (b + 1).toNat t
    (fun i u => u.swap_index (u.start1.getD i 0) (u.start1.getD (i + 1) 0)) s2
  for_loop 0 b.toNat
    (fun i u => u.swap_index (u.start2.getD i 0) (u.start2.getD (i + 1) 0)) s3

/-- `Solver_MB::unshrink_one(k)`. -/
def Solver_MB.unshrink_one (s : Solver_MB) (k : Nat) : Solver_MB :=
  let b := s.bucket k
  let t := s.nr_class * s.nr_class
  let s1 := s.swap_index k (s.start2.getD b.toNat 0)
  let s2 := for_down b.toNat 0
    (fun i u => u.swap_index (u.start2.getD i 0) (u.start2.getD (i - 1) 0)) s1
  let s3 := for_down t (b + 1).toNat
    (fun i u => u.swap_index (u.start1.getD i 0) (u.start1.getD (i - 1) 0)) s2
  { s3 with start1 := increment s3.start1 (b + 1).toNat (t + 1)
            start2 := increment s3.start2 0 (b + 1).toNat }

/-- The record of the variable at position `p`: its entries in the eight arrays that
`swap_index` exchanges. -/
def Solver_MB.record (s : Solver_MB) (p : Nat) :
    Option Int × Option Int × Option ℚ × Option Status × Option ℚ × Option Int ×
      Option Int × Option ℚ :=
  (s.y[p]?, s.yy[p]?, s.G[p]?, s.alpha_status[p]?, s.alpha[p]?, s.active_set[p]?,
    s.real_i[p]?, s.G_bar[p]?)

/-- The eight arrays have `l` entries. -/
def Solver_MB.Lens (s : Solver_MB) : Prop :=
  s.y.length = s.l ∧ s.yy.length = s.l ∧ s.G.length = s.l ∧ s.alpha_status.length = s.l ∧
    s.alpha.length = s.l ∧ s.active_set.length = s.l ∧ s.real_i.length = s.l ∧
    s.G_bar.length = s.l

/-- The partition invariant as the claim words it: `start1` and `start2` have
`nr_class^2 + 1` entries and are non-decreasing, `start1[nr_class^2] = active_size`,
`start2[0] = active_size`, `start2[nr_class^2] = l`, and every position in
`[start1[b], start1[b+1])` or in `[start2[b], start2[b+1])` holds a variable with
`yy[p]*nr_class + y[p] = b`. -/
structure Solver_MB.Partition (s : Solver_MB) : Prop where
  lens : s.Lens
  len1 : s.start1.length = s.nr_class * s.nr_class + 1
  len2 : s.start2.length = s.nr_class * s.nr_class + 1
  mono1 : ∀ b : Nat, b < s.nr_class * s.nr_class → s.start1.getD b 0 ≤ s.start1.getD (b + 1) 0
  mono2 : ∀ b : Nat, b < s.nr_class * s.nr_class → s.start2.getD b 0 ≤ s.start2.getD (b + 1) 0
  last1 : s.start1.getD (s.nr_class * s.nr_class) 0 = s.active_size
  first2 : s.start2.getD 0 0 = s.active_size
  last2 : s.start2.getD (s.nr_class * s.nr_class) 0 = s.l
  label1 : ∀ (b p : Nat), b < s.nr_class * s.nr_class → s.start1.getD b 0 ≤ (p : Int) →
    (p : Int) < s.start1.getD (b + 1) 0 → s.bucket p = (b : Int)
  label2 : ∀ (b p : Nat), b < s.nr_class * s.nr_class → s.start2.getD b 0 ≤ (p : Int) →
    (p : Int) < s.start2.getD (b + 1) 0 → s.bucket p = (b : Int)

/-- The number of active variables of bucket `b`. -/
def Solver_MB.active_count (s : Solver_MB) (b : Nat) : Int :=
  s.start1.getD (b + 1) 0 - s.start1.getD b 0

/-- The number of shrunk variables of bucket `b`. -/
def Solver_MB.shrunk_count (s : Solver_MB) (b : Nat) : Int :=
  s.start2.getD (b + 1) 0 - s.start2.getD b 0

/-- The state `r` holds the records of `s` re-ordered by `pi` (position `p` of `r` holds
the record of position `pi p` of `s`), `pi` is injective on the positions below `l`, and
the tables and sizes are those of `s`. -/
structure Solver_MB.Moved (s r : Solver_MB) (pi : Nat → Nat) : Prop where
  l_eq : r.l = s.l
  nr_eq : r.nr_class = s.nr_class
  act_eq : r.active_size = s.active_size
  start1_eq : r.start1 = s.start1
  start2_eq : r.start2 = s.start2
  lens : r.Lens
  maps : ∀ p, p < s.l → pi p < s.l
  inj : ∀ p q, p < s.l → q < s.l → pi p = pi q → p = q
  records : ∀ p, p < s.l → r.record p = s.record (pi p)

/-- The partition invariant together with `start1[0] = 0`: the active ranges of the buckets
start at position 0, so every active position lies in one of them. -/
def Solver_MB.Rooted (s : Solver_MB) : Prop :=
  s.Partition ∧ s.start1.getD 0 0 = 0

/-- Between `s` and `r` the number of active variables of bucket `b` changes by `d`, the
number of its shrunk variables by `-d`, and the counts of every other bucket stay. -/
def Solver_MB.Counts (s r : Solver_MB) (b : Nat) (d : Int) : Prop :=
  r.active_count b = s.active_count b + d ∧ r.shrunk_count b = s.shrunk_count b - d ∧
    ∀ c : Nat, c < s.nr_class * s.nr_class → c ≠ b →
      r.active_count c = s.active_count c ∧ r.shrunk_count c = s.shrunk_count c

/-- The step of `do_shrinking` that shrinks `k`: `--active_size; shrink_one(k)`. -/
def Solver_MB.shrink_step (s : Solver_MB) (k : Nat) : Solver_MB :=
  Solver_MB.shrink_one { s with active_size := s.active_size - 1 } k

/-- The step of `do_shrinking` that unshrinks `k`: `unshrink_one(k); active_size++`. -/
def Solver_MB.unshrink_step (s : Solver_MB) (k : Nat) : Solver_MB :=
  let r := Solver_MB.unshrink_one s k
  { r with active_size := r.active_size + 1 }

/-- The call `shrink_one(k)` followed by `unshrink_one` of the position `start2[s]` where
the variable landed, `s` the bucket of `k`. -/
def Solver_MB.round_trip (s : Solver_MB) (k : Nat) : Solver_MB :=
  let r := Solver_MB.shrink_one s k
  Solver_MB.unshrink_one r (r.start2.getD (s.bucket k).toNat 0).toNat

/-- Two classes, two variables, both active; the active range of every bucket starts at 1
or later, so position 0 lies in no range. -/
def mb_stray : Solver_MB :=
  { l := 2, active_size := 2, nr_class := 2, y := [1, 0], yy := [0, 1],
    G := [10, 11], alpha_status := [Status.FREE, Status.FREE],
    alpha := [1, 2], active_set := [0, 1], real_i := [0, 0], G_bar := [0, 0],
    start1 := [1, 1, 1, 2, 2], start2 := [2, 2, 2, 2, 2] }

/-- Two classes, two variables, both active; position 0 lies in no range and position 1
is the active range of bucket 1. -/
def mb_stray_pair : Solver_MB :=
  { l := 2, active_size := 2, nr_class := 2, y := [0, 1], yy := [1, 0],
    G := [10, 11], alpha_status := [Status.FREE, Status.FREE],
    alpha := [1, 2], active_set := [0, 1], real_i := [0, 0], G_bar := [0, 0],
    start1 := [1, 1, 2, 2, 2], start2 := [2, 2, 2, 2, 2] }

/-- Two classes, three variables: positions 0 and 1 are the active ranges of buckets 1
and 2, position 2 is the shrunk range of bucket 1. -/
def mb_sample : Solver_MB :=
  { l := 3, active_size := 2, nr_class := 2, y := [1, 0, 1], yy := [0, 1, 0],
    G := [10, 11, 12], alpha_status := [Status.FREE, Status.FREE, Status.LOWER_BOUND],
    alpha := [1, 2, 0], active_set := [0, 1, 2], real_i := [0, 0, 1], G_bar := [0, 0, 0],
    start1 := [0, 0, 1, 2, 2], start2 := [2, 2, 3, 3, 3] }

/-- Three classes with one point each: six variables, all active, one in each bucket
`(i, j)` with `i ≠ j`. -/
def mb_three : Solver_MB :=
  { l := 6, active_size := 6, nr_class := 3, y := [1, 2, 0, 2, 0, 1], yy := [0, 0, 1, 1, 2, 2],
    G := [10, 11, 12, 13, 14, 15],
    alpha_status := [Status.FREE, Status.FREE, Status.FREE, Status.FREE, Status.FREE,
      Status.FREE],
    alpha := [1, 2, 3, 4, 5, 6], active_set := [0, 1, 2, 3, 4, 5],
    real_i := [1, 2, 0, 2, 0, 1], G_bar := [0, 0, 0, 0, 0, 0],
    start1 := [0, 0, 1, 2, 3, 3, 4, 5, 6, 6], start2 := [6, 6, 6, 6, 6, 6, 6, 6, 6, 6] }

/-- The body of the innermost loop of `initial_index_table` for row `i`, on the counters
`p`, `q` and the solver: `yy[p] = i; real_i[p] = q; active_set[p] = p; p++; q++`. -/
def Solver_MB.fill_step (i : Nat) (w : Nat × Nat × Solver_MB) : Nat × Nat × Solver_MB :=
  (w.1 + 1, w.2.1 + 1,
    { w.2.2 with yy := w.2.2.yy.set w.1 (i : Int)
                 real_i := w.2.2.real_i.set w.1 (w.2.1 : Int)
                 active_set := w.2.2.active_set.set w.1 (w.1 : Int) })

/-- The body of the loop over `j` of `initial_index_table` for row `i`: the entries
`i*nr_class+j` of the two tables are set to `p` and `l`, then the bucket is filled if
`i != j` and `q` is advanced by `count[j]` otherwise. -/
def Solver_MB.column_step (count : List Nat) (i j : Nat) (w : Nat × Nat × Solver_MB) :
    Nat × Nat × Solver_MB :=
  let v := w.2.2
  let v1 : Solver_MB :=
    { v with start1 := v.start1.set (i * v.nr_class + j) (w.1 : Int)
             start2 := v.start2.set (i * v.nr_class + j) (v.l : Int) }
  if i ≠ j then
    for_loop 0 (count.getD j 0) (fun _ u => Solver_MB.fill_step i u) (w.1, w.2.1, v1)
  else (w.1, w.2.1 + count.getD j 0, v1)

/-- The body of the loop over `i` of `initial_index_table`, on the counter `p` and the
solver: `q = 0`, then the loop over `j`. -/
def Solver_MB.row_step (count : List Nat) (i : Nat) (w : Nat × Solver_MB) : Nat × Solver_MB :=
  let r := for_loop 0 w.2.nr_class (Solver_MB.column_step count i) (w.1, 0, w.2)
  (r.1, r.2.2)

/-- `Solver_MB::initial_index_table(count)`; `count[j]` is the number of points of class
`j`. -/
def Solver_MB.initial_index_table (s : Solver_MB) (count : List Nat) : Solver_MB :=
  let r := for_loop 0 s.nr_class (Solver_MB.row_step count) (0, s)
  { r.2 with start1 := r.2.start1.set (r.2.nr_class * r.2.nr_class) (r.2.l : Int)
             start2 := r.2.start2.set (r.2.nr_class * r.2.nr_class) (r.2.l : Int) }

/-- The index of the first point of class `j` in class-grouped order:
`count[0] + ... + count[j-1]`. -/
def class_offset (count : List Nat) (j : Nat) : Int :=
  (((count.take j).sum : Nat) : Int)

/-- The first position of bucket `(i, j)`: the points of the classes other than `i'` for
every row `i' < i`, and the points of the classes `j' < j` other than `i`. -/
def bucket_start (count : List Nat) (i j : Nat) : Int :=
  (i : Int) * ((count.sum : Nat) : Int) - class_offset count i + class_offset count j -
    (if i < j then ((count.getD i 0 : Nat) : Int) else 0)

/-- A solver with the arrays of `initial_index_table` allocated and zeroed: `l` entries
in the arrays of the variables and `nr_class^2 + 1` entries in the two tables. -/
def mb_blank (l nr_class : Nat) : Solver_MB :=
  { l := l, active_size := l, nr_class := nr_class, y := List.replicate l 0,
    yy := List.replicate l 0, G := List.replicate l 0,
    alpha_status := List.replicate l Status.LOWER_BOUND, alpha := List.replicate l 0,
    active_set := List.replicate l 0, real_i := List.replicate l 0,
    G_bar := List.replicate l 0, start1 := List.replicate (nr_class * nr_class + 1) 0,
    start2 := List.replicate (nr_class * nr_class + 1) 0 }

/-- The state of `initial_index_table` when the buckets before `(i, j)` are done and the
counter `p` has the value `p`: the tables hold the first positions of these buckets, and
every position below `p` holds its own index in `active_set`, the row of its bucket in `yy`
and the index of its point in class-grouped order in `real_i`. -/
structure Solver_MB.TableInv (count : List Nat) (nr l i j p : Nat) (v : Solver_MB) : Prop where
  nr_eq : v.nr_class = nr
  l_eq : v.l = l
  len1 : v.start1.length = nr * nr + 1
  len2 : v.start2.length = nr * nr + 1
  len_yy : v.yy.length = l
  len_real_i : v.real_i.length = l
  len_active_set : v.active_set.length = l
  tabs : ∀ i2 j2 : Nat, i2 < nr → j2 < nr → i2 * nr + j2 < i * nr + j →
    v.start1[i2 * nr + j2]? = some (bucket_start count i2 j2) ∧
      v.start2[i2 * nr + j2]? = some (l : Int)
  filled : ∀ pos : Nat, pos < p → v.active_set[pos]? = some (pos : Int) ∧
    ∃ i2 j2 k : Nat, i2 < nr ∧ j2 < nr ∧ i2 ≠ j2 ∧ k < count.getD j2 0 ∧
      (pos : Int) = bucket_start count i2 j2 + k ∧ v.yy[pos]? = some (i2 : Int) ∧
      v.real_i[pos]? = some (class_offset count j2 + k)

/-! ## The order of the variables: `active_set` and the write-back -/

/-- The loop "initialize active set" of the `Solve` functions: `active_set[i] = i` for
`i < l`, on a new array of `l` entries. -/
def initial_active_set (l : Nat) : List Nat :=
  for_loop 0 l (fun i a => a.set i i) (List.replicate l 0)

/-- The entries that position `p` holds in the arrays `active_set`, `alpha`, `G`,
`alpha_status` and `y` of `Solver_B`. -/
def Solver_B.record (s : Solver_B) (p : Nat) :
    Option Nat × Option ℚ × Option ℚ × Option Status × Option Int :=
  (s.active_set[p]?, s.alpha[p]?, s.G[p]?, s.alpha_status[p]?, s.y[p]?)

/-- The record of the variable whose original index is `o`: the record of the position at
which `active_set` holds `o`. -/
def Solver_B.origin_record (s : Solver_B) (o : Nat) :
    Option Nat × Option ℚ × Option ℚ × Option Status × Option Int :=
  s.record (s.active_set.indexOf o)

/-- The state after the calls `swap_index(i, j)` of a list of pairs, in order. -/
def Solver_B.swaps (s : Solver_B) (es : List (Nat × Nat)) : Solver_B :=
  es.foldl (fun t e => t.swap_index e.1 e.2) s

/-- The members of `class Solver_B_linear` that `swap_index` and the write-back use; `x`
holds the rows of the data by their number. -/
structure Solver_B_linear where
  l : Nat
  y : List Int
  G : List ℚ
  alpha_status : List Status
  alpha : List ℚ
  b : List ℚ
  active_set : List Nat
  x : List Nat

/-- `Solver_B_linear::swap_index(i, j)`. -/
def Solver_B_linear.swap_index (s : Solver_B_linear) (i j : Nat) : Solver_B_linear :=
  { s with y := swap_at s.y i j
           G := swap_at s.G i j
           alpha_status := swap_at s.alpha_status i j
           alpha := swap_at s.alpha i j
           b := swap_at s.b i j
           active_set := swap_at s.active_set i j
           x := swap_at s.x i j }

/-- The entries that position `p` holds in the arrays `active_set`, `alpha`, `G`,
`alpha_status` and `y` of `Solver_B_linear`. -/
def Solver_B_linear.record (s : Solver_B_linear) (p : Nat) :
    Option Nat × Option ℚ × Option ℚ × Option Status × Option Int :=
  (s.active_set[p]?, s.alpha[p]?, s.G[p]?, s.alpha_status[p]?, s.y[p]?)

/-- The record of the variable whose original index is `o` in `Solver_B_linear`. -/
def Solver_B_linear.origin_record (s : Solver_B_linear) (o : Nat) :
    Option Nat × Option ℚ × Option ℚ × Option Status × Option Int :=
  s.record (s.active_set.indexOf o)

/-- The state after the calls `swap_index(i, j)` of a list of pairs, in order. -/
def Solver_B_linear.swaps (s : Solver_B_linear) (es : List (Nat × Nat)) : Solver_B_linear :=
  es.foldl (fun t e => t.swap_index e.1 e.2) s

/-- The members of `class Solver_SPOC` that `swap_index` and the write-back use; `G`,
`alpha` and `alpha_status` hold `nr_class` entries for every point, and `Q` is the kernel
matrix with its rows and columns in the current order. -/
structure Solver_SPOC where
  l : Nat
  nr_class : Nat
  y : List Int
  active_set : List Nat
  G : List ℚ
  alpha : List ℚ
  alpha_status : List Bool
  Q : Nat → Nat → ℚ

/-- The loop `for (m=0;m<nr_class;m++) swap(X[i*nr_class+m], X[j*nr_class+m])`. -/
def swap_block {β : Type} (xs : List β) (nr_class i j : Nat) : List β :=
  for_loop 0 nr_class (fun m a => swap_at a (i * nr_class + m) (j * nr_class + m)) xs

/-- `Solver_SPOC::swap_index(i, j)`. -/
def Solver_SPOC.swap_index (s : Solver_SPOC) (i j : Nat) : Solver_SPOC :=
  { s with Q := fun a c => s.Q (swap_pos i j a) (swap_pos i j c)
           y := swap_at s.y i j
           active_set := swap_at s.active_set i j
           G := swap_block s.G s.nr_class i j
           alpha := swap_block s.alpha s.nr_class i j
           alpha_status := swap_block s.alpha_status s.nr_class i j }

/-- The entries that point `p` holds in `active_set` and `y` and, for class `m`, in
`alpha`, `G` and `alpha_status` of `Solver_SPOC`. -/
def Solver_SPOC.record (s : Solver_SPOC) (p m : Nat) :
    Option Nat × Option ℚ × Option ℚ × Option Bool × Option Int :=
  (s.active_set[p]?, s.alpha[p * s.nr_class + m]?, s.G[p * s.nr_class + m]?,
    s.alpha_status[p * s.nr_class + m]?, s.y[p]?)

/-- The record for class `m` of the point whose original index is `o` in `Solver_SPOC`. -/
def Solver_SPOC.origin_record (s : Solver_SPOC) (o m : Nat) :
    Option Nat × Option ℚ × Option ℚ × Option Bool × Option Int :=
  s.record (s.active_set.indexOf o) m

/-- The state after the calls `swap_index(i, j)` of a list of pairs, in order. -/
def Solver_SPOC.swaps (s : Solver_SPOC) (es : List (Nat × Nat)) : Solver_SPOC :=
  es.foldl (fun t e => t.swap_index e.1 e.2) s

/-- The loop "put back the solution" of `Solver_SPOC::Solve`:
`alpha_[active_set[i]*nr_class+m] = alpha[i*nr_class+m]` for `i < l`, `m < nr_class`. -/
def put_back_block (l nr_class : Nat) (active_set : List Nat) (alpha alpha_ : List ℚ) :
    List ℚ :=
  for_loop 0 l
    (fun i out =>
      for_loop 0 nr_class
        (fun m o => o.set (active_set.getD i 0 * nr_class + m)
          (alpha.getD (i * nr_class + m) 0)) out) alpha_

/-- The arrays of a `Solver_B` state have `l` entries and `active_set` is a permutation of
`0..l-1`. -/
def Solver_B.Ordered (s : Solver_B) : Prop :=
  s.active_set.Perm (List.range s.l) ∧ s.alpha.length = s.l ∧ s.G.length = s.l ∧
    s.alpha_status.length = s.l ∧ s.y.length = s.l

/-- The arrays of a `Solver_B_linear` state have `l` entries and `active_set` is a
permutation of `0..l-1`. -/
def Solver_B_linear.Ordered (s : Solver_B_linear) : Prop :=
  s.active_set.Perm (List.range s.l) ∧ s.alpha.length = s.l ∧ s.G.length = s.l ∧
    s.alpha_status.length = s.l ∧ s.y.length = s.l

/-- The arrays of a `Solver_SPOC` state have `l` (or `l * nr_class`) entries and
`active_set` is a permutation of `0..l-1`. -/
def Solver_SPOC.Ordered (s : Solver_SPOC) : Prop :=
  s.active_set.Perm (List.range s.l) ∧ s.alpha.length = s.l * s.nr_class ∧
    s.G.length = s.l * s.nr_class ∧ s.alpha_status.length = s.l * s.nr_class ∧
    s.y.length = s.l

/-! ## Rounding to the floating-point formats `double` and `float` -/


/-- The power `2^e` of an integer exponent as a rational. -/
def pow2 (e : Int) : ℚ :=
  if 0 ≤ e then ((2 ^ e.toNat : Nat) : ℚ) else 1 / ((2 ^ (-e).toNat : Nat) : ℚ)

/-- The number of halvings that take `n` below 2, in at most `fuel` steps. -/
def log2_loop : Nat → Nat → Nat
  | 0, _ => 0
  | fuel + 1, n => if n < 2 then 0 else log2_loop fuel (n / 2) + 1

/-- The exponent `e` with `2^e ≤ x < 2^(e+1)` of a positive rational. -/
def floor_log2 (x : ℚ) : Int :=
  let e0 : Int := (log2_loop x.num.toNat x.num.toNat : Int) - (log2_loop x.den x.den : Int)
  if pow2 e0 ≤ x then e0 else e0 - 1

/-- The integer nearest to `r`, the even one of the two when `r` lies half way. -/
def round_half_even (r : ℚ) : Int :=
  if r - ⌊r⌋ < 1 / 2 then ⌊r⌋
  else if 1 / 2 < r - ⌊r⌋ then ⌊r⌋ + 1
  else if ⌊r⌋ % 2 = 0 then ⌊r⌋ else ⌊r⌋ + 1

/-- Rounding of a real value to the nearest number of a binary floating-point format with
`p` significant bits whose smallest positive number is `2^emin` (round to nearest, ties to
even: the default mode of IEEE 754).  Overflow to infinity is not part of the model. -/
def round_to (p : Nat) (emin : Int) (x : ℚ) : ℚ :=
  if x = 0 then 0
  else
    let q := max (floor_log2 |x| - ((p : Int) - 1)) emin
    (round_half_even (x / pow2 q) : ℚ) * pow2 q

/-- The result of an arithmetic operation in `double` whose exact value is `x`. -/
def to_double (x : ℚ) : ℚ := round_to 53 (-1074) x

/-- The conversion `(Qfloat)` to `float` (`typedef float Qfloat`), also the rounding of a
store into a `Qfloat` cell and of an operation in `float`. -/
def to_float (x : ℚ) : ℚ := round_to 24 (-149) x


/-! ## Parameters and their validation -/

/-- The enumerators of `svm_type` and of `kernel_type`.  They are declared in the header
`bsvm.h`, which is not part of the source file, so their values are a parameter of the
model. -/
structure svm_enums where
  C_SVC : Int
  EPSILON_SVR : Int
  KBB : Int
  SPOC : Int
  LINEAR : Int
  POLY : Int
  RBF : Int
  SIGMOID : Int

/-- The members of `struct svm_parameter` that the file reads (`double` members are exact
rationals). -/
structure svm_parameter where
  svm_type : Int
  kernel_type : Int
  degree : ℚ
  gamma : ℚ
  coef0 : ℚ
  cache_size : ℚ
  eps : ℚ
  C : ℚ
  p : ℚ
  shrinking : Int
  qpsize : Int
  Cbegin : ℚ
  Cstep : ℚ

/-- `svm_check_parameterb(prob, param)`: `none` is the `NULL` of an accepted parameter set,
`some msg` the message of the first check that fails.  The argument `prob` is not read by the
function. -/
def svm_check_parameterb (E : svm_enums) (param : svm_parameter) : Option String :=
  let svm_type := param.svm_type
  if svm_type ≠ E.C_SVC ∧ svm_type ≠ E.EPSILON_SVR ∧ svm_type ≠ E.KBB ∧ svm_type ≠ E.SPOC then
    some "unknown svm type"
  else
    let kernel_type := param.kernel_type
    if kernel_type ≠ E.LINEAR ∧ kernel_type ≠ E.POLY ∧ kernel_type ≠ E.RBF ∧
        kernel_type ≠ E.SIGMOID then
      some "unknown kernel type"
    else if kernel_type ≠ E.LINEAR ∧ param.cache_size ≤ 0 then
      some "cache_size <= 0"
    else if param.eps ≤ 0 then
      some "eps <= 0"
    else if param.C ≤ 0 then
      some "C <= 0"
    else if svm_type = E.EPSILON_SVR ∧ param.p < 0 then
      some "p < 0"
    else if param.shrinking ≠ 0 ∧ param.shrinking ≠ 1 then
      some "shrinking != 0 and shrinking != 1"
    else if (svm_type = E.C_SVC ∨ svm_type = E.KBB ∨ svm_type = E.SPOC) ∧ param.qpsize < 2 then
      some "qpsize < 2"
    else if kernel_type = E.LINEAR ∧ param.Cbegin ≤ 0 then
      some "Cbegin <= 0"
    else if kernel_type = E.LINEAR ∧ param.Cstep ≤ 1 then
      some "Cstep <= 1"
    else none

/-- An assignment of pairwise different values to the enumerators. -/
def sample_enums : svm_enums :=
  { C_SVC := 0, EPSILON_SVR := 3, KBB := 1, SPOC := 2,
    LINEAR := 0, POLY := 1, RBF := 2, SIGMOID := 3 }

/-- A parameter set for box regression with the RBF kernel and `qpsize = 1`. -/
def regression_param : svm_parameter :=
  { svm_type := 3, kernel_type := 2, degree := 3, gamma := 1, coef0 := 0, cache_size := 40,
    eps := 1 / 1000, C := 1, p := 1 / 10, shrinking := 1, qpsize := 1, Cbegin := 1 / 2,
    Cstep := 2 }

/-- A parameter set for box classification with the RBF kernel and `cache_size = 0`. -/
def no_cache_param : svm_parameter :=
  { svm_type := 0, kernel_type := 2, degree := 3, gamma := 1, coef0 := 0, cache_size := 0,
    eps := 1 / 1000, C := 1, p := 1 / 10, shrinking := 1, qpsize := 2, Cbegin := 1 / 2,
    Cstep := 2 }

/-- A parameter set for box classification with the linear kernel that passes every check. -/
def linear_param : svm_parameter :=
  { svm_type := 0, kernel_type := 0, degree := 3, gamma := 1, coef0 := 0, cache_size := 0,
    eps := 1 / 1000, C := 1, p := 1 / 10, shrinking := 1, qpsize := 2, Cbegin := 1 / 2,
    Cstep := 2 }

/-- The checks of the validation in the order of the text, each with the condition under
which it fails and its message. -/
def parameter_checks (E : svm_enums) (param : svm_parameter) : List (Bool × String) :=
  [ (decide (param.svm_type ≠ E.C_SVC ∧ param.svm_type ≠ E.EPSILON_SVR ∧
        param.svm_type ≠ E.KBB ∧ param.svm_type ≠ E.SPOC), "unknown svm type"),
    (decide (param.kernel_type ≠ E.LINEAR ∧ param.kernel_type ≠ E.POLY ∧
        param.kernel_type ≠ E.RBF ∧ param.kernel_type ≠ E.SIGMOID), "unknown kernel type"),
    (decide (param.kernel_type ≠ E.LINEAR ∧ param.cache_size ≤ 0), "cache_size <= 0"),
    (decide (param.eps ≤ 0), "eps <= 0"),
    (decide (param.C ≤ 0), "C <= 0"),
    (decide (param.svm_type = E.EPSILON_SVR ∧ param.p < 0), "p < 0"),
    (decide (param.shrinking ≠ 0 ∧ param.shrinking ≠ 1), "shrinking != 0 and shrinking != 1"),
    (decide ((param.svm_type = E.C_SVC ∨ param.svm_type = E.KBB ∨ param.svm_type = E.SPOC) ∧
        param.qpsize < 2), "qpsize < 2"),
    (decide (param.kernel_type = E.LINEAR ∧ param.Cbegin ≤ 0), "Cbegin <= 0"),
    (decide (param.kernel_type = E.LINEAR ∧ param.Cstep ≤ 1), "Cstep <= 1") ]

/-- The message of the first failing check of a list of checks, `none` when none fails. -/
def first_failing (checks : List (Bool × String)) : Option String :=
  (checks.find? (fun c => c.1)).map (fun c => c.2)

/-! ## Feature vectors -/

/-- The record `struct svm_node`: index and value of one component. -/
structure svm_node where
  index : Int
  value : ℚ
deriving DecidableEq, Repr

/-- The index that `px->index` reads when `px` points at the nodes `px` of an array that is
closed by a node of index `-1`: the model keeps the nodes in front of the closing node, and
reading at the end of the list reads the closing node. -/
def node_index : List svm_node → Int
  | [] => -1
  | n :: _ => n.index

/-- `Kernel::dot(px, py)` (the body of `Solver_B_linear::dot` is the same): the loop
`while(px->index != -1 && py->index != -1)` that merges the two arrays by index, started with
the sum `sum`. -/
def dot_loop : List svm_node → List svm_node → ℚ → ℚ
  | [], _, sum => sum
  | _ :: _, [], sum => sum
  | a :: px, b :: py, sum =>
    if a.index ≠ -1 ∧ b.index ≠ -1 then
      if a.index = b.index then dot_loop px py (sum + a.value * b.value)
      else if a.index > b.index then dot_loop (a :: px) py sum
      else dot_loop px (b :: py) sum
    else sum
termination_by px py _ => px.length + py.length

/-- `Kernel::dot(px, py)`. -/
def dot (px py : List svm_node) : ℚ :=
  dot_loop px py 0

/-- The value of the component `k` of a feature vector: the value of its first node of
index `k`, zero when there is none. -/
def component (px : List svm_node) (k : Int) : ℚ :=
  match px.find? (fun n => decide (n.index = k)) with
  | some n => n.value
  | none => 0

/-- The sum, over the nodes of `px` whose index is present in `py`, of the product of the
two values. -/
def common_sum (px py : List svm_node) : ℚ :=
  (px.map (fun n => n.value * component py n.index)).sum

/-- A feature vector as the text of the specification describes it: no node in front of the
closing node has the index `-1`, and the indices increase strictly. -/
def Increasing (px : List svm_node) : Prop :=
  (∀ n ∈ px, n.index ≠ -1) ∧ px.Pairwise (fun a b => a.index < b.index)

instance (px : List svm_node) : Decidable (Increasing px) := by
  unfold Increasing; infer_instance

/-- The first loop of the RBF case of `Kernel::k_function`: the merge of the two arrays,
which adds the squared difference at a common index and the square of a value at an index
of one array only; it returns the sum and what is left of the two arrays. -/
def rbf_merge : List svm_node → List svm_node → ℚ → ℚ × List svm_node × List svm_node
  | [], py, sum => (sum, [], py)
  | a :: px, [], sum => (sum, a :: px, [])
  | a :: px, b :: py, sum =>
    if a.index ≠ -1 ∧ b.index ≠ -1 then
      if a.index = b.index then
        rbf_merge px py (sum + (a.value - b.value) * (a.value - b.value))
      else if a.index > b.index then rbf_merge (a :: px) py (sum + b.value * b.value)
      else rbf_merge px (b :: py) (sum + a.value * a.value)
    else (sum, a :: px, b :: py)
termination_by px py _ => px.length + py.length

/-- The loops `while(x->index != -1) { sum += x->value * x->value; ++x; }` of the RBF case
of `Kernel::k_function`. -/
def rbf_rest : List svm_node → ℚ → ℚ
  | [], sum => sum
  | a :: px, sum => if a.index ≠ -1 then rbf_rest px (sum + a.value * a.value) else sum

/-- The value of `sum` when the RBF case of `Kernel::k_function` reaches its `return`: the
merge loop followed by the two loops over what is left of `x` and of `y`. -/
def rbf_sum (x y : List svm_node) : ℚ :=
  let r := rbf_merge x y 0
  rbf_rest r.2.2 (rbf_rest r.2.1 r.1)

/-- The functions of `math.h` that the kernels call; they are a parameter of the model. -/
structure libm where
  pow : ℚ → ℚ → ℚ
  exp : ℚ → ℚ
  tanh : ℚ → ℚ

/-- The static method `Kernel::k_function(x, y, param)`. -/
def k_function (E : svm_enums) (m : libm) (x y : List svm_node) (param : svm_parameter) : ℚ :=
  if param.kernel_type = E.LINEAR then dot x y
  else if param.kernel_type = E.POLY then m.pow (param.gamma * dot x y + param.coef0) param.degree
  else if param.kernel_type = E.RBF then m.exp (-param.gamma * rbf_sum x y)
  else if param.kernel_type = E.SIGMOID then m.tanh (param.gamma * dot x y + param.coef0)
  else 0

/-- The members of `class Kernel`: the array `x` of feature vectors, the array `x_square`
(`none` is the null pointer of the kernels other than RBF) and the kernel parameters.  The
member `kernel_function` is the function that the constructor selects by `kernel_type`. -/
structure Kernel where
  x : List (List svm_node)
  x_square : Option (List ℚ)
  kernel_type : Int
  degree : ℚ
  gamma : ℚ
  coef0 : ℚ

/-- The loop `for(i=0;i<l;i++) x_square[i] = dot(x[i],x[i])` of the constructor on a new
array. -/
def norms (l : Nat) (x : List (List svm_node)) : List ℚ :=
  for_loop 0 l (fun i a => a.set i (dot (x.getD i []) (x.getD i []))) (List.replicate l 0)

/-- The constructor `Kernel::Kernel(l, x_, param)`; `clone` copies the first `l` pointers. -/
def Kernel.new (E : svm_enums) (l : Nat) (x_ : List (List svm_node)) (param : svm_parameter) :
    Kernel :=
  { x := x_.take l
    x_square := if param.kernel_type = E.RBF then some (norms l (x_.take l)) else none
    kernel_type := param.kernel_type
    degree := param.degree
    gamma := param.gamma
    coef0 := param.coef0 }

/-- `Kernel::kernel_linear(i, j)`. -/
def Kernel.kernel_linear (k : Kernel) (i j : Nat) : ℚ :=
  dot (k.x.getD i []) (k.x.getD j [])

/-- `Kernel::kernel_poly(i, j)`. -/
def Kernel.kernel_poly (m : libm) (k : Kernel) (i j : Nat) : ℚ :=
  m.pow (k.gamma * dot (k.x.getD i []) (k.x.getD j []) + k.coef0) k.degree

/-- The argument `x_square[i]+x_square[j]-2*dot(x[i],x[j])` that `Kernel::kernel_rbf`
multiplies by `-gamma`. -/
def Kernel.rbf_arg (k : Kernel) (i j : Nat) : ℚ :=
  (k.x_square.getD []).getD i 0 + (k.x_square.getD []).getD j 0 -
    2 * dot (k.x.getD i []) (k.x.getD j [])

/-- `Kernel::kernel_rbf(i, j)`. -/
def Kernel.kernel_rbf (m : libm) (k : Kernel) (i j : Nat) : ℚ :=
  m.exp (-k.gamma * k.rbf_arg i j)

/-- `Kernel::kernel_sigmoid(i, j)`. -/
def Kernel.kernel_sigmoid (m : libm) (k : Kernel) (i j : Nat) : ℚ :=
  m.tanh (k.gamma * dot (k.x.getD i []) (k.x.getD j []) + k.coef0)

/-- The call `(this->*kernel_function)(i, j)`: the member function that the `switch` of the
constructor selected.  For a `kernel_type` outside the four cases the pointer is not
initialised; the model returns 0 there. -/
def Kernel.kernel_function (E : svm_enums) (m : libm) (k : Kernel) (i j : Nat) : ℚ :=
  if k.kernel_type = E.LINEAR then k.kernel_linear i j
  else if k.kernel_type = E.POLY then k.kernel_poly m i j
  else if k.kernel_type = E.RBF then k.kernel_rbf m i j
  else if k.kernel_type = E.SIGMOID then k.kernel_sigmoid m i j
  else 0

/-- `Kernel::swap_index(i, j)`: `swap(x[i],x[j]); if(x_square) swap(x_square[i],x_square[j]);`. -/
def Kernel.swap_index (k : Kernel) (i j : Nat) : Kernel :=
  { k with x := swap_at k.x i j
           x_square := k.x_square.map (fun q => swap_at q i j) }

/-! ## The linear solver: feature vectors, weight vector and warm-start path -/

/-- The loop of `sparsifyb` that sets the column elements of row `i` of the dense `r × c`
matrix `x`: one node `(ii, x[i*c+ii])` for every entry that is not zero. -/
def sparsify_row (x : List ℚ) (c i : Nat) : List svm_node :=
  for_loop 0 c
    (fun ii row =>
      if x.getD (i * c + ii) 0 ≠ 0 then row ++ [⟨(ii : Int), x.getD (i * c + ii) 0⟩] else row)
    []

/-- `sparsifyb(x, r, c)`: the rows of the result, each without its closing node. -/
def sparsifyb (x : List ℚ) (r c : Nat) : List (List svm_node) :=
  for_loop 0 r (fun i sparse => sparse.set i (sparsify_row x c i)) (List.replicate r [])

/-- The loop `for (px = x[i]; px->index != -1; px++) sum += w[px->index]*px->value;` of
`Solver_B_linear`.  An index below `-1` is outside the array `w`. -/
def w_loop (w : List ℚ) : List svm_node → ℚ → ℚ
  | [], sum => sum
  | a :: px, sum =>
    if a.index ≠ -1 then w_loop w px (sum + w.getD a.index.toNat 0 * a.value) else sum

/-- The value that `Solver_B_linear` stores in `G[i]`: the loop over the nodes of `x[i]`,
`sum += w[0]` and `G[i] = y[i]*sum + b[i]` (the statements of `reconstruct_gradient` and of
the update of `G` in `Solve`). -/
def linear_gradient (w : List ℚ) (x : List (List svm_node)) (y : List Int) (b : List ℚ)
    (i : Nat) : ℚ :=
  (y.getD i 0 : ℚ) * (w_loop w (x.getD i []) 0 + w.getD 0 0) + b.getD i 0

/-- `Solver_B_linear::reconstruct_gradient()` on the array `G`. -/
def linear_reconstruct_gradient (active_size l : Nat) (w : List ℚ) (x : List (List svm_node))
    (y : List Int) (b : List ℚ) (G : List ℚ) : List ℚ :=
  for_loop active_size l (fun i g => g.set i (linear_gradient w x y b i)) G

/-- The loop `for (px = x[i]; px->index != -1; px++) w[px->index] += yalpha*px->value;`. -/
def add_nodes (yalpha : ℚ) : List svm_node → List ℚ → List ℚ
  | [], w => w
  | a :: px, w =>
    if a.index ≠ -1 then
      add_nodes yalpha px (w.set a.index.toNat (w.getD a.index.toNat 0 + yalpha * a.value))
    else w

/-- The loop over the nodes of a point followed by `w[0] += yalpha`. -/
def add_point (w : List ℚ) (px : List svm_node) (yalpha : ℚ) : List ℚ :=
  (add_nodes yalpha px w).set 0 ((add_nodes yalpha px w).getD 0 0 + yalpha)

/-- The diagonal entry `qp.Q[i*qp.n+i] = dot(Bi, Bi) + 1` of the sub-problem of
`Solver_B_linear::Solve`. -/
def linear_Q_diag (x : List (List svm_node)) (Bi : Nat) : ℚ :=
  dot (x.getD Bi []) (x.getD Bi []) + 1

/-- The entry `qp.Q[i*qp.n+j] = y[Bi]*y[Bj]*(dot(Bi, Bj) + 1)` of the sub-problem of
`Solver_B_linear::Solve`. -/
def linear_Q (x : List (List svm_node)) (y : List Int) (Bi Bj : Nat) : ℚ :=
  (y.getD Bi 0 : ℚ) * (y.getD Bj 0 : ℚ) * (dot (x.getD Bi []) (x.getD Bj []) + 1)

/-- The weight vector of the text: component `k` of the sum over the points `j < l` of
`y_j * alpha_j * (e_0 + x_j)`, where `x_j` has its values at their indices. -/
def weight (l : Nat) (x : List (List svm_node)) (y : List Int) (alpha : List ℚ) (k : Nat) : ℚ :=
  ∑ j in Finset.range l, (y.getD j 0 : ℚ) * alpha.getD j 0 *
    ((if k = 0 then 1 else 0) + component (x.getD j []) (k : Int))

/-- The labels `y[i] = +1` if `prob->y[i] > 0`, else `-1`, that `solve_c_svc` computes. -/
def labels (prob_y : List ℚ) : List Int :=
  prob_y.map (fun v => if v > 0 then 1 else -1)

/-- The value that the last rescale step of `solve_c_svc` (`Cpj*Cstep >= Cp`) gives to a
variable of label `yi` and value `a`: `Cp` or `Cn` at the upper bound, `a * (Cp/Cpj)`
otherwise. -/
def rescale_alpha (yi : Int) (a Cp Cn Cpj Cnj : ℚ) : ℚ :=
  if yi = 1 ∧ a ≥ Cpj then Cp
  else if yi = -1 ∧ a ≥ Cnj then Cn
  else a * (Cp / Cpj)

/-- The body of the loop over the points in the last rescale step of `solve_c_svc`:
the new `alpha[i]` and the contribution of the point to `w`. -/
def rescale_last_body (x : List (List svm_node)) (y : List Int) (Cp Cn Cpj Cnj : ℚ) (i : Nat)
    (s : List ℚ × List ℚ) : List ℚ × List ℚ :=
  (s.1.set i (rescale_alpha (y.getD i 0) (s.1.getD i 0) Cp Cn Cpj Cnj),
    add_point s.2 (x.getD i [])
      ((y.getD i 0 : ℚ) * rescale_alpha (y.getD i 0) (s.1.getD i 0) Cp Cn Cpj Cnj))

/-- The rescale step of `solve_c_svc`: the statements between the call of the solver and
`Cpj *= Cstep`, on the arrays `alpha` and `w` (of `n + 1` entries). -/
def c_svc_rescale (x : List (List svm_node)) (y : List Int) (n l : Nat) (Cp Cn Cstep Cpj Cnj : ℚ)
    (s : List ℚ × List ℚ) : List ℚ × List ℚ :=
  if Cpj * Cstep ≥ Cp then
    for_loop 0 l (rescale_last_body x y Cp Cn Cpj Cnj)
      (s.1, for_loop 0 (n + 1) (fun i w => w.set i 0) s.2)
  else
    (for_loop 0 l (fun i a => a.set i (a.getD i 0 * Cstep)) s.1,
      for_loop 0 (n + 1) (fun i w => w.set i (w.getD i 0 * Cstep)) s.2)

/-- The variables of the path loop of `solve_c_svc` and `solve_epsilon_svr`, with the
list of the pairs `(Cp, Cn)` at which the solver has been called so far. -/
structure path_state where
  alpha : List ℚ
  w : List ℚ
  Cpj : ℚ
  Cnj : ℚ
  calls : List (ℚ × ℚ)

/-- The loop `while (Cpj < Cp)` of `solve_c_svc`.  The call `s.Solve(l, prob->x, minus_ones,
y, alpha, w, Cpj, Cnj, ...)` is the parameter `solver`, a function of the two bounds and of the
arrays `alpha` and `w` that it updates. -/
def c_svc_path (solver : ℚ → ℚ → List ℚ × List ℚ → List ℚ × List ℚ)
    (x : List (List svm_node)) (y : List Int) (n l : Nat) (Cp Cn Cstep : ℚ) :
    Nat → path_state → Option path_state
  | 0, s => if s.Cpj < Cp then none else some s
  | fuel + 1, s =>
    if s.Cpj < Cp then
      c_svc_path solver x y n l Cp Cn Cstep fuel
        { alpha := (c_svc_rescale x y n l Cp Cn Cstep s.Cpj s.Cnj
            (solver s.Cpj s.Cnj (s.alpha, s.w))).1
          w := (c_svc_rescale x y n l Cp Cn Cstep s.Cpj s.Cnj
            (solver s.Cpj s.Cnj (s.alpha, s.w))).2
          Cpj := s.Cpj * Cstep
          Cnj := s.Cnj * Cstep
          calls := s.calls ++ [(s.Cpj, s.Cnj)] }
    else some s

/-- The linear-kernel branch of `solve_c_svc` up to the return of its last call of the
solver: `alpha` and `w` start at zero, the path starts at `Cbegin`, and the last call is made
at `(Cp, Cn)`.  `none`: the loop did not end within `fuel` passes. -/
def solve_c_svc_linear (solver : ℚ → ℚ → List ℚ × List ℚ → List ℚ × List ℚ)
    (x : List (List svm_node)) (prob_y : List ℚ) (n l : Nat) (Cp Cn Cbegin Cstep : ℚ)
    (fuel : Nat) : Option path_state :=
  match c_svc_path solver x (labels prob_y) n l Cp Cn Cstep fuel
      { alpha := for_loop 0 l (fun i a => a.set i 0) (List.replicate l 0)
        w := for_loop 0 (n + 1) (fun i w => w.set i 0) (List.replicate (n + 1) 0)
        Cpj := Cbegin
        Cnj := Cbegin * Cn / Cp
        calls := [] } with
  | none => none
  | some s =>
    some { s with alpha := (solver Cp Cn (s.alpha, s.w)).1
                  w := (solver Cp Cn (s.alpha, s.w)).2
                  calls := s.calls ++ [(Cp, Cn)] }

/-- The body of the loop over the `2l` variables in the last rescale step of
`solve_epsilon_svr`. -/
def svr_rescale_last_body (x : List (List svm_node)) (y : List Int) (C Cj : ℚ) (i : Nat)
    (s : List ℚ × List ℚ) : List ℚ × List ℚ :=
  let a := if s.1.getD i 0 ≥ Cj then C else s.1.getD i 0 * (C / Cj)
  (s.1.set i a, add_point s.2 (x.getD i []) ((y.getD i 0 : ℚ) * a))

/-- The rescale step of `solve_epsilon_svr` on the arrays `alpha2` and `w`; `x` and `y` are
the mirrored arrays of `2l` entries. -/
def svr_rescale (x : List (List svm_node)) (y : List Int) (n l : Nat) (C Cstep Cj : ℚ)
    (s : List ℚ × List ℚ) : List ℚ × List ℚ :=
  if Cj * Cstep ≥ C then
    for_loop 0 (2 * l) (svr_rescale_last_body x y C Cj)
      (s.1, for_loop 0 (n + 1) (fun i w => w.set i 0) s.2)
  else
    (for_loop 0 (2 * l) (fun i a => a.set i (a.getD i 0 * Cstep)) s.1,
      for_loop 0 (n + 1) (fun i w => w.set i (w.getD i 0 * Cstep)) s.2)

/-- The loop `while (Cj < param->C)` of `solve_epsilon_svr`; the solver is called with
`Cp = Cn = Cj`, and the member `Cnj` of the state is not used. -/
def svr_path (solver : ℚ → ℚ → List ℚ × List ℚ → List ℚ × List ℚ)
    (x : List (List svm_node)) (y : List Int) (n l : Nat) (C Cstep : ℚ) :
    Nat → path_state → Option path_state
  | 0, s => if s.Cpj < C then none else some s
  | fuel + 1, s =>
    if s.Cpj < C then
      svr_path solver x y n l C Cstep fuel
        { alpha := (svr_rescale x y n l C Cstep s.Cpj (solver s.Cpj s.Cpj (s.alpha, s.w))).1
          w := (svr_rescale x y n l C Cstep s.Cpj (solver s.Cpj s.Cpj (s.alpha, s.w))).2
          Cpj := s.Cpj * Cstep
          Cnj := s.Cnj
          calls := s.calls ++ [(s.Cpj, s.Cpj)] }
    else some s

/-- The mirrored arrays of `solve_epsilon_svr`: `x[i] = x[i+l] = prob->x[i]`. -/
def mirror_x (l : Nat) (x : List (List svm_node)) : List (List svm_node) :=
  for_loop 0 l (fun i a => (a.set i (x.getD i [])).set (i + l) (x.getD i []))
    (List.replicate (2 * l) [])

/-- The labels of `solve_epsilon_svr`: `y[i] = 1` and `y[i+l] = -1`. -/
def mirror_y (l : Nat) : List Int :=
  for_loop 0 l (fun i a => (a.set i 1).set (i + l) (-1)) (List.replicate (2 * l) 0)

/-- The linear-kernel branch of `solve_epsilon_svr` up to the return of its last call of
the solver.  `none`: the loop did not end within `fuel` passes. -/
def solve_epsilon_svr_linear (solver : ℚ → ℚ → List ℚ × List ℚ → List ℚ × List ℚ)
    (x : List (List svm_node)) (n l : Nat) (C Cbegin Cstep : ℚ) (fuel : Nat) :
    Option path_state :=
  match svr_path solver (mirror_x l x) (mirror_y l) n l C Cstep fuel
      { alpha := for_loop 0 l (fun i a => (a.set i 0).set (i + l) 0) (List.replicate (2 * l) 0)
        w := for_loop 0 (n + 1) (fun i w => w.set i 0) (List.replicate (n + 1) 0)
        Cpj := Cbegin
        Cnj := Cbegin
        calls := [] } with
  | none => none
  | some s =>
    some { s with alpha := (solver C C (s.alpha, s.w)).1
                  w := (solver C C (s.alpha, s.w)).2
                  calls := s.calls ++ [(C, C)] }

/-- The regularisation values of the path: `Cbegin * Cstep^k` for `k < K`. -/
def path_values (Cbegin Cstep : ℚ) (K : Nat) : List ℚ :=
  (List.range K).map (fun k => Cbegin * Cstep ^ k)

/-- A solver that returns its arrays unchanged (used to run the path loop on an example). -/
def idle_solver : ℚ → ℚ → List ℚ × List ℚ → List ℚ × List ℚ :=
  fun _ _ s => s

/-! ## The adapters `BSVC_Q`, `ONE_CLASS_Q`, `BONE_CLASS_Q` and `BSVR_Q` -/

/-- The assignment `data[j] = v` on the buffer of `head[i]`.  A position outside the buffer
is outside the allocated block; the model leaves the buffer as it is. -/
def Cache.write (c : Cache α) (i j : Nat) (v : α) : Cache α :=
  match c.head[i]? with
  | none => c
  | some h => { c with head := c.head.set i { h with data := h.data.set j (some v) } }

/-- The loop `for(int j=start;j<len;j++) data[j] = val(j)` on the buffer of `head[i]`. -/
def Cache.fill (c : Cache α) (i : Nat) (start len : Int) (val : Nat → α) : Cache α :=
  for_loop start.toNat len.toNat (fun j t => t.write i j (val j)) c

/-- The conversion `(int)` of a `double`: the fraction is dropped. -/
def trunc (v : ℚ) : Int :=
  if 0 ≤ v then ⌊v⌋ else ⌈v⌉

/-- The conversion `(int)` of a `double` to the 32-bit `int`.  A value whose integer part is
outside the range of `int` has no defined result in C++; the conversion instruction of x86
gives `INT_MIN`, which is the result taken here. -/
def int_of_double (v : ℚ) : Int :=
  if -(2 ^ 31) ≤ trunc v ∧ trunc v < 2 ^ 31 then trunc v else -(2 ^ 31)

/-- The argument `(int)(param.cache_size*(1<<20))` of the constructor of the cache; the
product of a `double` and a power of two is exact. -/
def cache_bytes (param : svm_parameter) : Int :=
  int_of_double (param.cache_size * 2 ^ 20)

/-- A call of one of the two methods `get_Q` and `swap_index` of an adapter, with the fuel of
the loop of the cache. -/
inductive QCall where
  | get_Q (fuel i : Nat) (len : Int) : QCall
  | swap_index (fuel i j : Nat) : QCall
deriving DecidableEq, Repr

/-- The call addresses positions below `l` and, for `get_Q`, asks for `1 ≤ len ≤ l` values. -/
def QCall.in_range (l : Nat) : QCall → Prop
  | QCall.get_Q _ i len => i < l ∧ 1 ≤ len ∧ len ≤ (l : Int)
  | QCall.swap_index _ i j => i < l ∧ j < l

/-- The fuel given to the call. -/
def QCall.fuel : QCall → Nat
  | QCall.get_Q fuel _ _ => fuel
  | QCall.swap_index fuel _ _ => fuel

/-- The call addresses positions below `l`; `get_Q` may ask for any `len ≤ l`. -/
def QCall.positions_below (l : Nat) : QCall → Prop
  | QCall.get_Q _ i len => i < l ∧ len ≤ (l : Int)
  | QCall.swap_index _ i j => i < l ∧ j < l

/-- The members of `class BSVC_Q`: the `Kernel` base object, `ktype`, the labels `y` and the
cache.  `expr i j` is the value `REAL(ans)[j]` of the R callback for the argument `i+1`
(`expr` and `rho` of the class). -/
structure BSVC_Q where
  kernel : Kernel
  ktype : Int
  expr : Nat → Nat → ℚ
  y : List Int
  cache : Cache ℚ

/-- The constructor `BSVC_Q(prob, param, y_)` for a problem of `l` points. -/
def BSVC_Q.new (E : svm_enums) (sizeof_head_t l : Nat) (x : List (List svm_node))
    (param : svm_parameter) (expr : Nat → Nat → ℚ) (y_ : List Int) : BSVC_Q :=
  { kernel := Kernel.new E l x param
    ktype := param.kernel_type
    expr := expr
    y := y_.take l
    cache := Cache.new sizeof_head_t l (cache_bytes param) }

/-- The value `(Qfloat)y[i]*y[j]*((this->*kernel_function)(i,j) + 1)` that `BSVC_Q::get_Q`
stores at position `j` of column `i`: the cast binds to `y[i]`, so the product of the labels is
a `float`, the sum and the product with it are formed in `double`, and the store into the
`Qfloat` cell rounds to `float`. -/
def BSVC_Q.entry (E : svm_enums) (m : libm) (q : BSVC_Q) (i j : Nat) : ℚ :=
  to_float (to_double (to_float ((q.y.getD i 0 : ℚ) * (q.y.getD j 0 : ℚ)) *
    to_double (q.kernel.kernel_function E m i j + 1)))

/-- The value `(Qfloat)(y[i]*y[j]*REAL(ans)[j])` of the callback branch of `BSVC_Q::get_Q`. -/
def BSVC_Q.callback_entry (q : BSVC_Q) (i j : Nat) : ℚ :=
  to_float (to_double ((q.y.getD i 0 : ℚ) * (q.y.getD j 0 : ℚ) * q.expr i j))

/-- `BSVC_Q::get_Q(i, len)`: the new state and the cells of the buffer that is returned. -/
def BSVC_Q.get_Q (E : svm_enums) (m : libm) (fuel : Nat) (q : BSVC_Q) (i : Nat) (len : Int) :
    Option (BSVC_Q × List (Option ℚ)) :=
  match q.cache.get_data fuel i len with
  | none => none
  | some (c, start) =>
    if start < len ∧ q.ktype ≠ 4 then
      let c1 := c.fill i start len (fun j => q.entry E m i j)
      some ({ q with cache := c1 }, dataAt c1.contents i)
    else if q.ktype = 4 then
      let c1 := c.fill i start len (fun j => q.callback_entry i j)
      some ({ q with cache := c1 }, dataAt c1.contents i)
    else some ({ q with cache := c }, dataAt c.contents i)

/-- `BSVC_Q::swap_index(i, j)`. -/
def BSVC_Q.swap_index (fuel : Nat) (q : BSVC_Q) (i j : Nat) : Option BSVC_Q :=
  match q.cache.swap_index fuel i j with
  | none => none
  | some c => some { q with cache := c, kernel := q.kernel.swap_index i j, y := swap_at q.y i j }

/-- The state after one call on a `BSVC_Q` object, `none` when the call does not return. -/
def BSVC_Q.call (E : svm_enums) (m : libm) (q : BSVC_Q) : QCall → Option BSVC_Q
  | QCall.get_Q fuel i len => (q.get_Q E m fuel i len).map Prod.fst
  | QCall.swap_index fuel i j => q.swap_index fuel i j

/-- The state after a sequence of calls that all return. -/
def BSVC_Q.run (E : svm_enums) (m : libm) (q : BSVC_Q) : List QCall → Option BSVC_Q
  | [] => some q
  | c :: r =>
    match q.call E m c with
    | none => none
    | some q' => BSVC_Q.run E m q' r

/-- The members of `class ONE_CLASS_Q` and of `class BONE_CLASS_Q`: the `Kernel` base object
and the cache. -/
structure ONE_CLASS_Q where
  kernel : Kernel
  cache : Cache ℚ

/-- The constructors `ONE_CLASS_Q(prob, param)` and `BONE_CLASS_Q(prob, param)`. -/
def ONE_CLASS_Q.new (E : svm_enums) (sizeof_head_t l : Nat) (x : List (List svm_node))
    (param : svm_parameter) : ONE_CLASS_Q :=
  { kernel := Kernel.new E l x param
    cache := Cache.new sizeof_head_t l (cache_bytes param) }

/-- The value `(Qfloat)(this->*kernel_function)(i,j)` that `ONE_CLASS_Q::get_Q` stores at
position `j` of column `i`. -/
def ONE_CLASS_Q.entry (E : svm_enums) (m : libm) (q : ONE_CLASS_Q) (i j : Nat) : ℚ :=
  to_float (q.kernel.kernel_function E m i j)

/-- The value `(Qfloat)(this->*kernel_function)(i,j) + 1` that `BONE_CLASS_Q::get_Q` and
`BSVR_Q::get_Q` store at position `j` of the column of `i`: the cast binds to the value of the
kernel, and the sum is formed and stored in `float`. -/
def shifted_entry (E : svm_enums) (m : libm) (k : Kernel) (i j : Nat) : ℚ :=
  to_float (to_float (k.kernel_function E m i j) + 1)

/-- `ONE_CLASS_Q::get_Q(i, len)`. -/
def ONE_CLASS_Q.get_Q (E : svm_enums) (m : libm) (fuel : Nat) (q : ONE_CLASS_Q) (i : Nat)
    (len : Int) : Option (ONE_CLASS_Q × List (Option ℚ)) :=
  match q.cache.get_data fuel i len with
  | none => none
  | some (c, start) =>
    if start < len then
      let c1 := c.fill i start len (fun j => q.entry E m i j)
      some ({ q with cache := c1 }, dataAt c1.contents i)
    else some ({ q with cache := c }, dataAt c.contents i)

/-- `ONE_CLASS_Q::swap_index(i, j)`. -/
def ONE_CLASS_Q.swap_index (fuel : Nat) (q : ONE_CLASS_Q) (i j : Nat) : Option ONE_CLASS_Q :=
  match q.cache.swap_index fuel i j with
  | none => none
  | some c => some { cache := c, kernel := q.kernel.swap_index i j }

/-- `BONE_CLASS_Q::get_Q(i, len)` on the members of a `BONE_CLASS_Q` object. -/
def BONE_CLASS_Q.get_Q (E : svm_enums) (m : libm) (fuel : Nat) (q : ONE_CLASS_Q) (i : Nat)
    (len : Int) : Option (ONE_CLASS_Q × List (Option ℚ)) :=
  match q.cache.get_data fuel i len with
  | none => none
  | some (c, start) =>
    if start < len then
      let c1 := c.fill i start len (fun j => shifted_entry E m q.kernel i j)
      some ({ q with cache := c1 }, dataAt c1.contents i)
    else some ({ q with cache := c }, dataAt c.contents i)

/-- `swap_index(i, j)` on a `BONE_CLASS_Q` object: the class does not override the method, so
the call runs `Kernel::swap_index`. -/
def BONE_CLASS_Q.swap_index (q : ONE_CLASS_Q) (i j : Nat) : ONE_CLASS_Q :=
  { q with kernel := q.kernel.swap_index i j }

/-- The members of `class BSVR_Q`; `buffer` holds the `q` buffers of `2l` cells. -/
structure BSVR_Q where
  kernel : Kernel
  l : Nat
  q : Nat
  cache : Cache ℚ
  sign : List Int
  index : List Nat
  next_buffer : Nat
  buffer : List (List (Option ℚ))

/-- The loop of the constructor of `BSVR_Q` that fills `sign` and `index`. -/
def mirror_table (l : Nat) : List Int × List Nat :=
  for_loop 0 l
    (fun k t => (((t.1.set k 1).set (k + l) (-1)), ((t.2.set k k).set (k + l) k)))
    (List.replicate (2 * l) 0, List.replicate (2 * l) 0)

/-- The constructor `BSVR_Q(prob, param)` for a problem of `l` points; the cells of the new
buffers are not initialised. -/
def BSVR_Q.new (E : svm_enums) (sizeof_head_t l : Nat) (x : List (List svm_node))
    (param : svm_parameter) : BSVR_Q :=
  { kernel := Kernel.new E l x param
    l := l
    q := param.qpsize.toNat
    cache := Cache.new sizeof_head_t l (cache_bytes param)
    sign := (mirror_table l).1
    index := (mirror_table l).2
    next_buffer := 0
    buffer := List.replicate param.qpsize.toNat (List.replicate (2 * l) none) }

/-- `BSVR_Q::swap_index(i, j)`. -/
def BSVR_Q.swap_index (a : BSVR_Q) (i j : Nat) : BSVR_Q :=
  { a with sign := swap_at a.sign i j, index := swap_at a.index i j }

/-- The value `si * sign[j] * v` of the reorder loop for a cell `v` of type `Qfloat`: the
product of the two signs is an `int`, which is converted to `float` for the product with `v`,
and that product is a `float`. -/
def signed_cell (si sj : Int) (v : ℚ) : ℚ :=
  to_float (to_float ((si * sj : Int) : ℚ) * v)

/-- The loop `for(int j=0;j<len;j++) buf[j] = si * sign[j] * data[index[j]]` of
`BSVR_Q::get_Q`; a cell of `data` that was never written gives a cell without value. -/
def BSVR_Q.reorder (a : BSVR_Q) (i : Nat) (len : Int) (data buf : List (Option ℚ)) :
    List (Option ℚ) :=
  for_loop 0 len.toNat
    (fun j b => b.set j ((data.getD (a.index.getD j 0) none).map
      (fun v => signed_cell (a.sign.getD i 0) (a.sign.getD j 0) v)))
    buf

/-- `BSVR_Q::get_Q(i, len)`: the new state, the cells of the buffer that is returned and the
number of calls of `kernel_function` that were made.  `none`: the call of the cache does not
return, or there is no buffer (`q = 0`). -/
def BSVR_Q.get_Q (E : svm_enums) (m : libm) (fuel : Nat) (a : BSVR_Q) (i : Nat) (len : Int) :
    Option (BSVR_Q × List (Option ℚ) × Nat) :=
  match a.cache.get_data fuel (a.index.getD i 0) a.l with
  | none => none
  | some (c, start) =>
    match a.buffer[a.next_buffer]? with
    | none => none
    | some buf =>
      if a.q = 0 then none
      else if start < (a.l : Int) then
        let c1 := c.fill (a.index.getD i 0) 0 a.l
          (fun j => shifted_entry E m a.kernel (a.index.getD i 0) j)
        let buf1 := a.reorder i len (dataAt c1.contents (a.index.getD i 0)) buf
        some ({ a with cache := c1
                       next_buffer := (a.next_buffer + 1) % a.q
                       buffer := a.buffer.set a.next_buffer buf1 }, buf1, a.l)
      else
        let buf1 := a.reorder i len (dataAt c.contents (a.index.getD i 0)) buf
        some ({ a with cache := c
                       next_buffer := (a.next_buffer + 1) % a.q
                       buffer := a.buffer.set a.next_buffer buf1 }, buf1, 0)

/-- The state after one call on a `BSVR_Q` object, `none` when the call does not return. -/
def BSVR_Q.call (E : svm_enums) (m : libm) (a : BSVR_Q) : QCall → Option BSVR_Q
  | QCall.get_Q fuel i len => (a.get_Q E m fuel i len).map Prod.fst
  | QCall.swap_index _ i j => some (a.swap_index i j)

/-- The state after a sequence of calls that all return. -/
def BSVR_Q.run (E : svm_enums) (m : libm) (a : BSVR_Q) : List QCall → Option BSVR_Q
  | [] => some a
  | c :: r =>
    match a.call E m c with
    | none => none
    | some a' => BSVR_Q.run E m a' r

/-- The cached columns of a cache of `l` records hold the values `val`: the cache is well
formed, no column is longer than `l`, every filled cell `j` of column `p` holds `val p j`, and
the budget of the cache covers one full column. -/
structure Cache.Holds (c : Cache ℚ) (l : Nat) (val : Nat → Nat → ℚ) : Prop where
  wf : ∃ L, c.WF L
  len : c.head.length = l
  bound : ∀ p, lenAt c.contents p ≤ (l : Int)
  cells : ∀ p j : Nat, (j : Int) < lenAt c.contents p →
    (dataAt c.contents p)[j]? = some (some (val p j))
  budget : (l : Int) ≤ c.total + c.size

/-- The arrays of the evaluator have `l` entries. -/
def Kernel.Sized (k : Kernel) (l : Nat) : Prop :=
  k.x.length = l ∧ ∀ s, k.x_square = some s → s.length = l

/-- The state of a `BSVC_Q` object of `l` points is coherent: the arrays have `l` entries and
every filled cell of the cache holds the value that `get_Q` computes for it in this state. -/
def BSVC_Q.Coherent (E : svm_enums) (m : libm) (q : BSVC_Q) (l : Nat) : Prop :=
  q.cache.Holds l (q.entry E m) ∧ q.y.length = l ∧ q.kernel.Sized l

/-- The state of a `ONE_CLASS_Q` object of `l` points is coherent. -/
def ONE_CLASS_Q.Coherent (E : svm_enums) (m : libm) (q : ONE_CLASS_Q) (l : Nat) : Prop :=
  q.cache.Holds l (q.entry E m) ∧ q.kernel.Sized l

/-- The arrays `sign` and `index` are the mirrored table of the constructor (sign `+1` and
index `k` at the position `k < l`, sign `-1` and index `k` at the position `k + l`) permuted:
position `j` holds the entries of the position `pi j` of that table, for a one-to-one map
`pi` of the positions below `2l`. -/
def BSVR_Q.Mirrored (a : BSVR_Q) : Prop :=
  ∃ pi : Nat → Nat, (∀ p, p < 2 * a.l → pi p < 2 * a.l) ∧
    (∀ p r, p < 2 * a.l → r < 2 * a.l → pi p = pi r → p = r) ∧
    ∀ j, j < 2 * a.l →
      a.sign.getD j 0 = (if pi j < a.l then 1 else -1) ∧
      a.index.getD j 0 = (if pi j < a.l then pi j else pi j - a.l)

/-- The state of a `BSVR_Q` object is coherent: the cached columns are those of the underlying
points, `sign` and `index` have `2l` entries and are the permuted mirrored table, and there
are `q ≥ 1` buffers of `2l` cells. -/
def BSVR_Q.Coherent (E : svm_enums) (m : libm) (a : BSVR_Q) : Prop :=
  a.cache.Holds a.l (shifted_entry E m a.kernel) ∧
  a.sign.length = 2 * a.l ∧ a.index.length = 2 * a.l ∧ a.Mirrored ∧
  0 < a.q ∧ a.next_buffer < a.q ∧ a.buffer.length = a.q ∧
  ∀ b ∈ a.buffer, b.length = 2 * a.l

/-- Three points on a line, for the examples on the adapters. -/
def line_points : List (List svm_node) :=
  [[⟨1, 1⟩], [⟨1, 2⟩], [⟨1, 3⟩]]

/-- A parameter set with the linear kernel and a cache of one megabyte. -/
def line_param : svm_parameter :=
  { svm_type := 0, kernel_type := 0, degree := 3, gamma := 1, coef0 := 0, cache_size := 1,
    eps := 1 / 1000, C := 1, p := 1 / 10, shrinking := 1, qpsize := 2, Cbegin := 1 / 2,
    Cstep := 2 }

/-- The functions of `math.h` replaced by simple rational functions, for the examples. -/
def sample_libm : libm :=
  { pow := fun a _ => a, exp := fun a => a, tanh := fun a => a }

/-! ## Examples and models for the entry point, the cadence and the sparse rows -/

/-- A parameter set for box classification with the RBF kernel and a cache of one megabyte
that passes every check. -/
def small_cache_param : svm_parameter :=
  { svm_type := 0, kernel_type := 2, degree := 3, gamma := 1, coef0 := 0, cache_size := 1,
    eps := 1 / 1000, C := 1, p := 1 / 10, shrinking := 1, qpsize := 2, Cbegin := 1 / 2,
    Cstep := 2 }

/-- A cache of three records and a budget of 4 values after two requests of length 0 for
record 0 and a request of length 2 for record 1: the second request of length 0 has
inserted `head[0]` into the list while it was linked (`h->len` is 0, so `lru_delete` is
skipped), which leaves `head[0].prev == &head[0]`. -/
def twice_linked_cache : Option (Cache Nat) :=
  (Cache.new 32 3 112 : Cache Nat).run
    [Call.get_data 3 0 0, Call.get_data 3 0 0, Call.get_data 3 1 2]

/-- The state that `twice_linked_cache` evaluates to. -/
def twice_linked_state : Cache Nat :=
  { l := 3
    size := 2
    head := [⟨Ptr.head 0, Ptr.head 1, [], 0⟩, ⟨Ptr.head 0, Ptr.lru_head, [none, none], 2⟩,
             ⟨Ptr.null, Ptr.null, [], 0⟩]
    lru_next := Ptr.head 0
    lru_prev := Ptr.head 1 }

/-- The statements of `Cache::get_data(index, data, len)` in front of the loop
`while(size < more)`: the state after `if(h->len) lru_delete(h)` and the value of
`more = len - h->len`. -/
def Cache.before_loop {α : Type} (c : Cache α) (index : Nat) (len : Int) :
    Option (Cache α × Int) :=
  match c.head[index]? with
  | none => none
  | some h0 =>
    match (if h0.len ≠ 0 then c.lru_delete (Ptr.head index) else some c) with
    | none => none
    | some c1 =>
      match c1.head[index]? with
      | none => none
      | some h1 => some (c1, len - h1.len)

/-- A parameter set with the RBF kernel and a cache of 188 bytes (`cache_size = 188/2^20`),
which leaves a budget of 7 values for 5 records of 32 bytes. -/
def tiny_cache_param : svm_parameter :=
  { svm_type := 0, kernel_type := 2, degree := 3, gamma := 1, coef0 := 0,
    cache_size := 188 / 1048576, eps := 1 / 1000, C := 1, p := 1 / 10, shrinking := 1,
    qpsize := 2, Cbegin := 1 / 2, Cstep := 2 }

/-- A cache of five records with a budget of 7 values after the requests `get_data(0, 5)`
and `get_data(1, 2)` and the exchange `swap_index(0, 1)`: no budget is left. -/
def warm_cache : Cache Nat :=
  { l := 5
    size := 0
    head := [⟨Ptr.lru_head, Ptr.head 1, [none, none], 2⟩,
             ⟨Ptr.head 0, Ptr.lru_head, [none, none, none, none, none], 5⟩,
             ⟨Ptr.null, Ptr.null, [], 0⟩,
             ⟨Ptr.null, Ptr.null, [], 0⟩,
             ⟨Ptr.null, Ptr.null, [], 0⟩]
    lru_next := Ptr.head 0
    lru_prev := Ptr.head 1 }

/-- The array `sparse[i]` that `sparsifyb` builds for row `i`, closing node included: the
nodes of the row and the node `sparse[i][count]` whose index is set to `-1`; the value `v` of
the closing node is what `malloc` left there. -/
def sparsify_array (x : List ℚ) (c i : Nat) (v : ℚ) : List svm_node :=
  sparsify_row x c i ++ [⟨-1, v⟩]

/-- The dot product of the rows `i` and `j` of the dense matrix `x` with `c` columns. -/
def dense_dot (x : List ℚ) (c i j : Nat) : ℚ :=
  ((List.range c).map (fun k => x.getD (i * c + k) 0 * x.getD (j * c + k) 0)).sum

/-- The non-zero entries of row `i` of the dense matrix `x` with `c` columns, as pairs of
column index and value, by increasing column index. -/
def nonzero_entries (x : List ℚ) (c i : Nat) : List svm_node :=
  ((List.range c).filter (fun k => decide (x.getD (i * c + k) 0 ≠ 0))).map
    (fun (k : Nat) => ⟨(k : Int), x.getD (i * c + k) 0⟩)

/-- The test `--counter == 0` of a pass of the loop `while(1)` that starts with the value
`counter`: the pass reloads the counter and, with shrinking enabled, calls
`do_shrinking`. -/
def shrink_due (counter : Int) : Prop :=
  counter - 1 = 0

instance (counter : Int) : Decidable (shrink_due counter) := by
  unfold shrink_due; infer_instance

/-- The first test `select_working_set(q) < eps` of a pass of the loop that starts in state
`s` with the value `counter` holds: the pass reconstructs the gradient and leaves the loop or
sets `counter = 1` (a convergence reset). -/
def convergence_reset {σ : Type} (ops : SolverOps σ) (shrinking : Bool) (s : σ)
    (counter : Int) : Bool :=
  let s1 := if counter - 1 = 0 then (if shrinking then ops.do_shrinking s else s) else s
  let r := ops.select_working_set s1
  decide (r.1 < ops.eps r.2)

/-- None of the first `n` passes of the loop from state `s` and value `counter` is a
convergence reset. -/
def steady {σ : Type} (ops : SolverOps σ) (shrinking : Bool) : Nat → σ → Int → Bool
  | 0, _, _ => true
  | n + 1, s, counter =>
    !convergence_reset ops shrinking s counter &&
      match Solve_iteration ops shrinking s counter with
      | Step.done _ => false
      | Step.next s' counter' => steady ops shrinking n s' counter'

/-- Four variables with `Q = diag(2, 2, 2, 2)`: the diagonal matrix of `two_point_Q`. -/
def four_start : Solver_B :=
  Solver_B.init 4 two_point_Q [-1, -1, -1, -1] [1, 1, 1, 1] [0, 0, 0, 0] 1 1 (1 / 1000) true 3

/-- The loop `for (j=start1[b];j<start1[b+1];j++) G[j] += t*QB_i[real_i[j]]` of the update of
`G` in `Solver_MB::Solve`, for the bucket index `b`; `QB_i` is the column of the changed
variable. -/
def Solver_MB.add_bucket (s : Solver_MB) (QB_i : Int → ℚ) (b : Int) (t : ℚ) (G : List ℚ) :
    List ℚ :=
  for_loop (s.start1.getD b.toNat 0).toNat (s.start1.getD (b + 1).toNat 0).toNat
    (fun j G' => G'.set j (G'.getD j 0 + t * QB_i (s.real_i.getD j 0))) G

/-- The loop `for (j=start1[b];j<start1[b+1];j++) G[j] -= t*QB_i[real_i[j]]`. -/
def Solver_MB.sub_bucket (s : Solver_MB) (QB_i : Int → ℚ) (b : Int) (t : ℚ) (G : List ℚ) :
    List ℚ :=
  for_loop (s.start1.getD b.toNat 0).toNat (s.start1.getD (b + 1).toNat 0).toNat
    (fun j G' => G'.set j (G'.getD j 0 - t * QB_i (s.real_i.getD j 0))) G

/-- The update of `G` in `Solver_MB::Solve` for one changed variable `Bi` of the working set
with `d = qp.x[i] - alpha[Bi]`, labels `y_Bi = y[Bi]`, `yy_Bi = yy[Bi]` and column `QB_i`:
the array `G` after the loops over the buckets. -/
def Solver_MB.update_G_buckets (s : Solver_MB) (QB_i : Int → ℚ) (d : ℚ) (y_Bi yy_Bi : Int) :
    List ℚ :=
  let n : Int := s.nr_class
  let t := 2 * d
  let G1 := s.add_bucket QB_i (yy_Bi * n + y_Bi) t s.G
  let G2 := s.sub_bucket QB_i (y_Bi * n + yy_Bi) t G1
  for_loop 0 s.nr_class
    (fun k G =>
      if (k : Int) ≠ y_Bi ∧ (k : Int) ≠ yy_Bi then
        let G3 := s.add_bucket QB_i ((k : Int) * n + y_Bi) d G
        let G4 := s.add_bucket QB_i (yy_Bi * n + (k : Int)) d G3
        let G5 := s.sub_bucket QB_i (y_Bi * n + (k : Int)) d G4
        s.sub_bucket QB_i ((k : Int) * n + yy_Bi) d G5
      else G) G2

/-- The coefficient `yyy(y[Bi], yy[Bi], y[Bj], yy[Bj])` of the entry `qp.Q[i*qp.n+j]` of the
sub-problem matrix of `Solver_MB::Solve` for the positions `Bi` and `Bj`. -/
def Solver_MB.pair_coefficient (s : Solver_MB) (Bi Bj : Nat) : Int :=
  Solver_MB.yyy (s.y.getD Bi 0) (s.yy.getD Bi 0) (s.y.getD Bj 0) (s.yy.getD Bj 0)

/-- The scalar that the specification lists for the bucket `(a, b)` when the changed variable
has the labels `(yB, yyB)`: `+2` for `(yyB, yB)`, `-2` for `(yB, yyB)`, `+1` for `(k, yB)` and
`(yyB, k)`, `-1` for `(yB, k)` and `(k, yyB)`, and 0 (no update) for every other bucket. -/
def bucket_scalar (yB yyB a b : Nat) : Int :=
  if a = yyB ∧ b = yB then 2
  else if a = yB ∧ b = yyB then -2
  else if b = yB ∨ a = yyB then 1
  else if a = yB ∨ b = yyB then -1
  else 0

/-- A state of `Solver_MB` for three classes with one variable in each of the six buckets
`(yy, y)`, `yy != y`, all active, and the gradient zero. -/
def mb_flat : Solver_MB :=
  { l := 6, active_size := 6, nr_class := 3, y := [1, 2, 0, 2, 0, 1], yy := [0, 0, 1, 1, 2, 2],
    G := [0, 0, 0, 0, 0, 0],
    alpha_status := [Status.FREE, Status.FREE, Status.FREE, Status.FREE, Status.FREE,
      Status.FREE],
    alpha := [1, 2, 3, 4, 5, 6], active_set := [0, 1, 2, 3, 4, 5],
    real_i := [1, 2, 0, 2, 0, 1], G_bar := [0, 0, 0, 0, 0, 0],
    start1 := [0, 0, 1, 2, 3, 3, 4, 5, 6, 6], start2 := [6, 6, 6, 6, 6, 6, 6, 6, 6, 6] }

/-- The value of `r` when the loop `for (r=0;phi<(r+1)*D[r+1];r++)` of
`Solver_SPOC::solve_sub_problem(A, B, C, nu)` ends: the entries `D[0], ..., D[r]` of the
sorted array are the accepted prefix. -/
def Solver_SPOC.last_accepted (A : ℚ) (B : List ℚ) (C : ℚ) : Nat :=
  let D := compar_sort B
  (prefix_loop (D.headD 0 - A * C) 0 D.tail).2

/-- `Solver_SPOC::get_C(i, m)` on the arrays `y` and `C`. -/
def Solver_SPOC.get_C (y : List Int) (C : List ℚ) (i m : Nat) : ℚ :=
  if y.getD i 0 = (m : Int) then C.getD m 0 else 0

/-- The value `max(g, lb)` for a finite `g`. -/
def Ext.max_fin (g : ℚ) : Ext → Ext
  | Ext.neg_inf => Ext.fin g
  | Ext.fin v => Ext.fin (max g v)
  | Ext.pos_inf => Ext.pos_inf

/-- The value `min(g, ub)` for a finite `g`. -/
def Ext.min_fin (g : ℚ) : Ext → Ext
  | Ext.neg_inf => Ext.neg_inf
  | Ext.fin v => Ext.fin (min g v)
  | Ext.pos_inf => Ext.fin g

/-- The difference `lb - ub` of two extended values; in `Solver_SPOC::select_working_set`
`lb` is never `INF` and `ub` is never `-INF`, so that the differences `INF - INF` and
`-INF - (-INF)`, which are not numbers, do not occur (they are given the sign of `lb`). -/
def Ext.sub : Ext → Ext → Ext
  | Ext.fin a, Ext.fin b => Ext.fin (a - b)
  | Ext.fin _, Ext.pos_inf => Ext.neg_inf
  | Ext.fin _, Ext.neg_inf => Ext.pos_inf
  | Ext.neg_inf, _ => Ext.neg_inf
  | Ext.pos_inf, _ => Ext.pos_inf

/-- The inner loop of `Solver_SPOC::select_working_set` for the point at position `i`: the
values of `lb` and `ub` after `for (m=0;m<nr_class;m++,j++)`; the counter `j` has the value
`i*nr_class+m`. -/
def Solver_SPOC.bounds (s : Solver_SPOC) (i : Nat) : Ext × Ext :=
  for_loop 0 s.nr_class
    (fun m p =>
      let g := s.G.getD (i * s.nr_class + m) 0
      (Ext.max_fin g p.1,
        if s.alpha_status.getD (i * s.nr_class + m) false then Ext.min_fin g p.2 else p.2))
    (Ext.neg_inf, Ext.pos_inf)

/-- `Solver_SPOC::select_working_set(q)` for the first `active_size` points: the returned
value `vio_q` and the value of `q` after the call; `q0` is the value of `q` before the call
(the function does not assign `q` when no point has `lb - ub > -INF`). -/
def Solver_SPOC.select_working_set (s : Solver_SPOC) (active_size q0 : Nat) : Ext × Nat :=
  for_loop 0 active_size
    (fun i p =>
      let b := s.bounds i
      if Ext.lt p.1 (Ext.sub b.1 b.2) then (Ext.sub b.1 b.2, i) else p)
    (Ext.neg_inf, q0)

/-- The status that `Solver_SPOC::update_alpha_status(i, m)` stores in
`alpha_status[i*nr_class+m]`: `false` (bound) when `alpha[i*nr_class+m] >= get_C(i, m)`,
else `true` (free). -/
def Solver_SPOC.status_of (s : Solver_SPOC) (C : List ℚ) (i m : Nat) : Bool :=
  if s.alpha.getD (i * s.nr_class + m) 0 ≥ Solver_SPOC.get_C s.y C i m then false else true

/-- The point `i` of a `Solver_SPOC` state is simplex-feasible for the bounds `C`: its label
is a class, the coordinates of its `alpha` vector sum to zero, `alpha[m] <= 0` for
`m != y_i` and `alpha[y_i] <= C[y_i]`, and `alpha_status` is what `update_alpha_status` has
stored. -/
def Solver_SPOC.Feasible (s : Solver_SPOC) (C : List ℚ) (i : Nat) : Prop :=
  (0 ≤ s.y.getD i 0 ∧ s.y.getD i 0 < (s.nr_class : Int)) ∧
  ((List.range s.nr_class).map (fun m => s.alpha.getD (i * s.nr_class + m) 0)).sum = 0 ∧
  (∀ m, m < s.nr_class → s.y.getD i 0 ≠ (m : Int) → s.alpha.getD (i * s.nr_class + m) 0 ≤ 0) ∧
  (∀ m, m < s.nr_class → s.y.getD i 0 = (m : Int) →
    s.alpha.getD (i * s.nr_class + m) 0 ≤ C.getD m 0) ∧
  (∀ m, m < s.nr_class →
    s.alpha_status.getD (i * s.nr_class + m) false = s.status_of C i m)

instance (s : Solver_SPOC) (C : List ℚ) (i : Nat) : Decidable (s.Feasible C i) := by
  unfold Solver_SPOC.Feasible; infer_instance

/-- A state of `Solver_SPOC` with two points and three classes, bounds `C = [1, 1, 1]`. -/
def spoc_pair : Solver_SPOC :=
  { l := 2, nr_class := 3, y := [0, 2], active_set := [0, 1],
    G := [1, 3, 2, 0, 5, 1],
    alpha := [1, -1, 0, 0, -1 / 2, 1 / 2],
    alpha_status := [false, true, false, false, true, true],
    Q := fun _ _ => 0 }

/-- What a call of `lala3` leaves behind: the caller's buffer `alpha` after the call, and the
array that the last call of a solver has filled with its solution (`none` when no solver
was called). -/
structure lala3_result where
  alpha : List ℚ
  solution : Option (List ℚ)
deriving DecidableEq, Repr

/-- `lala3(prob, param, alpha, weighted_C, sii, nr_class, count)` as far as the buffer `alpha`
of the caller is concerned.  The solvers are parameters: `linear` and `svr` are the calls of
`Solver_B_linear::Solve` of the cases `C_SVC` and `EPSILON_SVR` (functions of the two bounds
and of the arrays `alpha` and `w`), `mb` and `spoc` are the calls of `Solver_MB::Solve` and
`Solver_SPOC::Solve` (functions of the array `alpha` that they update).

In the cases `C_SVC` and `EPSILON_SVR` the statement `double *alpha = new double[l]` (or
`new double[2*l]`) declares a local array that hides the parameter: the loops and the solver
work on the local array, whose text is the linear branch of `solve_c_svc` and of
`solve_epsilon_svr`, and there is no branch for the other kernels.  In the cases `KBB` and
`SPOC` the buffer of the caller is zeroed and handed to the solver.  `none`: the loop over
the regularisation path did not end within `fuel` passes. -/
def lala3 (E : svm_enums) (linear svr : ℚ → ℚ → List ℚ × List ℚ → List ℚ × List ℚ)
    (mb spoc : List ℚ → List ℚ) (x : List (List svm_node)) (prob_y : List ℚ) (n l : Nat)
    (param : svm_parameter) (alpha : List ℚ) (nr_class : Nat) (fuel : Nat) :
    Option lala3_result :=
  if param.svm_type = E.C_SVC then
    if param.kernel_type = E.LINEAR then
      match solve_c_svc_linear linear x prob_y n l param.C param.C param.Cbegin param.Cstep
          fuel with
      | none => none
      | some s => some { alpha := alpha, solution := some s.alpha }
    else some { alpha := alpha, solution := none }
  else if param.svm_type = E.EPSILON_SVR then
    if param.kernel_type = E.LINEAR then
      match solve_epsilon_svr_linear svr x n l param.C param.Cbegin param.Cstep fuel with
      | none => none
      | some s => some { alpha := alpha, solution := some s.alpha }
    else some { alpha := alpha, solution := none }
  else if param.svm_type = E.KBB then
    let ll := l * (nr_class - 1)
    let alpha0 := for_loop 0 ll (fun i a => a.set i 0) alpha
    some { alpha := mb alpha0, solution := some (mb alpha0) }
  else if param.svm_type = E.SPOC then
    let alpha0 := for_loop 0 l
      (fun i a => for_loop 0 nr_class (fun m a' => a'.set (i * nr_class + m) 0) a) alpha
    some { alpha := spoc alpha0, solution := some (spoc alpha0) }
  else some { alpha := alpha, solution := none }

/-- An example for the solver parameters `linear` and `svr` of `lala3`: a function that
stores `1/2` in every entry of `alpha` and leaves `w` as it is (for the single point
`x = (1)` with label `+1` under the linear kernel with bias, `Q = 2` and linear term `-1`,
the value `1/2` is the minimiser for every bound `C ≥ 1/2`). -/
def half_solver : ℚ → ℚ → List ℚ × List ℚ → List ℚ × List ℚ :=
  fun _ _ s => (s.1.map (fun _ => 1 / 2), s.2)

/-- An example for the solver parameters `mb` and `spoc` of `lala3`: a function that stores
`1/4` in every entry of the array it is given. -/
def quarter_solver : List ℚ → List ℚ :=
  fun a => a.map (fun _ => 1 / 4)

/-- A parameter set for box regression with the linear kernel that passes every check. -/
def linear_regression_param : svm_parameter :=
  { svm_type := 3, kernel_type := 0, degree := 3, gamma := 1, coef0 := 0, cache_size := 0,
    eps := 1 / 1000, C := 1, p := 1 / 10, shrinking := 1, qpsize := 2, Cbegin := 1 / 2,
    Cstep := 2 }

/-- A parameter set for the multi-class formulation `KBB` with the RBF kernel. -/
def kbb_param : svm_parameter :=
  { svm_type := 1, kernel_type := 2, degree := 3, gamma := 1, coef0 := 0, cache_size := 1,
    eps := 1 / 1000, C := 1, p := 1 / 10, shrinking := 1, qpsize := 2, Cbegin := 1 / 2,
    Cstep := 2 }

/-- A parameter set for the multi-class formulation `SPOC` with the RBF kernel. -/
def spoc_param : svm_parameter :=
  { svm_type := 2, kernel_type := 2, degree := 3, gamma := 1, coef0 := 0, cache_size := 1,
    eps := 1 / 1000, C := 1, p := 1 / 10, shrinking := 1, qpsize := 2, Cbegin := 1 / 2,
    Cstep := 2 }

/-! ## Samples and runs for the claims on the adapters -/

/-- A parameter set with the callback kernel (`kernel_type = 4`). -/
def callback_param : svm_parameter :=
  { svm_type := 0, kernel_type := 4, degree := 3, gamma := 1, coef0 := 0, cache_size := 1,
    eps := 1 / 1000, C := 1, p := 1 / 10, shrinking := 1, qpsize := 2, Cbegin := 1 / 2,
    Cstep := 2 }

/-- A parameter set with a cache of 2048 megabytes. -/
def huge_cache_param : svm_parameter :=
  { svm_type := 0, kernel_type := 2, degree := 3, gamma := 1, coef0 := 0, cache_size := 2048,
    eps := 1 / 1000, C := 1, p := 1 / 10, shrinking := 1, qpsize := 2, Cbegin := 1 / 2,
    Cstep := 2 }

/-- The state after one call on a `ONE_CLASS_Q` object, `none` when the call does not
return. -/
def ONE_CLASS_Q.call (E : svm_enums) (m : libm) (q : ONE_CLASS_Q) : QCall → Option ONE_CLASS_Q
  | QCall.get_Q fuel i len => (q.get_Q E m fuel i len).map Prod.fst
  | QCall.swap_index fuel i j => q.swap_index fuel i j

/-- The state after a sequence of calls that all return. -/
def ONE_CLASS_Q.run (E : svm_enums) (m : libm) (q : ONE_CLASS_Q) : List QCall → Option ONE_CLASS_Q
  | [] => some q
  | c :: r =>
    match q.call E m c with
    | none => none
    | some q' => ONE_CLASS_Q.run E m q' r
/-! ## The calls of `do_shrinking` and a slow stand-in for `solvebqp` -/

/-- The operations of a loop on a state that carries the number of calls of `do_shrinking`
made so far; only `do_shrinking` changes the number. -/
def counted {σ : Type} (ops : SolverOps σ) : SolverOps (σ × Nat) :=
  { reload := fun p => ops.reload p.1
    do_shrinking := fun p => (ops.do_shrinking p.1, p.2 + 1)
    select_working_set := fun p =>
      ((ops.select_working_set p.1).1, ((ops.select_working_set p.1).2, p.2))
    reconstruct_gradient := fun p => (ops.reconstruct_gradient p.1, p.2)
    full_active := fun p => (ops.full_active p.1, p.2)
    recheck_failed := fun p => (ops.recheck_failed p.1, p.2)
    update := fun p => (ops.update p.1, p.2)
    eps := fun p => ops.eps p.1 }

/-- The state of `Solver_B::Solve` before its loop on the two points with
`Cp = Cn = tiny_C`, `eps = 1e-3`, `qpsize = 2` and shrinking enabled. -/
def tiny_init : Solver_B :=
  Solver_B.init 2 two_point_Q [-1, -1] [1, -1] [0, 0] tiny_C tiny_C (1 / 1000) true 2

/-- The order of a state of a run of `Solver_B::Solve` on `l` points with labels `y_` and
linear term `b_`: the arrays have `l` entries, `active_set` is a permutation of `0..l-1`,
and position `p` of `y` and of `b` holds the entry of the variable `active_set[p]`. -/
def Solver_B.Tracks (s : Solver_B) (l : Nat) (y_ : List Int) (b_ : List ℚ) : Prop :=
  (s.Ordered ∧ s.l = l ∧ s.active_size ≤ s.l ∧
    ∀ p, p < l → s.y.getD p 0 = y_.getD (s.active_set.getD p 0) 0) ∧
  s.b.length = l ∧ ∀ p, p < l → s.b.getD p 0 = b_.getD (s.active_set.getD p 0) 0

/-! ## The validation with the comparisons of IEEE 754 -/

/-- A value of type `double` as far as a comparison can tell: a number or NaN (a comparison
with an infinity behaves like one with a large number). -/
inductive Double where
  | nan : Double
  | num (v : ℚ) : Double
deriving DecidableEq

/-- The comparison `x <= c` of IEEE 754: false when `x` is NaN. -/
def Double.le (x : Double) (c : ℚ) : Bool :=
  match x with
  | Double.nan => false
  | Double.num v => decide (v ≤ c)

/-- The comparison `x < c` of IEEE 754: false when `x` is NaN. -/
def Double.lt (x : Double) (c : ℚ) : Bool :=
  match x with
  | Double.nan => false
  | Double.num v => decide (v < c)

/-- The value is NaN or a number above `c`. -/
def Double.above (x : Double) (c : ℚ) : Prop :=
  match x with
  | Double.nan => True
  | Double.num v => c < v

/-- The loop `for (r=0;phi<(r+1)*D[r+1];r++) phi += D[r+1]` of `solve_sub_problem` with the
product and the sum rounded to `double`. -/
def prefix_loop_double : ℚ → Nat → List ℚ → ℚ × Nat
  | phi, r, [] => (phi, r)
  | phi, r, d :: rest =>
    if phi < to_double (((r : ℚ) + 1) * d) then
      prefix_loop_double (to_double (phi + d)) (r + 1) rest
    else (phi, r)

/-- The value of `r` at the end of the loop in `double` arithmetic (`phi = D[0] - A*C` with
the product and the difference rounded). -/
def Solver_SPOC.last_accepted_double (A : ℚ) (B : List ℚ) (C : ℚ) : Nat :=
  let D := compar_sort B
  (prefix_loop_double (to_double (D.headD 0 - to_double (A * C))) 0 D.tail).2

/-- The cutoff `phi` after `phi /= (r+1)` in `double` arithmetic. -/
def Solver_SPOC.cutoff_double (A : ℚ) (B : List ℚ) (C : ℚ) : ℚ :=
  let D := compar_sort B
  let r := prefix_loop_double (to_double (D.headD 0 - to_double (A * C))) 0 D.tail
  to_double (r.1 / ((r.2 : ℚ) + 1))

/-- `Solver_SPOC::solve_sub_problem(A, B, C, nu)` in `double` arithmetic:
`nu[r] = min((double)0, phi - B[r])/A` with the difference and the quotient rounded. -/
def Solver_SPOC.solve_sub_problem_double (A : ℚ) (B : List ℚ) (C : ℚ) : List ℚ :=
  B.map (fun b => to_double (min 0 (to_double (Solver_SPOC.cutoff_double A B C - b)) / A))

/-- The statements of `Solver_SPOC::Solve` that compute `nu` for the selected point, in
`double` arithmetic; the closing adjustment `nu[y[q]] += C[y[q]]` rounds the sum. -/
def Solver_SPOC.new_nu_double (A : ℚ) (B : List ℚ) (Cy : ℚ) (y : Nat) (nu : List ℚ) :
    List ℚ :=
  let nu1 :=
    if |A| > 0 then Solver_SPOC.solve_sub_problem_double A B Cy
    else nu.set (Solver_SPOC.steepest B) (-Cy)
  nu1.set y (to_double (nu1.getD y 0 + Cy))

/-- The number `1e-20` as a `double`. -/
def tiny_double : ℚ := to_double (1 / 100000000000000000000)

/-! ## The warm-start path with rounded arithmetic -/

/-- The loop `for (px = x[i]; px->index != -1; px++) w[px->index] += yalpha*px->value;` with
the product and the sum rounded by `rd`. -/
def add_nodes_rounded (rd : ℚ → ℚ) (yalpha : ℚ) : List svm_node → List ℚ → List ℚ
  | [], w => w
  | a :: px, w =>
    if a.index ≠ -1 then
      add_nodes_rounded rd yalpha px
        (w.set a.index.toNat (rd (w.getD a.index.toNat 0 + rd (yalpha * a.value))))
    else w

/-- The loop over the nodes of a point followed by `w[0] += yalpha`, rounded by `rd`. -/
def add_point_rounded (rd : ℚ → ℚ) (w : List ℚ) (px : List svm_node) (yalpha : ℚ) : List ℚ :=
  (add_nodes_rounded rd yalpha px w).set 0
    (rd ((add_nodes_rounded rd yalpha px w).getD 0 0 + yalpha))

/-- The value that the last rescale step of `solve_c_svc` gives to a variable, with the
quotient `Cp/Cpj` and the product rounded by `rd`. -/
def rescale_alpha_rounded (rd : ℚ → ℚ) (yi : Int) (a Cp Cn Cpj Cnj : ℚ) : ℚ :=
  if yi = 1 ∧ a ≥ Cpj then Cp
  else if yi = -1 ∧ a ≥ Cnj then Cn
  else rd (a * rd (Cp / Cpj))

/-- The body of the loop over the points in the last rescale step of `solve_c_svc`, rounded
by `rd` (`yalpha = y[i]*alpha[i]` is the product with `+1` or `-1`). -/
def rescale_last_body_rounded (rd : ℚ → ℚ) (x : List (List svm_node)) (y : List Int)
    (Cp Cn Cpj Cnj : ℚ) (i : Nat) (s : List ℚ × List ℚ) : List ℚ × List ℚ :=
  (s.1.set i (rescale_alpha_rounded rd (y.getD i 0) (s.1.getD i 0) Cp Cn Cpj Cnj),
    add_point_rounded rd s.2 (x.getD i [])
      (rd ((y.getD i 0 : ℚ) *
        rescale_alpha_rounded rd (y.getD i 0) (s.1.getD i 0) Cp Cn Cpj Cnj)))

/-- The rescale step of `solve_c_svc` with every operation rounded by `rd`. -/
def c_svc_rescale_rounded (rd : ℚ → ℚ) (x : List (List svm_node)) (y : List Int) (n l : Nat)
    (Cp Cn Cstep Cpj Cnj : ℚ) (s : List ℚ × List ℚ) : List ℚ × List ℚ :=
  if rd (Cpj * Cstep) ≥ Cp then
    for_loop 0 l (rescale_last_body_rounded rd x y Cp Cn Cpj Cnj)
      (s.1, for_loop 0 (n + 1) (fun i w => w.set i 0) s.2)
  else
    (for_loop 0 l (fun i a => a.set i (rd (a.getD i 0 * Cstep))) s.1,
      for_loop 0 (n + 1) (fun i w => w.set i (rd (w.getD i 0 * Cstep))) s.2)

/-- The loop `while (Cpj < Cp)` of `solve_c_svc` with every operation rounded by `rd`; for
`rd = to_double` this is the loop in `double` arithmetic. -/
def c_svc_path_rounded (rd : ℚ → ℚ) (solver : ℚ → ℚ → List ℚ × List ℚ → List ℚ × List ℚ)
    (x : List (List svm_node)) (y : List Int) (n l : Nat) (Cp Cn Cstep : ℚ) :
    Nat → path_state → Option path_state
  | 0, s => if s.Cpj < Cp then none else some s
  | fuel + 1, s =>
    if s.Cpj < Cp then
      c_svc_path_rounded rd solver x y n l Cp Cn Cstep fuel
        { alpha := (c_svc_rescale_rounded rd x y n l Cp Cn Cstep s.Cpj s.Cnj
            (solver s.Cpj s.Cnj (s.alpha, s.w))).1
          w := (c_svc_rescale_rounded rd x y n l Cp Cn Cstep s.Cpj s.Cnj
            (solver s.Cpj s.Cnj (s.alpha, s.w))).2
          Cpj := rd (s.Cpj * Cstep)
          Cnj := rd (s.Cnj * Cstep)
          calls := s.calls ++ [(s.Cpj, s.Cnj)] }
    else some s

/-- The linear-kernel branch of `solve_c_svc` with every operation rounded by `rd`
(`Cnj = param->Cbegin*Cn/Cp` is a product followed by a quotient). -/
def solve_c_svc_linear_rounded (rd : ℚ → ℚ)
    (solver : ℚ → ℚ → List ℚ × List ℚ → List ℚ × List ℚ)
    (x : List (List svm_node)) (prob_y : List ℚ) (n l : Nat) (Cp Cn Cbegin Cstep : ℚ)
    (fuel : Nat) : Option path_state :=
  match c_svc_path_rounded rd solver x (labels prob_y) n l Cp Cn Cstep fuel
      { alpha := for_loop 0 l (fun i a => a.set i 0) (List.replicate l 0)
        w := for_loop 0 (n + 1) (fun i w => w.set i 0) (List.replicate (n + 1) 0)
        Cpj := Cbegin
        Cnj := rd (rd (Cbegin * Cn) / Cp)
        calls := [] } with
  | none => none
  | some s =>
    some { s with alpha := (solver Cp Cn (s.alpha, s.w)).1
                  w := (solver Cp Cn (s.alpha, s.w)).2
                  calls := s.calls ++ [(Cp, Cn)] }

/-- The body of the loop over the `2l` variables in the last rescale step of
`solve_epsilon_svr`, rounded by `rd`. -/
def svr_rescale_last_body_rounded (rd : ℚ → ℚ) (x : List (List svm_node)) (y : List Int)
    (C Cj : ℚ) (i : Nat) (s : List ℚ × List ℚ) : List ℚ × List ℚ :=
  let a := if s.1.getD i 0 ≥ Cj then C else rd (s.1.getD i 0 * rd (C / Cj))
  (s.1.set i a, add_point_rounded rd s.2 (x.getD i []) (rd ((y.getD i 0 : ℚ) * a)))

/-- The rescale step of `solve_epsilon_svr` with every operation rounded by `rd`. -/
def svr_rescale_rounded (rd : ℚ → ℚ) (x : List (List svm_node)) (y : List Int) (n l : Nat)
    (C Cstep Cj : ℚ) (s : List ℚ × List ℚ) : List ℚ × List ℚ :=
  if rd (Cj * Cstep) ≥ C then
    for_loop 0 (2 * l) (svr_rescale_last_body_rounded rd x y C Cj)
      (s.1, for_loop 0 (n + 1) (fun i w => w.set i 0) s.2)
  else
    (for_loop 0 (2 * l) (fun i a => a.set i (rd (a.getD i 0 * Cstep))) s.1,
      for_loop 0 (n + 1) (fun i w => w.set i (rd (w.getD i 0 * Cstep))) s.2)

/-- The loop `while (Cj < param->C)` of `solve_epsilon_svr` with every operation rounded by
`rd`. -/
def svr_path_rounded (rd : ℚ → ℚ) (solver : ℚ → ℚ → List ℚ × List ℚ → List ℚ × List ℚ)
    (x : List (List svm_node)) (y : List Int) (n l : Nat) (C Cstep : ℚ) :
    Nat → path_state → Option path_state
  | 0, s => if s.Cpj < C then none else some s
  | fuel + 1, s =>
    if s.Cpj < C then
      svr_path_rounded rd solver x y n l C Cstep fuel
        { alpha := (svr_rescale_rounded rd x y n l C Cstep s.Cpj
            (solver s.Cpj s.Cpj (s.alpha, s.w))).1
          w := (svr_rescale_rounded rd x y n l C Cstep s.Cpj
            (solver s.Cpj s.Cpj (s.alpha, s.w))).2
          Cpj := rd (s.Cpj * Cstep)
          Cnj := s.Cnj
          calls := s.calls ++ [(s.Cpj, s.Cpj)] }
    else some s

/-- The linear-kernel branch of `solve_epsilon_svr` with every operation rounded by `rd`. -/
def solve_epsilon_svr_linear_rounded (rd : ℚ → ℚ)
    (solver : ℚ → ℚ → List ℚ × List ℚ → List ℚ × List ℚ)
    (x : List (List svm_node)) (n l : Nat) (C Cbegin Cstep : ℚ) (fuel : Nat) :
    Option path_state :=
  match svr_path_rounded rd solver (mirror_x l x) (mirror_y l) n l C Cstep fuel
      { alpha := for_loop 0 l (fun i a => (a.set i 0).set (i + l) 0) (List.replicate (2 * l) 0)
        w := for_loop 0 (n + 1) (fun i w => w.set i 0) (List.replicate (n + 1) 0)
        Cpj := Cbegin
        Cnj := Cbegin
        calls := [] } with
  | none => none
  | some s =>
    some { s with alpha := (solver C C (s.alpha, s.w)).1
                  w := (solver C C (s.alpha, s.w)).2
                  calls := s.calls ++ [(C, C)] }

/-- The arrays `alpha` and `w` after the path of the text for `solve_c_svc`: from the arrays
`s`, for `k = k0, ..., k0 + m - 1` in this order the solver is called at the bounds
`(Cbegin*Cstep^k, Cn0*Cstep^k)` and its result is rescaled. -/
def spec_c_svc_steps (solver : ℚ → ℚ → List ℚ × List ℚ → List ℚ × List ℚ)
    (x : List (List svm_node)) (y : List Int) (n l : Nat) (Cp Cn Cstep Cbegin Cn0 : ℚ) :
    Nat → Nat → List ℚ × List ℚ → List ℚ × List ℚ
  | 0, _, s => s
  | m + 1, k, s =>
    spec_c_svc_steps solver x y n l Cp Cn Cstep Cbegin Cn0 m (k + 1)
      (c_svc_rescale x y n l Cp Cn Cstep (Cbegin * Cstep ^ k) (Cn0 * Cstep ^ k)
        (solver (Cbegin * Cstep ^ k) (Cn0 * Cstep ^ k) s))

/-- The arrays `alpha2` and `w` after the path of the text for `solve_epsilon_svr`: for
`k = k0, ..., k0 + m - 1` the solver is called at `Cbegin*Cstep^k` and its result is
rescaled. -/
def spec_svr_steps (solver : ℚ → ℚ → List ℚ × List ℚ → List ℚ × List ℚ)
    (x : List (List svm_node)) (y : List Int) (n l : Nat) (C Cstep Cbegin : ℚ) :
    Nat → Nat → List ℚ × List ℚ → List ℚ × List ℚ
  | 0, _, s => s
  | m + 1, k, s =>
    spec_svr_steps solver x y n l C Cstep Cbegin m (k + 1)
      (svr_rescale x y n l C Cstep (Cbegin * Cstep ^ k)
        (solver (Cbegin * Cstep ^ k) (Cbegin * Cstep ^ k) s))

/-- A stand-in for the solver that adds the bound `Cp` of the call to `alpha[0]`, so that
the result records the calls and their order. -/
def tally_solver : ℚ → ℚ → List ℚ × List ℚ → List ℚ × List ℚ :=
  fun Cp _ s => (s.1.set 0 (s.1.getD 0 0 + Cp), s.2)


/-! ## The loop of `Solver_B_linear::Solve` -/

/-- The members of a `Solver_B_linear` object during `Solve`.  `core` holds the arrays that
`swap_index` exchanges, with the array of pointers `x` as the numbers of the rows it points
to; `rows` is the caller's array `x_`, which is only read; `active_size`, `eps`,
`unshrinked`, `qpsize` and `working_set` are the members inherited from `Solver_B`; `Cp`,
`Cn` and `w` are members of the class.  The members `Q` and `G_bar` of the base class are
not used by `Solver_B_linear`. -/
structure Solver_B_linear_state where
  core : Solver_B_linear
  rows : List (List svm_node)
  active_size : Nat
  eps : ℚ
  unshrinked : Bool
  qpsize : Nat
  working_set : List Nat
  Cp : ℚ
  Cn : ℚ
  w : List ℚ

/-- The array `x` of the object: the row that `x[i]` points to, for every position `i`. -/
def Solver_B_linear_state.x (s : Solver_B_linear_state) : List (List svm_node) :=
  s.core.x.map (fun r => s.rows.getD r [])

/-- `Solver_B_linear::get_C(i)`. -/
def Solver_B_linear_state.get_C (s : Solver_B_linear_state) (i : Nat) : ℚ :=
  if s.core.y.getD i 0 > 0 then s.Cp else s.Cn

/-- `Solver_B::update_alpha_status(i)` on a `Solver_B_linear` object (the call `get_C(i)` is
virtual). -/
def Solver_B_linear_state.update_alpha_status (s : Solver_B_linear_state) (i : Nat) :
    Solver_B_linear_state :=
  let st :=
    if s.core.alpha.getD i 0 ≥ s.get_C i then Status.UPPER_BOUND
    else if s.core.alpha.getD i 0 ≤ 0 then Status.LOWER_BOUND
    else Status.FREE
  { s with core := { s.core with alpha_status := s.core.alpha_status.set i st } }

/-- `Solver_B::is_upper_bound(i)` on a `Solver_B_linear` object. -/
def Solver_B_linear_state.is_upper_bound (s : Solver_B_linear_state) (i : Nat) : Bool :=
  s.core.alpha_status[i]? = some Status.UPPER_BOUND

/-- `Solver_B::is_lower_bound(i)` on a `Solver_B_linear` object. -/
def Solver_B_linear_state.is_lower_bound (s : Solver_B_linear_state) (i : Nat) : Bool :=
  s.core.alpha_status[i]? = some Status.LOWER_BOUND

/-- `Solver_B_linear::swap_index(i, j)` on the whole object. -/
def Solver_B_linear_state.swap_index (s : Solver_B_linear_state) (i j : Nat) :
    Solver_B_linear_state :=
  { s with core := s.core.swap_index i j }

/-- `Solver_B_linear::reconstruct_gradient()`. -/
def Solver_B_linear_state.reconstruct_gradient (s : Solver_B_linear_state) :
    Solver_B_linear_state :=
  { s with core :=
      { s.core with G := (linear_reconstruct_gradient s.active_size s.core.l s.w s.x s.core.y
          s.core.b s.core.G) } }

/-- The members of the base class as a `Solver_B` object, for the call of
`Solver_B::select_working_set`, which reads `qpsize`, `active_size`, `alpha_status` and `G`
and writes `working_set`; the members `Q` and `G_bar`, which `Solver_B_linear` does not
set, are not read by it. -/
def Solver_B_linear_state.base (s : Solver_B_linear_state) : Solver_B :=
  { active_size := s.active_size, G := s.core.G, alpha_status := s.core.alpha_status,
    alpha := s.core.alpha, Q := fun _ _ => 0, eps := s.eps, active_set := s.core.active_set,
    G_bar := [], l := s.core.l, unshrinked := s.unshrinked, qpsize := s.qpsize,
    working_set := s.working_set, Cp := s.Cp, Cn := s.Cn, b := s.core.b, y := s.core.y }

/-- `Solver_B::select_working_set(q)` on a `Solver_B_linear` object (the function is
inherited, not virtual): the returned value and the object with the new working set. -/
def Solver_B_linear_state.select_working_set (s : Solver_B_linear_state) :
    ℚ × Solver_B_linear_state :=
  (s.base.select_working_set.1,
    { s with working_set := s.base.select_working_set.2.working_set })

/-- `Solver_B::shrink_one(k)` on a `Solver_B_linear` object: the class does not override
it, and its call `swap_index(k, active_size)` is virtual. -/
def Solver_B_linear_state.shrink_one (s : Solver_B_linear_state) (k : Nat) :
    Solver_B_linear_state :=
  s.swap_index k s.active_size

/-- `Solver_B::unshrink_one(k)` on a `Solver_B_linear` object. -/
def Solver_B_linear_state.unshrink_one (s : Solver_B_linear_state) (k : Nat) :
    Solver_B_linear_state :=
  s.swap_index k s.active_size

/-- The loop `for(k=0;k<active_size;k++)` of `Solver_B::do_shrinking` on a
`Solver_B_linear` object, from position `k` on; the first argument bounds the number of
iterations. -/
def Solver_B_linear_state.shrink_loop :
    Nat → Solver_B_linear_state → Nat → ℚ → Solver_B_linear_state
  | 0, s, _, _ => s
  | n + 1, s, k, Gm =>
    if k < s.active_size then
      if s.is_lower_bound k then
        if s.core.G.getD k 0 ≤ Gm then Solver_B_linear_state.shrink_loop n s (k + 1) Gm
        else
          Solver_B_linear_state.shrink_loop n
            (Solver_B_linear_state.shrink_one { s with active_size := s.active_size - 1 } k)
            k Gm
      else if s.is_upper_bound k then
        if s.core.G.getD k 0 ≥ -Gm then Solver_B_linear_state.shrink_loop n s (k + 1) Gm
        else
          Solver_B_linear_state.shrink_loop n
            (Solver_B_linear_state.shrink_one { s with active_size := s.active_size - 1 } k)
            k Gm
      else Solver_B_linear_state.shrink_loop n s (k + 1) Gm
    else s

/-- The loop `for(k=l-1;k>=active_size;k--)` of `Solver_B::do_shrinking` on a
`Solver_B_linear` object, from position `k` on; the first argument bounds the number of
iterations. -/
def Solver_B_linear_state.unshrink_loop :
    Nat → Solver_B_linear_state → Int → ℚ → Solver_B_linear_state
  | 0, s, _, _ => s
  | n + 1, s, k, Gm =>
    if k ≥ (s.active_size : Int) then
      if s.is_lower_bound k.toNat then
        if s.core.G.getD k.toNat 0 > Gm then
          Solver_B_linear_state.unshrink_loop n s (k - 1) Gm
        else
          let s' := Solver_B_linear_state.unshrink_one s k.toNat
          Solver_B_linear_state.unshrink_loop n { s' with active_size := s.active_size + 1 }
            k Gm
      else if s.is_upper_bound k.toNat then
        if s.core.G.getD k.toNat 0 < -Gm then
          Solver_B_linear_state.unshrink_loop n s (k - 1) Gm
        else
          let s' := Solver_B_linear_state.unshrink_one s k.toNat
          Solver_B_linear_state.unshrink_loop n { s' with active_size := s.active_size + 1 }
            k Gm
      else Solver_B_linear_state.unshrink_loop n s (k - 1) Gm
    else s

/-- `Solver_B::do_shrinking()` on a `Solver_B_linear` object; the calls `shrink_one`,
`unshrink_one` and `reconstruct_gradient` are virtual. -/
def Solver_B_linear_state.do_shrinking (s : Solver_B_linear_state) : Solver_B_linear_state :=
  let r := s.select_working_set
  let Gm := r.1
  let s0 := r.2
  if Gm < s0.eps then s0
  else
    let s1 := Solver_B_linear_state.shrink_loop s0.active_size s0 0 Gm
    if s1.unshrinked || decide (Gm > s1.eps * 10) then s1
    else
      let s2 := Solver_B_linear_state.reconstruct_gradient { s1 with unshrinked := true }
      Solver_B_linear_state.unshrink_loop (s2.core.l - s2.active_size) s2
        ((s2.core.l : Int) - 1) Gm

/-- The state of `Solver_B_linear::Solve` before the optimization loop: the clones of
`x_`, `b_`, `y_` and `alpha_`, the status of every variable, the whole active set, and the
gradient (`G[i] = b[i]`, and `G[i] += y[i]*sum` for every `i` unless every variable is at
its lower bound). -/
def Solver_B_linear_state.init (l : Nat) (x_ : List (List svm_node)) (b_ : List ℚ)
    (y_ : List Int) (alpha_ w : List ℚ) (Cp Cn eps : ℚ) (qpsize : Nat) :
    Solver_B_linear_state :=
  let s0 : Solver_B_linear_state :=
    { core :=
        { l := l, y := (List.range l).map (fun i => y_.getD i 0),
          G := List.replicate l 0, alpha_status := List.replicate l Status.LOWER_BOUND,
          alpha := (List.range l).map (fun i => alpha_.getD i 0),
          b := (List.range l).map (fun i => b_.getD i 0), active_set := List.range l,
          x := List.range l },
      rows := x_, active_size := l, eps := eps, unshrinked := false, qpsize := qpsize,
      working_set := [], Cp := Cp, Cn := Cn, w := w }
  let s1 := for_loop 0 l (fun i s => s.update_alpha_status i) s0
  let G0 := for_loop 0 l (fun i G => G.set i (s1.core.b.getD i 0)) s1.core.G
  let allzero := for_loop 0 l (fun i a => if !s1.is_lower_bound i then false else a) true
  let G1 :=
    if !allzero then
      for_loop 0 l
        (fun i G => G.set i (G.getD i 0 +
          (s1.core.y.getD i 0 : ℚ) * (w_loop s1.w (s1.x.getD i []) 0 + s1.w.getD 0 0))) G0
    else G0
  { s1 with core := { s1.core with G := G1 } }

/-- The sub-problem built by `Solver_B_linear::Solve` ("construct subproblem");
`qp.eps = eps/100`. -/
def Solver_B_linear_state.subproblem (s : Solver_B_linear_state) : BQP :=
  let n := s.working_set.length
  let B := fun i => s.working_set.getD i 0
  let p0 := (List.range n).map (fun i => s.core.G.getD (B i) 0)
  let qp0 : BQP :=
    { eps := s.eps / 100, n := n, x := List.replicate n 0, C := List.replicate n 0,
      Q := List.replicate (n * n) 0, p := p0 }
  for_loop 0 n
    (fun i qp =>
      let qii := linear_Q_diag s.x (B i)
      let qp1 : BQP :=
        { qp with x := qp.x.set i (s.core.alpha.getD (B i) 0)
                  C := qp.C.set i (s.get_C (B i))
                  Q := qp.Q.set (i * n + i) qii
                  p := qp.p.set i (qp.p.getD i 0 - qii * s.core.alpha.getD (B i) 0) }
      for_loop (i + 1) n
        (fun j qp2 =>
          let qij := linear_Q s.x s.core.y (B i) (B j)
          let Q' := (qp2.Q.set (j * n + i) qij).set (i * n + j) qij
          let p' := qp2.p.set i (qp2.p.getD i 0 - qij * s.core.alpha.getD (B j) 0)
          { qp2 with Q := Q'
                     p := p'.set j (p'.getD j 0 - qij * s.core.alpha.getD (B i) 0) }) qp1) qp0

/-- The body of the loop "update G" of `Solver_B_linear::Solve` for entry `i` of the working
set: the new `alpha[Bi]`, its status, and the weight vector `w`; `x` is the point returned
by `solvebqp`. -/
def Solver_B_linear_state.update_w_step (x : List ℚ) (i : Nat) (t : Solver_B_linear_state) :
    Solver_B_linear_state :=
  let Bi := t.working_set.getD i 0
  let d := x.getD i 0 - t.core.alpha.getD Bi 0
  if |d| > 1 / 1000000000000 then
    let t1 : Solver_B_linear_state :=
      { t with core := { t.core with alpha := t.core.alpha.set Bi (x.getD i 0) } }
    let t2 := t1.update_alpha_status Bi
    { t2 with w := add_point t2.w (t2.x.getD Bi []) ((t2.core.y.getD Bi 0 : ℚ) * d) }
  else t

/-- One pass of the body of the loop of `Solver_B_linear::Solve` after the convergence
check: sub-problem, `solvebqp`, update of `alpha`, `alpha_status` and `w`, and the gradient
`G[j]` of every active `j` computed from `w`. -/
def Solver_B_linear_state.update (solvebqp : BQP → List ℚ) (s : Solver_B_linear_state) :
    Solver_B_linear_state :=
  let x := solvebqp s.subproblem
  let t := for_loop 0 s.working_set.length (Solver_B_linear_state.update_w_step x) s
  { t with core :=
      { t.core with G := (for_loop 0 t.active_size
          (fun j g => g.set j (linear_gradient t.w t.x t.core.y t.core.b j)) t.core.G) } }

/-- The operations of `Solver_B_linear::Solve`. -/
def Solver_B_linear_state.ops (solvebqp : BQP → List ℚ) : SolverOps Solver_B_linear_state :=
  { reload := fun s => min ((s.core.l : Int) * 2 / s.qpsize) (2000 / s.qpsize)
    do_shrinking := Solver_B_linear_state.do_shrinking
    select_working_set := Solver_B_linear_state.select_working_set
    reconstruct_gradient := Solver_B_linear_state.reconstruct_gradient
    full_active := fun s => { s with active_size := s.core.l }
    recheck_failed := fun s => s
    update := Solver_B_linear_state.update solvebqp
    eps := fun s => s.eps }

/-- The loop of `Solver_B_linear::Solve` from its initial state, with the counter
`min(l*2/qpsize, 2000/qpsize) + 1`: the state in which the loop is left, `none` when it is
not left within the fuel. -/
def Solver_B_linear_state.Solve_loop (solvebqp : BQP → List ℚ) (fuel : Nat) (l : Nat)
    (x_ : List (List svm_node)) (b_ : List ℚ) (y_ : List Int) (alpha_ w : List ℚ)
    (Cp Cn eps : ℚ) (shrinking : Bool) (qpsize : Nat) : Option Solver_B_linear_state :=
  Kernlab.Solve_loop (Solver_B_linear_state.ops solvebqp) shrinking fuel
    (Solver_B_linear_state.init l x_ b_ y_ alpha_ w Cp Cn eps qpsize)
    (min ((l : Int) * 2 / qpsize) (2000 / qpsize) + 1)

/-! ## The loop of `Solver_MB::Solve` -/

/-- The members of a `Solver_MB` object during `Solve`.  `core` holds the arrays and the
tables that `swap_index`, `shrink_one`, `unshrink_one` and `initial_index_table` use, with
`l` and `active_size`; `Q i j` is entry `j` of the column `Q.get_Q(i, real_l)` of the kernel
matrix (`Solver_MB::swap_index` does not exchange rows of `Q`); `C`, `lin` and `count` are
the arguments of `Solve`; `eps`, `unshrinked`, `qpsize` and `working_set` are the members
inherited from `Solver_B`. -/
structure Solver_MB_state where
  core : Solver_MB
  Q : Int → Int → ℚ
  C : List ℚ
  lin : ℚ
  count : List Nat
  eps : ℚ
  unshrinked : Bool
  qpsize : Nat
  working_set : List Nat

/-- `Solver_MB::get_C(i)`: `C[y[i]]`. -/
def Solver_MB_state.get_C (s : Solver_MB_state) (i : Nat) : ℚ :=
  s.C.getD (s.core.y.getD i 0).toNat 0

/-- `Solver_B::update_alpha_status(i)` on a `Solver_MB` object (the call `get_C(i)` is
virtual). -/
def Solver_MB_state.update_alpha_status (s : Solver_MB_state) (i : Nat) : Solver_MB_state :=
  let st :=
    if s.core.alpha.getD i 0 ≥ s.get_C i then Status.UPPER_BOUND
    else if s.core.alpha.getD i 0 ≤ 0 then Status.LOWER_BOUND
    else Status.FREE
  { s with core := { s.core with alpha_status := s.core.alpha_status.set i st } }

/-- `Solver_B::is_upper_bound(i)` on a `Solver_MB` object. -/
def Solver_MB_state.is_upper_bound (s : Solver_MB_state) (i : Nat) : Bool :=
  s.core.alpha_status[i]? = some Status.UPPER_BOUND

/-- `Solver_B::is_lower_bound(i)` on a `Solver_MB` object. -/
def Solver_MB_state.is_lower_bound (s : Solver_MB_state) (i : Nat) : Bool :=
  s.core.alpha_status[i]? = some Status.LOWER_BOUND

/-- `Solver_B::is_free(i)` on a `Solver_MB` object. -/
def Solver_MB_state.is_free (s : Solver_MB_state) (i : Nat) : Bool :=
  s.core.alpha_status[i]? = some Status.FREE

/-- The loop `for (j=start[b];j<start[b+1];j++) G[j] += t*Q_i[real_i[j]]` over the positions
of the bucket with index `b` in the table `start`. -/
def add_span (start real_i : List Int) (Q_i : Int → ℚ) (b : Int) (t : ℚ) (G : List ℚ) :
    List ℚ :=
  for_loop (start.getD b.toNat 0).toNat (start.getD (b + 1).toNat 0).toNat
    (fun j G' => G'.set j (G'.getD j 0 + t * Q_i (real_i.getD j 0))) G

/-- The loop `for (j=start[b];j<start[b+1];j++) G[j] -= t*Q_i[real_i[j]]`. -/
def sub_span (start real_i : List Int) (Q_i : Int → ℚ) (b : Int) (t : ℚ) (G : List ℚ) :
    List ℚ :=
  for_loop (start.getD b.toNat 0).toNat (start.getD (b + 1).toNat 0).toNat
    (fun j G' => G'.set j (G'.getD j 0 - t * Q_i (real_i.getD j 0))) G

/-- The loops over the buckets of one variable with the labels `y_i` and `yy_i`, in the
order of the source: `up t` on the bucket `yy_i*nr_class+y_i`, `down t` on the bucket
`y_i*nr_class+yy_i`, and for every class `k` other than `y_i` and `yy_i`: `up d` on
`k*nr_class+y_i` and on `yy_i*nr_class+k`, then `down d` on `y_i*nr_class+k` and on
`k*nr_class+yy_i`. -/
def bucket_sweep (nr_class : Nat) (up down : Int → ℚ → List ℚ → List ℚ) (t d : ℚ)
    (y_i yy_i : Int) (G : List ℚ) : List ℚ :=
  let n : Int := nr_class
  let G1 := up (yy_i * n + y_i) t G
  let G2 := down (y_i * n + yy_i) t G1
  for_loop 0 nr_class
    (fun k G =>
      if (k : Int) ≠ y_i ∧ (k : Int) ≠ yy_i then
        let G3 := up ((k : Int) * n + y_i) d G
        let G4 := up (yy_i * n + (k : Int)) d G3
        let G5 := down (y_i * n + (k : Int)) d G4
        down ((k : Int) * n + yy_i) d G5
      else G) G2

/-- `Solver_MB::reconstruct_gradient()`: the loops run over the positions of the table
`start2`, with `t = 2*alpha_i` on the two buckets of the variable and `alpha_i` on the
others. -/
def Solver_MB_state.reconstruct_gradient (s : Solver_MB_state) : Solver_MB_state :=
  if s.core.active_size = s.core.l then s
  else
    let G1 := for_loop s.core.active_size s.core.l
      (fun i G => G.set i (s.core.G_bar.getD i 0 + s.lin)) s.core.G
    let G2 := for_loop 0 s.core.active_size
      (fun i G =>
        if s.is_free i then
          bucket_sweep s.core.nr_class
            (add_span s.core.start2 s.core.real_i (s.Q (s.core.real_i.getD i 0)))
            (sub_span s.core.start2 s.core.real_i (s.Q (s.core.real_i.getD i 0)))
            (2 * s.core.alpha.getD i 0) (s.core.alpha.getD i 0)
            (s.core.y.getD i 0) (s.core.yy.getD i 0) G
        else G) G1
    { s with core := { s.core with G := G2 } }

/-- The members of the base class as a `Solver_B` object, for the call of
`Solver_B::select_working_set`, which reads `qpsize`, `active_size`, `alpha_status` and `G`
and writes `working_set`; the other members are not read by it. -/
def Solver_MB_state.base (s : Solver_MB_state) : Solver_B :=
  { active_size := s.core.active_size, G := s.core.G, alpha_status := s.core.alpha_status,
    alpha := s.core.alpha, Q := fun _ _ => 0, eps := s.eps,
    active_set := s.core.active_set.map Int.toNat, G_bar := s.core.G_bar, l := s.core.l,
    unshrinked := s.unshrinked, qpsize := s.qpsize, working_set := s.working_set, Cp := 0,
    Cn := 0, b := [], y := s.core.y }

/-- `Solver_B::select_working_set(q)` on a `Solver_MB` object (the function is inherited,
not virtual): the returned value and the object with the new working set. -/
def Solver_MB_state.select_working_set (s : Solver_MB_state) : ℚ × Solver_MB_state :=
  (s.base.select_working_set.1,
    { s with working_set := s.base.select_working_set.2.working_set })

/-- The loop `for(k=0;k<active_size;k++)` of `Solver_B::do_shrinking` on a `Solver_MB`
object, from position `k` on (the call `shrink_one(k)` is virtual); the first argument
bounds the number of iterations. -/
def Solver_MB_state.shrink_loop : Nat → Solver_MB_state → Nat → ℚ → Solver_MB_state
  | 0, s, _, _ => s
  | n + 1, s, k, Gm =>
    if k < s.core.active_size then
      if s.is_lower_bound k then
        if s.core.G.getD k 0 ≤ Gm then Solver_MB_state.shrink_loop n s (k + 1) Gm
        else
          Solver_MB_state.shrink_loop n
            { s with core := (Solver_MB.shrink_one
                { s.core with active_size := s.core.active_size - 1 } k) } k Gm
      else if s.is_upper_bound k then
        if s.core.G.getD k 0 ≥ -Gm then Solver_MB_state.shrink_loop n s (k + 1) Gm
        else
          Solver_MB_state.shrink_loop n
            { s with core := (Solver_MB.shrink_one
                { s.core with active_size := s.core.active_size - 1 } k) } k Gm
      else Solver_MB_state.shrink_loop n s (k + 1) Gm
    else s

/-- The loop `for(k=l-1;k>=active_size;k--)` of `Solver_B::do_shrinking` on a `Solver_MB`
object, from position `k` on (the call `unshrink_one(k)` is virtual); the first argument
bounds the number of iterations. -/
def Solver_MB_state.unshrink_loop : Nat → Solver_MB_state → Int → ℚ → Solver_MB_state
  | 0, s, _, _ => s
  | n + 1, s, k, Gm =>
    if k ≥ (s.core.active_size : Int) then
      if s.is_lower_bound k.toNat then
        if s.core.G.getD k.toNat 0 > Gm then Solver_MB_state.unshrink_loop n s (k - 1) Gm
        else
          Solver_MB_state.unshrink_loop n
            { s with core :=
                { Solver_MB.unshrink_one s.core k.toNat with
                  active_size := s.core.active_size + 1 } } k Gm
      else if s.is_upper_bound k.toNat then
        if s.core.G.getD k.toNat 0 < -Gm then Solver_MB_state.unshrink_loop n s (k - 1) Gm
        else
          Solver_MB_state.unshrink_loop n
            { s with core :=
                { Solver_MB.unshrink_one s.core k.toNat with
                  active_size := s.core.active_size + 1 } } k Gm
      else Solver_MB_state.unshrink_loop n s (k - 1) Gm
    else s

/-- `Solver_B::do_shrinking()` on a `Solver_MB` object; the calls `shrink_one`,
`unshrink_one` and `reconstruct_gradient` are virtual. -/
def Solver_MB_state.do_shrinking (s : Solver_MB_state) : Solver_MB_state :=
  let r := s.select_working_set
  let Gm := r.1
  let s0 := r.2
  if Gm < s0.eps then s0
  else
    let s1 := Solver_MB_state.shrink_loop s0.core.active_size s0 0 Gm
    if s1.unshrinked || decide (Gm > s1.eps * 10) then s1
    else
      let s2 := Solver_MB_state.reconstruct_gradient { s1 with unshrinked := true }
      Solver_MB_state.unshrink_loop (s2.core.l - s2.core.active_size) s2
        ((s2.core.l : Int) - 1) Gm

/-- The body of the loop "initialize gradient" of `Solver_MB::Solve` for the variable `i`:
when it is not at its lower bound, the loops over the buckets of the table `start1` add
`alpha_i*Q_i[real_i[j]]` to `G[j]` or subtract it, and when shrinking is enabled and the
variable is at its upper bound the loops over the same buckets add `C_i*Q_i[real_i[j]]` to
`G_bar[j]`. -/
def Solver_MB_state.init_gradient_step (shrinking : Bool) (i : Nat) (s : Solver_MB_state) :
    Solver_MB_state :=
  if !s.is_lower_bound i then
    let Q_i := s.Q (s.core.real_i.getD i 0)
    let G1 := bucket_sweep s.core.nr_class
      (add_span s.core.start1 s.core.real_i Q_i) (sub_span s.core.start1 s.core.real_i Q_i)
      (s.core.alpha.getD i 0) (s.core.alpha.getD i 0) (s.core.y.getD i 0)
      (s.core.yy.getD i 0) s.core.G
    let G_bar1 :=
      if shrinking && s.is_upper_bound i then
        bucket_sweep s.core.nr_class
          (add_span s.core.start1 s.core.real_i Q_i) (add_span s.core.start1 s.core.real_i Q_i)
          (s.get_C i) (s.get_C i) (s.core.y.getD i 0) (s.core.yy.getD i 0) s.core.G_bar
      else s.core.G_bar
    { s with core := { s.core with G := G1, G_bar := G_bar1 } }
  else s

/-- The state of `Solver_MB::Solve` before the optimization loop: the clones of `y_` and
`alpha_`, the status of every variable, the new arrays `active_set`, `yy`, `real_i` and the
two tables filled by `initial_index_table(count)`, and the gradient. -/
def Solver_MB_state.init (l : Nat) (Q : Int → Int → ℚ) (lin : ℚ) (alpha_ : List ℚ)
    (y_ : List Int) (C : List ℚ) (eps : ℚ) (shrinking : Bool) (qpsize nr_class : Nat)
    (count : List Nat) : Solver_MB_state :=
  let s0 : Solver_MB_state :=
    { core :=
        { mb_blank l nr_class with
          y := (List.range l).map (fun i => y_.getD i 0)
          alpha := (List.range l).map (fun i => alpha_.getD i 0) },
      Q := Q, C := C, lin := lin, count := count, eps := eps, unshrinked := false,
      qpsize := qpsize, working_set := [] }
  let s1 := for_loop 0 l (fun i s => s.update_alpha_status i) s0
  let s2 : Solver_MB_state := { s1 with core := s1.core.initial_index_table count }
  let s3 : Solver_MB_state :=
    { s2 with core :=
        { s2.core with G := (for_loop 0 l (fun i G => G.set i lin) s2.core.G)
                       G_bar := (for_loop 0 l (fun i G => G.set i 0) s2.core.G_bar) } }
  for_loop 0 l (Solver_MB_state.init_gradient_step shrinking) s3

/-- The statements `clone(a0, a, l); for (i=0;i<l;i++) a[active_set[i]] = a0[i];` that
put an array back into the original order. -/
def scatter {β : Type} (d : β) (l : Nat) (active_set : List Int) (a : List β) : List β :=
  for_loop 0 l (fun i out => out.set (active_set.getD i 0).toNat (a.getD i d)) a

/-- The statements of `Solver_MB::Solve` that follow `counter = 1` when the second check of
the convergence test fails: `y`, `alpha_status`, `alpha`, `G` and `G_bar` are put back into
the original order, and `initial_index_table(count)` builds the tables again. -/
def Solver_MB_state.recheck_failed (s : Solver_MB_state) : Solver_MB_state :=
  let c := s.core
  { s with core :=
      (Solver_MB.initial_index_table
        { c with y := scatter 0 c.l c.active_set c.y
                 alpha_status := scatter Status.LOWER_BOUND c.l c.active_set c.alpha_status
                 alpha := scatter 0 c.l c.active_set c.alpha
                 G := scatter 0 c.l c.active_set c.G
                 G_bar := scatter 0 c.l c.active_set c.G_bar } s.count) }

/-- The sub-problem built by `Solver_MB::Solve` ("construct subproblem"); `qp.eps = eps/10`,
and `QB[i][real_i[Bj]]` is the entry `Q (real_i[Bi]) (real_i[Bj])`. -/
def Solver_MB_state.subproblem (s : Solver_MB_state) : BQP :=
  let n := s.working_set.length
  let B := fun i => s.working_set.getD i 0
  let QB := fun i j => s.Q (s.core.real_i.getD (B i) 0) (s.core.real_i.getD j 0)
  let p0 := (List.range n).map (fun i => s.core.G.getD (B i) 0)
  let qp0 : BQP :=
    { eps := s.eps / 10, n := n, x := List.replicate n 0, C := List.replicate n 0,
      Q := List.replicate (n * n) 0, p := p0 }
  for_loop 0 n
    (fun i qp =>
      let qii := (s.core.pair_coefficient (B i) (B i) : ℚ) * QB i (B i)
      let qp1 : BQP :=
        { qp with x := qp.x.set i (s.core.alpha.getD (B i) 0)
                  C := qp.C.set i (s.get_C (B i))
                  Q := qp.Q.set (i * n + i) qii
                  p := qp.p.set i (qp.p.getD i 0 - qii * s.core.alpha.getD (B i) 0) }
      for_loop (i + 1) n
        (fun j qp2 =>
          let qij := (s.core.pair_coefficient (B i) (B j) : ℚ) * QB i (B j)
          let Q' := (qp2.Q.set (j * n + i) qij).set (i * n + j) qij
          let p' := qp2.p.set i (qp2.p.getD i 0 - qij * s.core.alpha.getD (B j) 0)
          { qp2 with Q := Q'
                     p := p'.set j (p'.getD j 0 - qij * s.core.alpha.getD (B i) 0) }) qp1) qp0

/-- The body of the loop "update G" of `Solver_MB::Solve` for entry `i` of the working set;
`x` is the point returned by `solvebqp`. -/
def Solver_MB_state.update_G_step (x : List ℚ) (i : Nat) (t : Solver_MB_state) :
    Solver_MB_state :=
  let Bi := t.working_set.getD i 0
  let d := x.getD i 0 - t.core.alpha.getD Bi 0
  if |d| > 1 / 1000000000000 then
    let c : Solver_MB := { t.core with alpha := t.core.alpha.set Bi (x.getD i 0) }
    { t with core :=
        { c with G := (Solver_MB.update_G_buckets c (t.Q (c.real_i.getD Bi 0)) d
            (c.y.getD Bi 0) (c.yy.getD Bi 0)) } }
  else t

/-- The loops over the buckets in "update alpha_status and G_bar" of `Solver_MB::Solve` for
a variable that has left its upper bound (`u` true) or reached it (`u` false), in the order
of the source; `t = 2*C_i`.  For `u` true the two buckets of the variable take `-t` and
`+t` in the table `start1` and then in `start2`, and for every other class `k` four buckets
take `-C_i`, `-C_i`, `+C_i`, `+C_i` in `start1` and then in `start2`; for `u` false the
signs are the opposite ones. -/
def Solver_MB_state.flip_G_bar (s : Solver_MB_state) (QB_i : Int → ℚ) (C_i : ℚ)
    (y_Bi yy_Bi : Int) (u : Bool) : List ℚ :=
  let n : Int := s.core.nr_class
  let t := 2 * C_i
  let down1 := if u then sub_span s.core.start1 s.core.real_i QB_i
    else add_span s.core.start1 s.core.real_i QB_i
  let up1 := if u then add_span s.core.start1 s.core.real_i QB_i
    else sub_span s.core.start1 s.core.real_i QB_i
  let down2 := if u then sub_span s.core.start2 s.core.real_i QB_i
    else add_span s.core.start2 s.core.real_i QB_i
  let up2 := if u then add_span s.core.start2 s.core.real_i QB_i
    else sub_span s.core.start2 s.core.real_i QB_i
  let g1 := down1 (yy_Bi * n + y_Bi) t s.core.G_bar
  let g2 := up1 (y_Bi * n + yy_Bi) t g1
  let g3 := down2 (yy_Bi * n + y_Bi) t g2
  let g4 := up2 (y_Bi * n + yy_Bi) t g3
  for_loop 0 s.core.nr_class
    (fun k g =>
      if (k : Int) ≠ y_Bi ∧ (k : Int) ≠ yy_Bi then
        let h1 := down1 ((k : Int) * n + y_Bi) C_i g
        let h2 := down1 (yy_Bi * n + (k : Int)) C_i h1
        let h3 := up1 (y_Bi * n + (k : Int)) C_i h2
        let h4 := up1 ((k : Int) * n + yy_Bi) C_i h3
        let h5 := down2 ((k : Int) * n + y_Bi) C_i h4
        let h6 := down2 (yy_Bi * n + (k : Int)) C_i h5
        let h7 := up2 (y_Bi * n + (k : Int)) C_i h6
        up2 ((k : Int) * n + yy_Bi) C_i h7
      else g) g4

/-- The body of the loop "update alpha_status and G_bar" of `Solver_MB::Solve` for entry `i`
of the working set; `C` is `qp.C`. -/
def Solver_MB_state.update_status_step (shrinking : Bool) (C : List ℚ) (i : Nat)
    (t : Solver_MB_state) : Solver_MB_state :=
  let Bi := t.working_set.getD i 0
  let u := t.is_upper_bound Bi
  let t1 := t.update_alpha_status Bi
  if !shrinking then t1
  else if u != t1.is_upper_bound Bi then
    { t1 with core :=
        { t1.core with G_bar := (t1.flip_G_bar (t1.Q (t1.core.real_i.getD Bi 0)) (C.getD i 0)
            (t1.core.y.getD Bi 0) (t1.core.yy.getD Bi 0) u) } }
  else t1

/-- One pass of the body of the loop of `Solver_MB::Solve` after the convergence check:
sub-problem, `solvebqp`, update of `alpha`, `G`, `alpha_status` and `G_bar`. -/
def Solver_MB_state.update (solvebqp : BQP → List ℚ) (shrinking : Bool)
    (s : Solver_MB_state) : Solver_MB_state :=
  let qp := s.subproblem
  let x := solvebqp qp
  let t := for_loop 0 s.working_set.length (Solver_MB_state.update_G_step x) s
  for_loop 0 t.working_set.length (Solver_MB_state.update_status_step shrinking qp.C) t

/-- The operations of `Solver_MB::Solve`. -/
def Solver_MB_state.ops (solvebqp : BQP → List ℚ) (shrinking : Bool) :
    SolverOps Solver_MB_state :=
  { reload := fun s => min ((s.core.l : Int) * 2 / s.qpsize) (2000 / s.qpsize)
    do_shrinking := Solver_MB_state.do_shrinking
    select_working_set := Solver_MB_state.select_working_set
    reconstruct_gradient := Solver_MB_state.reconstruct_gradient
    full_active := fun s => { s with core := { s.core with active_size := s.core.l } }
    recheck_failed := Solver_MB_state.recheck_failed
    update := Solver_MB_state.update solvebqp shrinking
    eps := fun s => s.eps }

/-- The loop of `Solver_MB::Solve` from its initial state, with the counter
`min(l*2/qpsize, 2000/qpsize) + 1`: the state in which the loop is left, `none` when it is
not left within the fuel. -/
def Solver_MB_state.Solve_loop (solvebqp : BQP → List ℚ) (fuel : Nat) (l : Nat)
    (Q : Int → Int → ℚ) (lin : ℚ) (alpha_ : List ℚ) (y_ : List Int) (C : List ℚ) (eps : ℚ)
    (shrinking : Bool) (qpsize nr_class : Nat) (count : List Nat) : Option Solver_MB_state :=
  Kernlab.Solve_loop (Solver_MB_state.ops solvebqp shrinking) shrinking fuel
    (Solver_MB_state.init l Q lin alpha_ y_ C eps shrinking qpsize nr_class count)
    (min ((l : Int) * 2 / qpsize) (2000 / qpsize) + 1)

/-! ## The loop of `Solver_SPOC::Solve` -/

/-- The members of a `Solver_SPOC` object during `Solve`, with the local variables `q` and
`nu` of `Solve` that live across the passes of the loop.  `core` holds the arrays that
`swap_index` exchanges and the kernel matrix; `C` is the argument `C_`. -/
structure Solver_SPOC_state where
  core : Solver_SPOC
  active_size : Nat
  eps : ℚ
  C : List ℚ
  unshrinked : Bool
  q : Nat
  nu : List ℚ

/-- `Solver_SPOC::update_alpha_status(i, m)`. -/
def Solver_SPOC_state.update_alpha_status (s : Solver_SPOC_state) (i m : Nat) :
    Solver_SPOC_state :=
  { s with core :=
      { s.core with alpha_status :=
          s.core.alpha_status.set (i * s.core.nr_class + m) (s.core.status_of s.C i m) } }

/-- `Solver_SPOC::swap_index(i, j)` on the whole object. -/
def Solver_SPOC_state.swap_index (s : Solver_SPOC_state) (i j : Nat) : Solver_SPOC_state :=
  { s with core := s.core.swap_index i j }

/-- The statements that `Solve` ("initialize gradient") and `reconstruct_gradient` share,
for the points `lo <= i < l`: `G[i] = 1` for the entries of these points, `G[i*nr_class+y[i]]
= 0`, and for every point `i < hi` and class `m` with `alpha[i*nr_class+m] != 0` the loop
`G[j*nr_class+m] += alpha_i_m*Q_i[j]` over `lo <= j < l`. -/
def Solver_SPOC.fill_gradient (s : Solver_SPOC) (lo hi : Nat) : List ℚ :=
  let n := s.nr_class
  let G1 := for_loop (lo * n) (s.l * n) (fun i G => G.set i 1) s.G
  let G2 := for_loop lo s.l
    (fun i G => G.set (((i * n : Nat) : Int) + s.y.getD i 0).toNat 0) G1
  for_loop 0 hi
    (fun i G =>
      for_loop 0 n
        (fun m G' =>
          if |s.alpha.getD (i * n + m) 0| ≠ 0 then
            for_loop lo s.l
              (fun j G'' => G''.set (j * n + m)
                (G''.getD (j * n + m) 0 + s.alpha.getD (i * n + m) 0 * s.Q i j)) G'
          else G') G) G2

/-- `Solver_SPOC::reconstruct_gradient()`. -/
def Solver_SPOC_state.reconstruct_gradient (s : Solver_SPOC_state) : Solver_SPOC_state :=
  if s.active_size = s.core.l then s
  else { s with core := { s.core with G := s.core.fill_gradient s.active_size s.active_size } }

/-- `Solver_SPOC::select_working_set(q)` in `Solve`: the returned value, and the object with
the local variable `q` as the call leaves it. -/
def Solver_SPOC_state.select_working_set (s : Solver_SPOC_state) : Ext × Solver_SPOC_state :=
  ((s.core.select_working_set s.active_size s.q).1,
    { s with q := (s.core.select_working_set s.active_size s.q).2 })

/-- The half `Gm/2` of an extended value. -/
def Ext.half : Ext → Ext
  | Ext.neg_inf => Ext.neg_inf
  | Ext.fin v => Ext.fin (v / 2)
  | Ext.pos_inf => Ext.pos_inf

/-- The two loops over `m` of `do_shrinking` for the point `i`, with the threshold
`th = G_i[y[i]] - Gm/2`: true when they reach `goto out`, that is when some class `m < y[i]`
or `y[i] < m < nr_class` has `alpha_status_i[m]` set (only when `free_too`) or
`G_i[m] >= th`. -/
def Solver_SPOC_state.stays (s : Solver_SPOC_state) (Gm : Ext) (free_too : Bool) (i : Nat) :
    Bool :=
  let n := s.core.nr_class
  let y_i := s.core.y.getD i 0
  let th := Ext.sub (Ext.fin (s.core.G.getD (((i * n : Nat) : Int) + y_i).toNat 0))
    (Ext.half Gm)
  let test := fun (m : Nat) (found : Bool) =>
    found || (free_too && s.core.alpha_status.getD (i * n + m) false) ||
      Ext.le th (Ext.fin (s.core.G.getD (i * n + m) 0))
  for_loop (y_i.toNat + 1) n test (for_loop 0 y_i.toNat test false)

/-- The loop `for (i=0;i<active_size;i++)` of `Solver_SPOC::do_shrinking`, from position
`i` on; the first argument bounds the number of iterations. -/
def Solver_SPOC_state.shrink_loop : Nat → Solver_SPOC_state → Nat → Ext → Solver_SPOC_state
  | 0, s, _, _ => s
  | n + 1, s, i, Gm =>
    if i < s.active_size then
      if s.stays Gm true i then Solver_SPOC_state.shrink_loop n s (i + 1) Gm
      else
        Solver_SPOC_state.shrink_loop n
          (Solver_SPOC_state.swap_index { s with active_size := s.active_size - 1 } i
            (s.active_size - 1)) i Gm
    else s

/-- The loop `for (i=l-1;i>=active_size;i--)` of `Solver_SPOC::do_shrinking`, from position
`i` on; the first argument bounds the number of iterations. -/
def Solver_SPOC_state.unshrink_loop :
    Nat → Solver_SPOC_state → Int → Ext → Solver_SPOC_state
  | 0, s, _, _ => s
  | n + 1, s, i, Gm =>
    if i ≥ (s.active_size : Int) then
      if s.stays Gm false i.toNat then Solver_SPOC_state.unshrink_loop n s (i - 1) Gm
      else
        Solver_SPOC_state.unshrink_loop n
          { Solver_SPOC_state.swap_index s i.toNat s.active_size with
            active_size := s.active_size + 1 } i Gm
    else s

/-- `Solver_SPOC::do_shrinking()`; its call of `select_working_set` writes the local
variable `i` of `do_shrinking`, not the `q` of `Solve`. -/
def Solver_SPOC_state.do_shrinking (s : Solver_SPOC_state) : Solver_SPOC_state :=
  let Gm := (s.core.select_working_set s.active_size 0).1
  if Ext.lt Gm (Ext.fin s.eps) then s
  else
    let s1 := Solver_SPOC_state.shrink_loop s.active_size s 0 Gm
    if s1.unshrinked || Ext.lt (Ext.fin (10 * s1.eps)) Gm then s1
    else
      let s2 := Solver_SPOC_state.reconstruct_gradient { s1 with unshrinked := true }
      Solver_SPOC_state.unshrink_loop (s2.core.l - s2.active_size) s2
        ((s2.core.l : Int) - 1) Gm

/-- The state of `Solver_SPOC::Solve` before the optimization loop: the clones of `y_` and
`alpha_`, the status of every variable, the whole active set and the gradient; `q0` and
`nu0` are the contents of the local variable `q` and of the new array `nu`, which `Solve`
does not initialize. -/
def Solver_SPOC_state.init (l : Nat) (Q : Nat → Nat → ℚ) (alpha_ : List ℚ) (y_ : List Int)
    (C_ : List ℚ) (eps : ℚ) (nr_class : Nat) (q0 : Nat) (nu0 : List ℚ) : Solver_SPOC_state :=
  let s0 : Solver_SPOC_state :=
    { core :=
        { l := l, nr_class := nr_class, y := (List.range l).map (fun i => y_.getD i 0),
          active_set := List.range l, G := List.replicate (l * nr_class) 0,
          alpha := (List.range (l * nr_class)).map (fun i => alpha_.getD i 0),
          alpha_status := List.replicate (l * nr_class) false, Q := Q },
      active_size := l, eps := eps, C := C_, unshrinked := false, q := q0, nu := nu0 }
  let s1 := for_loop 0 l
    (fun i s => for_loop 0 nr_class (fun m t => t.update_alpha_status i m) s) s0
  { s1 with core := { s1.core with G := s1.core.fill_gradient 0 l } }

/-- The body of the loop of `Solver_SPOC::Solve` after the convergence check, for the
selected point `q`: `A = Q_q[q]`, the array `B`, the new `nu`, and for every class `m` whose
entry changes by more than `1e-12` the new `alpha[q*nr_class+m]`, its status, and the loop
`G[i*nr_class+m] += d*Q_q[i]` over the active points. -/
def Solver_SPOC_state.update (s : Solver_SPOC_state) : Solver_SPOC_state :=
  let n := s.core.nr_class
  let q := s.q
  let A := s.core.Q q q
  let y_q := (s.core.y.getD q 0).toNat
  let B0 := for_loop 0 n
    (fun m B => B.set m (s.core.G.getD (q * n + m) 0 - A * s.core.alpha.getD (q * n + m) 0))
    (List.replicate n 0)
  let B := B0.set y_q (B0.getD y_q 0 + A * s.C.getD y_q 0)
  let nu := Solver_SPOC.new_nu A B (s.C.getD y_q 0) y_q s.nu
  for_loop 0 n
    (fun m t =>
      let d := nu.getD m 0 - t.core.alpha.getD (q * n + m) 0
      if |d| > 1 / 1000000000000 then
        let t1 : Solver_SPOC_state :=
          { t with core := { t.core with alpha := t.core.alpha.set (q * n + m) (nu.getD m 0) } }
        let t2 := t1.update_alpha_status q m
        { t2 with core :=
            { t2.core with G := (for_loop 0 t2.active_size
                (fun i G => G.set (i * n + m) (G.getD (i * n + m) 0 + d * t2.core.Q q i))
                t2.core.G) } }
      else t) { s with nu := nu }

/-- The statement `active_size = l` of the convergence check. -/
def Solver_SPOC_state.full_active (s : Solver_SPOC_state) : Solver_SPOC_state :=
  { s with active_size := s.core.l }

/-- One pass through the body of the loop `while (1)` of `Solver_SPOC::Solve`: the counter
and the periodic shrinking, the two-phase convergence check, and the update. -/
def Solver_SPOC_state.Solve_iteration (shrinking : Bool) (s : Solver_SPOC_state)
    (counter : Int) : Step Solver_SPOC_state :=
  let s1 := if counter - 1 = 0 then (if shrinking then s.do_shrinking else s) else s
  let counter1 := if counter - 1 = 0 then min ((s.core.l : Int) * 2) 2000 else counter - 1
  let r := s1.select_working_set
  if Ext.lt r.1 (Ext.fin r.2.eps) then
    let r2 := r.2.reconstruct_gradient.full_active.select_working_set
    if Ext.lt r2.1 (Ext.fin r2.2.eps) then Step.done r2.2
    else Step.next r2.2.update 1
  else Step.next r.2.update counter1

/-- The loop `while (1)` of `Solver_SPOC::Solve`, with fuel: `none` when the fuel runs out
before a `break`. -/
def Solver_SPOC_state.loop (shrinking : Bool) :
    Nat → Solver_SPOC_state → Int → Option Solver_SPOC_state
  | 0, _, _ => none
  | fuel + 1, s, counter =>
    match Solver_SPOC_state.Solve_iteration shrinking s counter with
    | Step.done s' => some s'
    | Step.next s' counter' => Solver_SPOC_state.loop shrinking fuel s' counter'

/-- The state and the counter at the head of the loop of `Solver_SPOC::Solve` after `n`
passes that did not leave it (`none` once the loop is left). -/
def Solver_SPOC_state.head (shrinking : Bool) :
    Nat → Solver_SPOC_state → Int → Option (Solver_SPOC_state × Int)
  | 0, s, counter => some (s, counter)
  | n + 1, s, counter =>
    match Solver_SPOC_state.Solve_iteration shrinking s counter with
    | Step.done _ => none
    | Step.next s' counter' => Solver_SPOC_state.head shrinking n s' counter'

/-- The loop of `Solver_SPOC::Solve` from its initial state, with the counter
`min(l*2, 2000) + 1`: the state in which the loop is left, `none` when it is not left within
the fuel. -/
def Solver_SPOC_state.Solve_loop (fuel : Nat) (l : Nat) (Q : Nat → Nat → ℚ)
    (alpha_ : List ℚ) (y_ : List Int) (C_ : List ℚ) (eps : ℚ) (shrinking : Bool)
    (nr_class : Nat) (q0 : Nat) (nu0 : List ℚ) : Option Solver_SPOC_state :=
  Solver_SPOC_state.loop shrinking fuel
    (Solver_SPOC_state.init l Q alpha_ y_ C_ eps nr_class q0 nu0)
    (min ((l : Int) * 2) 2000 + 1)


/-! ## The order of the variables in the runs of `Solver_B_linear` and `Solver_SPOC` -/

/-- The order invariant of a run of `Solver_B_linear::Solve` on `l` points with the labels
`y_`: the arrays have `l` entries, `active_set` is a permutation of `0..l-1`,
`active_size <= l`, and position `p` holds the label of the point `active_set[p]`. -/
def Solver_B_linear_state.InOrder (s : Solver_B_linear_state) (l : Nat) (y_ : List Int) :
    Prop :=
  s.core.Ordered ∧ s.core.l = l ∧ s.active_size ≤ l ∧
    ∀ p, p < l → s.core.y.getD p 0 = y_.getD (s.core.active_set.getD p 0) 0

/-- The order invariant of a run of `Solver_SPOC::Solve` on `l` points with `nr_class`
classes and the labels `y_`. -/
def Solver_SPOC_state.InOrder (s : Solver_SPOC_state) (l nr_class : Nat) (y_ : List Int) :
    Prop :=
  s.core.Ordered ∧ s.core.l = l ∧ s.core.nr_class = nr_class ∧ s.active_size ≤ l ∧
    ∀ p, p < l → s.core.y.getD p 0 = y_.getD (s.core.active_set.getD p 0) 0


/-! ## Kernel cache: pointer writes -/

theorem Cache.set_next_spec {c c' : Cache α} {p q : Ptr} (h : c.set_next p q = some c') :
    c'.size = c.size ∧ c'.l = c.l ∧ c'.contents = c.contents ∧
    (∀ r, c'.get_prev r = c.get_prev r) ∧
    (∀ r, c'.get_next r = if r = p then some q else c.get_next r) := by
  cases p with
  | null => simp [Cache.set_next] at h
  | lru_head =>
    simp only [Cache.set_next, Option.some.injEq] at h
    subst h
    refine ⟨rfl, rfl, rfl, ?_, ?_⟩
    · intro r; cases r <;> rfl
    · intro r; cases r <;> simp [Cache.get_next]
  | head i =>
    simp only [Cache.set_next] at h
    cases he : c.head[i]? with
    | none => simp [he] at h
    | some e =>
      simp only [he, Option.some.injEq] at h
      subst h
      have hi : i < c.head.length := by
        by_contra hc
        simp [List.getElem?_eq_none (le_of_not_lt hc)] at he
      have hd : c.head[i] = e := by
        rw [List.getElem?_eq_getElem hi] at he; simpa using he
      refine ⟨rfl, rfl, ?_, ?_, ?_⟩
      · simp only [Cache.contents, List.map_set]
        apply List.ext_getElem? ; intro k
        by_cases hk : i = k
        · subst hk; simp [List.getElem?_set, hi, ← hd]
        · simp [List.getElem?_set_ne hk]
      · intro r
        cases r with
        | null => rfl
        | lru_head => rfl
        | head k =>
          by_cases hk : i = k
          · subst hk; simp [Cache.get_prev, hi, he]
          · simp [Cache.get_prev, List.getElem?_set_ne hk]
      · intro r
        cases r with
        | null => simp [Cache.get_next]
        | lru_head => simp [Cache.get_next]
        | head k =>
          by_cases hk : i = k
          · subst hk; simp [Cache.get_next, hi]
          · have : ¬ k = i := fun h => hk h.symm
            simp [Cache.get_next, List.getElem?_set_ne hk, this]
theorem Cache.set_prev_spec {c c' : Cache α} {p q : Ptr} (h : c.set_prev p q = some c') :
    c'.size = c.size ∧ c'.l = c.l ∧ c'.contents = c.contents ∧
    (∀ r, c'.get_next r = c.get_next r) ∧
    (∀ r, c'.get_prev r = if r = p then some q else c.get_prev r) := by
  cases p with
  | null => simp [Cache.set_prev] at h
  | lru_head =>
    simp only [Cache.set_prev, Option.some.injEq] at h
    subst h
    refine ⟨rfl, rfl, rfl, ?_, ?_⟩
    · intro r; cases r <;> rfl
    · intro r; cases r <;> simp [Cache.get_prev]
  | head i =>
    simp only [Cache.set_prev] at h
    cases he : c.head[i]? with
    | none => simp [he] at h
    | some e =>
      simp only [he, Option.some.injEq] at h
      subst h
      have hi : i < c.head.length := by
        by_contra hc
        simp [List.getElem?_eq_none (le_of_not_lt hc)] at he
      have hd : c.head[i] = e := by
        rw [List.getElem?_eq_getElem hi] at he; simpa using he
      refine ⟨rfl, rfl, ?_, ?_, ?_⟩
      · simp only [Cache.contents, List.map_set]
        apply List.ext_getElem? ; intro k
        by_cases hk : i = k
        · subst hk; simp [List.getElem?_set, hi, ← hd]
        · simp [List.getElem?_set_ne hk]
      · intro r
        cases r with
        | null => rfl
        | lru_head => rfl
        | head k =>
          by_cases hk : i = k
          · subst hk; simp [Cache.get_next, hi, he]
          · simp [Cache.get_next, List.getElem?_set_ne hk]
      · intro r
        cases r with
        | null => simp [Cache.get_prev]
        | lru_head => simp [Cache.get_prev]
        | head k =>
          by_cases hk : i = k
          · subst hk; simp [Cache.get_prev, hi]
          · have : ¬ k = i := fun h => hk h.symm
            simp [Cache.get_prev, List.getElem?_set_ne hk, this]


theorem Cache.contents_length (c : Cache α) : c.contents.length = c.head.length := by
  simp [Cache.contents]

theorem Cache.valid_of_get_next {c : Cache α} {p q : Ptr} (h : c.get_next p = some q) :
    c.valid p := by
  cases p with
  | null => simp [Cache.get_next] at h
  | lru_head => trivial
  | head i =>
    simp only [Cache.get_next, Option.map_eq_some'] at h
    obtain ⟨e, he, -⟩ := h
    exact (List.getElem?_eq_some.1 he).1

theorem Cache.valid_of_get_prev {c : Cache α} {p q : Ptr} (h : c.get_prev p = some q) :
    c.valid p := by
  cases p with
  | null => simp [Cache.get_prev] at h
  | lru_head => trivial
  | head i =>
    simp only [Cache.get_prev, Option.map_eq_some'] at h
    obtain ⟨e, he, -⟩ := h
    exact (List.getElem?_eq_some.1 he).1

theorem Cache.set_next_some {c : Cache α} {p : Ptr} (q : Ptr) (h : c.valid p) :
    ∃ c', c.set_next p q = some c' := by
  cases p with
  | null => exact absurd h (by simp [Cache.valid])
  | lru_head => exact ⟨_, rfl⟩
  | head i =>
    have hi : i < c.head.length := h
    simp [Cache.set_next, List.getElem?_eq_getElem hi]

theorem Cache.set_prev_some {c : Cache α} {p : Ptr} (q : Ptr) (h : c.valid p) :
    ∃ c', c.set_prev p q = some c' := by
  cases p with
  | null => exact absurd h (by simp [Cache.valid])
  | lru_head => exact ⟨_, rfl⟩
  | head i =>
    have hi : i < c.head.length := h
    simp [Cache.set_prev, List.getElem?_eq_getElem hi]

theorem Cache.valid_congr {c c' : Cache α} (h : c'.contents = c.contents) (p : Ptr) :
    c'.valid p ↔ c.valid p := by
  have hl : c'.head.length = c.head.length := by
    rw [← Cache.contents_length, ← Cache.contents_length, h]
  cases p <;> simp [Cache.valid, hl]

/-- Effect of `lru_delete(h)` when the neighbours of `h` are other nodes. -/
theorem Cache.lru_delete_spec {c : Cache α} {h p n : Ptr}
    (hp : c.get_prev h = some p) (hn : c.get_next h = some n)
    (hph : p ≠ h) (vp : c.valid p) (vn : c.valid n) :
    ∃ c', c.lru_delete h = some c' ∧ c'.size = c.size ∧ c'.l = c.l ∧
      c'.contents = c.contents ∧
      (∀ r, c'.get_next r = if r = p then some n else c.get_next r) ∧
      (∀ r, c'.get_prev r = if r = n then some p else c.get_prev r) := by
  obtain ⟨c1, h1⟩ := Cache.set_next_some n vp
  obtain ⟨s1, l1, ct1, pv1, nx1⟩ := Cache.set_next_spec h1
  have vn1 : c1.valid n := (Cache.valid_congr ct1 n).2 vn
  obtain ⟨c2, h2⟩ := Cache.set_prev_some p vn1
  obtain ⟨s2, l2, ct2, nx2, pv2⟩ := Cache.set_prev_spec h2
  have e1 : c1.get_next h = some n := by rw [nx1, if_neg (Ne.symm hph), hn]
  have e2 : c1.get_prev h = some p := by rw [pv1, hp]
  refine ⟨c2, ?_, by rw [s2, s1], by rw [l2, l1], by rw [ct2, ct1], ?_, ?_⟩
  · simp [Cache.lru_delete, hp, hn, h1, e1, e2, h2]
  · intro r; rw [nx2, nx1]
  · intro r; rw [pv2, pv1]

/-- Effect of `lru_insert(h)` when `h` is not the last node. -/
theorem Cache.lru_insert_spec {c : Cache α} {h : Ptr} (vh : c.valid h)
    (hl : c.lru_prev ≠ h) (vl : c.valid c.lru_prev) :
    ∃ c', c.lru_insert h = some c' ∧ c'.size = c.size ∧ c'.l = c.l ∧
      c'.contents = c.contents ∧
      (∀ r, c'.get_next r =
        if r = c.lru_prev then some h else if r = h then some Ptr.lru_head else c.get_next r) ∧
      (∀ r, c'.get_prev r =
        if r = Ptr.lru_head then some h else if r = h then some c.lru_prev else c.get_prev r) := by
  obtain ⟨c1, h1⟩ := Cache.set_next_some Ptr.lru_head vh
  obtain ⟨s1, l1, ct1, pv1, nx1⟩ := Cache.set_next_spec h1
  have lp1 : c1.lru_prev = c.lru_prev := by
    have := pv1 Ptr.lru_head
    simpa [Cache.get_prev] using this
  obtain ⟨c2, h2⟩ := Cache.set_prev_some c1.lru_prev ((Cache.valid_congr ct1 h).2 vh)
  obtain ⟨s2, l2, ct2, nx2, pv2⟩ := Cache.set_prev_spec h2
  have e2 : c2.get_prev h = some c.lru_prev := by rw [pv2, if_pos rfl, lp1]
  have vl2 : c2.valid c.lru_prev := (Cache.valid_congr (ct2.trans ct1) _).2 vl
  obtain ⟨c3, h3⟩ := Cache.set_next_some h vl2
  obtain ⟨s3, l3, ct3, pv3, nx3⟩ := Cache.set_next_spec h3
  have e3 : c3.get_next h = some Ptr.lru_head := by
    rw [nx3, if_neg (Ne.symm hl), nx2, nx1, if_pos rfl]
  have v3 : c3.valid Ptr.lru_head := trivial
  obtain ⟨c4, h4⟩ := Cache.set_prev_some h v3
  obtain ⟨s4, l4, ct4, nx4, pv4⟩ := Cache.set_prev_spec h4
  refine ⟨c4, ?_, by rw [s4, s3, s2, s1], by rw [l4, l3, l2, l1],
    by rw [ct4, ct3, ct2, ct1], ?_, ?_⟩
  · simp [Cache.lru_insert, h1, h2, e2, h3, e3, h4]
  · intro r; rw [nx4, nx3, nx2, nx1]
  · intro r; rw [pv4, pv3, pv2, pv1, lp1]


/-! ## Kernel cache: the linked list -/

theorem lastFrom_cons (s : Ptr) (a : Nat) (A : List Nat) :
    lastFrom s (a :: A) = lastFrom (Ptr.head a) A := by
  cases A with
  | nil => simp [lastFrom]
  | cons b A =>
    simp only [lastFrom, List.getLast?_cons_cons]
    rw [List.getLast?_eq_getLast _ (List.cons_ne_nil b A)]

theorem lastFrom_mem (s : Ptr) (A : List Nat) :
    lastFrom s A = s ∨ lastFrom s A ∈ A.map Ptr.head := by
  induction A generalizing s with
  | nil => left; rfl
  | cons a A ih =>
    rw [lastFrom_cons]
    rcases ih (Ptr.head a) with h | h
    · right; rw [h]; simp
    · right; simp only [List.map_cons, List.mem_cons]; right; exact h

theorem getLast?_seg (s : Ptr) (A : List Nat) :
    (s :: A.map Ptr.head).getLast? = some (lastFrom s A) := by
  induction A generalizing s with
  | nil => rfl
  | cons a A ih =>
    rw [lastFrom_cons, List.map_cons, List.getLast?_cons_cons]
    exact ih _

theorem head?_seg (B : List Nat) (e : Ptr) :
    (B.map Ptr.head ++ [e]).head? = some (firstTo B e) := by
  cases B <;> rfl

theorem chain_frame_left {c c' : Cache α} (A : List Nat) : ∀ (s : Ptr),
    s ∉ A.map Ptr.head → A.Nodup →
    (∀ r, r ≠ lastFrom s A → (r = s ∨ r ∈ A.map Ptr.head) → c'.get_next r = c.get_next r) →
    (∀ a ∈ A, c'.get_prev (Ptr.head a) = c.get_prev (Ptr.head a)) →
    List.Chain' (Linked c) (s :: A.map Ptr.head) →
    List.Chain' (Linked c') (s :: A.map Ptr.head) := by
  induction A with
  | nil => intro s _ _ _ _ _; simp
  | cons a A ih =>
    intro s hs hnd hnx hpv hc
    rw [List.map_cons, List.chain'_cons] at hc ⊢
    rw [List.nodup_cons] at hnd
    refine ⟨⟨?_, ?_⟩, ih (Ptr.head a) ?_ hnd.2 ?_ ?_ hc.2⟩
    · rw [hnx s ?_ (Or.inl rfl)]
      · exact hc.1.1
      · intro h
        rw [lastFrom_cons] at h
        rcases lastFrom_mem (Ptr.head a) A with h' | h'
        · rw [h'] at h; apply hs; rw [h]; simp
        · apply hs; rw [h]; simp only [List.map_cons, List.mem_cons]; right; exact h'
    · rw [hpv a (List.mem_cons_self _ _)]; exact hc.1.2
    · intro h
      simp only [List.mem_map, Ptr.head.injEq, exists_eq_right] at h
      exact hnd.1 h
    · intro r hr hm
      rw [lastFrom_cons] at hnx
      apply hnx r hr
      right
      rcases hm with h | h
      · rw [h]; simp
      · simp only [List.map_cons, List.mem_cons]; right; exact h
    · intro b hb; exact hpv b (List.mem_cons_of_mem _ hb)

theorem chain_frame_right {c c' : Cache α} (e : Ptr) (B : List Nat) :
    e ∉ B.map Ptr.head → B.Nodup →
    (∀ b ∈ B, c'.get_next (Ptr.head b) = c.get_next (Ptr.head b)) →
    (∀ r, r ≠ firstTo B e → (r = e ∨ r ∈ B.map Ptr.head) → c'.get_prev r = c.get_prev r) →
    List.Chain' (Linked c) (B.map Ptr.head ++ [e]) →
    List.Chain' (Linked c') (B.map Ptr.head ++ [e]) := by
  induction B with
  | nil => intro _ _ _ _ _; simp
  | cons b B ih =>
    intro he hnd hnx hpv hc
    rw [List.map_cons, List.cons_append, List.chain'_cons'] at hc ⊢
    rw [List.nodup_cons] at hnd
    have he' : e ∉ B.map Ptr.head := fun h => he (by
      simp only [List.map_cons, List.mem_cons]; right; exact h)
    have hbe : e ≠ Ptr.head b := fun h => he (by rw [h]; simp)
    have hbB : Ptr.head b ∉ B.map Ptr.head := by
      intro h
      simp only [List.mem_map, Ptr.head.injEq, exists_eq_right] at h
      exact hnd.1 h
    refine ⟨?_, ih he' hnd.2 ?_ ?_ hc.2⟩
    · intro y hy
      have hy' := hc.1 y hy
      rw [head?_seg] at hy
      simp only [Option.mem_def, Option.some.injEq] at hy
      refine ⟨?_, ?_⟩
      · rw [hnx b (List.mem_cons_self _ _)]; exact hy'.1
      · rw [hpv y ?_ ?_]
        · exact hy'.2
        · simp only [firstTo]
          intro h
          rw [← hy] at h
          cases B with
          | nil => exact hbe h
          | cons b' B' =>
            simp only [firstTo, Ptr.head.injEq] at h
            apply hnd.1; rw [← h]; simp
        · rw [← hy]
          cases B with
          | nil => left; rfl
          | cons b' B' => right; simp [firstTo]
    · intro b' hb'; exact hnx b' (List.mem_cons_of_mem _ hb')
    · intro r _ hm
      apply hpv r
      · simp only [firstTo]
        intro h
        rcases hm with h' | h'
        · exact hbe (h'.symm.trans h)
        · rw [h] at h'; exact hbB h'
      · rcases hm with h' | h'
        · left; exact h'
        · right; simp only [List.map_cons, List.mem_cons]; right; exact h'

theorem chain_join {c : Cache α} (A B : List Nat) :
    List.Chain' (Linked c) (ring (A ++ B)) ↔
      List.Chain' (Linked c) (Ptr.lru_head :: A.map Ptr.head) ∧
      Linked c (lastFrom Ptr.lru_head A) (firstTo B Ptr.lru_head) ∧
      List.Chain' (Linked c) (B.map Ptr.head ++ [Ptr.lru_head]) := by
  have e : ring (A ++ B) =
      (Ptr.lru_head :: A.map Ptr.head) ++ (B.map Ptr.head ++ [Ptr.lru_head]) := by
    simp [ring]
  rw [e, List.chain'_append, getLast?_seg, head?_seg]
  simp only [Option.mem_def, Option.some.injEq, forall_eq']
  tauto

theorem chain_split {c : Cache α} (A : List Nat) (x : Nat) (B : List Nat) :
    List.Chain' (Linked c) (ring (A ++ x :: B)) ↔
      List.Chain' (Linked c) (Ptr.lru_head :: A.map Ptr.head) ∧
      Linked c (lastFrom Ptr.lru_head A) (Ptr.head x) ∧
      Linked c (Ptr.head x) (firstTo B Ptr.lru_head) ∧
      List.Chain' (Linked c) (B.map Ptr.head ++ [Ptr.lru_head]) := by
  rw [chain_join]
  have e : List.Chain' (Linked c) ((x :: B).map Ptr.head ++ [Ptr.lru_head]) ↔
      Linked c (Ptr.head x) (firstTo B Ptr.lru_head) ∧
        List.Chain' (Linked c) (B.map Ptr.head ++ [Ptr.lru_head]) := by
    rw [List.map_cons, List.cons_append, List.chain'_cons', head?_seg]
    simp only [Option.mem_def, Option.some.injEq, forall_eq']
  rw [e]
  simp only [firstTo]

theorem firstTo_mem (B : List Nat) (e : Ptr) :
    firstTo B e = e ∨ firstTo B e ∈ B.map Ptr.head := by
  cases B with
  | nil => left; rfl
  | cons b B => right; simp [firstTo]

theorem head_mem_map {x : Nat} {A : List Nat} : Ptr.head x ∈ A.map Ptr.head ↔ x ∈ A := by
  simp

theorem Cache.chain_delete {c : Cache α} {A : List Nat} {x : Nat} {B : List Nat}
    (h : c.Chain (A ++ x :: B)) :
    ∃ c', c.lru_delete (Ptr.head x) = some c' ∧ c'.size = c.size ∧ c'.l = c.l ∧
      c'.contents = c.contents ∧ c'.Chain (A ++ B) ∧
      c'.get_next (Ptr.head x) = some (firstTo B Ptr.lru_head) := by
  obtain ⟨hc, hnd⟩ := h
  rw [chain_split] at hc
  obtain ⟨hL, l1, l2, hR⟩ := hc
  have hnd' : (A ++ B).Nodup ∧ x ∉ A ∧ x ∉ B := by
    rw [List.nodup_middle, List.nodup_cons] at hnd
    refine ⟨hnd.2, fun h => hnd.1 ?_, fun h => hnd.1 ?_⟩
    · exact List.mem_append_left _ h
    · exact List.mem_append_right _ h
  obtain ⟨hAB, hxA, hxB⟩ := hnd'
  have hdis : ∀ a ∈ A, ∀ b ∈ B, a ≠ b := by
    intro a ha b hb hab
    exact (List.nodup_append.1 hAB).2.2 ha (hab ▸ hb)
  have hpx : lastFrom Ptr.lru_head A ≠ Ptr.head x := by
    rcases lastFrom_mem Ptr.lru_head A with h | h
    · rw [h]; simp
    · intro e; rw [e, head_mem_map] at h; exact hxA h
  obtain ⟨c', hd, hs, hl, hct, hnx, hpv⟩ :=
    Cache.lru_delete_spec l1.2 l2.1 hpx (Cache.valid_of_get_next l1.1)
      (Cache.valid_of_get_prev l2.2)
  refine ⟨c', hd, hs, hl, hct, ⟨?_, hAB⟩, ?_⟩
  · rw [chain_join]
    refine ⟨?_, ⟨?_, ?_⟩, ?_⟩
    · apply chain_frame_left A Ptr.lru_head (by simp) (List.nodup_append.1 hAB).1 _ _ hL
      · intro r hr _; rw [hnx, if_neg hr]
      · intro a ha
        rw [hpv, if_neg]
        intro e
        rcases firstTo_mem B Ptr.lru_head with h | h
        · rw [h] at e; exact Ptr.noConfusion e
        · rw [← e, head_mem_map] at h; exact hdis a ha a h rfl
    · rw [hnx, if_pos rfl]
    · rw [hpv, if_pos rfl]
    · apply chain_frame_right Ptr.lru_head B (by simp) (List.nodup_append.1 hAB).2.1 _ _ hR
      · intro b hb
        rw [hnx, if_neg]
        intro e
        rcases lastFrom_mem Ptr.lru_head A with h | h
        · rw [h] at e; exact Ptr.noConfusion e
        · rw [← e, head_mem_map] at h; exact hdis b h b hb rfl
      · intro r hr _; rw [hpv, if_neg hr]
  · rw [hnx, if_neg (Ne.symm hpx)]; exact l2.1

theorem Cache.chain_insert {c : Cache α} {L : List Nat} {x : Nat}
    (h : c.Chain L) (hx : x ∉ L) (hv : x < c.head.length) :
    ∃ c', c.lru_insert (Ptr.head x) = some c' ∧ c'.size = c.size ∧ c'.l = c.l ∧
      c'.contents = c.contents ∧ c'.Chain (L ++ [x]) := by
  obtain ⟨hc, hnd⟩ := h
  have hc' := hc
  rw [← List.append_nil L, chain_join] at hc'
  obtain ⟨hL, lk, -⟩ := hc'
  simp only [firstTo] at lk
  have hlp : c.lru_prev = lastFrom Ptr.lru_head L := by
    have := lk.2
    simpa [Cache.get_prev] using this
  have hpx : lastFrom Ptr.lru_head L ≠ Ptr.head x := by
    rcases lastFrom_mem Ptr.lru_head L with h | h
    · rw [h]; simp
    · intro e; rw [e, head_mem_map] at h; exact hx h
  obtain ⟨c', hi, hs, hl, hct, hnx, hpv⟩ :=
    Cache.lru_insert_spec (c := c) (h := Ptr.head x) hv (by rw [hlp]; exact hpx)
      (by rw [hlp]; exact Cache.valid_of_get_next lk.1)
  rw [hlp] at hnx hpv
  refine ⟨c', hi, hs, hl, hct, ?_, ?_⟩
  · rw [chain_split]
    refine ⟨?_, ⟨?_, ?_⟩, ⟨?_, ?_⟩, by simp⟩
    · apply chain_frame_left L Ptr.lru_head (by simp) hnd _ _ hL
      · intro r hr hm
        rw [hnx, if_neg hr, if_neg]
        intro e
        rcases hm with h | h
        · rw [h] at e; exact Ptr.noConfusion e
        · rw [e, head_mem_map] at h; exact hx h
      · intro a ha
        rw [hpv, if_neg (by simp), if_neg]
        intro e
        simp only [Ptr.head.injEq] at e
        exact hx (e ▸ ha)
    · rw [hnx, if_pos rfl]
    · rw [hpv, if_neg (by simp), if_pos rfl]
    · rw [hnx, if_neg (Ne.symm hpx), if_pos rfl]; rfl
    · rw [hpv]; simp [firstTo]
  · rw [List.nodup_append]
    refine ⟨hnd, by simp, ?_⟩
    intro a ha hb
    simp only [List.mem_singleton] at hb
    exact hx (hb ▸ ha)

theorem Cache.chain_first {c : Cache α} {L : List Nat} (h : c.Chain L) :
    c.lru_next = firstTo L Ptr.lru_head := by
  have hc := h.1
  rw [ring, List.chain'_cons', head?_seg] at hc
  have := (hc.1 _ rfl).1
  simpa [Cache.get_next] using this

theorem Cache.chain_valid {c : Cache α} {L : List Nat} (h : c.Chain L) {x : Nat}
    (hx : x ∈ L) : x < c.head.length := by
  obtain ⟨A, B, rfl⟩ := List.append_of_mem hx
  have hc := h.1
  rw [chain_split] at hc
  exact Cache.valid_of_get_prev hc.2.1.2

theorem Cache.chain_congr {c c' : Cache α} {L : List Nat}
    (hn : ∀ r, c'.get_next r = c.get_next r) (hp : ∀ r, c'.get_prev r = c.get_prev r)
    (h : c.Chain L) : c'.Chain L := by
  refine ⟨h.1.imp ?_, h.2⟩
  intro a b hab
  exact ⟨by rw [hn]; exact hab.1, by rw [hp]; exact hab.2⟩

theorem Cache.chain_new (s l : Nat) (z : Int) : (Cache.new s l z : Cache α).Chain [] := by
  refine ⟨?_, List.nodup_nil⟩
  simp [ring, Linked, Cache.new, Cache.get_next, Cache.get_prev]

/-! ## Kernel cache: the list view of the operations -/

theorem Cache.contents_getElem? (c : Cache α) (k : Nat) :
    c.contents[k]? = (c.head[k]?).map (fun e => (e.data, e.len)) := by
  simp [Cache.contents]

theorem Cache.lenAt_contents {c : Cache α} {k : Nat} {e : head_t α}
    (h : c.head[k]? = some e) : lenAt c.contents k = e.len := by
  simp [lenAt, Cache.contents_getElem?, h]

theorem Cache.dataAt_contents {c : Cache α} {k : Nat} {e : head_t α}
    (h : c.head[k]? = some e) : dataAt c.contents k = e.data := by
  simp [dataAt, Cache.contents_getElem?, h]

/-- Overwriting the buffer and the length of a record leaves the links alone. -/
theorem Cache.set_head_spec {c : Cache α} {k : Nat} {e f : head_t α}
    (h : c.head[k]? = some e) (hp : f.prev = e.prev) (hn : f.next = e.next) (z : Int) :
    ({ c with size := z, head := c.head.set k f } : Cache α).contents =
        c.contents.set k (f.data, f.len) ∧
      (∀ r, ({ c with size := z, head := c.head.set k f } : Cache α).get_next r =
        c.get_next r) ∧
      (∀ r, ({ c with size := z, head := c.head.set k f } : Cache α).get_prev r =
        c.get_prev r) := by
  have hk : k < c.head.length := (List.getElem?_eq_some.1 h).1
  refine ⟨by simp [Cache.contents, List.map_set], ?_, ?_⟩
  · intro r
    cases r with
    | null => rfl
    | lru_head => rfl
    | head i =>
      by_cases hi : k = i
      · subst hi; simp [Cache.get_next, hk, h, hn]
      · simp [Cache.get_next, List.getElem?_set_ne hi]
  · intro r
    cases r with
    | null => rfl
    | lru_head => rfl
    | head i =>
      by_cases hi : k = i
      · subst hi; simp [Cache.get_prev, hk, h, hp]
      · simp [Cache.get_prev, List.getElem?_set_ne hi]

theorem Cache.release_spec {c : Cache α} {k : Nat} (hk : k < c.head.length) :
    ∃ c', c.release k = some c' ∧ c'.size = c.size + lenAt c.contents k ∧
      c'.contents = c.contents.set k ([], 0) ∧
      (∀ r, c'.get_next r = c.get_next r) ∧ (∀ r, c'.get_prev r = c.get_prev r) := by
  have he : c.head[k]? = some c.head[k] := List.getElem?_eq_getElem hk
  obtain ⟨h1, h2, h3⟩ := Cache.set_head_spec (f := { c.head[k] with data := [], len := 0 })
    he rfl rfl (c.size + c.head[k].len)
  refine ⟨_, by simp only [Cache.release, he], ?_, h1, h2, h3⟩
  simp [Cache.lenAt_contents he]

theorem Cache.free_old_space_rep (more : Int) (L : List Nat) :
    ∀ (c : Cache α) (fuel : Nat), c.Chain L →
      (c.free_old_space fuel more = none ∧
        (L.length ≤ fuel → LruView.free_old_space more L c.size c.contents = none)) ∨
      (∃ c' a, c.free_old_space fuel more = some c' ∧
        LruView.free_old_space more L c.size c.contents = some a ∧ c'.Rep a ∧ c'.l = c.l) := by
  induction L with
  | nil =>
    intro c fuel hc
    have hf := Cache.chain_first hc
    simp only [firstTo] at hf
    by_cases hs : c.size < more
    · left
      cases fuel <;> simp [Cache.free_old_space, LruView.free_old_space, hs, hf]
    · right
      refine ⟨c, ⟨c.size, c.contents, []⟩, ?_, ?_, ⟨rfl, rfl, hc⟩, rfl⟩
      · cases fuel <;> simp [Cache.free_old_space, hs]
      · simp [LruView.free_old_space, hs]
  | cons k r ih =>
    intro c fuel hc
    have hf := Cache.chain_first hc
    simp only [firstTo] at hf
    by_cases hs : c.size < more
    · cases fuel with
      | zero => left; simp [Cache.free_old_space, hs]
      | succ fuel =>
        obtain ⟨c1, hd, hs1, hl1, hct1, hch1, -⟩ := Cache.chain_delete (A := []) hc
        have hk : k < c1.head.length := by
          rw [← Cache.contents_length, hct1, Cache.contents_length]
          exact Cache.chain_valid hc (List.mem_cons_self _ _)
        obtain ⟨c2, hr, hs2, hct2, hn2, hp2⟩ := Cache.release_spec hk
        have hch2 : c2.Chain r := Cache.chain_congr hn2 hp2 hch1
        have e1 : c.free_old_space (fuel + 1) more = c2.free_old_space fuel more := by
          simp [Cache.free_old_space, hs, hf, hd, hr]
        have e2 : LruView.free_old_space more (k :: r) c.size c.contents =
            LruView.free_old_space more r c2.size c2.contents := by
          simp [LruView.free_old_space, hs, hs2, hct2, hs1, hct1]
        have hl2 : c2.l = c.l := by
          rw [← hl1]
          simp only [Cache.release] at hr
          cases he : c1.head[k]? with
          | none => simp [he] at hr
          | some e => simp only [he, Option.some.injEq] at hr; rw [← hr]
        rw [e1, e2]
        rcases ih c2 fuel hch2 with h | ⟨c', a, h1, h2, h3, h4⟩
        · left
          refine ⟨h.1, fun hle => h.2 ?_⟩
          simpa using hle
        · right; exact ⟨c', a, h1, h2, h3, by rw [h4, hl2]⟩
    · right
      refine ⟨c, ⟨c.size, c.contents, k :: r⟩, ?_, ?_, ⟨rfl, rfl, hc⟩, rfl⟩
      · cases fuel <;> simp [Cache.free_old_space, hs]
      · simp [LruView.free_old_space, hs]

theorem LruView.free_old_space_lru (more : Int) (L : List Nat) :
    ∀ (s : Int) (ct : List (List (Option α) × Int)) (a : LruView α),
      LruView.free_old_space more L s ct = some a →
      a.lru.Sublist L ∧ a.contents.length = ct.length := by
  induction L with
  | nil =>
    intro s ct a h
    simp only [LruView.free_old_space] at h
    split at h
    · simp at h
    · simp only [Option.some.injEq] at h; subst h; simp
  | cons k r ih =>
    intro s ct a h
    simp only [LruView.free_old_space] at h
    split at h
    · obtain ⟨h1, h2⟩ := ih _ _ _ h
      exact ⟨h1.trans (List.sublist_cons_self _ _), by simpa using h2⟩
    · simp only [Option.some.injEq] at h; subst h; simp

theorem Cache.head_of_contents {c : Cache α} {k : Nat} (hk : k < c.head.length) :
    ∃ e, c.head[k]? = some e ∧ e.len = lenAt c.contents k ∧ e.data = dataAt c.contents k :=
  ⟨c.head[k], List.getElem?_eq_getElem hk,
    (Cache.lenAt_contents (List.getElem?_eq_getElem hk)).symm,
    (Cache.dataAt_contents (List.getElem?_eq_getElem hk)).symm⟩

theorem Cache.rep_length {c : Cache α} {a : LruView α} (h : c.Rep a) :
    a.contents.length = c.head.length := by
  rw [← h.2.1, Cache.contents_length]

/-- The statement `if(h->len) lru_delete(h);` on a well linked list. -/
theorem Cache.delete_if_rep {c : Cache α} {L : List Nat} {k : Nat} (hc : c.Chain L)
    (hm : k ∈ L ↔ lenAt c.contents k ≠ 0) :
    ∃ c1, (if lenAt c.contents k ≠ 0 then c.lru_delete (Ptr.head k) else some c) = some c1 ∧
      c1.size = c.size ∧ c1.contents = c.contents ∧ c1.l = c.l ∧
      c1.Chain (if lenAt c.contents k ≠ 0 then L.erase k else L) ∧
      k ∉ (if lenAt c.contents k ≠ 0 then L.erase k else L) := by
  by_cases h0 : lenAt c.contents k ≠ 0
  · simp only [if_pos h0]
    have hin := hm.2 h0
    obtain ⟨A, B, rfl⟩ := List.append_of_mem hin
    have hnd := hc.2
    rw [List.nodup_middle, List.nodup_cons] at hnd
    have hA : k ∉ A := fun h => hnd.1 (List.mem_append_left _ h)
    have hB : k ∉ B := fun h => hnd.1 (List.mem_append_right _ h)
    obtain ⟨c1, hd, hs, hl, hct, hch, -⟩ := Cache.chain_delete hc
    have he : (A ++ k :: B).erase k = A ++ B := by
      rw [List.erase_append_right _ hA, List.erase_cons_head]
    rw [he]
    exact ⟨c1, hd, hs, hct, hl, hch, hnd.1⟩
  · simp only [if_neg h0]
    exact ⟨c, rfl, rfl, rfl, rfl, hc, fun h => h0 (hm.1 h)⟩

theorem Cache.get_data_rep {c : Cache α} {L : List Nat} (fuel index : Nat) (len : Int)
    (hc : c.Chain L) (hm : index ∈ L ↔ lenAt c.contents index ≠ 0) :
    (c.get_data fuel index len = none ∧
      (L.length ≤ fuel → LruView.get_data ⟨c.size, c.contents, L⟩ index len = none)) ∨
    (∃ c' a p, c.get_data fuel index len = some (c', p) ∧
      LruView.get_data ⟨c.size, c.contents, L⟩ index len = some (a, p) ∧ c'.Rep a) := by
  by_cases hi : index < c.head.length
  · obtain ⟨h0, hh0, hl0, -⟩ := Cache.head_of_contents hi
    obtain ⟨c1, hd, hs1, hct1, -, hch1, hni⟩ := Cache.delete_if_rep hc hm
    have hi1 : index < c1.head.length := by
      rw [← Cache.contents_length, hct1, Cache.contents_length]; exact hi
    obtain ⟨h1, hh1, hl1, -⟩ := Cache.head_of_contents hi1
    have hcl : index < c.contents.length := by rw [Cache.contents_length]; exact hi
    rw [hct1] at hl1
    by_cases hmore : len - lenAt c.contents index > 0
    · -- the entry grows
      have key : c.get_data fuel index len =
          match c1.free_old_space fuel (len - lenAt c.contents index) with
          | none => none
          | some c2 =>
            match c2.head[index]? with
            | none => none
            | some h2 =>
              match ({ c2 with size := c2.size - (len - lenAt c.contents index)
                               head := c2.head.set index
                                 { h2 with data := realloc h2.data len, len := len } } :
                       Cache α).lru_insert (Ptr.head index) with
              | none => none
              | some c4 => some (c4, h2.len) := by
        simp only [Cache.get_data, hh0, hl0, hd, hh1, hl1, hmore, if_true]
      have akey : LruView.get_data ⟨c.size, c.contents, L⟩ index len =
          match LruView.free_old_space (len - lenAt c.contents index)
              (if lenAt c.contents index ≠ 0 then L.erase index else L) c.size c.contents with
          | none => none
          | some a2 =>
            some ({ size := a2.size - (len - lenAt c.contents index)
                    contents := a2.contents.set index
                      (realloc (dataAt a2.contents index) len, len)
                    lru := a2.lru ++ [index] }, lenAt a2.contents index) := by
        simp only [LruView.get_data, hcl, hmore, if_true]
      rw [key, akey]
      rcases Cache.free_old_space_rep (len - lenAt c.contents index) _ c1 fuel hch1 with
        h | ⟨c2, a2, hf, haf, hrep, -⟩
      · left
        rw [hs1, hct1] at h
        refine ⟨by rw [h.1], fun hle => ?_⟩
        rw [h.2 ?_]
        split
        · exact le_trans (List.erase_sublist _ _).length_le hle
        · exact hle
      · right
        rw [hs1, hct1] at haf
        rw [hf, haf]
        obtain ⟨hsub, hlen⟩ := LruView.free_old_space_lru _ _ _ _ _ haf
        have hi2 : index < c2.head.length := by
          rw [← Cache.rep_length hrep, hlen, Cache.contents_length]; exact hi
        obtain ⟨h2, hh2, hl2, hd2⟩ := Cache.head_of_contents hi2
        obtain ⟨e1, e2, e3⟩ := Cache.set_head_spec
          (f := { h2 with data := realloc h2.data len, len := len }) hh2 rfl rfl
          (c2.size - (len - lenAt c.contents index))
        have hch3 := Cache.chain_congr e2 e3 hrep.2.2
        have hni2 : index ∉ a2.lru := fun h => hni (hsub.subset h)
        obtain ⟨c4, hins, hs4, -, hct4, hch4⟩ := Cache.chain_insert hch3 hni2
          (by simpa using hi2)
        simp only [hh2, hins, hl2, hrep.2.1]
        refine ⟨c4, _, _, rfl, rfl, ?_, ?_, hch4⟩
        · rw [hs4]; simp only [hrep.1]
        · rw [hct4, e1]; simp only [hd2, hrep.2.1]
    · -- nothing to allocate
      right
      obtain ⟨c4, hins, hs4, -, hct4, hch4⟩ := Cache.chain_insert hch1 hni hi1
      simp only [Cache.get_data, hh0, hl0, hd, hh1, hl1, hmore, if_false, hins,
        LruView.get_data, hcl, if_true]
      exact ⟨c4, _, _, rfl, rfl, by rw [hs4, hs1], by rw [hct4, hct1], hch4⟩
  · left
    have hn : c.head[index]? = none := List.getElem?_eq_none (le_of_not_lt hi)
    refine ⟨by simp only [Cache.get_data, hn], fun _ => ?_⟩
    have : ¬ index < c.contents.length := by rw [Cache.contents_length]; exact hi
    simp only [LruView.get_data, this, if_false]

theorem Cache.swap_loop_rep (i j : Nat) (R : List Nat) :
    ∀ (P : List Nat) (c : Cache α) (fuel : Nat), c.Chain (P ++ R) →
      (c.swap_loop fuel (firstTo R Ptr.lru_head) i j = none ∧
        (R.length ≤ fuel → LruView.swap_loop i j R c.size c.contents = none)) ∨
      (∃ c' a, c.swap_loop fuel (firstTo R Ptr.lru_head) i j = some c' ∧
        LruView.swap_loop i j R c.size c.contents = some a ∧
        c'.size = a.size ∧ c'.contents = a.contents ∧ c'.Chain (P ++ a.lru)) := by
  induction R with
  | nil =>
    intro P c fuel hc
    right
    refine ⟨c, ⟨c.size, c.contents, []⟩, ?_, rfl, rfl, rfl, hc⟩
    cases fuel <;> simp [firstTo, Cache.swap_loop]
  | cons k r ih =>
    intro P c fuel hc
    cases fuel with
    | zero => left; simp [firstTo, Cache.swap_loop]
    | succ fuel =>
      have hk : k < c.head.length := Cache.chain_valid hc (by simp)
      obtain ⟨h, hh, hl, hd⟩ := Cache.head_of_contents hk
      have hnext : c.get_next (Ptr.head k) = some (firstTo r Ptr.lru_head) := by
        have := hc.1
        rw [chain_split] at this
        exact this.2.2.1.1
      have hc' : c.Chain ((P ++ [k]) ++ r) := by simpa using hc
      -- the three outcomes of the body
      by_cases h1 : lenAt c.contents k > (i : Int)
      · by_cases h2 : lenAt c.contents k > (j : Int)
        · cases hsw : swap_cells (dataAt c.contents k) i j with
          | none =>
            left
            simp [firstTo, Cache.swap_loop, Cache.swap_body, LruView.swap_loop, hh, hl, hd,
              h1, h2, hsw]
          | some d =>
            obtain ⟨c1, hc1⟩ : ∃ c1 : Cache α,
                c1 = { c with size := c.size, head := c.head.set k { h with data := d } } :=
              ⟨_, rfl⟩
            obtain ⟨e1, e2, e3⟩ := Cache.set_head_spec (f := { h with data := d }) hh rfl rfl
              c.size
            rw [← hc1] at e1 e2 e3
            have e1' : c1.contents = c.contents.set k (d, lenAt c.contents k) := by
              rw [← hl]; exact e1
            have es1 : c1.size = c.size := by rw [hc1]
            have hch1 := Cache.chain_congr e2 e3 hc'
            have eb : c.swap_body k i j = some c1 := by
              simp [Cache.swap_body, hh, hl, hd, h1, h2, hsw, hc1]
            have en := (e2 (Ptr.head k)).trans hnext
            have ec : c.swap_loop (fuel + 1) (firstTo (k :: r) Ptr.lru_head) i j =
                Cache.swap_loop fuel c1 (firstTo r Ptr.lru_head) i j := by
              simp only [firstTo, Cache.swap_loop, eb, en]
            have ea : LruView.swap_loop i j (k :: r) c.size c.contents =
                (LruView.swap_loop i j r c1.size c1.contents).map
                  (fun a => { a with lru := k :: a.lru }) := by
              simp [LruView.swap_loop, h1, h2, hsw, e1', es1]
            rw [ec, ea]
            rcases ih (P ++ [k]) c1 fuel hch1 with hn | ⟨c', a, q1, q2, q3, q4, q5⟩
            · left
              refine ⟨hn.1, fun hle => ?_⟩
              rw [hn.2 (by simpa using hle)]; rfl
            · right
              refine ⟨c', { a with lru := k :: a.lru }, q1, by rw [q2]; rfl, q3, q4, ?_⟩
              simpa using q5
        · -- give up: the record is evicted
          obtain ⟨c1, hdel, hs1, -, hct1, hch1, hn1⟩ := Cache.chain_delete hc
          have hk1 : k < c1.head.length := by
            rw [← Cache.contents_length, hct1, Cache.contents_length]; exact hk
          obtain ⟨c2, hr, hs2, hct2, hn2, hp2⟩ := Cache.release_spec hk1
          have hc2 := Cache.chain_congr hn2 hp2 hch1
          have eb : c.swap_body k i j = some c2 := by
            simp [Cache.swap_body, hh, hl, h1, h2, hdel, hr]
          have en := (hn2 (Ptr.head k)).trans hn1
          have ec : c.swap_loop (fuel + 1) (firstTo (k :: r) Ptr.lru_head) i j =
              Cache.swap_loop fuel c2 (firstTo r Ptr.lru_head) i j := by
            simp only [firstTo, Cache.swap_loop, eb, en]
          have ea : LruView.swap_loop i j (k :: r) c.size c.contents =
              LruView.swap_loop i j r c2.size c2.contents := by
            simp [LruView.swap_loop, h1, h2, hs2, hct2, hs1, hct1]
          rw [ec, ea]
          rcases ih P c2 fuel hc2 with hn | hsome
          · left; exact ⟨hn.1, fun hle => hn.2 (by simpa using hle)⟩
          · right; exact hsome
      · have eb : c.swap_body k i j = some c := by
          simp [Cache.swap_body, hh, hl, h1]
        have ec : c.swap_loop (fuel + 1) (firstTo (k :: r) Ptr.lru_head) i j =
            Cache.swap_loop fuel c (firstTo r Ptr.lru_head) i j := by
          simp only [firstTo, Cache.swap_loop, eb, hnext]
        have ea : LruView.swap_loop i j (k :: r) c.size c.contents =
            (LruView.swap_loop i j r c.size c.contents).map
              (fun a => { a with lru := k :: a.lru }) := by
          simp [LruView.swap_loop, h1]
        rw [ec, ea]
        rcases ih (P ++ [k]) c fuel hc' with hn | ⟨c', a, q1, q2, q3, q4, q5⟩
        · left
          refine ⟨hn.1, fun hle => ?_⟩
          rw [hn.2 (by simpa using hle)]; rfl
        · right
          refine ⟨c', { a with lru := k :: a.lru }, q1, by rw [q2]; rfl, q3, q4, ?_⟩
          simpa using q5

theorem lenAt_set (ct : List (List (Option α) × Int)) (k m : Nat)
    (e : List (Option α) × Int) (hk : k < ct.length) :
    lenAt (ct.set k e) m = if m = k then e.2 else lenAt ct m := by
  by_cases h : m = k
  · subst h; simp [lenAt, hk]
  · have : k ≠ m := fun e => h e.symm
    simp [lenAt, List.getElem?_set_ne this, h]

theorem dataAt_set (ct : List (List (Option α) × Int)) (k m : Nat)
    (e : List (Option α) × Int) (hk : k < ct.length) :
    dataAt (ct.set k e) m = if m = k then e.1 else dataAt ct m := by
  by_cases h : m = k
  · subst h; simp [dataAt, hk]
  · have : k ≠ m := fun e => h e.symm
    simp [dataAt, List.getElem?_set_ne this, h]

theorem lenAt_swap_contents (ct : List (List (Option α) × Int)) {i j : Nat} (m : Nat)
    (hij : i ≠ j) (hi : i < ct.length) (hj : j < ct.length) :
    lenAt (swap_contents ct i j) m =
      if m = i then lenAt ct j else if m = j then lenAt ct i else lenAt ct m := by
  unfold swap_contents
  rw [lenAt_set _ _ _ _ (by simpa using hj), lenAt_set _ _ _ _ hi]
  by_cases h1 : m = j
  · subst h1; simp [Ne.symm hij]
  · simp [h1]

theorem dataAt_swap_contents (ct : List (List (Option α) × Int)) {i j : Nat} (m : Nat)
    (hij : i ≠ j) (hi : i < ct.length) (hj : j < ct.length) :
    dataAt (swap_contents ct i j) m =
      if m = i then dataAt ct j else if m = j then dataAt ct i else dataAt ct m := by
  unfold swap_contents
  rw [dataAt_set _ _ _ _ (by simpa using hj), dataAt_set _ _ _ _ hi]
  by_cases h1 : m = j
  · subst h1; simp [Ne.symm hij]
  · simp [h1]

theorem Cache.swap_entries_spec {c : Cache α} {i j : Nat} (hij : i ≠ j)
    (hi : i < c.head.length) (hj : j < c.head.length) :
    ∃ c', c.swap_entries i j = some c' ∧ c'.size = c.size ∧
      c'.contents = swap_contents c.contents i j ∧
      (∀ r, c'.get_next r = c.get_next r) ∧ (∀ r, c'.get_prev r = c.get_prev r) := by
  obtain ⟨ei, hei, li, di⟩ := Cache.head_of_contents hi
  obtain ⟨ej, hej, lj, dj⟩ := Cache.head_of_contents hj
  obtain ⟨c1, hc1⟩ : ∃ c1 : Cache α, c1 =
      { c with size := c.size
               head := c.head.set i { ei with data := ej.data, len := ej.len } } := ⟨_, rfl⟩
  obtain ⟨a1, a2, a3⟩ := Cache.set_head_spec
    (f := { ei with data := ej.data, len := ej.len }) hei rfl rfl c.size
  rw [← hc1] at a1 a2 a3
  have hej1 : c1.head[j]? = some ej := by
    rw [hc1]; simp only [List.getElem?_set_ne hij]; exact hej
  obtain ⟨b1, b2, b3⟩ := Cache.set_head_spec
    (f := { ej with data := ei.data, len := ei.len }) hej1 rfl rfl c1.size
  refine ⟨{ c1 with size := c1.size
                    head := c1.head.set j { ej with data := ei.data, len := ei.len } },
    ?_, ?_, ?_, ?_, ?_⟩
  · simp only [Cache.swap_entries, hei, hej, hc1]
  · rw [hc1]
  · rw [b1, a1]; simp only [swap_contents, li, lj, di, dj]
  · intro r; rw [b2, a2]
  · intro r; rw [b3, a3]

theorem Cache.delete_if_cached_eq {c : Cache α} {k : Nat} (hk : k < c.head.length) :
    c.delete_if_cached k =
      if lenAt c.contents k ≠ 0 then c.lru_delete (Ptr.head k) else some c := by
  obtain ⟨e, he, hl, -⟩ := Cache.head_of_contents hk
  simp only [Cache.delete_if_cached, he, hl]

theorem Cache.insert_if_cached_eq {c : Cache α} {k : Nat} (hk : k < c.head.length) :
    c.insert_if_cached k =
      if lenAt c.contents k ≠ 0 then c.lru_insert (Ptr.head k) else some c := by
  obtain ⟨e, he, hl, -⟩ := Cache.head_of_contents hk
  simp only [Cache.insert_if_cached, he, hl]

/-- The statement `if(h->len) lru_insert(h);` on a well linked list. -/
theorem Cache.insert_if_rep {c : Cache α} {L : List Nat} {k : Nat} (hc : c.Chain L)
    (hk : k < c.head.length) (hm : k ∉ L) :
    ∃ c1, c.insert_if_cached k = some c1 ∧ c1.size = c.size ∧ c1.contents = c.contents ∧
      c1.Chain (if lenAt c.contents k ≠ 0 then L ++ [k] else L) := by
  rw [Cache.insert_if_cached_eq hk]
  by_cases h0 : lenAt c.contents k ≠ 0
  · simp only [if_pos h0]
    obtain ⟨c1, h1, h2, -, h3, h4⟩ := Cache.chain_insert hc hm hk
    exact ⟨c1, h1, h2, h3, h4⟩
  · simp only [if_neg h0]
    exact ⟨c, rfl, rfl, rfl, hc⟩

theorem length_relink_le (ct : List (List (Option α) × Int)) (L : List Nat) (i j : Nat)
    (hij : i ≠ j) (hi : i ∈ L ↔ lenAt ct i ≠ 0) (hj : j ∈ L ↔ lenAt ct j ≠ 0) :
    (relink ct L i j).length = L.length := by
  unfold relink
  by_cases h1 : lenAt ct i ≠ 0 <;> by_cases h2 : lenAt ct j ≠ 0
  · have hi' := hi.2 h1
    have hj' : j ∈ L.erase i := (List.mem_erase_of_ne (Ne.symm hij)).2 (hj.2 h2)
    have p1 : 0 < L.length := List.length_pos_of_mem hi'
    have p2 : 0 < (L.erase i).length := List.length_pos_of_mem hj'
    have e1 := List.length_erase_of_mem hi'
    have e2 := List.length_erase_of_mem hj'
    simp only [if_pos h1, if_pos h2, List.length_append, List.length_singleton]
    clear h1 h2 hi hj
    omega
  · have hi' := hi.2 h1
    have p1 : 0 < L.length := List.length_pos_of_mem hi'
    have e1 := List.length_erase_of_mem hi'
    simp only [if_pos h1, if_neg h2, List.length_append, List.length_singleton]
    clear h1 h2 hi hj
    omega
  · have hj' := hj.2 h2
    have p1 : 0 < L.length := List.length_pos_of_mem hj'
    have e1 := List.length_erase_of_mem hj'
    simp only [if_neg h1, if_pos h2, List.length_append, List.length_singleton]
    clear h1 h2 hi hj
    omega
  · simp only [if_neg h1, if_neg h2]

theorem Cache.swap_index_rep {c : Cache α} {L : List Nat} (fuel i j : Nat)
    (hc : c.Chain L) (hi : i ∈ L ↔ lenAt c.contents i ≠ 0)
    (hj : j ∈ L ↔ lenAt c.contents j ≠ 0) :
    (c.swap_index fuel i j = none ∧
      (L.length ≤ fuel → LruView.swap_index ⟨c.size, c.contents, L⟩ i j = none)) ∨
    (∃ c' a, c.swap_index fuel i j = some c' ∧
      LruView.swap_index ⟨c.size, c.contents, L⟩ i j = some a ∧ c'.Rep a) := by
  by_cases hij : i = j
  · right
    exact ⟨c, ⟨c.size, c.contents, L⟩, by simp [Cache.swap_index, hij],
      by simp [LruView.swap_index, hij], rfl, rfl, hc⟩
  by_cases hv : i < c.head.length ∧ j < c.head.length
  · obtain ⟨vi, vj⟩ := hv
    have hlen : ∀ {c' : Cache α}, c'.contents = c.contents → ∀ {k}, k < c.head.length →
        k < c'.head.length := by
      intro c' h k hk
      rw [← Cache.contents_length, h, Cache.contents_length]; exact hk
    -- unlink
    obtain ⟨c1, d1, s1, ct1, -, ch1, ni1⟩ := Cache.delete_if_rep hc hi
    rw [← Cache.delete_if_cached_eq vi] at d1
    have hj1 : j ∈ (if lenAt c.contents i ≠ 0 then L.erase i else L) ↔
        lenAt c1.contents j ≠ 0 := by
      rw [ct1, ← hj]
      split
      · exact List.mem_erase_of_ne (Ne.symm hij)
      · rfl
    obtain ⟨c2, d2, s2, ct2, -, ch2, nj2⟩ := Cache.delete_if_rep ch1 hj1
    rw [← Cache.delete_if_cached_eq (hlen ct1 vj)] at d2
    rw [ct1] at ch2 nj2
    have ni2 : i ∉ (if lenAt c.contents j ≠ 0 then
        (if lenAt c.contents i ≠ 0 then L.erase i else L).erase j
        else (if lenAt c.contents i ≠ 0 then L.erase i else L)) := by
      split
      · exact fun h => ni1 (List.mem_of_mem_erase h)
      · exact ni1
    -- exchange the buffers
    have ct12 : c2.contents = c.contents := ct2.trans ct1
    obtain ⟨c3, d3, s3, ct3, n3, p3⟩ :=
      Cache.swap_entries_spec hij (hlen ct12 vi) (hlen ct12 vj)
    rw [ct12] at ct3
    have ch3 := Cache.chain_congr n3 p3 ch2
    have vi' : i < c.contents.length := by rw [Cache.contents_length]; exact vi
    have vj' : j < c.contents.length := by rw [Cache.contents_length]; exact vj
    have hl3 : ∀ {k}, k < c.head.length → k < c3.head.length := by
      intro k hk
      rw [← Cache.contents_length, ct3]
      simpa [swap_contents, Cache.contents_length] using hk
    -- link again
    obtain ⟨c4, d4, s4, ct4, ch4⟩ := Cache.insert_if_rep ch3 (hl3 vi) ni2
    rw [ct3, lenAt_swap_contents _ _ hij vi' vj', if_pos rfl] at ch4
    have hl4 : ∀ {k}, k < c.head.length → k < c4.head.length := by
      intro k hk
      rw [← Cache.contents_length, ct4, Cache.contents_length]; exact hl3 hk
    have nj3 : j ∉ (if lenAt c.contents j ≠ 0 then
        (if lenAt c.contents j ≠ 0 then
          (if lenAt c.contents i ≠ 0 then L.erase i else L).erase j
          else (if lenAt c.contents i ≠ 0 then L.erase i else L)) ++ [i]
        else (if lenAt c.contents j ≠ 0 then
          (if lenAt c.contents i ≠ 0 then L.erase i else L).erase j
          else (if lenAt c.contents i ≠ 0 then L.erase i else L))) := by
      by_cases hj0 : lenAt c.contents j ≠ 0
      · simp only [if_pos hj0] at nj2 ⊢
        intro h
        rcases List.mem_append.1 h with h | h
        · exact nj2 h
        · exact hij (List.mem_singleton.1 h).symm
      · simp only [if_neg hj0] at nj2 ⊢
        exact nj2
    obtain ⟨c5, d5, s5, ct5, ch5⟩ := Cache.insert_if_rep ch4 (hl4 vj) nj3
    rw [ct4, ct3, lenAt_swap_contents _ _ hij vi' vj', if_neg (Ne.symm hij), if_pos rfl] at ch5
    have ch5' : c5.Chain ([] ++ relink c.contents L i j) := ch5
    have hf := Cache.chain_first ch5
    have hs5 : c5.size = c.size := by rw [s5, s4, s3, s2, s1]
    have hct5 : c5.contents = swap_contents c.contents i j := by rw [ct5, ct4, ct3]
    have hrl := length_relink_le c.contents L i j hij hi hj
    have econc : c.swap_index fuel i j =
        if i > j then Cache.swap_loop fuel c5 c5.lru_next j i
        else Cache.swap_loop fuel c5 c5.lru_next i j := by
      simp only [Cache.swap_index, if_neg hij, d1, d2, d3, d4, d5]
    have eabs : LruView.swap_index ⟨c.size, c.contents, L⟩ i j =
        if i > j then
          LruView.swap_loop j i (relink c.contents L i j) c5.size c5.contents
        else
          LruView.swap_loop i j (relink c.contents L i j) c5.size c5.contents := by
      simp only [LruView.swap_index, if_neg hij, vi', vj', and_self, if_true, hs5, hct5]
    rw [econc, eabs]
    have hf' : c5.lru_next = firstTo (relink c.contents L i j) Ptr.lru_head := hf
    rw [hf']
    by_cases hgt : i > j
    · simp only [if_pos hgt]
      rcases Cache.swap_loop_rep j i _ [] c5 fuel ch5' with h | ⟨c', a, q1, q2, q3, q4, q5⟩
      · left; exact ⟨h.1, fun hle => h.2 (by rw [hrl]; exact hle)⟩
      · right; exact ⟨c', a, q1, q2, q3, q4, by simpa using q5⟩
    · simp only [if_neg hgt]
      rcases Cache.swap_loop_rep i j _ [] c5 fuel ch5' with h | ⟨c', a, q1, q2, q3, q4, q5⟩
      · left; exact ⟨h.1, fun hle => h.2 (by rw [hrl]; exact hle)⟩
      · right; exact ⟨c', a, q1, q2, q3, q4, by simpa using q5⟩
  · left
    have habs : ¬ (i < c.contents.length ∧ j < c.contents.length) := by
      rw [Cache.contents_length]; exact hv
    refine ⟨?_, fun _ => by simp only [LruView.swap_index, if_neg hij, if_neg habs]⟩
    by_cases vi : i < c.head.length
    · have vj : ¬ j < c.head.length := fun h => hv ⟨vi, h⟩
      obtain ⟨c1, d1, s1, ct1, -, ch1, ni1⟩ := Cache.delete_if_rep hc hi
      rw [← Cache.delete_if_cached_eq vi] at d1
      have hn : c1.head[j]? = none := by
        apply List.getElem?_eq_none
        rw [← Cache.contents_length, ct1, Cache.contents_length]
        exact le_of_not_lt vj
      have hd2 : c1.delete_if_cached j = none := by simp only [Cache.delete_if_cached, hn]
      simp only [Cache.swap_index, if_neg hij, d1, hd2]
    · have hn : c.head[i]? = none := List.getElem?_eq_none (le_of_not_lt vi)
      have hd1 : c.delete_if_cached i = none := by simp only [Cache.delete_if_cached, hn]
      simp only [Cache.swap_index, if_neg hij, hd1]


/-! ## Kernel cache: properties of the list view -/

theorem Cache.total_eq (c : Cache α) : c.total = totalLen c.contents := by
  simp [Cache.total, totalLen, Cache.contents, Function.comp_def]

theorem Cache.WF.toWFv {c : Cache α} {L : List Nat} (h : c.WF L) : WFv c.contents L :=
  ⟨h.chain.2, fun k hk => by rw [Cache.contents_length]; exact Cache.chain_valid h.chain hk,
    fun k hk => h.cached k (by rw [← Cache.contents_length]; exact hk),
    fun k hk => h.buf k (by rw [← Cache.contents_length]; exact hk)⟩

theorem Cache.WF.ofWFv {c : Cache α} {L : List Nat} (hc : c.Chain L)
    (h : WFv c.contents L) : c.WF L :=
  ⟨hc, fun k hk => h.cached k (by rw [Cache.contents_length]; exact hk),
    fun k hk => h.buf k (by rw [Cache.contents_length]; exact hk)⟩

theorem total_set (ct : List (List (Option α) × Int)) (k : Nat) (e : List (Option α) × Int)
    (hk : k < ct.length) : totalLen (ct.set k e) = totalLen ct - lenAt ct k + e.2 := by
  induction ct generalizing k with
  | nil => simp at hk
  | cons x r ih =>
    cases k with
    | zero => simp [totalLen, lenAt]; ring
    | succ k =>
      have hk' : k < r.length := by simpa using hk
      have := ih k hk'
      simp only [totalLen, lenAt, List.set_cons_succ, List.map_cons, List.sum_cons,
        List.getElem?_cons_succ] at this ⊢
      rw [this]; ring

theorem lenAt_nonneg_of_buf {ct : List (List (Option α) × Int)} {k : Nat}
    (h : ((dataAt ct k).length : Int) = lenAt ct k) : 0 ≤ lenAt ct k := by
  rw [← h]; exact Int.natCast_nonneg _

theorem LruView.free_old_space_char (more : Int) (L : List Nat) :
    ∀ (s : Int) (ct : List (List (Option α) × Int)) (a : LruView α),
      L.Nodup → (∀ x ∈ L, x < ct.length) →
      LruView.free_old_space more L s ct = some a →
      ∃ k, k ≤ L.length ∧ a.lru = L.drop k ∧
        a.size = s + ((L.take k).map (lenAt ct)).sum ∧
        a.contents.length = ct.length ∧
        (∀ m, lenAt a.contents m = if m ∈ L.take k then 0 else lenAt ct m) ∧
        (∀ m, dataAt a.contents m = if m ∈ L.take k then [] else dataAt ct m) ∧
        more ≤ a.size ∧
        (∀ k', k' < k → s + ((L.take k').map (lenAt ct)).sum < more) ∧
        totalLen a.contents + a.size = totalLen ct + s := by
  induction L with
  | nil =>
    intro s ct a _ _ h
    simp only [LruView.free_old_space] at h
    split at h
    · simp at h
    · rename_i hs
      simp only [Option.some.injEq] at h; subst h
      exact ⟨0, by simp, by simp, by simp, rfl, by simp, by simp, le_of_not_lt hs,
        by simp, rfl⟩
  | cons x r ih =>
    intro s ct a hnd hv h
    simp only [LruView.free_old_space] at h
    rw [List.nodup_cons] at hnd
    have hx : x < ct.length := hv x (List.mem_cons_self _ _)
    split at h
    · rename_i hs
      obtain ⟨k, h1, h2, h3, h4, h5, h6, h7, h8, h9⟩ := ih _ _ _ hnd.2
        (fun y hy => by simpa using hv y (List.mem_cons_of_mem _ hy)) h
      have hcongr : ∀ n, ((r.take n).map (lenAt (ct.set x ([], 0)))).sum =
          ((r.take n).map (lenAt ct)).sum := by
        intro n
        congr 1
        apply List.map_congr_left
        intro y hy
        rw [lenAt_set _ _ _ _ hx, if_neg]
        intro e
        exact hnd.1 (e ▸ List.mem_of_mem_take hy)
      refine ⟨k + 1, by simpa using h1, by simpa using h2, ?_, by simpa using h4, ?_, ?_,
        h7, ?_, ?_⟩
      · rw [h3, hcongr]; simp only [List.take_succ_cons, List.map_cons, List.sum_cons]; ring
      · intro m
        rw [h5, lenAt_set _ _ _ _ hx]
        simp only [List.take_succ_cons, List.mem_cons]
        by_cases hm : m = x
        · simp [hm]
        · simp [hm]
      · intro m
        rw [h6, dataAt_set _ _ _ _ hx]
        simp only [List.take_succ_cons, List.mem_cons]
        by_cases hm : m = x
        · simp [hm]
        · simp [hm]
      · intro k' hk'
        cases k' with
        | zero => simpa using hs
        | succ k' =>
          have := h8 k' (by omega)
          rw [hcongr] at this
          simp only [List.take_succ_cons, List.map_cons, List.sum_cons]
          linarith
      · rw [h9, total_set _ _ _ hx]; simp only; ring
    · rename_i hs
      simp only [Option.some.injEq] at h; subst h
      exact ⟨0, by simp, by simp, by simp, rfl, by simp, by simp, le_of_not_lt hs,
        by simp, rfl⟩

theorem LruView.get_data_char {s : Int} {ct : List (List (Option α) × Int)} {L : List Nat}
    {index : Nat} {len : Int} {a' : LruView α} {p : Int}
    (hnd : L.Nodup) (hv : ∀ x ∈ L, x < ct.length)
    (hm : index ∈ L ↔ lenAt ct index ≠ 0)
    (h : LruView.get_data ⟨s, ct, L⟩ index len = some (a', p)) :
    ∃ k, k ≤ (L.erase index).length ∧
      a'.lru = (L.erase index).drop k ++ [index] ∧
      p = min (lenAt ct index) len ∧
      index < ct.length ∧
      a'.contents.length = ct.length ∧
      (∀ m, lenAt a'.contents m =
        if m = index then max (lenAt ct index) len
        else if m ∈ (L.erase index).take k then 0 else lenAt ct m) ∧
      (∀ m, dataAt a'.contents m =
        if m = index then
          (if lenAt ct index < len then realloc (dataAt ct index) len else dataAt ct index)
        else if m ∈ (L.erase index).take k then [] else dataAt ct m) ∧
      totalLen a'.contents + a'.size = totalLen ct + s ∧
      (a'.size = if lenAt ct index < len then
          s + (((L.erase index).take k).map (lenAt ct)).sum - (len - lenAt ct index)
        else s) ∧
      (0 ≤ s → 0 ≤ a'.size) ∧
      (¬ lenAt ct index < len → k = 0) ∧
      (∀ k', k' < k →
        s + (((L.erase index).take k').map (lenAt ct)).sum < len - lenAt ct index) ∧
      (lenAt ct index < len →
        len - lenAt ct index ≤ s + (((L.erase index).take k).map (lenAt ct)).sum) := by
  have hL1 : (if lenAt ct index ≠ 0 then L.erase index else L) = L.erase index := by
    split
    · rfl
    · rename_i h0
      rw [List.erase_of_not_mem]
      exact fun hin => h0 (hm.1 hin)
  have hni : index ∉ L.erase index := fun hin => (List.Nodup.mem_erase_iff hnd).1 hin |>.1 rfl
  simp only [LruView.get_data, hL1] at h
  by_cases hi : index < ct.length
  · simp only [hi, if_true] at h
    by_cases hmore : len - lenAt ct index > 0
    · simp only [hmore, if_true] at h
      have hlt : lenAt ct index < len := by linarith
      cases hf : LruView.free_old_space (len - lenAt ct index) (L.erase index) s ct with
      | none => simp [hf] at h
      | some a2 =>
        simp only [hf, Option.some.injEq, Prod.mk.injEq] at h
        obtain ⟨ha, hp⟩ := h
        obtain ⟨k, h1, h2, h3, h4, h5, h6, h7, h8, h9⟩ :=
          LruView.free_old_space_char _ _ _ _ _ (hnd.sublist (List.erase_sublist _ _))
            (fun x hx => hv x (List.mem_of_mem_erase hx)) hf
        have hnk : index ∉ (L.erase index).take k := fun hin => hni (List.mem_of_mem_take hin)
        have hi2 : index < a2.contents.length := by rw [h4]; exact hi
        have hl2 : lenAt a2.contents index = lenAt ct index := by rw [h5, if_neg hnk]
        have hd2 : dataAt a2.contents index = dataAt ct index := by rw [h6, if_neg hnk]
        subst ha
        refine ⟨k, h1, by simp [h2], ?_, hi, by simp [h4], ?_, ?_, ?_, ?_, ?_, ?_, h8,
          fun _ => by rw [← h3]; exact h7⟩
        · rw [← hp, hl2, min_eq_left (le_of_lt hlt)]
        · intro m
          simp only
          rw [lenAt_set _ _ _ _ hi2, h5]
          by_cases hmi : m = index
          · simp [hmi, max_eq_right (le_of_lt hlt)]
          · simp [hmi]
        · intro m
          simp only
          rw [hd2, dataAt_set _ _ _ _ hi2]
          by_cases hmi : m = index
          · simp [hmi, hlt]
          · simp [hmi, h6]
        · simp only
          rw [total_set _ _ _ hi2, hl2]
          simp only
          linarith
        · simp only [if_pos hlt, h3]
        · intro _; simp only; linarith
        · intro hc; exact absurd hlt hc
    · simp only [hmore, if_false, Option.some.injEq, Prod.mk.injEq] at h
      obtain ⟨ha, hp⟩ := h
      have hle : ¬ lenAt ct index < len := by intro hc; apply hmore; linarith
      subst ha
      refine ⟨0, by simp, by simp, ?_, hi, rfl, ?_, ?_, rfl, by simp [hle], fun h => h,
        fun _ => rfl, by simp, fun hc => absurd hc hle⟩
      · rw [← hp, min_eq_right (le_of_not_lt hle)]
      · intro m
        by_cases hmi : m = index
        · simp [hmi, max_eq_left (le_of_not_lt hle)]
        · simp [hmi]
      · intro m
        by_cases hmi : m = index
        · simp [hmi, hle]
        · simp [hmi]
  · simp [hi] at h

theorem mem_drop_iff_of_nodup {L : List Nat} (hnd : L.Nodup) (k m : Nat) :
    m ∈ L.drop k ↔ m ∈ L ∧ m ∉ L.take k := by
  have h := List.take_append_drop k L
  rw [← h] at hnd
  have hd := List.nodup_append.1 hnd
  constructor
  · intro hm
    exact ⟨List.mem_of_mem_drop hm, fun ht => hd.2.2 ht hm⟩
  · rintro ⟨hm, hnt⟩
    rw [← h] at hm
    rcases List.mem_append.1 hm with h1 | h1
    · exact absurd h1 hnt
    · exact h1

theorem length_realloc (d : List (Option α)) (n : Int) (h : (d.length : Int) ≤ n) :
    ((realloc d n).length : Int) = n := by
  have hn : 0 ≤ n := le_trans (Int.natCast_nonneg _) h
  have h1 : d.length ≤ n.toNat := by
    have := Int.toNat_le_toNat h
    simpa using this
  simp only [realloc, List.length_append, List.length_take, List.length_replicate]
  have h2 : min n.toNat d.length + (n.toNat - d.length) = n.toNat := by omega
  rw [h2]
  exact Int.toNat_of_nonneg hn

theorem LruView.get_data_wfv {s : Int} {ct : List (List (Option α) × Int)} {L : List Nat}
    {index : Nat} {len : Int} {a' : LruView α} {p : Int}
    (hwf : WFv ct L) (hlen : 1 ≤ len)
    (h : LruView.get_data ⟨s, ct, L⟩ index len = some (a', p)) :
    WFv a'.contents a'.lru := by
  have hm : index ∈ L ↔ lenAt ct index ≠ 0 := by
    by_cases hi : index < ct.length
    · exact hwf.cached index hi
    · constructor
      · intro hin; exact absurd (hwf.valid index hin) hi
      · intro h0; exfalso; apply h0
        simp [lenAt, List.getElem?_eq_none (le_of_not_lt hi)]
  obtain ⟨k, h1, h2, h3, hi, h4, h5, h6, -⟩ :=
    LruView.get_data_char hwf.nodup hwf.valid hm h
  have hnd1 : (L.erase index).Nodup := hwf.nodup.sublist (List.erase_sublist _ _)
  have hni : index ∉ L.erase index :=
    fun hin => (List.Nodup.mem_erase_iff hwf.nodup).1 hin |>.1 rfl
  refine ⟨?_, ?_, ?_, ?_⟩
  · rw [h2, List.nodup_append]
    refine ⟨hnd1.sublist (List.drop_sublist _ _), by simp, ?_⟩
    intro x hx hx'
    rw [List.mem_singleton] at hx'
    subst hx'
    exact hni (List.mem_of_mem_drop hx)
  · intro x hx
    rw [h2] at hx
    rw [h4]
    rcases List.mem_append.1 hx with hx | hx
    · exact hwf.valid x (List.mem_of_mem_erase (List.mem_of_mem_drop hx))
    · rw [List.mem_singleton] at hx; rw [hx]; exact hi
  · intro m hm
    rw [h4] at hm
    rw [h2, h5]
    by_cases hmi : m = index
    · simp only [hmi, if_true, List.mem_append, List.mem_singleton, or_true, true_iff]
      have : 1 ≤ max (lenAt ct index) len := le_max_of_le_right hlen
      omega
    · simp only [if_neg hmi, List.mem_append, List.mem_singleton, hmi, or_false]
      rw [mem_drop_iff_of_nodup hnd1, List.Nodup.mem_erase_iff hwf.nodup]
      by_cases hmt : m ∈ (L.erase index).take k
      · simp [hmt]
      · simp only [hmt, not_false_eq_true, and_true, if_false, ne_eq, hmi, true_and]
        exact hwf.cached m hm
  · intro m hm
    rw [h4] at hm
    rw [h5, h6]
    by_cases hmi : m = index
    · simp only [hmi, if_true]
      by_cases hlt : lenAt ct index < len
      · simp only [if_pos hlt, max_eq_right (le_of_lt hlt)]
        apply length_realloc
        rw [hwf.buf index hi]; exact le_of_lt hlt
      · simp only [if_neg hlt, max_eq_left (le_of_not_lt hlt)]
        exact hwf.buf index hi
    · simp only [if_neg hmi]
      by_cases hmt : m ∈ (L.erase index).take k
      · simp [hmt]
      · simp only [if_neg hmt]
        exact hwf.buf m hm

theorem swap_cells_length {d d' : List (Option α)} {i j : Nat}
    (h : swap_cells d i j = some d') : d'.length = d.length := by
  simp only [swap_cells] at h
  split at h
  · simp only [Option.some.injEq] at h; subst h; simp
  · simp at h

theorem swap_cells_some {d : List (Option α)} {i j : Nat} (hi : i < d.length)
    (hj : j < d.length) : ∃ d', swap_cells d i j = some d' := by
  simp [swap_cells, List.getElem?_eq_getElem hi, List.getElem?_eq_getElem hj]

theorem LruView.swap_loop_char (i j : Nat) (R : List Nat) :
    ∀ (s : Int) (ct : List (List (Option α) × Int)) (a : LruView α),
      R.Nodup → (∀ x ∈ R, x < ct.length) →
      LruView.swap_loop i j R s ct = some a →
      a.lru = R.filter (fun k => decide (¬ ((i : Int) < lenAt ct k ∧ lenAt ct k ≤ (j : Int)))) ∧
      a.contents.length = ct.length ∧
      (∀ m, lenAt a.contents m =
        if m ∈ R ∧ (i : Int) < lenAt ct m ∧ lenAt ct m ≤ (j : Int) then 0 else lenAt ct m) ∧
      (∀ m, m ∉ R → dataAt a.contents m = dataAt ct m) ∧
      (∀ m, m ∈ R → lenAt ct m ≤ (i : Int) → dataAt a.contents m = dataAt ct m) ∧
      (∀ m, m ∈ R → (i : Int) < lenAt ct m → lenAt ct m ≤ (j : Int) →
        dataAt a.contents m = []) ∧
      (∀ m, m ∈ R → (i : Int) < lenAt ct m → (j : Int) < lenAt ct m →
        swap_cells (dataAt ct m) i j = some (dataAt a.contents m)) ∧
      totalLen a.contents + a.size = totalLen ct + s ∧ s ≤ a.size := by
  induction R with
  | nil =>
    intro s ct a _ _ h
    simp only [LruView.swap_loop, Option.some.injEq] at h
    subst h
    simp
  | cons x r ih =>
    intro s ct a hnd hv h
    rw [List.nodup_cons] at hnd
    have hx : x < ct.length := hv x (List.mem_cons_self _ _)
    have hvr : ∀ (e : List (Option α) × Int), ∀ y ∈ r, y < (ct.set x e).length := by
      intro e y hy; simpa using hv y (List.mem_cons_of_mem _ hy)
    have hne : ∀ y ∈ r, y ≠ x := fun y hy e => hnd.1 (e ▸ hy)
    have hfilt : ∀ (e : List (Option α) × Int),
        r.filter (fun k => decide (¬ ((i : Int) < lenAt (ct.set x e) k ∧
          lenAt (ct.set x e) k ≤ (j : Int)))) =
        r.filter (fun k => decide (¬ ((i : Int) < lenAt ct k ∧ lenAt ct k ≤ (j : Int)))) := by
      intro e
      apply List.filter_congr
      intro y hy
      rw [lenAt_set _ _ _ _ hx, if_neg (hne y hy)]
    simp only [LruView.swap_loop] at h
    by_cases h1 : lenAt ct x > (i : Int)
    · by_cases h2 : lenAt ct x > (j : Int)
      · simp only [h1, h2, if_true] at h
        cases hsw : swap_cells (dataAt ct x) i j with
        | none => simp [hsw] at h
        | some d =>
          simp only [hsw, Option.map_eq_some'] at h
          obtain ⟨a0, ha0, rfl⟩ := h
          obtain ⟨q1, q2, q3, q4, q5, q6, q7, q8, q9⟩ := ih _ _ _ hnd.2 (hvr _) ha0
          have hnot : ¬ ((i : Int) < lenAt ct x ∧ lenAt ct x ≤ (j : Int)) := by
            intro hc; linarith [hc.2]
          refine ⟨?_, by simpa using q2, ?_, ?_, ?_, ?_, ?_, ?_, q9⟩
          · simp only [q1, hfilt, List.filter_cons, hnot, not_false_eq_true, decide_True,
              if_true]
          · intro m
            simp only
            rw [q3, lenAt_set _ _ _ _ hx]
            by_cases hm : m = x
            · subst hm; simp [hnd.1, hnot]
            · simp [hm]
          · intro m hm
            simp only [List.mem_cons, not_or] at hm
            simp only
            rw [q4 m hm.2, dataAt_set _ _ _ _ hx, if_neg hm.1]
          · intro m hm hle
            simp only
            rcases List.mem_cons.1 hm with hm | hm
            · subst hm; linarith
            · rw [q5 m hm (by rw [lenAt_set _ _ _ _ hx, if_neg (hne m hm)]; exact hle),
                dataAt_set _ _ _ _ hx, if_neg (hne m hm)]
          · intro m hm hlt hle
            simp only
            rcases List.mem_cons.1 hm with hm | hm
            · subst hm; linarith
            · exact q6 m hm (by rw [lenAt_set _ _ _ _ hx, if_neg (hne m hm)]; exact hlt)
                (by rw [lenAt_set _ _ _ _ hx, if_neg (hne m hm)]; exact hle)
          · intro m hm hlt hlt2
            simp only
            rcases List.mem_cons.1 hm with hm | hm
            · subst hm
              rw [q4 m hnd.1, dataAt_set _ _ _ _ hx, if_pos rfl]
              exact hsw
            · have := q7 m hm (by rw [lenAt_set _ _ _ _ hx, if_neg (hne m hm)]; exact hlt)
                (by rw [lenAt_set _ _ _ _ hx, if_neg (hne m hm)]; exact hlt2)
              rw [dataAt_set _ _ _ _ hx, if_neg (hne m hm)] at this
              exact this
          · simp only
            rw [q8, total_set _ _ _ hx]; simp only; ring
      · simp only [h1, h2, if_true, if_false] at h
        obtain ⟨q1, q2, q3, q4, q5, q6, q7, q8, q9⟩ := ih _ _ _ hnd.2 (hvr _) h
        have hyes : (i : Int) < lenAt ct x ∧ lenAt ct x ≤ (j : Int) :=
          ⟨h1, le_of_not_lt h2⟩
        refine ⟨?_, by simpa using q2, ?_, ?_, ?_, ?_, ?_, ?_, ?_⟩
        · simp only [q1, hfilt, List.filter_cons, hyes, and_self, not_true_eq_false,
            decide_False, Bool.false_eq_true, if_false]
        · intro m
          rw [q3, lenAt_set _ _ _ _ hx]
          by_cases hm : m = x
          · subst hm; simp [hnd.1, hyes]
          · simp [hm]
        · intro m hm
          simp only [List.mem_cons, not_or] at hm
          rw [q4 m hm.2, dataAt_set _ _ _ _ hx, if_neg hm.1]
        · intro m hm hle
          rcases List.mem_cons.1 hm with hm | hm
          · subst hm; linarith
          · rw [q5 m hm (by rw [lenAt_set _ _ _ _ hx, if_neg (hne m hm)]; exact hle),
              dataAt_set _ _ _ _ hx, if_neg (hne m hm)]
        · intro m hm hlt hle
          rcases List.mem_cons.1 hm with hm | hm
          · subst hm
            rw [q4 m hnd.1, dataAt_set _ _ _ _ hx, if_pos rfl]
          · exact q6 m hm (by rw [lenAt_set _ _ _ _ hx, if_neg (hne m hm)]; exact hlt)
              (by rw [lenAt_set _ _ _ _ hx, if_neg (hne m hm)]; exact hle)
        · intro m hm hlt hlt2
          rcases List.mem_cons.1 hm with hm | hm
          · subst hm; linarith
          · have := q7 m hm (by rw [lenAt_set _ _ _ _ hx, if_neg (hne m hm)]; exact hlt)
              (by rw [lenAt_set _ _ _ _ hx, if_neg (hne m hm)]; exact hlt2)
            rw [dataAt_set _ _ _ _ hx, if_neg (hne m hm)] at this
            exact this
        · rw [q8, total_set _ _ _ hx]; simp only; ring
        · have : (0 : Int) ≤ (i : Int) := Int.natCast_nonneg _
          linarith
    · simp only [h1, if_false, Option.map_eq_some'] at h
      obtain ⟨a0, ha0, rfl⟩ := h
      obtain ⟨q1, q2, q3, q4, q5, q6, q7, q8, q9⟩ := ih _ _ _ hnd.2
        (fun y hy => hv y (List.mem_cons_of_mem _ hy)) ha0
      have hle : lenAt ct x ≤ (i : Int) := le_of_not_lt h1
      have hnot : ¬ ((i : Int) < lenAt ct x ∧ lenAt ct x ≤ (j : Int)) := by
        intro hc; linarith [hc.1]
      refine ⟨?_, q2, ?_, ?_, ?_, ?_, ?_, q8, q9⟩
      · simp only [q1, List.filter_cons, hnot, not_false_eq_true, decide_True, if_true]
      · intro m
        simp only
        rw [q3]
        by_cases hm : m = x
        · subst hm; simp [hnd.1, hnot]
        · simp [hm]
      · intro m hm
        simp only [List.mem_cons, not_or] at hm
        exact q4 m hm.2
      · intro m hm hle'
        rcases List.mem_cons.1 hm with hm | hm
        · subst hm; exact q4 m hnd.1
        · exact q5 m hm hle'
      · intro m hm hlt hle'
        rcases List.mem_cons.1 hm with hm | hm
        · subst hm; linarith
        · exact q6 m hm hlt hle'
      · intro m hm hlt hlt2
        rcases List.mem_cons.1 hm with hm | hm
        · subst hm; linarith
        · exact q7 m hm hlt hlt2

theorem LruView.swap_loop_some (i j : Nat) (R : List Nat) :
    ∀ (s : Int) (ct : List (List (Option α) × Int)),
      R.Nodup → (∀ x ∈ R, x < ct.length) → i ≤ j →
      (∀ m ∈ R, (j : Int) < lenAt ct m → j < (dataAt ct m).length) →
      ∃ a, LruView.swap_loop i j R s ct = some a := by
  induction R with
  | nil => intro s ct _ _ _ _; exact ⟨_, rfl⟩
  | cons x r ih =>
    intro s ct hnd hv hij hb
    rw [List.nodup_cons] at hnd
    have hx : x < ct.length := hv x (List.mem_cons_self _ _)
    have hne : ∀ y ∈ r, y ≠ x := fun y hy e => hnd.1 (e ▸ hy)
    have hb' : ∀ (e : List (Option α) × Int), ∀ m ∈ r,
        (j : Int) < lenAt (ct.set x e) m → j < (dataAt (ct.set x e) m).length := by
      intro e m hm
      rw [lenAt_set _ _ _ _ hx, dataAt_set _ _ _ _ hx, if_neg (hne m hm), if_neg (hne m hm)]
      exact hb m (List.mem_cons_of_mem _ hm)
    have hvr : ∀ (e : List (Option α) × Int), ∀ y ∈ r, y < (ct.set x e).length := by
      intro e y hy; simpa using hv y (List.mem_cons_of_mem _ hy)
    simp only [LruView.swap_loop]
    by_cases h1 : lenAt ct x > (i : Int)
    · by_cases h2 : lenAt ct x > (j : Int)
      · have hjd := hb x (List.mem_cons_self _ _) h2
        obtain ⟨d, hd⟩ := swap_cells_some (lt_of_le_of_lt hij hjd) hjd
        obtain ⟨a, ha⟩ := ih s (ct.set x (d, lenAt ct x)) hnd.2 (hvr _) hij (hb' _)
        simp only [h1, h2, if_true, hd, ha]
        exact ⟨_, rfl⟩
      · simp only [h1, h2, if_true, if_false]
        exact ih _ _ hnd.2 (hvr _) hij (hb' _)
    · obtain ⟨a, ha⟩ := ih s ct hnd.2 (fun y hy => hv y (List.mem_cons_of_mem _ hy)) hij
        (fun m hm => hb m (List.mem_cons_of_mem _ hm))
      simp only [h1, if_false, ha]
      exact ⟨_, rfl⟩

theorem relink_spec (ct : List (List (Option α) × Int)) (L : List Nat) {i j : Nat}
    (hnd : L.Nodup) (hij : i ≠ j) (hi : i ∈ L ↔ lenAt ct i ≠ 0)
    (hj : j ∈ L ↔ lenAt ct j ≠ 0) :
    (relink ct L i j).Nodup ∧
    ∀ m, m ∈ relink ct L i j ↔
      if m = i then lenAt ct j ≠ 0 else if m = j then lenAt ct i ≠ 0 else m ∈ L := by
  unfold relink
  by_cases h1 : lenAt ct i ≠ 0 <;> by_cases h2 : lenAt ct j ≠ 0
  · simp only [if_pos h1, if_pos h2]
    have n1 : (L.erase i).Nodup := hnd.erase i
    have n2 : ((L.erase i).erase j).Nodup := n1.erase j
    have hmem : ∀ m, m ∈ (L.erase i).erase j ↔ m ≠ j ∧ m ≠ i ∧ m ∈ L := by
      intro m
      rw [List.Nodup.mem_erase_iff n1, List.Nodup.mem_erase_iff hnd]
    refine ⟨?_, ?_⟩
    · rw [List.nodup_append]
      refine ⟨?_, by simp, ?_⟩
      · rw [List.nodup_append]
        refine ⟨n2, by simp, ?_⟩
        intro x hx hx'
        rw [List.mem_singleton] at hx'
        exact ((hmem x).1 hx).2.1 hx'
      · intro x hx hx'
        rw [List.mem_singleton] at hx'
        rcases List.mem_append.1 hx with hx | hx
        · exact ((hmem x).1 hx).1 hx'
        · rw [List.mem_singleton] at hx; exact hij (hx.symm.trans hx')
    · intro m
      simp only [List.mem_append, List.mem_singleton, hmem]
      by_cases hmi : m = i
      · simp [hmi, h2]
      · by_cases hmj : m = j
        · simp [hmj, h1, Ne.symm hij]
        · simp [hmi, hmj]
  · simp only [if_pos h1, if_neg h2]
    have n1 : (L.erase i).Nodup := hnd.erase i
    have hjn : j ∉ L := fun h => h2 (hj.1 h)
    refine ⟨?_, ?_⟩
    · rw [List.nodup_append]
      refine ⟨n1, by simp, ?_⟩
      intro x hx hx'
      rw [List.mem_singleton] at hx'
      subst hx'
      exact hjn (List.mem_of_mem_erase hx)
    · intro m
      simp only [List.mem_append, List.mem_singleton, List.Nodup.mem_erase_iff hnd]
      by_cases hmi : m = i
      · simp only [hmi, ne_eq, not_true_eq_false, false_and, hij, or_self, if_true]
        simpa using h2
      · by_cases hmj : m = j
        · simp [hmj, h1, Ne.symm hij]
        · simp [hmi, hmj]
  · simp only [if_neg h1, if_pos h2]
    have n1 : (L.erase j).Nodup := hnd.erase j
    have hin : i ∉ L := fun h => h1 (hi.1 h)
    refine ⟨?_, ?_⟩
    · rw [List.nodup_append]
      refine ⟨n1, by simp, ?_⟩
      intro x hx hx'
      rw [List.mem_singleton] at hx'
      subst hx'
      exact hin (List.mem_of_mem_erase hx)
    · intro m
      simp only [List.mem_append, List.mem_singleton, List.Nodup.mem_erase_iff hnd]
      by_cases hmi : m = i
      · simp [hmi, h2]
      · by_cases hmj : m = j
        · simp only [hmj, ne_eq, not_true_eq_false, false_and, Ne.symm hij, or_self,
            if_false, if_true]
          simpa using h1
        · simp [hmi, hmj]
  · simp only [if_neg h1, if_neg h2]
    refine ⟨hnd, ?_⟩
    intro m
    by_cases hmi : m = i
    · simp only [hmi, if_true]; rw [hi]; exact ⟨fun h => absurd h h1, fun h => absurd h h2⟩
    · by_cases hmj : m = j
      · simp only [hmj, if_neg (Ne.symm hij), if_true]; rw [hj]
        exact ⟨fun h => absurd h h2, fun h => absurd h h1⟩
      · simp [hmi, hmj]

theorem relink_wf {ct : List (List (Option α) × Int)} {L : List Nat} {i j : Nat}
    (hwf : WFv ct L) (hij : i ≠ j) (hi : i < ct.length) (hj : j < ct.length) :
    WFv (swap_contents ct i j) (relink ct L i j) := by
  obtain ⟨hnd, hmem⟩ := relink_spec ct L hwf.nodup hij (hwf.cached i hi) (hwf.cached j hj)
  have hlen : (swap_contents ct i j).length = ct.length := by simp [swap_contents]
  refine ⟨hnd, ?_, ?_, ?_⟩
  · intro k hk
    rw [hlen]
    rw [hmem] at hk
    by_cases hki : k = i
    · rw [hki]; exact hi
    · by_cases hkj : k = j
      · rw [hkj]; exact hj
      · simp only [if_neg hki, if_neg hkj] at hk
        exact hwf.valid k hk
  · intro k hk
    rw [hlen] at hk
    rw [hmem, lenAt_swap_contents _ _ hij hi hj]
    by_cases hki : k = i
    · simp [hki]
    · by_cases hkj : k = j
      · simp [hkj, Ne.symm hij]
      · simp only [if_neg hki, if_neg hkj]
        exact hwf.cached k hk
  · intro k hk
    rw [hlen] at hk
    rw [lenAt_swap_contents _ _ hij hi hj, dataAt_swap_contents _ _ hij hi hj]
    by_cases hki : k = i
    · simp only [hki, if_true]; exact hwf.buf j hj
    · by_cases hkj : k = j
      · simp only [hkj, if_neg (Ne.symm hij), if_true]; exact hwf.buf i hi
      · simp only [if_neg hki, if_neg hkj]
        exact hwf.buf k hk

theorem swap_loop_wf {ct : List (List (Option α) × Int)} {R : List Nat} {i j : Nat} {s : Int}
    {a : LruView α} (hwf : WFv ct R) (h : LruView.swap_loop i j R s ct = some a) :
    WFv a.contents a.lru := by
  obtain ⟨q1, q2, q3, q4, q5, q6, q7, -, -⟩ :=
    LruView.swap_loop_char i j R s ct a hwf.nodup hwf.valid h
  refine ⟨?_, ?_, ?_, ?_⟩
  · rw [q1]; exact hwf.nodup.filter _
  · intro k hk
    rw [q1] at hk
    rw [q2]
    exact hwf.valid k (List.mem_of_mem_filter hk)
  · intro k hk
    rw [q2] at hk
    rw [q1, q3, List.mem_filter]
    have hck := hwf.cached k hk
    by_cases hc : (i : Int) < lenAt ct k ∧ lenAt ct k ≤ (j : Int)
    · have : lenAt ct k ≠ 0 := by
        have : (0 : Int) ≤ i := Int.natCast_nonneg _
        intro h0; rw [h0] at hc; linarith [hc.1]
      simp [hc, hck.2 this]
    · simp only [hc, not_false_eq_true, decide_True, and_true, and_false, if_false]
      exact hck
  · intro k hk
    rw [q2] at hk
    rw [q3]
    by_cases hin : k ∈ R
    · by_cases h1 : (i : Int) < lenAt ct k
      · by_cases h2 : lenAt ct k ≤ (j : Int)
        · rw [q6 k hin h1 h2]; simp [hin, h1, h2]
        · have h2' : (j : Int) < lenAt ct k := lt_of_not_le h2
          have := swap_cells_length (q7 k hin h1 h2')
          rw [this, if_neg (by intro hc; exact h2 hc.2.2)]
          exact hwf.buf k hk
      · rw [q5 k hin (le_of_not_lt h1), if_neg (by intro hc; exact h1 hc.2.1)]
        exact hwf.buf k hk
    · rw [q4 k hin, if_neg (by intro hc; exact hin hc.1)]
      exact hwf.buf k hk

theorem lenAt_of_not_lt {ct : List (List (Option α) × Int)} {m : Nat}
    (h : ¬ m < ct.length) : lenAt ct m = 0 := by
  simp [lenAt, List.getElem?_eq_none (le_of_not_lt h)]

theorem LruView.swap_index_char {s : Int} {ct : List (List (Option α) × Int)} {L : List Nat}
    {i j : Nat} {a : LruView α} (hwf : WFv ct L) (hij : i ≠ j)
    (h : LruView.swap_index ⟨s, ct, L⟩ i j = some a) :
    i < ct.length ∧ j < ct.length ∧ WFv a.contents a.lru ∧
    a.contents.length = ct.length ∧
    totalLen a.contents + a.size = totalLen ct + s ∧ s ≤ a.size ∧
    a.lru = (relink ct L i j).filter (fun k => decide (¬ (((min i j : Nat) : Int) <
      lenAt ct (swap_src i j k) ∧ lenAt ct (swap_src i j k) ≤ ((max i j : Nat) : Int)))) ∧
    (∀ m, lenAt a.contents m =
      if ((min i j : Nat) : Int) < lenAt ct (swap_src i j m) ∧
          lenAt ct (swap_src i j m) ≤ ((max i j : Nat) : Int)
      then 0 else lenAt ct (swap_src i j m)) ∧
    (∀ m, m < ct.length →
      (lenAt ct (swap_src i j m) ≤ ((min i j : Nat) : Int) →
        dataAt a.contents m = dataAt ct (swap_src i j m)) ∧
      (((min i j : Nat) : Int) < lenAt ct (swap_src i j m) →
        lenAt ct (swap_src i j m) ≤ ((max i j : Nat) : Int) → dataAt a.contents m = []) ∧
      (((max i j : Nat) : Int) < lenAt ct (swap_src i j m) →
        swap_cells (dataAt ct (swap_src i j m)) (min i j) (max i j) =
          some (dataAt a.contents m))) := by
  simp only [LruView.swap_index, if_neg hij] at h
  by_cases hv : i < ct.length ∧ j < ct.length
  · obtain ⟨hi, hj⟩ := hv
    simp only [hi, hj, and_self, if_true] at h
    have hwf' := relink_wf hwf hij hi hj
    have hlen : (swap_contents ct i j).length = ct.length := by simp [swap_contents]
    have hl : ∀ m, lenAt (swap_contents ct i j) m = lenAt ct (swap_src i j m) := by
      intro m; rw [lenAt_swap_contents _ _ hij hi hj]; simp only [swap_src]
      split
      · rfl
      · split <;> rfl
    have hd : ∀ m, dataAt (swap_contents ct i j) m = dataAt ct (swap_src i j m) := by
      intro m; rw [dataAt_swap_contents _ _ hij hi hj]; simp only [swap_src]
      split
      · rfl
      · split <;> rfl
    -- the loop runs with the smaller offset first
    have key : ∃ lo hi', lo = min i j ∧ hi' = max i j ∧ lo ≤ hi' ∧
        LruView.swap_loop lo hi' (relink ct L i j) s (swap_contents ct i j) = some a := by
      by_cases hgt : i > j
      · simp only [if_pos hgt] at h
        exact ⟨j, i, (min_eq_right (le_of_lt hgt)).symm, (max_eq_left (le_of_lt hgt)).symm,
          le_of_lt hgt, h⟩
      · simp only [if_neg hgt] at h
        exact ⟨i, j, (min_eq_left (le_of_not_lt hgt)).symm,
          (max_eq_right (le_of_not_lt hgt)).symm, le_of_not_lt hgt, h⟩
    obtain ⟨lo, hi', hlo, hhi, hle, hloop⟩ := key
    rw [← hlo, ← hhi]
    obtain ⟨q1, q2, q3, q4, q5, q6, q7, q8, q9⟩ :=
      LruView.swap_loop_char lo hi' _ s _ a hwf'.nodup hwf'.valid hloop
    have hout : ∀ m, m ∉ relink ct L i j → lenAt (swap_contents ct i j) m = 0 := by
      intro m hm
      by_cases hml : m < (swap_contents ct i j).length
      · by_contra h0
        exact hm ((hwf'.cached m hml).2 h0)
      · exact lenAt_of_not_lt hml
    have hlo0 : (0 : Int) ≤ lo := Int.natCast_nonneg _
    refine ⟨hi, hj, swap_loop_wf hwf' hloop, by rw [q2, hlen], ?_, q9, ?_, ?_, ?_⟩
    · rw [q8]
      have : totalLen (swap_contents ct i j) = totalLen ct := by
        unfold swap_contents
        rw [total_set _ _ _ (by simpa using hj), total_set _ _ _ hi,
          lenAt_set _ _ _ _ hi, if_neg (Ne.symm hij)]
        simp only
        ring
      rw [this]
    · rw [q1]
      apply List.filter_congr
      intro x _
      rw [hl]
    · intro m
      rw [q3, ← hl]
      by_cases hin : m ∈ relink ct L i j
      · simp [hin]
      · rw [hout m hin]
        simp only [hin, false_and, if_false]
        rw [if_neg]
        intro hc; linarith [hc.1]
    · intro m hm
      rw [← hl, ← hd]
      by_cases hin : m ∈ relink ct L i j
      · exact ⟨q5 m hin, q6 m hin, fun h2 => q7 m hin (by linarith) h2⟩
      · rw [hout m hin]
        refine ⟨fun _ => q4 m hin, fun hc => ?_, fun hc => ?_⟩
        · linarith
        · have : (0 : Int) ≤ hi' := Int.natCast_nonneg _
          linarith
  · simp [hv] at h

theorem LruView.swap_index_some {s : Int} {ct : List (List (Option α) × Int)} {L : List Nat}
    {i j : Nat} (hwf : WFv ct L) (hi : i < ct.length) (hj : j < ct.length) :
    ∃ a, LruView.swap_index ⟨s, ct, L⟩ i j = some a := by
  by_cases hij : i = j
  · exact ⟨⟨s, ct, L⟩, by simp [LruView.swap_index, hij]⟩
  · have hwf' := relink_wf hwf hij hi hj
    have hlen : (swap_contents ct i j).length = ct.length := by simp [swap_contents]
    have hb : ∀ (q : Nat), ∀ m ∈ relink ct L i j, (q : Int) < lenAt (swap_contents ct i j) m →
        q < (dataAt (swap_contents ct i j) m).length := by
      intro q m hm hq
      have := hwf'.buf m (hwf'.valid m hm)
      rw [← this] at hq
      exact_mod_cast hq
    simp only [LruView.swap_index, if_neg hij, hi, hj, and_self, if_true]
    by_cases hgt : i > j
    · simp only [if_pos hgt]
      exact LruView.swap_loop_some j i _ s _ hwf'.nodup hwf'.valid (le_of_lt hgt) (hb i)
    · simp only [if_neg hgt]
      exact LruView.swap_loop_some i j _ s _ hwf'.nodup hwf'.valid (le_of_not_lt hgt) (hb j)

theorem LruView.free_old_space_some (more : Int) (L : List Nat) :
    ∀ (s : Int) (ct : List (List (Option α) × Int)),
      L.Nodup → (∀ x ∈ L, x < ct.length) → more ≤ s + (L.map (lenAt ct)).sum →
      ∃ a, LruView.free_old_space more L s ct = some a := by
  induction L with
  | nil =>
    intro s ct _ _ h
    simp only [List.map_nil, List.sum_nil, add_zero] at h
    exact ⟨⟨s, ct, []⟩, by simp [LruView.free_old_space, not_lt.2 h]⟩
  | cons x r ih =>
    intro s ct hnd hv h
    rw [List.nodup_cons] at hnd
    have hx : x < ct.length := hv x (List.mem_cons_self _ _)
    simp only [LruView.free_old_space]
    by_cases hs : s < more
    · simp only [if_pos hs]
      apply ih _ _ hnd.2 (fun y hy => by simpa using hv y (List.mem_cons_of_mem _ hy))
      have : (r.map (lenAt (ct.set x ([], 0)))).sum = (r.map (lenAt ct)).sum := by
        congr 1
        apply List.map_congr_left
        intro y hy
        rw [lenAt_set _ _ _ _ hx, if_neg]
        intro e
        exact hnd.1 (e ▸ hy)
      rw [this]
      simp only [List.map_cons, List.sum_cons] at h
      linarith
    · simp only [if_neg hs]
      exact ⟨_, rfl⟩

theorem LruView.get_data_some {s : Int} {ct : List (List (Option α) × Int)} {L : List Nat}
    {index : Nat} {len : Int} (hwf : WFv ct L) (hi : index < ct.length)
    (hb : len - lenAt ct index ≤ s + ((L.erase index).map (lenAt ct)).sum) :
    ∃ r, LruView.get_data ⟨s, ct, L⟩ index len = some r := by
  have hL1 : (if lenAt ct index ≠ 0 then L.erase index else L) = L.erase index := by
    split
    · rfl
    · rename_i h0
      rw [List.erase_of_not_mem]
      exact fun hin => h0 ((hwf.cached index hi).1 hin)
  simp only [LruView.get_data, hi, if_true, hL1]
  by_cases hmore : len - lenAt ct index > 0
  · simp only [if_pos hmore]
    obtain ⟨a, ha⟩ := LruView.free_old_space_some (len - lenAt ct index) (L.erase index) s ct
      (hwf.nodup.erase index) (fun x hx => hwf.valid x (List.mem_of_mem_erase hx)) hb
    rw [ha]
    exact ⟨_, rfl⟩
  · simp only [if_neg hmore]
    exact ⟨_, rfl⟩


/-! ## Kernel cache: the operations on a well-formed cache -/

theorem Cache.WF_new (s l : Nat) (z : Int) : (Cache.new s l z : Cache α).WF [] := by
  refine ⟨Cache.chain_new s l z, ?_, ?_⟩
  · intro k hk
    have hk' : k < l := by simpa [Cache.new] using hk
    simp [lenAt, Cache.contents, Cache.new, hk']
  · intro k hk
    have hk' : k < l := by simpa [Cache.new] using hk
    simp [lenAt, dataAt, Cache.contents, Cache.new, hk']

theorem Cache.WF.mem_iff {c : Cache α} {L : List Nat} (hwf : c.WF L) (k : Nat) :
    k ∈ L ↔ lenAt c.contents k ≠ 0 := by
  by_cases hk : k < c.head.length
  · exact hwf.cached k hk
  · constructor
    · intro hin; exact absurd (Cache.chain_valid hwf.chain hin) hk
    · intro h0; exfalso; apply h0
      apply lenAt_of_not_lt
      rw [Cache.contents_length]; exact hk

/-- On a well-formed cache `get_data` does what its list view does. -/
theorem Cache.get_data_view {c : Cache α} {L : List Nat} {fuel index : Nat} {len : Int}
    {c' : Cache α} {p : Int} (hwf : c.WF L)
    (h : c.get_data fuel index len = some (c', p)) :
    ∃ a, LruView.get_data ⟨c.size, c.contents, L⟩ index len = some (a, p) ∧ c'.Rep a := by
  rcases Cache.get_data_rep fuel index len hwf.chain (hwf.mem_iff index) with
    hn | ⟨c'', a, p', h1, h2, h3⟩
  · rw [hn.1] at h; exact absurd h (by simp)
  · rw [h1] at h
    simp only [Option.some.injEq, Prod.mk.injEq] at h
    obtain ⟨rfl, rfl⟩ := h
    exact ⟨a, h2, h3⟩

/-- On a well-formed cache `swap_index` does what its list view does. -/
theorem Cache.swap_index_view {c : Cache α} {L : List Nat} {fuel i j : Nat}
    {c' : Cache α} (hwf : c.WF L) (h : c.swap_index fuel i j = some c') :
    ∃ a, LruView.swap_index ⟨c.size, c.contents, L⟩ i j = some a ∧ c'.Rep a := by
  rcases Cache.swap_index_rep fuel i j hwf.chain (hwf.mem_iff i) (hwf.mem_iff j) with
    hn | ⟨c'', a, h1, h2, h3⟩
  · rw [hn.1] at h; exact absurd h (by simp)
  · rw [h1] at h
    simp only [Option.some.injEq] at h
    subst h
    exact ⟨a, h2, h3⟩

/-- With fuel for every record of the list, `get_data` returns when the budget and the
other cached records together cover the growth. -/
theorem Cache.get_data_returns {c : Cache α} {L : List Nat} {fuel index : Nat} {len : Int}
    (hwf : c.WF L) (hi : index < c.head.length) (hf : L.length ≤ fuel)
    (hb : len - lenAt c.contents index ≤
      c.size + ((L.erase index).map (lenAt c.contents)).sum) :
    ∃ r, c.get_data fuel index len = some r := by
  rcases Cache.get_data_rep fuel index len hwf.chain (hwf.mem_iff index) with
    hn | ⟨c'', a, p', h1, -, -⟩
  · obtain ⟨r, hr⟩ := LruView.get_data_some (s := c.size) hwf.toWFv
      (by rw [Cache.contents_length]; exact hi) hb
    rw [hn.2 hf] at hr
    exact absurd hr (by simp)
  · exact ⟨_, h1⟩

/-- With fuel for every record of the list, `swap_index` returns. -/
theorem Cache.swap_index_returns {c : Cache α} {L : List Nat} {fuel i j : Nat}
    (hwf : c.WF L) (hi : i < c.head.length) (hj : j < c.head.length)
    (hf : L.length ≤ fuel) : ∃ c', c.swap_index fuel i j = some c' := by
  rcases Cache.swap_index_rep fuel i j hwf.chain (hwf.mem_iff i) (hwf.mem_iff j) with
    hn | ⟨c'', a, h1, -, -⟩
  · obtain ⟨r, hr⟩ := LruView.swap_index_some (s := c.size) hwf.toWFv
      (by rw [Cache.contents_length]; exact hi) (by rw [Cache.contents_length]; exact hj)
    rw [hn.2 hf] at hr
    exact absurd hr (by simp)
  · exact ⟨_, h1⟩

/-- A `get_data` request for at least one value keeps the cache well formed and keeps
`size` plus the cached lengths constant. -/
theorem Cache.get_data_wf {c : Cache α} {L : List Nat} {fuel index : Nat} {len : Int}
    {c' : Cache α} {p : Int} (hwf : c.WF L) (hlen : 1 ≤ len)
    (h : c.get_data fuel index len = some (c', p)) :
    ∃ L', c'.WF L' ∧ c'.total + c'.size = c.total + c.size ∧ (0 ≤ c.size → 0 ≤ c'.size) := by
  obtain ⟨a, ha, hrep⟩ := Cache.get_data_view hwf h
  have hw := LruView.get_data_wfv hwf.toWFv hlen ha
  obtain ⟨k, -, -, -, -, -, -, -, ht, -, hs, -, -, -⟩ :=
    LruView.get_data_char hwf.chain.2 hwf.toWFv.valid (hwf.mem_iff index) ha
  refine ⟨a.lru, Cache.WF.ofWFv hrep.2.2 (by rw [hrep.2.1]; exact hw), ?_, ?_⟩
  · rw [Cache.total_eq, Cache.total_eq, hrep.2.1, hrep.1]; exact ht
  · rw [hrep.1]; exact hs

/-- `swap_index` keeps the cache well formed and keeps `size` plus the cached lengths
constant. -/
theorem Cache.swap_index_wf {c : Cache α} {L : List Nat} {fuel i j : Nat}
    {c' : Cache α} (hwf : c.WF L) (h : c.swap_index fuel i j = some c') :
    ∃ L', c'.WF L' ∧ c'.total + c'.size = c.total + c.size ∧ (0 ≤ c.size → 0 ≤ c'.size) := by
  by_cases hij : i = j
  · simp only [Cache.swap_index, hij, if_true, Option.some.injEq] at h
    subst h
    exact ⟨L, hwf, rfl, fun h => h⟩
  · obtain ⟨a, ha, hrep⟩ := Cache.swap_index_view hwf h
    obtain ⟨-, -, hw, -, ht, hs, -⟩ := LruView.swap_index_char hwf.toWFv hij ha
    refine ⟨a.lru, Cache.WF.ofWFv hrep.2.2 (by rw [hrep.2.1]; exact hw), ?_, ?_⟩
    · rw [Cache.total_eq, Cache.total_eq, hrep.2.1, hrep.1]; exact ht
    · rw [hrep.1]; intro h0; exact le_trans h0 hs

theorem Cache.run_wf (calls : List Call) :
    ∀ (c : Cache α) (L : List Nat) (c' : Cache α), c.WF L →
      (∀ x ∈ calls, x.requests_data) → c.run calls = some c' →
      ∃ L', c'.WF L' ∧ c'.total + c'.size = c.total + c.size ∧ (0 ≤ c.size → 0 ≤ c'.size) := by
  induction calls with
  | nil =>
    intro c L c' hwf _ h
    simp only [Cache.run, Option.some.injEq] at h
    subst h
    exact ⟨L, hwf, rfl, fun h => h⟩
  | cons x r ih =>
    intro c L c' hwf hreq h
    simp only [Cache.run] at h
    cases hx : c.call x with
    | none => simp [hx] at h
    | some c1 =>
      simp only [hx] at h
      have hstep : ∃ L1, c1.WF L1 ∧ c1.total + c1.size = c.total + c.size ∧
          (0 ≤ c.size → 0 ≤ c1.size) := by
        cases x with
        | get_data fuel index len =>
          simp only [Cache.call, Option.map_eq_some'] at hx
          obtain ⟨⟨c2, p⟩, hg, rfl⟩ := hx
          exact Cache.get_data_wf hwf (hreq _ (List.mem_cons_self _ _)) hg
        | swap_index fuel i j =>
          exact Cache.swap_index_wf hwf hx
      obtain ⟨L1, hwf1, ht1, hs1⟩ := hstep
      obtain ⟨L', hwf', ht', hs'⟩ := ih c1 L1 c' hwf1
        (fun y hy => hreq y (List.mem_cons_of_mem _ hy)) h
      exact ⟨L', hwf', by rw [ht', ht1], fun h0 => hs' (hs1 h0)⟩

theorem Cache.chain_last {c : Cache α} {L : List Nat} (h : c.Chain L) :
    c.lru_prev = lastFrom Ptr.lru_head L := by
  have hc := h.1
  rw [← List.append_nil L, chain_join] at hc
  have := hc.2.1.2
  simpa [firstTo, Cache.get_prev] using this

theorem lastFrom_concat (s : Ptr) (A : List Nat) (x : Nat) :
    lastFrom s (A ++ [x]) = Ptr.head x := by
  simp [lastFrom]

/-- Everything `get_data` does on a well-formed cache with recency list `L`: it returns
`min(old length, len)`, evicts the first `k` records of the list without the requested one,
and appends the requested record to the list. -/
theorem Cache.get_data_spec {c : Cache α} {L : List Nat} {fuel index : Nat} {len : Int}
    {c' : Cache α} {p : Int} (hwf : c.WF L)
    (h : c.get_data fuel index len = some (c', p)) :
    ∃ k, k ≤ (L.erase index).length ∧
      c'.Chain ((L.erase index).drop k ++ [index]) ∧
      p = min (lenAt c.contents index) len ∧
      index < c.head.length ∧
      c'.head.length = c.head.length ∧
      (∀ m, lenAt c'.contents m =
        if m = index then max (lenAt c.contents index) len
        else if m ∈ (L.erase index).take k then 0 else lenAt c.contents m) ∧
      (∀ m, dataAt c'.contents m =
        if m = index then
          (if lenAt c.contents index < len then realloc (dataAt c.contents index) len
           else dataAt c.contents index)
        else if m ∈ (L.erase index).take k then [] else dataAt c.contents m) ∧
      (c'.size = if lenAt c.contents index < len then
          c.size + (((L.erase index).take k).map (lenAt c.contents)).sum -
            (len - lenAt c.contents index)
        else c.size) ∧
      (¬ lenAt c.contents index < len → k = 0) ∧
      (∀ k', k' < k → c.size + (((L.erase index).take k').map (lenAt c.contents)).sum <
        len - lenAt c.contents index) ∧
      (lenAt c.contents index < len → len - lenAt c.contents index ≤
        c.size + (((L.erase index).take k).map (lenAt c.contents)).sum) ∧
      (1 ≤ len → c'.WF ((L.erase index).drop k ++ [index])) := by
  obtain ⟨a, ha, hrep⟩ := Cache.get_data_view hwf h
  obtain ⟨k, h1, h2, h3, h4, h5, h6, h7, -, h9, -, h11, h12, h13⟩ :=
    LruView.get_data_char hwf.chain.2 hwf.toWFv.valid (hwf.mem_iff index) ha
  refine ⟨k, h1, ?_, h3, ?_, ?_, ?_, ?_, ?_, h11, h12, h13, ?_⟩
  · rw [← h2]; exact hrep.2.2
  · rw [← Cache.contents_length]; exact h4
  · rw [← Cache.contents_length, ← Cache.contents_length, hrep.2.1]; exact h5
  · rw [hrep.2.1]; exact h6
  · rw [hrep.2.1]; exact h7
  · rw [hrep.1]; exact h9
  · intro hlen
    have hw := LruView.get_data_wfv hwf.toWFv hlen ha
    rw [← h2]
    exact Cache.WF.ofWFv hrep.2.2 (by rw [hrep.2.1]; exact hw)


theorem swap_cells_getElem? {d d' : List (Option α)} {i j : Nat}
    (h : swap_cells d i j = some d') (q : Nat) :
    d'[q]? = if q = j then d[i]? else if q = i then d[j]? else d[q]? := by
  simp only [swap_cells] at h
  cases hi : d[i]? with
  | none => simp [hi] at h
  | some a =>
    cases hj : d[j]? with
    | none => simp [hi, hj] at h
    | some b =>
      simp only [hi, hj, Option.some.injEq] at h
      subst h
      have hil : i < d.length := (List.getElem?_eq_some.1 hi).1
      have hjl : j < d.length := (List.getElem?_eq_some.1 hj).1
      by_cases hqj : q = j
      · subst hqj; simp [hjl]
      · rw [if_neg hqj, List.getElem?_set_ne (Ne.symm hqj)]
        by_cases hqi : q = i
        · subst hqi; simp [hil]
        · rw [if_neg hqi, List.getElem?_set_ne (Ne.symm hqi)]

theorem swap_cells_min_max {d d' : List (Option α)} {i j : Nat} (hij : i ≠ j)
    (h : swap_cells d (min i j) (max i j) = some d') (q : Nat) :
    d'[q]? = if q = i then d[j]? else if q = j then d[i]? else d[q]? := by
  rw [swap_cells_getElem? h q]
  rcases Nat.lt_or_gt_of_ne hij with hlt | hgt
  · rw [min_eq_left (le_of_lt hlt), max_eq_right (le_of_lt hlt)]
    by_cases h1 : q = j
    · subst h1; simp [Ne.symm hij]
    · simp [h1]
  · rw [min_eq_right (le_of_lt hgt), max_eq_left (le_of_lt hgt)]

/-- Everything `swap_index(i, j)` with `i ≠ j` does on a well-formed cache. -/
theorem Cache.swap_index_spec {c : Cache α} {L : List Nat} {fuel i j : Nat} {c' : Cache α}
    (hwf : c.WF L) (hij : i ≠ j) (h : c.swap_index fuel i j = some c') :
    i < c.head.length ∧ j < c.head.length ∧ c'.head.length = c.head.length ∧
    c'.total + c'.size = c.total + c.size ∧ c.size ≤ c'.size ∧
    c'.WF ((relink c.contents L i j).filter (fun k => decide (¬ (((min i j : Nat) : Int) <
      lenAt c.contents (swap_src i j k) ∧
      lenAt c.contents (swap_src i j k) ≤ ((max i j : Nat) : Int))))) ∧
    (∀ m, lenAt c'.contents m =
      if ((min i j : Nat) : Int) < lenAt c.contents (swap_src i j m) ∧
          lenAt c.contents (swap_src i j m) ≤ ((max i j : Nat) : Int)
      then 0 else lenAt c.contents (swap_src i j m)) ∧
    (∀ m, m < c.head.length →
      (lenAt c.contents (swap_src i j m) ≤ ((min i j : Nat) : Int) →
        dataAt c'.contents m = dataAt c.contents (swap_src i j m)) ∧
      (((min i j : Nat) : Int) < lenAt c.contents (swap_src i j m) →
        lenAt c.contents (swap_src i j m) ≤ ((max i j : Nat) : Int) →
        dataAt c'.contents m = []) ∧
      (((max i j : Nat) : Int) < lenAt c.contents (swap_src i j m) →
        ∀ q : Nat, (dataAt c'.contents m)[q]? =
          if q = i then (dataAt c.contents (swap_src i j m))[j]?
          else if q = j then (dataAt c.contents (swap_src i j m))[i]?
          else (dataAt c.contents (swap_src i j m))[q]?)) := by
  obtain ⟨a, ha, hrep⟩ := Cache.swap_index_view hwf h
  obtain ⟨h1, h2, h3, h4, h5, h6, h7, h8, h9⟩ := LruView.swap_index_char hwf.toWFv hij ha
  rw [Cache.contents_length] at h1 h2 h4
  refine ⟨h1, h2, ?_, ?_, ?_, ?_, ?_, ?_⟩
  · rw [← Cache.contents_length, hrep.2.1]; exact h4
  · rw [Cache.total_eq, Cache.total_eq, hrep.2.1, hrep.1]; exact h5
  · rw [hrep.1]; exact h6
  · rw [← h7]; exact Cache.WF.ofWFv hrep.2.2 (by rw [hrep.2.1]; exact h3)
  · rw [hrep.2.1]; exact h8
  · intro m hm
    rw [hrep.2.1]
    obtain ⟨g1, g2, g3⟩ := h9 m (by rw [Cache.contents_length]; exact hm)
    exact ⟨g1, g2, fun hlt q => swap_cells_min_max hij (g3 hlt) q⟩


theorem demo_cache_wf : demo_cache.WF [0, 1, 2] := by
  refine ⟨⟨?_, by decide⟩, ?_, ?_⟩
  · simp [ring, Linked, demo_cache, Cache.get_next, Cache.get_prev]
  · intro k hk
    have hk' : k < 5 := hk
    interval_cases k <;> simp [lenAt, Cache.contents, demo_cache]
  · intro k hk
    have hk' : k < 5 := hk
    interval_cases k <;> simp [lenAt, dataAt, Cache.contents, demo_cache]


/-- The cells that were filled before a `get_data` call are not changed by it. -/
theorem Cache.get_data_keeps_cells {c : Cache α} {L : List Nat} {fuel index : Nat}
    {len : Int} {c' : Cache α} {p : Int} (hwf : c.WF L) (hindex : index < c.head.length)
    (h : c.get_data fuel index len = some (c', p)) (q : Nat)
    (hq : (q : Int) < lenAt c.contents index) :
    (dataAt c'.contents index)[q]? = (dataAt c.contents index)[q]? := by
  obtain ⟨k, -, -, -, -, -, -, hdata, -⟩ := Cache.get_data_spec hwf h
  rw [hdata index, if_pos rfl]
  by_cases hlt : lenAt c.contents index < len
  · rw [if_pos hlt]
    have hb := hwf.buf index hindex
    have hq' : q < (dataAt c.contents index).length := by
      rw [← hb] at hq; exact_mod_cast hq
    have hq'' : q < len.toNat := by
      have : (q : Int) < len := lt_trans hq hlt
      omega
    simp only [realloc]
    rw [List.getElem?_append_left (by simp [hq', hq'']), List.getElem?_take_of_lt hq'']
  · rw [if_neg hlt]


/-! ## Claims about the kernel cache -/

/-- C1 (counterexample): on a fresh cache with a remaining budget of 4 values, the calls
`get_data(0,0)`, `get_data(0,1)`, `get_data(1,2)`, `get_data(0,3)` all return and leave
5 cached values with `size = 0`: the zero-length request links the empty record `head[0]`
into the list, and the later requests evict it while it is being grown. -/
theorem cache_capacity_counterexample :
    (Cache.new 32 3 112 : Cache Nat).size = 4 ∧
    ((Cache.new 32 3 112 : Cache Nat).run
        [Call.get_data 3 0 0, Call.get_data 3 0 1, Call.get_data 3 1 2,
          Call.get_data 3 0 3]).map (fun c => (c.total, c.size)) = some (5, 0) := by
  decide

/-- C1 (amended): for every sequence of returning `get_data` calls with `len ≥ 1` and
`swap_index` calls on a freshly constructed cache with non-negative remaining budget, the
cached lengths plus `size` equal the budget computed by the constructor and `size ≥ 0`, so
the cached length never exceeds the budget. -/
theorem cache_capacity_invariant (sizeof_head_t l_ : Nat) (size_ : Int) (calls : List Call)
    (c : Cache α)
    (hb : 0 ≤ (Cache.new sizeof_head_t l_ size_ : Cache α).size)
    (hreq : ∀ x ∈ calls, x.requests_data)
    (hrun : (Cache.new sizeof_head_t l_ size_ : Cache α).run calls = some c) :
    c.total + c.size = (Cache.new sizeof_head_t l_ size_ : Cache α).size ∧
    0 ≤ c.size ∧ c.total ≤ (Cache.new sizeof_head_t l_ size_ : Cache α).size := by
  obtain ⟨L', -, ht, hs⟩ :=
    Cache.run_wf calls _ [] c (Cache.WF_new sizeof_head_t l_ size_) hreq hrun
  have h0 : (Cache.new sizeof_head_t l_ size_ : Cache α).total = 0 := by
    simp [Cache.total, Cache.new]
  rw [h0, zero_add] at ht
  refine ⟨ht, hs hb, ?_⟩
  have := hs hb
  linarith

theorem cache_capacity_invariant_witness :
    ∃ c : Cache Nat,
      (Cache.new 32 5 188 : Cache Nat).run
        [Call.get_data 5 0 5, Call.get_data 5 1 2, Call.swap_index 5 0 1,
          Call.get_data 5 2 4] = some c ∧
      c.total + c.size = (Cache.new 32 5 188 : Cache Nat).size ∧
      0 ≤ c.size ∧ c.total ≤ (Cache.new 32 5 188 : Cache Nat).size :=
  ⟨_, rfl, cache_capacity_invariant 32 5 188
    [Call.get_data 5 0 5, Call.get_data 5 1 2, Call.swap_index 5 0 1, Call.get_data 5 2 4]
    _ (by decide) (by decide) rfl⟩

/-- C3 (counterexample): (1) a record that holds 3 values is asked for 2 values; `get_data`
returns 2, the requested length, not the 3 that were filled before the call.  (2) On a fresh
cache with a budget of 4 values, after the requests `get_data(0,0)`, `get_data(0,1)`,
`get_data(1,2)` the record `head[0]` holds 1 value and is linked with `prev == head[0]`; the
request `get_data(0,3)` evicts it in its own loop and returns 0, neither the length that was
filled before the call nor the requested one. -/
theorem get_data_return_counterexample :
    (match (Cache.new 32 5 188 : Cache Nat).get_data 5 0 3 with
      | some (c, _) => some (lenAt c.contents 0, (c.get_data 5 0 2).map Prod.snd)
      | none => none) = some (3, some 2) ∧
    ((Cache.new 32 3 112 : Cache Nat).run
        [Call.get_data 3 0 0, Call.get_data 3 0 1, Call.get_data 3 1 2]).bind
      (fun c => (c.get_data 3 0 3).map
        (fun r => (lenAt c.contents 0, r.2, lenAt r.1.contents 0))) = some (1, 0, 3) := by
  constructor <;> decide

/-- C3 (amended): on a well-formed cache (the recency list is a ring through `lru_head`
without repetition that holds exactly the records with `len > 0`, and every buffer has `len`
cells, as after any sequence of `get_data` calls with `len ≥ 1` and `swap_index` calls on a
fresh cache), for every record `index` and every requested
length `len ≥ 1`, `get_data` returns (given fuel for the list and a budget that can cover
the growth); the value it returns is the smaller of the previously filled length and `len`:
the previous length when the record has to grow, `len` itself when the record already holds
`len` values or more.  So the caller fills exactly `[returned, len)`.  After the call the
record's filled length is the larger of the two, hence at least `len`, its buffer has that
many cells, and the cells filled before the call are unchanged. -/
theorem get_data_return_value {c : Cache α} {L : List Nat} (hwf : c.WF L)
    (fuel index : Nat) (len : Int) (hlen : 1 ≤ len) (hindex : index < c.head.length) :
    (L.length ≤ fuel →
      len - lenAt c.contents index ≤
        c.size + ((L.erase index).map (lenAt c.contents)).sum →
      ∃ r, c.get_data fuel index len = some r) ∧
    ∀ (c' : Cache α) (p : Int), c.get_data fuel index len = some (c', p) →
      p = min (lenAt c.contents index) len ∧
      (lenAt c.contents index < len → p = lenAt c.contents index) ∧
      (len ≤ lenAt c.contents index → p = len) ∧
      lenAt c'.contents index = max (lenAt c.contents index) len ∧
      len ≤ lenAt c'.contents index ∧
      ((dataAt c'.contents index).length : Int) = lenAt c'.contents index ∧
      (∀ q : Nat, (q : Int) < lenAt c.contents index →
        (dataAt c'.contents index)[q]? = (dataAt c.contents index)[q]?) := by
  refine ⟨fun hf hb => Cache.get_data_returns hwf hindex hf hb, ?_⟩
  intro c' p h
  obtain ⟨k, -, -, hp, -, hl, hlen', -, -, -, -, -, hwf'⟩ := Cache.get_data_spec hwf h
  have hl' : c'.head.length = c.head.length := hl
  have hidx' : index < c'.head.length := by rw [hl']; exact hindex
  have hmax := hlen' index
  rw [if_pos rfl] at hmax
  refine ⟨hp, ?_, ?_, hmax, ?_, (hwf' hlen).buf index hidx', ?_⟩
  · intro hlt; rw [hp, min_eq_left (le_of_lt hlt)]
  · intro hle; rw [hp, min_eq_right hle]
  · rw [hmax]; exact le_max_right _ _
  · exact Cache.get_data_keeps_cells hwf hindex h

theorem get_data_return_value_witness :
    ((([] : List Nat).length ≤ 5 →
      (3 : Int) - lenAt (Cache.new 32 5 188 : Cache Nat).contents 0 ≤
        (Cache.new 32 5 188 : Cache Nat).size +
          ((([] : List Nat).erase 0).map (lenAt (Cache.new 32 5 188 : Cache Nat).contents)).sum →
      ∃ r, (Cache.new 32 5 188 : Cache Nat).get_data 5 0 3 = some r) ∧
    ∀ (c' : Cache Nat) (p : Int),
      (Cache.new 32 5 188 : Cache Nat).get_data 5 0 3 = some (c', p) →
      p = min (lenAt (Cache.new 32 5 188 : Cache Nat).contents 0) 3 ∧
      (lenAt (Cache.new 32 5 188 : Cache Nat).contents 0 < 3 →
        p = lenAt (Cache.new 32 5 188 : Cache Nat).contents 0) ∧
      ((3 : Int) ≤ lenAt (Cache.new 32 5 188 : Cache Nat).contents 0 → p = 3) ∧
      lenAt c'.contents 0 = max (lenAt (Cache.new 32 5 188 : Cache Nat).contents 0) 3 ∧
      3 ≤ lenAt c'.contents 0 ∧
      ((dataAt c'.contents 0).length : Int) = lenAt c'.contents 0 ∧
      (∀ q : Nat, (q : Int) < lenAt (Cache.new 32 5 188 : Cache Nat).contents 0 →
        (dataAt c'.contents 0)[q]? =
          (dataAt (Cache.new 32 5 188 : Cache Nat).contents 0)[q]?)) ∧
    (Cache.new 32 5 188 : Cache Nat).get_data 5 0 3 =
      some ({ l := 5, size := 4, lru_next := Ptr.head 0, lru_prev := Ptr.head 0,
              head := [⟨Ptr.lru_head, Ptr.lru_head, [none, none, none], 3⟩,
                ⟨Ptr.null, Ptr.null, [], 0⟩, ⟨Ptr.null, Ptr.null, [], 0⟩,
                ⟨Ptr.null, Ptr.null, [], 0⟩, ⟨Ptr.null, Ptr.null, [], 0⟩] }, 0) :=
  ⟨get_data_return_value (Cache.WF_new 32 5 188) 5 0 3 (by decide) (by decide), by decide⟩

/-- C4 (counterexample): on a fresh cache with a budget of 4 values, after the requests
`get_data(0,0)`, `get_data(0,1)`, `get_data(1,2)` the record `head[0]` holds 1 value and has
`prev == head[0]`.  The request `get_data(0,3)` unlinks it, which leaves `lru_head.next`
pointing at it; in front of the loop `size = 1 < more = 2`, and the one pass of the loop
evicts `lru_head.next`, the requested record itself (its length goes to 0 and back to the
budget).  The call returns. -/
theorem get_data_lru_order_counterexample :
    ((Cache.new 32 3 112 : Cache Nat).run
        [Call.get_data 3 0 0, Call.get_data 3 0 1, Call.get_data 3 1 2]).bind
      (fun c => (c.before_loop 0 3).map
        (fun r => (lenAt c.contents 0, decide (r.1.lru_next = Ptr.head 0), r.1.size, r.2,
          (r.1.free_old_space 3 r.2).map (fun c2 => (lenAt c2.contents 0, c2.size)),
          (c.get_data 3 0 3).isSome))) =
      some (1, true, 1, 2, some (0, 2), true) := by
  rfl

/-- C4 (amended): on a well-formed cache with recency list `L` (a ring through `lru_head`
without repetition that holds exactly the records with `len > 0`, as after any sequence of
`get_data` calls with `len ≥ 1` and `swap_index` calls on a fresh cache), a call
`get_data(index, .., len)` that returns leaves `index` as the last node of the list (`lru_head.prev`); the records it evicted
are exactly the first `k` records of the list (the requested record apart, which is unlinked
before the loop and so is never evicted); nothing is evicted unless the record has to grow;
and `k` is the first point where the budget covers the growth: the budget plus the first `k`
lengths covers it, and with fewer records it does not. -/
theorem get_data_lru_order {c : Cache α} {L : List Nat} (hwf : c.WF L)
    (fuel index : Nat) (len : Int) (c' : Cache α) (p : Int)
    (h : c.get_data fuel index len = some (c', p)) :
    ∃ k, k ≤ (L.erase index).length ∧
      c'.Chain ((L.erase index).drop k ++ [index]) ∧
      c'.lru_prev = Ptr.head index ∧
      index ∉ (L.erase index).take k ∧
      (∀ m, m ≠ index → (m ∈ (L.erase index).take k →
          lenAt c.contents m ≠ 0 ∧ lenAt c'.contents m = 0 ∧ dataAt c'.contents m = []) ∧
        (m ∉ (L.erase index).take k →
          lenAt c'.contents m = lenAt c.contents m ∧
          dataAt c'.contents m = dataAt c.contents m)) ∧
      (¬ lenAt c.contents index < len → k = 0) ∧
      (lenAt c.contents index < len → len - lenAt c.contents index ≤
        c.size + (((L.erase index).take k).map (lenAt c.contents)).sum) ∧
      (∀ k', k' < k → c.size + (((L.erase index).take k').map (lenAt c.contents)).sum <
        len - lenAt c.contents index) := by
  obtain ⟨k, h1, h2, -, -, -, h6, h7, -, h9, h10, h11, -⟩ := Cache.get_data_spec hwf h
  refine ⟨k, h1, h2, ?_, ?_, ?_, h9, h11, h10⟩
  · rw [Cache.chain_last h2, lastFrom_concat]
  · intro hin
    exact ((List.Nodup.mem_erase_iff hwf.chain.2).1 (List.mem_of_mem_take hin)).1 rfl
  · intro m hm
    refine ⟨fun hin => ?_, fun hin => ?_⟩
    · refine ⟨?_, ?_, ?_⟩
      · exact (hwf.mem_iff m).1 (List.mem_of_mem_erase (List.mem_of_mem_take hin))
      · rw [h6, if_neg hm, if_pos hin]
      · rw [h7, if_neg hm, if_pos hin]
    · exact ⟨by rw [h6, if_neg hm, if_neg hin], by rw [h7, if_neg hm, if_neg hin]⟩

/-- Witness of C4 (amended): a request that has to evict on a well-formed cache. -/
theorem get_data_lru_order_witness :
    match demo_cache.get_data 5 3 4 with
    | none => False
    | some (c', _) =>
      ∃ k, k ≤ (([0, 1, 2] : List Nat).erase 3).length ∧
        c'.Chain ((([0, 1, 2] : List Nat).erase 3).drop k ++ [3]) ∧
        c'.lru_prev = Ptr.head 3 ∧
        (∀ k', k' < k →
          demo_cache.size + (((([0, 1, 2] : List Nat).erase 3).take k').map
            (lenAt demo_cache.contents)).sum < 4 - lenAt demo_cache.contents 3) := by
  cases hres : demo_cache.get_data 5 3 4 with
  | none => exact absurd hres (by decide)
  | some r =>
    obtain ⟨c', p⟩ := r
    obtain ⟨k, h1, h2, h3, -, -, -, -, h8⟩ :=
      get_data_lru_order demo_cache_wf 5 3 4 c' p hres
    exact ⟨k, h1, h2, h3, h8⟩

/-- C5 (counterexample): on a fresh cache of three records, after the requests
`get_data(0,0)`, `get_data(1,3)`, `get_data(0,0)` the empty record `head[0]` is linked twice
and the record of column 1, which holds 3 values, is no longer reached from
`lru_head.next`.  With the cells 0 and 2 of column 1 set to 10 and 30, `swap_index(0,2)`
returns and column 1 is as before: its filled range covers both offsets, and the cells were
not exchanged. -/
theorem swap_index_other_entries_counterexample :
    ((Cache.new 32 3 112 : Cache Nat).run
        [Call.get_data 3 0 0, Call.get_data 3 1 3, Call.get_data 3 0 0]).bind
      (fun c => (((c.write 1 0 10).write 1 2 30).swap_index 3 0 2).map
        (fun c3 => (lenAt ((c.write 1 0 10).write 1 2 30).contents 1,
          dataAt ((c.write 1 0 10).write 1 2 30).contents 1,
          lenAt c3.contents 1, dataAt c3.contents 1))) =
      some (3, [some 10, none, some 30], 3, [some 10, none, some 30]) := by
  decide

/-- C5 (amended): on a well-formed cache (the recency list is a ring through `lru_head`
without repetition that holds exactly the records with `len > 0`, as after any sequence of
`get_data` calls with `len ≥ 1` and `swap_index` calls on a fresh cache), `swap_index(i, j)`
with `i ≠ j` returns (given fuel for the
list) and treats every record `m` other than `i` and `j` as follows: when its filled range
covers both offsets, the cells `data[i]` and `data[j]` are exchanged and the length and the
other cells are kept; when it covers `i` but not `j` (or `j` but not `i`), the record is
evicted: filled length 0, no buffer; when it covers neither, the record is unchanged.  The
cached lengths plus `size` are the same before and after, so the length of an evicted
record went back to the budget. -/
theorem swap_index_other_entries {c : Cache α} {L : List Nat} (hwf : c.WF L)
    (fuel i j : Nat) (hij : i ≠ j) (hi : i < c.head.length) (hj : j < c.head.length) :
    (L.length ≤ fuel → ∃ c', c.swap_index fuel i j = some c') ∧
    ∀ c', c.swap_index fuel i j = some c' →
      c'.total + c'.size = c.total + c.size ∧
      ∀ m, m < c.head.length → m ≠ i → m ≠ j →
        ((i : Int) < lenAt c.contents m → (j : Int) < lenAt c.contents m →
          lenAt c'.contents m = lenAt c.contents m ∧
          ∀ q : Nat, (dataAt c'.contents m)[q]? =
            if q = i then (dataAt c.contents m)[j]?
            else if q = j then (dataAt c.contents m)[i]?
            else (dataAt c.contents m)[q]?) ∧
        ((i : Int) < lenAt c.contents m → lenAt c.contents m ≤ (j : Int) →
          lenAt c'.contents m = 0 ∧ dataAt c'.contents m = []) ∧
        ((j : Int) < lenAt c.contents m → lenAt c.contents m ≤ (i : Int) →
          lenAt c'.contents m = 0 ∧ dataAt c'.contents m = []) ∧
        (lenAt c.contents m ≤ (i : Int) → lenAt c.contents m ≤ (j : Int) →
          lenAt c'.contents m = lenAt c.contents m ∧
          dataAt c'.contents m = dataAt c.contents m) := by
  refine ⟨fun hf => Cache.swap_index_returns hwf hi hj hf, ?_⟩
  intro c' h
  obtain ⟨-, -, -, ht, -, -, hl, hd⟩ := Cache.swap_index_spec hwf hij h
  refine ⟨ht, ?_⟩
  intro m hm hmi hmj
  have hsrc : swap_src i j m = m := by simp [swap_src, hmi, hmj]
  have hl' := hl m
  obtain ⟨d1, d2, d3⟩ := hd m hm
  rw [hsrc] at hl' d1 d2 d3
  have hmin : ((min i j : Nat) : Int) = min (i : Int) (j : Int) := by
    push_cast; rfl
  have hmax : ((max i j : Nat) : Int) = max (i : Int) (j : Int) := by
    push_cast; rfl
  simp only [hmin, hmax] at hl' d1 d2 d3
  refine ⟨fun h1 h2 => ?_, fun h1 h2 => ?_, fun h1 h2 => ?_, fun h1 h2 => ?_⟩
  · have hb : max (i : Int) (j : Int) < lenAt c.contents m := max_lt h1 h2
    refine ⟨?_, d3 hb⟩
    rw [hl', if_neg]
    intro hc; exact absurd hb (not_lt.2 hc.2)
  · have ha : min (i : Int) (j : Int) < lenAt c.contents m := lt_of_le_of_lt (min_le_left _ _) h1
    have hb : lenAt c.contents m ≤ max (i : Int) (j : Int) := le_trans h2 (le_max_right _ _)
    exact ⟨by rw [hl', if_pos ⟨ha, hb⟩], d2 ha hb⟩
  · have ha : min (i : Int) (j : Int) < lenAt c.contents m :=
      lt_of_le_of_lt (min_le_right _ _) h1
    have hb : lenAt c.contents m ≤ max (i : Int) (j : Int) := le_trans h2 (le_max_left _ _)
    exact ⟨by rw [hl', if_pos ⟨ha, hb⟩], d2 ha hb⟩
  · have ha : lenAt c.contents m ≤ min (i : Int) (j : Int) := le_min h1 h2
    refine ⟨?_, d1 ha⟩
    rw [hl', if_neg]
    intro hc; exact absurd hc.1 (not_lt.2 ha)

/-- Witness of C5 (amended): a swap on a well-formed cache with records of the three
kinds. -/
theorem swap_index_other_entries_witness :
    match demo_cache.swap_index 5 1 3 with
    | none => False
    | some c' =>
      c'.total + c'.size = demo_cache.total + demo_cache.size ∧
      (lenAt c'.contents 0 = lenAt demo_cache.contents 0 ∧
        ∀ q : Nat, (dataAt c'.contents 0)[q]? =
          if q = 1 then (dataAt demo_cache.contents 0)[3]?
          else if q = 3 then (dataAt demo_cache.contents 0)[1]?
          else (dataAt demo_cache.contents 0)[q]?) ∧
      (lenAt c'.contents 2 = 0 ∧ dataAt c'.contents 2 = []) ∧
      (lenAt c'.contents 4 = lenAt demo_cache.contents 4 ∧
        dataAt c'.contents 4 = dataAt demo_cache.contents 4) := by
  cases hres : demo_cache.swap_index 5 1 3 with
  | none => exact absurd hres (by decide)
  | some c' =>
    have h := (swap_index_other_entries demo_cache_wf 5 1 3 (by decide) (by decide)
      (by decide)).2 c' hres
    exact ⟨h.1, (h.2 0 (by decide) (by decide) (by decide)).1 (by decide) (by decide),
      (h.2 2 (by decide) (by decide) (by decide)).2.1 (by decide) (by decide),
      (h.2 4 (by decide) (by decide) (by decide)).2.2.2 (by decide) (by decide)⟩


/-- C2 (counterexample): in a well-formed cache where `head[1]` holds the buffer `[10, 20]`,
after `swap_index(0, 1)` a request for column 0 hands out the buffer `[20, 10]` with filled
length 2: the two cells at the offsets 0 and 1 were exchanged, so the buffer contents are
not those previously associated with column 1. -/
theorem swap_index_permutation_counterexample :
    demo_cache.WF [0, 1, 2] ∧
    dataAt demo_cache.contents 1 = [some 10, some 20] ∧
    (match demo_cache.swap_index 5 0 1 with
      | some c' => (c'.get_data 5 0 2).map (fun r => (dataAt r.1.contents 0, r.2))
      | none => none) = some ([some 20, some 10], 2) :=
  ⟨demo_cache_wf, by decide, by decide⟩

/-- C2 (amended): on a well-formed cache, `swap_index(i, j)` with `i ≠ j` returns (given fuel
for the list), and afterwards column `i` holds what column `j` held before, and column `j`
what column `i` held, in this sense (`m` is `i` or `j`, `swap_src i j m` the other one):
the filled length is the former length of the other column and the buffer is its former
buffer with the two cells at the offsets `i` and `j` exchanged when that length covers both
offsets; length and buffer are those of the other column unchanged when the length covers
neither offset; and the record is invalidated (filled length 0, no buffer) when the length
covers only one of the two offsets.  A following `get_data` request of at least one value for
that column returns the smaller of this filled length and the requested one, so 0 for an
invalidated record, and keeps the cells that are filled. -/
theorem swap_index_swapped_entries {c : Cache α} {L : List Nat} (hwf : c.WF L)
    (fuel i j : Nat) (hij : i ≠ j) (hi : i < c.head.length) (hj : j < c.head.length) :
    (L.length ≤ fuel → ∃ c', c.swap_index fuel i j = some c') ∧
    ∀ c', c.swap_index fuel i j = some c' → ∀ m, (m = i ∨ m = j) →
      ((i : Int) < lenAt c.contents (swap_src i j m) →
        (j : Int) < lenAt c.contents (swap_src i j m) →
        lenAt c'.contents m = lenAt c.contents (swap_src i j m) ∧
        ∀ q : Nat, (dataAt c'.contents m)[q]? =
          if q = i then (dataAt c.contents (swap_src i j m))[j]?
          else if q = j then (dataAt c.contents (swap_src i j m))[i]?
          else (dataAt c.contents (swap_src i j m))[q]?) ∧
      (lenAt c.contents (swap_src i j m) ≤ (i : Int) →
        lenAt c.contents (swap_src i j m) ≤ (j : Int) →
        lenAt c'.contents m = lenAt c.contents (swap_src i j m) ∧
        dataAt c'.contents m = dataAt c.contents (swap_src i j m)) ∧
      (((i : Int) < lenAt c.contents (swap_src i j m) ∧
          lenAt c.contents (swap_src i j m) ≤ (j : Int)) ∨
        ((j : Int) < lenAt c.contents (swap_src i j m) ∧
          lenAt c.contents (swap_src i j m) ≤ (i : Int)) →
        lenAt c'.contents m = 0 ∧ dataAt c'.contents m = []) ∧
      (∀ (fuel' : Nat) (len' : Int) (c'' : Cache α) (p : Int), 1 ≤ len' →
        c'.get_data fuel' m len' = some (c'', p) →
        p = min (lenAt c'.contents m) len' ∧
        ∀ q : Nat, (q : Int) < lenAt c'.contents m →
          (dataAt c''.contents m)[q]? = (dataAt c'.contents m)[q]?) := by
  refine ⟨fun hf => Cache.swap_index_returns hwf hi hj hf, ?_⟩
  intro c' h m hm
  obtain ⟨-, -, hlen, -, -, hwf', hl, hd⟩ := Cache.swap_index_spec hwf hij h
  have hmv : m < c.head.length := by
    rcases hm with rfl | rfl
    · exact hi
    · exact hj
  have hl' := hl m
  obtain ⟨d1, d2, d3⟩ := hd m hmv
  have hmin : ((min i j : Nat) : Int) = min (i : Int) (j : Int) := by
    push_cast; rfl
  have hmax : ((max i j : Nat) : Int) = max (i : Int) (j : Int) := by
    push_cast; rfl
  simp only [hmin, hmax] at hl' d1 d2 d3
  refine ⟨fun h1 h2 => ?_, fun h1 h2 => ?_, fun h1 => ?_, ?_⟩
  · have hb : max (i : Int) (j : Int) < lenAt c.contents (swap_src i j m) := max_lt h1 h2
    refine ⟨?_, d3 hb⟩
    rw [hl', if_neg]
    intro hc; exact absurd hb (not_lt.2 hc.2)
  · have ha : lenAt c.contents (swap_src i j m) ≤ min (i : Int) (j : Int) := le_min h1 h2
    refine ⟨?_, d1 ha⟩
    rw [hl', if_neg]
    intro hc; exact absurd hc.1 (not_lt.2 ha)
  · have hab : min (i : Int) (j : Int) < lenAt c.contents (swap_src i j m) ∧
        lenAt c.contents (swap_src i j m) ≤ max (i : Int) (j : Int) := by
      rcases h1 with ⟨h1, h2⟩ | ⟨h1, h2⟩
      · exact ⟨lt_of_le_of_lt (min_le_left _ _) h1, le_trans h2 (le_max_right _ _)⟩
      · exact ⟨lt_of_le_of_lt (min_le_right _ _) h1, le_trans h2 (le_max_left _ _)⟩
    exact ⟨by rw [hl', if_pos hab], d2 hab.1 hab.2⟩
  · intro fuel' len' c'' p _ hg
    have hmv' : m < c'.head.length := by rw [hlen]; exact hmv
    obtain ⟨k, -, -, hp, -⟩ := Cache.get_data_spec hwf' hg
    exact ⟨hp, fun q hq => Cache.get_data_keeps_cells hwf' hmv' hg q hq⟩

theorem swap_index_swapped_entries_witness :
    match demo_cache.swap_index 5 0 1 with
    | none => False
    | some c' =>
      (lenAt c'.contents 0 = lenAt demo_cache.contents (swap_src 0 1 0) ∧
        ∀ q : Nat, (dataAt c'.contents 0)[q]? =
          if q = 0 then (dataAt demo_cache.contents (swap_src 0 1 0))[1]?
          else if q = 1 then (dataAt demo_cache.contents (swap_src 0 1 0))[0]?
          else (dataAt demo_cache.contents (swap_src 0 1 0))[q]?) ∧
      (lenAt c'.contents 1 = lenAt demo_cache.contents (swap_src 0 1 1) ∧
        ∀ q : Nat, (dataAt c'.contents 1)[q]? =
          if q = 0 then (dataAt demo_cache.contents (swap_src 0 1 1))[1]?
          else if q = 1 then (dataAt demo_cache.contents (swap_src 0 1 1))[0]?
          else (dataAt demo_cache.contents (swap_src 0 1 1))[q]?) := by
  cases hres : demo_cache.swap_index 5 0 1 with
  | none => exact absurd hres (by decide)
  | some c' =>
    have h := (swap_index_swapped_entries demo_cache_wf 5 0 1 (by decide) (by decide)
      (by decide)).2 c' hres
    exact ⟨(h 0 (Or.inl rfl)).1 (by decide) (by decide),
      (h 1 (Or.inr rfl)).1 (by decide) (by decide)⟩

/-- C6: a cache of 5 records whose remaining budget `B` after construction satisfies
`5 ≤ B < 10` is asked for the full columns (`len = 5`) of the records 0, 1, 2, 3, 4 in this
order.  All requests return; record 3 is cached after its request and evicted by the
request for record 4; in the end the records 0 to 3 are all evicted, and a new request for
any of them returns 0. -/
theorem eviction_under_pressure (sizeof_head_t : Nat) (size_ : Int)
    (h5 : 5 ≤ (Cache.new sizeof_head_t 5 size_ : Cache α).size)
    (h10 : (Cache.new sizeof_head_t 5 size_ : Cache α).size < 10) :
    ∃ c4 c5 : Cache α,
      (Cache.new sizeof_head_t 5 size_ : Cache α).run
        [Call.get_data 5 0 5, Call.get_data 5 1 5, Call.get_data 5 2 5,
          Call.get_data 5 3 5] = some c4 ∧
      lenAt c4.contents 3 = 5 ∧
      c4.get_data 5 4 5 = some (c5, 0) ∧
      lenAt c5.contents 4 = 5 ∧
      ∀ k, k < 4 → lenAt c5.contents k = 0 ∧
        (c5.get_data 5 k 5).map Prod.snd = some 0 := by
  obtain ⟨B, hB⟩ : ∃ B, (Cache.new sizeof_head_t 5 size_ : Cache α).size = B := ⟨_, rfl⟩
  have hc : (Cache.new sizeof_head_t 5 size_ : Cache α) =
      { l := 5, size := B,
        head := List.replicate 5 { prev := Ptr.null, next := Ptr.null, data := [], len := 0 },
        lru_next := Ptr.lru_head, lru_prev := Ptr.lru_head } := by
    rw [← hB]; rfl
  rw [hB] at h5 h10
  rw [hc]
  refine ⟨{ l := 5, size := B - 5,
            head := [⟨Ptr.lru_head, Ptr.lru_head, [], 0⟩, ⟨Ptr.lru_head, Ptr.lru_head, [], 0⟩,
              ⟨Ptr.lru_head, Ptr.lru_head, [], 0⟩,
              ⟨Ptr.lru_head, Ptr.lru_head, [none, none, none, none, none], 5⟩,
              ⟨Ptr.null, Ptr.null, [], 0⟩],
            lru_next := Ptr.head 3, lru_prev := Ptr.head 3 },
          { l := 5, size := B - 5,
            head := [⟨Ptr.lru_head, Ptr.lru_head, [], 0⟩, ⟨Ptr.lru_head, Ptr.lru_head, [], 0⟩,
              ⟨Ptr.lru_head, Ptr.lru_head, [], 0⟩, ⟨Ptr.lru_head, Ptr.lru_head, [], 0⟩,
              ⟨Ptr.lru_head, Ptr.lru_head, [none, none, none, none, none], 5⟩],
            lru_next := Ptr.head 4, lru_prev := Ptr.head 4 }, ?_⟩
  interval_cases B
  all_goals
    refine ⟨?_, ?_, ?_, ?_, ?_⟩
    · simp [Cache.run, Cache.call, Cache.get_data, Cache.lru_delete, Cache.lru_insert,
        Cache.free_old_space, Cache.release, Cache.get_next, Cache.get_prev, Cache.set_next,
        Cache.set_prev, realloc, List.replicate]
    · simp [lenAt, Cache.contents]
    · simp [Cache.get_data, Cache.lru_delete, Cache.lru_insert,
        Cache.free_old_space, Cache.release, Cache.get_next, Cache.get_prev, Cache.set_next,
        Cache.set_prev, realloc, List.replicate]
    · simp [lenAt, Cache.contents]
    · intro k hk
      interval_cases k <;>
        simp [lenAt, Cache.contents, Cache.get_data, Cache.lru_delete, Cache.lru_insert,
          Cache.free_old_space, Cache.release, Cache.get_next, Cache.get_prev,
          Cache.set_next, Cache.set_prev, realloc, List.replicate]

theorem eviction_under_pressure_witness :
    ∃ c4 c5 : Cache Nat,
      (Cache.new 32 5 188 : Cache Nat).run
        [Call.get_data 5 0 5, Call.get_data 5 1 5, Call.get_data 5 2 5,
          Call.get_data 5 3 5] = some c4 ∧
      lenAt c4.contents 3 = 5 ∧
      c4.get_data 5 4 5 = some (c5, 0) ∧
      lenAt c5.contents 4 = 5 ∧
      ∀ k, k < 4 → lenAt c5.contents k = 0 ∧
        (c5.get_data 5 k 5).map Prod.snd = some 0 :=
  eviction_under_pressure 32 188 (by decide) (by decide)

/-! ## The optimization loop -/


theorem convergence_check_done {σ : Type} (ops : SolverOps σ) (s : σ) (counter : Int)
    (s' : σ) (h : convergence_check ops s counter = Step.done s') :
    (ops.select_working_set s).1 < ops.eps (ops.select_working_set s).2 ∧
    s' = (ops.select_working_set (ops.full_active
      (ops.reconstruct_gradient (ops.select_working_set s).2))).2 ∧
    (ops.select_working_set (ops.full_active
      (ops.reconstruct_gradient (ops.select_working_set s).2))).1 < ops.eps s' := by
  unfold convergence_check at h
  by_cases h1 : (ops.select_working_set s).1 < ops.eps (ops.select_working_set s).2
  · simp only [h1, if_true] at h
    by_cases h2 : (ops.select_working_set (ops.full_active
        (ops.reconstruct_gradient (ops.select_working_set s).2))).1 <
        ops.eps (ops.select_working_set (ops.full_active
          (ops.reconstruct_gradient (ops.select_working_set s).2))).2
    · simp only [h2, if_true, Step.done.injEq] at h
      exact ⟨h1, h.symm, by rw [← h]; exact h2⟩
    · simp only [h2, if_false] at h
      exact Step.noConfusion h
  · simp only [h1, if_false] at h
    exact Step.noConfusion h

theorem Solve_loop_done {σ : Type} (ops : SolverOps σ) (shrinking : Bool) (fuel : Nat) :
    ∀ (s : σ) (counter : Int) (s' : σ), Solve_loop ops shrinking fuel s counter = some s' →
      ∃ t, s' = (ops.select_working_set (ops.full_active (ops.reconstruct_gradient t))).2 ∧
        (ops.select_working_set (ops.full_active (ops.reconstruct_gradient t))).1 <
          ops.eps s' := by
  induction fuel with
  | zero => intro s c s' h; simp [Solve_loop] at h
  | succ fuel ih =>
    intro s c s' h
    simp only [Solve_loop] at h
    cases hstep : Solve_iteration ops shrinking s c with
    | done t =>
      rw [hstep] at h
      simp only [Option.some.injEq] at h
      subst h
      obtain ⟨-, h2, h3⟩ := convergence_check_done ops _ _ _ hstep
      exact ⟨_, h2, h3⟩
    | next t c' =>
      rw [hstep] at h
      exact ih t c' s' h

/-- The loop returns exactly when one of the first `fuel` passes leaves it. -/
theorem Solve_loop_iff {σ : Type} (ops : SolverOps σ) (shrinking : Bool) (fuel : Nat) :
    ∀ (s : σ) (counter : Int) (s' : σ),
      Solve_loop ops shrinking fuel s counter = some s' ↔
        ∃ n t c, n < fuel ∧ loop_head ops shrinking n s counter = some (t, c) ∧
          Solve_iteration ops shrinking t c = Step.done s' := by
  induction fuel with
  | zero =>
    intro s c s'
    simp [Solve_loop]
  | succ fuel ih =>
    intro s c s'
    simp only [Solve_loop]
    cases hstep : Solve_iteration ops shrinking s c with
    | done t =>
      simp only [Option.some.injEq]
      constructor
      · rintro rfl
        exact ⟨0, s, c, Nat.succ_pos _, rfl, hstep⟩
      · rintro ⟨n, t', c', -, hh, hd⟩
        cases n with
        | zero =>
          simp only [loop_head, Option.some.injEq, Prod.mk.injEq] at hh
          obtain ⟨rfl, rfl⟩ := hh
          rw [hstep] at hd
          exact Step.done.inj hd
        | succ n => simp [loop_head, hstep] at hh
    | next t c1 =>
      simp only []
      rw [ih t c1 s']
      constructor
      · rintro ⟨n, t', c', hn, hh, hd⟩
        exact ⟨n + 1, t', c', Nat.succ_lt_succ hn, by simp [loop_head, hstep, hh], hd⟩
      · rintro ⟨n, t', c', hn, hh, hd⟩
        cases n with
        | zero =>
          simp only [loop_head, Option.some.injEq, Prod.mk.injEq] at hh
          obtain ⟨rfl, rfl⟩ := hh
          rw [hstep] at hd
          exact Step.noConfusion hd
        | succ n =>
          simp only [loop_head, hstep] at hh
          exact ⟨n, t', c', Nat.lt_of_succ_lt_succ hn, hh, hd⟩

theorem select_working_set_value (s : Solver_B) (ws : List Nat) :
    (Solver_B.select_working_set { s with working_set := ws }).1 = s.select_working_set.1 := by
  rfl

/-! ### A run that never leaves the loop -/

theorem init_tiny :
    Solver_B.init 2 two_point_Q [-1, -1] [1, -1] [0, 0] tiny_C tiny_C (1 / 1000) true 2 =
      tiny_start [] := by
  simp [Solver_B.init, for_loop, Solver_B.update_alpha_status, Solver_B.is_lower_bound,
    tiny_start, Solver_B.get_C, List.range, List.range.loop, List.range', tiny_C]

theorem select_working_set_tiny (w : List Nat) :
    (tiny_start w).select_working_set = (1, tiny_start [1, 0]) := by
  simp [(by norm_num : ¬ ((1 : ℚ) < 0)), Solver_B.select_working_set, Solver_B.first_block, Solver_B.second_block,
    Solver_B.second_slots, Solver_B.max0, Solver_B.second_pass_skips, Solver_B.first_pass,
    Solver_B.second_pass, for_loop, tiny_start, Solver_B.is_free, Solver_B.is_upper_bound,
    Solver_B.is_lower_bound, insert_larger, shift_larger, max0_of, Ext.le, Ext.lt, max_with,
    List.range', List.replicate]

theorem subproblem_tiny : (tiny_start [1, 0]).subproblem =
    { eps := 1 / 10000, n := 2, x := [0, 0], C := [tiny_C, tiny_C], Q := [2, 0, 0, 2], p := [-1, -1] } := by
  simp [Solver_B.subproblem, for_loop, tiny_start, List.range, List.range.loop, List.range', List.replicate, two_point_Q, Solver_B.get_C]
  norm_num

theorem solvebqp_tiny : solvebqp_diag { eps := 1 / 10000, n := 2, x := [0, 0], C := [tiny_C, tiny_C], Q := [2, 0, 0, 2], p := [-1, -1] } = [tiny_C, tiny_C] := by
  simp [solvebqp_diag, List.range, List.range.loop, tiny_C]
  norm_num

theorem update_G_tiny : (tiny_start [1, 0]).update_G [tiny_C, tiny_C] = tiny_start [1, 0] := by
  have h : ¬ ((1000000000000 : ℚ)⁻¹ < |tiny_C|) := by
    rw [abs_of_pos (by norm_num [tiny_C])]; norm_num [tiny_C]
  simp [Solver_B.update_G, Solver_B.update_G_step, for_loop, tiny_start, List.range', h]

theorem update_status_tiny :
    (tiny_start [1, 0]).update_status true [tiny_C, tiny_C] = tiny_start [1, 0] := by
  have h : ¬ (tiny_C ≤ 0) := by norm_num [tiny_C]
  simp [Solver_B.update_status, Solver_B.update_status_step, for_loop, tiny_start, List.range',
    Solver_B.update_alpha_status, Solver_B.is_upper_bound, Solver_B.get_C, h]

theorem update_tiny : Solver_B.update solvebqp_diag true (tiny_start [1, 0]) = tiny_start [1, 0] := by
  unfold Solver_B.update
  rw [subproblem_tiny]
  simp only []
  rw [solvebqp_tiny, update_G_tiny, update_status_tiny]

theorem do_shrinking_tiny (w : List Nat) : (tiny_start w).do_shrinking = tiny_start [1, 0] := by
  unfold Solver_B.do_shrinking
  rw [select_working_set_tiny]
  simp [tiny_start, Solver_B.shrink_loop, Solver_B.is_lower_bound]
  norm_num

theorem convergence_check_next {σ : Type} (ops : SolverOps σ) (s : σ) (c : Int)
    (h : ¬ ((ops.select_working_set s).1 < ops.eps (ops.select_working_set s).2)) :
    convergence_check ops s c = Step.next (ops.update (ops.select_working_set s).2) c := by
  unfold convergence_check
  simp only [if_neg h]

theorem hsel_tiny (w : List Nat) : ¬ ((tiny_start w).select_working_set.1 <
      (tiny_start w).select_working_set.2.eps) := by
  rw [select_working_set_tiny]
  norm_num [tiny_start]

theorem convergence_check_tiny (w : List Nat) (c : Int) :
    convergence_check (Solver_B.ops solvebqp_diag true) (tiny_start w) c =
      Step.next (tiny_start [1, 0]) c := by
  rw [convergence_check_next (Solver_B.ops solvebqp_diag true) (tiny_start w) c (hsel_tiny w)]
  show Step.next (Solver_B.update solvebqp_diag true (tiny_start w).select_working_set.2) c = _
  rw [select_working_set_tiny, update_tiny]

theorem Solve_iteration_tiny (w : List Nat) (c : Int) :
    ∃ c', Solve_iteration (Solver_B.ops solvebqp_diag true) true (tiny_start w) c =
      Step.next (tiny_start [1, 0]) c' := by
  unfold Solve_iteration
  by_cases hc : c - 1 = 0
  · rw [if_pos hc, if_pos hc, if_pos rfl]
    show ∃ c', convergence_check (Solver_B.ops solvebqp_diag true)
      (Solver_B.do_shrinking (tiny_start w)) _ = _
    rw [do_shrinking_tiny, convergence_check_tiny]
    exact ⟨_, rfl⟩
  · rw [if_neg hc, if_neg hc, convergence_check_tiny]
    exact ⟨_, rfl⟩

theorem Solve_loop_tiny (fuel : Nat) : ∀ (w : List Nat) (c : Int),
    Solve_loop (Solver_B.ops solvebqp_diag true) true fuel (tiny_start w) c = none := by
  induction fuel with
  | zero => intro w c; rfl
  | succ fuel ih =>
    intro w c
    obtain ⟨c', hc'⟩ := Solve_iteration_tiny w c
    simp only [Solve_loop, hc']
    exact ih _ _


/-! ### A run that leaves the loop -/

theorem init_unit :
    Solver_B.init 2 two_point_Q [-1, -1] [1, -1] [0, 0] 1 1 (1 / 1000) true 2 =
      unit_state [-1, -1] [Status.LOWER_BOUND, Status.LOWER_BOUND] [0, 0] [] := by
  simp [Solver_B.init, for_loop, Solver_B.update_alpha_status, Solver_B.is_lower_bound,
    unit_state, Solver_B.get_C, List.range, List.range.loop, List.range']

theorem select_working_set_unit (w : List Nat) :
    (unit_state [-1, -1] [Status.LOWER_BOUND, Status.LOWER_BOUND] [0, 0] w).select_working_set
      = (1, unit_state [-1, -1] [Status.LOWER_BOUND, Status.LOWER_BOUND] [0, 0] [1, 0]) := by
  simp [(by norm_num : ¬ ((1 : ℚ) < 0)), Solver_B.select_working_set, Solver_B.first_block, Solver_B.second_block,
    Solver_B.second_slots, Solver_B.max0, Solver_B.second_pass_skips, Solver_B.first_pass,
    Solver_B.second_pass, for_loop, unit_state, Solver_B.is_free, Solver_B.is_upper_bound,
    Solver_B.is_lower_bound, insert_larger, shift_larger, max0_of, Ext.le, Ext.lt, max_with,
    List.range', List.replicate]

theorem subproblem_unit :
    (unit_state [-1, -1] [Status.LOWER_BOUND, Status.LOWER_BOUND] [0, 0] [1, 0]).subproblem =
      { eps := 1 / 10000, n := 2, x := [0, 0], C := [1, 1], Q := [2, 0, 0, 2],
        p := [-1, -1] } := by
  simp [Solver_B.subproblem, for_loop, unit_state, List.range, List.range.loop, List.range',
    List.replicate, two_point_Q, Solver_B.get_C]
  norm_num

theorem solvebqp_unit :
    solvebqp_diag
        { eps := 1 / 10000, n := 2, x := [0, 0], C := [1, 1], Q := [2, 0, 0, 2],
          p := [-1, -1] } = [1 / 2, 1 / 2] := by
  simp [solvebqp_diag, List.range, List.range.loop]
  norm_num

theorem update_G_unit :
    (unit_state [-1, -1] [Status.LOWER_BOUND, Status.LOWER_BOUND] [0, 0] [1, 0]).update_G
      [1 / 2, 1 / 2] =
    unit_state [0, 0] [Status.LOWER_BOUND, Status.LOWER_BOUND] [1 / 2, 1 / 2] [1, 0] := by
  have h : ((1000000000000 : ℚ)⁻¹ < |2⁻¹|) := by
    rw [abs_of_pos (by norm_num)]; norm_num
  simp [Solver_B.update_G, Solver_B.update_G_step, for_loop, unit_state, List.range', h, add_row, two_point_Q]

theorem update_status_unit :
    (unit_state [0, 0] [Status.LOWER_BOUND, Status.LOWER_BOUND] [1 / 2, 1 / 2]
      [1, 0]).update_status true [1, 1] =
    unit_state [0, 0] [Status.FREE, Status.FREE] [1 / 2, 1 / 2] [1, 0] := by
  have h1 : ¬ ((1 : ℚ) ≤ 2⁻¹) := by norm_num
  have h2 : ¬ ((2 : ℚ)⁻¹ ≤ 0) := by norm_num
  have h3 : ¬ ((1 : ℚ) ≤ 1 / 2) := by norm_num
  have h4 : ¬ ((1 : ℚ) / 2 ≤ 0) := by norm_num
  simp [Solver_B.update_status, Solver_B.update_status_step, for_loop, unit_state, List.range',
    Solver_B.update_alpha_status, Solver_B.is_upper_bound, Solver_B.get_C, h1, h2, h3, h4]

theorem select_working_set_unit_free (w : List Nat) :
    (unit_state [0, 0] [Status.FREE, Status.FREE] [1 / 2, 1 / 2] w).select_working_set
      = (0, unit_exit) := by
  simp [Solver_B.select_working_set, Solver_B.first_block, Solver_B.second_block,
    Solver_B.second_slots, Solver_B.max0, Solver_B.second_pass_skips, Solver_B.first_pass,
    Solver_B.second_pass, for_loop, unit_state, unit_exit, Solver_B.is_free, Solver_B.is_upper_bound,
    Solver_B.is_lower_bound, insert_larger, shift_larger, insert_smaller, shift_smaller, max0_of, Ext.le, Ext.lt, max_with,
    List.range', List.replicate]

theorem convergence_check_break {σ : Type} (ops : SolverOps σ) (s : σ) (c : Int)
    (h1 : (ops.select_working_set s).1 < ops.eps (ops.select_working_set s).2)
    (h2 : (ops.select_working_set (ops.full_active
        (ops.reconstruct_gradient (ops.select_working_set s).2))).1 <
      ops.eps (ops.select_working_set (ops.full_active
        (ops.reconstruct_gradient (ops.select_working_set s).2))).2) :
    convergence_check ops s c = Step.done (ops.select_working_set (ops.full_active
        (ops.reconstruct_gradient (ops.select_working_set s).2))).2 := by
  unfold convergence_check
  simp only [if_pos h1, if_pos h2]

theorem reconstruct_gradient_unit_exit :
    Solver_B.reconstruct_gradient unit_exit = unit_exit := by
  simp [Solver_B.reconstruct_gradient, unit_exit, unit_state]

theorem hsel_unit (w : List Nat) :
    ¬ ((unit_state [-1, -1] [Status.LOWER_BOUND, Status.LOWER_BOUND] [0, 0]
        w).select_working_set.1 <
      (unit_state [-1, -1] [Status.LOWER_BOUND, Status.LOWER_BOUND] [0, 0]
        w).select_working_set.2.eps) := by
  rw [select_working_set_unit]
  norm_num [unit_state]

theorem update_unit :
    Solver_B.update solvebqp_diag true
      (unit_state [-1, -1] [Status.LOWER_BOUND, Status.LOWER_BOUND] [0, 0] [1, 0]) =
    unit_state [0, 0] [Status.FREE, Status.FREE] [1 / 2, 1 / 2] [1, 0] := by
  unfold Solver_B.update
  rw [subproblem_unit]
  simp only []
  rw [solvebqp_unit, update_G_unit, update_status_unit]

theorem Solve_iteration_unit_first :
    Solve_iteration (Solver_B.ops solvebqp_diag true) true
      (unit_state [-1, -1] [Status.LOWER_BOUND, Status.LOWER_BOUND] [0, 0] []) 3 =
    Step.next (unit_state [0, 0] [Status.FREE, Status.FREE] [1 / 2, 1 / 2] [1, 0]) 2 := by
  unfold Solve_iteration
  rw [if_neg (by decide), if_neg (by decide),
    convergence_check_next (Solver_B.ops solvebqp_diag true)
      (unit_state [-1, -1] [Status.LOWER_BOUND, Status.LOWER_BOUND] [0, 0] []) (3 - 1)
      (hsel_unit [])]
  show Step.next (Solver_B.update solvebqp_diag true
    (unit_state [-1, -1] [Status.LOWER_BOUND, Status.LOWER_BOUND] [0, 0]
      []).select_working_set.2) (3 - 1) = _
  rw [select_working_set_unit, update_unit]
  rfl

theorem full_active_unit_exit :
    (Solver_B.ops solvebqp_diag true).full_active unit_exit = unit_exit := rfl

theorem Solve_iteration_unit_second :
    Solve_iteration (Solver_B.ops solvebqp_diag true) true
      (unit_state [0, 0] [Status.FREE, Status.FREE] [1 / 2, 1 / 2] [1, 0]) 2 =
    Step.done unit_exit := by
  have e1 : (Solver_B.ops solvebqp_diag true).select_working_set
      (unit_state [0, 0] [Status.FREE, Status.FREE] [1 / 2, 1 / 2] [1, 0]) = (0, unit_exit) :=
    select_working_set_unit_free _
  have e2 : (Solver_B.ops solvebqp_diag true).reconstruct_gradient unit_exit = unit_exit :=
    reconstruct_gradient_unit_exit
  have e3 : (Solver_B.ops solvebqp_diag true).select_working_set unit_exit = (0, unit_exit) :=
    select_working_set_unit_free _
  have e4 : (Solver_B.ops solvebqp_diag true).eps unit_exit = 1 / 1000 := rfl
  unfold Solve_iteration
  rw [if_neg (by decide), if_neg (by decide)]
  rw [convergence_check_break (Solver_B.ops solvebqp_diag true)
      (unit_state [0, 0] [Status.FREE, Status.FREE] [1 / 2, 1 / 2] [1, 0]) (2 - 1)
      (by rw [e1, e4]; norm_num)
      (by rw [e1, e2, full_active_unit_exit, e3, e4]; norm_num)]
  rw [e1, e2, full_active_unit_exit, e3]

theorem Solve_loop_unit :
    Solve_loop (Solver_B.ops solvebqp_diag true) true 2
      (Solver_B.init 2 two_point_Q [-1, -1] [1, -1] [0, 0] 1 1 (1 / 1000) true 2) 3 =
    some unit_exit := by
  rw [init_unit]
  simp only [Solve_loop, Solve_iteration_unit_first, Solve_iteration_unit_second]

theorem Solver_B.Solve_loop_exit (solvebqp : BQP → List ℚ) (shrinking : Bool) (fuel : Nat)
    (s : Solver_B) (counter : Int) (s' : Solver_B)
    (h : Solve_loop (Solver_B.ops solvebqp shrinking) shrinking fuel s counter = some s') :
    s'.active_size = s'.l ∧ s'.select_working_set.1 < s'.eps ∧
      ∃ u : Solver_B, s' =
        { u.reconstruct_gradient with
          active_size := u.reconstruct_gradient.l, working_set := s'.working_set } := by
  obtain ⟨t, h1, h2⟩ := Solve_loop_done _ _ _ _ _ _ h
  refine ⟨?_, ?_, t, ?_⟩
  · rw [h1]; rfl
  · have e : s'.select_working_set.1 = ((Solver_B.ops solvebqp shrinking).select_working_set
        ((Solver_B.ops solvebqp shrinking).full_active
          ((Solver_B.ops solvebqp shrinking).reconstruct_gradient t))).1 := by
      rw [h1]; rfl
    rw [e]; exact h2
  · rw [h1]; rfl


/-! ### Arrays and `for` loops -/

theorem length_swap_at {β : Type} (xs : List β) (i j : Nat) :
    (swap_at xs i j).length = xs.length := by
  unfold swap_at
  split <;> simp

theorem swap_at_getElem? {β : Type} (xs : List β) (i j k : Nat) (hi : i < xs.length)
    (hj : j < xs.length) : (swap_at xs i j)[k]? = xs[swap_pos i j k]? := by
  unfold swap_at swap_pos
  rw [List.getElem?_eq_getElem hi, List.getElem?_eq_getElem hj]
  simp only []
  by_cases hkj : k = j
  · subst hkj
    by_cases hki : k = i
    · subst hki; simp [List.getElem?_set, hi]
    · simp [List.getElem?_set, hi, hj, hki]
  · by_cases hki : k = i
    · subst hki
      simp [List.getElem?_set, hi, hj, hkj, Ne.symm hkj]
    · simp [List.getElem?_set, hkj, hki, Ne.symm hkj, Ne.symm hki]

theorem swap_at_getD {β : Type} (xs : List β) (i j k : Nat) (d : β) (hi : i < xs.length)
    (hj : j < xs.length) : (swap_at xs i j).getD k d = xs.getD (swap_pos i j k) d := by
  simp only [List.getD_eq_getElem?_getD, swap_at_getElem? xs i j k hi hj]

theorem swap_pos_lt (i j k l : Nat) (hi : i < l) (hj : j < l) (hk : k < l) :
    swap_pos i j k < l := by
  unfold swap_pos; split_ifs <;> assumption

theorem swap_pos_swap_pos (i j k : Nat) : swap_pos i j (swap_pos i j k) = k := by
  unfold swap_pos
  by_cases h1 : k = i
  · subst h1; by_cases h2 : j = k <;> simp [h2]
  · by_cases h2 : k = j
    · subst h2; simp [h1]
    · simp [h1, h2]

theorem sum_swap_pos (l i j : Nat) (hi : i < l) (hj : j < l) (f : Nat → ℚ) :
    ∑ k in Finset.range l, f (swap_pos i j k) = ∑ k in Finset.range l, f k := by
  apply Finset.sum_nbij' (swap_pos i j) (swap_pos i j)
  · intro a ha; exact Finset.mem_range.mpr (swap_pos_lt i j a l hi hj (Finset.mem_range.mp ha))
  · intro a ha; exact Finset.mem_range.mpr (swap_pos_lt i j a l hi hj (Finset.mem_range.mp ha))
  · intro a _; exact swap_pos_swap_pos i j a
  · intro a _; exact swap_pos_swap_pos i j a
  · intro a _; rfl

theorem for_loop_of_le {σ : Type} (lo hi : Nat) (body : Nat → σ → σ) (s : σ) (h : hi ≤ lo) :
    for_loop lo hi body s = s := by
  unfold for_loop
  rw [Nat.sub_eq_zero_of_le h]; rfl

theorem for_loop_succ {σ : Type} (lo hi : Nat) (body : Nat → σ → σ) (s : σ) (h : lo ≤ hi) :
    for_loop lo (hi + 1) body s = body hi (for_loop lo hi body s) := by
  unfold for_loop
  have e : hi + 1 - lo = (hi - lo) + 1 := by omega
  rw [e, List.range'_concat, List.foldl_append]
  simp only [List.foldl_cons, List.foldl_nil, mul_one]
  congr 1
  omega

/-- Induction over the passes of a `for` loop. -/
theorem for_loop_induction {σ : Type} (P : Nat → σ → Prop) (lo hi : Nat)
    (body : Nat → σ → σ) (s : σ) (hle : lo ≤ hi) (h0 : P lo s)
    (hstep : ∀ i t, lo ≤ i → i < hi → P i t → P (i + 1) (body i t)) :
    P hi (for_loop lo hi body s) := by
  induction hi with
  | zero =>
    have : lo = 0 := by omega
    subst this
    rw [for_loop_of_le _ _ _ _ (le_refl _)]; exact h0
  | succ n ih =>
    by_cases h : lo = n + 1
    · subst h
      rw [for_loop_of_le _ _ _ _ (le_refl _)]; exact h0
    · have hle' : lo ≤ n := by omega
      rw [for_loop_succ _ _ _ _ hle']
      exact hstep n _ hle' (Nat.lt_succ_self n)
        (ih hle' (fun i t h1 h2 hp => hstep i t h1 (Nat.lt_succ_of_lt h2) hp))

theorem add_row_spec (G : List ℚ) (lo hi : Nat) (a : ℚ) (row : Nat → ℚ) :
    (add_row G lo hi a row).length = G.length ∧
    ∀ j, (add_row G lo hi a row).getD j 0 =
      if lo ≤ j ∧ j < hi ∧ j < G.length then G.getD j 0 + a * row j else G.getD j 0 := by
  unfold add_row
  by_cases hle : lo ≤ hi
  · refine for_loop_induction
      (fun n G' => G'.length = G.length ∧ ∀ j, G'.getD j 0 =
        if lo ≤ j ∧ j < n ∧ j < G.length then G.getD j 0 + a * row j else G.getD j 0)
      lo hi _ G hle ⟨rfl, fun j => ?_⟩ ?_
    · rw [if_neg]; omega
    · rintro i t h1 h2 ⟨hl, hg⟩
      refine ⟨by simp [hl], fun j => ?_⟩
      by_cases hji : j = i
      · subst hji
        by_cases hjl : j < G.length
        · rw [List.getD_eq_getElem?_getD, List.getElem?_set_self (by omega), hg j,
            if_neg (by omega), if_pos ⟨h1, Nat.lt_succ_self j, hjl⟩]
          rfl
        · rw [List.getD_eq_getElem?_getD, List.getElem?_eq_none (by simp; omega),
            if_neg (by omega), List.getD_eq_getElem?_getD,
            List.getElem?_eq_none (by omega)]
      · rw [List.getD_eq_getElem?_getD, List.getElem?_set_ne (Ne.symm hji),
          ← List.getD_eq_getElem?_getD, hg j]
        by_cases hc : lo ≤ j ∧ j < i ∧ j < G.length
        · rw [if_pos hc, if_pos ⟨hc.1, by omega, hc.2.2⟩]
        · rw [if_neg hc, if_neg (by omega)]
  · rw [for_loop_of_le _ _ _ _ (by omega)]
    refine ⟨rfl, fun j => ?_⟩
    rw [if_neg]; omega

/-! ### Invariants of the loop -/

theorem convergence_check_invariant {σ : Type} (ops : SolverOps σ) (P R : σ → Prop)
    (hsel : ∀ s, P s → R (ops.select_working_set s).2)
    (hrec : ∀ s, R s → P (ops.full_active (ops.reconstruct_gradient s)))
    (hfail : ∀ s, R s → R (ops.recheck_failed s))
    (hupd : ∀ s, R s → P (ops.update s)) (u : σ) (cc : Int) (t : σ) (c1 : Int) (hP : P u)
    (h : convergence_check ops u cc = Step.next t c1) : P t := by
  unfold convergence_check at h
  by_cases h1 : (ops.select_working_set u).1 < ops.eps (ops.select_working_set u).2
  · simp only [if_pos h1] at h
    by_cases h2 : (ops.select_working_set (ops.full_active
        (ops.reconstruct_gradient (ops.select_working_set u).2))).1 <
        ops.eps (ops.select_working_set (ops.full_active
          (ops.reconstruct_gradient (ops.select_working_set u).2))).2
    · simp only [if_pos h2] at h
      exact Step.noConfusion h
    · simp only [if_neg h2, Step.next.injEq] at h
      rw [← h.1]
      exact hupd _ (hfail _ (hsel _ (hrec _ (hsel _ hP))))
  · simp only [if_neg h1, Step.next.injEq] at h
    rw [← h.1]
    exact hupd _ (hsel _ hP)

/-- An invariant of the loop `while(1)`: `P` holds at the head of the loop and `R` between
the selection and the update. -/
theorem loop_head_invariant {σ : Type} (ops : SolverOps σ) (shrinking : Bool)
    (P R : σ → Prop)
    (hdo : ∀ s, P s → P (ops.do_shrinking s))
    (hsel : ∀ s, P s → R (ops.select_working_set s).2)
    (hrec : ∀ s, R s → P (ops.full_active (ops.reconstruct_gradient s)))
    (hfail : ∀ s, R s → R (ops.recheck_failed s))
    (hupd : ∀ s, R s → P (ops.update s)) (n : Nat) :
    ∀ (s : σ) (c : Int) (s' : σ) (c' : Int), P s →
      loop_head ops shrinking n s c = some (s', c') → P s' := by
  induction n with
  | zero =>
    intro s c s' c' hP h
    simp only [loop_head, Option.some.injEq, Prod.mk.injEq] at h
    rw [← h.1]; exact hP
  | succ n ih =>
    intro s c s' c' hP h
    simp only [loop_head] at h
    cases hstep : Solve_iteration ops shrinking s c with
    | done t => rw [hstep] at h; exact absurd h (by simp)
    | next t c1 =>
      rw [hstep] at h
      refine ih t c1 s' c' ?_ h
      have hP1 : P (if c - 1 = 0 then (if shrinking then ops.do_shrinking s else s) else s) := by
        split_ifs
        · exact hdo s hP
        · exact hP
        · exact hP
      unfold Solve_iteration at hstep
      exact convergence_check_invariant ops P R hsel hrec hfail hupd _ _ _ _ hP1 hstep

theorem swap_at_of_not_lt {β : Type} (xs : List β) (i j : Nat)
    (h : ¬ (i < xs.length ∧ j < xs.length)) : swap_at xs i j = xs := by
  unfold swap_at
  by_cases hi : i < xs.length
  · have hj : ¬ j < xs.length := fun hj => h ⟨hi, hj⟩
    rw [List.getElem?_eq_none (by omega : xs.length ≤ j)]
    split <;> simp_all
  · rw [List.getElem?_eq_none (by omega : xs.length ≤ i)]

theorem Solver_B.StatusOk_swap_index (s : Solver_B) (i j : Nat) (h : s.StatusOk) :
    (s.swap_index i j).StatusOk := by
  obtain ⟨h1, h2, h3, h4⟩ := h
  by_cases hij : i < s.l ∧ j < s.l
  · refine ⟨by simp [Solver_B.swap_index, length_swap_at, h1],
      by simp [Solver_B.swap_index, length_swap_at, h2],
      by simp [Solver_B.swap_index, length_swap_at, h3], fun k hk => ?_⟩
    have hk' := swap_pos_lt i j k s.l hij.1 hij.2 hk
    simp only [Solver_B.swap_index, Solver_B.get_C]
    rw [swap_at_getElem? _ _ _ _ (by omega) (by omega),
      swap_at_getD _ _ _ _ _ (by omega) (by omega),
      swap_at_getD _ _ _ _ _ (by omega) (by omega), h4 _ hk']
    rfl
  · have e : s.swap_index i j = { s with
        Q := fun a c => s.Q (swap_pos i j a) (swap_pos i j c)
        G := swap_at s.G i j, b := swap_at s.b i j, active_set := swap_at s.active_set i j
        G_bar := swap_at s.G_bar i j } := by
      simp only [Solver_B.swap_index]
      rw [swap_at_of_not_lt s.y _ _ (by rw [h3]; exact hij),
        swap_at_of_not_lt s.alpha _ _ (by rw [h2]; exact hij),
        swap_at_of_not_lt s.alpha_status _ _ (by rw [h1]; exact hij)]
    rw [e]
    exact ⟨h1, h2, h3, h4⟩

/-! ### The bound status -/

theorem Solver_B.StatusOk_congr (s t : Solver_B) (h1 : t.alpha_status = s.alpha_status)
    (h2 : t.alpha = s.alpha) (h3 : t.y = s.y) (h4 : t.Cp = s.Cp) (h5 : t.Cn = s.Cn)
    (h6 : t.l = s.l) (h : s.StatusOk) : t.StatusOk := by
  unfold Solver_B.StatusOk Solver_B.get_C at *
  rw [h1, h2, h3, h4, h5, h6]
  exact h

theorem Solver_B.StatusOk_active_size (s : Solver_B) (a : Nat) (h : s.StatusOk) :
    Solver_B.StatusOk { s with active_size := a } :=
  Solver_B.StatusOk_congr s _ rfl rfl rfl rfl rfl rfl h

theorem Solver_B.StatusOk_select_working_set (s : Solver_B) (h : s.StatusOk) :
    s.select_working_set.2.StatusOk :=
  Solver_B.StatusOk_congr s _ rfl rfl rfl rfl rfl rfl h

theorem Solver_B.StatusOk_reconstruct_gradient (s : Solver_B) (h : s.StatusOk) :
    s.reconstruct_gradient.StatusOk := by
  unfold Solver_B.reconstruct_gradient
  split
  · exact h
  · exact Solver_B.StatusOk_congr s _ rfl rfl rfl rfl rfl rfl h

theorem Solver_B.StatusOk_shrink_loop (n : Nat) : ∀ (s : Solver_B) (k : Nat) (Gm : ℚ),
    s.StatusOk → (Solver_B.shrink_loop n s k Gm).StatusOk := by
  induction n with
  | zero => intro s k Gm h; exact h
  | succ n ih =>
    intro s k Gm h
    simp only [Solver_B.shrink_loop]
    split_ifs
    · exact ih _ _ _ h
    · exact ih _ _ _ (Solver_B.StatusOk_swap_index _ _ _ (Solver_B.StatusOk_active_size s _ h))
    · exact ih _ _ _ h
    · exact ih _ _ _ (Solver_B.StatusOk_swap_index _ _ _ (Solver_B.StatusOk_active_size s _ h))
    · exact ih _ _ _ h
    · exact h

theorem Solver_B.StatusOk_unshrink_loop (n : Nat) : ∀ (s : Solver_B) (k : Int) (Gm : ℚ),
    s.StatusOk → (Solver_B.unshrink_loop n s k Gm).StatusOk := by
  induction n with
  | zero => intro s k Gm h; exact h
  | succ n ih =>
    intro s k Gm h
    simp only [Solver_B.unshrink_loop]
    split_ifs
    · exact ih _ _ _ h
    · exact ih _ _ _ (Solver_B.StatusOk_active_size _ _ (Solver_B.StatusOk_swap_index _ _ _ h))
    · exact ih _ _ _ h
    · exact ih _ _ _ (Solver_B.StatusOk_active_size _ _ (Solver_B.StatusOk_swap_index _ _ _ h))
    · exact ih _ _ _ h
    · exact h

theorem Solver_B.StatusOk_do_shrinking (s : Solver_B) (h : s.StatusOk) :
    s.do_shrinking.StatusOk := by
  unfold Solver_B.do_shrinking
  have h0 := Solver_B.StatusOk_select_working_set s h
  simp only []
  split_ifs
  · exact h0
  · exact Solver_B.StatusOk_shrink_loop _ _ _ _ h0
  · refine Solver_B.StatusOk_unshrink_loop _ _ _ _ (Solver_B.StatusOk_reconstruct_gradient _ ?_)
    exact Solver_B.StatusOk_congr _ _ rfl rfl rfl rfl rfl rfl
      (Solver_B.StatusOk_shrink_loop _ _ _ _ h0)

theorem Solver_B.update_alpha_status_spec (s : Solver_B) (i : Nat) :
    s.update_alpha_status i =
      { s with
        alpha_status := s.alpha_status.set i (status_of (s.alpha.getD i 0) (s.get_C i)) } :=
  rfl

theorem Solver_B.StatusOk_init (l : Nat) (Q : Nat → Nat → ℚ) (b_ : List ℚ) (y_ : List Int)
    (alpha_ : List ℚ) (Cp Cn eps : ℚ) (shrinking : Bool) (qpsize : Nat) :
    (Solver_B.init l Q b_ y_ alpha_ Cp Cn eps shrinking qpsize).StatusOk := by
  unfold Solver_B.init
  simp only []
  refine for_loop_induction (fun _ (t : Solver_B) => t.StatusOk) 0 l _ _ (Nat.zero_le _) ?_ ?_
  · have hs1 := for_loop_induction
      (fun n (t : Solver_B) => t.alpha = (List.range l).map (fun i => alpha_.getD i 0) ∧
        t.y = (List.range l).map (fun i => y_.getD i 0) ∧ t.Cp = Cp ∧ t.Cn = Cn ∧ t.l = l ∧
        t.alpha_status.length = l ∧
        ∀ i, i < n → t.alpha_status[i]? = some (status_of (t.alpha.getD i 0) (t.get_C i)))
      0 l (fun i s => s.update_alpha_status i)
      { active_size := l, G := (List.range l).map (fun i => b_.getD i 0),
        alpha_status := List.replicate l Status.LOWER_BOUND,
        alpha := (List.range l).map (fun i => alpha_.getD i 0), Q := Q, eps := eps,
        active_set := List.range l, G_bar := List.replicate l 0, l := l, unshrinked := false,
        qpsize := qpsize, working_set := [], Cp := Cp, Cn := Cn, b := b_,
        y := (List.range l).map (fun i => y_.getD i 0) }
      (Nat.zero_le _)
      ⟨rfl, rfl, rfl, rfl, rfl, by simp, fun i hi => absurd hi (Nat.not_lt_zero _)⟩
      (by
        rintro i t - hi ⟨h1, h2, h3, h4, h5, h6, h7⟩
        beta_reduce
        rw [Solver_B.update_alpha_status_spec]
        refine ⟨h1, h2, h3, h4, h5, by simp [h6], fun k hk => ?_⟩
        by_cases hki : k = i
        · subst hki
          simp only []
          rw [List.getElem?_set_self (by omega)]
          rfl
        · simp only []
          rw [List.getElem?_set_ne (Ne.symm hki)]
          exact h7 k (by omega))
    obtain ⟨h1, h2, h3, h4, h5, h6, h7⟩ := hs1
    exact ⟨by rw [h6, h5], by rw [h1, h5]; simp, by rw [h2, h5]; simp,
      fun i hi => h7 i (by omega)⟩
  · intro i t _ _ h
    beta_reduce at h ⊢
    split_ifs
    · exact Solver_B.StatusOk_congr t _ rfl rfl rfl rfl rfl rfl h
    · exact Solver_B.StatusOk_congr t _ rfl rfl rfl rfl rfl rfl h
    · exact h

theorem getD_mem_of_lt (ws : List Nat) (i : Nat) (h : i < ws.length) : ws.getD i 0 ∈ ws := by
  rw [List.getD_eq_getElem?_getD, List.getElem?_eq_getElem h]
  exact List.getElem_mem h

/-- The loop "update G" writes `alpha` and `G` only, and `alpha` only at positions of the
working set. -/
theorem Solver_B.update_G_frame (s : Solver_B) (x : List ℚ) :
    s.update_G x = { s with alpha := (s.update_G x).alpha, G := (s.update_G x).G } ∧
    (s.update_G x).alpha.length = s.alpha.length ∧
    (s.update_G x).G.length = s.G.length ∧
    ∀ k, k ∉ s.working_set → (s.update_G x).alpha[k]? = s.alpha[k]? := by
  unfold Solver_B.update_G
  refine for_loop_induction
    (fun _ (t : Solver_B) => t = { s with alpha := t.alpha, G := t.G } ∧
      t.alpha.length = s.alpha.length ∧ t.G.length = s.G.length ∧
      ∀ k, k ∉ s.working_set → t.alpha[k]? = s.alpha[k]?)
    0 s.working_set.length _ s (Nat.zero_le _) ⟨rfl, rfl, rfl, fun _ _ => rfl⟩ ?_
  rintro i t - hi ⟨h1, h2, h3, h4⟩
  dsimp only [Solver_B.update_G_step]
  have hws : t.working_set = s.working_set := by rw [h1]
  split_ifs
  · refine ⟨?_, by simp [h2], by simp [(add_row_spec _ _ _ _ _).1, h3], fun k hk => ?_⟩
    · simp only []
      rw [h1]
    · simp only []
      rw [List.getElem?_set_ne, h4 k hk]
      rintro rfl
      rw [hws] at hk
      exact hk (getD_mem_of_lt _ _ hi)
  · exact ⟨h1, h2, h3, h4⟩

theorem Solver_B.update_status_step_frame (shrinking : Bool) (C : List ℚ) (i : Nat)
    (t : Solver_B) :
    Solver_B.update_status_step shrinking C i t =
      { t with
        alpha_status := t.alpha_status.set (t.working_set.getD i 0)
          (status_of (t.alpha.getD (t.working_set.getD i 0) 0)
            (t.get_C (t.working_set.getD i 0)))
        G_bar := (Solver_B.update_status_step shrinking C i t).G_bar } ∧
    (Solver_B.update_status_step shrinking C i t).G_bar.length = t.G_bar.length := by
  unfold Solver_B.update_status_step
  dsimp only []
  split_ifs
  · exact ⟨rfl, rfl⟩
  · exact ⟨rfl, (add_row_spec _ _ _ _ _).1⟩
  · exact ⟨rfl, (add_row_spec _ _ _ _ _).1⟩
  · exact ⟨rfl, rfl⟩

/-- The loop "update alpha_status and G_bar" writes `alpha_status` and `G_bar` only; it
sets the status of every position of the working set from `alpha` and keeps the others. -/
theorem Solver_B.update_status_frame (u : Solver_B) (shrinking : Bool) (C : List ℚ) :
    u.update_status shrinking C =
      { u with alpha_status := (u.update_status shrinking C).alpha_status
               G_bar := (u.update_status shrinking C).G_bar } ∧
    (u.update_status shrinking C).alpha_status.length = u.alpha_status.length ∧
    (u.update_status shrinking C).G_bar.length = u.G_bar.length ∧
    ∀ k, k < u.alpha_status.length →
      (k ∈ u.working_set → (u.update_status shrinking C).alpha_status[k]? =
        some (status_of (u.alpha.getD k 0) (u.get_C k))) ∧
      (k ∉ u.working_set → (u.update_status shrinking C).alpha_status[k]? =
        u.alpha_status[k]?) := by
  unfold Solver_B.update_status
  have key := for_loop_induction
    (fun m (t : Solver_B) =>
      t = { u with alpha_status := t.alpha_status, G_bar := t.G_bar } ∧
      t.alpha_status.length = u.alpha_status.length ∧
      t.G_bar.length = u.G_bar.length ∧
      ∀ k, k < u.alpha_status.length →
        (k ∈ u.working_set.take m → t.alpha_status[k]? =
          some (status_of (u.alpha.getD k 0) (u.get_C k))) ∧
        (k ∉ u.working_set.take m → t.alpha_status[k]? = u.alpha_status[k]?))
    0 u.working_set.length (Solver_B.update_status_step shrinking C) u (Nat.zero_le _)
    ⟨rfl, rfl, rfl, fun k _ => ⟨fun h => by simp at h, fun _ => rfl⟩⟩
    (by
      rintro i t - hi ⟨h1, h2, h3, h4⟩
      obtain ⟨e1, e2⟩ := Solver_B.update_status_step_frame shrinking C i t
      have hws : t.working_set = u.working_set := by rw [h1]
      have hal : t.alpha = u.alpha := by rw [h1]
      have hC : ∀ k, t.get_C k = u.get_C k := by
        intro k; unfold Solver_B.get_C; rw [h1]
      have hst : (Solver_B.update_status_step shrinking C i t).alpha_status =
          t.alpha_status.set (u.working_set.getD i 0)
            (status_of (u.alpha.getD (u.working_set.getD i 0) 0)
              (u.get_C (u.working_set.getD i 0))) := by
        rw [e1]; simp only []; rw [hws, hal, hC]
      have htake : ∀ k, k ∈ u.working_set.take (i + 1) ↔
          k ∈ u.working_set.take i ∨ k = u.working_set.getD i 0 := by
        intro k
        rw [List.take_succ, List.getElem?_eq_getElem hi, List.getD_eq_getElem?_getD,
          List.getElem?_eq_getElem hi]
        simp only [List.mem_append, Option.toList, List.mem_singleton, Option.getD_some]
      refine ⟨?_, by rw [hst]; simp [h2], by rw [e2, h3], fun k hk => ?_⟩
      · rw [e1]; simp only []; rw [h1]
      · rw [hst, htake]
        by_cases hkB : k = u.working_set.getD i 0
        · rw [← hkB, List.getElem?_set_self (by omega)]
          exact ⟨fun _ => rfl, fun h => absurd (Or.inr rfl) h⟩
        · rw [List.getElem?_set_ne (Ne.symm hkB)]
          exact ⟨fun h => (h4 k hk).1 (h.resolve_right hkB),
            fun h => (h4 k hk).2 (fun h' => h (Or.inl h'))⟩)
  beta_reduce at key
  rw [List.take_length] at key
  exact key

theorem Solver_B.StatusOk_update (solvebqp : BQP → List ℚ) (shrinking : Bool) (s : Solver_B)
    (h : s.StatusOk) : (Solver_B.update solvebqp shrinking s).StatusOk := by
  unfold Solver_B.update
  dsimp only []
  generalize solvebqp s.subproblem = x
  generalize s.subproblem.C = C
  obtain ⟨h1, h2, h3, h4⟩ := h
  obtain ⟨g1, g2, -, g4⟩ := Solver_B.update_G_frame s x
  obtain ⟨f1, f2, -, f4⟩ := Solver_B.update_status_frame (s.update_G x) shrinking C
  have ews : (s.update_G x).working_set = s.working_set := by rw [g1]
  have est : (s.update_G x).alpha_status = s.alpha_status := by rw [g1]
  have eC : ∀ k, (s.update_G x).get_C k = s.get_C k := by
    intro k; unfold Solver_B.get_C; rw [g1]
  have el : (s.update_G x).l = s.l := by rw [g1]
  have ey : (s.update_G x).y = s.y := by rw [g1]
  have eCp : (s.update_G x).Cp = s.Cp := by rw [g1]
  have eCn : (s.update_G x).Cn = s.Cn := by rw [g1]
  generalize s.update_G x = u at *
  have fl : (u.update_status shrinking C).l = s.l := by rw [f1]; exact el
  have fal : (u.update_status shrinking C).alpha = u.alpha := by rw [f1]
  have fy : (u.update_status shrinking C).y = s.y := by rw [f1]; exact ey
  have fC : ∀ k, (u.update_status shrinking C).get_C k = s.get_C k := by
    intro k; rw [← eC]; unfold Solver_B.get_C; rw [f1]
  refine ⟨by rw [f2, est, h1, fl], by rw [fal, g2, h2, fl], by rw [fy, h3, fl],
    fun k hk => ?_⟩
  rw [fl] at hk
  rw [fal, fC]
  by_cases hkw : k ∈ u.working_set
  · rw [(f4 k (by rw [est, h1]; exact hk)).1 hkw, eC]
  · rw [(f4 k (by rw [est, h1]; exact hk)).2 hkw, est, h4 k hk]
    rw [ews] at hkw
    rw [List.getD_eq_getElem?_getD, List.getD_eq_getElem?_getD, g4 k hkw]

theorem Solver_B.shrink_loop_l (n : Nat) : ∀ (s : Solver_B) (k : Nat) (Gm : ℚ),
    (Solver_B.shrink_loop n s k Gm).l = s.l := by
  induction n with
  | zero => intro s k Gm; rfl
  | succ n ih =>
    intro s k Gm
    simp only [Solver_B.shrink_loop]
    split_ifs <;> first | rfl | (rw [ih]; rfl) | (rw [ih])

theorem Solver_B.unshrink_loop_l (n : Nat) : ∀ (s : Solver_B) (k : Int) (Gm : ℚ),
    (Solver_B.unshrink_loop n s k Gm).l = s.l := by
  induction n with
  | zero => intro s k Gm; rfl
  | succ n ih =>
    intro s k Gm
    simp only [Solver_B.unshrink_loop]
    split_ifs <;> first | rfl | (rw [ih]; rfl) | (rw [ih])

theorem Solver_B.reconstruct_gradient_l (s : Solver_B) : s.reconstruct_gradient.l = s.l := by
  unfold Solver_B.reconstruct_gradient
  split <;> rfl

theorem Solver_B.do_shrinking_l (s : Solver_B) : s.do_shrinking.l = s.l := by
  unfold Solver_B.do_shrinking
  dsimp only []
  split_ifs
  · rfl
  · rw [Solver_B.shrink_loop_l]; rfl
  · rw [Solver_B.unshrink_loop_l, Solver_B.reconstruct_gradient_l]
    show (Solver_B.shrink_loop _ _ _ _).l = _
    rw [Solver_B.shrink_loop_l]; rfl

theorem Solver_B.update_l (solvebqp : BQP → List ℚ) (shrinking : Bool) (s : Solver_B) :
    (Solver_B.update solvebqp shrinking s).l = s.l := by
  unfold Solver_B.update
  dsimp only []
  rw [(Solver_B.update_status_frame _ _ _).1]
  show (s.update_G _).l = s.l
  rw [(Solver_B.update_G_frame _ _).1]

theorem Solver_B.init_l (l : Nat) (Q : Nat → Nat → ℚ) (b_ : List ℚ) (y_ : List Int)
    (alpha_ : List ℚ) (Cp Cn eps : ℚ) (shrinking : Bool) (qpsize : Nat) :
    (Solver_B.init l Q b_ y_ alpha_ Cp Cn eps shrinking qpsize).l = l := by
  unfold Solver_B.init
  dsimp only []
  refine for_loop_induction (fun _ (t : Solver_B) => t.l = l) 0 l _ _ (Nat.zero_le _) ?_ ?_
  · exact for_loop_induction (fun _ (t : Solver_B) => t.l = l) 0 l _ _ (Nat.zero_le _) rfl
      (fun i t _ _ h => h)
  · intro i t _ _ h
    beta_reduce at h ⊢
    split_ifs <;> exact h

/-- The bound status is right at the head of every pass of the loop of
`Solver_B::Solve`. -/
theorem Solver_B.StatusOk_loop_head (solvebqp : BQP → List ℚ) (shrinking : Bool) (l : Nat)
    (Q : Nat → Nat → ℚ) (b_ : List ℚ) (y_ : List Int) (alpha_ : List ℚ) (Cp Cn eps : ℚ)
    (qpsize : Nat) (n : Nat) (c0 : Int) (s : Solver_B) (c : Int)
    (h : loop_head (Solver_B.ops solvebqp shrinking) shrinking n
      (Solver_B.init l Q b_ y_ alpha_ Cp Cn eps shrinking qpsize) c0 = some (s, c)) :
    s.StatusOk ∧ s.l = l := by
  refine loop_head_invariant (Solver_B.ops solvebqp shrinking) shrinking
    (fun s => s.StatusOk ∧ s.l = l) (fun s => s.StatusOk ∧ s.l = l)
    ?_ ?_ ?_ ?_ ?_ n _ c0 s c
    ⟨Solver_B.StatusOk_init l Q b_ y_ alpha_ Cp Cn eps shrinking qpsize,
      Solver_B.init_l l Q b_ y_ alpha_ Cp Cn eps shrinking qpsize⟩ h
  · rintro t ⟨h1, h2⟩
    exact ⟨Solver_B.StatusOk_do_shrinking t h1, by rw [← h2]; exact Solver_B.do_shrinking_l t⟩
  · rintro t ⟨h1, h2⟩
    exact ⟨Solver_B.StatusOk_select_working_set t h1, h2⟩
  · rintro t ⟨h1, h2⟩
    exact ⟨Solver_B.StatusOk_active_size _ _ (Solver_B.StatusOk_reconstruct_gradient t h1),
      by rw [← h2]; exact Solver_B.reconstruct_gradient_l t⟩
  · rintro t ht
    exact ht
  · rintro t ⟨h1, h2⟩
    exact ⟨Solver_B.StatusOk_update solvebqp shrinking t h1,
      by rw [← h2]; exact Solver_B.update_l solvebqp shrinking t⟩


theorem loop_head_unit_first :
    loop_head (Solver_B.ops solvebqp_diag true) true 1
      (Solver_B.init 2 two_point_Q [-1, -1] [1, -1] [0, 0] 1 1 (1 / 1000) true 2) 3 =
    some (unit_state [0, 0] [Status.FREE, Status.FREE] [1 / 2, 1 / 2] [1, 0], 2) := by
  rw [init_unit]
  simp only [loop_head, Solve_iteration_unit_first]


/-! ### The gradient and `G_bar` -/

/-- What `swap_index(i, j)` does to the arrays, for positions inside them. -/
theorem Solver_B.swap_index_arrays (s : Solver_B) (i j : Nat) (hs : s.StatusOk)
    (h1 : s.G.length = s.l) (h2 : s.G_bar.length = s.l) (h3 : s.b.length = s.l)
    (hi : i < s.l) (hj : j < s.l) (k : Nat) :
    (s.swap_index i j).G.getD k 0 = s.G.getD (swap_pos i j k) 0 ∧
    (s.swap_index i j).G_bar.getD k 0 = s.G_bar.getD (swap_pos i j k) 0 ∧
    (s.swap_index i j).b.getD k 0 = s.b.getD (swap_pos i j k) 0 ∧
    (s.swap_index i j).alpha.getD k 0 = s.alpha.getD (swap_pos i j k) 0 ∧
    (s.swap_index i j).get_C k = s.get_C (swap_pos i j k) ∧
    (s.swap_index i j).alpha_status[k]? = s.alpha_status[swap_pos i j k]? ∧
    (s.swap_index i j).gradient k = s.gradient (swap_pos i j k) ∧
    (s.swap_index i j).upper_sum k = s.upper_sum (swap_pos i j k) := by
  obtain ⟨g1, g2, g3, -⟩ := hs
  have eG : (s.swap_index i j).G.getD k 0 = s.G.getD (swap_pos i j k) 0 :=
    swap_at_getD _ _ _ _ _ (by omega) (by omega)
  have eGb : (s.swap_index i j).G_bar.getD k 0 = s.G_bar.getD (swap_pos i j k) 0 :=
    swap_at_getD _ _ _ _ _ (by omega) (by omega)
  have eb : ∀ k, (s.swap_index i j).b.getD k 0 = s.b.getD (swap_pos i j k) 0 :=
    fun k => swap_at_getD _ _ _ _ _ (by omega) (by omega)
  have ea : ∀ k, (s.swap_index i j).alpha.getD k 0 = s.alpha.getD (swap_pos i j k) 0 :=
    fun k => swap_at_getD _ _ _ _ _ (by omega) (by omega)
  have ey : ∀ k, (s.swap_index i j).y.getD k 0 = s.y.getD (swap_pos i j k) 0 :=
    fun k => swap_at_getD _ _ _ _ _ (by omega) (by omega)
  have eC : ∀ k, (s.swap_index i j).get_C k = s.get_C (swap_pos i j k) := by
    intro k
    unfold Solver_B.get_C
    rw [ey]; rfl
  have es : ∀ k, (s.swap_index i j).alpha_status[k]? = s.alpha_status[swap_pos i j k]? :=
    fun k => swap_at_getElem? _ _ _ _ (by omega) (by omega)
  refine ⟨eG, eGb, eb k, ea k, eC k, es k, ?_, ?_⟩
  · unfold Solver_B.gradient
    rw [eb]
    congr 1
    rw [← sum_swap_pos s.l i j hi hj (fun a => s.alpha.getD a 0 * s.Q a (swap_pos i j k))]
    apply Finset.sum_congr rfl
    intro a _
    rw [ea]; rfl
  · unfold Solver_B.upper_sum
    rw [← sum_swap_pos s.l i j hi hj
      (fun a => if s.is_upper_bound a then s.get_C a * s.Q a (swap_pos i j k) else 0)]
    apply Finset.sum_congr rfl
    intro a _
    unfold Solver_B.is_upper_bound
    rw [es, eC]; rfl

/-! ## Working-set selection of `Solver_B` -/

theorem Ext.le_self (a : Ext) : Ext.le a a = true := by
  cases a <;> simp [Ext.le, Ext.lt]

theorem Ext.le_chain (a b c : Ext) (h1 : Ext.le a b = true) (h2 : Ext.le b c = true) :
    Ext.le a c = true := by
  cases a <;> cases b <;> cases c <;> simp [Ext.le, Ext.lt] at h1 h2 ⊢
  exact LE.le.trans h1 h2

theorem Ext.le_of_not_le (a b : Ext) (h : ¬ (Ext.le a b = true)) : Ext.le b a = true := by
  cases a <;> cases b <;> simp [Ext.le, Ext.lt] at h ⊢
  exact LT.lt.le h

theorem Ext.le_of_lt_true (a b : Ext) (h : Ext.lt a b = true) : Ext.le a b = true := by
  cases a <;> cases b <;> simp [Ext.le, Ext.lt] at h ⊢
  exact LT.lt.le h

theorem Ext.not_lt_iff_le (a b : Ext) : (¬ (Ext.lt a b = true)) ↔ Ext.le b a = true := by
  simp [Ext.le]

theorem Ext.le_fin_fin (a b : ℚ) : Ext.le (Ext.fin a) (Ext.fin b) = true ↔ a ≤ b := by
  simp [Ext.le, Ext.lt]

theorem Ext.lt_fin_fin (a b : ℚ) : Ext.lt (Ext.fin a) (Ext.fin b) = true ↔ a < b := by
  simp [Ext.lt]

theorem shift_smaller_perm (v : ℚ) (i : Nat) (r : List (Ext × Nat)) :
    (shift_smaller v i r).Perm ((Ext.fin v, i) :: r) := by
  induction r with
  | nil => exact List.Perm.refl _
  | cons e r ih =>
    simp only [shift_smaller]
    split_ifs
    · exact List.Perm.refl _
    · exact (List.Perm.cons e ih).trans (List.Perm.swap _ _ _)

theorem shift_smaller_sorted (v : ℚ) (i : Nat) (r : List (Ext × Nat))
    (h : r.Pairwise (fun e f => Ext.le f.1 e.1 = true)) :
    (shift_smaller v i r).Pairwise (fun e f => Ext.le f.1 e.1 = true) := by
  induction r with
  | nil => simp [shift_smaller]
  | cons e r ih =>
    simp only [shift_smaller]
    rw [List.pairwise_cons] at h
    split_ifs with hc
    · refine List.Pairwise.cons ?_ (List.Pairwise.cons h.1 h.2)
      intro x hx
      rcases List.mem_cons.mp hx with rfl | hx
      · exact hc
      · exact Ext.le_chain _ _ _ (h.1 x hx) hc
    · refine List.Pairwise.cons ?_ (ih h.2)
      intro x hx
      rcases List.mem_cons.mp ((shift_smaller_perm v i r).mem_iff.mp hx) with rfl | hx
      · exact Ext.le_of_not_le _ _ hc
      · exact h.1 x hx

theorem shift_larger_perm (v : ℚ) (i : Nat) (r : List (Ext × Nat)) :
    (shift_larger v i r).Perm ((Ext.fin v, i) :: r) := by
  induction r with
  | nil => exact List.Perm.refl _
  | cons e r ih =>
    simp only [shift_larger]
    split_ifs
    · exact List.Perm.refl _
    · exact (List.Perm.cons e ih).trans (List.Perm.swap _ _ _)

theorem shift_larger_sorted (v : ℚ) (i : Nat) (r : List (Ext × Nat))
    (h : r.Pairwise (fun e f => Ext.le e.1 f.1 = true)) :
    (shift_larger v i r).Pairwise (fun e f => Ext.le e.1 f.1 = true) := by
  induction r with
  | nil => simp [shift_larger]
  | cons e r ih =>
    simp only [shift_larger]
    rw [List.pairwise_cons] at h
    split_ifs with hc
    · refine List.Pairwise.cons ?_ (List.Pairwise.cons h.1 h.2)
      intro x hx
      rcases List.mem_cons.mp hx with rfl | hx
      · exact hc
      · exact Ext.le_chain _ _ _ hc (h.1 x hx)
    · refine List.Pairwise.cons ?_ (ih h.2)
      intro x hx
      rcases List.mem_cons.mp ((shift_larger_perm v i r).mem_iff.mp hx) with rfl | hx
      · exact Ext.le_of_not_le _ _ hc
      · exact h.1 x hx

theorem fin_idx_cons_fin (v : ℚ) (i : Nat) (r : List (Ext × Nat)) :
    fin_idx ((Ext.fin v, i) :: r) = i :: fin_idx r := by
  simp [fin_idx]

theorem fin_idx_cons_inf (i : Nat) (r : List (Ext × Nat)) :
    fin_idx ((Ext.pos_inf, i) :: r) = fin_idx r := by
  simp [fin_idx]

theorem fin_idx_perm (a b : List (Ext × Nat)) (h : a.Perm b) : (fin_idx a).Perm (fin_idx b) :=
  (h.filter _).map _

theorem mem_fin_idx (slots : List (Ext × Nat)) (j : Nat) :
    j ∈ fin_idx slots ↔ ∃ e, e ∈ slots ∧ e.1 ≠ Ext.pos_inf ∧ e.2 = j := by
  simp [fin_idx, and_assoc]

theorem Solver_B.free_below_succ (s : Solver_B) (n : Nat) :
    s.free_below (n + 1) = s.free_below n + (if s.is_free n then 1 else 0) := by
  unfold Solver_B.free_below
  rw [List.range_succ, List.filter_append, List.length_append]
  by_cases h : s.is_free n = true <;> simp [h]

theorem fin_idx_length_le (slots : List (Ext × Nat)) : (fin_idx slots).length ≤ slots.length := by
  unfold fin_idx
  rw [List.length_map]
  exact List.length_filter_le _ _

theorem fin_idx_all_fin (slots : List (Ext × Nat)) (h : ∀ e, e ∈ slots → e.1 ≠ Ext.pos_inf) :
    (fin_idx slots).length = slots.length := by
  unfold fin_idx
  rw [List.length_map, List.filter_eq_self.mpr]
  intro e he
  simpa using h e he

theorem Solver_B.FirstInv_init (s : Solver_B) (q2 : Nat) :
    s.FirstInv q2 0 (List.replicate q2 (Ext.pos_inf, 0)) := by
  have hidx : fin_idx (List.replicate q2 (Ext.pos_inf, 0)) = [] := by
    induction q2 with
    | zero => rfl
    | succ n ih => rw [List.replicate_succ, fin_idx_cons_inf, ih]
  refine ⟨by simp, ?_, ?_, by rw [hidx]; exact List.nodup_nil, ?_, ?_⟩
  · rw [List.pairwise_replicate]
    right; simp [Ext.le, Ext.lt]
  · intro e he
    left
    rw [List.eq_of_mem_replicate he]
  · intro j hj
    exact absurd hj (Nat.not_lt_zero _)
  · rw [hidx]
    simp [Solver_B.free_below]

theorem Solver_B.FirstInv_skip (s : Solver_B) (q2 n : Nat) (slots : List (Ext × Nat))
    (h : s.FirstInv q2 n slots) (hf : ¬ (s.is_free n = true)) :
    s.FirstInv q2 (n + 1) slots := by
  refine ⟨h.len, h.sorted, ?_, h.nodup, ?_, ?_⟩
  · intro e he
    rcases h.src e he with h1 | ⟨i, hi, h2⟩
    · exact Or.inl h1
    · exact Or.inr ⟨i, by omega, h2⟩
  · intro j hj hfj hnot
    have : j ≠ n := by rintro rfl; exact hf hfj
    exact h.rest j (by omega) hfj hnot
  · rw [h.count, Solver_B.free_below_succ, if_neg hf, Nat.add_zero]

theorem Solver_B.FirstInv_keep (s : Solver_B) (q2 n : Nat) (head : Ext × Nat)
    (tail : List (Ext × Nat)) (h : s.FirstInv q2 n (head :: tail))
    (hf : s.is_free n = true)
    (hlt : ¬ (Ext.lt (Ext.fin |s.G.getD n 0|) head.1 = true)) :
    s.FirstInv q2 (n + 1) (head :: tail) := by
  have hle : Ext.le head.1 (Ext.fin |s.G.getD n 0|) = true := (Ext.not_lt_iff_le _ _).mp hlt
  have hfin : ∀ e, e ∈ head :: tail → e.1 ≠ Ext.pos_inf := by
    intro e he hinf
    have h1 : Ext.le e.1 head.1 = true := by
      rcases List.mem_cons.mp he with rfl | he'
      · exact Ext.le_self _
      · exact (List.pairwise_cons.mp h.sorted).1 e he'
    have h2 := Ext.le_chain _ _ _ h1 hle
    rw [hinf] at h2
    simp [Ext.le, Ext.lt] at h2
  have hall := fin_idx_all_fin _ hfin
  refine ⟨h.len, h.sorted, ?_, h.nodup, ?_, ?_⟩
  · intro e he
    rcases h.src e he with h1 | ⟨i, hi, h2⟩
    · exact Or.inl h1
    · exact Or.inr ⟨i, by omega, h2⟩
  · intro j hj hfj hnot e he
    by_cases hjn : j = n
    · subst hjn
      have h1 : Ext.le e.1 head.1 = true := by
        rcases List.mem_cons.mp he with rfl | he'
        · exact Ext.le_self _
        · exact (List.pairwise_cons.mp h.sorted).1 e he'
      exact Ext.le_chain _ _ _ h1 hle
    · exact h.rest j (by omega) hfj hnot e he
  · have hc := h.count
    rw [hall, h.len] at hc
    rw [hall, h.len, Solver_B.free_below_succ, if_pos hf]
    omega

theorem Solver_B.FirstInv_insert (s : Solver_B) (q2 n : Nat) (head : Ext × Nat)
    (tail : List (Ext × Nat)) (h : s.FirstInv q2 n (head :: tail))
    (hf : s.is_free n = true)
    (hlt : Ext.lt (Ext.fin |s.G.getD n 0|) head.1 = true) :
    s.FirstInv q2 (n + 1) (shift_smaller |s.G.getD n 0| n tail) := by
  have hperm := shift_smaller_perm |s.G.getD n 0| n tail
  have hsorted := List.pairwise_cons.mp h.sorted
  have hidx : (fin_idx (shift_smaller |s.G.getD n 0| n tail)).Perm (n :: fin_idx tail) := by
    have := fin_idx_perm _ _ hperm
    rwa [fin_idx_cons_fin] at this
  have hsub : ∀ j, j ∈ fin_idx tail → j ∈ fin_idx (head :: tail) := by
    intro j hj
    rw [mem_fin_idx] at hj ⊢
    obtain ⟨e, he, h1, h2⟩ := hj
    exact ⟨e, List.mem_cons_of_mem _ he, h1, h2⟩
  have hlt_n : ∀ j, j ∈ fin_idx (head :: tail) → j < n := by
    intro j hj
    rw [mem_fin_idx] at hj
    obtain ⟨e, he, h1, h2⟩ := hj
    rcases h.src e he with h3 | ⟨i, hi, -, h4⟩
    · exact absurd h3 h1
    · rw [← h2, h4]; exact hi
  have hnd_tail : (fin_idx tail).Nodup := by
    have := h.nodup
    unfold fin_idx at this ⊢
    rw [List.filter_cons] at this
    split_ifs at this
    · exact (List.nodup_cons.mp this).2
    · exact this
  refine ⟨?_, shift_smaller_sorted _ _ _ hsorted.2, ?_, ?_, ?_, ?_⟩
  · rw [hperm.length_eq]; exact h.len
  · intro e he
    rcases List.mem_cons.mp (hperm.mem_iff.mp he) with rfl | he'
    · exact Or.inr ⟨n, Nat.lt_succ_self n, hf, rfl⟩
    · rcases h.src e (List.mem_cons_of_mem _ he') with h1 | ⟨i, hi, h2⟩
      · exact Or.inl h1
      · exact Or.inr ⟨i, by omega, h2⟩
  · rw [hidx.nodup_iff, List.nodup_cons]
    refine ⟨fun hmem => ?_, hnd_tail⟩
    exact absurd (hlt_n n (hsub n hmem)) (Nat.lt_irrefl n)
  · intro j hj hfj hnot e he
    have hjn : j ≠ n := by
      rintro rfl
      exact hnot (hidx.mem_iff.mpr (List.mem_cons_self _ _))
    have hjt : j ∉ fin_idx tail := fun hm => hnot (hidx.mem_iff.mpr (List.mem_cons_of_mem _ hm))
    have hhead : Ext.le head.1 (Ext.fin |s.G.getD j 0|) = true := by
      by_cases hjo : j ∈ fin_idx (head :: tail)
      · rw [mem_fin_idx] at hjo
        obtain ⟨e', he', h1, h2⟩ := hjo
        rcases List.mem_cons.mp he' with rfl | he''
        · rcases h.src e' he' with h3 | ⟨i, hi, -, h4⟩
          · exact absurd h3 h1
          · have : i = j := by rw [← h2, h4]
            rw [h4, this]
            exact Ext.le_self _
        · exact absurd ((mem_fin_idx _ _).mpr ⟨e', he'', h1, h2⟩) hjt
      · exact h.rest j (by omega) hfj hjo head (List.mem_cons_self _ _)
    rcases List.mem_cons.mp (hperm.mem_iff.mp he) with rfl | he'
    · exact Ext.le_chain _ _ _ (Ext.le_of_lt_true _ _ hlt) hhead
    · exact Ext.le_chain _ _ _ (hsorted.1 e he') hhead
  · rw [hidx.length_eq, List.length_cons, Solver_B.free_below_succ, if_pos hf]
    have hc := h.count
    have hl := h.len
    rw [List.length_cons] at hl
    have htl := fin_idx_length_le tail
    by_cases hinf : head.1 = Ext.pos_inf
    · have e1 : fin_idx (head :: tail) = fin_idx tail := by
        obtain ⟨a, b⟩ := head
        simp only at hinf
        subst hinf
        exact fin_idx_cons_inf _ _
      rw [e1] at hc
      omega
    · have hfin : ∀ e, e ∈ head :: tail → e.1 ≠ Ext.pos_inf := by
        intro e he hi
        rcases List.mem_cons.mp he with rfl | he'
        · exact hinf hi
        · have h1 := hsorted.1 e he'
          rw [hi] at h1
          cases hh : head.1 with
          | neg_inf => rw [hh] at h1; simp [Ext.le, Ext.lt] at h1
          | fin v => rw [hh] at h1; simp [Ext.le, Ext.lt] at h1
          | pos_inf => exact hinf hh
      have hall := fin_idx_all_fin _ hfin
      have hallt := fin_idx_all_fin tail (fun e he => hfin e (List.mem_cons_of_mem _ he))
      rw [hall, List.length_cons] at hc
      omega

theorem Solver_B.FirstInv_first_pass (s : Solver_B) :
    s.FirstInv (s.qpsize / 2) s.active_size s.first_pass := by
  unfold Solver_B.first_pass
  refine for_loop_induction (fun n slots => s.FirstInv (s.qpsize / 2) n slots) 0 s.active_size
    _ _ (Nat.zero_le _) (Solver_B.FirstInv_init s _) ?_
  intro i slots _ _ h
  beta_reduce at h ⊢
  by_cases hf : s.is_free i = true
  · simp only [hf, Bool.not_true, Bool.false_eq_true, if_false]
    cases slots with
    | nil =>
      simp only [insert_smaller]
      have hl := h.len
      refine ⟨hl, List.Pairwise.nil, fun e he => absurd he (List.not_mem_nil _),
        List.nodup_nil, fun j _ _ _ e he => absurd he (List.not_mem_nil _), ?_⟩
      simp only [List.length_nil] at hl
      rw [← hl]; simp [fin_idx]
    | cons head tail =>
      simp only [insert_smaller]
      split_ifs with hlt
      · exact Solver_B.FirstInv_insert s _ i head tail h hf hlt
      · exact Solver_B.FirstInv_keep s _ i head tail h hf hlt
  · have hf' : s.is_free i = false := by simpa using hf
    simp only [hf', Bool.not_false, if_true]
    exact Solver_B.FirstInv_skip s _ i slots h hf

theorem sorted_fin_idx (s : Solver_B) (q2 n : Nat) (slots : List (Ext × Nat))
    (h : s.FirstInv q2 n slots) :
    (fin_idx slots).Pairwise (fun i j => |s.G.getD j 0| ≤ |s.G.getD i 0|) := by
  unfold fin_idx
  rw [List.pairwise_map]
  have h1 : (slots.filter (fun e => e.1 ≠ Ext.pos_inf)).Pairwise
      (fun e f => Ext.le f.1 e.1 = true) := h.sorted.sublist (List.filter_sublist _)
  refine List.Pairwise.imp_of_mem ?_ h1
  intro e f he hf hef
  have he' := (List.mem_filter.mp he)
  have hf' := (List.mem_filter.mp hf)
  rcases h.src e he'.1 with h1 | ⟨i, -, -, h2⟩
  · simp [h1] at he'
  rcases h.src f hf'.1 with h3 | ⟨j, -, -, h4⟩
  · simp [h3] at hf'
  rw [h2, h4] at hef ⊢
  exact (Ext.le_fin_fin _ _).mp hef

theorem first_block_sample :
    (sample_state [1, 2] [Status.FREE, Status.FREE] 2 2).first_block = [0] := by
  simp [Solver_B.first_block, Solver_B.first_pass, for_loop, sample_state, Solver_B.is_free,
    insert_smaller, shift_smaller, Ext.le, Ext.lt, List.range', List.replicate]


theorem low_idx_cons_fin (v : ℚ) (i : Nat) (r : List (Ext × Nat)) :
    low_idx ((Ext.fin v, i) :: r) = i :: low_idx r := by
  simp [low_idx]

theorem low_idx_perm (a b : List (Ext × Nat)) (h : a.Perm b) : (low_idx a).Perm (low_idx b) :=
  (h.filter _).map _

theorem mem_low_idx (slots : List (Ext × Nat)) (j : Nat) :
    j ∈ low_idx slots ↔ ∃ e, e ∈ slots ∧ e.1 ≠ Ext.neg_inf ∧ e.2 = j := by
  simp [low_idx, and_assoc]

theorem low_idx_length_le (slots : List (Ext × Nat)) : (low_idx slots).length ≤ slots.length := by
  unfold low_idx
  rw [List.length_map]
  exact List.length_filter_le _ _

theorem Solver_B.SecondInv_init (s : Solver_B) (max0 : Ext) (q2 : Nat) :
    s.SecondInv max0 q2 0 (List.replicate q2 (Ext.neg_inf, 0)) := by
  have hidx : low_idx (List.replicate q2 (Ext.neg_inf, 0)) = [] := by
    simp [low_idx]
  refine ⟨by simp, ?_, ?_, by rw [hidx]; exact List.nodup_nil, ?_⟩
  · rw [List.pairwise_replicate]
    right; simp [Ext.le, Ext.lt]
  · intro e he
    left
    rw [List.eq_of_mem_replicate he]
  · intro j hj
    exact absurd hj (Nat.not_lt_zero _)

theorem Solver_B.SecondInv_skip (s : Solver_B) (max0 : Ext) (q2 n : Nat)
    (slots : List (Ext × Nat)) (h : s.SecondInv max0 q2 n slots)
    (hs : s.second_pass_skips max0 n = true) : s.SecondInv max0 q2 (n + 1) slots := by
  refine ⟨h.len, h.sorted, ?_, h.nodup, ?_⟩
  · intro e he
    rcases h.src e he with h1 | ⟨i, hi, h2⟩
    · exact Or.inl h1
    · exact Or.inr ⟨i, by omega, h2⟩
  · intro j hj hsj
    have : j ≠ n := by rintro rfl; rw [hs] at hsj; exact absurd hsj (by decide)
    exact h.top j (by omega) hsj

theorem Solver_B.SecondInv_keep (s : Solver_B) (max0 : Ext) (q2 n : Nat) (head : Ext × Nat)
    (tail : List (Ext × Nat)) (h : s.SecondInv max0 q2 n (head :: tail))
    (hlt : ¬ (Ext.lt head.1 (Ext.fin |s.G.getD n 0|) = true)) :
    s.SecondInv max0 q2 (n + 1) (head :: tail) := by
  have hle : Ext.le (Ext.fin |s.G.getD n 0|) head.1 = true := (Ext.not_lt_iff_le _ _).mp hlt
  refine ⟨h.len, h.sorted, ?_, h.nodup, ?_⟩
  · intro e he
    rcases h.src e he with h1 | ⟨i, hi, h2⟩
    · exact Or.inl h1
    · exact Or.inr ⟨i, by omega, h2⟩
  · intro j hj hsj
    by_cases hjn : j = n
    · subst hjn
      exact ⟨head, List.mem_cons_self _ _, hle⟩
    · exact h.top j (by omega) hsj

theorem Solver_B.SecondInv_insert (s : Solver_B) (max0 : Ext) (q2 n : Nat) (head : Ext × Nat)
    (tail : List (Ext × Nat)) (h : s.SecondInv max0 q2 n (head :: tail))
    (hs : s.second_pass_skips max0 n = false)
    (hlt : Ext.lt head.1 (Ext.fin |s.G.getD n 0|) = true) :
    s.SecondInv max0 q2 (n + 1) (shift_larger |s.G.getD n 0| n tail) := by
  have hperm := shift_larger_perm |s.G.getD n 0| n tail
  have hsorted := List.pairwise_cons.mp h.sorted
  have hidx : (low_idx (shift_larger |s.G.getD n 0| n tail)).Perm (n :: low_idx tail) := by
    have := low_idx_perm _ _ hperm
    rwa [low_idx_cons_fin] at this
  have hlt_n : ∀ j, j ∈ low_idx tail → j < n := by
    intro j hj
    rw [mem_low_idx] at hj
    obtain ⟨e, he, h1, h2⟩ := hj
    rcases h.src e (List.mem_cons_of_mem _ he) with h3 | ⟨i, hi, -, h4⟩
    · exact absurd h3 h1
    · rw [← h2, h4]; exact hi
  have hnd_tail : (low_idx tail).Nodup := by
    have := h.nodup
    unfold low_idx at this ⊢
    rw [List.filter_cons] at this
    split_ifs at this
    · exact (List.nodup_cons.mp this).2
    · exact this
  refine ⟨?_, shift_larger_sorted _ _ _ hsorted.2, ?_, ?_, ?_⟩
  · rw [hperm.length_eq]; exact h.len
  · intro e he
    rcases List.mem_cons.mp (hperm.mem_iff.mp he) with rfl | he'
    · exact Or.inr ⟨n, Nat.lt_succ_self n, hs, rfl⟩
    · rcases h.src e (List.mem_cons_of_mem _ he') with h1 | ⟨i, hi, h2⟩
      · exact Or.inl h1
      · exact Or.inr ⟨i, by omega, h2⟩
  · rw [hidx.nodup_iff, List.nodup_cons]
    exact ⟨fun hmem => absurd (hlt_n n hmem) (Nat.lt_irrefl n), hnd_tail⟩
  · intro j hj hsj
    by_cases hjn : j = n
    · subst hjn
      exact ⟨_, hperm.mem_iff.mpr (List.mem_cons_self _ _), Ext.le_self _⟩
    · obtain ⟨e, he, hle⟩ := h.top j (by omega) hsj
      rcases List.mem_cons.mp he with rfl | he'
      · exact ⟨_, hperm.mem_iff.mpr (List.mem_cons_self _ _),
          Ext.le_chain _ _ _ hle (Ext.le_of_lt_true _ _ hlt)⟩
      · exact ⟨e, hperm.mem_iff.mpr (List.mem_cons_of_mem _ he'), hle⟩

theorem Solver_B.SecondInv_second_pass (s : Solver_B) (max0 : Ext) (q2 : Nat) (hq : 0 < q2) :
    s.SecondInv max0 q2 s.active_size (s.second_pass max0 q2) := by
  unfold Solver_B.second_pass
  refine for_loop_induction (fun n slots => s.SecondInv max0 q2 n slots) 0 s.active_size
    _ _ (Nat.zero_le _) (Solver_B.SecondInv_init s max0 q2) ?_
  intro i slots _ _ h
  beta_reduce at h ⊢
  by_cases hs : s.second_pass_skips max0 i = true
  · rw [if_pos hs]
    exact Solver_B.SecondInv_skip s max0 q2 i slots h hs
  · rw [if_neg hs]
    have hs' : s.second_pass_skips max0 i = false := by simpa using hs
    cases slots with
    | nil =>
      have hl := h.len
      simp only [List.length_nil] at hl
      omega
    | cons head tail =>
      simp only [insert_larger]
      split_ifs with hlt
      · exact Solver_B.SecondInv_insert s max0 q2 i head tail h hs' hlt
      · exact Solver_B.SecondInv_keep s max0 q2 i head tail h hlt

theorem Solver_B.second_pass_zero (s : Solver_B) (max0 : Ext) : s.second_pass max0 0 = [] := by
  unfold Solver_B.second_pass
  refine for_loop_induction (fun _ slots => slots = []) 0 s.active_size _ _ (Nat.zero_le _)
    rfl ?_
  intro i slots _ _ h
  beta_reduce at h ⊢
  subst h
  split_ifs <;> rfl

/-- The part of the second-pass invariant that does not need a slot. -/
theorem Solver_B.second_pass_src (s : Solver_B) (max0 : Ext) (q2 : Nat) :
    (s.second_pass max0 q2).length = q2 ∧
    (low_idx (s.second_pass max0 q2)).Nodup ∧
    ∀ j, j ∈ low_idx (s.second_pass max0 q2) →
      j < s.active_size ∧ s.second_pass_skips max0 j = false := by
  by_cases hq : 0 < q2
  · have h := Solver_B.SecondInv_second_pass s max0 q2 hq
    refine ⟨h.len, h.nodup, fun j hj => ?_⟩
    obtain ⟨e, he, h1, h2⟩ := (mem_low_idx _ _).mp hj
    rcases h.src e he with h3 | ⟨i, hi, hsi, h4⟩
    · exact absurd h3 h1
    · have : i = j := by rw [← h2, h4]
      rw [← this]; exact ⟨hi, hsi⟩
  · have : q2 = 0 := by omega
    subst this
    rw [Solver_B.second_pass_zero]
    exact ⟨rfl, List.nodup_nil, fun j hj => absurd hj (List.not_mem_nil _)⟩

theorem foldl_max_with_ge (L : List (Ext × Nat)) : ∀ m : ℚ,
    m ≤ L.foldl (fun m e => max_with m e.1) m ∧
    (∀ e v, e ∈ L → e.1 = Ext.fin v → v ≤ L.foldl (fun m e => max_with m e.1) m) ∧
    (L.foldl (fun m e => max_with m e.1) m = m ∨
      ∃ e, e ∈ L ∧ e.1 = Ext.fin (L.foldl (fun m e => max_with m e.1) m)) := by
  induction L with
  | nil => intro m; exact ⟨le_refl _, fun e v he => absurd he (List.not_mem_nil _), Or.inl rfl⟩
  | cons a L ih =>
    intro m
    simp only [List.foldl_cons]
    obtain ⟨h1, h2, h3⟩ := ih (max_with m a.1)
    have hm : m ≤ max_with m a.1 := by
      unfold max_with; split
      · exact le_max_left _ _
      · exact le_refl _
    refine ⟨hm.trans h1, ?_, ?_⟩
    · intro e v he hev
      rcases List.mem_cons.mp he with rfl | he'
      · have : v ≤ max_with m e.1 := by rw [hev]; exact le_max_right _ _
        exact this.trans h1
      · exact h2 e v he' hev
    · rcases h3 with h3 | ⟨e, he, h4⟩
      · rw [h3]
        cases ha : a.1 with
        | neg_inf => left; rfl
        | pos_inf => left; rfl
        | fin v =>
          simp only [max_with]
          rcases max_choice m v with hc | hc
          · left; exact hc
          · right; exact ⟨a, List.mem_cons_self _ _, by rw [ha, hc]⟩
      · exact Or.inr ⟨e, List.mem_cons_of_mem _ he, h4⟩

theorem Solver_B.skips_sign (s : Solver_B) (max0 : Ext) (i : Nat)
    (h : s.second_pass_skips max0 i = false) :
    (s.is_upper_bound i = true → 0 ≤ s.G.getD i 0) ∧
    (s.is_lower_bound i = true → s.G.getD i 0 ≤ 0) ∧
    (s.is_free i = true → Ext.lt max0 (Ext.fin |s.G.getD i 0|) = true) := by
  unfold Solver_B.second_pass_skips at h
  simp only [Bool.or_eq_false_iff, Bool.and_eq_false_iff, decide_eq_false_iff_not, not_lt,
    Bool.not_eq_false', Bool.not_eq_true'] at h
  obtain ⟨⟨h1, h2⟩, h3⟩ := h
  refine ⟨fun hu => ?_, fun hl => ?_, fun hf => ?_⟩
  · rcases h2 with h2 | h2
    · rw [hu] at h2; exact absurd h2 (by decide)
    · exact h2
  · have hnu : s.is_upper_bound i = false := by
      unfold Solver_B.is_lower_bound at hl
      unfold Solver_B.is_upper_bound
      simp only [decide_eq_true_eq] at hl
      simp [hl]
    rcases h3 with (h3 | h3) | h3
    · rw [hnu] at h3; exact absurd h3 (by decide)
    · rw [hl] at h3; exact absurd h3 (by decide)
    · exact h3
  · rcases h1 with h1 | h1
    · rw [hf] at h1; exact absurd h1 (by decide)
    · unfold Ext.le at h1
      simpa using h1

theorem Solver_B.first_block_skipped (s : Solver_B) (i : Nat) (hi : i ∈ s.first_block) :
    s.second_pass_skips s.max0 i = true := by
  have h := Solver_B.FirstInv_first_pass s
  have hi' : i ∈ fin_idx s.first_pass := hi
  obtain ⟨e, he, h1, h2⟩ := (mem_fin_idx _ _).mp hi'
  have hfree : s.is_free i = true ∧ e.1 = Ext.fin |s.G.getD i 0| := by
    rcases h.src e he with h3 | ⟨k, hk, hfk, h4⟩
    · exact absurd h3 h1
    · have : k = i := by rw [← h2, h4]
      rw [← this, h4]; exact ⟨hfk, rfl⟩
  have hq : s.first_block.length ≠ 0 := by
    intro h0
    rw [List.length_eq_zero] at h0
    rw [h0] at hi
    exact absurd hi (List.not_mem_nil _)
  have hle : Ext.le (Ext.fin |s.G.getD i 0|) s.max0 = true := by
    unfold Solver_B.max0 max0_of
    rw [if_pos hq]
    cases hsl : s.first_pass with
    | nil => rw [hsl] at he; exact absurd he (List.not_mem_nil _)
    | cons head tail =>
      simp only []
      rw [hsl] at he
      have hs := h.sorted
      rw [hsl] at hs
      rw [← hfree.2]
      rcases List.mem_cons.mp he with rfl | he'
      · exact Ext.le_self _
      · exact (List.pairwise_cons.mp hs).1 e he'
  unfold Solver_B.second_pass_skips
  rw [hfree.1, hle]
  rfl

/-- The value and the working set of `select_working_set`. -/
theorem Solver_B.select_working_set_spec (s : Solver_B) :
    0 ≤ s.select_working_set.1 ∧
    (s.select_working_set.1 = 0 ∨ ∃ i, i < s.active_size ∧
      s.second_pass_skips s.max0 i = false ∧ s.select_working_set.1 = |s.G.getD i 0|) ∧
    (1 ≤ s.qpsize → ∀ i, i < s.active_size → s.second_pass_skips s.max0 i = false →
      |s.G.getD i 0| ≤ s.select_working_set.1) ∧
    s.select_working_set.2.working_set.length ≤ s.qpsize ∧
    s.select_working_set.2.working_set.Nodup ∧
    ∀ k, k ∈ s.select_working_set.2.working_set → k < s.active_size := by
  have h1 := Solver_B.FirstInv_first_pass s
  have hsrc := Solver_B.second_pass_src s s.max0 (s.qpsize - s.first_block.length)
  obtain ⟨f1, f2, f3⟩ := foldl_max_with_ge s.second_slots 0
  have hq1 : s.first_block.length ≤ s.qpsize / 2 := by
    have : s.first_block.length = min (s.qpsize / 2) (s.free_below s.active_size) := h1.count
    omega
  have hmem2 : ∀ e, e ∈ s.second_slots → e.1 ≠ Ext.neg_inf ∧
      e ∈ s.second_pass s.max0 (s.qpsize - s.first_block.length) := by
    intro e he
    have := List.mem_filter.mp he
    exact ⟨by simpa using this.2, this.1⟩
  refine ⟨f1, ?_, ?_, ?_, ?_, ?_⟩
  · rcases f3 with f3 | ⟨e, he, hev⟩
    · exact Or.inl f3
    · right
      have hj : e.2 ∈ low_idx (s.second_pass s.max0 (s.qpsize - s.first_block.length)) :=
        (mem_low_idx _ _).mpr ⟨e, (hmem2 e he).2, (hmem2 e he).1, rfl⟩
      obtain ⟨g1, g2⟩ := hsrc.2.2 e.2 hj
      refine ⟨e.2, g1, g2, ?_⟩
      by_cases hq : 0 < s.qpsize - s.first_block.length
      · have hinv := Solver_B.SecondInv_second_pass s s.max0 _ hq
        rcases hinv.src e (hmem2 e he).2 with h3 | ⟨i, -, -, h4⟩
        · exact absurd h3 (hmem2 e he).1
        · have hv : e.1 = Ext.fin |s.G.getD e.2 0| := by rw [h4]
          rw [hv] at hev
          exact (Ext.fin.inj hev).symm
      · have : s.qpsize - s.first_block.length = 0 := by omega
        have hm := (hmem2 e he).2
        rw [this, Solver_B.second_pass_zero] at hm
        exact absurd hm (List.not_mem_nil _)
  · intro hqp i hi hsk
    have hq : 0 < s.qpsize - s.first_block.length := by omega
    have hinv := Solver_B.SecondInv_second_pass s s.max0 _ hq
    obtain ⟨e, he, hle⟩ := hinv.top i hi hsk
    cases hev : e.1 with
    | neg_inf => rw [hev] at hle; simp [Ext.le, Ext.lt] at hle
    | pos_inf =>
      rcases hinv.src e he with h3 | ⟨k, -, -, h4⟩
      · rw [hev] at h3; exact absurd h3 (by simp)
      · rw [h4] at hev; exact absurd hev (by simp)
    | fin v =>
      rw [hev] at hle
      have hle' := (Ext.le_fin_fin _ _).mp hle
      have hmem : e ∈ s.second_slots :=
        List.mem_filter.mpr ⟨he, by simp [hev]⟩
      exact hle'.trans (f2 e v hmem hev)
  · show (s.first_block ++ s.second_block).length ≤ s.qpsize
    rw [List.length_append]
    have : s.second_block.length ≤ s.qpsize - s.first_block.length := by
      have := low_idx_length_le (s.second_pass s.max0 (s.qpsize - s.first_block.length))
      rw [hsrc.1] at this
      exact this
    omega
  · show (s.first_block ++ s.second_block).Nodup
    rw [List.nodup_append]
    refine ⟨h1.nodup, hsrc.2.1, ?_⟩
    intro a ha1 ha2
    have := Solver_B.first_block_skipped s a ha1
    rw [(hsrc.2.2 a ha2).2] at this
    exact absurd this (by decide)
  · intro k hk
    rcases List.mem_append.mp hk with hk | hk
    · obtain ⟨e, he, g1, g2⟩ := (mem_fin_idx _ _).mp hk
      rcases h1.src e he with h3 | ⟨i, hi, -, h4⟩
      · exact absurd h3 g1
      · rw [← g2, h4]; exact hi
    · exact (hsrc.2.2 k hk).1
theorem second_block_sample :
    (sample_state [1, -1] [Status.UPPER_BOUND, Status.LOWER_BOUND] 2 2).second_block =
      [1, 0] := by
  simp [(by norm_num : ¬ ((1 : ℚ) < 0)), Solver_B.first_block,
    Solver_B.second_block, Solver_B.second_slots, Solver_B.max0, Solver_B.second_pass_skips,
    Solver_B.first_pass, Solver_B.second_pass, for_loop, sample_state, Solver_B.is_free,
    Solver_B.is_upper_bound, Solver_B.is_lower_bound, insert_larger, shift_larger,
    insert_smaller, shift_smaller, max0_of, Ext.le, Ext.lt, List.range', List.replicate]

theorem select_working_set_free_sample :
    (sample_state [1 / 2] [Status.FREE] 1 2).select_working_set.1 = 0 := by
  simp [Solver_B.select_working_set, Solver_B.first_block,
    Solver_B.second_block, Solver_B.second_slots, Solver_B.max0, Solver_B.second_pass_skips,
    Solver_B.first_pass, Solver_B.second_pass, for_loop, sample_state, Solver_B.is_free,
    Solver_B.is_upper_bound, Solver_B.is_lower_bound, insert_larger, shift_larger,
    insert_smaller, shift_smaller, max0_of, Ext.le, Ext.lt, List.range', List.replicate]


/-! ## The shrink loop of `Solver_B::do_shrinking` -/

theorem Solver_B.shrink_rule_iff (s : Solver_B) (Gm : ℚ) (k : Nat) :
    s.shrink_rule Gm k = true ↔
      (s.is_lower_bound k = true ∧ Gm < s.G.getD k 0) ∨
      (s.is_lower_bound k = false ∧ s.is_upper_bound k = true ∧ s.G.getD k 0 < -Gm) := by
  unfold Solver_B.shrink_rule
  simp only [Bool.or_eq_true, Bool.and_eq_true, decide_eq_true_eq, Bool.not_eq_true',
    gt_iff_lt, and_assoc]

theorem Solver_B.shrink_loop_succ (n : Nat) (s : Solver_B) (k : Nat) (Gm : ℚ) :
    Solver_B.shrink_loop (n + 1) s k Gm =
      if k < s.active_size then
        if s.shrink_rule Gm k = true then
          Solver_B.shrink_loop n
            (Solver_B.swap_index { s with active_size := s.active_size - 1 } k
              (s.active_size - 1)) k Gm
        else Solver_B.shrink_loop n s (k + 1) Gm
      else s := by
  have hr := Solver_B.shrink_rule_iff s Gm k
  simp only [Solver_B.shrink_loop, Solver_B.shrink_one]
  by_cases hk : k < s.active_size
  · rw [if_pos hk, if_pos hk]
    by_cases hl : s.is_lower_bound k = true
    · rw [if_pos hl]
      by_cases hg : s.G.getD k 0 ≤ Gm
      · rw [if_pos hg, if_neg]
        rw [hr]
        rintro (⟨-, h⟩ | ⟨h, -⟩)
        · exact absurd hg (not_le.mpr h)
        · rw [hl] at h; exact absurd h (by decide)
      · rw [if_neg hg, if_pos]
        rw [hr]
        exact Or.inl ⟨hl, not_le.mp hg⟩
    · rw [if_neg hl]
      have hl' : s.is_lower_bound k = false := by simpa using hl
      by_cases hu : s.is_upper_bound k = true
      · rw [if_pos hu]
        by_cases hg : s.G.getD k 0 ≥ -Gm
        · rw [if_pos hg, if_neg]
          rw [hr]
          rintro (⟨h, -⟩ | ⟨-, -, h⟩)
          · exact hl h
          · exact absurd hg (not_le.mpr h)
        · rw [if_neg hg, if_pos]
          rw [hr]
          exact Or.inr ⟨hl', hu, not_le.mp hg⟩
      · rw [if_neg hu, if_neg]
        rw [hr]
        rintro (⟨h, -⟩ | ⟨-, h, -⟩)
        · exact hl h
        · exact hu h
  · rw [if_neg hk, if_neg hk]

theorem Solver_B.shrink_rule_swap (s : Solver_B) (i j a : Nat) (h : s.Lens) (hi : i < s.l)
    (hj : j < s.l) (Gm : ℚ) (p : Nat) :
    Solver_B.shrink_rule (Solver_B.swap_index { s with active_size := a } i j) Gm p =
      s.shrink_rule Gm (swap_pos i j p) := by
  obtain ⟨h1, h2, h3, h4⟩ := h
  unfold Solver_B.shrink_rule Solver_B.is_lower_bound Solver_B.is_upper_bound
  simp only [Solver_B.swap_index]
  have e1 := swap_at_getElem? s.alpha_status i j p (by omega) (by omega)
  have e2 := swap_at_getD s.G i j p 0 (by omega) (by omega)
  simp only [e1, e2]

theorem Solver_B.Lens_swap (s : Solver_B) (i j a : Nat) (h : s.Lens) (ha : a ≤ s.l) :
    Solver_B.Lens (Solver_B.swap_index { s with active_size := a } i j) := by
  obtain ⟨h1, h2, h3, h4⟩ := h
  refine ⟨?_, ?_, ?_, ha⟩
  · show (swap_at s.G i j).length = s.l
    rw [length_swap_at, h1]
  · show (swap_at s.alpha_status i j).length = s.l
    rw [length_swap_at, h2]
  · show (swap_at s.active_set i j).length = s.l
    rw [length_swap_at, h3]

theorem swap_pos_inj (i j p q : Nat) (h : swap_pos i j p = swap_pos i j q) : p = q := by
  have := congrArg (swap_pos i j) h
  rwa [swap_pos_swap_pos, swap_pos_swap_pos] at this

theorem Solver_B.Shrunk_refl (s : Solver_B) (Gm : ℚ) (h : s.Lens) :
    Solver_B.Shrunk s s Gm s.active_size (fun p => p) :=
  ⟨fun _ hp => hp, fun _ _ _ _ h => h, fun _ _ => rfl, fun _ _ => rfl, rfl, h, le_refl _,
    le_refl _, fun _ _ => rfl, fun _ _ => rfl, fun _ _ => rfl,
    fun p h1 h2 => absurd h1 (by omega), fun p h1 h2 => absurd h1 (by omega)⟩

theorem Solver_B.Shrunk_skip (s r : Solver_B) (Gm : ℚ) (k : Nat) (sigma : Nat → Nat)
    (hk : k < s.active_size) (hr : s.shrink_rule Gm k = false)
    (h : Solver_B.Shrunk s r Gm (k + 1) sigma) : Solver_B.Shrunk s r Gm k sigma := by
  refine ⟨h.maps, h.inj, fun p hp => h.below p (by omega), h.above, h.l_eq, h.lens,
    by have := h.k_le; omega, h.le, h.G, h.status, h.origin, fun p h1 h2 => ?_,
    fun p h1 h2 => ?_⟩
  · by_cases hpk : p = k
    · subst hpk
      rw [h.below p (by omega)]
      exact ⟨le_refl _, hk, hr⟩
    · obtain ⟨g1, g2, g3⟩ := h.kept p (by omega) h2
      exact ⟨by omega, g2, g3⟩
  · obtain ⟨g1, g2, g3⟩ := h.moved p h1 h2
    exact ⟨by omega, g2, g3⟩

theorem Solver_B.Shrunk_move (s r : Solver_B) (Gm : ℚ) (k : Nat) (sigma : Nat → Nat)
    (hl : s.Lens) (hk : k < s.active_size) (hr : s.shrink_rule Gm k = true)
    (h : Solver_B.Shrunk
      (Solver_B.swap_index { s with active_size := s.active_size - 1 } k (s.active_size - 1))
      r Gm k sigma) :
    Solver_B.Shrunk s r Gm k (fun p => swap_pos k (s.active_size - 1) (sigma p)) := by
  obtain ⟨h1, h2, h3, h4⟩ := hl
  have hkl : k < s.l := by omega
  have hal : s.active_size - 1 < s.l := by omega
  have hrule := Solver_B.shrink_rule_swap s k (s.active_size - 1) (s.active_size - 1)
    ⟨h1, h2, h3, h4⟩ hkl hal Gm
  have hmaps : ∀ p, p < s.l → sigma p < s.l := h.maps
  have habove : ∀ p, s.active_size - 1 ≤ p → sigma p = p := h.above
  refine ⟨fun p hp => swap_pos_lt _ _ _ _ hkl hal (hmaps p hp),
    fun p q hp hq hpq => h.inj p q hp hq (swap_pos_inj _ _ _ _ hpq),
    fun p hp => ?_, fun p hp => ?_, h.l_eq, h.lens, h.k_le, ?_, fun p hp => ?_,
    fun p hp => ?_, fun p hp => ?_, fun p hp1 hp2 => ?_, fun p hp1 hp2 => ?_⟩
  · beta_reduce
    rw [h.below p hp]
    unfold swap_pos; split_ifs <;> omega
  · beta_reduce
    rw [habove p (by omega)]
    unfold swap_pos; split_ifs <;> omega
  · have : r.active_size ≤ s.active_size - 1 := h.le
    omega
  · rw [h.G p hp]
    exact swap_at_getD s.G _ _ _ _ (by omega) (by omega)
  · rw [h.status p hp]
    exact swap_at_getElem? s.alpha_status _ _ _ (by omega) (by omega)
  · rw [h.origin p hp]
    exact swap_at_getElem? s.active_set _ _ _ (by omega) (by omega)
  · obtain ⟨g1, g2, g3⟩ := h.kept p hp1 hp2
    have g2' : sigma p < s.active_size - 1 := g2
    rw [hrule] at g3
    refine ⟨?_, ?_, g3⟩
    · unfold swap_pos; split_ifs <;> omega
    · unfold swap_pos; split_ifs <;> omega
  · by_cases hp : p < s.active_size - 1
    · obtain ⟨g1, g2, g3⟩ := h.moved p hp1 hp
      have g2' : sigma p < s.active_size - 1 := g2
      rw [hrule] at g3
      refine ⟨?_, ?_, g3⟩
      · unfold swap_pos; split_ifs <;> omega
      · unfold swap_pos; split_ifs <;> omega
    · have hpe : p = s.active_size - 1 := by omega
      have hs : sigma p = p := habove p (by omega)
      have hsw : swap_pos k (s.active_size - 1) (sigma p) = k := by
        rw [hs, hpe]; unfold swap_pos; split_ifs <;> omega
      beta_reduce
      rw [hsw]
      exact ⟨le_refl _, hk, hr⟩

/-- The loop `for(k=0;k<active_size;k++)` of `do_shrinking` from position `k` on. -/
theorem Solver_B.shrink_loop_spec (n : Nat) : ∀ (s : Solver_B) (k : Nat) (Gm : ℚ),
    s.Lens → k ≤ s.active_size → s.active_size - k ≤ n →
    ∃ sigma, Solver_B.Shrunk s (Solver_B.shrink_loop n s k Gm) Gm k sigma := by
  induction n with
  | zero =>
    intro s k Gm hl hk hn
    have : k = s.active_size := by omega
    subst this
    exact ⟨_, Solver_B.Shrunk_refl s Gm hl⟩
  | succ n ih =>
    intro s k Gm hl hk hn
    rw [Solver_B.shrink_loop_succ]
    by_cases hka : k < s.active_size
    · rw [if_pos hka]
      by_cases hr : s.shrink_rule Gm k = true
      · rw [if_pos hr]
        have hl1 := Solver_B.Lens_swap s k (s.active_size - 1) (s.active_size - 1) hl
          (by have := hl.2.2.2; omega)
        obtain ⟨sigma, hs⟩ := ih _ k Gm hl1
          (by show k ≤ s.active_size - 1; omega)
          (by show s.active_size - 1 - k ≤ n; omega)
        exact ⟨_, Solver_B.Shrunk_move s _ Gm k sigma hl hka hr hs⟩
      · rw [if_neg hr]
        have hr' : s.shrink_rule Gm k = false := by simpa using hr
        obtain ⟨sigma, hs⟩ := ih s (k + 1) Gm hl (by omega) (by omega)
        exact ⟨sigma, Solver_B.Shrunk_skip s _ Gm k sigma hka hr' hs⟩
    · rw [if_neg hka]
      have : k = s.active_size := by omega
      subst this
      exact ⟨_, Solver_B.Shrunk_refl s Gm hl⟩

theorem Solver_B.Shrunk_count (s r : Solver_B) (Gm : ℚ) (sigma : Nat → Nat) (hl : s.Lens)
    (h : Solver_B.Shrunk s r Gm 0 sigma) :
    r.active_size +
      ((Finset.range s.active_size).filter (fun p => s.shrink_rule Gm p = true)).card =
    s.active_size := by
  have hal : s.active_size ≤ s.l := hl.2.2.2
  have hsum := Finset.filter_card_add_filter_neg_card_eq_card
    (s := Finset.range s.active_size) (fun p => s.shrink_rule Gm p = true)
  rw [Finset.card_range] at hsum
  have h1 : (Finset.image sigma (Finset.Ico r.active_size s.active_size)).card =
      s.active_size - r.active_size := by
    rw [Finset.card_image_of_injOn, Nat.card_Ico]
    intro p hp q hq hpq
    have hp' := Finset.mem_Ico.mp hp
    have hq' := Finset.mem_Ico.mp hq
    exact h.inj p q (by omega) (by omega) hpq
  have h2 : (Finset.image sigma (Finset.range r.active_size)).card = r.active_size := by
    rw [Finset.card_image_of_injOn, Finset.card_range]
    intro p hp q hq hpq
    have hp' := Finset.mem_range.mp hp
    have hq' := Finset.mem_range.mp hq
    have := h.le
    exact h.inj p q (by omega) (by omega) hpq
  have h3 : Finset.image sigma (Finset.Ico r.active_size s.active_size) ⊆
      (Finset.range s.active_size).filter (fun p => s.shrink_rule Gm p = true) := by
    intro x hx
    obtain ⟨p, hp, rfl⟩ := Finset.mem_image.mp hx
    have hp' := Finset.mem_Ico.mp hp
    obtain ⟨-, g2, g3⟩ := h.moved p hp'.1 hp'.2
    exact Finset.mem_filter.mpr ⟨Finset.mem_range.mpr g2, g3⟩
  have h4 : Finset.image sigma (Finset.range r.active_size) ⊆
      (Finset.range s.active_size).filter (fun p => ¬ (s.shrink_rule Gm p = true)) := by
    intro x hx
    obtain ⟨p, hp, rfl⟩ := Finset.mem_image.mp hx
    have hp' := Finset.mem_range.mp hp
    obtain ⟨-, g2, g3⟩ := h.kept p (Nat.zero_le _) hp'
    exact Finset.mem_filter.mpr ⟨Finset.mem_range.mpr g2, by simp [g3]⟩
  have c3 := Finset.card_le_card h3
  have c4 := Finset.card_le_card h4
  have := h.le
  omega

theorem Solver_B.shrink_loop_params (n : Nat) : ∀ (s : Solver_B) (k : Nat) (Gm : ℚ),
    (Solver_B.shrink_loop n s k Gm).unshrinked = s.unshrinked ∧
    (Solver_B.shrink_loop n s k Gm).eps = s.eps := by
  induction n with
  | zero => intro s k Gm; exact ⟨rfl, rfl⟩
  | succ n ih =>
    intro s k Gm
    rw [Solver_B.shrink_loop_succ]
    split_ifs
    · exact ih _ _ _
    · exact ih _ _ _
    · exact ⟨rfl, rfl⟩

theorem Solver_B.is_free_of_bound (s : Solver_B) (k : Nat)
    (h : s.is_lower_bound k = true ∨ s.is_upper_bound k = true) : s.is_free k = false := by
  unfold Solver_B.is_free Solver_B.is_lower_bound Solver_B.is_upper_bound at *
  rcases h with h | h <;> simp at h <;> simp [h]

theorem Solver_B.shrink_rule_bound (s : Solver_B) (Gm : ℚ) (k : Nat)
    (h : s.shrink_rule Gm k = true) : s.is_free k = false := by
  rw [Solver_B.shrink_rule_iff] at h
  rcases h with ⟨h, -⟩ | ⟨-, h, -⟩
  · exact Solver_B.is_free_of_bound s k (Or.inl h)
  · exact Solver_B.is_free_of_bound s k (Or.inr h)

theorem select_working_set_lower_sample :
    (sample_state [-1, 3 / 4] [Status.LOWER_BOUND, Status.LOWER_BOUND] 2 2).select_working_set
      = (1, { sample_state [-1, 3 / 4] [Status.LOWER_BOUND, Status.LOWER_BOUND] 2 2 with
              working_set := [0] }) := by
  simp [(by norm_num : ¬ ((1 : ℚ) < 0)), Solver_B.select_working_set, Solver_B.first_block,
    Solver_B.second_block, Solver_B.second_slots, Solver_B.max0, Solver_B.second_pass_skips,
    Solver_B.first_pass, Solver_B.second_pass, for_loop, sample_state, Solver_B.is_free,
    Solver_B.is_upper_bound, Solver_B.is_lower_bound, insert_larger, shift_larger,
    insert_smaller, shift_smaller, max0_of, Ext.le, Ext.lt, max_with, List.range',
    List.replicate]

theorem do_shrinking_lower_sample :
    (sample_state [-1, 3 / 4] [Status.LOWER_BOUND, Status.LOWER_BOUND] 2 2).do_shrinking =
      { sample_state [-1, 3 / 4] [Status.LOWER_BOUND, Status.LOWER_BOUND] 2 2 with
        working_set := [0] } := by
  unfold Solver_B.do_shrinking
  rw [select_working_set_lower_sample]
  have h1 : ¬ ((1 : ℚ) < 1 / 1000) := by norm_num
  have h2 : ((1 : ℚ) > 1 / 1000 * 10) := by norm_num
  have h3 : ((-1 : ℚ) ≤ 1) := by norm_num
  have h4 : ((3 : ℚ) / 4 ≤ 1) := by norm_num
  have h5 : ¬ ((1 : ℚ) ≤ 1000⁻¹ * 10) := by norm_num
  simp [sample_state, Solver_B.shrink_loop, Solver_B.is_lower_bound, h1, h2, h3, h4, h5]

theorem Solver_B.do_shrinking_cases (s : Solver_B) :
    (s.select_working_set.1 < s.eps → s.do_shrinking = s.select_working_set.2) ∧
    (¬ (s.select_working_set.1 < s.eps) →
      (s.unshrinked = true ∨ s.select_working_set.1 > s.eps * 10) →
      s.do_shrinking =
        Solver_B.shrink_loop s.active_size s.select_working_set.2 0 s.select_working_set.1) := by
  constructor
  · intro h
    have h' : s.select_working_set.1 < s.select_working_set.2.eps := h
    unfold Solver_B.do_shrinking
    simp only []
    rw [if_pos h']
  · intro h1 h2
    have h1' : ¬ (s.select_working_set.1 < s.select_working_set.2.eps) := h1
    unfold Solver_B.do_shrinking
    simp only []
    rw [if_neg h1']
    have hp := Solver_B.shrink_loop_params s.active_size s.select_working_set.2 0
      s.select_working_set.1
    rw [if_pos]
    · rfl
    · have e1 : (Solver_B.shrink_loop s.select_working_set.2.active_size s.select_working_set.2 0
          s.select_working_set.1).unshrinked = s.unshrinked := hp.1
      have e2 : (Solver_B.shrink_loop s.select_working_set.2.active_size s.select_working_set.2 0
          s.select_working_set.1).eps = s.eps := hp.2
      rw [e1, e2]
      rcases h2 with h2 | h2
      · simp [h2]
      · simp [h2]


/-! ## The sub-problem of `Solver_SPOC` -/

theorem prefix_loop_spec (AC : ℚ) : ∀ (rest P : List ℚ) (phi : ℚ),
    P ≠ [] → phi = P.sum - AC → (P ++ rest).Sorted (fun a b => a ≥ b) →
    (∀ x, x ∈ P → phi ≤ (P.length : ℚ) * x) →
    ∃ P1 rest1, P ++ rest = P1 ++ rest1 ∧
      P1.length = (prefix_loop phi (P.length - 1) rest).2 + 1 ∧
      (prefix_loop phi (P.length - 1) rest).1 = P1.sum - AC ∧
      (∀ x, x ∈ P1 → (prefix_loop phi (P.length - 1) rest).1 ≤ (P1.length : ℚ) * x) ∧
      (∀ x, x ∈ rest1 → (P1.length : ℚ) * x ≤ (prefix_loop phi (P.length - 1) rest).1) := by
  intro rest
  induction rest with
  | nil =>
    intro P phi hP hphi _ hle
    have hlen : 0 < P.length := List.length_pos.mpr hP
    refine ⟨P, [], rfl, ?_, hphi, hle, fun x hx => absurd hx (List.not_mem_nil _)⟩
    simp only [prefix_loop]; omega
  | cons d rest ih =>
    intro P phi hP hphi hs hle
    have hlen : 0 < P.length := List.length_pos.mpr hP
    have hcast : ((P.length - 1 : Nat) : ℚ) + 1 = (P.length : ℚ) := by
      have : P.length - 1 + 1 = P.length := by omega
      exact_mod_cast this
    simp only [prefix_loop]
    rw [hcast]
    have hsort := List.pairwise_append.mp hs
    by_cases ht : phi < (P.length : ℚ) * d
    · rw [if_pos ht]
      have e1 : P.length - 1 + 1 = (P ++ [d]).length - 1 := by
        rw [List.length_append, List.length_singleton]; omega
      rw [e1]
      have e2 : P ++ d :: rest = (P ++ [d]) ++ rest := by simp
      rw [e2]
      apply ih (P ++ [d]) (phi + d) (by simp)
      · rw [List.sum_append, List.sum_singleton, hphi]; ring
      · rw [← e2]; exact hs
      · intro x hx
        rw [List.length_append, List.length_singleton]
        push_cast
        rcases List.mem_append.mp hx with hx | hx
        · have h1 := hle x hx
          have h2 : x ≥ d := hsort.2.2 x hx d (List.mem_cons_self _ _)
          linarith
        · rw [List.mem_singleton] at hx
          subst hx
          linarith
    · rw [if_neg ht]
      refine ⟨P, d :: rest, rfl, by omega, hphi, hle, fun x hx => ?_⟩
      have hxd : x ≤ d := by
        rcases List.mem_cons.mp hx with rfl | hx'
        · exact le_refl _
        · exact (List.pairwise_cons.mp hsort.2.1).1 x hx'
      have hn : (0 : ℚ) ≤ (P.length : ℚ) := Nat.cast_nonneg _
      have := mul_le_mul_of_nonneg_left hxd hn
      linarith [not_lt.mp ht]

theorem sum_map_sub (L : List ℚ) (c : ℚ) :
    (L.map (fun x => c - x)).sum = (L.length : ℚ) * c - L.sum := by
  induction L with
  | nil => simp
  | cons a L ih =>
    rw [List.map_cons, List.sum_cons, ih, List.length_cons, List.sum_cons]
    push_cast
    ring

theorem sum_map_zero (L : List ℚ) (f : ℚ → ℚ) (h : ∀ x, x ∈ L → f x = 0) :
    (L.map f).sum = 0 := by
  induction L with
  | nil => simp
  | cons a L ih =>
    rw [List.map_cons, List.sum_cons, h a (List.mem_cons_self _ _),
      ih (fun x hx => h x (List.mem_cons_of_mem _ hx)), add_zero]

/-- The cutoff of `solve_sub_problem` balances the mass `A*C`. -/
theorem Solver_SPOC.cutoff_spec (A : ℚ) (B : List ℚ) (C : ℚ) (hB : B ≠ [])
    (hAC : 0 ≤ A * C) :
    (B.map (fun b => min 0 (Solver_SPOC.cutoff A B C - b))).sum = -(A * C) := by
  have hperm : (compar_sort B).Perm B := List.perm_insertionSort _ B
  have hsorted : (compar_sort B).Sorted (fun a b => a ≥ b) :=
    List.sorted_insertionSort (fun a b => a ≥ b) B
  have hmap := (hperm.map (fun b => min 0 (Solver_SPOC.cutoff A B C - b))).sum_eq
  rw [← hmap]
  unfold Solver_SPOC.cutoff
  simp only []
  cases hD : compar_sort B with
  | nil =>
    rw [hD] at hperm
    exact absurd hperm.symm.eq_nil hB
  | cons d0 tail =>
    rw [hD] at hsorted
    simp only [List.headD_cons, List.tail_cons]
    obtain ⟨P1, rest1, e, hlen, hphi, hP, hR⟩ := prefix_loop_spec (A * C) tail [d0]
      (d0 - A * C) (by simp) (by simp) hsorted
      (by
        intro x hx
        rw [List.mem_singleton] at hx
        subst hx
        simp only [List.length_singleton, Nat.cast_one, one_mul]
        linarith)
    simp only [List.length_singleton, Nat.sub_self] at hlen hphi hP hR
    simp only [List.singleton_append] at e
    generalize prefix_loop (d0 - A * C) 0 tail = res at hlen hphi hP hR ⊢
    have hn : ((res.2 : ℚ) + 1) = (P1.length : ℚ) := by
      rw [hlen]; push_cast; ring
    have hpos : (0 : ℚ) < (P1.length : ℚ) := by
      rw [← hn]; positivity
    rw [e, List.map_append, List.sum_append, hn]
    have h1 : (P1.map (fun b => min 0 (res.1 / (P1.length : ℚ) - b))).sum =
        (P1.map (fun b => res.1 / (P1.length : ℚ) - b)).sum := by
      congr 1
      apply List.map_congr_left
      intro x hx
      apply min_eq_right
      have := hP x hx
      rw [sub_nonpos, div_le_iff₀ hpos]
      linarith
    have h2 : (rest1.map (fun b => min 0 (res.1 / (P1.length : ℚ) - b))).sum = 0 := by
      apply sum_map_zero
      intro x hx
      apply min_eq_left
      have := hR x hx
      rw [sub_nonneg, le_div_iff₀ hpos]
      linarith
    rw [h1, h2, sum_map_sub, add_zero, mul_div_cancel₀ _ (ne_of_gt hpos), hphi]
    ring

theorem sum_set (L : List ℚ) (i : Nat) (v : ℚ) (h : i < L.length) :
    (L.set i v).sum = L.sum - L.getD i 0 + v := by
  induction L generalizing i with
  | nil => simp at h
  | cons a L ih =>
    cases i with
    | zero => simp; ring
    | succ i =>
      simp only [List.set_cons_succ, List.sum_cons, List.getD_cons_succ]
      rw [ih i (by simpa using h)]
      ring

theorem sum_map_div (L : List ℚ) (f : ℚ → ℚ) (A : ℚ) :
    (L.map (fun b => f b / A)).sum = (L.map f).sum / A := by
  induction L with
  | nil => simp
  | cons a L ih =>
    rw [List.map_cons, List.sum_cons, ih, List.map_cons, List.sum_cons]
    ring

theorem Solver_SPOC.solve_sub_problem_sum (A : ℚ) (B : List ℚ) (C : ℚ) (hB : B ≠ [])
    (hA : 0 < A) (hC : 0 ≤ C) : (Solver_SPOC.solve_sub_problem A B C).sum = -C := by
  unfold Solver_SPOC.solve_sub_problem
  rw [sum_map_div B (fun b => min 0 (Solver_SPOC.cutoff A B C - b)) A,
    Solver_SPOC.cutoff_spec A B C hB (mul_nonneg (le_of_lt hA) hC)]
  field_simp
  ring

theorem new_nu_fallback_sample :
    Solver_SPOC.new_nu 0 [0, 1, 0] 1 0 [1 / 2, -1 / 2, 0] = [3 / 2, -1, 0] := by
  have h : (0 : ℚ) < 1 := by norm_num
  simp [Solver_SPOC.new_nu, Solver_SPOC.steepest, for_loop, List.range', h]
  norm_num


/-! ## The buckets of `Solver_MB` -/

theorem swap_int_nat {β : Type} (xs : List β) (i j : Nat) :
    swap_int xs (i : Int) (j : Int) = swap_at xs i j := by
  unfold swap_int
  rw [if_pos ⟨Int.ofNat_nonneg _, Int.ofNat_nonneg _⟩, Int.toNat_ofNat, Int.toNat_ofNat]

theorem Solver_MB.bucket_eq_of_record (s r : Solver_MB) (p q : Nat)
    (hnr : r.nr_class = s.nr_class) (h : r.record p = s.record q) :
    r.bucket p = s.bucket q := by
  unfold Solver_MB.record at h
  simp only [Prod.mk.injEq] at h
  unfold Solver_MB.bucket
  rw [List.getD_eq_getElem?_getD, List.getD_eq_getElem?_getD, List.getD_eq_getElem?_getD,
    List.getD_eq_getElem?_getD, h.1, h.2.1, hnr]

theorem Solver_MB.Moved_refl (s : Solver_MB) (h : s.Lens) : Solver_MB.Moved s s (fun p => p) :=
  ⟨rfl, rfl, rfl, rfl, rfl, h, fun _ hp => hp, fun _ _ _ _ h => h, fun _ _ => rfl⟩

theorem Solver_MB.Moved_trans (s r u : Solver_MB) (pi rho : Nat → Nat)
    (h1 : Solver_MB.Moved s r pi) (h2 : Solver_MB.Moved r u rho) :
    Solver_MB.Moved s u (fun p => pi (rho p)) := by
  have hl := h1.l_eq
  refine ⟨h2.l_eq.trans h1.l_eq, h2.nr_eq.trans h1.nr_eq, h2.act_eq.trans h1.act_eq,
    h2.start1_eq.trans h1.start1_eq, h2.start2_eq.trans h1.start2_eq, h2.lens, ?_, ?_, ?_⟩
  · intro p hp
    exact h1.maps _ (by rw [← hl]; exact h2.maps p (by rw [hl]; exact hp))
  · intro p q hp hq hpq
    have hp' := h2.maps p (by rw [hl]; exact hp)
    have hq' := h2.maps q (by rw [hl]; exact hq)
    rw [hl] at hp' hq'
    exact h2.inj p q (by rw [hl]; exact hp) (by rw [hl]; exact hq) (h1.inj _ _ hp' hq' hpq)
  · intro p hp
    have hp' := h2.maps p (by rw [hl]; exact hp)
    rw [hl] at hp'
    rw [h2.records p (by rw [hl]; exact hp), h1.records _ hp']

theorem Solver_MB.Moved_swap (s : Solver_MB) (i j : Nat) (h : s.Lens) (hi : i < s.l)
    (hj : j < s.l) :
    Solver_MB.Moved s (s.swap_index (i : Int) (j : Int)) (swap_pos i j) := by
  obtain ⟨h1, h2, h3, h4, h5, h6, h7, h8⟩ := h
  by_cases hij : (i : Int) = (j : Int)
  · have hij' : i = j := by exact_mod_cast hij
    subst hij'
    have hid : swap_pos i i = fun p => p := by
      funext p; unfold swap_pos; split_ifs <;> simp_all
    unfold Solver_MB.swap_index
    rw [if_pos rfl, hid]
    exact Solver_MB.Moved_refl s ⟨h1, h2, h3, h4, h5, h6, h7, h8⟩
  · unfold Solver_MB.swap_index
    rw [if_neg hij]
    simp only [swap_int_nat]
    refine ⟨rfl, rfl, rfl, rfl, rfl, ?_, fun p hp => swap_pos_lt i j p _ hi hj hp,
      fun p q _ _ hpq => swap_pos_inj i j p q hpq, fun p _ => ?_⟩
    · refine ⟨?_, ?_, ?_, ?_, ?_, ?_, ?_, ?_⟩ <;> simp only [length_swap_at] <;> assumption
    · unfold Solver_MB.record
      simp only []
      rw [swap_at_getElem? s.y _ _ _ (by omega) (by omega),
        swap_at_getElem? s.yy _ _ _ (by omega) (by omega),
        swap_at_getElem? s.G _ _ _ (by omega) (by omega),
        swap_at_getElem? s.alpha_status _ _ _ (by omega) (by omega),
        swap_at_getElem? s.alpha _ _ _ (by omega) (by omega),
        swap_at_getElem? s.active_set _ _ _ (by omega) (by omega),
        swap_at_getElem? s.real_i _ _ _ (by omega) (by omega),
        swap_at_getElem? s.G_bar _ _ _ (by omega) (by omega)]

/-- The loop `for (i=lo;i<hi;i++) swap_index(a[i], a[i+1])` over a non-decreasing table
`a`: the record at `a[lo]` travels to `a[hi]`, and every range `(a[i], a[i+1]]` moves one
position down, to `[a[i], a[i+1])`. -/
theorem rotate_up_spec (f : Solver_MB → List Int)
    (hf : ∀ (u : Solver_MB) (i j : Int), f (u.swap_index i j) = f u)
    (s : Solver_MB) (a : Nat → Nat) (lo hi : Nat) (hle : lo ≤ hi) (hl : s.Lens)
    (ha : ∀ i, lo ≤ i → i ≤ hi → (f s).getD i 0 = (a i : Int))
    (hmono : ∀ i j, lo ≤ i → i ≤ j → j ≤ hi → a i ≤ a j) (hlt : a hi < s.l) :
    ∃ pi, Solver_MB.Moved s
        (for_loop lo hi
          (fun i u => u.swap_index ((f u).getD i 0) ((f u).getD (i + 1) 0)) s) pi ∧
      f (for_loop lo hi
          (fun i u => u.swap_index ((f u).getD i 0) ((f u).getD (i + 1) 0)) s) = f s ∧
      pi (a hi) = a lo ∧
      (∀ i, lo ≤ i → i < hi → ∀ p, a i ≤ p → p < a (i + 1) →
        a i < pi p ∧ pi p ≤ a (i + 1)) ∧
      (∀ p, p < a lo ∨ a hi < p → pi p = p) := by
  refine for_loop_induction
    (fun n u => ∃ pi, Solver_MB.Moved s u pi ∧ f u = f s ∧ pi (a n) = a lo ∧
      (∀ i, lo ≤ i → i < n → ∀ p, a i ≤ p → p < a (i + 1) →
        a i < pi p ∧ pi p ≤ a (i + 1)) ∧
      (∀ p, p < a lo ∨ a n < p → pi p = p))
    lo hi _ s hle ?_ ?_
  · exact ⟨fun p => p, Solver_MB.Moved_refl s hl, rfl, rfl,
      fun i h1 h2 => absurd h1 (by omega), fun _ _ => rfl⟩
  · rintro n u hn1 hn2 ⟨pi, hm, hfu, hpi, hin, hout⟩
    beta_reduce
    rw [hfu, ha n hn1 (by omega), ha (n + 1) (by omega) (by omega)]
    have han : a n ≤ a (n + 1) := hmono n (n + 1) hn1 (by omega) (by omega)
    have hahi : a (n + 1) ≤ a hi := hmono (n + 1) hi (by omega) (by omega) (le_refl _)
    have halo : a lo ≤ a n := hmono lo n (le_refl _) hn1 (by omega)
    have hul : u.l = s.l := hm.l_eq
    have hsw := Solver_MB.Moved_swap u (a n) (a (n + 1)) hm.lens (by omega) (by omega)
    refine ⟨_, Solver_MB.Moved_trans s u _ pi _ hm hsw, by rw [hf, hfu], ?_, ?_, ?_⟩
    · beta_reduce
      have : swap_pos (a n) (a (n + 1)) (a (n + 1)) = a n := by
        unfold swap_pos; split_ifs <;> omega
      rw [this, hpi]
    · intro i hi1 hi2 p hp1 hp2
      by_cases hin' : i < n
      · have hai : a (i + 1) ≤ a n := hmono (i + 1) n (by omega) (by omega) (by omega)
        have : swap_pos (a n) (a (n + 1)) p = p := by
          unfold swap_pos; split_ifs <;> omega
        rw [this]
        exact hin i hi1 hin' p hp1 hp2
      · have hie : i = n := by omega
        subst hie
        by_cases hpn : p = a i
        · have : swap_pos (a i) (a (i + 1)) p = a (i + 1) := by
            unfold swap_pos; split_ifs <;> omega
          rw [this, hout (a (i + 1)) (Or.inr (by omega))]
          omega
        · have : swap_pos (a i) (a (i + 1)) p = p := by
            unfold swap_pos; split_ifs <;> omega
          rw [this, hout p (Or.inr (by omega))]
          omega
    · intro p hp
      have : swap_pos (a n) (a (n + 1)) p = p := by
        unfold swap_pos; split_ifs <;> omega
      rw [this]
      exact hout p (by omega)

theorem for_down_self {σ : Type} (lo : Nat) (body : Nat → σ → σ) (s : σ) :
    for_down lo lo body s = s := by
  unfold for_down
  simp

theorem for_down_succ {σ : Type} (hi lo : Nat) (body : Nat → σ → σ) (s : σ) (h : lo ≤ hi) :
    for_down (hi + 1) lo body s = for_down hi lo body (body (hi + 1) s) := by
  unfold for_down
  have e : hi + 1 - lo = (hi - lo) + 1 := by omega
  rw [e, List.range'_concat, List.reverse_append, List.reverse_singleton, List.singleton_append,
    List.foldl_cons]
  congr 2
  omega

/-- The loop `for (i=hi;i>lo;i--) swap_index(a[i], a[i-1])` over a non-decreasing table
`a`: the record at `a[hi]` travels to `a[lo]`, and every range `[a[i], a[i+1])` moves one
position up, to `(a[i], a[i+1]]`. -/
theorem rotate_down_spec (f : Solver_MB → List Int)
    (hf : ∀ (u : Solver_MB) (i j : Int), f (u.swap_index i j) = f u)
    (a : Nat → Nat) (lo hi : Nat) (hle : lo ≤ hi) :
    ∀ (s : Solver_MB), s.Lens →
    (∀ i, lo ≤ i → i ≤ hi → (f s).getD i 0 = (a i : Int)) →
    (∀ i j, lo ≤ i → i ≤ j → j ≤ hi → a i ≤ a j) → a hi < s.l →
    ∃ pi, Solver_MB.Moved s
        (for_down hi lo
          (fun i u => u.swap_index ((f u).getD i 0) ((f u).getD (i - 1) 0)) s) pi ∧
      f (for_down hi lo
          (fun i u => u.swap_index ((f u).getD i 0) ((f u).getD (i - 1) 0)) s) = f s ∧
      pi (a lo) = a hi ∧
      (∀ i, lo ≤ i → i < hi → ∀ p, a i < p → p ≤ a (i + 1) →
        a i ≤ pi p ∧ pi p < a (i + 1)) ∧
      (∀ p, p < a lo ∨ a hi < p → pi p = p) := by
  induction hi, hle using Nat.le_induction with
  | base =>
    intro s hl ha hmono hlt
    rw [for_down_self]
    exact ⟨fun p => p, Solver_MB.Moved_refl s hl, rfl, rfl,
      fun i h1 h2 => absurd h1 (by omega), fun _ _ => rfl⟩
  | succ n hn ih =>
    intro s hl ha hmono hlt
    rw [for_down_succ _ _ _ _ hn]
    have e1 : (f s).getD (n + 1) 0 = (a (n + 1) : Int) := ha (n + 1) (by omega) (le_refl _)
    have e2 : (f s).getD (n + 1 - 1) 0 = (a n : Int) := by
      rw [Nat.add_sub_cancel]; exact ha n hn (by omega)
    rw [e1, e2]
    have han : a n ≤ a (n + 1) := hmono n (n + 1) hn (by omega) (le_refl _)
    have halo : a lo ≤ a n := hmono lo n (le_refl _) hn (by omega)
    have hsw := Solver_MB.Moved_swap s (a (n + 1)) (a n) hl (by omega) (by omega)
    obtain ⟨pi, hm, hfu, hpi, hin, hout⟩ := ih (s.swap_index (a (n + 1) : Int) (a n : Int))
      hsw.lens
      (by intro i hi1 hi2; rw [hf]; exact ha i hi1 (by omega))
      (fun i j h1 h2 h3 => hmono i j h1 h2 (by omega))
      (by rw [hsw.l_eq]; omega)
    refine ⟨_, Solver_MB.Moved_trans s _ _ _ pi hsw hm, by rw [hfu, hf], ?_, ?_, ?_⟩
    · beta_reduce
      rw [hpi]
      unfold swap_pos; split_ifs <;> omega
    · intro i hi1 hi2 p hp1 hp2
      by_cases hin' : i < n
      · obtain ⟨g1, g2⟩ := hin i hi1 hin' p hp1 hp2
        have hai : a (i + 1) ≤ a n := hmono (i + 1) n (by omega) (by omega) (by omega)
        have : swap_pos (a (n + 1)) (a n) (pi p) = pi p := by
          unfold swap_pos; split_ifs <;> omega
        rw [this]
        exact ⟨g1, g2⟩
      · have hie : i = n := by omega
        subst hie
        rw [hout p (Or.inr hp1)]
        unfold swap_pos; split_ifs <;> omega
    · intro p hp
      rw [hout p (by omega)]
      unfold swap_pos; split_ifs <;> omega

theorem for_loop_set_spec (g : Int → Int) (xs : List Int) (lo hi : Nat) :
    (for_loop lo hi (fun i a => a.set i (g (a.getD i 0))) xs).length = xs.length ∧
    ∀ j, (for_loop lo hi (fun i a => a.set i (g (a.getD i 0))) xs).getD j 0 =
      if lo ≤ j ∧ j < hi ∧ j < xs.length then g (xs.getD j 0) else xs.getD j 0 := by
  by_cases hle : lo ≤ hi
  · refine for_loop_induction
      (fun n (a : List Int) => a.length = xs.length ∧ ∀ j, a.getD j 0 =
        if lo ≤ j ∧ j < n ∧ j < xs.length then g (xs.getD j 0) else xs.getD j 0)
      lo hi _ xs hle ⟨rfl, fun j => ?_⟩ ?_
    · rw [if_neg]; omega
    · rintro i t h1 h2 ⟨hl, hg⟩
      refine ⟨by simp [hl], fun j => ?_⟩
      by_cases hji : j = i
      · subst hji
        by_cases hjl : j < xs.length
        · rw [List.getD_eq_getElem?_getD, List.getElem?_set_self (by omega), hg j,
            if_neg (by omega), if_pos ⟨h1, Nat.lt_succ_self j, hjl⟩]
          rfl
        · rw [List.getD_eq_getElem?_getD, List.getElem?_eq_none (by simp; omega),
            if_neg (by omega), List.getD_eq_getElem?_getD,
            List.getElem?_eq_none (by omega)]
      · rw [List.getD_eq_getElem?_getD, List.getElem?_set_ne (Ne.symm hji),
          ← List.getD_eq_getElem?_getD, hg j]
        by_cases hc : lo ≤ j ∧ j < i ∧ j < xs.length
        · rw [if_pos hc, if_pos ⟨hc.1, by omega, hc.2.2⟩]
        · rw [if_neg hc, if_neg (by omega)]
  · rw [for_loop_of_le _ _ _ _ (by omega)]
    refine ⟨rfl, fun j => ?_⟩
    rw [if_neg]; omega

theorem decrement_spec (xs : List Int) (lo hi : Nat) :
    (decrement xs lo hi).length = xs.length ∧
    ∀ j, (decrement xs lo hi).getD j 0 =
      if lo ≤ j ∧ j < hi ∧ j < xs.length then xs.getD j 0 - 1 else xs.getD j 0 :=
  for_loop_set_spec (fun v => v - 1) xs lo hi

theorem increment_spec (xs : List Int) (lo hi : Nat) :
    (increment xs lo hi).length = xs.length ∧
    ∀ j, (increment xs lo hi).getD j 0 =
      if lo ≤ j ∧ j < hi ∧ j < xs.length then xs.getD j 0 + 1 else xs.getD j 0 :=
  for_loop_set_spec (fun v => v + 1) xs lo hi

/-- Under the partition invariant with `start1[0] = 0`, an active position lies in the
active range of its bucket. -/
theorem Solver_MB.bucket_of_active (s : Solver_MB) (h : s.Partition)
    (h0 : s.start1.getD 0 0 = 0) (k : Nat) (hk : k < s.active_size) :
    ∃ b : Nat, b < s.nr_class * s.nr_class ∧ s.bucket k = (b : Int) ∧
      s.start1.getD b 0 ≤ (k : Int) ∧ (k : Int) < s.start1.getD (b + 1) 0 := by
  have key : ∀ n : Nat, n ≤ s.nr_class * s.nr_class → (k : Int) < s.start1.getD n 0 →
      ∃ b : Nat, b < n ∧ s.start1.getD b 0 ≤ (k : Int) ∧
        (k : Int) < s.start1.getD (b + 1) 0 := by
    intro n
    induction n with
    | zero =>
      intro _ hlt
      rw [h0] at hlt
      omega
    | succ n ih =>
      intro hn hlt
      by_cases hc : (k : Int) < s.start1.getD n 0
      · obtain ⟨b, hb, h1, h2⟩ := ih (by omega) hc
        exact ⟨b, by omega, h1, h2⟩
      · exact ⟨n, by omega, by omega, hlt⟩
  obtain ⟨b, hb, h1, h2⟩ := key (s.nr_class * s.nr_class) (le_refl _)
    (by rw [h.last1]; exact_mod_cast hk)
  exact ⟨b, hb, h.label1 b k hb h1 h2, h1, h2⟩

/-- Under the partition invariant, a shrunk position lies in the shrunk range of its
bucket. -/
theorem Solver_MB.bucket_of_shrunk (s : Solver_MB) (h : s.Partition) (k : Nat)
    (hk1 : s.active_size ≤ k) (hk2 : k < s.l) :
    ∃ b : Nat, b < s.nr_class * s.nr_class ∧ s.bucket k = (b : Int) ∧
      s.start2.getD b 0 ≤ (k : Int) ∧ (k : Int) < s.start2.getD (b + 1) 0 := by
  have key : ∀ n : Nat, n ≤ s.nr_class * s.nr_class → (k : Int) < s.start2.getD n 0 →
      ∃ b : Nat, b < n ∧ s.start2.getD b 0 ≤ (k : Int) ∧
        (k : Int) < s.start2.getD (b + 1) 0 := by
    intro n
    induction n with
    | zero =>
      intro _ hlt
      rw [h.first2] at hlt
      omega
    | succ n ih =>
      intro hn hlt
      by_cases hc : (k : Int) < s.start2.getD n 0
      · obtain ⟨b, hb, h1, h2⟩ := ih (by omega) hc
        exact ⟨b, by omega, h1, h2⟩
      · exact ⟨n, by omega, by omega, hlt⟩
  obtain ⟨b, hb, h1, h2⟩ := key (s.nr_class * s.nr_class) (le_refl _)
    (by rw [h.last2]; exact_mod_cast hk2)
  exact ⟨b, hb, h.label2 b k hb h1 h2, h1, h2⟩

theorem mono_chain (xs : List Int) (t : Nat)
    (h : ∀ b : Nat, b < t → xs.getD b 0 ≤ xs.getD (b + 1) 0) :
    ∀ i j : Nat, i ≤ j → j ≤ t → xs.getD i 0 ≤ xs.getD j 0 := by
  intro i j hij
  induction j, hij using Nat.le_induction with
  | base => intro _; exact le_refl _
  | succ n hn ih =>
    intro hjt
    exact (ih (by omega)).trans (h n (by omega))

/-- The state after the three swap phases of `shrink_one(k)`, for an active `k` of bucket
`b`, relative to the state `s1` with the decremented tables: the records are re-ordered by
a map `pi` that sends the new ranges of the tables into the old ones and the first shrunk
position of bucket `b` to `k`. -/
theorem Solver_MB.shrink_swaps (s1 : Solver_MB) (hl : s1.Lens) (k b t : Nat)
    (a1 a2 : Nat → Nat)
    (h1 : ∀ i, b + 1 ≤ i → i ≤ t → s1.start1.getD i 0 = (a1 i : Int))
    (h2 : ∀ i, i ≤ b → s1.start2.getD i 0 = (a2 i : Int))
    (m1 : ∀ i j, b + 1 ≤ i → i ≤ j → j ≤ t → a1 i ≤ a1 j)
    (m2 : ∀ i j, i ≤ j → j ≤ b → a2 i ≤ a2 j)
    (hbt : b < t) (hke : k ≤ a1 (b + 1)) (hjoin : a1 t = a2 0) (hlt : a2 b < s1.l) :
    ∃ pi, Solver_MB.Moved s1
        (for_loop 0 b
          (fun i u => u.swap_index (u.start2.getD i 0) (u.start2.getD (i + 1) 0))
          (for_loop (b + 1) t
            (fun i u => u.swap_index (u.start1.getD i 0) (u.start1.getD (i + 1) 0))
            (s1.swap_index (k : Int) (s1.start1.getD (b + 1) 0)))) pi ∧
      (∀ p, p < k → pi p = p) ∧
      (∀ p, k ≤ p → p < a1 (b + 1) → pi p = if p = k then a1 (b + 1) else p) ∧
      (∀ i, b + 1 ≤ i → i < t → ∀ p, a1 i ≤ p → p < a1 (i + 1) →
        a1 i < pi p ∧ pi p ≤ a1 (i + 1)) ∧
      (∀ i, i < b → ∀ p, a2 i ≤ p → p < a2 (i + 1) → a2 i < pi p ∧ pi p ≤ a2 (i + 1)) ∧
      pi (a2 b) = k ∧
      (∀ p, a2 b < p → pi p = p) := by
  have hf1 : ∀ (u : Solver_MB) (i j : Int), (u.swap_index i j).start1 = u.start1 := by
    intro u i j; unfold Solver_MB.swap_index; split_ifs <;> rfl
  have hf2 : ∀ (u : Solver_MB) (i j : Int), (u.swap_index i j).start2 = u.start2 := by
    intro u i j; unfold Solver_MB.swap_index; split_ifs <;> rfl
  have ha1t : a1 (b + 1) ≤ a1 t := m1 (b + 1) t (le_refl _) (by omega) (le_refl _)
  have ha2b : a2 0 ≤ a2 b := m2 0 b (Nat.zero_le _) (le_refl _)
  rw [h1 (b + 1) (le_refl _) (by omega)]
  have hsw := Solver_MB.Moved_swap s1 k (a1 (b + 1)) hl (by omega) (by omega)
  obtain ⟨pi2, hm2, hs2, hp2, hin2, hout2⟩ := rotate_up_spec (fun u => u.start1) hf1
    (s1.swap_index (k : Int) (a1 (b + 1) : Int)) a1 (b + 1) t (by omega) hsw.lens
    (by intro i hi1 hi2; beta_reduce; rw [hf1]; exact h1 i hi1 hi2)
    m1 (by rw [hsw.l_eq]; omega)
  obtain ⟨pi3, hm3, hs3, hp3, hin3, hout3⟩ := rotate_up_spec (fun u => u.start2) hf2
    (for_loop (b + 1) t
      (fun i u => u.swap_index (u.start1.getD i 0) (u.start1.getD (i + 1) 0))
      (s1.swap_index (k : Int) (a1 (b + 1) : Int))) a2 0 b (Nat.zero_le _) hm2.lens
    (by
      intro i _ hi2
      beta_reduce
      rw [hm2.start2_eq, hf2]
      exact h2 i hi2)
    (fun i j _ h3 h4 => m2 i j h3 h4) (by rw [hm2.l_eq, hsw.l_eq]; exact hlt)
  have hm := Solver_MB.Moved_trans _ _ _ _ _ (Solver_MB.Moved_trans _ _ _ _ _ hsw hm2) hm3
  refine ⟨_, hm, ?_, ?_, ?_, ?_, ?_, ?_⟩
  · intro p hp
    rw [hout3 p (Or.inl (by omega)), hout2 p (Or.inl (by omega))]
    unfold swap_pos; split_ifs <;> omega
  · intro p hp1 hp2
    rw [hout3 p (Or.inl (by omega)), hout2 p (Or.inl (by omega))]
    unfold swap_pos; split_ifs <;> omega
  · intro i hi1 hi2 p hp1 hp2
    have hai : a1 (i + 1) ≤ a1 t := m1 (i + 1) t (by omega) (by omega) (le_refl _)
    have hbi : a1 (b + 1) ≤ a1 i := m1 (b + 1) i (le_refl _) hi1 (by omega)
    rw [hout3 p (Or.inl (by omega))]
    obtain ⟨g1, g2⟩ := hin2 i hi1 hi2 p hp1 hp2
    have : swap_pos k (a1 (b + 1)) (pi2 p) = pi2 p := by
      unfold swap_pos; split_ifs <;> omega
    rw [this]
    exact ⟨g1, g2⟩
  · intro i hi p hp1 hp2
    obtain ⟨g1, g2⟩ := hin3 i (Nat.zero_le _) hi p hp1 hp2
    have hai : a2 0 ≤ a2 i := m2 0 i (Nat.zero_le _) (by omega)
    rw [hout2 (pi3 p) (Or.inr (by omega))]
    have : swap_pos k (a1 (b + 1)) (pi3 p) = pi3 p := by
      unfold swap_pos; split_ifs <;> omega
    rw [this]
    exact ⟨g1, g2⟩
  · beta_reduce
    rw [hp3, ← hjoin, hp2]
    unfold swap_pos; split_ifs <;> omega
  · intro p hp
    rw [hout3 p (Or.inr hp), hout2 p (Or.inr (by omega))]
    unfold swap_pos; split_ifs <;> omega


theorem Solver_MB.shrink_one_spec (s0 r : Solver_MB) (h : s0.Partition)
    (h0 : s0.start1.getD 0 0 = 0) (k : Nat) (hk : k < s0.active_size)
    (hr : r = Solver_MB.shrink_one { s0 with active_size := s0.active_size - 1 } k) :
    ∃ (b : Nat) (pi : Nat → Nat),
      b < s0.nr_class * s0.nr_class ∧ s0.bucket k = (b : Int) ∧
      r.Partition ∧ r.start1.getD 0 0 = 0 ∧ r.l = s0.l ∧ r.nr_class = s0.nr_class ∧
      r.active_size = s0.active_size - 1 ∧
      r.start1 = decrement s0.start1 (b + 1) (s0.nr_class * s0.nr_class + 1) ∧
      r.start2 = decrement s0.start2 0 (b + 1) ∧
      (∀ p, p < s0.l → pi p < s0.l) ∧
      (∀ p q, p < s0.l → q < s0.l → pi p = pi q → p = q) ∧
      (∀ p, p < s0.l → r.record p = s0.record (pi p)) ∧
      r.start2.getD b 0 = s0.start2.getD b 0 - 1 ∧
      s0.active_size ≤ s0.start2.getD b 0 ∧
      pi (r.start2.getD b 0).toNat = k := by
  obtain ⟨b, hb, hbk, hk1, hk2⟩ := Solver_MB.bucket_of_active s0 h h0 k hk
  have ch1 := mono_chain s0.start1 _ h.mono1
  have ch2 := mono_chain s0.start2 _ h.mono2
  have hAl : (s0.active_size : Int) ≤ s0.l := by
    have := ch2 0 (s0.nr_class * s0.nr_class) (Nat.zero_le _) (le_refl _)
    rw [h.first2, h.last2] at this
    exact this
  have hAl' : s0.active_size ≤ s0.l := by exact_mod_cast hAl
  obtain ⟨d1l, d1⟩ := decrement_spec s0.start1 (b + 1) (s0.nr_class * s0.nr_class + 1)
  obtain ⟨d2l, d2⟩ := decrement_spec s0.start2 0 (b + 1)
  have e1 : ∀ i, b + 1 ≤ i → i ≤ s0.nr_class * s0.nr_class →
      (decrement s0.start1 (b + 1) (s0.nr_class * s0.nr_class + 1)).getD i 0 =
        s0.start1.getD i 0 - 1 := by
    intro i hi1 hi2
    rw [d1 i, if_pos ⟨hi1, by omega, by rw [h.len1]; omega⟩]
  have e1' : ∀ i, i ≤ b →
      (decrement s0.start1 (b + 1) (s0.nr_class * s0.nr_class + 1)).getD i 0 =
        s0.start1.getD i 0 := by
    intro i hi
    rw [d1 i, if_neg (by omega)]
  have e2 : ∀ i, i ≤ b → (decrement s0.start2 0 (b + 1)).getD i 0 = s0.start2.getD i 0 - 1 := by
    intro i hi
    rw [d2 i, if_pos ⟨Nat.zero_le _, by omega, by rw [h.len2]; omega⟩]
  have e2' : ∀ i, b + 1 ≤ i → (decrement s0.start2 0 (b + 1)).getD i 0 = s0.start2.getD i 0 := by
    intro i hi
    rw [d2 i, if_neg (by omega)]
  have hS1b : s0.start1.getD (b + 1) 0 ≤ s0.active_size := by
    have := ch1 (b + 1) (s0.nr_class * s0.nr_class) (by omega) (le_refl _)
    rw [h.last1] at this; exact this
  have hS2b : (s0.active_size : Int) ≤ s0.start2.getD b 0 := by
    have := ch2 0 b (Nat.zero_le _) (by omega)
    rw [h.first2] at this; exact this
  have hS2l : s0.start2.getD b 0 ≤ s0.l := by
    have := ch2 b (s0.nr_class * s0.nr_class) (by omega) (le_refl _)
    rw [h.last2] at this; exact this
  have hbt1 : ((b : Int) + 1).toNat = b + 1 := by omega
  have hbt : (b : Int).toNat = b := by omega
  have hbk' : Solver_MB.bucket { s0 with active_size := s0.active_size - 1 } k = (b : Int) := hbk
  -- the state with the decremented tables
  obtain ⟨s1, hs1⟩ : ∃ s1 : Solver_MB, s1 =
      { s0 with active_size := s0.active_size - 1
                start1 := decrement s0.start1 (b + 1) (s0.nr_class * s0.nr_class + 1)
                start2 := decrement s0.start2 0 (b + 1) } := ⟨_, rfl⟩
  have hl1 : s1.Lens := by rw [hs1]; exact h.lens
  have a1eq : ∀ i, b + 1 ≤ i → i ≤ s0.nr_class * s0.nr_class →
      s1.start1.getD i 0 = (((s0.start1.getD i 0 - 1).toNat : Nat) : Int) := by
    intro i hi1 hi2
    have hc := ch1 (b + 1) i hi1 hi2
    rw [hs1]
    show (decrement s0.start1 (b + 1) (s0.nr_class * s0.nr_class + 1)).getD i 0 = _
    rw [e1 i hi1 hi2]
    omega
  have a2eq : ∀ i, i ≤ b →
      s1.start2.getD i 0 = (((s0.start2.getD i 0 - 1).toNat : Nat) : Int) := by
    intro i hi
    have hc := ch2 0 i (Nat.zero_le _) (by omega)
    rw [h.first2] at hc
    rw [hs1]
    show (decrement s0.start2 0 (b + 1)).getD i 0 = _
    rw [e2 i hi]
    omega
  obtain ⟨pi, hm, p1, p2, p3, p4, p5, p6⟩ := Solver_MB.shrink_swaps s1 hl1 k b
    (s0.nr_class * s0.nr_class)
    (fun i => (s0.start1.getD i 0 - 1).toNat) (fun i => (s0.start2.getD i 0 - 1).toNat)
    a1eq a2eq
    (by
      intro i j hi hij hj
      have := ch1 i j hij hj
      have := ch1 (b + 1) i hi (by omega)
      beta_reduce; omega)
    (by
      intro i j hij hj
      have := ch2 i j hij (by omega)
      beta_reduce; omega)
    hb (by beta_reduce; omega)
    (by beta_reduce; rw [h.last1, h.first2])
    (by
      have : s1.l = s0.l := by rw [hs1]
      beta_reduce; rw [this]; omega)
  have hr' : r = for_loop 0 b
      (fun i u => u.swap_index (u.start2.getD i 0) (u.start2.getD (i + 1) 0))
      (for_loop (b + 1) (s0.nr_class * s0.nr_class)
        (fun i u => u.swap_index (u.start1.getD i 0) (u.start1.getD (i + 1) 0))
        (s1.swap_index (k : Int) (s1.start1.getD (b + 1) 0))) := by
    rw [hr, hs1]
    unfold Solver_MB.shrink_one
    simp only [hbk', hbt1, hbt]
  rw [← hr'] at hm
  have hrl : r.l = s0.l := by rw [hm.l_eq, hs1]
  have hrn : r.nr_class = s0.nr_class := by rw [hm.nr_eq, hs1]
  have hra : r.active_size = s0.active_size - 1 := by rw [hm.act_eq, hs1]
  have hr1 : r.start1 = decrement s0.start1 (b + 1) (s0.nr_class * s0.nr_class + 1) := by
    rw [hm.start1_eq, hs1]
  have hr2 : r.start2 = decrement s0.start2 0 (b + 1) := by rw [hm.start2_eq, hs1]
  have hrec : ∀ p, p < s0.l → r.record p = s0.record (pi p) := by
    intro p hp
    have := hm.records p (by rw [hs1]; exact hp)
    rw [this, hs1]
    rfl
  have hbuck : ∀ p, p < s0.l → r.bucket p = s0.bucket (pi p) :=
    fun p hp => Solver_MB.bucket_eq_of_record s0 r p (pi p) hrn (hrec p hp)
  refine ⟨b, pi, hb, hbk, ?_, ?_, hrl, hrn, hra, hr1, hr2, ?_, ?_, hrec, ?_, hS2b, ?_⟩
  · -- the partition invariant
    refine ⟨hm.lens, by rw [hr1, d1l, hrn]; exact h.len1, by rw [hr2, d2l, hrn]; exact h.len2,
      ?_, ?_, ?_, ?_, ?_, ?_, ?_⟩
    · intro c hc
      rw [hrn] at hc
      rw [hr1]
      have := h.mono1 c hc
      by_cases hcb : c < b
      · rw [e1' c (by omega), e1' (c + 1) (by omega)]; exact this
      · by_cases hcb' : c = b
        · subst hcb'
          rw [e1' c (le_refl _), e1 (c + 1) (le_refl _) (by omega)]
          omega
        · rw [e1 c (by omega) (by omega), e1 (c + 1) (by omega) (by omega)]
          omega
    · intro c hc
      rw [hrn] at hc
      rw [hr2]
      have := h.mono2 c hc
      by_cases hcb : c < b
      · rw [e2 c (by omega), e2 (c + 1) (by omega)]; omega
      · by_cases hcb' : c = b
        · subst hcb'
          rw [e2 c (le_refl _), e2' (c + 1) (le_refl _)]
          omega
        · rw [e2' c (by omega), e2' (c + 1) (by omega)]
          exact this
    · rw [hr1, hrn, e1 _ (by omega) (le_refl _), h.last1, hra]
      omega
    · rw [hr2, e2 0 (Nat.zero_le _), h.first2, hra]
      omega
    · rw [hr2, hrn, e2' _ (by omega), h.last2, hrl]
    · intro c p hc hp1 hp2
      rw [hrn] at hc
      rw [hr1] at hp1 hp2
      have hcA := ch1 (c + 1) (s0.nr_class * s0.nr_class) (by omega) (le_refl _)
      rw [h.last1] at hcA
      by_cases hcb : c < b
      · rw [e1' c (by omega)] at hp1
        rw [e1' (c + 1) (by omega)] at hp2
        have := ch1 (c + 1) b (by omega) (by omega)
        rw [hbuck p (by omega), p1 p (by omega)]
        exact h.label1 c p hc hp1 hp2
      · by_cases hcb' : c = b
        · subst hcb'
          rw [e1' c (le_refl _)] at hp1
          rw [e1 (c + 1) (le_refl _) (by omega)] at hp2
          rw [hbuck p (by omega)]
          by_cases hpk : p < k
          · rw [p1 p hpk]
            exact h.label1 c p hc hp1 (by omega)
          · rw [p2 p (by omega) (by omega)]
            split_ifs
            · exact h.label1 c _ hc (by omega) (by omega)
            · exact h.label1 c p hc hp1 (by omega)
        · rw [e1 c (by omega) (by omega)] at hp1
          rw [e1 (c + 1) (by omega) (by omega)] at hp2
          have hcb1 := ch1 (b + 1) c (by omega) (by omega)
          rw [hbuck p (by omega)]
          obtain ⟨g1, g2⟩ := p3 c (by omega) hc p (by omega) (by omega)
          exact h.label1 c _ hc (by omega) (by omega)
    · intro c p hc hp1 hp2
      rw [hrn] at hc
      rw [hr2] at hp1 hp2
      have hcl := ch2 (c + 1) (s0.nr_class * s0.nr_class) (by omega) (le_refl _)
      rw [h.last2] at hcl
      have hc0 := ch2 0 c (Nat.zero_le _) (by omega)
      rw [h.first2] at hc0
      by_cases hcb : c < b
      · rw [e2 c (by omega)] at hp1
        rw [e2 (c + 1) (by omega)] at hp2
        rw [hbuck p (by omega)]
        obtain ⟨g1, g2⟩ := p4 c hcb p (by omega) (by omega)
        exact h.label2 c _ hc (by omega) (by omega)
      · by_cases hcb' : c = b
        · subst hcb'
          rw [e2 c (le_refl _)] at hp1
          rw [e2' (c + 1) (le_refl _)] at hp2
          rw [hbuck p (by omega)]
          by_cases hpe : (p : Int) = s0.start2.getD c 0 - 1
          · have : p = (s0.start2.getD c 0 - 1).toNat := by omega
            rw [this, p5]
            exact hbk
          · rw [p6 p (by omega)]
            exact h.label2 c p hc (by omega) hp2
        · rw [e2' c (by omega)] at hp1
          rw [e2' (c + 1) (by omega)] at hp2
          have := ch2 b c (by omega) (by omega)
          rw [hbuck p (by omega), p6 p (by omega)]
          exact h.label2 c p hc hp1 hp2
  · rw [hr1, e1' 0 (Nat.zero_le _), h0]
  · intro p hp
    have := hm.maps p (by rw [hs1]; exact hp)
    rw [hs1] at this
    exact this
  · intro p q hp hq hpq
    exact hm.inj p q (by rw [hs1]; exact hp) (by rw [hs1]; exact hq) hpq
  · rw [hr2, e2 b (le_refl _)]
  · rw [hr2, e2 b (le_refl _)]
    exact p5


/-- The state after the three swap phases of `unshrink_one(k)`, for a shrunk `k` of bucket
`b`: the records are re-ordered by a map `pi` that sends the ranges of the incremented
tables into the old ones and the position after the active range of bucket `b` to `k`. -/
theorem Solver_MB.unshrink_swaps (s : Solver_MB) (hl : s.Lens) (k b t : Nat)
    (a1 a2 : Nat → Nat)
    (h1 : ∀ i, b + 1 ≤ i → i ≤ t → s.start1.getD i 0 = (a1 i : Int))
    (h2 : ∀ i, i ≤ b → s.start2.getD i 0 = (a2 i : Int))
    (m1 : ∀ i j, b + 1 ≤ i → i ≤ j → j ≤ t → a1 i ≤ a1 j)
    (m2 : ∀ i j, i ≤ j → j ≤ b → a2 i ≤ a2 j)
    (hbt : b < t) (hke : a2 b ≤ k) (hkl : k < s.l) (hjoin : a1 t = a2 0) :
    ∃ pi, Solver_MB.Moved s
        (for_down t (b + 1)
          (fun i u => u.swap_index (u.start1.getD i 0) (u.start1.getD (i - 1) 0))
          (for_down b 0
            (fun i u => u.swap_index (u.start2.getD i 0) (u.start2.getD (i - 1) 0))
            (s.swap_index (k : Int) (s.start2.getD b 0)))) pi ∧
      (∀ p, p < a1 (b + 1) → pi p = p) ∧
      pi (a1 (b + 1)) = k ∧
      (∀ i, b + 1 ≤ i → i < t → ∀ p, a1 i < p → p ≤ a1 (i + 1) →
        a1 i ≤ pi p ∧ pi p < a1 (i + 1)) ∧
      (∀ i, i < b → ∀ p, a2 i < p → p ≤ a2 (i + 1) → a2 i ≤ pi p ∧ pi p < a2 (i + 1)) ∧
      (∀ p, a2 b < p → pi p = if p = k then a2 b else p) := by
  have hf1 : ∀ (u : Solver_MB) (i j : Int), (u.swap_index i j).start1 = u.start1 := by
    intro u i j; unfold Solver_MB.swap_index; split_ifs <;> rfl
  have hf2 : ∀ (u : Solver_MB) (i j : Int), (u.swap_index i j).start2 = u.start2 := by
    intro u i j; unfold Solver_MB.swap_index; split_ifs <;> rfl
  have ha1t : a1 (b + 1) ≤ a1 t := m1 (b + 1) t (le_refl _) (by omega) (le_refl _)
  have ha2b : a2 0 ≤ a2 b := m2 0 b (Nat.zero_le _) (le_refl _)
  rw [h2 b (le_refl _)]
  have hsw := Solver_MB.Moved_swap s k (a2 b) hl hkl (by omega)
  obtain ⟨pi2, hm2, hs2, hp2, hin2, hout2⟩ := rotate_down_spec (fun u => u.start2) hf2
    a2 0 b (Nat.zero_le _) (s.swap_index (k : Int) (a2 b : Int)) hsw.lens
    (by intro i _ hi2; beta_reduce; rw [hf2]; exact h2 i hi2)
    (fun i j _ h3 h4 => m2 i j h3 h4) (by rw [hsw.l_eq]; omega)
  obtain ⟨pi3, hm3, hs3, hp3, hin3, hout3⟩ := rotate_down_spec (fun u => u.start1) hf1
    a1 (b + 1) t (by omega)
    (for_down b 0
      (fun i u => u.swap_index (u.start2.getD i 0) (u.start2.getD (i - 1) 0))
      (s.swap_index (k : Int) (a2 b : Int))) hm2.lens
    (by
      intro i hi1 hi2
      beta_reduce
      rw [hm2.start1_eq, hf1]
      exact h1 i hi1 hi2)
    m1 (by rw [hm2.l_eq, hsw.l_eq]; omega)
  have hm := Solver_MB.Moved_trans _ _ _ _ _ (Solver_MB.Moved_trans _ _ _ _ _ hsw hm2) hm3
  refine ⟨_, hm, ?_, ?_, ?_, ?_, ?_⟩
  · intro p hp
    rw [hout3 p (Or.inl hp), hout2 p (Or.inl (by omega))]
    unfold swap_pos; split_ifs <;> omega
  · rw [hp3, hjoin, hp2]
    unfold swap_pos; split_ifs <;> omega
  · intro i hi1 hi2 p hp1 hp2
    have hai : a1 (i + 1) ≤ a1 t := m1 (i + 1) t (by omega) (by omega) (le_refl _)
    obtain ⟨g1, g2⟩ := hin3 i hi1 hi2 p hp1 hp2
    rw [hout2 (pi3 p) (Or.inl (by omega))]
    have : swap_pos k (a2 b) (pi3 p) = pi3 p := by
      unfold swap_pos; split_ifs <;> omega
    rw [this]
    exact ⟨g1, g2⟩
  · intro i hi p hp1 hp2
    have hai : a2 0 ≤ a2 i := m2 0 i (Nat.zero_le _) (by omega)
    have hai' : a2 (i + 1) ≤ a2 b := m2 (i + 1) b (by omega) (le_refl _)
    rw [hout3 p (Or.inr (by omega))]
    obtain ⟨g1, g2⟩ := hin2 i (Nat.zero_le _) hi p hp1 hp2
    have : swap_pos k (a2 b) (pi2 p) = pi2 p := by
      unfold swap_pos; split_ifs <;> omega
    rw [this]
    exact ⟨g1, g2⟩
  · intro p hp
    rw [hout3 p (Or.inr (by omega)), hout2 p (Or.inr hp)]
    unfold swap_pos; split_ifs <;> omega

/-- The effect of `unshrink_one(k)` followed by `active_size++` on a state that satisfies
the partition invariant with `start1[0] = 0`, for a shrunk `k`. -/
theorem Solver_MB.unshrink_one_spec (s0 r : Solver_MB) (h : s0.Partition)
    (h0 : s0.start1.getD 0 0 = 0) (k : Nat) (hk1 : s0.active_size ≤ k) (hk2 : k < s0.l)
    (hr : r = { Solver_MB.unshrink_one s0 k with active_size := s0.active_size + 1 }) :
    ∃ (b : Nat) (pi : Nat → Nat),
      b < s0.nr_class * s0.nr_class ∧ s0.bucket k = (b : Int) ∧
      r.Partition ∧ r.start1.getD 0 0 = 0 ∧ r.l = s0.l ∧ r.nr_class = s0.nr_class ∧
      r.active_size = s0.active_size + 1 ∧
      r.start1 = increment s0.start1 (b + 1) (s0.nr_class * s0.nr_class + 1) ∧
      r.start2 = increment s0.start2 0 (b + 1) ∧
      (∀ p, p < s0.l → pi p < s0.l) ∧
      (∀ p q, p < s0.l → q < s0.l → pi p = pi q → p = q) ∧
      (∀ p, p < s0.l → r.record p = s0.record (pi p)) ∧
      pi (s0.start1.getD (b + 1) 0).toNat = k := by
  obtain ⟨b, hb, hbk, hkb1, hkb2⟩ := Solver_MB.bucket_of_shrunk s0 h k hk1 hk2
  have ch1 := mono_chain s0.start1 _ h.mono1
  have ch2 := mono_chain s0.start2 _ h.mono2
  obtain ⟨d1l, d1⟩ := increment_spec s0.start1 (b + 1) (s0.nr_class * s0.nr_class + 1)
  obtain ⟨d2l, d2⟩ := increment_spec s0.start2 0 (b + 1)
  have e1 : ∀ i, b + 1 ≤ i → i ≤ s0.nr_class * s0.nr_class →
      (increment s0.start1 (b + 1) (s0.nr_class * s0.nr_class + 1)).getD i 0 =
        s0.start1.getD i 0 + 1 := by
    intro i hi1 hi2
    rw [d1 i, if_pos ⟨hi1, by omega, by rw [h.len1]; omega⟩]
  have e1' : ∀ i, i ≤ b →
      (increment s0.start1 (b + 1) (s0.nr_class * s0.nr_class + 1)).getD i 0 =
        s0.start1.getD i 0 := by
    intro i hi
    rw [d1 i, if_neg (by omega)]
  have e2 : ∀ i, i ≤ b → (increment s0.start2 0 (b + 1)).getD i 0 = s0.start2.getD i 0 + 1 := by
    intro i hi
    rw [d2 i, if_pos ⟨Nat.zero_le _, by omega, by rw [h.len2]; omega⟩]
  have e2' : ∀ i, b + 1 ≤ i → (increment s0.start2 0 (b + 1)).getD i 0 = s0.start2.getD i 0 := by
    intro i hi
    rw [d2 i, if_neg (by omega)]
  have n1 : ∀ i, i ≤ s0.nr_class * s0.nr_class → 0 ≤ s0.start1.getD i 0 := by
    intro i hi
    have := ch1 0 i (Nat.zero_le _) hi
    rw [h0] at this; exact this
  have n2 : ∀ i, i ≤ s0.nr_class * s0.nr_class → (s0.active_size : Int) ≤ s0.start2.getD i 0 := by
    intro i hi
    have := ch2 0 i (Nat.zero_le _) hi
    rw [h.first2] at this; exact this
  have hbt1 : ((b : Int) + 1).toNat = b + 1 := by omega
  have hbt : (b : Int).toNat = b := by omega
  have a1eq : ∀ i, b + 1 ≤ i → i ≤ s0.nr_class * s0.nr_class →
      s0.start1.getD i 0 = (((s0.start1.getD i 0).toNat : Nat) : Int) := by
    intro i _ hi2
    have := n1 i hi2
    omega
  have a2eq : ∀ i, i ≤ b →
      s0.start2.getD i 0 = (((s0.start2.getD i 0).toNat : Nat) : Int) := by
    intro i hi
    have := n2 i (by omega)
    omega
  obtain ⟨pi, hm, p1, p2, p3, p4, p5⟩ := Solver_MB.unshrink_swaps s0 h.lens k b
    (s0.nr_class * s0.nr_class)
    (fun i => (s0.start1.getD i 0).toNat) (fun i => (s0.start2.getD i 0).toNat)
    a1eq a2eq
    (by
      intro i j hi hij hj
      have := ch1 i j hij hj
      beta_reduce; omega)
    (by
      intro i j hij hj
      have := ch2 i j hij (by omega)
      beta_reduce; omega)
    hb (by beta_reduce; omega) hk2
    (by beta_reduce; rw [h.last1, h.first2])
  obtain ⟨s3, hs3⟩ : ∃ s3 : Solver_MB, s3 = for_down (s0.nr_class * s0.nr_class) (b + 1)
      (fun i u => u.swap_index (u.start1.getD i 0) (u.start1.getD (i - 1) 0))
      (for_down b 0
        (fun i u => u.swap_index (u.start2.getD i 0) (u.start2.getD (i - 1) 0))
        (s0.swap_index (k : Int) (s0.start2.getD b 0))) := ⟨_, rfl⟩
  rw [← hs3] at hm
  have hr' : r = { s3 with start1 := increment s3.start1 (b + 1) (s0.nr_class * s0.nr_class + 1)
                           start2 := increment s3.start2 0 (b + 1)
                           active_size := s0.active_size + 1 } := by
    rw [hr, hs3]
    unfold Solver_MB.unshrink_one
    simp only [hbk, hbt1, hbt]
  have hrl : r.l = s0.l := by rw [hr']; exact hm.l_eq
  have hrn : r.nr_class = s0.nr_class := by rw [hr']; exact hm.nr_eq
  have hra : r.active_size = s0.active_size + 1 := by rw [hr']
  have hr1 : r.start1 = increment s0.start1 (b + 1) (s0.nr_class * s0.nr_class + 1) := by
    rw [hr']; show increment s3.start1 _ _ = _; rw [hm.start1_eq]
  have hr2 : r.start2 = increment s0.start2 0 (b + 1) := by
    rw [hr']; show increment s3.start2 _ _ = _; rw [hm.start2_eq]
  have hrec : ∀ p, p < s0.l → r.record p = s0.record (pi p) := by
    intro p hp
    rw [← hm.records p hp, hr']
    rfl
  have hbuck : ∀ p, p < s0.l → r.bucket p = s0.bucket (pi p) :=
    fun p hp => Solver_MB.bucket_eq_of_record s0 r p (pi p) hrn (hrec p hp)
  have hS1A : ∀ i, i ≤ s0.nr_class * s0.nr_class → s0.start1.getD i 0 ≤ s0.active_size := by
    intro i hi
    have := ch1 i (s0.nr_class * s0.nr_class) hi (le_refl _)
    rw [h.last1] at this; exact this
  have hS2l : ∀ i, i ≤ s0.nr_class * s0.nr_class → s0.start2.getD i 0 ≤ s0.l := by
    intro i hi
    have := ch2 i (s0.nr_class * s0.nr_class) hi (le_refl _)
    rw [h.last2] at this; exact this
  refine ⟨b, pi, hb, hbk, ?_, ?_, hrl, hrn, hra, hr1, hr2, hm.maps, hm.inj, hrec, ?_⟩
  · have hlens : r.Lens := by rw [hr']; exact hm.lens
    refine ⟨hlens, by rw [hr1, d1l, hrn]; exact h.len1, by rw [hr2, d2l, hrn]; exact h.len2,
      ?_, ?_, ?_, ?_, ?_, ?_, ?_⟩
    · intro c hc
      rw [hrn] at hc
      rw [hr1]
      have := h.mono1 c hc
      by_cases hcb : c < b
      · rw [e1' c (by omega), e1' (c + 1) (by omega)]; exact this
      · by_cases hcb' : c = b
        · subst hcb'
          rw [e1' c (le_refl _), e1 (c + 1) (le_refl _) (by omega)]
          omega
        · rw [e1 c (by omega) (by omega), e1 (c + 1) (by omega) (by omega)]
          omega
    · intro c hc
      rw [hrn] at hc
      rw [hr2]
      have := h.mono2 c hc
      by_cases hcb : c < b
      · rw [e2 c (by omega), e2 (c + 1) (by omega)]; omega
      · by_cases hcb' : c = b
        · subst hcb'
          rw [e2 c (le_refl _), e2' (c + 1) (le_refl _)]
          omega
        · rw [e2' c (by omega), e2' (c + 1) (by omega)]
          exact this
    · rw [hr1, hrn, e1 _ (by omega) (le_refl _), h.last1, hra]
      push_cast; rfl
    · rw [hr2, e2 0 (Nat.zero_le _), h.first2, hra]
      push_cast; rfl
    · rw [hr2, hrn, e2' _ (by omega), h.last2, hrl]
    · intro c p hc hp1 hp2
      rw [hrn] at hc
      rw [hr1] at hp1 hp2
      have hcA := hS1A (c + 1) (by omega)
      have hcA' := hS1A (b + 1) (by omega)
      have hc0 := n1 c (by omega)
      by_cases hcb : c < b
      · rw [e1' c (by omega)] at hp1
        rw [e1' (c + 1) (by omega)] at hp2
        have := ch1 (c + 1) (b + 1) (by omega) (by omega)
        rw [hbuck p (by omega), p1 p (by omega)]
        exact h.label1 c p hc hp1 hp2
      · by_cases hcb' : c = b
        · subst hcb'
          rw [e1' c (le_refl _)] at hp1
          rw [e1 (c + 1) (le_refl _) (by omega)] at hp2
          rw [hbuck p (by omega)]
          by_cases hpk : (p : Int) < s0.start1.getD (c + 1) 0
          · rw [p1 p (by omega)]
            exact h.label1 c p hc hp1 hpk
          · have : p = (s0.start1.getD (c + 1) 0).toNat := by omega
            rw [this, p2]
            exact hbk
        · rw [e1 c (by omega) (by omega)] at hp1
          rw [e1 (c + 1) (by omega) (by omega)] at hp2
          rw [hbuck p (by omega)]
          obtain ⟨g1, g2⟩ := p3 c (by omega) hc p (by omega) (by omega)
          exact h.label1 c _ hc (by omega) (by omega)
    · intro c p hc hp1 hp2
      rw [hrn] at hc
      rw [hr2] at hp1 hp2
      have hcl := hS2l (c + 1) (by omega)
      have hc0 := n2 c (by omega)
      have hb0 := n2 b (by omega)
      by_cases hcb : c < b
      · rw [e2 c (by omega)] at hp1
        rw [e2 (c + 1) (by omega)] at hp2
        have := ch2 (c + 1) b (by omega) (by omega)
        rw [hbuck p (by omega)]
        obtain ⟨g1, g2⟩ := p4 c hcb p (by omega) (by omega)
        exact h.label2 c _ hc (by omega) (by omega)
      · by_cases hcb' : c = b
        · subst hcb'
          rw [e2 c (le_refl _)] at hp1
          rw [e2' (c + 1) (le_refl _)] at hp2
          rw [hbuck p (by omega), p5 p (by omega)]
          split_ifs
          · exact h.label2 c _ hc (by omega) (by omega)
          · exact h.label2 c p hc (by omega) hp2
        · rw [e2' c (by omega)] at hp1
          rw [e2' (c + 1) (by omega)] at hp2
          have := ch2 (b + 1) c (by omega) (by omega)
          rw [hbuck p (by omega), p5 p (by omega), if_neg (by omega)]
          exact h.label2 c p hc hp1 hp2
  · rw [hr1, e1' 0 (Nat.zero_le _), h0]
  · exact p2


/-- The bucket counts after the tables of bucket `b` moved one variable from the active to
the shrunk side. -/
theorem Solver_MB.counts_decrement (s r : Solver_MB) (b : Nat)
    (len1 : s.start1.length = s.nr_class * s.nr_class + 1)
    (len2 : s.start2.length = s.nr_class * s.nr_class + 1)
    (hb : b < s.nr_class * s.nr_class)
    (h1 : r.start1 = decrement s.start1 (b + 1) (s.nr_class * s.nr_class + 1))
    (h2 : r.start2 = decrement s.start2 0 (b + 1)) :
    Solver_MB.Counts s r b (-1) := by
  obtain ⟨_, d1⟩ := decrement_spec s.start1 (b + 1) (s.nr_class * s.nr_class + 1)
  obtain ⟨_, d2⟩ := decrement_spec s.start2 0 (b + 1)
  unfold Solver_MB.Counts Solver_MB.active_count Solver_MB.shrunk_count
  rw [h1, h2]
  refine ⟨?_, ?_, ?_⟩
  · rw [d1 (b + 1), d1 b, if_pos ⟨le_refl _, by omega, by omega⟩, if_neg (by omega)]
    omega
  · rw [d2 (b + 1), d2 b, if_neg (by omega), if_pos ⟨Nat.zero_le _, by omega, by omega⟩]
    omega
  · intro c hc hcb
    rw [d1 (c + 1), d1 c, d2 (c + 1), d2 c]
    by_cases hlt : c < b
    · rw [if_neg (by omega), if_neg (by omega), if_pos ⟨Nat.zero_le _, by omega, by omega⟩,
        if_pos ⟨Nat.zero_le _, by omega, by omega⟩]
      omega
    · rw [if_pos ⟨by omega, by omega, by omega⟩, if_pos ⟨by omega, by omega, by omega⟩,
        if_neg (by omega), if_neg (by omega)]
      omega

/-- The bucket counts after the tables of bucket `b` moved one variable from the shrunk to
the active side. -/
theorem Solver_MB.counts_increment (s r : Solver_MB) (b : Nat)
    (len1 : s.start1.length = s.nr_class * s.nr_class + 1)
    (len2 : s.start2.length = s.nr_class * s.nr_class + 1)
    (hb : b < s.nr_class * s.nr_class)
    (h1 : r.start1 = increment s.start1 (b + 1) (s.nr_class * s.nr_class + 1))
    (h2 : r.start2 = increment s.start2 0 (b + 1)) :
    Solver_MB.Counts s r b 1 := by
  obtain ⟨_, d1⟩ := increment_spec s.start1 (b + 1) (s.nr_class * s.nr_class + 1)
  obtain ⟨_, d2⟩ := increment_spec s.start2 0 (b + 1)
  unfold Solver_MB.Counts Solver_MB.active_count Solver_MB.shrunk_count
  rw [h1, h2]
  refine ⟨?_, ?_, ?_⟩
  · rw [d1 (b + 1), d1 b, if_pos ⟨le_refl _, by omega, by omega⟩, if_neg (by omega)]
    omega
  · rw [d2 (b + 1), d2 b, if_neg (by omega), if_pos ⟨Nat.zero_le _, by omega, by omega⟩]
    omega
  · intro c hc hcb
    rw [d1 (c + 1), d1 c, d2 (c + 1), d2 c]
    by_cases hlt : c < b
    · rw [if_neg (by omega), if_neg (by omega), if_pos ⟨Nat.zero_le _, by omega, by omega⟩,
        if_pos ⟨Nat.zero_le _, by omega, by omega⟩]
      omega
    · rw [if_pos ⟨by omega, by omega, by omega⟩, if_pos ⟨by omega, by omega, by omega⟩,
        if_neg (by omega), if_neg (by omega)]
      omega

/-- The state `mb_stray` satisfies the partition invariant. -/
theorem mb_stray_partition : mb_stray.Partition := by
  refine ⟨by simp [Solver_MB.Lens, mb_stray], rfl, rfl, by decide, by decide, rfl, rfl, rfl,
    ?_, ?_⟩
  · intro b p hb h1 h2
    have hb' : b < 4 := hb
    interval_cases b <;> simp [mb_stray] at h1 h2 <;> first | omega | skip
    have : p = 1 := by omega
    subst this
    decide
  · intro b p hb h1 h2
    have hb' : b < 4 := hb
    interval_cases b <;> simp [mb_stray] at h1 h2 <;> omega

/-- The state `mb_sample` satisfies the partition invariant. -/
theorem mb_sample_partition : mb_sample.Partition := by
  refine ⟨by simp [Solver_MB.Lens, mb_sample], rfl, rfl, by decide, by decide, rfl, rfl, rfl,
    ?_, ?_⟩
  · intro b p hb h1 h2
    have hb' : b < 4 := hb
    interval_cases b <;> simp [mb_sample] at h1 h2 <;> first | omega | skip
    · have : p = 0 := by omega
      subst this
      decide
    · have : p = 1 := by omega
      subst this
      decide
  · intro b p hb h1 h2
    have hb' : b < 4 := hb
    interval_cases b <;> simp [mb_sample] at h1 h2 <;> first | omega | skip
    have : p = 2 := by omega
    subst this
    decide


/-- A quantity that no step of the body changes is unchanged by a fold of the body. -/
theorem foldl_preserves {σ α : Type} (f : σ → α) (body : Nat → σ → σ)
    (hbody : ∀ i u, f (body i u) = f u) (xs : List Nat) (s : σ) :
    f (xs.foldl (fun t i => body i t) s) = f s := by
  induction xs generalizing s with
  | nil => rfl
  | cons x xs ih => rw [List.foldl_cons, ih, hbody]

/-- A map that commutes with every step of the body commutes with a fold of the body. -/
theorem foldl_commutes {σ : Type} (g : σ → σ) (body : Nat → σ → σ)
    (hbody : ∀ i u, body i (g u) = g (body i u)) (xs : List Nat) (s : σ) :
    xs.foldl (fun t i => body i t) (g s) = g (xs.foldl (fun t i => body i t) s) := by
  induction xs generalizing s with
  | nil => rfl
  | cons x xs ih => rw [List.foldl_cons, List.foldl_cons, hbody, ih]

/-- `swap_index` commutes with an assignment to `active_size`. -/
theorem Solver_MB.swap_index_active (s : Solver_MB) (a : Nat) (i j : Int) :
    Solver_MB.swap_index { s with active_size := a } i j =
      { s.swap_index i j with active_size := a } := by
  unfold Solver_MB.swap_index
  split_ifs <;> rfl

/-- The swap phases of `shrink_one` commute with an assignment to `active_size`. -/
theorem Solver_MB.shrink_swaps_active (s : Solver_MB) (a k b c t : Nat) :
    for_loop 0 c (fun i u => u.swap_index (u.start2.getD i 0) (u.start2.getD (i + 1) 0))
      (for_loop b t
        (fun i u => u.swap_index (u.start1.getD i 0) (u.start1.getD (i + 1) 0))
        (Solver_MB.swap_index { s with active_size := a } (k : Int)
          (s.start1.getD b 0))) =
    { for_loop 0 c (fun i u => u.swap_index (u.start2.getD i 0) (u.start2.getD (i + 1) 0))
      (for_loop b t
        (fun i u => u.swap_index (u.start1.getD i 0) (u.start1.getD (i + 1) 0))
        (s.swap_index (k : Int) (s.start1.getD b 0))) with active_size := a } := by
  unfold for_loop
  rw [Solver_MB.swap_index_active,
    foldl_commutes (fun u : Solver_MB => { u with active_size := a }),
    foldl_commutes (fun u : Solver_MB => { u with active_size := a })]
  · intro i u; exact Solver_MB.swap_index_active u a _ _
  · intro i u; exact Solver_MB.swap_index_active u a _ _

/-- `shrink_one` commutes with an assignment to `active_size`. -/
theorem Solver_MB.shrink_one_active (s : Solver_MB) (a k : Nat) :
    Solver_MB.shrink_one { s with active_size := a } k =
      { s.shrink_one k with active_size := a } :=
  Solver_MB.shrink_swaps_active
    { s with start1 := decrement s.start1 (s.bucket k + 1).toNat (s.nr_class * s.nr_class + 1)
             start2 := decrement s.start2 0 (s.bucket k + 1).toNat }
    a k (s.bucket k + 1).toNat (s.bucket k).toNat (s.nr_class * s.nr_class)

/-- `unshrink_one` commutes with an assignment to `active_size`. -/
theorem Solver_MB.unshrink_one_active (s : Solver_MB) (a k : Nat) :
    Solver_MB.unshrink_one { s with active_size := a } k =
      { s.unshrink_one k with active_size := a } := by
  unfold Solver_MB.unshrink_one for_down
  simp only []
  have e : Solver_MB.bucket { s with active_size := a } k = s.bucket k := rfl
  rw [e, Solver_MB.swap_index_active,
    foldl_commutes (fun u : Solver_MB => { u with active_size := a }),
    foldl_commutes (fun u : Solver_MB => { u with active_size := a })]
  · intro i u; exact Solver_MB.swap_index_active u a _ _
  · intro i u; exact Solver_MB.swap_index_active u a _ _

/-- `shrink_one` does not change `active_size`. -/
theorem Solver_MB.shrink_one_active_size (s : Solver_MB) (k : Nat) :
    (s.shrink_one k).active_size = s.active_size := by
  have := congrArg Solver_MB.active_size (Solver_MB.shrink_one_active s s.active_size k)
  exact this

/-- `unshrink_one` does not change `active_size`. -/
theorem Solver_MB.unshrink_one_active_size (s : Solver_MB) (k : Nat) :
    (s.unshrink_one k).active_size = s.active_size := by
  have := congrArg Solver_MB.active_size (Solver_MB.unshrink_one_active s s.active_size k)
  exact this


/-- Two lists of integers of the same length with the same entries are equal. -/
theorem list_eq_of_getD (xs ys : List Int) (hl : xs.length = ys.length)
    (h : ∀ j, xs.getD j 0 = ys.getD j 0) : xs = ys := by
  apply List.ext_getElem hl
  intro n h1 h2
  have := h n
  rw [List.getD_eq_getElem _ _ h1, List.getD_eq_getElem _ _ h2] at this
  exact this

/-- Incrementing the entries that were decremented restores the table. -/
theorem increment_decrement (xs : List Int) (lo hi : Nat) :
    increment (decrement xs lo hi) lo hi = xs := by
  obtain ⟨l1, d1⟩ := decrement_spec xs lo hi
  obtain ⟨l2, d2⟩ := increment_spec (decrement xs lo hi) lo hi
  apply list_eq_of_getD _ _ (by rw [l2, l1])
  intro j
  rw [d2 j, d1 j, l1]
  split_ifs <;> omega

/-- A list of records re-ordered by an injective map of the positions below `n` into
themselves is a permutation of the list. -/
theorem perm_of_injective {β : Type} (f : Nat → β) (pi : Nat → Nat) (n : Nat)
    (hmaps : ∀ p, p < n → pi p < n)
    (hinj : ∀ p q, p < n → q < n → pi p = pi q → p = q) :
    ((List.range n).map (fun p => f (pi p))).Perm ((List.range n).map f) := by
  have hnd : ((List.range n).map pi).Nodup := by
    apply List.Nodup.map_on _ (List.nodup_range n)
    intro p hp q hq hpq
    exact hinj p q (List.mem_range.mp hp) (List.mem_range.mp hq) hpq
  have hsub : ((List.range n).map pi) ⊆ List.range n := by
    intro x hx
    obtain ⟨p, hp, rfl⟩ := List.mem_map.mp hx
    exact List.mem_range.mpr (hmaps p (List.mem_range.mp hp))
  have hperm : ((List.range n).map pi).Perm (List.range n) :=
    (hnd.subperm hsub).perm_of_length_le (by simp)
  have := hperm.map f
  rw [List.map_map] at this
  exact this


/-- The round trip of an active `k` in a state that satisfies the partition invariant with
`start1[0] = 0`: the tables and sizes are restored, the invariant holds, and the records
are those of the start re-ordered by an injective map. -/
theorem Solver_MB.round_trip_spec (s : Solver_MB) (h : s.Partition)
    (h0 : s.start1.getD 0 0 = 0) (k : Nat) (hk : k < s.active_size) :
    (s.round_trip k).Partition ∧ (s.round_trip k).start1 = s.start1 ∧
      (s.round_trip k).start2 = s.start2 ∧ (s.round_trip k).l = s.l ∧
      (s.round_trip k).active_size = s.active_size ∧
      ∃ pi : Nat → Nat, (∀ p, p < s.l → pi p < s.l) ∧
        (∀ p q, p < s.l → q < s.l → pi p = pi q → p = q) ∧
        (∀ p, p < s.l → (s.round_trip k).record p = s.record (pi p)) := by
  obtain ⟨b, pi1, hb, hbk, hP1, h01, hl1, hn1, ha1, ht1, ht2, m1, i1, r1, hs2, hA, hland⟩ :=
    Solver_MB.shrink_one_spec s _ h h0 k hk rfl
  have ch2 := mono_chain s.start2 _ h.mono2
  have hS2l : s.start2.getD b 0 ≤ s.l := by
    have := ch2 b (s.nr_class * s.nr_class) (by omega) (le_refl _)
    rw [h.last2] at this; exact this
  obtain ⟨s1, hs1⟩ : ∃ s1 : Solver_MB,
      s1 = Solver_MB.shrink_one { s with active_size := s.active_size - 1 } k := ⟨_, rfl⟩
  rw [← hs1] at hP1 h01 hl1 hn1 ha1 ht1 ht2 r1 hs2 hland
  have hs1' : s1 = { s.shrink_one k with active_size := s.active_size - 1 } := by
    rw [hs1, Solver_MB.shrink_one_active]
  obtain ⟨p, hp⟩ : ∃ p : Nat, p = (s1.start2.getD b 0).toNat := ⟨_, rfl⟩
  rw [← hp] at hland
  have hp1 : s1.active_size ≤ p := by rw [ha1, hp, hs2]; omega
  have hp2 : p < s1.l := by rw [hl1, hp, hs2]; omega
  obtain ⟨c, pi2, hc, hck, hP2, h02, hl2, hn2, ha2, hu1, hu2, m2, i2, r2, _⟩ :=
    Solver_MB.unshrink_one_spec s1 _ hP1 h01 p hp1 hp2 rfl
  have hcb : c = b := by
    have e := Solver_MB.bucket_eq_of_record s s1 p (pi1 p) hn1 (r1 p (by rw [← hl1]; exact hp2))
    rw [hland, hbk, hck] at e
    exact_mod_cast e
  subst hcb
  have hbt : (c : Int).toNat = c := by omega
  have hround : ({ Solver_MB.unshrink_one s1 p with active_size := s1.active_size + 1 } :
      Solver_MB) = s.round_trip k := by
    have e1 : Solver_MB.unshrink_one s1 p =
        { Solver_MB.unshrink_one (s.shrink_one k) p with active_size := s.active_size - 1 } := by
      rw [hs1', Solver_MB.unshrink_one_active]
    have e2 : s.round_trip k = Solver_MB.unshrink_one (s.shrink_one k) p := by
      unfold Solver_MB.round_trip
      simp only [hbk, hbt]
      rw [hp, hs1']
    have e3 : (Solver_MB.unshrink_one (s.shrink_one k) p).active_size = s.active_size := by
      rw [Solver_MB.unshrink_one_active_size, Solver_MB.shrink_one_active_size]
    rw [e2, e1, ha1]
    have e4 : s.active_size - 1 + 1 = (Solver_MB.unshrink_one (s.shrink_one k) p).active_size := by
      rw [e3]; omega
    simp only [e4]
  rw [hround] at hP2 hl2 ha2 hu1 hu2 r2
  refine ⟨hP2, ?_, ?_, by rw [hl2, hl1], by rw [ha2, ha1]; omega, ?_⟩
  · rw [hu1, ht1, hn1, increment_decrement]
  · rw [hu2, ht2, increment_decrement]
  · refine ⟨fun p => pi1 (pi2 p), ?_, ?_, ?_⟩
    · intro q hq
      exact m1 _ (by rw [← hl1]; exact m2 q (by rw [hl1]; exact hq))
    · intro q q' hq hq' e
      have hq1 : q < s1.l := by rw [hl1]; exact hq
      have hq1' : q' < s1.l := by rw [hl1]; exact hq'
      have := i1 _ _ (by rw [← hl1]; exact m2 q hq1) (by rw [← hl1]; exact m2 q' hq1') e
      exact i2 q q' hq1 hq1' this
    · intro q hq
      have hq1 : q < s1.l := by rw [hl1]; exact hq
      rw [r2 q hq1, r1 _ (by rw [← hl1]; exact m2 q hq1)]


/-- The state `mb_stray_pair` satisfies the partition invariant. -/
theorem mb_stray_pair_partition : mb_stray_pair.Partition := by
  refine ⟨by simp [Solver_MB.Lens, mb_stray_pair], rfl, rfl, by decide, by decide, rfl, rfl,
    rfl, ?_, ?_⟩
  · intro b p hb h1 h2
    have hb' : b < 4 := hb
    interval_cases b <;> simp [mb_stray_pair] at h1 h2 <;> first | omega | skip
    have : p = 1 := by omega
    subst this
    decide
  · intro b p hb h1 h2
    have hb' : b < 4 := hb
    interval_cases b <;> simp [mb_stray_pair] at h1 h2 <;> omega

/-- The state `mb_three` satisfies the partition invariant. -/
theorem mb_three_partition : mb_three.Partition := by
  refine ⟨by simp [Solver_MB.Lens, mb_three], rfl, rfl, by decide, by decide, rfl, rfl,
    rfl, ?_, ?_⟩
  · intro b p hb h1 h2
    have hb' : b < 9 := hb
    have hp : p < 6 := by
      interval_cases b <;> simp [mb_three] at h1 h2 <;> omega
    interval_cases b <;> interval_cases p <;> first | decide | (simp [mb_three] at h1 h2)
  · intro b p hb h1 h2
    have hb' : b < 9 := hb
    interval_cases b <;> simp [mb_three] at h1 h2 <;> omega



theorem class_offset_zero (count : List Nat) : class_offset count 0 = 0 := by
  simp [class_offset]

theorem class_offset_succ (count : List Nat) (j : Nat) (hj : j < count.length) :
    class_offset count (j + 1) = class_offset count j + ((count.getD j 0 : Nat) : Int) := by
  unfold class_offset
  rw [List.take_succ, List.getD_eq_getElem _ _ hj, List.getElem?_eq_getElem hj,
    List.sum_append]
  simp only [Option.toList, List.sum_cons, List.sum_nil, Nat.add_zero]
  push_cast
  rfl

theorem class_offset_all (count : List Nat) (j : Nat) (hj : count.length ≤ j) :
    class_offset count j = ((count.sum : Nat) : Int) := by
  unfold class_offset
  rw [List.take_of_length_le hj]

theorem class_offset_step (count : List Nat) (j : Nat) :
    class_offset count j ≤ class_offset count (j + 1) := by
  by_cases hj : j < count.length
  · rw [class_offset_succ count j hj]; omega
  · rw [class_offset_all count j (by omega), class_offset_all count (j + 1) (by omega)]

theorem class_offset_mono (count : List Nat) (j k : Nat) (h : j ≤ k) :
    class_offset count j ≤ class_offset count k := by
  induction k, h using Nat.le_induction with
  | base => exact le_refl _
  | succ n _ ih => exact ih.trans (class_offset_step count n)

theorem class_offset_nonneg (count : List Nat) (j : Nat) : 0 ≤ class_offset count j := by
  unfold class_offset; omega

theorem bucket_start_zero (count : List Nat) (i : Nat) :
    bucket_start count i 0 =
      (i : Int) * ((count.sum : Nat) : Int) - class_offset count i := by
  unfold bucket_start
  rw [class_offset_zero, if_neg (by omega)]
  omega

theorem bucket_start_succ (count : List Nat) (i j : Nat) (hj : j < count.length) :
    bucket_start count i (j + 1) =
      bucket_start count i j + (if i ≠ j then ((count.getD j 0 : Nat) : Int) else 0) := by
  unfold bucket_start
  rw [class_offset_succ count j hj]
  by_cases h1 : i < j
  · rw [if_pos h1, if_pos (by omega), if_pos (by omega)]; omega
  · by_cases h2 : i = j
    · subst h2
      rw [if_pos (by omega), if_neg (by omega), if_neg (by omega)]; omega
    · rw [if_neg (by omega), if_neg (by omega), if_pos h2]; omega

theorem bucket_start_row (count : List Nat) (i : Nat) (hi : i < count.length) :
    bucket_start count i count.length = bucket_start count (i + 1) 0 := by
  rw [bucket_start_zero]
  unfold bucket_start
  rw [if_pos hi, class_offset_all count _ (le_refl _), class_offset_succ count i hi]
  push_cast
  ring

theorem bucket_start_last (count : List Nat) :
    bucket_start count count.length 0 =
      ((count.length : Int) - 1) * ((count.sum : Nat) : Int) := by
  rw [bucket_start_zero, class_offset_all count _ (le_refl _)]
  ring

theorem bucket_start_first (count : List Nat) : bucket_start count 0 0 = 0 := by
  rw [bucket_start_zero, class_offset_zero]
  simp

theorem bucket_start_step (count : List Nat) (i j : Nat) (hj : j < count.length) :
    bucket_start count i j ≤ bucket_start count i (j + 1) := by
  rw [bucket_start_succ count i j hj]
  split_ifs <;> omega

theorem bucket_start_mono (count : List Nat) (i j k : Nat) (h : j ≤ k)
    (hk : k ≤ count.length) : bucket_start count i j ≤ bucket_start count i k := by
  induction k, h using Nat.le_induction with
  | base => exact le_refl _
  | succ n hn ih =>
    exact (ih (by omega)).trans (bucket_start_step count i n (by omega))

theorem bucket_start_rows (count : List Nat) (i k : Nat) (h : i ≤ k)
    (hk : k ≤ count.length) : bucket_start count i 0 ≤ bucket_start count k 0 := by
  induction k, h using Nat.le_induction with
  | base => exact le_refl _
  | succ n hn ih =>
    refine (ih (by omega)).trans ?_
    rw [← bucket_start_row count n (by omega)]
    exact bucket_start_mono count n 0 _ (Nat.zero_le _) (le_refl _)

/-- The end of every bucket lies at or below `l = (nr_class - 1) * sum(count)`. -/
theorem bucket_start_le (count : List Nat) (i j : Nat) (hi : i < count.length)
    (hj : j ≤ count.length) :
    bucket_start count i j ≤ ((count.length : Int) - 1) * ((count.sum : Nat) : Int) := by
  rw [← bucket_start_last]
  refine (bucket_start_mono count i j _ hj (le_refl _)).trans ?_
  rw [bucket_start_row count i hi]
  exact bucket_start_rows count (i + 1) _ (by omega) (le_refl _)

theorem bucket_start_nonneg (count : List Nat) (i j : Nat) (hi : i ≤ count.length)
    (hj : j ≤ count.length) : 0 ≤ bucket_start count i j := by
  rw [← bucket_start_first count]
  exact (bucket_start_rows count 0 i (Nat.zero_le _) hi).trans
    (bucket_start_mono count i 0 j (Nat.zero_le _) hj)


/-- One step of the innermost loop of `initial_index_table`. -/
theorem Solver_MB.fill_step_spec (count : List Nat) (nr l i j : Nat)
    (hlen : count.length = nr) (hl : (l : Int) = ((nr : Int) - 1) * ((count.sum : Nat) : Int))
    (hi : i < nr) (hj : j < nr) (hij : i ≠ j) (k p q : Nat) (v : Solver_MB)
    (hk : k < count.getD j 0)
    (hv : Solver_MB.TableInv count nr l i (j + 1) p v)
    (hp : (p : Int) = bucket_start count i j + k) (hq : (q : Int) = class_offset count j + k) :
    Solver_MB.TableInv count nr l i (j + 1) (p + 1) (Solver_MB.fill_step i (p, q, v)).2.2 := by
  have hpl : p < l := by
    have h1 := bucket_start_succ count i j (by omega)
    rw [if_pos hij] at h1
    have h2 := bucket_start_le count i (j + 1) (by omega) (by omega)
    rw [hlen, ← hl] at h2
    omega
  unfold Solver_MB.fill_step
  refine ⟨hv.nr_eq, hv.l_eq, hv.len1, hv.len2, ?_, ?_, ?_, hv.tabs, ?_⟩
  · simp only [List.length_set]; exact hv.len_yy
  · simp only [List.length_set]; exact hv.len_real_i
  · simp only [List.length_set]; exact hv.len_active_set
  · intro pos hpos
    by_cases hpp : pos = p
    · subst hpp
      refine ⟨?_, i, j, k, hi, hj, hij, hk, hp, ?_, ?_⟩
      · simp only []
        rw [List.getElem?_set_self (by rw [hv.len_active_set]; exact hpl)]
      · simp only []
        rw [List.getElem?_set_self (by rw [hv.len_yy]; exact hpl)]
      · simp only []
        rw [List.getElem?_set_self (by rw [hv.len_real_i]; exact hpl), hq]
    · obtain ⟨h1, i2, j2, k2, g1, g2, g3, g4, g5, g6, g7⟩ := hv.filled pos (by omega)
      refine ⟨?_, i2, j2, k2, g1, g2, g3, g4, g5, ?_, ?_⟩
      · simp only []
        rw [List.getElem?_set_ne (fun e => hpp e.symm)]; exact h1
      · simp only []
        rw [List.getElem?_set_ne (fun e => hpp e.symm)]; exact g6
      · simp only []
        rw [List.getElem?_set_ne (fun e => hpp e.symm)]; exact g7

/-- The innermost loop of `initial_index_table` fills the bucket `(i, j)`. -/
theorem Solver_MB.fill_loop_spec (count : List Nat) (nr l i j : Nat)
    (hlen : count.length = nr) (hl : (l : Int) = ((nr : Int) - 1) * ((count.sum : Nat) : Int))
    (hi : i < nr) (hj : j < nr) (hij : i ≠ j) (p q : Nat) (v : Solver_MB)
    (hv : Solver_MB.TableInv count nr l i (j + 1) p v)
    (hp : (p : Int) = bucket_start count i j) (hq : (q : Int) = class_offset count j) :
    Solver_MB.TableInv count nr l i (j + 1) (p + count.getD j 0)
        (for_loop 0 (count.getD j 0) (fun _ u => Solver_MB.fill_step i u) (p, q, v)).2.2 ∧
      (for_loop 0 (count.getD j 0) (fun _ u => Solver_MB.fill_step i u) (p, q, v)).1 =
        p + count.getD j 0 ∧
      (for_loop 0 (count.getD j 0) (fun _ u => Solver_MB.fill_step i u) (p, q, v)).2.1 =
        q + count.getD j 0 := by
  have key := for_loop_induction
    (fun k (w : Nat × Nat × Solver_MB) =>
      Solver_MB.TableInv count nr l i (j + 1) (p + k) w.2.2 ∧ w.1 = p + k ∧ w.2.1 = q + k)
    0 (count.getD j 0) (fun _ u => Solver_MB.fill_step i u) (p, q, v) (Nat.zero_le _)
    ⟨hv, rfl, rfl⟩
    (by
      intro k w _ hk ⟨h1, h2, h3⟩
      obtain ⟨p2, q2, v2⟩ := w
      simp only [] at h1 h2 h3
      subst h2
      subst h3
      refine ⟨?_, rfl, rfl⟩
      exact Solver_MB.fill_step_spec count nr l i j hlen hl hi hj hij k (p + k) (q + k) v2 hk h1
        (by push_cast; omega) (by push_cast; omega))
  exact key


theorem flat_lt (nr i j : Nat) (hi : i < nr) (hj : j < nr) : i * nr + j < nr * nr := by
  have : (i + 1) * nr ≤ nr * nr := Nat.mul_le_mul_right nr hi
  rw [Nat.succ_mul] at this
  omega

theorem flat_inj (nr i j i2 j2 : Nat) (hj : j < nr) (hj2 : j2 < nr)
    (h : i2 * nr + j2 = i * nr + j) : i2 = i ∧ j2 = j := by
  have hpos : 0 < nr := by omega
  have d1 : (i2 * nr + j2) / nr = i2 := by
    rw [Nat.add_comm, Nat.add_mul_div_right _ _ hpos, Nat.div_eq_of_lt hj2, Nat.zero_add]
  have d2 : (i * nr + j) / nr = i := by
    rw [Nat.add_comm, Nat.add_mul_div_right _ _ hpos, Nat.div_eq_of_lt hj, Nat.zero_add]
  have e : i2 = i := by rw [← d1, ← d2, h]
  subst e
  exact ⟨rfl, by omega⟩

/-- One pass of the loop over `j` of `initial_index_table`. -/
theorem Solver_MB.column_step_spec (count : List Nat) (nr l i j : Nat)
    (hlen : count.length = nr) (hl : (l : Int) = ((nr : Int) - 1) * ((count.sum : Nat) : Int))
    (hi : i < nr) (hj : j < nr) (p q : Nat) (v : Solver_MB)
    (hv : Solver_MB.TableInv count nr l i j p v)
    (hp : (p : Int) = bucket_start count i j) (hq : (q : Int) = class_offset count j) :
    Solver_MB.TableInv count nr l i (j + 1) (Solver_MB.column_step count i j (p, q, v)).1
        (Solver_MB.column_step count i j (p, q, v)).2.2 ∧
      ((Solver_MB.column_step count i j (p, q, v)).1 : Int) = bucket_start count i (j + 1) ∧
      ((Solver_MB.column_step count i j (p, q, v)).2.1 : Int) = class_offset count (j + 1) := by
  have hn := hv.nr_eq
  subst hn
  have hl2 := hv.l_eq
  subst hl2
  have hflat := flat_lt v.nr_class i j hi hj
  have hv1 : Solver_MB.TableInv count v.nr_class v.l i (j + 1) p
      { v with start1 := v.start1.set (i * v.nr_class + j) (p : Int)
               start2 := v.start2.set (i * v.nr_class + j) (v.l : Int) } := by
    refine ⟨hv.nr_eq, hv.l_eq, ?_, ?_, hv.len_yy, hv.len_real_i, hv.len_active_set, ?_,
      hv.filled⟩
    · simp only [List.length_set]; exact hv.len1
    · simp only [List.length_set]; exact hv.len2
    · intro i2 j2 hi2 hj2 hlt
      by_cases he : i2 * v.nr_class + j2 = i * v.nr_class + j
      · obtain ⟨e1, e2⟩ := flat_inj v.nr_class i j i2 j2 hj hj2 he
        subst e1
        subst e2
        simp only []
        rw [List.getElem?_set_self (by rw [hv.len1]; omega),
          List.getElem?_set_self (by rw [hv.len2]; omega), hp]
        exact ⟨rfl, rfl⟩
      · obtain ⟨g1, g2⟩ := hv.tabs i2 j2 hi2 hj2 (by omega)
        simp only []
        rw [List.getElem?_set_ne (fun e => he e.symm), List.getElem?_set_ne (fun e => he e.symm)]
        exact ⟨g1, g2⟩
  have hs := bucket_start_succ count i j (by omega)
  have ho := class_offset_succ count j (by omega)
  unfold Solver_MB.column_step
  simp only []
  by_cases hij : i = j
  · rw [if_neg (by simpa using hij)]
    rw [if_neg (by simpa using hij)] at hs
    refine ⟨hv1, ?_, ?_⟩
    · simp only []; omega
    · simp only []; push_cast; omega
  · rw [if_pos hij]
    rw [if_pos hij] at hs
    obtain ⟨g1, g2, g3⟩ := Solver_MB.fill_loop_spec count v.nr_class v.l i j hlen hl hi hj hij p q _ hv1 hp hq
    rw [g2, g3]
    refine ⟨g1, ?_, ?_⟩
    · push_cast; omega
    · push_cast; omega


/-- One pass of the loop over `i` of `initial_index_table`. -/
theorem Solver_MB.row_step_spec (count : List Nat) (nr l i : Nat)
    (hlen : count.length = nr) (hl : (l : Int) = ((nr : Int) - 1) * ((count.sum : Nat) : Int))
    (hi : i < nr) (p : Nat) (v : Solver_MB)
    (hv : Solver_MB.TableInv count nr l i 0 p v)
    (hp : (p : Int) = bucket_start count i 0) :
    Solver_MB.TableInv count nr l (i + 1) 0 (Solver_MB.row_step count i (p, v)).1
        (Solver_MB.row_step count i (p, v)).2 ∧
      ((Solver_MB.row_step count i (p, v)).1 : Int) = bucket_start count (i + 1) 0 := by
  have key := for_loop_induction
    (fun j (w : Nat × Nat × Solver_MB) =>
      Solver_MB.TableInv count nr l i j w.1 w.2.2 ∧ (w.1 : Int) = bucket_start count i j ∧
        (w.2.1 : Int) = class_offset count j)
    0 nr (Solver_MB.column_step count i) (p, 0, v) (Nat.zero_le _)
    ⟨hv, hp, by rw [class_offset_zero]; rfl⟩
    (by
      intro j w _ hj ⟨h1, h2, h3⟩
      obtain ⟨p2, q2, v2⟩ := w
      exact Solver_MB.column_step_spec count nr l i j hlen hl hi hj p2 q2 v2 h1 h2 h3)
  obtain ⟨k1, k2, _⟩ := key
  unfold Solver_MB.row_step
  simp only [hv.nr_eq]
  refine ⟨⟨k1.nr_eq, k1.l_eq, k1.len1, k1.len2, k1.len_yy, k1.len_real_i, k1.len_active_set,
    ?_, k1.filled⟩, ?_⟩
  · intro i2 j2 h1 h2 h3
    rw [Nat.succ_mul] at h3
    exact k1.tabs i2 j2 h1 h2 (by omega)
  · rw [k2, ← hlen, bucket_start_row count i (by omega)]

/-- The loops of `initial_index_table` before the final assignment. -/
theorem Solver_MB.table_loops_spec (s : Solver_MB) (count : List Nat)
    (hlen : count.length = s.nr_class)
    (hl : (s.l : Int) = ((s.nr_class : Int) - 1) * ((count.sum : Nat) : Int))
    (h1 : s.start1.length = s.nr_class * s.nr_class + 1)
    (h2 : s.start2.length = s.nr_class * s.nr_class + 1)
    (hyy : s.yy.length = s.l) (hri : s.real_i.length = s.l)
    (has : s.active_set.length = s.l) :
    Solver_MB.TableInv count s.nr_class s.l s.nr_class 0 s.l
      (for_loop 0 s.nr_class (Solver_MB.row_step count) (0, s)).2 := by
  have key := for_loop_induction
    (fun i (w : Nat × Solver_MB) =>
      Solver_MB.TableInv count s.nr_class s.l i 0 w.1 w.2 ∧
        (w.1 : Int) = bucket_start count i 0)
    0 s.nr_class (Solver_MB.row_step count) (0, s) (Nat.zero_le _)
    ⟨⟨rfl, rfl, h1, h2, hyy, hri, has, by intro i2 j2 _ _ h; omega,
      by intro pos h; omega⟩, by rw [bucket_start_first]; rfl⟩
    (by
      intro i w _ hi ⟨g1, g2⟩
      obtain ⟨p2, v2⟩ := w
      exact Solver_MB.row_step_spec count s.nr_class s.l i hlen hl hi p2 v2 g1 g2)
  obtain ⟨k1, k2⟩ := key
  have e : (for_loop 0 s.nr_class (Solver_MB.row_step count) (0, s)).1 = s.l := by
    have := bucket_start_last count
    rw [hlen, ← hl] at this
    rw [this] at k2
    exact_mod_cast k2
  rw [e] at k1
  exact k1


/-- Two ranges of a non-decreasing table that share a position are the same range. -/
theorem range_unique (xs : List Int) (t : Nat)
    (h : ∀ b : Nat, b < t → xs.getD b 0 ≤ xs.getD (b + 1) 0) (b c : Nat) (p : Int)
    (hb : b < t) (hc : c < t) (h1 : xs.getD b 0 ≤ p) (h2 : p < xs.getD (b + 1) 0)
    (h3 : xs.getD c 0 ≤ p) (h4 : p < xs.getD (c + 1) 0) : b = c := by
  have ch := mono_chain xs t h
  by_contra hne
  by_cases hlt : b < c
  · have := ch (b + 1) c (by omega) (by omega)
    omega
  · have := ch (c + 1) b (by omega) (by omega)
    omega

/-- The state after `initial_index_table`: the entries of `start1` are the first
positions of the buckets, the entries of `start2` are `l`, and every position is filled. -/
theorem Solver_MB.table_final (s : Solver_MB) (count : List Nat)
    (hlen : count.length = s.nr_class)
    (hl : (s.l : Int) = ((s.nr_class : Int) - 1) * ((count.sum : Nat) : Int))
    (h1 : s.start1.length = s.nr_class * s.nr_class + 1)
    (h2 : s.start2.length = s.nr_class * s.nr_class + 1)
    (hyy : s.yy.length = s.l) (hri : s.real_i.length = s.l)
    (has : s.active_set.length = s.l) :
    (∀ i j : Nat, i < s.nr_class → j ≤ s.nr_class →
      (s.initial_index_table count).start1.getD (i * s.nr_class + j) 0 =
        bucket_start count i j) ∧
    (∀ b : Nat, b ≤ s.nr_class * s.nr_class →
      (s.initial_index_table count).start2[b]? = some (s.l : Int)) ∧
    (s.initial_index_table count).start1[s.nr_class * s.nr_class]? = some (s.l : Int) ∧
    (∀ pos : Nat, pos < s.l →
      (s.initial_index_table count).active_set[pos]? = some (pos : Int) ∧
      ∃ i2 j2 k : Nat, i2 < s.nr_class ∧ j2 < s.nr_class ∧ i2 ≠ j2 ∧ k < count.getD j2 0 ∧
        (pos : Int) = bucket_start count i2 j2 + k ∧
        (s.initial_index_table count).yy[pos]? = some (i2 : Int) ∧
        (s.initial_index_table count).real_i[pos]? = some (class_offset count j2 + k)) := by
  have k := Solver_MB.table_loops_spec s count hlen hl h1 h2 hyy hri has
  obtain ⟨r, hr⟩ : ∃ r : Solver_MB,
      r = (for_loop 0 s.nr_class (Solver_MB.row_step count) (0, s)).2 := ⟨_, rfl⟩
  rw [← hr] at k
  have e : s.initial_index_table count =
      { r with start1 := r.start1.set (s.nr_class * s.nr_class) (s.l : Int)
               start2 := r.start2.set (s.nr_class * s.nr_class) (s.l : Int) } := by
    unfold Solver_MB.initial_index_table
    simp only [← hr, k.nr_eq, k.l_eq]
  rw [e]
  have hlast : bucket_start count s.nr_class 0 = (s.l : Int) := by
    have := bucket_start_last count
    rw [hlen, ← hl] at this
    exact this
  have hset1 : (r.start1.set (s.nr_class * s.nr_class) (s.l : Int))[s.nr_class * s.nr_class]? =
      some (s.l : Int) := List.getElem?_set_self (by rw [k.len1]; omega)
  have hset2 : (r.start2.set (s.nr_class * s.nr_class) (s.l : Int))[s.nr_class * s.nr_class]? =
      some (s.l : Int) := List.getElem?_set_self (by rw [k.len2]; omega)
  have hlow : ∀ i j : Nat, i < s.nr_class → j < s.nr_class →
      (r.start1.set (s.nr_class * s.nr_class) (s.l : Int))[i * s.nr_class + j]? =
        some (bucket_start count i j) ∧
      (r.start2.set (s.nr_class * s.nr_class) (s.l : Int))[i * s.nr_class + j]? =
        some (s.l : Int) := by
    intro i j hi hj
    have hf := flat_lt s.nr_class i j hi hj
    have hlt : i * s.nr_class + j < s.nr_class * s.nr_class + 0 := by omega
    obtain ⟨g1, g2⟩ := k.tabs i j hi hj (by omega)
    rw [List.getElem?_set_ne (by omega), List.getElem?_set_ne (by omega)]
    exact ⟨g1, g2⟩
  refine ⟨?_, ?_, hset1, k.filled⟩
  · intro i j hi hj
    show (r.start1.set (s.nr_class * s.nr_class) (s.l : Int)).getD _ 0 = _
    rw [List.getD_eq_getElem?_getD]
    by_cases hjn : j < s.nr_class
    · rw [(hlow i j hi hjn).1]; rfl
    · have hjn2 : j = s.nr_class := by omega
      subst hjn2
      have hrow := bucket_start_row count i (by omega)
      rw [hlen] at hrow
      by_cases hin : i + 1 < s.nr_class
      · have := (hlow (i + 1) 0 hin (by omega)).1
        rw [Nat.succ_mul, Nat.add_zero] at this
        rw [this, hrow]; rfl
      · have hin2 : i + 1 = s.nr_class := by omega
        have eidx : i * s.nr_class + s.nr_class = s.nr_class * s.nr_class := by
          have := Nat.succ_mul i s.nr_class
          rw [Nat.succ_eq_add_one, hin2] at this
          omega
        rw [eidx, hset1, hrow, hin2, hlast]; rfl
  · intro b hb
    show (r.start2.set (s.nr_class * s.nr_class) (s.l : Int))[b]? = _
    by_cases hbn : b = s.nr_class * s.nr_class
    · rw [hbn]; exact hset2
    · have hpos : 0 < s.nr_class := by
        rcases Nat.eq_zero_or_pos s.nr_class with h0 | h0
        · rw [h0] at hb hbn; omega
        · exact h0
      have hdiv : b / s.nr_class < s.nr_class := Nat.div_lt_of_lt_mul (by omega)
      have hmod : b % s.nr_class < s.nr_class := Nat.mod_lt _ hpos
      have := (hlow (b / s.nr_class) (b % s.nr_class) hdiv hmod).2
      rw [Nat.div_add_mod'] at this
      exact this


/-! ### The invariant of `G` and `G_bar` in `Solver_B::Solve` -/


/-- The invariant for a smaller range of exact entries of `G`. -/
theorem Solver_B.Inv_mono (s : Solver_B) (upto upto2 : Nat) (h : s.Inv upto)
    (hle : upto2 ≤ upto) : s.Inv upto2 :=
  ⟨h.status, h.active_le, h.len_G, h.len_G_bar, h.len_b, h.box, h.G_bar,
    fun j hj => h.G j (by omega), h.shrunk⟩

/-- The invariant does not depend on `working_set`. -/
theorem Solver_B.Inv_select_working_set (s : Solver_B) (upto : Nat) (h : s.Inv upto) :
    s.select_working_set.2.Inv upto :=
  ⟨Solver_B.StatusOk_select_working_set s h.status, h.active_le, h.len_G, h.len_G_bar,
    h.len_b, h.box, h.G_bar, h.G, h.shrunk⟩

/-- The invariant does not depend on `unshrinked`. -/
theorem Solver_B.Inv_unshrinked (s : Solver_B) (upto : Nat) (f : Bool) (h : s.Inv upto) :
    Solver_B.Inv { s with unshrinked := f } upto :=
  ⟨Solver_B.StatusOk_congr s _ rfl rfl rfl rfl rfl rfl h.status, h.active_le, h.len_G,
    h.len_G_bar, h.len_b, h.box, h.G_bar, h.G, h.shrunk⟩

/-- The invariant after `swap_index(i, j)` and a new `active_size`. -/
theorem Solver_B.Inv_swap (s : Solver_B) (i j a upto upto2 : Nat) (h : s.Inv upto)
    (hi : i < s.l) (hj : j < s.l) (ha : a ≤ s.l)
    (hG : ∀ p, p < upto2 → swap_pos i j p < upto)
    (hshr : ∀ p, a ≤ p → p < s.l → s.is_free (swap_pos i j p) = false) :
    Solver_B.Inv { s.swap_index i j with active_size := a } upto2 := by
  have arr := Solver_B.swap_index_arrays s i j h.status h.len_G h.len_G_bar h.len_b hi hj
  refine ⟨Solver_B.StatusOk_active_size _ _ (Solver_B.StatusOk_swap_index s i j h.status), ha,
    ?_, ?_, ?_, ?_, ?_, ?_, ?_⟩
  · show (swap_at s.G i j).length = s.l
    rw [length_swap_at]; exact h.len_G
  · show (swap_at s.G_bar i j).length = s.l
    rw [length_swap_at]; exact h.len_G_bar
  · show (swap_at s.b i j).length = s.l
    rw [length_swap_at]; exact h.len_b
  · intro k hk
    obtain ⟨_, _, _, e4, e5, _⟩ := arr k
    show 0 ≤ (s.swap_index i j).alpha.getD k 0 ∧
      (s.swap_index i j).alpha.getD k 0 ≤ (s.swap_index i j).get_C k
    rw [e4, e5]
    exact h.box _ (swap_pos_lt i j k s.l hi hj hk)
  · intro k hk
    obtain ⟨_, e2, _, _, _, _, _, e8⟩ := arr k
    show (s.swap_index i j).G_bar.getD k 0 = (s.swap_index i j).upper_sum k
    rw [e2, e8]
    exact h.G_bar _ (swap_pos_lt i j k s.l hi hj hk)
  · intro k hk
    obtain ⟨e1, _, _, _, _, _, e7, _⟩ := arr k
    show (s.swap_index i j).G.getD k 0 = (s.swap_index i j).gradient k
    rw [e1, e7]
    exact h.G _ (hG k hk)
  · intro k hk1 hk2
    obtain ⟨_, _, _, _, _, e6, _⟩ := arr k
    have := hshr k hk1 hk2
    show (s.swap_index i j).is_free k = false
    unfold Solver_B.is_free at this ⊢
    rw [e6]
    exact this

/-- The shrinking loop of `do_shrinking` keeps the invariant. -/
theorem Solver_B.Inv_shrink_loop (n : Nat) : ∀ (s : Solver_B) (k : Nat) (Gm : ℚ),
    s.Inv s.active_size →
      (Solver_B.shrink_loop n s k Gm).Inv (Solver_B.shrink_loop n s k Gm).active_size := by
  induction n with
  | zero => intro s k Gm h; exact h
  | succ n ih =>
    intro s k Gm h
    rw [Solver_B.shrink_loop_succ]
    by_cases hk : k < s.active_size
    · rw [if_pos hk]
      by_cases hr : s.shrink_rule Gm k = true
      · rw [if_pos hr]
        apply ih
        have hfree := Solver_B.shrink_rule_bound s Gm k hr
        have hal := h.active_le
        refine Solver_B.Inv_swap s k (s.active_size - 1) (s.active_size - 1) s.active_size
          (s.active_size - 1) h (by omega) (by omega) (by omega) ?_ ?_
        · intro p hp
          unfold swap_pos; split_ifs <;> omega
        · intro p hp1 hp2
          by_cases hpe : p = s.active_size - 1
          · have : swap_pos k (s.active_size - 1) p = k := by
              unfold swap_pos; split_ifs <;> omega
            rw [this]; exact hfree
          · have : swap_pos k (s.active_size - 1) p = p := by
              unfold swap_pos; split_ifs <;> omega
            rw [this]; exact h.shrunk p (by omega) hp2
      · rw [if_neg hr]
        exact ih s (k + 1) Gm h
    · rw [if_neg hk]; exact h

/-- The unshrinking loop of `do_shrinking` keeps the invariant with every entry of `G`
exact. -/
theorem Solver_B.Inv_unshrink_loop (n : Nat) : ∀ (s : Solver_B) (k : Int) (Gm : ℚ),
    k < s.l → s.Inv s.l → (Solver_B.unshrink_loop n s k Gm).Inv s.l := by
  induction n with
  | zero => intro s k Gm _ h; exact h
  | succ n ih =>
    intro s k Gm hkl h
    have hmove : (k : Int) ≥ s.active_size →
        (s.is_lower_bound k.toNat = true ∨ s.is_upper_bound k.toNat = true) →
        Solver_B.Inv { s.swap_index k.toNat s.active_size with active_size := s.active_size + 1 }
          s.l := by
      intro hk hb
      have hfree := Solver_B.is_free_of_bound s k.toNat hb
      refine Solver_B.Inv_swap s k.toNat s.active_size (s.active_size + 1) s.l s.l h
        (by omega) (by omega) (by omega) ?_ ?_
      · intro p hp
        exact swap_pos_lt _ _ _ _ (by omega) (by omega) hp
      · intro p hp1 hp2
        by_cases hpe : p = k.toNat
        · have : swap_pos k.toNat s.active_size p = s.active_size := by
            unfold swap_pos; rw [if_pos hpe]
          rw [this]
          by_cases hka : k.toNat = s.active_size
          · rw [← hka]; exact hfree
          · exact h.shrunk _ (le_refl _) (by omega)
        · have : swap_pos k.toNat s.active_size p = p := by
            unfold swap_pos; split_ifs <;> omega
          rw [this]; exact h.shrunk p (by omega) hp2
    simp only [Solver_B.unshrink_loop, Solver_B.unshrink_one]
    by_cases hk : k ≥ (s.active_size : Int)
    · rw [if_pos hk]
      by_cases hlo : s.is_lower_bound k.toNat = true
      · rw [if_pos hlo]
        split_ifs
        · exact ih s (k - 1) Gm (by omega) h
        · exact ih _ k Gm hkl (hmove hk (Or.inl hlo))
      · rw [if_neg hlo]
        by_cases hup : s.is_upper_bound k.toNat = true
        · rw [if_pos hup]
          split_ifs
          · exact ih s (k - 1) Gm (by omega) h
          · exact ih _ k Gm hkl (hmove hk (Or.inr hup))
        · rw [if_neg hup]
          exact ih s (k - 1) Gm (by omega) h
    · rw [if_neg hk]; exact h


/-- A sum over the positions below `l` of terms that vanish from `a` on is the sum over the
positions below `a`. -/
theorem sum_range_cut (f : Nat → ℚ) (a l : Nat) (hal : a ≤ l)
    (h : ∀ i, a ≤ i → i < l → f i = 0) :
    ∑ i in Finset.range l, f i = ∑ i in Finset.range a, f i := by
  symm
  apply Finset.sum_subset
  · intro x hx
    exact Finset.mem_range.mpr (lt_of_lt_of_le (Finset.mem_range.mp hx) hal)
  · intro x hx hnx
    exact h x (by simpa using hnx) (Finset.mem_range.mp hx)

/-- Under the invariant the exact gradient is `b[j] + G_bar[j]` plus the terms of the free
positions, which are all active. -/
theorem Solver_B.gradient_split (s : Solver_B) (upto : Nat) (h : s.Inv upto) (j : Nat)
    (hj : j < s.l) :
    s.gradient j = s.G_bar.getD j 0 + s.b.getD j 0 +
      ∑ i in Finset.range s.active_size,
        (if s.is_free i then s.alpha.getD i 0 * s.Q i j else 0) := by
  rw [h.G_bar j hj]
  unfold Solver_B.gradient Solver_B.upper_sum
  rw [← sum_range_cut (fun i => if s.is_free i then s.alpha.getD i 0 * s.Q i j else 0)
    s.active_size s.l h.active_le
    (by intro i hi1 hi2; beta_reduce; rw [h.shrunk i hi1 hi2]; rfl)]
  have key : ∀ i, i < s.l → s.alpha.getD i 0 * s.Q i j =
      (if s.is_upper_bound i then s.get_C i * s.Q i j else 0) +
        (if s.is_free i then s.alpha.getD i 0 * s.Q i j else 0) := by
    intro i hi
    obtain ⟨_, _, _, hst⟩ := h.status
    have e := hst i hi
    obtain ⟨b1, b2⟩ := h.box i hi
    unfold Solver_B.is_upper_bound Solver_B.is_free
    rw [e]
    generalize s.alpha.getD i 0 = a at b1 b2 ⊢
    generalize s.get_C i = C at b2 ⊢
    generalize s.Q i j = q
    unfold status_of
    by_cases c1 : a ≥ C
    · have : a = C := le_antisymm b2 c1
      subst this
      simp
    · by_cases c2 : a ≤ 0
      · have : a = 0 := le_antisymm c2 b1
        subst this
        simp [c1]
      · simp [c1, c2]
  have : ∑ i in Finset.range s.l, s.alpha.getD i 0 * s.Q i j =
      ∑ i in Finset.range s.l, ((if s.is_upper_bound i then s.get_C i * s.Q i j else 0) +
        (if s.is_free i then s.alpha.getD i 0 * s.Q i j else 0)) :=
    Finset.sum_congr rfl (fun i hi => key i (Finset.mem_range.mp hi))
  rw [this, Finset.sum_add_distrib]
  ring

/-- The entries of `G` after `reconstruct_gradient`, when some position is shrunk. -/
theorem Solver_B.reconstruct_gradient_G (s : Solver_B) (hG : s.G.length = s.l)
    (hal : s.active_size ≤ s.l) (hne : s.active_size ≠ s.l) :
    s.reconstruct_gradient.G.length = s.l ∧
    ∀ j, s.reconstruct_gradient.G.getD j 0 =
      if s.active_size ≤ j ∧ j < s.l then
        s.G_bar.getD j 0 + s.b.getD j 0 +
          ∑ i in Finset.range s.active_size,
            (if s.is_free i then s.alpha.getD i 0 * s.Q i j else 0)
      else s.G.getD j 0 := by
  obtain ⟨g1, g2⟩ := for_loop_induction
    (fun i (G : List ℚ) => G.length = s.l ∧ ∀ j, G.getD j 0 =
      if s.active_size ≤ j ∧ j < i then s.G_bar.getD j 0 + s.b.getD j 0 else s.G.getD j 0)
    s.active_size s.l
    (fun i G => G.set i (s.G_bar.getD i 0 + s.b.getD i 0)) s.G hal
    ⟨hG, by intro j; rw [if_neg (by omega)]⟩
    (by
      intro i G hi1 hi2 ⟨g1, g2⟩
      refine ⟨by rw [List.length_set]; exact g1, ?_⟩
      intro j
      rw [List.getD_eq_getElem?_getD]
      by_cases hji : j = i
      · subst hji
        rw [List.getElem?_set_self (by omega), if_pos (by omega)]; rfl
      · rw [List.getElem?_set_ne (fun e => hji e.symm), ← List.getD_eq_getElem?_getD, g2 j]
        by_cases c : s.active_size ≤ j ∧ j < i
        · rw [if_pos c, if_pos (by omega)]
        · rw [if_neg c, if_neg (by omega)])
  obtain ⟨k1, k2⟩ := for_loop_induction
    (fun i (G : List ℚ) => G.length = s.l ∧ ∀ j, G.getD j 0 =
      if s.active_size ≤ j ∧ j < s.l then
        s.G_bar.getD j 0 + s.b.getD j 0 +
          ∑ i2 in Finset.range i, (if s.is_free i2 then s.alpha.getD i2 0 * s.Q i2 j else 0)
      else s.G.getD j 0)
    0 s.active_size
    (fun i G => if s.is_free i then add_row G s.active_size s.l (s.alpha.getD i 0) (s.Q i)
      else G)
    (for_loop s.active_size s.l (fun i G => G.set i (s.G_bar.getD i 0 + s.b.getD i 0)) s.G)
    (Nat.zero_le _)
    ⟨g1, by intro j; rw [g2 j, Finset.sum_range_zero, add_zero]⟩
    (by
      intro i G _ _ ⟨k1, k2⟩
      by_cases hf : s.is_free i = true
      · simp only [hf, if_true]
        obtain ⟨a1, a2⟩ := add_row_spec G s.active_size s.l (s.alpha.getD i 0) (s.Q i)
        refine ⟨by rw [a1]; exact k1, ?_⟩
        intro j
        by_cases c : s.active_size ≤ j ∧ j < s.l
        · rw [a2 j, if_pos ⟨c.1, c.2, by omega⟩, k2 j, if_pos c, Finset.sum_range_succ,
            if_pos hf, if_pos c]
          ring
        · rw [a2 j, if_neg (by intro c2; exact c ⟨c2.1, c2.2.1⟩), k2 j, if_neg c, if_neg c]
      · simp only [if_neg hf]
        refine ⟨k1, ?_⟩
        intro j
        rw [k2 j, Finset.sum_range_succ, if_neg hf, add_zero])
  unfold Solver_B.reconstruct_gradient
  rw [if_neg hne]
  exact ⟨k1, k2⟩

/-- Under the invariant `reconstruct_gradient` makes every entry of `G` the exact
gradient. -/
theorem Solver_B.Inv_reconstruct_gradient (s : Solver_B) (h : s.Inv s.active_size) :
    s.reconstruct_gradient.Inv s.reconstruct_gradient.l := by
  rw [Solver_B.reconstruct_gradient_l]
  by_cases hne : s.active_size = s.l
  · have e : s.reconstruct_gradient = s := by
      unfold Solver_B.reconstruct_gradient; rw [if_pos hne]
    rw [e, ← hne]; exact h
  · obtain ⟨r1, r2⟩ := Solver_B.reconstruct_gradient_G s h.len_G h.active_le hne
    have e : s.reconstruct_gradient = { s with G := s.reconstruct_gradient.G } := by
      unfold Solver_B.reconstruct_gradient; rw [if_neg hne]
    rw [e]
    refine ⟨Solver_B.StatusOk_congr s _ rfl rfl rfl rfl rfl rfl h.status, h.active_le, r1,
      h.len_G_bar, h.len_b, h.box, h.G_bar, ?_, h.shrunk⟩
    intro j hj
    show s.reconstruct_gradient.G.getD j 0 = s.gradient j
    rw [r2 j]
    by_cases c : s.active_size ≤ j
    · rw [if_pos ⟨c, hj⟩, Solver_B.gradient_split s _ h j hj]
    · rw [if_neg (by omega)]
      exact h.G j (by omega)

/-- The state after `reconstruct_gradient(); active_size = l` satisfies the invariant. -/
theorem Solver_B.Inv_full_active (s : Solver_B) (h : s.Inv s.active_size) :
    Solver_B.Inv { s.reconstruct_gradient with active_size := s.reconstruct_gradient.l }
      s.reconstruct_gradient.l := by
  have h2 := Solver_B.Inv_reconstruct_gradient s h
  exact ⟨Solver_B.StatusOk_active_size _ _ h2.status, le_refl _,
    h2.len_G, h2.len_G_bar, h2.len_b, h2.box, h2.G_bar, h2.G,
    fun k hk1 hk2 => by
      have hk1' : s.reconstruct_gradient.l ≤ k := hk1
      have hk2' : k < s.reconstruct_gradient.l := hk2
      omega⟩

/-- `do_shrinking` keeps the invariant. -/
theorem Solver_B.Inv_do_shrinking (s : Solver_B) (h : s.Inv s.active_size) :
    s.do_shrinking.Inv s.do_shrinking.active_size := by
  have h0 := Solver_B.Inv_select_working_set s _ h
  unfold Solver_B.do_shrinking
  simp only []
  split_ifs
  · exact h0
  · exact Solver_B.Inv_shrink_loop _ _ _ _ h0
  · have h1 := Solver_B.Inv_shrink_loop s.select_working_set.2.active_size
      s.select_working_set.2 0 s.select_working_set.1 h0
    obtain ⟨s2, hs2⟩ : ∃ s2 : Solver_B, s2 = Solver_B.reconstruct_gradient
        { Solver_B.shrink_loop s.select_working_set.2.active_size s.select_working_set.2 0
            s.select_working_set.1 with unshrinked := true } := ⟨_, rfl⟩
    have h2 : s2.Inv s2.l := by
      rw [hs2]
      exact Solver_B.Inv_reconstruct_gradient _ (Solver_B.Inv_unshrinked _ _ true h1)
    have h3 := Solver_B.Inv_unshrink_loop (s2.l - s2.active_size) s2 ((s2.l : Int) - 1)
      s.select_working_set.1 (by omega) h2
    rw [← hs2]
    refine Solver_B.Inv_mono _ _ _ h3 ?_
    have := h3.active_le
    rw [Solver_B.unshrink_loop_l] at this
    exact this


/-- A loop whose body leaves `n` as it is leaves `n` as it is. -/
theorem BQP.loop_n (body : Nat → BQP → BQP) (lo hi : Nat) (q : BQP)
    (hbody : ∀ j u, (body j u).n = u.n) : (for_loop lo hi body q).n = q.n :=
  foldl_preserves (fun qp : BQP => qp.n) body hbody _ q

/-- A loop whose body leaves `C` as it is leaves `C` as it is. -/
theorem BQP.loop_C (body : Nat → BQP → BQP) (lo hi : Nat) (q : BQP)
    (hbody : ∀ j u, (body j u).C = u.C) : (for_loop lo hi body q).C = q.C :=
  foldl_preserves (fun qp : BQP => qp.C) body hbody _ q

/-- The sub-problem has one variable for every entry of the working set, with the bound
`get_C` of that entry. -/
theorem Solver_B.subproblem_C (s : Solver_B) :
    s.subproblem.n = s.working_set.length ∧
    ∀ i, i < s.working_set.length →
      s.subproblem.C.getD i 0 = s.get_C (s.working_set.getD i 0) := by
  have main : s.subproblem.n = s.working_set.length ∧
      s.subproblem.C.length = s.working_set.length ∧
      ∀ k, k < s.working_set.length →
        s.subproblem.C.getD k 0 = s.get_C (s.working_set.getD k 0) := by
    unfold Solver_B.subproblem
    simp only []
    refine for_loop_induction
      (fun i (qp : BQP) => qp.n = s.working_set.length ∧
        qp.C.length = s.working_set.length ∧
        ∀ k, k < i → qp.C.getD k 0 = s.get_C (s.working_set.getD k 0))
      0 s.working_set.length _ _ (Nat.zero_le _)
      ⟨rfl, by simp, fun k hk => absurd hk (Nat.not_lt_zero _)⟩ ?_
    intro i qp _ hi ⟨g1, g2, g3⟩
    rw [BQP.loop_n, BQP.loop_C]
    · refine ⟨g1, by rw [List.length_set]; exact g2, ?_⟩
      intro k hk
      simp only []
      rw [List.getD_eq_getElem?_getD]
      by_cases hki : k = i
      · subst hki
        rw [List.getElem?_set_self (by omega)]; rfl
      · rw [List.getElem?_set_ne (fun e => hki e.symm), ← List.getD_eq_getElem?_getD]
        exact g3 k (by omega)
    · intro j u; rfl
    · intro j u; rfl
  exact ⟨main.1, main.2.2⟩

/-- The sum of `a[k] * f k` after one entry of `a` is replaced. -/
theorem sum_range_set (a : List ℚ) (l i : Nat) (v : ℚ) (f : Nat → ℚ) (hl : a.length = l)
    (hi : i < l) :
    ∑ k in Finset.range l, (a.set i v).getD k 0 * f k =
      ∑ k in Finset.range l, a.getD k 0 * f k + (v - a.getD i 0) * f i := by
  have key : ∀ k, (a.set i v).getD k 0 * f k =
      a.getD k 0 * f k + (if k = i then (v - a.getD i 0) * f i else 0) := by
    intro k
    rw [List.getD_eq_getElem?_getD]
    by_cases hki : k = i
    · subst hki
      rw [List.getElem?_set_self (by omega), if_pos rfl]
      simp only [Option.getD_some]
      ring
    · rw [List.getElem?_set_ne (fun e => hki e.symm), if_neg hki, add_zero,
        ← List.getD_eq_getElem?_getD]
  rw [Finset.sum_congr rfl (fun k _ => key k), Finset.sum_add_distrib,
    Finset.sum_ite_eq' (Finset.range l) i, if_pos (Finset.mem_range.mpr hi)]

/-- The loop "update G" keeps `alpha` in the box and `G` exact on the active positions,
for a new point inside the box and a working set of active positions. -/
theorem Solver_B.update_G_inv (s : Solver_B) (x : List ℚ) (h : s.Inv s.active_size)
    (hws : ∀ k, k ∈ s.working_set → k < s.active_size)
    (hx : ∀ i, i < s.working_set.length →
      0 ≤ x.getD i 0 ∧ x.getD i 0 ≤ s.get_C (s.working_set.getD i 0)) :
    (∀ k, k < s.l → 0 ≤ (s.update_G x).alpha.getD k 0 ∧
      (s.update_G x).alpha.getD k 0 ≤ s.get_C k) ∧
    (∀ j, j < s.active_size → (s.update_G x).G.getD j 0 =
      s.b.getD j 0 + ∑ k in Finset.range s.l, (s.update_G x).alpha.getD k 0 * s.Q k j) := by
  obtain ⟨hl1, hl2, _, _⟩ := h.status
  have hal := h.active_le
  unfold Solver_B.update_G
  obtain ⟨_, _, _, k4, k5⟩ := for_loop_induction
    (fun _ (t : Solver_B) => t = { s with alpha := t.alpha, G := t.G } ∧
      t.alpha.length = s.l ∧ t.G.length = s.l ∧
      (∀ k, k < s.l → 0 ≤ t.alpha.getD k 0 ∧ t.alpha.getD k 0 ≤ s.get_C k) ∧
      (∀ j, j < s.active_size → t.G.getD j 0 =
        s.b.getD j 0 + ∑ k in Finset.range s.l, t.alpha.getD k 0 * s.Q k j))
    0 s.working_set.length (Solver_B.update_G_step x) s (Nat.zero_le _)
    ⟨rfl, hl2, h.len_G, h.box, h.G⟩
    (by
      rintro i t - hi ⟨f, la, lg, hb, hg⟩
      have ews : t.working_set = s.working_set := by rw [f]
      have eQ : t.Q = s.Q := by rw [f]
      have eA : t.active_size = s.active_size := by rw [f]
      have hBi : s.working_set.getD i 0 < s.active_size :=
        hws _ (getD_mem_of_lt _ _ hi)
      dsimp only [Solver_B.update_G_step]
      rw [ews, eQ, eA]
      split_ifs
      · refine ⟨?_, by simp [la], by simp [(add_row_spec _ _ _ _ _).1, lg], ?_, ?_⟩
        · simp only []
          rw [f]
        · intro k hk
          simp only []
          rw [List.getD_eq_getElem?_getD]
          by_cases hki : k = s.working_set.getD i 0
          · rw [hki, List.getElem?_set_self (by omega)]
            exact hx i hi
          · rw [List.getElem?_set_ne (fun e => hki e.symm), ← List.getD_eq_getElem?_getD]
            exact hb k hk
        · intro j hj
          simp only []
          rw [(add_row_spec _ _ _ _ _).2 j, if_pos ⟨Nat.zero_le _, hj, by omega⟩, hg j hj,
            sum_range_set t.alpha s.l (s.working_set.getD i 0) (x.getD i 0)
              (fun k => s.Q k j) la (by omega)]
          ring
      · exact ⟨f, la, lg, hb, hg⟩)
  exact ⟨k4, k5⟩


/-- The sum over the positions at the upper bound after the status of one position is
set. -/
theorem Solver_B.upper_sum_set (t : Solver_B) (B : Nat) (v : Status) (hB : B < t.l)
    (hlen : t.alpha_status.length = t.l) (j : Nat) :
    Solver_B.upper_sum { t with alpha_status := t.alpha_status.set B v } j =
      t.upper_sum j + (if v = Status.UPPER_BOUND then t.get_C B * t.Q B j else 0) -
        (if t.is_upper_bound B then t.get_C B * t.Q B j else 0) := by
  unfold Solver_B.upper_sum
  have key : ∀ k,
      (if Solver_B.is_upper_bound { t with alpha_status := t.alpha_status.set B v } k then
        Solver_B.get_C { t with alpha_status := t.alpha_status.set B v } k * t.Q k j else 0) =
      (if t.is_upper_bound k then t.get_C k * t.Q k j else 0) +
        (if k = B then
          ((if v = Status.UPPER_BOUND then t.get_C B * t.Q B j else 0) -
            (if t.is_upper_bound B then t.get_C B * t.Q B j else 0)) else 0) := by
    intro k
    have eC : Solver_B.get_C { t with alpha_status := t.alpha_status.set B v } k = t.get_C k :=
      rfl
    rw [eC]
    unfold Solver_B.is_upper_bound
    simp only []
    by_cases hk : k = B
    · subst hk
      rw [List.getElem?_set_self (by omega), if_pos rfl]
      by_cases hv : v = Status.UPPER_BOUND
      · simp [hv]
      · simp [hv]
    · rw [List.getElem?_set_ne (fun e => hk e.symm), if_neg hk, add_zero]
  show ∑ k in Finset.range t.l,
    (if Solver_B.is_upper_bound { t with alpha_status := t.alpha_status.set B v } k then
      Solver_B.get_C { t with alpha_status := t.alpha_status.set B v } k * t.Q k j else 0) = _
  rw [Finset.sum_congr rfl (fun k _ => key k), Finset.sum_add_distrib,
    Finset.sum_ite_eq' (Finset.range t.l) B, if_pos (Finset.mem_range.mpr hB)]
  ring

/-- One pass of the loop "update alpha_status and G_bar" keeps `G_bar` the sum over the
positions at the upper bound. -/
theorem Solver_B.update_status_step_G_bar (C : List ℚ) (i : Nat) (t : Solver_B)
    (hB : t.working_set.getD i 0 < t.l) (hst : t.alpha_status.length = t.l)
    (hgb : t.G_bar.length = t.l)
    (hC : C.getD i 0 = t.get_C (t.working_set.getD i 0))
    (hg : ∀ j, j < t.l → t.G_bar.getD j 0 = t.upper_sum j) :
    ∀ j, j < t.l →
      (Solver_B.update_status_step true C i t).G_bar.getD j 0 =
        (Solver_B.update_status_step true C i t).upper_sum j := by
  intro j hj
  obtain ⟨B, hBdef⟩ : ∃ B : Nat, B = t.working_set.getD i 0 := ⟨_, rfl⟩
  obtain ⟨v, hv⟩ : ∃ v : Status, v = status_of (t.alpha.getD B 0) (t.get_C B) := ⟨_, rfl⟩
  rw [← hBdef] at hB hC
  have hup := Solver_B.upper_sum_set t B v hB hst j
  have hnew : Solver_B.is_upper_bound { t with alpha_status := t.alpha_status.set B v } B =
      decide (v = Status.UPPER_BOUND) := by
    unfold Solver_B.is_upper_bound
    simp only []
    rw [List.getElem?_set_self (by omega)]
    simp
  unfold Solver_B.update_status_step
  dsimp only []
  rw [Solver_B.update_alpha_status_spec, ← hBdef, ← hv, hnew]
  simp only [Bool.not_true, Bool.false_eq_true, if_false]
  by_cases h1 : t.is_upper_bound B = true
  · by_cases h2 : v = Status.UPPER_BOUND
    · simp only [h1, h2, decide_True, bne_self_eq_false, Bool.false_eq_true, if_false]
      rw [h2] at hup
      show t.G_bar.getD j 0 = _
      rw [hup, hg j hj, if_pos rfl, if_pos h1]
      ring
    · simp only [h1, h2, decide_False, Bool.true_bne, Bool.not_false, if_true]
      show (add_row t.G_bar 0 t.l (-(C.getD i 0)) (t.Q B)).getD j 0 = _
      rw [(add_row_spec _ _ _ _ _).2 j, if_pos ⟨Nat.zero_le _, hj, by omega⟩]
      show _ = Solver_B.upper_sum
        { t with alpha_status := t.alpha_status.set B v } j
      rw [hup, hg j hj, if_neg h2, if_pos h1, hC]
      ring
  · have h1f : t.is_upper_bound B = false := by
      simpa using h1
    by_cases h2 : v = Status.UPPER_BOUND
    · subst h2
      simp only [h1f, decide_True, Bool.false_bne, if_true, Bool.false_eq_true, if_false]
      show (add_row t.G_bar 0 t.l (C.getD i 0) (t.Q B)).getD j 0 = _
      rw [(add_row_spec _ _ _ _ _).2 j, if_pos ⟨Nat.zero_le _, hj, by omega⟩]
      show _ = Solver_B.upper_sum
        { t with alpha_status := t.alpha_status.set B Status.UPPER_BOUND } j
      rw [hup, hg j hj, if_pos rfl, if_neg h1, hC]
      ring
    · simp only [h1f, h2, decide_False, bne_self_eq_false, Bool.false_eq_true, if_false]
      show t.G_bar.getD j 0 = _
      rw [hup, hg j hj, if_neg h2, if_neg h1]
      ring


/-- The loop "update alpha_status and G_bar" keeps `G_bar` the sum over the positions at
the upper bound. -/
theorem Solver_B.update_status_G_bar (u : Solver_B) (C : List ℚ)
    (hst : u.alpha_status.length = u.l) (hgb : u.G_bar.length = u.l)
    (hws : ∀ k, k ∈ u.working_set → k < u.l)
    (hC : ∀ i, i < u.working_set.length → C.getD i 0 = u.get_C (u.working_set.getD i 0))
    (hg : ∀ j, j < u.l → u.G_bar.getD j 0 = u.upper_sum j) :
    ∀ j, j < u.l →
      (u.update_status true C).G_bar.getD j 0 = (u.update_status true C).upper_sum j := by
  unfold Solver_B.update_status
  obtain ⟨_, _, _, k4⟩ := for_loop_induction
    (fun _ (t : Solver_B) =>
      t = { u with alpha_status := t.alpha_status, G_bar := t.G_bar } ∧
      t.alpha_status.length = u.l ∧ t.G_bar.length = u.l ∧
      ∀ j, j < u.l → t.G_bar.getD j 0 = t.upper_sum j)
    0 u.working_set.length (Solver_B.update_status_step true C) u (Nat.zero_le _)
    ⟨rfl, hst, hgb, hg⟩
    (by
      rintro i t - hi ⟨h1, h2, h3, h4⟩
      obtain ⟨e1, e2⟩ := Solver_B.update_status_step_frame true C i t
      have ews : t.working_set = u.working_set := by rw [h1]
      have el : t.l = u.l := by rw [h1]
      have eC : ∀ k, t.get_C k = u.get_C k := by
        intro k; unfold Solver_B.get_C; rw [h1]
      have hB : t.working_set.getD i 0 < t.l := by
        rw [ews, el]; exact hws _ (getD_mem_of_lt _ _ hi)
      have hstep := Solver_B.update_status_step_G_bar C i t hB (by rw [h2, el])
        (by rw [h3, el]) (by rw [ews, eC]; exact hC i hi) (by rw [el]; exact h4)
      rw [el] at hstep
      refine ⟨?_, ?_, by rw [e2, h3], hstep⟩
      · rw [e1]; simp only []; rw [h1]
      · rw [e1]; simp only [List.length_set]; exact h2)
  exact k4

/-- The update of one pass of the loop of `Solver_B::Solve` keeps the invariant, for a
sub-problem solver that returns points in the box and a working set of active
positions. -/
theorem Solver_B.Inv_update (solvebqp : BQP → List ℚ) (hbox : box_solver solvebqp)
    (s : Solver_B) (h : s.Inv s.active_size)
    (hws : ∀ k, k ∈ s.working_set → k < s.active_size) :
    (Solver_B.update solvebqp true s).Inv (Solver_B.update solvebqp true s).active_size := by
  have hstat := Solver_B.StatusOk_update solvebqp true s h.status
  obtain ⟨hn, hCs⟩ := Solver_B.subproblem_C s
  have hal := h.active_le
  have hx : ∀ i, i < s.working_set.length →
      0 ≤ (solvebqp s.subproblem).getD i 0 ∧
        (solvebqp s.subproblem).getD i 0 ≤ s.get_C (s.working_set.getD i 0) := by
    intro i hi
    have hB := hws _ (getD_mem_of_lt _ _ hi)
    obtain ⟨b1, b2⟩ := h.box (s.working_set.getD i 0) (by omega)
    have := hbox s.subproblem i (by rw [hn]; exact hi) (by rw [hCs i hi]; exact b1.trans b2)
    rw [hCs i hi] at this
    exact this
  obtain ⟨ub, ug⟩ := Solver_B.update_G_inv s (solvebqp s.subproblem) h hws hx
  obtain ⟨hl1, hl2, _, _⟩ := h.status
  unfold Solver_B.update at hstat ⊢
  dsimp only [] at hstat ⊢
  generalize solvebqp s.subproblem = x at *
  generalize hCdef : s.subproblem.C = C at *
  obtain ⟨g1, g2, g3, -⟩ := Solver_B.update_G_frame s x
  have ews : (s.update_G x).working_set = s.working_set := by rw [g1]
  have est : (s.update_G x).alpha_status = s.alpha_status := by rw [g1]
  have egb : (s.update_G x).G_bar = s.G_bar := by rw [g1]
  have eC : ∀ k, (s.update_G x).get_C k = s.get_C k := by
    intro k; unfold Solver_B.get_C; rw [g1]
  have el : (s.update_G x).l = s.l := by rw [g1]
  have eA : (s.update_G x).active_size = s.active_size := by rw [g1]
  have eb : (s.update_G x).b = s.b := by rw [g1]
  have eQ : (s.update_G x).Q = s.Q := by rw [g1]
  have eus : ∀ j, (s.update_G x).upper_sum j = s.upper_sum j := by
    intro j; unfold Solver_B.upper_sum Solver_B.is_upper_bound; simp only [eC, est, el, eQ]
  generalize s.update_G x = u at *
  have hgbar := Solver_B.update_status_G_bar u C (by rw [est, el]; exact hl1)
    (by rw [egb, el]; exact h.len_G_bar)
    (by intro k hk; rw [ews] at hk; rw [el]; exact lt_of_lt_of_le (hws k hk) hal)
    (by intro i hi; rw [ews] at hi; rw [ews, eC]; exact hCs i hi)
    (by intro j hj; rw [egb, eus]; rw [el] at hj; exact h.G_bar j hj)
  obtain ⟨f1, f2, f3, f4⟩ := Solver_B.update_status_frame u true C
  have fl : (u.update_status true C).l = s.l := by rw [f1]; exact el
  have fA : (u.update_status true C).active_size = s.active_size := by rw [f1]; exact eA
  have fal : (u.update_status true C).alpha = u.alpha := by rw [f1]
  have fG : (u.update_status true C).G = u.G := by rw [f1]
  have fb : (u.update_status true C).b = s.b := by rw [f1]; exact eb
  have fQ : (u.update_status true C).Q = s.Q := by rw [f1]; exact eQ
  have fC : ∀ k, (u.update_status true C).get_C k = s.get_C k := by
    intro k; rw [← eC]; unfold Solver_B.get_C; rw [f1]
  refine ⟨hstat, by rw [fA, fl]; exact hal, by rw [fG, g3, fl]; exact h.len_G,
    by rw [f3, egb, fl]; exact h.len_G_bar, by rw [fb, fl]; exact h.len_b, ?_, ?_, ?_, ?_⟩
  · intro k hk
    rw [fl] at hk
    rw [fal, fC]
    exact ub k hk
  · intro j hj
    rw [fl, ← el] at hj
    exact hgbar j hj
  · intro j hj
    rw [fA] at hj
    unfold Solver_B.gradient
    rw [fG, fb, fal, fQ, fl]
    exact ug j hj
  · intro k hk1 hk2
    rw [fA] at hk1
    rw [fl] at hk2
    have hkw : k ∉ u.working_set := by
      rw [ews]
      intro hmem
      have := hws k hmem
      omega
    have := (f4 k (by rw [est, hl1]; exact hk2)).2 hkw
    unfold Solver_B.is_free
    rw [this, est]
    exact h.shrunk k hk1 hk2


theorem getD_map_range (f : Nat → ℚ) (l j : Nat) (hj : j < l) :
    ((List.range l).map f).getD j 0 = f j := by
  rw [List.getD_eq_getElem?_getD, List.getElem?_map, List.getElem?_range hj]
  rfl

theorem getD_map_range_int (f : Nat → Int) (l j : Nat) (hj : j < l) :
    ((List.range l).map f).getD j 0 = f j := by
  rw [List.getD_eq_getElem?_getD, List.getElem?_map, List.getElem?_range hj]
  rfl

/-- The state before the loop of `Solver_B::Solve` satisfies the invariant, for a starting
point inside the box. -/
theorem Solver_B.Inv_init (l : Nat) (Q : Nat → Nat → ℚ) (b_ : List ℚ) (y_ : List Int)
    (alpha_ : List ℚ) (Cp Cn eps : ℚ) (qpsize : Nat) (hb : b_.length = l)
    (hfeas : ∀ i, i < l → 0 ≤ alpha_.getD i 0 ∧
      alpha_.getD i 0 ≤ (if y_.getD i 0 > 0 then Cp else Cn)) :
    (Solver_B.init l Q b_ y_ alpha_ Cp Cn eps true qpsize).Inv
      (Solver_B.init l Q b_ y_ alpha_ Cp Cn eps true qpsize).active_size := by
  have hstat := Solver_B.StatusOk_init l Q b_ y_ alpha_ Cp Cn eps true qpsize
  obtain ⟨s0, hs0⟩ : ∃ s0 : Solver_B, s0 =
      { active_size := l, G := (List.range l).map (fun i => b_.getD i 0),
        alpha_status := List.replicate l Status.LOWER_BOUND,
        alpha := (List.range l).map (fun i => alpha_.getD i 0), Q := Q, eps := eps,
        active_set := List.range l, G_bar := List.replicate l 0, l := l, unshrinked := false,
        qpsize := qpsize, working_set := [], Cp := Cp, Cn := Cn, b := b_,
        y := (List.range l).map (fun i => y_.getD i 0) } := ⟨_, rfl⟩
  obtain ⟨s1, hs1⟩ : ∃ s1 : Solver_B,
      s1 = for_loop 0 l (fun i s => s.update_alpha_status i) s0 := ⟨_, rfl⟩
  have fr1 : s1 = { s0 with alpha_status := s1.alpha_status } := by
    rw [hs1]
    refine for_loop_induction
      (fun _ (t : Solver_B) => t = { s0 with alpha_status := t.alpha_status })
      0 l _ s0 (Nat.zero_le _) rfl ?_
    intro i t _ _ h
    beta_reduce
    rw [Solver_B.update_alpha_status_spec]
    simp only []
    rw [h]
  have e1G : s1.G = (List.range l).map (fun i => b_.getD i 0) := by rw [fr1, hs0]
  have e1Gb : s1.G_bar = List.replicate l 0 := by rw [fr1, hs0]
  have e1a : s1.alpha = (List.range l).map (fun i => alpha_.getD i 0) := by rw [fr1, hs0]
  have e1y : s1.y = (List.range l).map (fun i => y_.getD i 0) := by rw [fr1, hs0]
  have e1Q : s1.Q = Q := by rw [fr1, hs0]
  have e1l : s1.l = l := by rw [fr1, hs0]
  have e1A : s1.active_size = l := by rw [fr1, hs0]
  have e1b : s1.b = b_ := by rw [fr1, hs0]
  have e1Cp : s1.Cp = Cp := by rw [fr1, hs0]
  have e1Cn : s1.Cn = Cn := by rw [fr1, hs0]
  obtain ⟨body, hbody⟩ : ∃ body : Nat → Solver_B → Solver_B, body =
      fun i s =>
        if !s.is_lower_bound i then
          if true && Solver_B.is_upper_bound
              { s with G := add_row s.G 0 l (s.alpha.getD i 0) (s.Q i) } i then
            { s with G := add_row s.G 0 l (s.alpha.getD i 0) (s.Q i)
                     G_bar := add_row s.G_bar 0 l (s.get_C i) (s.Q i) }
          else { s with G := add_row s.G 0 l (s.alpha.getD i 0) (s.Q i) }
        else s := ⟨_, rfl⟩
  have hinit : Solver_B.init l Q b_ y_ alpha_ Cp Cn eps true qpsize = for_loop 0 l body s1 := by
    rw [hs1, hs0, hbody]; rfl
  rw [hinit] at hstat ⊢
  obtain ⟨fr2, lG, lGb, hG, hGb⟩ := for_loop_induction
    (fun n (t : Solver_B) => t = { s1 with G := t.G, G_bar := t.G_bar } ∧
      t.G.length = l ∧ t.G_bar.length = l ∧
      (∀ j, j < l → t.G.getD j 0 = b_.getD j 0 +
        ∑ i in Finset.range n,
          (if s1.is_lower_bound i then 0 else s1.alpha.getD i 0 * s1.Q i j)) ∧
      (∀ j, j < l → t.G_bar.getD j 0 =
        ∑ i in Finset.range n, (if s1.is_upper_bound i then s1.get_C i * s1.Q i j else 0)))
    0 l body s1 (Nat.zero_le _)
    ⟨rfl, by rw [e1G]; simp, by rw [e1Gb]; simp,
      by
        intro j hj
        rw [e1G, getD_map_range _ l j hj, Finset.sum_range_zero, add_zero],
      by
        intro j hj
        rw [e1Gb, Finset.sum_range_zero, List.getD_eq_getElem?_getD,
          List.getElem?_replicate, if_pos hj]
        rfl⟩
    (by
      intro i t _ hi ⟨f, g1, g2, g3, g4⟩
      have elow : t.is_lower_bound i = s1.is_lower_bound i := by
        unfold Solver_B.is_lower_bound; rw [f]
      have eup : ∀ G2 : List ℚ, Solver_B.is_upper_bound { t with G := G2 } i =
          s1.is_upper_bound i := by
        intro G2; unfold Solver_B.is_upper_bound; rw [f]
      have eal : t.alpha = s1.alpha := by rw [f]
      have eQ : t.Q = s1.Q := by rw [f]
      have eC : t.get_C i = s1.get_C i := by unfold Solver_B.get_C; rw [f]
      rw [hbody]
      beta_reduce
      rw [elow, eup, eal, eQ, eC]
      by_cases hlow : s1.is_lower_bound i = true
      · simp only [hlow, Bool.not_true, Bool.false_eq_true, if_false]
        refine ⟨f, g1, g2, ?_, ?_⟩
        · intro j hj
          rw [g3 j hj, Finset.sum_range_succ, if_pos hlow, add_zero]
        · intro j hj
          have hnu : s1.is_upper_bound i = false := by
            unfold Solver_B.is_lower_bound at hlow
            unfold Solver_B.is_upper_bound
            simp only [decide_eq_true_eq] at hlow
            rw [hlow]
            rfl
          rw [g4 j hj, Finset.sum_range_succ, hnu]
          simp
      · have hlow2 : s1.is_lower_bound i = false := by simpa using hlow
        simp only [hlow2, Bool.not_false, if_true, Bool.true_and]
        by_cases hup : s1.is_upper_bound i = true
        · simp only [hup, if_true]
          refine ⟨by rw [f], by simp [(add_row_spec _ _ _ _ _).1, g1],
            by simp [(add_row_spec _ _ _ _ _).1, g2], ?_, ?_⟩
          · intro j hj
            rw [(add_row_spec _ _ _ _ _).2 j, if_pos ⟨Nat.zero_le _, hj, by omega⟩, g3 j hj,
              Finset.sum_range_succ, hlow2]
            simp only [Bool.false_eq_true, if_false]
            ring
          · intro j hj
            rw [(add_row_spec _ _ _ _ _).2 j, if_pos ⟨Nat.zero_le _, hj, by omega⟩, g4 j hj,
              Finset.sum_range_succ, if_pos hup]
        · have hup2 : s1.is_upper_bound i = false := by simpa using hup
          simp only [hup2, Bool.false_eq_true, if_false]
          refine ⟨by rw [f], by simp [(add_row_spec _ _ _ _ _).1, g1], g2,
            ?_, ?_⟩
          · intro j hj
            rw [(add_row_spec _ _ _ _ _).2 j, if_pos ⟨Nat.zero_le _, hj, by omega⟩, g3 j hj,
              Finset.sum_range_succ, hlow2]
            simp only [Bool.false_eq_true, if_false]
            ring
          · intro j hj
            rw [g4 j hj, Finset.sum_range_succ, hup2]
            simp)
  generalize for_loop 0 l body s1 = t at *
  have tl : t.l = l := by rw [fr2]; exact e1l
  have tA : t.active_size = l := by rw [fr2]; exact e1A
  have tb : t.b = b_ := by rw [fr2]; exact e1b
  have tal : t.alpha = s1.alpha := by rw [fr2]
  have tQ : t.Q = s1.Q := by rw [fr2]
  have tst : t.alpha_status = s1.alpha_status := by rw [fr2]
  have tC : ∀ k, t.get_C k = s1.get_C k := by
    intro k; unfold Solver_B.get_C; rw [fr2]
  have tC2 : ∀ k, k < l → t.get_C k = (if y_.getD k 0 > 0 then Cp else Cn) := by
    intro k hk
    rw [tC]
    unfold Solver_B.get_C
    rw [e1y, e1Cp, e1Cn, getD_map_range_int _ l k hk]
  have ta2 : ∀ k, k < l → t.alpha.getD k 0 = alpha_.getD k 0 := by
    intro k hk
    rw [tal, e1a, getD_map_range _ l k hk]
  have hboxt : ∀ i, i < t.l → 0 ≤ t.alpha.getD i 0 ∧ t.alpha.getD i 0 ≤ t.get_C i := by
    intro i hi
    rw [tl] at hi
    rw [ta2 i hi, tC2 i hi]
    exact hfeas i hi
  refine ⟨hstat, by rw [tA, tl], by rw [lG, tl], by rw [lGb, tl], by rw [tb, tl]; exact hb,
    hboxt, ?_, ?_, ?_⟩
  · intro j hj
    rw [tl] at hj
    rw [hGb j hj]
    unfold Solver_B.upper_sum Solver_B.is_upper_bound
    rw [tl, tst, tQ]
    apply Finset.sum_congr rfl
    intro i _
    rw [tC]
  · intro j hj
    rw [tA] at hj
    rw [hG j hj]
    unfold Solver_B.gradient
    rw [tb, tl, tal, tQ]
    congr 1
    apply Finset.sum_congr rfl
    intro i hi
    have hil := Finset.mem_range.mp hi
    by_cases hlow : s1.is_lower_bound i = true
    · rw [if_pos hlow]
      obtain ⟨_, _, _, hst⟩ := hstat
      have e := hst i (by rw [tl]; exact hil)
      obtain ⟨b1, b2⟩ := hboxt i (by rw [tl]; exact hil)
      unfold Solver_B.is_lower_bound at hlow
      simp only [decide_eq_true_eq] at hlow
      rw [tst, hlow] at e
      have e2 : Status.LOWER_BOUND = status_of (t.alpha.getD i 0) (t.get_C i) :=
        Option.some.inj e
      unfold status_of at e2
      have hz : t.alpha.getD i 0 = 0 := by
        by_cases c1 : t.alpha.getD i 0 ≥ t.get_C i
        · rw [if_pos c1] at e2; exact absurd e2 (by decide)
        · rw [if_neg c1] at e2
          by_cases c2 : t.alpha.getD i 0 ≤ 0
          · exact le_antisymm c2 b1
          · rw [if_neg c2] at e2; exact absurd e2 (by decide)
      rw [← tal, hz, zero_mul]
    · rw [if_neg hlow]
  · intro k hk1 hk2
    rw [tA] at hk1
    rw [tl] at hk2
    omega


/-- The sample sub-problem solver returns points in the box. -/
theorem box_solver_diag : box_solver solvebqp_diag := by
  intro qp i hi hC
  unfold solvebqp_diag
  rw [getD_map_range _ qp.n i hi]
  exact ⟨le_max_left _ _, max_le hC (min_le_left _ _)⟩

/-- The invariant of `G` and `G_bar` holds at the head of every pass of the loop of
`Solver_B::Solve` with shrinking, for a starting point inside the box and a sub-problem
solver that returns points in the box. -/
theorem Solver_B.Inv_loop_head (solvebqp : BQP → List ℚ) (hbox : box_solver solvebqp)
    (l : Nat) (Q : Nat → Nat → ℚ) (b_ : List ℚ) (y_ : List Int) (alpha_ : List ℚ)
    (Cp Cn eps : ℚ) (qpsize : Nat) (hb : b_.length = l)
    (hfeas : ∀ i, i < l → 0 ≤ alpha_.getD i 0 ∧
      alpha_.getD i 0 ≤ (if y_.getD i 0 > 0 then Cp else Cn))
    (n : Nat) (c0 : Int) (s : Solver_B) (c : Int)
    (h : loop_head (Solver_B.ops solvebqp true) true n
      (Solver_B.init l Q b_ y_ alpha_ Cp Cn eps true qpsize) c0 = some (s, c)) :
    s.Inv s.active_size := by
  refine loop_head_invariant (Solver_B.ops solvebqp true) true
    (fun s => s.Inv s.active_size)
    (fun s => s.Inv s.active_size ∧ ∀ k, k ∈ s.working_set → k < s.active_size)
    ?_ ?_ ?_ ?_ ?_ n _ c0 s c
    (Solver_B.Inv_init l Q b_ y_ alpha_ Cp Cn eps qpsize hb hfeas) h
  · intro t ht
    exact Solver_B.Inv_do_shrinking t ht
  · intro t ht
    exact ⟨Solver_B.Inv_select_working_set t _ ht,
      (Solver_B.select_working_set_spec t).2.2.2.2.2⟩
  · rintro t ⟨ht, -⟩
    exact Solver_B.Inv_full_active t ht
  · intro t ht
    exact ht
  · rintro t ⟨ht, hws⟩
    exact Solver_B.Inv_update solvebqp hbox t ht hws



/-! ### The order of the variables -/


theorem swap_pos_ne (i j a b : Nat) (h : a ≠ b) : swap_pos i j a ≠ swap_pos i j b := by
  intro e
  have := congrArg (swap_pos i j) e
  rw [swap_pos_swap_pos, swap_pos_swap_pos] at this
  exact h this

/-- A swap keeps an array without repetitions without repetitions. -/
theorem swap_at_nodup {β : Type} (xs : List β) (i j : Nat) (hi : i < xs.length)
    (hj : j < xs.length) (h : xs.Nodup) : (swap_at xs i j).Nodup := by
  rw [List.nodup_iff_getElem?_ne_getElem?] at h ⊢
  intro a b hab hb
  rw [length_swap_at] at hb
  rw [swap_at_getElem? xs i j a hi hj, swap_at_getElem? xs i j b hi hj]
  have ha2 : swap_pos i j a < xs.length := swap_pos_lt i j a _ hi hj (by omega)
  have hb2 : swap_pos i j b < xs.length := swap_pos_lt i j b _ hi hj hb
  have hne := swap_pos_ne i j a b (by omega)
  rcases Nat.lt_or_gt_of_ne hne with hlt | hgt
  · exact h _ _ hlt hb2
  · exact fun e => h _ _ hgt ha2 e.symm

/-- A swap keeps the entries of an array. -/
theorem mem_swap_at {β : Type} (xs : List β) (i j : Nat) (hi : i < xs.length)
    (hj : j < xs.length) (x : β) : x ∈ swap_at xs i j ↔ x ∈ xs := by
  rw [List.mem_iff_getElem?, List.mem_iff_getElem?]
  constructor
  · rintro ⟨n, hn⟩
    rw [swap_at_getElem? xs i j n hi hj] at hn
    exact ⟨_, hn⟩
  · rintro ⟨n, hn⟩
    refine ⟨swap_pos i j n, ?_⟩
    rw [swap_at_getElem? xs i j _ hi hj, swap_pos_swap_pos]
    exact hn

/-- A swap of two positions below `l` keeps `active_set` a permutation of `0..l-1`. -/
theorem swap_at_perm_range (xs : List Nat) (l i j : Nat) (h : xs.Perm (List.range l))
    (hi : i < l) (hj : j < l) : (swap_at xs i j).Perm (List.range l) := by
  have hlen : xs.length = l := by rw [h.length_eq, List.length_range]
  have hnd : xs.Nodup := h.nodup_iff.mpr (List.nodup_range l)
  refine List.Perm.trans ?_ h
  rw [List.perm_ext_iff_of_nodup (swap_at_nodup xs i j (by omega) (by omega) hnd) hnd]
  intro a
  exact mem_swap_at xs i j (by omega) (by omega) a

/-- The position of an entry after a swap. -/
theorem indexOf_swap_at (xs : List Nat) (i j o : Nat) (hi : i < xs.length)
    (hj : j < xs.length) (hnd : xs.Nodup) (ho : o ∈ xs) :
    (swap_at xs i j).indexOf o = swap_pos i j (xs.indexOf o) := by
  have hp : xs.indexOf o < xs.length := List.indexOf_lt_length.mpr ho
  have hq : swap_pos i j (xs.indexOf o) < (swap_at xs i j).length := by
    rw [length_swap_at]; exact swap_pos_lt i j _ _ hi hj hp
  have e : (swap_at xs i j)[swap_pos i j (xs.indexOf o)] = o := by
    have := swap_at_getElem? xs i j (swap_pos i j (xs.indexOf o)) hi hj
    rw [swap_pos_swap_pos, List.getElem?_eq_getElem hq, List.getElem?_eq_getElem hp,
      List.getElem_indexOf hp] at this
    exact Option.some.inj this
  have := List.indexOf_getElem (swap_at_nodup xs i j hi hj hnd) _ hq
  rw [e] at this
  exact this

/-- The entry that an array swapped along with `active_set` holds for the original index
`o` is the one it held before. -/
theorem origin_swap {β : Type} (xs : List Nat) (X : List β) (i j o : Nat)
    (hi : i < xs.length) (hj : j < xs.length) (hX : X.length = xs.length) (hnd : xs.Nodup)
    (ho : o ∈ xs) :
    (swap_at X i j)[(swap_at xs i j).indexOf o]? = X[xs.indexOf o]? := by
  rw [indexOf_swap_at xs i j o hi hj hnd ho, swap_at_getElem? X i j _ (by omega) (by omega),
    swap_pos_swap_pos]

/-- The loop "initialize active set" yields the identity. -/
theorem initial_active_set_eq (l : Nat) : initial_active_set l = List.range l := by
  unfold initial_active_set
  obtain ⟨h1, h2⟩ := for_loop_induction
    (fun n (a : List Nat) => a.length = l ∧ ∀ k, k < n → a[k]? = some k)
    0 l (fun i a => a.set i i) (List.replicate l 0) (Nat.zero_le _)
    ⟨by simp, fun k hk => absurd hk (Nat.not_lt_zero _)⟩
    (by
      intro i a _ hi ⟨g1, g2⟩
      refine ⟨by rw [List.length_set]; exact g1, ?_⟩
      intro k hk
      by_cases hki : k = i
      · subst hki
        exact List.getElem?_set_self (by omega)
      · rw [List.getElem?_set_ne (fun e => hki e.symm)]
        exact g2 k (by omega))
  apply List.ext_getElem?
  intro n
  by_cases hn : n < l
  · rw [h2 n hn, List.getElem?_range hn]
  · rw [List.getElem?_eq_none (by omega), List.getElem?_eq_none (by simp; omega)]

/-- The loop "put back the solution": the entry `active_set[p]` of the result is
`alpha[p]`, and the result has the length of `alpha_`. -/
theorem put_back_spec (l : Nat) (active_set : List Nat) (alpha alpha_ : List ℚ)
    (hnd : active_set.Nodup) (hlen : active_set.length = l)
    (hin : ∀ p, p < l → active_set.getD p 0 < alpha_.length) :
    (put_back l active_set alpha alpha_).length = alpha_.length ∧
    ∀ p, p < l →
      (put_back l active_set alpha alpha_)[active_set.getD p 0]? = some (alpha.getD p 0) := by
  unfold put_back
  have hne : ∀ p q, p < l → q < l → p ≠ q → active_set.getD p 0 ≠ active_set.getD q 0 := by
    intro p q hp hq hpq e
    have hp2 : p < active_set.length := by omega
    have hq2 : q < active_set.length := by omega
    rw [List.getD_eq_getElem _ _ hp2, List.getD_eq_getElem _ _ hq2] at e
    exact hpq ((List.Nodup.getElem_inj_iff hnd).mp e)
  obtain ⟨h1, h2⟩ := for_loop_induction
    (fun n (out : List ℚ) => out.length = alpha_.length ∧
      ∀ p, p < n → out[active_set.getD p 0]? = some (alpha.getD p 0))
    0 l (fun i out => out.set (active_set.getD i 0) (alpha.getD i 0)) alpha_ (Nat.zero_le _)
    ⟨rfl, fun k hk => absurd hk (Nat.not_lt_zero _)⟩
    (by
      intro i out _ hi ⟨g1, g2⟩
      refine ⟨by rw [List.length_set]; exact g1, ?_⟩
      intro p hp
      by_cases hpi : p = i
      · subst hpi
        exact List.getElem?_set_self (by rw [g1]; exact hin p hi)
      · rw [List.getElem?_set_ne (hne i p hi (by omega) (fun e => hpi e.symm))]
        exact g2 p (by omega))
  exact ⟨h1, h2⟩


/-- In a permutation of `0..l-1` every `o < l` stands at exactly one position. -/
theorem perm_range_position (xs : List Nat) (l o : Nat) (h : xs.Perm (List.range l))
    (ho : o < l) :
    xs.indexOf o < l ∧ xs[xs.indexOf o]? = some o ∧
      ∀ p, xs[p]? = some o → p = xs.indexOf o := by
  have hlen : xs.length = l := by rw [h.length_eq, List.length_range]
  have hnd : xs.Nodup := h.nodup_iff.mpr (List.nodup_range l)
  have hmem : o ∈ xs := h.mem_iff.mpr (List.mem_range.mpr ho)
  have hp : xs.indexOf o < xs.length := List.indexOf_lt_length.mpr hmem
  refine ⟨by omega, List.getElem?_indexOf hmem, ?_⟩
  intro p hpo
  have hpl : p < xs.length := by
    by_contra hc
    rw [List.getElem?_eq_none (by omega)] at hpo
    exact absurd hpo (by simp)
  rw [List.getElem?_eq_getElem hpl] at hpo
  have := List.indexOf_getElem hnd p hpl
  rw [Option.some.inj hpo] at this
  exact this.symm

/-- `Solver_B::swap_index(i, j)` keeps `active_set` a permutation of `0..l-1` and keeps
the record of every original index. -/
theorem Solver_B.Ordered_swap_index (s : Solver_B) (i j : Nat) (hi : i < s.l) (hj : j < s.l)
    (h : s.Ordered) :
    (s.swap_index i j).Ordered ∧ (s.swap_index i j).l = s.l ∧
      ∀ o, o < s.l → (s.swap_index i j).origin_record o = s.origin_record o := by
  obtain ⟨h1, h2, h3, h4, h5⟩ := h
  have hlen : s.active_set.length = s.l := by rw [h1.length_eq, List.length_range]
  have hnd : s.active_set.Nodup := h1.nodup_iff.mpr (List.nodup_range s.l)
  refine ⟨⟨swap_at_perm_range _ _ _ _ h1 hi hj, ?_, ?_, ?_, ?_⟩, rfl, ?_⟩
  · show (swap_at s.alpha i j).length = s.l
    rw [length_swap_at]; exact h2
  · show (swap_at s.G i j).length = s.l
    rw [length_swap_at]; exact h3
  · show (swap_at s.alpha_status i j).length = s.l
    rw [length_swap_at]; exact h4
  · show (swap_at s.y i j).length = s.l
    rw [length_swap_at]; exact h5
  · intro o ho
    have hmem : o ∈ s.active_set := h1.mem_iff.mpr (List.mem_range.mpr ho)
    show ((swap_at s.active_set i j)[(swap_at s.active_set i j).indexOf o]?,
      (swap_at s.alpha i j)[(swap_at s.active_set i j).indexOf o]?,
      (swap_at s.G i j)[(swap_at s.active_set i j).indexOf o]?,
      (swap_at s.alpha_status i j)[(swap_at s.active_set i j).indexOf o]?,
      (swap_at s.y i j)[(swap_at s.active_set i j).indexOf o]?) = _
    rw [origin_swap s.active_set s.active_set i j o (by omega) (by omega) rfl hnd hmem,
      origin_swap s.active_set s.alpha i j o (by omega) (by omega) (by omega) hnd hmem,
      origin_swap s.active_set s.G i j o (by omega) (by omega) (by omega) hnd hmem,
      origin_swap s.active_set s.alpha_status i j o (by omega) (by omega) (by omega) hnd hmem,
      origin_swap s.active_set s.y i j o (by omega) (by omega) (by omega) hnd hmem]
    rfl

/-- Any sequence of calls of `Solver_B::swap_index` on positions below `l` keeps
`active_set` a permutation and the record of every original index. -/
theorem Solver_B.Ordered_swaps (es : List (Nat × Nat)) : ∀ (s : Solver_B),
    (∀ e, e ∈ es → e.1 < s.l ∧ e.2 < s.l) → s.Ordered →
    (s.swaps es).Ordered ∧ (s.swaps es).l = s.l ∧
      ∀ o, o < s.l → (s.swaps es).origin_record o = s.origin_record o := by
  induction es with
  | nil => intro s _ h; exact ⟨h, rfl, fun _ _ => rfl⟩
  | cons e es ih =>
    intro s hes h
    obtain ⟨a1, a2, a3⟩ := Solver_B.Ordered_swap_index s e.1 e.2
      (hes e (List.mem_cons_self _ _)).1 (hes e (List.mem_cons_self _ _)).2 h
    obtain ⟨b1, b2, b3⟩ := ih (s.swap_index e.1 e.2)
      (fun e2 he2 => by rw [a2]; exact hes e2 (List.mem_cons_of_mem _ he2)) a1
    refine ⟨b1, by rw [← a2]; exact b2, fun o ho => ?_⟩
    rw [← a3 o ho]
    exact b3 o (by rw [a2]; exact ho)

/-- The write-back of `Solver_B::Solve` gives every original index the coefficient of its
record. -/
theorem Solver_B.put_back_origin (s : Solver_B) (alpha_ : List ℚ) (h : s.Ordered)
    (hal : alpha_.length = s.l) :
    (put_back s.l s.active_set s.alpha alpha_).length = s.l ∧
    ∀ o, o < s.l →
      (put_back s.l s.active_set s.alpha alpha_)[o]? = (s.origin_record o).2.1 := by
  obtain ⟨h1, h2, _, _, _⟩ := h
  have hlen : s.active_set.length = s.l := by rw [h1.length_eq, List.length_range]
  have hnd : s.active_set.Nodup := h1.nodup_iff.mpr (List.nodup_range s.l)
  have hin : ∀ p, p < s.l → s.active_set.getD p 0 < alpha_.length := by
    intro p hp
    rw [hal, List.getD_eq_getElem _ _ (by omega)]
    exact List.mem_range.mp (h1.mem_iff.mp (List.getElem_mem _))
  obtain ⟨g1, g2⟩ := put_back_spec s.l s.active_set s.alpha alpha_ hnd hlen hin
  refine ⟨by rw [g1, hal], fun o ho => ?_⟩
  obtain ⟨p1, p2, _⟩ := perm_range_position s.active_set s.l o h1 ho
  have := g2 _ p1
  rw [List.getD_eq_getElem?_getD, p2] at this
  simp only [Option.getD_some] at this
  rw [this]
  show _ = s.alpha[s.active_set.indexOf o]?
  rw [List.getD_eq_getElem?_getD, List.getElem?_eq_getElem (by omega)]
  rfl

/-- `Solver_B_linear::swap_index(i, j)` keeps `active_set` a permutation of `0..l-1` and
keeps the record of every original index. -/
theorem Solver_B_linear.Ordered_swap_index_linear (s : Solver_B_linear) (i j : Nat) (hi : i < s.l)
    (hj : j < s.l) (h : s.Ordered) :
    (s.swap_index i j).Ordered ∧ (s.swap_index i j).l = s.l ∧
      ∀ o, o < s.l → (s.swap_index i j).origin_record o = s.origin_record o := by
  obtain ⟨h1, h2, h3, h4, h5⟩ := h
  have hlen : s.active_set.length = s.l := by rw [h1.length_eq, List.length_range]
  have hnd : s.active_set.Nodup := h1.nodup_iff.mpr (List.nodup_range s.l)
  refine ⟨⟨swap_at_perm_range _ _ _ _ h1 hi hj, ?_, ?_, ?_, ?_⟩, rfl, ?_⟩
  · show (swap_at s.alpha i j).length = s.l
    rw [length_swap_at]; exact h2
  · show (swap_at s.G i j).length = s.l
    rw [length_swap_at]; exact h3
  · show (swap_at s.alpha_status i j).length = s.l
    rw [length_swap_at]; exact h4
  · show (swap_at s.y i j).length = s.l
    rw [length_swap_at]; exact h5
  · intro o ho
    have hmem : o ∈ s.active_set := h1.mem_iff.mpr (List.mem_range.mpr ho)
    show ((swap_at s.active_set i j)[(swap_at s.active_set i j).indexOf o]?,
      (swap_at s.alpha i j)[(swap_at s.active_set i j).indexOf o]?,
      (swap_at s.G i j)[(swap_at s.active_set i j).indexOf o]?,
      (swap_at s.alpha_status i j)[(swap_at s.active_set i j).indexOf o]?,
      (swap_at s.y i j)[(swap_at s.active_set i j).indexOf o]?) = _
    rw [origin_swap s.active_set s.active_set i j o (by omega) (by omega) rfl hnd hmem,
      origin_swap s.active_set s.alpha i j o (by omega) (by omega) (by omega) hnd hmem,
      origin_swap s.active_set s.G i j o (by omega) (by omega) (by omega) hnd hmem,
      origin_swap s.active_set s.alpha_status i j o (by omega) (by omega) (by omega) hnd hmem,
      origin_swap s.active_set s.y i j o (by omega) (by omega) (by omega) hnd hmem]
    rfl

/-- Any sequence of calls of `Solver_B_linear::swap_index` on positions below `l` keeps
`active_set` a permutation and the record of every original index. -/
theorem Solver_B_linear.Ordered_swaps_linear (es : List (Nat × Nat)) : ∀ (s : Solver_B_linear),
    (∀ e, e ∈ es → e.1 < s.l ∧ e.2 < s.l) → s.Ordered →
    (s.swaps es).Ordered ∧ (s.swaps es).l = s.l ∧
      ∀ o, o < s.l → (s.swaps es).origin_record o = s.origin_record o := by
  induction es with
  | nil => intro s _ h; exact ⟨h, rfl, fun _ _ => rfl⟩
  | cons e es ih =>
    intro s hes h
    obtain ⟨a1, a2, a3⟩ := Solver_B_linear.Ordered_swap_index_linear s e.1 e.2
      (hes e (List.mem_cons_self _ _)).1 (hes e (List.mem_cons_self _ _)).2 h
    obtain ⟨b1, b2, b3⟩ := ih (s.swap_index e.1 e.2)
      (fun e2 he2 => by rw [a2]; exact hes e2 (List.mem_cons_of_mem _ he2)) a1
    refine ⟨b1, by rw [← a2]; exact b2, fun o ho => ?_⟩
    rw [← a3 o ho]
    exact b3 o (by rw [a2]; exact ho)

/-- The write-back of `Solver_B_linear::Solve` gives every original index the coefficient
of its record. -/
theorem Solver_B_linear.put_back_origin_linear (s : Solver_B_linear) (alpha_ : List ℚ)
    (h : s.Ordered) (hal : alpha_.length = s.l) :
    (put_back s.l s.active_set s.alpha alpha_).length = s.l ∧
    ∀ o, o < s.l →
      (put_back s.l s.active_set s.alpha alpha_)[o]? = (s.origin_record o).2.1 := by
  obtain ⟨h1, h2, _, _, _⟩ := h
  have hlen : s.active_set.length = s.l := by rw [h1.length_eq, List.length_range]
  have hnd : s.active_set.Nodup := h1.nodup_iff.mpr (List.nodup_range s.l)
  have hin : ∀ p, p < s.l → s.active_set.getD p 0 < alpha_.length := by
    intro p hp
    rw [hal, List.getD_eq_getElem _ _ (by omega)]
    exact List.mem_range.mp (h1.mem_iff.mp (List.getElem_mem _))
  obtain ⟨g1, g2⟩ := put_back_spec s.l s.active_set s.alpha alpha_ hnd hlen hin
  refine ⟨by rw [g1, hal], fun o ho => ?_⟩
  obtain ⟨p1, p2, _⟩ := perm_range_position s.active_set s.l o h1 ho
  have := g2 _ p1
  rw [List.getD_eq_getElem?_getD, p2] at this
  simp only [Option.getD_some] at this
  rw [this]
  show _ = s.alpha[s.active_set.indexOf o]?
  rw [List.getD_eq_getElem?_getD, List.getElem?_eq_getElem (by omega)]
  rfl


theorem block_lt (l nr i m : Nat) (hi : i < l) (hm : m < nr) : i * nr + m < l * nr := by
  have : (i + 1) * nr ≤ l * nr := Nat.mul_le_mul_right nr hi
  rw [Nat.succ_mul] at this
  omega

theorem block_ne (nr a b m n : Nat) (hm : m < nr) (hn : n < nr) (h : a ≠ b ∨ m ≠ n) :
    a * nr + m ≠ b * nr + n := by
  intro e
  obtain ⟨e1, e2⟩ := flat_inj nr b n a m hn hm e
  rcases h with h | h
  · exact h e1
  · exact h e2

/-- The block swap of `Solver_SPOC::swap_index`: the entry of class `m` of point `k` after
the loop is the entry of class `m` of the point that was swapped with `k`. -/
theorem swap_block_getElem? {β : Type} (X : List β) (nr l i j : Nat)
    (hX : X.length = l * nr) (hi : i < l) (hj : j < l) :
    (swap_block X nr i j).length = l * nr ∧
    ∀ k m, m < nr → (swap_block X nr i j)[k * nr + m]? = X[swap_pos i j k * nr + m]? := by
  unfold swap_block
  obtain ⟨h1, h2⟩ := for_loop_induction
    (fun n (a : List β) => a.length = l * nr ∧
      ∀ k m, m < nr → a[k * nr + m]? =
        if m < n then X[swap_pos i j k * nr + m]? else X[k * nr + m]?)
    0 nr (fun m a => swap_at a (i * nr + m) (j * nr + m)) X (Nat.zero_le _)
    ⟨hX, fun k m _ => by rw [if_neg (by omega)]⟩
    (by
      intro n a _ hn ⟨g1, g2⟩
      refine ⟨by rw [length_swap_at]; exact g1, ?_⟩
      intro k m hm
      have hin := block_lt l nr i n hi hn
      have hjn := block_lt l nr j n hj hn
      rw [swap_at_getElem? a _ _ _ (by omega) (by omega)]
      by_cases hmn : m = n
      · subst hmn
        have e : swap_pos (i * nr + m) (j * nr + m) (k * nr + m) =
            swap_pos i j k * nr + m := by
          unfold swap_pos
          by_cases c1 : k = i
          · subst c1; rw [if_pos rfl, if_pos rfl]
          · rw [if_neg (block_ne nr k i m m hm hm (Or.inl c1)), if_neg c1]
            by_cases c2 : k = j
            · subst c2; rw [if_pos rfl, if_pos rfl]
            · rw [if_neg (block_ne nr k j m m hm hm (Or.inl c2)), if_neg c2]
        rw [e, g2 _ m hm, if_neg (by omega), if_pos (by omega)]
      · have e : swap_pos (i * nr + n) (j * nr + n) (k * nr + m) = k * nr + m := by
          unfold swap_pos
          rw [if_neg (block_ne nr k i m n hm hn (Or.inr hmn)),
            if_neg (block_ne nr k j m n hm hn (Or.inr hmn))]
        rw [e, g2 k m hm]
        by_cases c : m < n
        · rw [if_pos c, if_pos (by omega)]
        · rw [if_neg c, if_neg (by omega)])
  refine ⟨h1, fun k m hm => ?_⟩
  rw [h2 k m hm, if_pos hm]

/-- `Solver_SPOC::swap_index(i, j)` keeps `active_set` a permutation of `0..l-1` and keeps
the record of every original index and class. -/
theorem Solver_SPOC.Ordered_swap_index_block (s : Solver_SPOC) (i j : Nat) (hi : i < s.l)
    (hj : j < s.l) (h : s.Ordered) :
    (s.swap_index i j).Ordered ∧ (s.swap_index i j).l = s.l ∧
      (s.swap_index i j).nr_class = s.nr_class ∧
      ∀ o m, o < s.l → m < s.nr_class →
        (s.swap_index i j).origin_record o m = s.origin_record o m := by
  obtain ⟨h1, h2, h3, h4, h5⟩ := h
  have hlen : s.active_set.length = s.l := by rw [h1.length_eq, List.length_range]
  have hnd : s.active_set.Nodup := h1.nodup_iff.mpr (List.nodup_range s.l)
  obtain ⟨a1, a2⟩ := swap_block_getElem? s.alpha s.nr_class s.l i j h2 hi hj
  obtain ⟨b1, b2⟩ := swap_block_getElem? s.G s.nr_class s.l i j h3 hi hj
  obtain ⟨c1, c2⟩ := swap_block_getElem? s.alpha_status s.nr_class s.l i j h4 hi hj
  refine ⟨⟨swap_at_perm_range _ _ _ _ h1 hi hj, a1, b1, c1, ?_⟩, rfl, rfl, ?_⟩
  · show (swap_at s.y i j).length = s.l
    rw [length_swap_at]; exact h5
  · intro o m ho hm
    have hmem : o ∈ s.active_set := h1.mem_iff.mpr (List.mem_range.mpr ho)
    have hidx := indexOf_swap_at s.active_set i j o (by omega) (by omega) hnd hmem
    show ((swap_at s.active_set i j)[(swap_at s.active_set i j).indexOf o]?,
      (swap_block s.alpha s.nr_class i j)[(swap_at s.active_set i j).indexOf o * s.nr_class
        + m]?,
      (swap_block s.G s.nr_class i j)[(swap_at s.active_set i j).indexOf o * s.nr_class
        + m]?,
      (swap_block s.alpha_status s.nr_class i j)[(swap_at s.active_set i j).indexOf o *
        s.nr_class + m]?,
      (swap_at s.y i j)[(swap_at s.active_set i j).indexOf o]?) = _
    rw [origin_swap s.active_set s.active_set i j o (by omega) (by omega) rfl hnd hmem,
      origin_swap s.active_set s.y i j o (by omega) (by omega) (by omega) hnd hmem,
      a2 _ m hm, b2 _ m hm, c2 _ m hm, hidx, swap_pos_swap_pos]
    rfl

/-- Any sequence of calls of `Solver_SPOC::swap_index` on positions below `l` keeps
`active_set` a permutation and the record of every original index and class. -/
theorem Solver_SPOC.Ordered_swaps_block (es : List (Nat × Nat)) : ∀ (s : Solver_SPOC),
    (∀ e, e ∈ es → e.1 < s.l ∧ e.2 < s.l) → s.Ordered →
    (s.swaps es).Ordered ∧ (s.swaps es).l = s.l ∧ (s.swaps es).nr_class = s.nr_class ∧
      ∀ o m, o < s.l → m < s.nr_class →
        (s.swaps es).origin_record o m = s.origin_record o m := by
  induction es with
  | nil => intro s _ h; exact ⟨h, rfl, rfl, fun _ _ _ _ => rfl⟩
  | cons e es ih =>
    intro s hes h
    obtain ⟨a1, a2, a3, a4⟩ := Solver_SPOC.Ordered_swap_index_block s e.1 e.2
      (hes e (List.mem_cons_self _ _)).1 (hes e (List.mem_cons_self _ _)).2 h
    obtain ⟨b1, b2, b3, b4⟩ := ih (s.swap_index e.1 e.2)
      (fun e2 he2 => by rw [a2]; exact hes e2 (List.mem_cons_of_mem _ he2)) a1
    refine ⟨b1, by rw [← a2]; exact b2, by rw [← a3]; exact b3, fun o m ho hm => ?_⟩
    rw [← a4 o m ho hm]
    exact b4 o m (by rw [a2]; exact ho) (by rw [a3]; exact hm)

/-- The inner loop of the write-back of `Solver_SPOC::Solve` writes one block. -/
theorem set_block_spec (out : List ℚ) (nr base : Nat) (v : Nat → ℚ) :
    (for_loop 0 nr (fun m o => o.set (base * nr + m) (v m)) out).length = out.length ∧
    ∀ idx, (for_loop 0 nr (fun m o => o.set (base * nr + m) (v m)) out)[idx]? =
      if base * nr ≤ idx ∧ idx < base * nr + nr ∧ idx < out.length then
        some (v (idx - base * nr))
      else out[idx]? := by
  obtain ⟨h1, h2⟩ := for_loop_induction
    (fun n (o : List ℚ) => o.length = out.length ∧ ∀ idx, o[idx]? =
      if base * nr ≤ idx ∧ idx < base * nr + n ∧ idx < out.length then
        some (v (idx - base * nr))
      else out[idx]?)
    0 nr (fun m o => o.set (base * nr + m) (v m)) out (Nat.zero_le _)
    ⟨rfl, fun idx => by rw [if_neg (by omega)]⟩
    (by
      intro n o _ hn ⟨g1, g2⟩
      refine ⟨by rw [List.length_set]; exact g1, ?_⟩
      intro idx
      by_cases hidx : idx = base * nr + n
      · subst hidx
        by_cases hl : base * nr + n < out.length
        · rw [List.getElem?_set_self (by omega), if_pos ⟨by omega, by omega, hl⟩]
          congr 2
          omega
        · rw [List.getElem?_eq_none (by rw [List.length_set]; omega), if_neg (by omega),
            List.getElem?_eq_none (by omega)]
      · rw [List.getElem?_set_ne (fun e => hidx e.symm), g2 idx]
        by_cases c : base * nr ≤ idx ∧ idx < base * nr + n ∧ idx < out.length
        · rw [if_pos c, if_pos ⟨c.1, by omega, c.2.2⟩]
        · rw [if_neg c, if_neg (by omega)])
  exact ⟨h1, h2⟩

/-- The write-back of `Solver_SPOC::Solve`: the entry of class `m` of point
`active_set[p]` of the result is the entry of class `m` of position `p` of `alpha`. -/
theorem put_back_block_spec (l nr : Nat) (active_set : List Nat) (alpha alpha_ : List ℚ)
    (hnd : active_set.Nodup) (hlen : active_set.length = l)
    (hin : ∀ p, p < l → active_set.getD p 0 < l) (hal : alpha_.length = l * nr) :
    (put_back_block l nr active_set alpha alpha_).length = l * nr ∧
    ∀ p m, p < l → m < nr →
      (put_back_block l nr active_set alpha alpha_)[active_set.getD p 0 * nr + m]? =
        some (alpha.getD (p * nr + m) 0) := by
  unfold put_back_block
  have hne : ∀ p q, p < l → q < l → p ≠ q → active_set.getD p 0 ≠ active_set.getD q 0 := by
    intro p q hp hq hpq e
    have hp2 : p < active_set.length := by omega
    have hq2 : q < active_set.length := by omega
    rw [List.getD_eq_getElem _ _ hp2, List.getD_eq_getElem _ _ hq2] at e
    exact hpq ((List.Nodup.getElem_inj_iff hnd).mp e)
  obtain ⟨h1, h2⟩ := for_loop_induction
    (fun n (out : List ℚ) => out.length = l * nr ∧
      ∀ p m, p < n → m < nr →
        out[active_set.getD p 0 * nr + m]? = some (alpha.getD (p * nr + m) 0))
    0 l
    (fun i out =>
      for_loop 0 nr
        (fun m o => o.set (active_set.getD i 0 * nr + m) (alpha.getD (i * nr + m) 0)) out)
    alpha_ (Nat.zero_le _)
    ⟨hal, fun p m hp _ => absurd hp (Nat.not_lt_zero _)⟩
    (by
      intro i out _ hi ⟨g1, g2⟩
      obtain ⟨s1, s2⟩ := set_block_spec out nr (active_set.getD i 0)
        (fun m => alpha.getD (i * nr + m) 0)
      refine ⟨by rw [s1]; exact g1, ?_⟩
      intro p m hp hm
      rw [s2]
      by_cases hpi : p = i
      · subst hpi
        have := block_lt l nr (active_set.getD p 0) m (hin p hi) hm
        rw [if_pos ⟨by omega, by omega, by omega⟩]
        congr 3
        omega
      · have hd := hne p i (by omega) hi hpi
        have hblock : ¬ (active_set.getD i 0 * nr ≤ active_set.getD p 0 * nr + m ∧
            active_set.getD p 0 * nr + m < active_set.getD i 0 * nr + nr ∧
            active_set.getD p 0 * nr + m < out.length) := by
          rintro ⟨c1, c2, -⟩
          rcases Nat.lt_or_gt_of_ne hd with hlt | hgt
          · have := Nat.mul_le_mul_right nr hlt
            rw [Nat.succ_mul] at this
            omega
          · have := Nat.mul_le_mul_right nr hgt
            rw [Nat.succ_mul] at this
            omega
        rw [if_neg hblock]
        exact g2 p m (by omega) hm)
  exact ⟨h1, h2⟩

/-- The write-back of `Solver_SPOC::Solve` gives every original index and class the
coefficient of its record. -/
theorem Solver_SPOC.put_back_origin_block (s : Solver_SPOC) (alpha_ : List ℚ) (h : s.Ordered)
    (hal : alpha_.length = s.l * s.nr_class) :
    (put_back_block s.l s.nr_class s.active_set s.alpha alpha_).length = s.l * s.nr_class ∧
    ∀ o m, o < s.l → m < s.nr_class →
      (put_back_block s.l s.nr_class s.active_set s.alpha alpha_)[o * s.nr_class + m]? =
        (s.origin_record o m).2.1 := by
  obtain ⟨h1, h2, _, _, _⟩ := h
  have hlen : s.active_set.length = s.l := by rw [h1.length_eq, List.length_range]
  have hnd : s.active_set.Nodup := h1.nodup_iff.mpr (List.nodup_range s.l)
  have hin : ∀ p, p < s.l → s.active_set.getD p 0 < s.l := by
    intro p hp
    rw [List.getD_eq_getElem _ _ (by omega)]
    exact List.mem_range.mp (h1.mem_iff.mp (List.getElem_mem _))
  obtain ⟨g1, g2⟩ := put_back_block_spec s.l s.nr_class s.active_set s.alpha alpha_ hnd hlen
    hin hal
  refine ⟨g1, fun o m ho hm => ?_⟩
  obtain ⟨p1, p2, _⟩ := perm_range_position s.active_set s.l o h1 ho
  have := g2 _ m p1 hm
  rw [List.getD_eq_getElem?_getD, p2] at this
  simp only [Option.getD_some] at this
  rw [this]
  show _ = s.alpha[s.active_set.indexOf o * s.nr_class + m]?
  have hb := block_lt s.l s.nr_class (s.active_set.indexOf o) m p1 hm
  rw [List.getD_eq_getElem?_getD, List.getElem?_eq_getElem (by omega)]
  rfl


/-- The order invariant of a run of `Solver_B::Solve` on `l` points with labels `y_`
after `swap_index(i, j)` and a new `active_size`. -/
theorem Solver_B.order_swap (s : Solver_B) (l : Nat) (y_ : List Int) (i j a : Nat)
    (hi : i < l) (hj : j < l) (ha : a ≤ l)
    (h : s.Ordered ∧ s.l = l ∧ s.active_size ≤ s.l ∧
      ∀ p, p < l → s.y.getD p 0 = y_.getD (s.active_set.getD p 0) 0) :
    Solver_B.Ordered { s.swap_index i j with active_size := a } ∧
      s.l = l ∧ a ≤ s.l ∧
      ∀ p, p < l → (swap_at s.y i j).getD p 0 = y_.getD ((swap_at s.active_set i j).getD p 0) 0 := by
  obtain ⟨h1, h2, h3, h4⟩ := h
  obtain ⟨o1, _, _⟩ := Solver_B.Ordered_swap_index s i j (by omega) (by omega) h1
  obtain ⟨g1, _, _, _, g5⟩ := h1
  have hlen : s.active_set.length = s.l := by rw [g1.length_eq, List.length_range]
  refine ⟨o1, h2, by omega, fun p hp => ?_⟩
  rw [swap_at_getD s.y i j p 0 (by omega) (by omega),
    swap_at_getD s.active_set i j p 0 (by omega) (by omega)]
  exact h4 _ (swap_pos_lt i j p l hi hj hp)

/-- The shrinking loop of `do_shrinking` keeps the order invariant. -/
theorem Solver_B.order_shrink_loop (l : Nat) (y_ : List Int) (n : Nat) :
    ∀ (s : Solver_B) (k : Nat) (Gm : ℚ),
    (s.Ordered ∧ s.l = l ∧ s.active_size ≤ s.l ∧
      ∀ p, p < l → s.y.getD p 0 = y_.getD (s.active_set.getD p 0) 0) →
    ((Solver_B.shrink_loop n s k Gm).Ordered ∧ (Solver_B.shrink_loop n s k Gm).l = l ∧
      (Solver_B.shrink_loop n s k Gm).active_size ≤ (Solver_B.shrink_loop n s k Gm).l ∧
      ∀ p, p < l → (Solver_B.shrink_loop n s k Gm).y.getD p 0 =
        y_.getD ((Solver_B.shrink_loop n s k Gm).active_set.getD p 0) 0) := by
  induction n with
  | zero => intro s k Gm h; exact h
  | succ n ih =>
    intro s k Gm h
    rw [Solver_B.shrink_loop_succ]
    by_cases hk : k < s.active_size
    · rw [if_pos hk]
      by_cases hr : s.shrink_rule Gm k = true
      · rw [if_pos hr]
        apply ih
        have hl := h.2.1
        have hA := h.2.2.1
        exact Solver_B.order_swap s l y_ k (s.active_size - 1) (s.active_size - 1)
          (by omega) (by omega) (by omega) h
      · rw [if_neg hr]
        exact ih s (k + 1) Gm h
    · rw [if_neg hk]; exact h

/-- The unshrinking loop of `do_shrinking` keeps the order invariant. -/
theorem Solver_B.order_unshrink_loop (l : Nat) (y_ : List Int) (n : Nat) :
    ∀ (s : Solver_B) (k : Int) (Gm : ℚ), k < l →
    (s.Ordered ∧ s.l = l ∧ s.active_size ≤ s.l ∧
      ∀ p, p < l → s.y.getD p 0 = y_.getD (s.active_set.getD p 0) 0) →
    ((Solver_B.unshrink_loop n s k Gm).Ordered ∧ (Solver_B.unshrink_loop n s k Gm).l = l ∧
      (Solver_B.unshrink_loop n s k Gm).active_size ≤ (Solver_B.unshrink_loop n s k Gm).l ∧
      ∀ p, p < l → (Solver_B.unshrink_loop n s k Gm).y.getD p 0 =
        y_.getD ((Solver_B.unshrink_loop n s k Gm).active_set.getD p 0) 0) := by
  induction n with
  | zero => intro s k Gm _ h; exact h
  | succ n ih =>
    intro s k Gm hkl h
    have hl := h.2.1
    have hmove : (k : Int) ≥ s.active_size →
        (Solver_B.Ordered
            { s.swap_index k.toNat s.active_size with active_size := s.active_size + 1 } ∧
          s.l = l ∧ s.active_size + 1 ≤ s.l ∧
          ∀ p, p < l → (swap_at s.y k.toNat s.active_size).getD p 0 =
            y_.getD ((swap_at s.active_set k.toNat s.active_size).getD p 0) 0) := by
      intro hk
      exact Solver_B.order_swap s l y_ k.toNat s.active_size (s.active_size + 1)
        (by omega) (by omega) (by omega) h
    simp only [Solver_B.unshrink_loop, Solver_B.unshrink_one]
    by_cases hk : k ≥ (s.active_size : Int)
    · rw [if_pos hk]
      by_cases hlo : s.is_lower_bound k.toNat = true
      · rw [if_pos hlo]
        split_ifs
        · exact ih s (k - 1) Gm (by omega) h
        · exact ih _ k Gm hkl (hmove hk)
      · rw [if_neg hlo]
        by_cases hup : s.is_upper_bound k.toNat = true
        · rw [if_pos hup]
          split_ifs
          · exact ih s (k - 1) Gm (by omega) h
          · exact ih _ k Gm hkl (hmove hk)
        · rw [if_neg hup]
          exact ih s (k - 1) Gm (by omega) h
    · rw [if_neg hk]; exact h

/-- `reconstruct_gradient` keeps the order invariant. -/
theorem Solver_B.order_reconstruct_gradient (s : Solver_B) (l : Nat) (y_ : List Int)
    (h : s.Ordered ∧ s.l = l ∧ s.active_size ≤ s.l ∧
      ∀ p, p < l → s.y.getD p 0 = y_.getD (s.active_set.getD p 0) 0) :
    s.reconstruct_gradient.Ordered ∧ s.reconstruct_gradient.l = l ∧
      s.reconstruct_gradient.active_size ≤ s.reconstruct_gradient.l ∧
      ∀ p, p < l → s.reconstruct_gradient.y.getD p 0 =
        y_.getD (s.reconstruct_gradient.active_set.getD p 0) 0 := by
  by_cases hne : s.active_size = s.l
  · have e : s.reconstruct_gradient = s := by
      unfold Solver_B.reconstruct_gradient; rw [if_pos hne]
    rw [e]; exact h
  · obtain ⟨⟨h1, h2, h3, h4, h5⟩, h6, h7, h8⟩ := h
    obtain ⟨r1, _⟩ := Solver_B.reconstruct_gradient_G s h3 h7 hne
    have e : s.reconstruct_gradient = { s with G := s.reconstruct_gradient.G } := by
      unfold Solver_B.reconstruct_gradient; rw [if_neg hne]
    rw [e]
    exact ⟨⟨h1, h2, r1, h4, h5⟩, h6, h7, h8⟩

/-- `do_shrinking` keeps the order invariant. -/
theorem Solver_B.order_do_shrinking (s : Solver_B) (l : Nat) (y_ : List Int)
    (h : s.Ordered ∧ s.l = l ∧ s.active_size ≤ s.l ∧
      ∀ p, p < l → s.y.getD p 0 = y_.getD (s.active_set.getD p 0) 0) :
    s.do_shrinking.Ordered ∧ s.do_shrinking.l = l ∧
      s.do_shrinking.active_size ≤ s.do_shrinking.l ∧
      ∀ p, p < l → s.do_shrinking.y.getD p 0 =
        y_.getD (s.do_shrinking.active_set.getD p 0) 0 := by
  have h0 : s.select_working_set.2.Ordered ∧ s.select_working_set.2.l = l ∧
      s.select_working_set.2.active_size ≤ s.select_working_set.2.l ∧
      ∀ p, p < l → s.select_working_set.2.y.getD p 0 =
        y_.getD (s.select_working_set.2.active_set.getD p 0) 0 := h
  unfold Solver_B.do_shrinking
  simp only []
  split_ifs
  · exact h0
  · exact Solver_B.order_shrink_loop l y_ _ _ _ _ h0
  · have h1 := Solver_B.order_shrink_loop l y_ s.select_working_set.2.active_size
      s.select_working_set.2 0 s.select_working_set.1 h0
    obtain ⟨s2, hs2⟩ : ∃ s2 : Solver_B, s2 = Solver_B.reconstruct_gradient
        { Solver_B.shrink_loop s.select_working_set.2.active_size s.select_working_set.2 0
            s.select_working_set.1 with unshrinked := true } := ⟨_, rfl⟩
    have h2 : s2.Ordered ∧ s2.l = l ∧ s2.active_size ≤ s2.l ∧
        ∀ p, p < l → s2.y.getD p 0 = y_.getD (s2.active_set.getD p 0) 0 := by
      rw [hs2]
      exact Solver_B.order_reconstruct_gradient _ l y_ h1
    rw [← hs2]
    exact Solver_B.order_unshrink_loop l y_ (s2.l - s2.active_size) s2 ((s2.l : Int) - 1)
      s.select_working_set.1 (by have := h2.2.1; omega) h2

/-- The update of one pass of the loop of `Solver_B::Solve` keeps the order invariant. -/
theorem Solver_B.order_update (solvebqp : BQP → List ℚ) (shrinking : Bool) (s : Solver_B)
    (l : Nat) (y_ : List Int)
    (h : s.Ordered ∧ s.l = l ∧ s.active_size ≤ s.l ∧
      ∀ p, p < l → s.y.getD p 0 = y_.getD (s.active_set.getD p 0) 0) :
    (Solver_B.update solvebqp shrinking s).Ordered ∧
      (Solver_B.update solvebqp shrinking s).l = l ∧
      (Solver_B.update solvebqp shrinking s).active_size ≤
        (Solver_B.update solvebqp shrinking s).l ∧
      ∀ p, p < l → (Solver_B.update solvebqp shrinking s).y.getD p 0 =
        y_.getD ((Solver_B.update solvebqp shrinking s).active_set.getD p 0) 0 := by
  obtain ⟨⟨h1, h2, h3, h4, h5⟩, h6, h7, h8⟩ := h
  unfold Solver_B.update
  dsimp only []
  generalize solvebqp s.subproblem = x
  generalize s.subproblem.C = C
  obtain ⟨g1, g2, g3, -⟩ := Solver_B.update_G_frame s x
  have e1 : (s.update_G x).active_set = s.active_set := by rw [g1]
  have e2 : (s.update_G x).l = s.l := by rw [g1]
  have e3 : (s.update_G x).y = s.y := by rw [g1]
  have e4 : (s.update_G x).active_size = s.active_size := by rw [g1]
  have e5 : (s.update_G x).alpha_status = s.alpha_status := by rw [g1]
  generalize s.update_G x = u at *
  obtain ⟨f1, f2, -, -⟩ := Solver_B.update_status_frame u shrinking C
  have k1 : (u.update_status shrinking C).active_set = s.active_set := by rw [f1]; exact e1
  have k2 : (u.update_status shrinking C).l = s.l := by rw [f1]; exact e2
  have k3 : (u.update_status shrinking C).y = s.y := by rw [f1]; exact e3
  have k4 : (u.update_status shrinking C).active_size = s.active_size := by rw [f1]; exact e4
  have k5 : (u.update_status shrinking C).alpha = u.alpha := by rw [f1]
  have k6 : (u.update_status shrinking C).G = u.G := by rw [f1]
  refine ⟨⟨by rw [k1, k2]; exact h1, by rw [k5, g2, k2]; exact h2,
    by rw [k6, g3, k2]; exact h3, by rw [f2, e5, k2]; exact h4, by rw [k3, k2]; exact h5⟩,
    by rw [k2]; exact h6, by rw [k4, k2]; exact h7, ?_⟩
  intro p hp
  rw [k3, k1]
  exact h8 p hp

/-- The state before the loop of `Solver_B::Solve` has `active_set` the identity and
satisfies the order invariant. -/
theorem Solver_B.order_init (l : Nat) (Q : Nat → Nat → ℚ) (b_ : List ℚ) (y_ : List Int)
    (alpha_ : List ℚ) (Cp Cn eps : ℚ) (shrinking : Bool) (qpsize : Nat) :
    (Solver_B.init l Q b_ y_ alpha_ Cp Cn eps shrinking qpsize).active_set = List.range l ∧
    (Solver_B.init l Q b_ y_ alpha_ Cp Cn eps shrinking qpsize).Ordered ∧
    (Solver_B.init l Q b_ y_ alpha_ Cp Cn eps shrinking qpsize).l = l ∧
    (Solver_B.init l Q b_ y_ alpha_ Cp Cn eps shrinking qpsize).active_size ≤
      (Solver_B.init l Q b_ y_ alpha_ Cp Cn eps shrinking qpsize).l ∧
    ∀ p, p < l → (Solver_B.init l Q b_ y_ alpha_ Cp Cn eps shrinking qpsize).y.getD p 0 =
      y_.getD ((Solver_B.init l Q b_ y_ alpha_ Cp Cn eps shrinking qpsize).active_set.getD p 0)
        0 := by
  obtain ⟨s1, s2, s3, _⟩ := Solver_B.StatusOk_init l Q b_ y_ alpha_ Cp Cn eps shrinking qpsize
  have hl := Solver_B.init_l l Q b_ y_ alpha_ Cp Cn eps shrinking qpsize
  have key : (Solver_B.init l Q b_ y_ alpha_ Cp Cn eps shrinking qpsize).active_set =
        List.range l ∧
      (Solver_B.init l Q b_ y_ alpha_ Cp Cn eps shrinking qpsize).y =
        (List.range l).map (fun i => y_.getD i 0) ∧
      (Solver_B.init l Q b_ y_ alpha_ Cp Cn eps shrinking qpsize).active_size = l ∧
      (Solver_B.init l Q b_ y_ alpha_ Cp Cn eps shrinking qpsize).G.length = l := by
    unfold Solver_B.init
    simp only []
    refine for_loop_induction
      (fun _ (t : Solver_B) => t.active_set = List.range l ∧
        t.y = (List.range l).map (fun i => y_.getD i 0) ∧ t.active_size = l ∧ t.G.length = l)
      0 l _ _ (Nat.zero_le _) ?_ ?_
    · refine for_loop_induction
        (fun _ (t : Solver_B) => t.active_set = List.range l ∧
          t.y = (List.range l).map (fun i => y_.getD i 0) ∧ t.active_size = l ∧
          t.G.length = l)
        0 l _ _ (Nat.zero_le _) ⟨rfl, rfl, rfl, by simp⟩ ?_
      intro i t _ _ h
      exact h
    · intro i t _ _ ⟨g1, g2, g3, g4⟩
      split_ifs
      · exact ⟨g1, g2, g3, by simp [(add_row_spec _ _ _ _ _).1, g4]⟩
      · exact ⟨g1, g2, g3, by simp [(add_row_spec _ _ _ _ _).1, g4]⟩
      · exact ⟨g1, g2, g3, g4⟩
  obtain ⟨k1, k2, k3, k4⟩ := key
  refine ⟨k1, ⟨by rw [k1, hl], by rw [s2], by rw [k4, hl], by rw [s1], by rw [s3]⟩, hl,
    by rw [k3, hl], ?_⟩
  intro p hp
  have e : (List.range l).getD p 0 = p := by
    rw [List.getD_eq_getElem?_getD, List.getElem?_range hp]
    rfl
  rw [k1, k2, getD_map_range_int _ l p hp, e]


/-- The order invariant holds in the state in which the loop of `Solver_B::Solve` is
left. -/
theorem Solver_B.order_exit (solvebqp : BQP → List ℚ) (shrinking : Bool) (l : Nat)
    (Q : Nat → Nat → ℚ) (b_ : List ℚ) (y_ : List Int) (alpha_ : List ℚ) (Cp Cn eps : ℚ)
    (qpsize : Nat) (fuel : Nat) (c0 : Int) (s : Solver_B)
    (h : Solve_loop (Solver_B.ops solvebqp shrinking) shrinking fuel
      (Solver_B.init l Q b_ y_ alpha_ Cp Cn eps shrinking qpsize) c0 = some s) :
    s.Ordered ∧ s.l = l ∧ s.active_size ≤ s.l ∧
      ∀ p, p < l → s.y.getD p 0 = y_.getD (s.active_set.getD p 0) 0 := by
  obtain ⟨n, t, c, -, hhead, hdone⟩ := (Solve_loop_iff _ _ _ _ _ _).mp h
  have hsel : ∀ u : Solver_B,
      (u.Ordered ∧ u.l = l ∧ u.active_size ≤ u.l ∧
        ∀ p, p < l → u.y.getD p 0 = y_.getD (u.active_set.getD p 0) 0) →
      (u.select_working_set.2.Ordered ∧ u.select_working_set.2.l = l ∧
        u.select_working_set.2.active_size ≤ u.select_working_set.2.l ∧
        ∀ p, p < l → u.select_working_set.2.y.getD p 0 =
          y_.getD (u.select_working_set.2.active_set.getD p 0) 0) := fun u hu => hu
  have hrec : ∀ u : Solver_B,
      (u.Ordered ∧ u.l = l ∧ u.active_size ≤ u.l ∧
        ∀ p, p < l → u.y.getD p 0 = y_.getD (u.active_set.getD p 0) 0) →
      (Solver_B.Ordered { u.reconstruct_gradient with active_size := u.reconstruct_gradient.l } ∧
        u.reconstruct_gradient.l = l ∧ u.reconstruct_gradient.l ≤ u.reconstruct_gradient.l ∧
        ∀ p, p < l → u.reconstruct_gradient.y.getD p 0 =
          y_.getD (u.reconstruct_gradient.active_set.getD p 0) 0) := by
    intro u hu
    obtain ⟨r1, r2, _, r4⟩ := Solver_B.order_reconstruct_gradient u l y_ hu
    exact ⟨r1, r2, le_refl _, r4⟩
  have ht := loop_head_invariant (Solver_B.ops solvebqp shrinking) shrinking
    (fun s => s.Ordered ∧ s.l = l ∧ s.active_size ≤ s.l ∧
      ∀ p, p < l → s.y.getD p 0 = y_.getD (s.active_set.getD p 0) 0)
    (fun s => s.Ordered ∧ s.l = l ∧ s.active_size ≤ s.l ∧
      ∀ p, p < l → s.y.getD p 0 = y_.getD (s.active_set.getD p 0) 0)
    (fun u hu => Solver_B.order_do_shrinking u l y_ hu)
    hsel hrec (fun u hu => hu)
    (fun u hu => Solver_B.order_update solvebqp shrinking u l y_ hu)
    n _ c0 t c
    (Solver_B.order_init l Q b_ y_ alpha_ Cp Cn eps shrinking qpsize).2 hhead
  unfold Solve_iteration at hdone
  obtain ⟨-, e, -⟩ := convergence_check_done _ _ _ _ hdone
  rw [e]
  apply hsel
  apply hrec
  apply hsel
  split_ifs
  · exact Solver_B.order_do_shrinking t l y_ ht
  · exact ht
  · exact ht

/-- The result of `Solver_B::Solve`: the loop was left in a state whose `active_set` is a
permutation of `0..l-1` consistent with the labels, and the coefficient returned at the
original index `active_set[p]` is `alpha[p]`. -/
theorem Solver_B.Solve_order (solvebqp : BQP → List ℚ) (shrinking : Bool) (fuel l : Nat)
    (Q : Nat → Nat → ℚ) (b_ : List ℚ) (y_ : List Int) (alpha_ : List ℚ) (Cp Cn eps : ℚ)
    (qpsize : Nat) (out b : List ℚ) (obj : ℚ) (hal : alpha_.length = l)
    (h : Solver_B.Solve solvebqp fuel l Q b_ y_ alpha_ Cp Cn eps shrinking qpsize =
      some (out, b, obj)) :
    ∃ s : Solver_B, s.Ordered ∧ s.l = l ∧
      (∀ p, p < l → s.y.getD p 0 = y_.getD (s.active_set.getD p 0) 0) ∧
      out = put_back l s.active_set s.alpha alpha_ ∧ out.length = l ∧
      (∀ o, o < l → out[o]? = (s.origin_record o).2.1) ∧
      (∀ p, p < l → out[s.active_set.getD p 0]? = s.alpha[p]?) := by
  unfold Solver_B.Solve at h
  simp only [] at h
  cases hr : Solve_loop (Solver_B.ops solvebqp shrinking) shrinking fuel
      (Solver_B.init l Q b_ y_ alpha_ Cp Cn eps shrinking qpsize)
      (min ((l : Int) * 2 / qpsize) (2000 / qpsize) + 1) with
  | none => rw [hr] at h; exact absurd h (by simp)
  | some s =>
    rw [hr] at h
    simp only [Option.some.injEq, Prod.mk.injEq] at h
    obtain ⟨h1, -, -⟩ := h
    obtain ⟨o1, o2, _, o4⟩ := Solver_B.order_exit solvebqp shrinking l Q b_ y_ alpha_ Cp Cn eps
      qpsize fuel _ s hr
    obtain ⟨g1, g2⟩ := Solver_B.put_back_origin s alpha_ o1 (by rw [o2]; exact hal)
    rw [o2] at g1 g2
    refine ⟨s, o1, o2, o4, h1.symm, by rw [← h1]; exact g1,
      fun o ho => by rw [← h1]; exact g2 o ho, fun p hp => ?_⟩
    obtain ⟨a1, a2, _, _, _⟩ := o1
    have hlen : s.active_set.length = l := by rw [a1.length_eq, List.length_range, o2]
    have hnd : s.active_set.Nodup := a1.nodup_iff.mpr (List.nodup_range s.l)
    have hin : s.active_set.getD p 0 < l := by
      have hp3 : p < s.active_set.length := by omega
      rw [List.getD_eq_getElem _ _ hp3]
      have := List.mem_range.mp (a1.mem_iff.mp (List.getElem_mem hp3))
      omega
    rw [← h1, g2 _ hin]
    show s.alpha[s.active_set.indexOf (s.active_set.getD p 0)]? = _
    have hp2 : p < s.active_set.length := by omega
    rw [List.getD_eq_getElem _ _ hp2, List.indexOf_getElem hnd p hp2]

/-- The run of `Solver_B::Solve` on the two points with `C = 1`. -/
theorem Solve_unit :
    Solver_B.Solve solvebqp_diag 2 2 two_point_Q [-1, -1] [1, -1] [0, 0] 1 1 (1 / 1000) true 2 =
      some ([1 / 2, 1 / 2], [-1, -1], -1 / 2) := by
  have h := Solve_loop_unit
  simp only [Solver_B.Solve]
  norm_num at h ⊢
  rw [h]
  simp [put_back, for_loop, unit_exit, unit_state, List.range']


/-! ## Claims about the decomposition solvers -/

/-- C9: at the head of every pass of the loop of `Solver_B::Solve`, for every position
`i < l`, `alpha_status[i]` is `UPPER_BOUND` if `alpha[i] >= get_C(i)`, else `LOWER_BOUND`
if `alpha[i] <= 0`, else `FREE`; the property `StatusOk` is preserved by the update step
(for any result of `solvebqp`) and by every `swap_index`. -/
theorem bound_status_invariant (solvebqp : BQP → List ℚ) (shrinking : Bool) (l : Nat)
    (Q : Nat → Nat → ℚ) (b_ : List ℚ) (y_ : List Int) (alpha_ : List ℚ) (Cp Cn eps : ℚ)
    (qpsize : Nat) (n : Nat) (c0 : Int) (s : Solver_B) (c : Int)
    (h : loop_head (Solver_B.ops solvebqp shrinking) shrinking n
      (Solver_B.init l Q b_ y_ alpha_ Cp Cn eps shrinking qpsize) c0 = some (s, c)) :
    (s.l = l ∧ s.alpha_status.length = l ∧ s.alpha.length = l ∧
      ∀ i, i < l → s.alpha_status[i]? = some
        (if s.alpha.getD i 0 ≥ s.get_C i then Status.UPPER_BOUND
         else if s.alpha.getD i 0 ≤ 0 then Status.LOWER_BOUND
         else Status.FREE)) ∧
    (∀ t : Solver_B, t.StatusOk → (Solver_B.update solvebqp shrinking t).StatusOk) ∧
    (∀ (t : Solver_B) (i j : Nat), t.StatusOk → (t.swap_index i j).StatusOk) := by
  obtain ⟨⟨h1, h2, h3, h4⟩, h5⟩ :=
    Solver_B.StatusOk_loop_head solvebqp shrinking l Q b_ y_ alpha_ Cp Cn eps qpsize n c0 s c h
  refine ⟨⟨h5, by rw [h1, h5], by rw [h2, h5], fun i hi => ?_⟩,
    fun t ht => Solver_B.StatusOk_update solvebqp shrinking t ht,
    fun t i j ht => Solver_B.StatusOk_swap_index t i j ht⟩
  rw [h4 i (by rw [h5]; exact hi)]
  rfl

/-- Witness for C9: the state after the first pass on the two points with `C = 1`. -/
theorem bound_status_invariant_witness :
    loop_head (Solver_B.ops solvebqp_diag true) true 1
        (Solver_B.init 2 two_point_Q [-1, -1] [1, -1] [0, 0] 1 1 (1 / 1000) true 2) 3 =
      some (unit_state [0, 0] [Status.FREE, Status.FREE] [1 / 2, 1 / 2] [1, 0], 2) ∧
    (unit_state [0, 0] [Status.FREE, Status.FREE] [1 / 2, 1 / 2] [1, 0]).alpha_status.length
      = 2 ∧
    (unit_state [0, 0] [Status.FREE, Status.FREE] [1 / 2, 1 / 2] [1, 0]).alpha_status[1]? =
      some
        (if (unit_state [0, 0] [Status.FREE, Status.FREE] [1 / 2, 1 / 2] [1, 0]).alpha.getD 1 0
            ≥ (unit_state [0, 0] [Status.FREE, Status.FREE] [1 / 2, 1 / 2] [1, 0]).get_C 1
          then Status.UPPER_BOUND
         else if
            (unit_state [0, 0] [Status.FREE, Status.FREE] [1 / 2, 1 / 2] [1, 0]).alpha.getD 1 0
              ≤ 0
          then Status.LOWER_BOUND
         else Status.FREE) :=
  ⟨loop_head_unit_first,
   (bound_status_invariant solvebqp_diag true 2 two_point_Q [-1, -1] [1, -1] [0, 0] 1 1
      (1 / 1000) 2 1 3 _ 2 loop_head_unit_first).1.2.1,
   (bound_status_invariant solvebqp_diag true 2 two_point_Q [-1, -1] [1, -1] [0, 0] 1 1
      (1 / 1000) 2 1 3 _ 2 loop_head_unit_first).1.2.2.2 1 (by decide)⟩

/-- C11 as stated fails: with two active FREE variables, `|G| = 1` at position 0 and
`|G| = 2` at position 1, and `qpsize = 2`, the first block of the working set is position 0;
the FREE variable left out has the strictly larger `|G|`. -/
theorem first_block_largest_counterexample :
    (sample_state [1, 2] [Status.FREE, Status.FREE] 2 2).first_block = [0] ∧
    (sample_state [1, 2] [Status.FREE, Status.FREE] 2 2).select_working_set.2.working_set =
      [0, 1] ∧
    (sample_state [1, 2] [Status.FREE, Status.FREE] 2 2).is_free 1 = true ∧
    1 < (sample_state [1, 2] [Status.FREE, Status.FREE] 2 2).active_size ∧
    |(sample_state [1, 2] [Status.FREE, Status.FREE] 2 2).G.getD 0 0| <
      |(sample_state [1, 2] [Status.FREE, Status.FREE] 2 2).G.getD 1 0| := by
  refine ⟨first_block_sample, ?_, rfl, by decide, ?_⟩
  · simp [(by norm_num : ¬ ((2 : ℚ) ≤ 1)), Solver_B.select_working_set, Solver_B.first_block,
      Solver_B.second_block, Solver_B.second_slots, Solver_B.max0, Solver_B.second_pass_skips,
      Solver_B.first_pass, Solver_B.second_pass, for_loop, sample_state, Solver_B.is_free,
      Solver_B.is_upper_bound, Solver_B.is_lower_bound, insert_larger, shift_larger,
      insert_smaller, shift_smaller, max0_of, Ext.le, Ext.lt, List.range', List.replicate]
  · simp [sample_state]

/-- C11 (amended): for every state, the first block of the working set written by
`Solver_B::select_working_set` consists of `min(qpsize/2, number of active FREE
variables)` pairwise distinct active FREE variables, in the order of descending `|G|`, and
these are the FREE variables with the smallest `|G|`: no active FREE variable left out of
the block has `|G|` strictly smaller than one that was put in. -/
theorem first_block_smallest (s : Solver_B) :
    s.first_block <+: s.select_working_set.2.working_set ∧
    s.first_block.length = min (s.qpsize / 2) (s.free_below s.active_size) ∧
    s.first_block.Nodup ∧
    (∀ i, i ∈ s.first_block → i < s.active_size ∧ s.is_free i = true) ∧
    s.first_block.Pairwise (fun i j => |s.G.getD j 0| ≤ |s.G.getD i 0|) ∧
    (∀ i, i ∈ s.first_block → ∀ j, j < s.active_size → s.is_free j = true →
      j ∉ s.first_block → |s.G.getD i 0| ≤ |s.G.getD j 0|) := by
  have h := Solver_B.FirstInv_first_pass s
  refine ⟨List.prefix_append _ _, h.count, h.nodup, ?_, sorted_fin_idx s _ _ _ h, ?_⟩
  · intro i hi
    obtain ⟨e, he, h1, h2⟩ := (mem_fin_idx _ _).mp hi
    rcases h.src e he with h3 | ⟨k, hk, hfk, h4⟩
    · exact absurd h3 h1
    · have : k = i := by rw [← h2, h4]
      rw [← this]; exact ⟨hk, hfk⟩
  · intro i hi j hj hfj hnot
    obtain ⟨e, he, h1, h2⟩ := (mem_fin_idx _ _).mp hi
    have hle := h.rest j hj hfj hnot e he
    rcases h.src e he with h3 | ⟨k, hk, hfk, h4⟩
    · exact absurd h3 h1
    · have : k = i := by rw [← h2, h4]
      rw [h4, this] at hle
      exact (Ext.le_fin_fin _ _).mp hle

/-- C12 as stated fails: a variable at the upper bound with `G = 1 > 0` and a variable at
the lower bound with `G = -1 < 0` are both admitted by the second pass (they are the
working set, and the returned violation is 1). -/
theorem sign_rule_counterexample :
    (sample_state [1, -1] [Status.UPPER_BOUND, Status.LOWER_BOUND] 2 2).second_block =
      [1, 0] ∧
    (sample_state [1, -1] [Status.UPPER_BOUND, Status.LOWER_BOUND] 2 2).is_upper_bound 0 =
      true ∧
    0 < (sample_state [1, -1] [Status.UPPER_BOUND, Status.LOWER_BOUND] 2 2).G.getD 0 0 ∧
    (sample_state [1, -1] [Status.UPPER_BOUND, Status.LOWER_BOUND] 2 2).is_lower_bound 1 =
      true ∧
    (sample_state [1, -1] [Status.UPPER_BOUND, Status.LOWER_BOUND] 2 2).G.getD 1 0 < 0 := by
  refine ⟨second_block_sample, rfl, ?_, rfl, ?_⟩ <;> simp [sample_state]

/-- C12 (amended): a variable that the second pass of `Solver_B::select_working_set` puts
into the working set is active, and if it is at `UPPER_BOUND` its gradient is not negative
(`G[i] >= 0`), if it is at `LOWER_BOUND` its gradient is not positive (`G[i] <= 0`), and if
it is FREE its `|G[i]|` exceeds `max0`; the same holds for every position that the tests of
the pass do not skip. -/
theorem second_pass_sign_rule (s : Solver_B) (i : Nat) (h : i ∈ s.second_block) :
    i < s.active_size ∧
    (s.is_upper_bound i = true → 0 ≤ s.G.getD i 0) ∧
    (s.is_lower_bound i = true → s.G.getD i 0 ≤ 0) ∧
    (s.is_free i = true → Ext.lt s.max0 (Ext.fin |s.G.getD i 0|) = true) ∧
    ∀ (max0 : Ext) (j : Nat), s.second_pass_skips max0 j = false →
      (s.is_upper_bound j = true → 0 ≤ s.G.getD j 0) ∧
      (s.is_lower_bound j = true → s.G.getD j 0 ≤ 0) := by
  obtain ⟨h1, h2⟩ := (Solver_B.second_pass_src s s.max0 _).2.2 i h
  obtain ⟨g1, g2, g3⟩ := Solver_B.skips_sign s s.max0 i h2
  exact ⟨h1, g1, g2, g3, fun m j hj =>
    ⟨(Solver_B.skips_sign s m j hj).1, (Solver_B.skips_sign s m j hj).2.1⟩⟩

/-- Witness for C12: the two bound variables of the sample state. -/
theorem second_pass_sign_rule_witness :
    0 ∈ (sample_state [1, -1] [Status.UPPER_BOUND, Status.LOWER_BOUND] 2 2).second_block ∧
    0 ≤ (sample_state [1, -1] [Status.UPPER_BOUND, Status.LOWER_BOUND] 2 2).G.getD 0 0 :=
  ⟨by rw [second_block_sample]; decide,
   (second_pass_sign_rule _ 0 (by rw [second_block_sample]; decide)).2.1 rfl⟩

/-- C13 (divergence): (1) with one active FREE variable with `|G| = 1/2 >= eps = 1e-3` and
`qpsize = 2`, the variable fills the first block and the value returned by
`Solver_B::select_working_set` is `0 < eps`, although the comment on the function says
`return maximal violation`.  (2) In `Solver_B::Solve` on one variable with `Q = 2`, `b = -1`,
`C = 1` and `eps = 1e-3`, started at the FREE value `alpha = 1/4` (gradient `-1/2`), both
selections of the first pass return `0`, the loop is left at once and `alpha = 1/4` is
returned with the objective `-3/16`; started at `alpha = 0` the same call returns the
minimiser `alpha = 1/2` with the objective `-1/4`. -/
theorem stopping_statistic_divergence :
    ((sample_state [1 / 2] [Status.FREE] 1 2).select_working_set.1 = 0 ∧
      (sample_state [1 / 2] [Status.FREE] 1 2).is_free 0 = true ∧
      0 < (sample_state [1 / 2] [Status.FREE] 1 2).active_size ∧
      (sample_state [1 / 2] [Status.FREE] 1 2).eps ≤
        |(sample_state [1 / 2] [Status.FREE] 1 2).G.getD 0 0|) ∧
    ((Solver_B.init 1 two_point_Q [-1] [1] [1 / 4] 1 1 (1 / 1000) false 2).G = [-1 / 2] ∧
      (Solver_B.init 1 two_point_Q [-1] [1] [1 / 4] 1 1 (1 / 1000) false
        2).select_working_set.1 = 0 ∧
      Solver_B.Solve solvebqp_diag 4 1 two_point_Q [-1] [1] [1 / 4] 1 1 (1 / 1000) false 2 =
        some ([1 / 4], [-1], -3 / 16) ∧
      Solver_B.Solve solvebqp_diag 4 1 two_point_Q [-1] [1] [0] 1 1 (1 / 1000) false 2 =
        some ([1 / 2], [-1], -1 / 4)) := by
  refine ⟨⟨select_working_set_free_sample, rfl, by decide, ?_⟩, by decide!, by decide!,
    by decide!, by decide!⟩
  simp only [sample_state, List.getD_cons_zero]
  rw [abs_of_pos (by norm_num)]
  norm_num

/-- The value returned by `Solver_B::select_working_set` in every state: the maximum of 0
and of `|G[i]|` over the active positions `i` that the second pass does not skip (for
`qpsize >= 1`); the positions of the first block are skipped, so an active FREE variable of
the first block does not count.  The working set has at most `qpsize` pairwise distinct
indices, all below `active_size`. -/
theorem stopping_statistic (s : Solver_B) :
    0 ≤ s.select_working_set.1 ∧
    (s.select_working_set.1 = 0 ∨ ∃ i, i < s.active_size ∧
      s.second_pass_skips s.max0 i = false ∧ s.select_working_set.1 = |s.G.getD i 0|) ∧
    (1 ≤ s.qpsize → ∀ i, i < s.active_size → s.second_pass_skips s.max0 i = false →
      |s.G.getD i 0| ≤ s.select_working_set.1) ∧
    (∀ i, i ∈ s.first_block → s.second_pass_skips s.max0 i = true) ∧
    s.select_working_set.2.working_set.length ≤ s.qpsize ∧
    s.select_working_set.2.working_set.Nodup ∧
    ∀ k, k ∈ s.select_working_set.2.working_set → k < s.active_size := by
  obtain ⟨h1, h2, h3, h4, h5, h6⟩ := Solver_B.select_working_set_spec s
  exact ⟨h1, h2, h3, Solver_B.first_block_skipped s, h4, h5, h6⟩

/-- C14 as stated fails: with `Gm = 1`, a variable at the lower bound with
`G = 3/4 > Gm/2` stays active: `do_shrinking` moves nothing. -/
theorem shrink_slack_counterexample :
    (sample_state [-1, 3 / 4] [Status.LOWER_BOUND, Status.LOWER_BOUND] 2
      2).select_working_set.1 = 1 ∧
    1 < (sample_state [-1, 3 / 4] [Status.LOWER_BOUND, Status.LOWER_BOUND] 2 2).active_size ∧
    (sample_state [-1, 3 / 4] [Status.LOWER_BOUND, Status.LOWER_BOUND] 2 2).shrink_rule_half
      1 1 = true ∧
    (sample_state [-1, 3 / 4] [Status.LOWER_BOUND, Status.LOWER_BOUND] 2 2).do_shrinking =
      { sample_state [-1, 3 / 4] [Status.LOWER_BOUND, Status.LOWER_BOUND] 2 2 with
        working_set := [0] } := by
  refine ⟨by rw [select_working_set_lower_sample], by decide, ?_, do_shrinking_lower_sample⟩
  have h : ((2 : ℚ)⁻¹ < 3 / 4) := by norm_num
  simp [Solver_B.shrink_rule_half, sample_state, Solver_B.is_lower_bound, h]

/-- C14 (amended): `Solver_B::do_shrinking` moves nothing when the violation `Gm` returned
by `select_working_set` is below `eps`; otherwise its first loop re-orders the positions by
an injective map `sigma` that fixes the positions from the old `active_size` on, such that
the positions that stay active hold the variables that fail the shrink test with slack `Gm`
(`LOWER_BOUND` with `G[k] > Gm`, `UPPER_BOUND` with `G[k] < -Gm`), the positions between
the new and the old `active_size` hold the variables that pass it, none of which is FREE,
and `active_size` decreases by exactly the number of active variables that pass the test.
This is the state that `do_shrinking` returns when `unshrinked` is set or `Gm > 10*eps`
(otherwise the unshrink loop follows). -/
theorem do_shrinking_rule (s : Solver_B) (hl : s.Lens) :
    (s.select_working_set.1 < s.eps → s.do_shrinking = s.select_working_set.2) ∧
    (¬ (s.select_working_set.1 < s.eps) →
      (s.unshrinked = true ∨ s.select_working_set.1 > s.eps * 10) →
      s.do_shrinking =
        Solver_B.shrink_loop s.active_size s.select_working_set.2 0 s.select_working_set.1) ∧
    (∀ Gm : ℚ, ∃ sigma : Nat → Nat,
      Solver_B.Shrunk s (Solver_B.shrink_loop s.active_size s 0 Gm) Gm 0 sigma ∧
      (Solver_B.shrink_loop s.active_size s 0 Gm).active_size +
        ((Finset.range s.active_size).filter (fun p => s.shrink_rule Gm p = true)).card =
          s.active_size ∧
      ∀ p, s.shrink_rule Gm p = true →
        s.is_free p = false ∧
        ((s.is_lower_bound p = true ∧ Gm < s.G.getD p 0) ∨
         (s.is_upper_bound p = true ∧ s.G.getD p 0 < -Gm))) := by
  refine ⟨(Solver_B.do_shrinking_cases s).1, (Solver_B.do_shrinking_cases s).2, fun Gm => ?_⟩
  obtain ⟨sigma, h⟩ := Solver_B.shrink_loop_spec s.active_size s 0 Gm hl (Nat.zero_le _)
    (by omega)
  refine ⟨sigma, h, Solver_B.Shrunk_count s _ Gm sigma hl h, fun p hp => ?_⟩
  refine ⟨Solver_B.shrink_rule_bound s Gm p hp, ?_⟩
  rcases (Solver_B.shrink_rule_iff s Gm p).mp hp with ⟨g1, g2⟩ | ⟨-, g1, g2⟩
  · exact Or.inl ⟨g1, g2⟩
  · exact Or.inr ⟨g1, g2⟩

/-- Witness for C14: three variables at the lower bound with `G = -1, 3/4, 2`. -/
theorem do_shrinking_rule_witness :
    (sample_state [-1, 3 / 4, 2] [Status.LOWER_BOUND, Status.LOWER_BOUND, Status.LOWER_BOUND]
      3 2).Lens ∧
    ∃ sigma : Nat → Nat,
      Solver_B.Shrunk
        (sample_state [-1, 3 / 4, 2]
          [Status.LOWER_BOUND, Status.LOWER_BOUND, Status.LOWER_BOUND] 3 2)
        (Solver_B.shrink_loop 3
          (sample_state [-1, 3 / 4, 2]
            [Status.LOWER_BOUND, Status.LOWER_BOUND, Status.LOWER_BOUND] 3 2) 0 1) 1 0 sigma :=
  ⟨⟨rfl, rfl, by simp [sample_state], by decide⟩,
   ((do_shrinking_rule _ ⟨rfl, rfl, by simp [sample_state], by decide⟩).2.2 1).elim
     (fun sigma h => ⟨sigma, h.1⟩)⟩

/-- C15: for `A > 0`, `C >= 0`, a true class `y < nr_class` and `B` of length `nr_class`,
the vector `nu` produced by `solve_sub_problem(A, B, C, nu)` followed by `nu[y] += C` has
coordinates summing to zero (whatever `nu` held before), the coordinates of
`solve_sub_problem` alone sum to `-C`, and `sum_m min(0, phi - B[m]) = -A*C` for the
computed cutoff `phi`. -/
theorem sub_problem_mass (A C : ℚ) (B : List ℚ) (y : Nat) (nu : List ℚ) (hA : 0 < A)
    (hC : 0 ≤ C) (hy : y < B.length) :
    (Solver_SPOC.new_nu A B C y nu).sum = 0 ∧
    (Solver_SPOC.new_nu A B C y nu).length = B.length ∧
    (Solver_SPOC.solve_sub_problem A B C).sum = -C ∧
    (B.map (fun b => min 0 (Solver_SPOC.cutoff A B C - b))).sum = -(A * C) := by
  have hB : B ≠ [] := by
    rintro rfl
    exact absurd hy (Nat.not_lt_zero _)
  have hsum := Solver_SPOC.solve_sub_problem_sum A B C hB hA hC
  have hlen : (Solver_SPOC.solve_sub_problem A B C).length = B.length := by
    unfold Solver_SPOC.solve_sub_problem
    rw [List.length_map]
  refine ⟨?_, ?_, hsum, Solver_SPOC.cutoff_spec A B C hB (mul_nonneg (le_of_lt hA) hC)⟩
  · unfold Solver_SPOC.new_nu
    simp only []
    rw [if_pos (abs_pos.mpr (ne_of_gt hA)), sum_set _ _ _ (by rw [hlen]; exact hy), hsum]
    ring
  · unfold Solver_SPOC.new_nu
    simp only []
    rw [if_pos (abs_pos.mpr (ne_of_gt hA)), List.length_set, hlen]

/-- Witness for C15: `A = 1`, `C = 1`, `B = (0, 1, 0)`, true class 0. -/
theorem sub_problem_mass_witness :
    (0 : ℚ) < 1 ∧ (Solver_SPOC.new_nu 1 [0, 1, 0] 1 0 []).sum = 0 :=
  ⟨by norm_num,
   (sub_problem_mass 1 1 [0, 1, 0] 0 [] (by norm_num) (by norm_num) (by decide)).1⟩

/-- C16 at the failing input: with `A = 0`, `C[y] = 1`, true class 0, `B = (0, 1, 0)` and
`nu = (1/2, -1/2, 0)` left by the previous pass, the fallback branch and the closing
adjustment give `nu = (3/2, -1, 0)`: the coordinate of the true class is not `C[y]` and the
coordinates sum to `1/2`. -/
theorem fallback_keeps_stale_nu :
    Solver_SPOC.new_nu 0 [0, 1, 0] 1 0 [1 / 2, -1 / 2, 0] = [3 / 2, -1, 0] ∧
    Solver_SPOC.steepest [0, 1, 0] = 1 ∧
    (Solver_SPOC.new_nu 0 [0, 1, 0] 1 0 [1 / 2, -1 / 2, 0]).sum = 1 / 2 ∧
    Solver_SPOC.new_nu 0 [0, 1, 0] 1 0 [0, 0, 0] = [1, -1, 0] := by
  refine ⟨new_nu_fallback_sample, ?_, ?_, ?_⟩
  · have h : (0 : ℚ) < 1 := by norm_num
    simp [Solver_SPOC.steepest, for_loop, List.range', h]
  · rw [new_nu_fallback_sample]
    norm_num
  · have h : (0 : ℚ) < 1 := by norm_num
    have h2 : ¬ ((1 : ℚ) < 0) := by norm_num
    simp [Solver_SPOC.new_nu, Solver_SPOC.steepest, for_loop, List.range', h, h2]


/-- C17: for all integers the result of `Solver_MB::yyy` lies in `{-2,-1,0,1,2}`, it is
symmetric under exchanging `(yi, yyi)` with `(yj, yyj)`, and on the diagonal
`yyy(y, yy, y, yy)` is 2 when `y != yy` and 0 when `y = yy`. -/
theorem yyy_range_symmetric_diagonal (yi yyi yj yyj : Int) :
    (-2 ≤ Solver_MB.yyy yi yyi yj yyj ∧ Solver_MB.yyy yi yyi yj yyj ≤ 2) ∧
    Solver_MB.yyy yi yyi yj yyj = Solver_MB.yyy yj yyj yi yyi ∧
    (yi ≠ yyi → Solver_MB.yyy yi yyi yi yyi = 2) ∧
    (yi = yyi → Solver_MB.yyy yi yyi yi yyi = 0) := by
  refine ⟨?_, ?_, ?_, ?_⟩
  · unfold Solver_MB.yyy
    simp only []
    constructor <;> split_ifs <;> omega
  · unfold Solver_MB.yyy
    simp only []
    split_ifs <;> first | rfl | omega
  · intro h
    unfold Solver_MB.yyy
    simp only []
    split_ifs <;> first | rfl | omega
  · intro h
    unfold Solver_MB.yyy
    simp only []
    split_ifs <;> first | rfl | omega

/-- C18 (as stated, refuted): the state `mb_stray` satisfies the partition invariant as
the claim words it and position 0 is active, but after `--active_size; shrink_one(0)` the
table `start1` is `[1, 1, 0, 1, 1]`, which is not non-decreasing, so the invariant is
lost. -/
theorem bucket_contiguity_counterexample :
    mb_stray.Partition ∧ 0 < mb_stray.active_size ∧
      (mb_stray.shrink_step 0).start1 = [1, 1, 0, 1, 1] ∧
      ¬ (mb_stray.shrink_step 0).Partition := by
  refine ⟨mb_stray_partition, by decide, by decide, ?_⟩
  intro h
  have := h.mono1 1 (by decide)
  revert this
  decide

/-- C18 (amended): in a state that satisfies the partition invariant with `start1[0] = 0`,
for every active `k` the step `--active_size; shrink_one(k)` yields a state that satisfies
the same invariant, in which the bucket of `k` has one active variable fewer and one
shrunk variable more and the counts of every other bucket are unchanged; and for every
shrunk `k` the step `unshrink_one(k); active_size++` yields a state that satisfies the
invariant, in which the bucket of `k` has one active variable more and one shrunk variable
fewer and the counts of every other bucket are unchanged. -/
theorem bucket_contiguity (s : Solver_MB) (h : s.Rooted) :
    (∀ k : Nat, k < s.active_size →
      ∃ b : Nat, b < s.nr_class * s.nr_class ∧ s.bucket k = (b : Int) ∧
        (s.shrink_step k).Rooted ∧ (s.shrink_step k).active_size = s.active_size - 1 ∧
        Solver_MB.Counts s (s.shrink_step k) b (-1)) ∧
    (∀ k : Nat, s.active_size ≤ k → k < s.l →
      ∃ b : Nat, b < s.nr_class * s.nr_class ∧ s.bucket k = (b : Int) ∧
        (s.unshrink_step k).Rooted ∧ (s.unshrink_step k).active_size = s.active_size + 1 ∧
        Solver_MB.Counts s (s.unshrink_step k) b 1) := by
  obtain ⟨hp, h0⟩ := h
  constructor
  · intro k hk
    obtain ⟨b, pi, hb, hbk, hP, hr0, _, _, hra, hr1, hr2, _⟩ :=
      Solver_MB.shrink_one_spec s (s.shrink_step k) hp h0 k hk rfl
    exact ⟨b, hb, hbk, ⟨hP, hr0⟩, hra, Solver_MB.counts_decrement s _ b hp.len1 hp.len2 hb hr1 hr2⟩
  · intro k hk1 hk2
    have hact := Solver_MB.unshrink_one_active_size s k
    obtain ⟨b, pi, hb, hbk, hP, hr0, _, _, hra, hr1, hr2, _⟩ :=
      Solver_MB.unshrink_one_spec s (s.unshrink_step k) hp h0 k hk1 hk2
        (by unfold Solver_MB.unshrink_step; simp only [hact])
    exact ⟨b, hb, hbk, ⟨hP, hr0⟩, hra, Solver_MB.counts_increment s _ b hp.len1 hp.len2 hb hr1 hr2⟩

/-- C18 witness: the state `mb_sample` satisfies the invariant; shrinking the active
position 0 and unshrinking the shrunk position 2 keep it. -/
theorem bucket_contiguity_witness :
    mb_sample.Rooted ∧ (mb_sample.shrink_step 0).Rooted ∧
      Solver_MB.Counts mb_sample (mb_sample.shrink_step 0) 1 (-1) ∧
      (mb_sample.unshrink_step 2).Rooted ∧
      Solver_MB.Counts mb_sample (mb_sample.unshrink_step 2) 1 1 := by
  have hR : mb_sample.Rooted := ⟨mb_sample_partition, rfl⟩
  obtain ⟨b, hb, hbk, h1, _, h2⟩ := (bucket_contiguity mb_sample hR).1 0 (by decide)
  obtain ⟨c, hc, hck, h3, _, h4⟩ := (bucket_contiguity mb_sample hR).2 2 (by decide) (by decide)
  have eb : b = 1 := by
    have : mb_sample.bucket 0 = 1 := by decide
    rw [this] at hbk
    exact_mod_cast hbk.symm
  have ec : c = 1 := by
    have : mb_sample.bucket 2 = 1 := by decide
    rw [this] at hck
    exact_mod_cast hck.symm
  subst eb
  subst ec
  exact ⟨hR, h1, h2, h3, h4⟩

/-- C19 (as stated, refuted): the state `mb_stray_pair` satisfies the partition invariant
as the claim words it and position 0 is active with bucket 2; the round trip of position 0
restores both tables, but it leaves a variable of bucket 2 at position 1, which lies in the
range `[start1[1], start1[2])` of bucket 1, so the buckets are no longer contiguous. -/
theorem round_trip_counterexample :
    mb_stray_pair.Partition ∧ 0 < mb_stray_pair.active_size ∧
      (mb_stray_pair.round_trip 0).start1 = mb_stray_pair.start1 ∧
      (mb_stray_pair.round_trip 0).start1.getD 1 0 = 1 ∧
      (mb_stray_pair.round_trip 0).start1.getD 2 0 = 2 ∧
      (mb_stray_pair.round_trip 0).bucket 1 = 2 ∧
      ¬ (mb_stray_pair.round_trip 0).Partition := by
  refine ⟨mb_stray_pair_partition, by decide, by decide, by decide, by decide, by decide, ?_⟩
  intro h
  have := h.label1 1 1 (by decide) (by decide) (by decide)
  revert this
  decide

/-- C19 (amended): in a state that satisfies the partition invariant with `start1[0] = 0`,
for every number of classes, shrinking an active `k` with `shrink_one` and unshrinking it
with `unshrink_one` from the position `start2[s]` where it landed restores `start1` and
`start2`, leaves a state that satisfies the invariant in which every bucket has its
original counts, and leaves the records of the `l` positions a permutation of the original
ones. -/
theorem round_trip_restores (s : Solver_MB) (h : s.Rooted) (k : Nat)
    (hk : k < s.active_size) :
    (s.round_trip k).start1 = s.start1 ∧ (s.round_trip k).start2 = s.start2 ∧
      (s.round_trip k).Rooted ∧ (s.round_trip k).l = s.l ∧
      (s.round_trip k).active_size = s.active_size ∧
      (∀ c : Nat, (s.round_trip k).active_count c = s.active_count c ∧
        (s.round_trip k).shrunk_count c = s.shrunk_count c) ∧
      ((List.range s.l).map (s.round_trip k).record).Perm
        ((List.range s.l).map s.record) := by
  obtain ⟨hP, e1, e2, el, ea, pi, hm, hi, hrec⟩ :=
    Solver_MB.round_trip_spec s h.1 h.2 k hk
  refine ⟨e1, e2, ⟨hP, by rw [e1]; exact h.2⟩, el, ea, ?_, ?_⟩
  · intro c
    unfold Solver_MB.active_count Solver_MB.shrunk_count
    rw [e1, e2]
    exact ⟨rfl, rfl⟩
  · have e : (List.range s.l).map (s.round_trip k).record =
        (List.range s.l).map (fun p => s.record (pi p)) := by
      apply List.map_congr_left
      intro p hp
      exact hrec p (List.mem_range.mp hp)
    rw [e]
    exact perm_of_injective s.record pi s.l hm hi

/-- C19 witness: three classes with one point each, round trip of position 3. -/
theorem round_trip_restores_witness :
    mb_three.Rooted ∧ 3 < mb_three.active_size ∧ mb_three.nr_class = 3 ∧
      (mb_three.round_trip 3).start1 = mb_three.start1 ∧
      (mb_three.round_trip 3).start2 = mb_three.start2 ∧
      (mb_three.round_trip 3).Rooted ∧
      ((List.range mb_three.l).map (mb_three.round_trip 3).record).Perm
        ((List.range mb_three.l).map mb_three.record) := by
  have hR : mb_three.Rooted := ⟨mb_three_partition, rfl⟩
  obtain ⟨h1, h2, h3, _, _, _, h4⟩ := round_trip_restores mb_three hR 3 (by decide)
  exact ⟨hR, by decide, rfl, h1, h2, h3, h4⟩


/-- C20: `initial_index_table(count)`, called with `count` of `nr_class` entries,
`l = (nr_class - 1) * sum(count)` and the arrays allocated, leaves `start1` non-decreasing;
the bucket `(i, j)`, that is the range `[start1[i*nr_class+j], start1[i*nr_class+j+1])`, has
`count[j]` positions if `i != j` and none if `i == j`; every position `p` of the bucket
`(i, j)` has `yy[p] = i` and `real_i[p]` the index in class-grouped order of the point of
class `j` that it stands for; `active_set` is the identity; every entry of `start2` is `l`;
`start1[nr_class^2] = l`; and every position below `l` lies in exactly one bucket. -/
theorem initial_index_table_spec (s : Solver_MB) (count : List Nat)
    (hlen : count.length = s.nr_class)
    (hl : (s.l : Int) = ((s.nr_class : Int) - 1) * ((count.sum : Nat) : Int))
    (h1 : s.start1.length = s.nr_class * s.nr_class + 1)
    (h2 : s.start2.length = s.nr_class * s.nr_class + 1)
    (hyy : s.yy.length = s.l) (hri : s.real_i.length = s.l)
    (has : s.active_set.length = s.l) :
    (∀ b : Nat, b < s.nr_class * s.nr_class →
      (s.initial_index_table count).start1.getD b 0 ≤
        (s.initial_index_table count).start1.getD (b + 1) 0) ∧
    (∀ i j : Nat, i < s.nr_class → j < s.nr_class →
      (s.initial_index_table count).start1.getD (i * s.nr_class + j + 1) 0 -
          (s.initial_index_table count).start1.getD (i * s.nr_class + j) 0 =
        if i ≠ j then ((count.getD j 0 : Nat) : Int) else 0) ∧
    (∀ i j p : Nat, i < s.nr_class → j < s.nr_class →
      (s.initial_index_table count).start1.getD (i * s.nr_class + j) 0 ≤ (p : Int) →
      (p : Int) < (s.initial_index_table count).start1.getD (i * s.nr_class + j + 1) 0 →
      (s.initial_index_table count).yy[p]? = some (i : Int) ∧
      (s.initial_index_table count).real_i[p]? =
        some (class_offset count j +
          ((p : Int) - (s.initial_index_table count).start1.getD (i * s.nr_class + j) 0))) ∧
    (∀ p : Nat, p < s.l → (s.initial_index_table count).active_set[p]? = some (p : Int)) ∧
    (∀ b : Nat, b ≤ s.nr_class * s.nr_class →
      (s.initial_index_table count).start2[b]? = some (s.l : Int)) ∧
    (s.initial_index_table count).start1[s.nr_class * s.nr_class]? = some (s.l : Int) ∧
    (∀ p : Nat, p < s.l → ∃! b : Nat, b < s.nr_class * s.nr_class ∧
      (s.initial_index_table count).start1.getD b 0 ≤ (p : Int) ∧
      (p : Int) < (s.initial_index_table count).start1.getD (b + 1) 0) := by
  obtain ⟨f1, f2, f3, f4⟩ := Solver_MB.table_final s count hlen hl h1 h2 hyy hri has
  have step : ∀ i j : Nat, i < s.nr_class → j < s.nr_class →
      (s.initial_index_table count).start1.getD (i * s.nr_class + j + 1) 0 =
        bucket_start count i (j + 1) := by
    intro i j hi hj
    rw [Nat.add_assoc]
    exact f1 i (j + 1) hi (by omega)
  have hmono : ∀ b : Nat, b < s.nr_class * s.nr_class →
      (s.initial_index_table count).start1.getD b 0 ≤
        (s.initial_index_table count).start1.getD (b + 1) 0 := by
    intro b hb
    have hpos : 0 < s.nr_class := by
      rcases Nat.eq_zero_or_pos s.nr_class with h0 | h0
      · rw [h0] at hb; omega
      · exact h0
    have hdiv : b / s.nr_class < s.nr_class := Nat.div_lt_of_lt_mul (by omega)
    have hmod : b % s.nr_class < s.nr_class := Nat.mod_lt _ hpos
    have e1 := f1 (b / s.nr_class) (b % s.nr_class) hdiv (by omega)
    have e2 := step (b / s.nr_class) (b % s.nr_class) hdiv hmod
    rw [Nat.div_add_mod'] at e1 e2
    rw [e1, e2]
    exact bucket_start_step count _ _ (by omega)
  have hin : ∀ p : Nat, p < s.l →
      ∃ i2 j2 k : Nat, i2 < s.nr_class ∧ j2 < s.nr_class ∧ i2 ≠ j2 ∧ k < count.getD j2 0 ∧
        (p : Int) = bucket_start count i2 j2 + k ∧
        (s.initial_index_table count).start1.getD (i2 * s.nr_class + j2) 0 ≤ (p : Int) ∧
        (p : Int) < (s.initial_index_table count).start1.getD (i2 * s.nr_class + j2 + 1) 0 ∧
        (s.initial_index_table count).yy[p]? = some (i2 : Int) ∧
        (s.initial_index_table count).real_i[p]? = some (class_offset count j2 + k) := by
    intro p hp
    obtain ⟨_, i2, j2, k, g1, g2, g3, g4, g5, g6, g7⟩ := f4 p hp
    refine ⟨i2, j2, k, g1, g2, g3, g4, g5, ?_, ?_, g6, g7⟩
    · rw [f1 i2 j2 g1 (by omega)]; omega
    · rw [step i2 j2 g1 g2, bucket_start_succ count i2 j2 (by omega), if_pos g3]; omega
  refine ⟨hmono, ?_, ?_, fun p hp => (f4 p hp).1, f2, f3, ?_⟩
  · intro i j hi hj
    rw [step i j hi hj, f1 i j hi (by omega), bucket_start_succ count i j (by omega)]
    omega
  · intro i j p hi hj hp1 hp2
    have hpl : p < s.l := by
      have := bucket_start_le count i (j + 1) (by omega) (by omega)
      rw [hlen, ← hl] at this
      rw [step i j hi hj] at hp2
      omega
    obtain ⟨i2, j2, k, g1, g2, g3, g4, g5, g6, g7, g8, g9⟩ := hin p hpl
    have hb := range_unique _ _ hmono (i * s.nr_class + j) (i2 * s.nr_class + j2) (p : Int)
      (flat_lt _ i j hi hj) (flat_lt _ i2 j2 g1 g2) hp1 hp2 g6 g7
    obtain ⟨e1, e2⟩ := flat_inj s.nr_class i j i2 j2 hj g2 hb.symm
    subst e1
    subst e2
    refine ⟨g8, ?_⟩
    rw [g9, f1 i2 j2 hi (by omega), g5]
    congr 1
    omega
  · intro p hp
    obtain ⟨i2, j2, k, g1, g2, g3, g4, g5, g6, g7, _, _⟩ := hin p hp
    refine ⟨i2 * s.nr_class + j2, ⟨flat_lt _ i2 j2 g1 g2, g6, g7⟩, ?_⟩
    intro c ⟨hc, hc1, hc2⟩
    exact range_unique _ _ hmono c (i2 * s.nr_class + j2) (p : Int) hc
      (flat_lt _ i2 j2 g1 g2) hc1 hc2 g6 g7
/-- C20 witness: three classes with 1, 2 and 3 points, `l = 12`. -/
theorem initial_index_table_spec_witness :
    [1, 2, 3].length = (mb_blank 12 3).nr_class ∧
    ((mb_blank 12 3).l : Int) =
      (((mb_blank 12 3).nr_class : Int) - 1) * ((([1, 2, 3] : List Nat).sum : Nat) : Int) ∧
    ((mb_blank 12 3).initial_index_table [1, 2, 3]).start1[9]? = some (12 : Int) ∧
    (∀ b : Nat, b < 9 →
      ((mb_blank 12 3).initial_index_table [1, 2, 3]).start1.getD b 0 ≤
        ((mb_blank 12 3).initial_index_table [1, 2, 3]).start1.getD (b + 1) 0) ∧
    (∀ p : Nat, p < 12 →
      ((mb_blank 12 3).initial_index_table [1, 2, 3]).active_set[p]? = some (p : Int)) ∧
    (∀ p : Nat, p < 12 → ∃! b : Nat, b < 9 ∧
      ((mb_blank 12 3).initial_index_table [1, 2, 3]).start1.getD b 0 ≤ (p : Int) ∧
      (p : Int) < ((mb_blank 12 3).initial_index_table [1, 2, 3]).start1.getD (b + 1) 0) := by
  have hl : ((mb_blank 12 3).l : Int) =
      (((mb_blank 12 3).nr_class : Int) - 1) * ((([1, 2, 3] : List Nat).sum : Nat) : Int) := by
    decide
  obtain ⟨h1, _, _, h4, _, h6, h7⟩ :=
    initial_index_table_spec (mb_blank 12 3) [1, 2, 3] rfl hl rfl rfl rfl rfl rfl
  exact ⟨rfl, hl, h6, h1, h4, h7⟩

/-- C10 (as stated, refuted): `Solver_B::Solve` on one point with `Q = 1`, `b = 0`, `C = 1`
and the starting value `alpha_ = -1`: at the head of the first pass of the loop the only
position is active and `LOWER_BOUND`, `G[0] = 0`, but `b[0] + alpha[0] * Q[0][0] = -1`. -/
theorem gradient_invariant_counterexample :
    loop_head (Solver_B.ops solvebqp_diag true) true 0
        (Solver_B.init 1 (fun _ _ => 1) [0] [1] [-1] 1 1 (1 / 1000) true 2) 3 =
      some (Solver_B.init 1 (fun _ _ => 1) [0] [1] [-1] 1 1 (1 / 1000) true 2, 3) ∧
    (Solver_B.init 1 (fun _ _ => 1) [0] [1] [-1] 1 1 (1 / 1000) true 2).active_size = 1 ∧
    (Solver_B.init 1 (fun _ _ => 1) [0] [1] [-1] 1 1 (1 / 1000) true 2).is_lower_bound 0
      = true ∧
    (Solver_B.init 1 (fun _ _ => 1) [0] [1] [-1] 1 1 (1 / 1000) true 2).G.getD 0 0 = 0 ∧
    (Solver_B.init 1 (fun _ _ => 1) [0] [1] [-1] 1 1 (1 / 1000) true 2).gradient 0 = -1 := by
  have e : Solver_B.init 1 (fun _ _ => 1) [0] [1] [-1] 1 1 (1 / 1000) true 2 =
      { active_size := 1, G := [0], alpha_status := [Status.LOWER_BOUND], alpha := [-1],
        Q := fun _ _ => 1, eps := 1 / 1000, active_set := [0], G_bar := [0], l := 1,
        unshrinked := false, qpsize := 2, working_set := [], Cp := 1, Cn := 1, b := [0],
        y := [1] } := by
    simp [Solver_B.init, for_loop, Solver_B.update_alpha_status, Solver_B.is_lower_bound,
      Solver_B.get_C, List.range, List.range.loop, List.range']
  rw [e]
  refine ⟨rfl, rfl, by simp [Solver_B.is_lower_bound], by simp, ?_⟩
  simp [Solver_B.gradient]

/-- C10 (amended): shrinking enabled, exact arithmetic, a starting point with
`0 <= alpha_[i] <= C_i` for every `i`, and `solvebqp` returning a point of the box
`[0, qp.C]`: at the head of every pass of the loop of `Solver_B::Solve`, `G_bar[j]` is the
sum of `C_i * Q[i][j]` over all positions `i` at `UPPER_BOUND` for every `j < l`,
`G[j] = b[j] + sum_i alpha[i] * Q[i][j]` for every active `j`, and every shrunk position is
at a bound; and `reconstruct_gradient` sets `G[j]` for every shrunk `j` to
`b[j] + sum_i alpha[i] * Q[i][j]`. -/
theorem gradient_invariant (solvebqp : BQP → List ℚ) (hbox : box_solver solvebqp)
    (l : Nat) (Q : Nat → Nat → ℚ) (b_ : List ℚ) (y_ : List Int) (alpha_ : List ℚ)
    (Cp Cn eps : ℚ) (qpsize : Nat) (hb : b_.length = l)
    (hfeas : ∀ i, i < l → 0 ≤ alpha_.getD i 0 ∧
      alpha_.getD i 0 ≤ (if y_.getD i 0 > 0 then Cp else Cn))
    (n : Nat) (c0 : Int) (s : Solver_B) (c : Int)
    (h : loop_head (Solver_B.ops solvebqp true) true n
      (Solver_B.init l Q b_ y_ alpha_ Cp Cn eps true qpsize) c0 = some (s, c)) :
    (∀ j, j < s.l → s.G_bar.getD j 0 =
      ∑ i in Finset.range s.l, if s.is_upper_bound i then s.get_C i * s.Q i j else 0) ∧
    (∀ j, j < s.active_size → s.G.getD j 0 =
      s.b.getD j 0 + ∑ i in Finset.range s.l, s.alpha.getD i 0 * s.Q i j) ∧
    (∀ k, s.active_size ≤ k → k < s.l →
      s.is_lower_bound k = true ∨ s.is_upper_bound k = true) ∧
    (∀ j, s.active_size ≤ j → j < s.l → s.reconstruct_gradient.G.getD j 0 =
      s.b.getD j 0 + ∑ i in Finset.range s.l, s.alpha.getD i 0 * s.Q i j) := by
  have hinv := Solver_B.Inv_loop_head solvebqp hbox l Q b_ y_ alpha_ Cp Cn eps qpsize hb hfeas
    n c0 s c h
  refine ⟨hinv.G_bar, hinv.G, ?_, ?_⟩
  · intro k hk1 hk2
    have hfree := hinv.shrunk k hk1 hk2
    obtain ⟨hl1, _, _, hst⟩ := hinv.status
    have e := hst k hk2
    unfold Solver_B.is_free at hfree
    unfold Solver_B.is_lower_bound Solver_B.is_upper_bound
    rw [e] at hfree ⊢
    generalize status_of (s.alpha.getD k 0) (s.get_C k) = v at hfree ⊢
    cases v <;> simp at hfree ⊢
  · intro j hj1 hj2
    have hne : s.active_size ≠ s.l := by omega
    obtain ⟨_, r2⟩ := Solver_B.reconstruct_gradient_G s hinv.len_G hinv.active_le hne
    rw [r2 j, if_pos ⟨hj1, hj2⟩, ← Solver_B.gradient_split s _ hinv j hj2]
    rfl
/-- C10 witness: the state after the first pass on the two points with `C = 1` and the
starting point `alpha_ = 0`. -/
theorem gradient_invariant_witness :
    loop_head (Solver_B.ops solvebqp_diag true) true 1
        (Solver_B.init 2 two_point_Q [-1, -1] [1, -1] [0, 0] 1 1 (1 / 1000) true 2) 3 =
      some (unit_state [0, 0] [Status.FREE, Status.FREE] [1 / 2, 1 / 2] [1, 0], 2) ∧
    (∀ j, j < (unit_state [0, 0] [Status.FREE, Status.FREE] [1 / 2, 1 / 2] [1, 0]).active_size →
      (unit_state [0, 0] [Status.FREE, Status.FREE] [1 / 2, 1 / 2] [1, 0]).G.getD j 0 =
        (unit_state [0, 0] [Status.FREE, Status.FREE] [1 / 2, 1 / 2] [1, 0]).b.getD j 0 +
          ∑ i in Finset.range
              (unit_state [0, 0] [Status.FREE, Status.FREE] [1 / 2, 1 / 2] [1, 0]).l,
            (unit_state [0, 0] [Status.FREE, Status.FREE] [1 / 2, 1 / 2] [1, 0]).alpha.getD i 0 *
              (unit_state [0, 0] [Status.FREE, Status.FREE] [1 / 2, 1 / 2] [1, 0]).Q i j) :=
  ⟨loop_head_unit_first,
   (gradient_invariant solvebqp_diag box_solver_diag 2 two_point_Q [-1, -1] [1, -1] [0, 0] 1 1
      (1 / 1000) 2 rfl
      (by
        intro i hi
        interval_cases i <;> simp)
      1 3 _ 2 loop_head_unit_first).2.1⟩



/-! ## Parameter validation and kernels: lemmas -/

theorem first_failing_cons (c : Prop) [Decidable c] (s : String) (r : List (Bool × String)) :
    first_failing ((decide c, s) :: r) = if c then some s else first_failing r := by
  by_cases h : c
  · simp [first_failing, h]
  · simp [first_failing, h]

theorem first_failing_nil : first_failing [] = none := rfl

theorem dot_loop_comm (px py : List svm_node) (s : ℚ) : dot_loop px py s = dot_loop py px s := by
  induction px, py, s using dot_loop.induct with
  | case1 py s => cases py <;> simp [dot_loop]
  | case2 a px s => simp [dot_loop]
  | case3 a px b py s h he ih =>
    rw [dot_loop, if_pos h, if_pos he, ih]
    conv_rhs => rw [dot_loop, if_pos ⟨h.2, h.1⟩, if_pos he.symm, mul_comm b.value]
  | case4 a px b py s h he hgt ih =>
    rw [dot_loop, if_pos h, if_neg he, if_pos hgt, ih]
    conv_rhs => rw [dot_loop, if_pos ⟨h.2, h.1⟩, if_neg (fun e => he e.symm),
      if_neg (by omega)]
  | case5 a px b py s h he hgt ih =>
    rw [dot_loop, if_pos h, if_neg he, if_neg hgt, ih]
    conv_rhs => rw [dot_loop, if_pos ⟨h.2, h.1⟩, if_neg (fun e => he e.symm),
      if_pos (by omega)]
  | case6 a px b py s h =>
    rw [dot_loop, if_neg h, dot_loop, if_neg (fun e => h ⟨e.2, e.1⟩)]

theorem component_nil (k : Int) : component [] k = 0 := rfl

theorem component_cons_eq (a : svm_node) (px : List svm_node) : component (a :: px) a.index = a.value := by
  simp [component]

theorem component_cons_ne (a : svm_node) (px : List svm_node) (k : Int) (h : a.index ≠ k) :
    component (a :: px) k = component px k := by
  simp [component, h]

theorem component_of_lt (px : List svm_node) (k : Int) (h : ∀ n ∈ px, k < n.index) :
    component px k = 0 := by
  induction px with
  | nil => rfl
  | cons a px ih =>
    rw [component_cons_ne a px k (by have := h a (List.mem_cons_self _ _); omega)]
    exact ih (fun n hn => h n (List.mem_cons_of_mem _ hn))

theorem common_sum_nil_left (py : List svm_node) : common_sum [] py = 0 := rfl

theorem common_sum_nil_right (px : List svm_node) : common_sum px [] = 0 := by
  induction px with
  | nil => rfl
  | cons a px ih =>
    simp only [common_sum, List.map_cons, List.sum_cons, component_nil, mul_zero, zero_add] at ih ⊢
    exact ih

theorem common_sum_cons (a : svm_node) (px py : List svm_node) :
    common_sum (a :: px) py = a.value * component py a.index + common_sum px py := by
  simp [common_sum]

theorem common_sum_skip (px : List svm_node) (b : svm_node) (py : List svm_node)
    (h : ∀ n ∈ px, b.index < n.index) : common_sum px (b :: py) = common_sum px py := by
  induction px with
  | nil => rfl
  | cons a px ih =>
    rw [common_sum_cons, common_sum_cons, ih (fun n hn => h n (List.mem_cons_of_mem _ hn)),
      component_cons_ne b py a.index (by have := h a (List.mem_cons_self _ _); omega)]

theorem Increasing.tail {a : svm_node} {px : List svm_node} (h : Increasing (a :: px)) :
    Increasing px :=
  ⟨fun n hn => h.1 n (List.mem_cons_of_mem _ hn), (List.pairwise_cons.1 h.2).2⟩

theorem Increasing.head_lt {a : svm_node} {px : List svm_node} (h : Increasing (a :: px)) :
    ∀ n ∈ px, a.index < n.index :=
  (List.pairwise_cons.1 h.2).1

theorem Increasing.head_ne {a : svm_node} {px : List svm_node} (h : Increasing (a :: px)) :
    a.index ≠ -1 :=
  h.1 a (List.mem_cons_self _ _)

/-- The merge loop adds to `sum` the products of the values at the common indices. -/
theorem dot_loop_spec (px py : List svm_node) (s : ℚ) (hx : Increasing px) (hy : Increasing py) :
    dot_loop px py s = s + common_sum px py := by
  induction px, py, s using dot_loop.induct with
  | case1 py s => simp [dot_loop, common_sum_nil_left]
  | case2 a px s => simp [dot_loop, common_sum_nil_right]
  | case3 a px b py s h he ih =>
    rw [dot_loop, if_pos h, if_pos he, ih hx.tail hy.tail, common_sum_cons, he,
      component_cons_eq, common_sum_skip px b py (by rw [← he]; exact hx.head_lt)]
    ring
  | case4 a px b py s h he hgt ih =>
    rw [dot_loop, if_pos h, if_neg he, if_pos hgt, ih hx hy.tail]
    rw [common_sum_skip (a :: px) b py]
    intro n hn
    rcases List.mem_cons.1 hn with e | hn
    · subst e; omega
    · have := hx.head_lt n hn; omega
  | case5 a px b py s h he hgt ih =>
    rw [dot_loop, if_pos h, if_neg he, if_neg hgt, ih hx.tail hy, common_sum_cons,
      component_of_lt (b :: py) a.index, mul_zero, zero_add]
    intro n hn
    rcases List.mem_cons.1 hn with e | hn
    · subst e; omega
    · have := hy.head_lt n hn; omega
  | case6 a px b py s h =>
    exact absurd ⟨hx.head_ne, hy.head_ne⟩ h

theorem dot_spec (px py : List svm_node) (hx : Increasing px) (hy : Increasing py) :
    dot px py = common_sum px py := by
  rw [dot, dot_loop_spec px py 0 hx hy, zero_add]

theorem dot_comm (px py : List svm_node) : dot px py = dot py px :=
  dot_loop_comm px py 0

/-- The sum of the squares of the values of a feature vector. -/
theorem dot_self (px : List svm_node) (hx : Increasing px) :
    dot px px = (px.map (fun n => n.value * n.value)).sum := by
  rw [dot_spec px px hx hx]
  induction px with
  | nil => rfl
  | cons a px ih =>
    rw [common_sum_cons, component_cons_eq, common_sum_skip px a px hx.head_lt, ih hx.tail]
    simp

theorem rbf_rest_spec (px : List svm_node) (s : ℚ) (hx : ∀ n ∈ px, n.index ≠ -1) :
    rbf_rest px s = s + (px.map (fun n => n.value * n.value)).sum := by
  induction px generalizing s with
  | nil => simp [rbf_rest]
  | cons a px ih =>
    rw [rbf_rest, if_pos (hx a (List.mem_cons_self _ _)),
      ih _ (fun n hn => hx n (List.mem_cons_of_mem _ hn))]
    simp only [List.map_cons, List.sum_cons]
    ring

/-- The three loops of the RBF case add to `sum` the squares of the two vectors minus twice
the products at the common indices. -/
theorem rbf_merge_spec (px py : List svm_node) (s : ℚ) (hx : Increasing px) (hy : Increasing py) :
    rbf_rest (rbf_merge px py s).2.2 (rbf_rest (rbf_merge px py s).2.1 (rbf_merge px py s).1) =
      s + (px.map (fun n => n.value * n.value)).sum +
        (py.map (fun n => n.value * n.value)).sum - 2 * common_sum px py := by
  induction px, py, s using rbf_merge.induct with
  | case1 py s =>
    rw [rbf_merge]
    simp only [rbf_rest, List.map_nil, List.sum_nil, add_zero, common_sum_nil_left, mul_zero,
      sub_zero]
    exact rbf_rest_spec py s hy.1
  | case2 a px s =>
    rw [rbf_merge]
    simp only [rbf_rest, List.map_nil, List.sum_nil, add_zero, common_sum_nil_right, mul_zero,
      sub_zero]
    exact rbf_rest_spec (a :: px) s hx.1
  | case3 a px b py s h he ih =>
    rw [rbf_merge, if_pos h, if_pos he, ih hx.tail hy.tail, common_sum_cons, he,
      component_cons_eq, common_sum_skip px b py (by rw [← he]; exact hx.head_lt)]
    simp only [List.map_cons, List.sum_cons]
    ring
  | case4 a px b py s h he hgt ih =>
    rw [rbf_merge, if_pos h, if_neg he, if_pos hgt, ih hx hy.tail]
    rw [common_sum_skip (a :: px) b py]
    · simp only [List.map_cons, List.sum_cons]
      ring
    · intro n hn
      rcases List.mem_cons.1 hn with e | hn
      · subst e; omega
      · have := hx.head_lt n hn; omega
  | case5 a px b py s h he hgt ih =>
    rw [rbf_merge, if_pos h, if_neg he, if_neg hgt, ih hx.tail hy, common_sum_cons,
      component_of_lt (b :: py) a.index, mul_zero, zero_add]
    · simp only [List.map_cons, List.sum_cons]
      ring
    · intro n hn
      rcases List.mem_cons.1 hn with e | hn
      · subst e; omega
      · have := hy.head_lt n hn; omega
  | case6 a px b py s h =>
    exact absurd ⟨hx.head_ne, hy.head_ne⟩ h

theorem rbf_sum_spec (x y : List svm_node) (hx : Increasing x) (hy : Increasing y) :
    rbf_sum x y = dot x x + dot y y - 2 * dot x y := by
  rw [rbf_sum, dot_self x hx, dot_self y hy, dot_spec x y hx hy]
  rw [rbf_merge_spec x y 0 hx hy, zero_add]

theorem norms_spec (l : Nat) (x : List (List svm_node)) :
    (norms l x).length = l ∧
    ∀ i, i < l → (norms l x).getD i 0 = dot (x.getD i []) (x.getD i []) := by
  have main := for_loop_induction
    (fun n (a : List ℚ) => a.length = l ∧
      ∀ i, i < n → a.getD i 0 = dot (x.getD i []) (x.getD i []))
    0 l (fun i a => a.set i (dot (x.getD i []) (x.getD i []))) (List.replicate l 0)
    (Nat.zero_le _) ⟨by simp, fun i hi => absurd hi (by omega)⟩ ?_
  · exact main
  · intro i t _ hi ⟨h1, h2⟩
    refine ⟨by simp [h1], fun k hk => ?_⟩
    by_cases hki : k = i
    · subst hki
      simp [List.getD_eq_getElem?_getD, List.getElem?_set, h1, hi]
    · rw [List.getD_eq_getElem?_getD, List.getElem?_set_ne (Ne.symm hki),
        ← List.getD_eq_getElem?_getD]
      exact h2 k (by omega)

theorem component_of_not_mem (px : List svm_node) (k : Int)
    (h : k ∉ (px.map (fun n => n.index)).toFinset) : component px k = 0 := by
  induction px with
  | nil => rfl
  | cons a px ih =>
    simp only [List.map_cons, List.toFinset_cons, Finset.mem_insert, not_or] at h
    rw [component_cons_ne a px k (fun e => h.1 e.symm)]
    exact ih h.2

theorem sum_by_index (px : List svm_node) (g : Int → ℚ) (hx : Increasing px) :
    (px.map (fun n => n.value * g n.index)).sum =
      ∑ k in (px.map (fun n => n.index)).toFinset, component px k * g k := by
  induction px with
  | nil => rfl
  | cons a px ih =>
    have hnot : a.index ∉ (px.map (fun n => n.index)).toFinset := by
      intro hmem
      rw [List.mem_toFinset, List.mem_map] at hmem
      obtain ⟨n, hn, e⟩ := hmem
      have := hx.head_lt n hn
      omega
    simp only [List.map_cons, List.sum_cons, List.toFinset_cons]
    rw [Finset.sum_insert hnot, component_cons_eq, ih hx.tail]
    congr 1
    apply Finset.sum_congr rfl
    intro k hk
    rw [component_cons_ne a px k (fun e => hnot (e ▸ hk))]

theorem common_sum_by_index (px py : List svm_node) (hx : Increasing px) :
    common_sum px py =
      ∑ k in (px.map (fun n => n.index)).toFinset ∩ (py.map (fun n => n.index)).toFinset,
        component px k * component py k := by
  rw [common_sum, sum_by_index px (fun k => component py k) hx]
  symm
  apply Finset.sum_subset Finset.inter_subset_left
  intro k hk hnk
  rw [Finset.mem_inter, not_and] at hnk
  rw [component_of_not_mem py k (hnk hk), mul_zero]

theorem getD_take {β : Type} (xs : List β) (l i : Nat) (d : β) (hi : i < l) :
    (xs.take l).getD i d = xs.getD i d := by
  rw [List.getD_eq_getElem?_getD, List.getD_eq_getElem?_getD, List.getElem?_take_of_lt hi]

theorem w_loop_spec (w : List ℚ) (px : List svm_node) (s : ℚ) (hx : ∀ n ∈ px, n.index ≠ -1) :
    w_loop w px s = s + (px.map (fun n => w.getD n.index.toNat 0 * n.value)).sum := by
  induction px generalizing s with
  | nil => simp [w_loop]
  | cons a px ih =>
    rw [w_loop, if_pos (hx a (List.mem_cons_self _ _)),
      ih _ (fun n hn => hx n (List.mem_cons_of_mem _ hn))]
    simp only [List.map_cons, List.sum_cons]
    ring

theorem sum_at_zero (px : List svm_node) (hx : Increasing px) (hnn : ∀ n ∈ px, 0 ≤ n.index) :
    (px.map (fun n => (if n.index.toNat = 0 then (1 : ℚ) else 0) * n.value)).sum =
      component px 0 := by
  induction px with
  | nil => rfl
  | cons a px ih =>
    have h0 := hnn a (List.mem_cons_self _ _)
    simp only [List.map_cons, List.sum_cons]
    rw [ih hx.tail (fun n hn => hnn n (List.mem_cons_of_mem _ hn))]
    by_cases ha : a.index = 0
    · rw [if_pos (by omega), one_mul, component_of_lt px 0 (by rw [← ha]; exact hx.head_lt),
        add_zero, ← ha, component_cons_eq]
    · rw [if_neg (by omega), zero_mul, zero_add, component_cons_ne a px 0 ha]

theorem sum_weight (l : Nat) (x : List (List svm_node)) (y : List Int) (alpha : List ℚ)
    (px : List svm_node) :
    (px.map (fun n => weight l x y alpha n.index.toNat * n.value)).sum =
      ∑ j in Finset.range l, (y.getD j 0 : ℚ) * alpha.getD j 0 *
        ((px.map (fun n => (if n.index.toNat = 0 then (1 : ℚ) else 0) * n.value)).sum +
          (px.map (fun n => n.value * component (x.getD j []) ((n.index.toNat : Nat) : Int))).sum) := by
  induction px with
  | nil => simp
  | cons a px ih =>
    simp only [List.map_cons, List.sum_cons]
    rw [ih, weight, Finset.sum_mul, ← Finset.sum_add_distrib]
    apply Finset.sum_congr rfl
    intro j _
    ring

theorem map_toNat (px : List svm_node) (g : Int → ℚ) (hnn : ∀ n ∈ px, 0 ≤ n.index) :
    px.map (fun n => n.value * g ((n.index.toNat : Nat) : Int)) =
      px.map (fun n => n.value * g n.index) := by
  apply List.map_congr_left
  intro n hn
  rw [Int.toNat_of_nonneg (hnn n hn)]

/-- The value that the linear solver stores in `G[i]` when `w` is the weight vector of the
text and the indices are not negative: besides `dot + 1` every pair of points contributes the
values that the two points have at index 0, the slot of `w` that also holds the bias. -/
theorem linear_gradient_formula (l : Nat) (x : List (List svm_node)) (y : List Int)
    (alpha b w : List ℚ) (i : Nat) (hx : Increasing (x.getD i []))
    (hnn : ∀ n ∈ x.getD i [], 0 ≤ n.index)
    (hy : ∀ j, j < l → Increasing (x.getD j []))
    (hw : ∀ k, w.getD k 0 = weight l x y alpha k) :
    linear_gradient w x y b i =
      b.getD i 0 + ∑ j in Finset.range l, alpha.getD j 0 *
        ((y.getD i 0 : ℚ) * (y.getD j 0 : ℚ) *
          (dot (x.getD i []) (x.getD j []) + 1 + component (x.getD i []) 0 +
            component (x.getD j []) 0)) := by
  rw [linear_gradient, w_loop_spec w _ 0 hx.1, zero_add]
  simp only [hw]
  rw [sum_weight, sum_at_zero _ hx hnn]
  have e : weight l x y alpha 0 = ∑ j in Finset.range l, (y.getD j 0 : ℚ) * alpha.getD j 0 *
      (1 + component (x.getD j []) 0) := by
    simp [weight]
  rw [e, ← Finset.sum_add_distrib, Finset.mul_sum, add_comm]
  congr 1
  apply Finset.sum_congr rfl
  intro j hj
  rw [map_toNat _ (fun k => component (x.getD j []) k) hnn,
    dot_spec _ _ hx (hy j (Finset.mem_range.1 hj)), common_sum]
  ring

/-- With all indices at least 1, the gradient computed through `w` uses the entries of the
sub-problem matrix. -/
theorem linear_gradient_positive (l : Nat) (x : List (List svm_node)) (y : List Int)
    (alpha b w : List ℚ) (i : Nat) (hx : Increasing (x.getD i []))
    (hpos : ∀ n ∈ x.getD i [], 1 ≤ n.index)
    (hy : ∀ j, j < l → Increasing (x.getD j []) ∧ ∀ n ∈ x.getD j [], 1 ≤ n.index)
    (hw : ∀ k, w.getD k 0 = weight l x y alpha k) :
    linear_gradient w x y b i =
      b.getD i 0 + ∑ j in Finset.range l, alpha.getD j 0 * linear_Q x y i j := by
  rw [linear_gradient_formula l x y alpha b w i hx
    (fun n hn => by have := hpos n hn; omega) (fun j hj => (hy j hj).1) hw]
  congr 1
  apply Finset.sum_congr rfl
  intro j hj
  rw [component_of_lt _ 0 (fun n hn => by have := hpos n hn; omega),
    component_of_lt _ 0 (fun n hn => by have := (hy j (Finset.mem_range.1 hj)).2 n hn; omega),
    linear_Q]
  ring

theorem sparsifyb_unit : sparsifyb [1] 1 1 = [[⟨0, 1⟩]] := by
  simp [sparsifyb, sparsify_row, for_loop, List.range']

theorem add_point_unit : add_point [0, 0] [⟨0, 1⟩] 1 = [2, 0] := by
  simp [add_point, add_nodes]
  norm_num

theorem weight_unit (k : Nat) : ([2, 0] : List ℚ).getD k 0 = weight 1 [[⟨0, 1⟩]] [1] [1] k := by
  rcases k with _ | _ | k
  · simp [weight, component]; norm_num
  · simp [weight, component]
  · have e : ¬ ((0 : Int) = (k : Int) + 1 + 1) := by omega
    simp [weight, component, e]

theorem for_loop_map_spec (g : ℚ → ℚ) (xs : List ℚ) (hi : Nat) :
    (for_loop 0 hi (fun i a => a.set i (g (a.getD i 0))) xs).length = xs.length ∧
    ∀ j, (for_loop 0 hi (fun i a => a.set i (g (a.getD i 0))) xs).getD j 0 =
      if j < hi ∧ j < xs.length then g (xs.getD j 0) else xs.getD j 0 := by
  refine for_loop_induction
    (fun m (a : List ℚ) => a.length = xs.length ∧ ∀ j, a.getD j 0 =
      if j < m ∧ j < xs.length then g (xs.getD j 0) else xs.getD j 0)
    0 hi _ xs (Nat.zero_le _) ⟨rfl, fun j => by simp⟩ ?_
  intro i t _ _ ⟨h1, h2⟩
  refine ⟨by simp [h1], fun j => ?_⟩
  by_cases hji : j = i
  · subst hji
    by_cases hj : j < xs.length
    · rw [List.getD_eq_getElem?_getD, List.getElem?_set_self (by omega), h2 j,
        if_neg (by omega), if_pos ⟨by omega, hj⟩]
      rfl
    · rw [List.getD_eq_getElem?_getD, List.getElem?_eq_none (by simp; omega),
        if_neg (by omega), List.getD_eq_getElem?_getD, List.getElem?_eq_none (by omega)]
  · rw [List.getD_eq_getElem?_getD, List.getElem?_set_ne (Ne.symm hji),
      ← List.getD_eq_getElem?_getD, h2 j]
    by_cases hj : j < i
    · by_cases hjl : j < xs.length
      · rw [if_pos ⟨hj, hjl⟩, if_pos ⟨by omega, hjl⟩]
      · rw [if_neg (by omega), if_neg (by omega)]
    · rw [if_neg (by omega), if_neg (by omega)]

theorem getD_set_q (w : List ℚ) (i k : Nat) (v : ℚ) (hi : i < w.length) :
    (w.set i v).getD k 0 = if k = i then v else w.getD k 0 := by
  by_cases hki : k = i
  · subst hki
    rw [if_pos rfl, List.getD_eq_getElem?_getD, List.getElem?_set_self hi]; rfl
  · rw [if_neg hki, List.getD_eq_getElem?_getD, List.getElem?_set_ne (Ne.symm hki),
      ← List.getD_eq_getElem?_getD]

theorem add_nodes_spec (yalpha : ℚ) (px : List svm_node) :
    ∀ (w : List ℚ), Increasing px → (∀ n ∈ px, 0 ≤ n.index ∧ n.index < (w.length : Int)) →
      (add_nodes yalpha px w).length = w.length ∧
      ∀ k : Nat, (add_nodes yalpha px w).getD k 0 =
        w.getD k 0 + yalpha * component px (k : Int) := by
  induction px with
  | nil => intro w _ _; simp [add_nodes, component]
  | cons a px ih =>
    intro w hx hr
    have ha := hr a (List.mem_cons_self _ _)
    have hlt : a.index.toNat < w.length := by omega
    obtain ⟨e1, e2⟩ := ih (w.set a.index.toNat (w.getD a.index.toNat 0 + yalpha * a.value))
      hx.tail (fun n hn => by
        have := hr n (List.mem_cons_of_mem _ hn)
        simp only [List.length_set]; exact this)
    rw [add_nodes, if_pos hx.head_ne]
    refine ⟨by rw [e1, List.length_set], fun k => ?_⟩
    rw [e2 k, getD_set_q _ _ _ _ hlt]
    by_cases hk : k = a.index.toNat
    · rw [if_pos hk]
      have hk' : (k : Int) = a.index := by omega
      rw [hk', component_cons_eq, component_of_lt px a.index hx.head_lt, hk]
      ring
    · rw [if_neg hk, component_cons_ne a px (k : Int) (by omega)]

theorem add_point_spec (yalpha : ℚ) (px : List svm_node) (w : List ℚ) (hx : Increasing px)
    (hr : ∀ n ∈ px, 0 ≤ n.index ∧ n.index < (w.length : Int)) (hw : 0 < w.length) :
    (add_point w px yalpha).length = w.length ∧
    ∀ k : Nat, (add_point w px yalpha).getD k 0 =
      w.getD k 0 + yalpha * ((if k = 0 then 1 else 0) + component px (k : Int)) := by
  obtain ⟨e1, e2⟩ := add_nodes_spec yalpha px w hx hr
  refine ⟨by rw [add_point, List.length_set, e1], fun k => ?_⟩
  rw [add_point, getD_set_q _ _ _ _ (by omega)]
  by_cases hk : k = 0
  · subst hk
    rw [if_pos rfl, if_pos rfl, e2 0]; ring
  · rw [if_neg hk, if_neg hk, e2 k]; ring

/-- The loop over the points of the last rescale step: every `alpha[i]` is replaced by its
rescaled value and `w` receives the contributions of all the points. -/
theorem rescale_last_spec (x : List (List svm_node)) (y : List Int) (Cp Cn Cpj Cnj : ℚ)
    (n l : Nat) (alpha w0 : List ℚ) (hal : alpha.length = l) (hw0 : w0.length = n + 1)
    (hx : ∀ i, i < l → Increasing (x.getD i []) ∧
      ∀ a ∈ x.getD i [], 0 ≤ a.index ∧ a.index ≤ (n : Int)) :
    (for_loop 0 l (rescale_last_body x y Cp Cn Cpj Cnj) (alpha, w0)).1.length = l ∧
    (∀ i, i < l → (for_loop 0 l (rescale_last_body x y Cp Cn Cpj Cnj) (alpha, w0)).1.getD i 0 =
      rescale_alpha (y.getD i 0) (alpha.getD i 0) Cp Cn Cpj Cnj) ∧
    ∀ k : Nat, (for_loop 0 l (rescale_last_body x y Cp Cn Cpj Cnj) (alpha, w0)).2.getD k 0 =
      w0.getD k 0 + weight l x y
        (for_loop 0 l (rescale_last_body x y Cp Cn Cpj Cnj) (alpha, w0)).1 k := by
  have main := for_loop_induction
    (fun m (t : List ℚ × List ℚ) => t.1.length = l ∧ t.2.length = n + 1 ∧
      (∀ i, i < m → t.1.getD i 0 = rescale_alpha (y.getD i 0) (alpha.getD i 0) Cp Cn Cpj Cnj) ∧
      (∀ i, m ≤ i → t.1.getD i 0 = alpha.getD i 0) ∧
      ∀ k : Nat, t.2.getD k 0 = w0.getD k 0 + weight m x y t.1 k)
    0 l (rescale_last_body x y Cp Cn Cpj Cnj) (alpha, w0) (Nat.zero_le _)
    ⟨hal, hw0, fun i hi => absurd hi (by omega), fun i _ => rfl, fun k => by simp [weight]⟩ ?_
  · exact ⟨main.1, main.2.2.1, main.2.2.2.2⟩
  · intro i t _ hi ⟨h1, h2, h3, h4, h5⟩
    have e4 := h4 i (le_refl _)
    obtain ⟨g1, g2⟩ := add_point_spec
      ((y.getD i 0 : ℚ) * rescale_alpha (y.getD i 0) (alpha.getD i 0) Cp Cn Cpj Cnj)
      (x.getD i []) t.2 (hx i hi).1
      (fun a ha => by have := (hx i hi).2 a ha; omega) (by omega)
    have hset : ∀ j, (t.1.set i (rescale_alpha (y.getD i 0) (alpha.getD i 0) Cp Cn Cpj Cnj)).getD j 0 =
        if j = i then rescale_alpha (y.getD i 0) (alpha.getD i 0) Cp Cn Cpj Cnj
        else t.1.getD j 0 := by
      intro j
      rw [getD_set_q _ _ _ _ (by omega)]
    refine ⟨by simp [rescale_last_body, h1], by simp only [rescale_last_body, e4]; rw [g1, h2],
      fun j hj => ?_, fun j hj => ?_, fun k => ?_⟩
    · simp only [rescale_last_body, e4]
      rw [hset j]
      by_cases hji : j = i
      · rw [if_pos hji, hji]
      · rw [if_neg hji]; exact h3 j (by omega)
    · simp only [rescale_last_body, e4]
      rw [hset j, if_neg (by omega)]
      exact h4 j (by omega)
    · simp only [rescale_last_body, e4]
      have hw' : weight (i + 1) x y
          (t.1.set i (rescale_alpha (y.getD i 0) (alpha.getD i 0) Cp Cn Cpj Cnj)) k =
          weight i x y t.1 k +
            (y.getD i 0 : ℚ) * rescale_alpha (y.getD i 0) (alpha.getD i 0) Cp Cn Cpj Cnj *
              ((if k = 0 then 1 else 0) + component (x.getD i []) (k : Int)) := by
        rw [weight, weight, Finset.sum_range_succ, hset i, if_pos rfl]
        congr 1
        apply Finset.sum_congr rfl
        intro j hj
        have hji : j ≠ i := by have := Finset.mem_range.1 hj; omega
        rw [hset j, if_neg hji]
      rw [g2 k, h5 k, hw']
      ring

theorem weight_scale (l : Nat) (x : List (List svm_node)) (y : List Int) (alpha beta : List ℚ)
    (c : ℚ) (k : Nat) (h : ∀ i, i < l → beta.getD i 0 = alpha.getD i 0 * c) :
    weight l x y beta k = weight l x y alpha k * c := by
  rw [weight, weight, Finset.sum_mul]
  apply Finset.sum_congr rfl
  intro j hj
  rw [h j (Finset.mem_range.1 hj)]
  ring

theorem weight_beyond (l : Nat) (x : List (List svm_node)) (y : List Int) (alpha : List ℚ)
    (n k : Nat) (hk : n < k)
    (hx : ∀ i, i < l → ∀ a ∈ x.getD i [], a.index ≤ (n : Int)) :
    weight l x y alpha k = 0 := by
  rw [weight]
  apply Finset.sum_eq_zero
  intro j hj
  rw [if_neg (by omega), component_of_not_mem, add_zero, mul_zero]
  rw [List.mem_toFinset, List.mem_map]
  rintro ⟨a, ha, e⟩
  have := hx j (Finset.mem_range.1 hj) a ha
  omega

theorem labels_cases (prob_y : List ℚ) (i : Nat) (hi : i < prob_y.length) :
    (labels prob_y).getD i 0 = 1 ∨ (labels prob_y).getD i 0 = -1 := by
  rw [labels, List.getD_eq_getElem?_getD, List.getElem?_map, List.getElem?_eq_getElem hi]
  simp only [Option.map_some', Option.getD_some]
  split_ifs
  · left; rfl
  · right; rfl

/-- Everything the rescale step of `solve_c_svc` does to `alpha` and `w`. -/
theorem c_svc_rescale_spec (x : List (List svm_node)) (y : List Int) (n l : Nat)
    (Cp Cn Cstep Cpj Cnj : ℚ) (alpha w : List ℚ) (hal : alpha.length = l)
    (hwl : w.length = n + 1)
    (hx : ∀ i, i < l → Increasing (x.getD i []) ∧
      ∀ a ∈ x.getD i [], 0 ≤ a.index ∧ a.index ≤ (n : Int))
    (hw : ∀ k, w.getD k 0 = weight l x y alpha k) :
    (c_svc_rescale x y n l Cp Cn Cstep Cpj Cnj (alpha, w)).1.length = l ∧
    (∀ i, i < l → (c_svc_rescale x y n l Cp Cn Cstep Cpj Cnj (alpha, w)).1.getD i 0 =
      if Cpj * Cstep ≥ Cp then rescale_alpha (y.getD i 0) (alpha.getD i 0) Cp Cn Cpj Cnj
      else alpha.getD i 0 * Cstep) ∧
    ∀ k, (c_svc_rescale x y n l Cp Cn Cstep Cpj Cnj (alpha, w)).2.getD k 0 =
      weight l x y (c_svc_rescale x y n l Cp Cn Cstep Cpj Cnj (alpha, w)).1 k := by
  by_cases hlast : Cpj * Cstep ≥ Cp
  · simp only [c_svc_rescale, if_pos hlast]
    obtain ⟨z1, z2⟩ := for_loop_map_spec (fun _ => 0) w (n + 1)
    obtain ⟨g1, g2, g3⟩ := rescale_last_spec x y Cp Cn Cpj Cnj n l alpha
      (for_loop 0 (n + 1) (fun i w => w.set i 0) w) hal (z1.trans hwl) hx
    refine ⟨g1, g2, fun k => ?_⟩
    rw [g3 k]
    have hz : (for_loop 0 (n + 1) (fun i w => w.set i 0) w).getD k 0 = 0 := by
      have := z2 k
      rw [this]
      by_cases hk : k < n + 1
      · rw [if_pos ⟨hk, by omega⟩]
      · rw [if_neg (by omega), List.getD_eq_getElem?_getD, List.getElem?_eq_none (by omega)]
        rfl
    rw [hz, zero_add]
  · simp only [c_svc_rescale, if_neg hlast]
    obtain ⟨a1, a2⟩ := for_loop_map_spec (fun v => v * Cstep) alpha l
    obtain ⟨w1, w2⟩ := for_loop_map_spec (fun v => v * Cstep) w (n + 1)
    have ha : ∀ i, i < l →
        (for_loop 0 l (fun i a => a.set i (a.getD i 0 * Cstep)) alpha).getD i 0 =
          alpha.getD i 0 * Cstep := by
      intro i hi
      have := a2 i
      rw [if_pos ⟨hi, by omega⟩] at this
      exact this
    refine ⟨a1.trans hal, ha, fun k => ?_⟩
    rw [weight_scale l x y alpha _ Cstep k ha]
    have := w2 k
    rw [this]
    by_cases hk : k < n + 1
    · rw [if_pos ⟨hk, by omega⟩, hw k]
    · rw [if_neg (by omega), hw k,
        weight_beyond l x y alpha n k (by omega) (fun i hi a ha => ((hx i hi).2 a ha).2)]
      ring
/-- The number of values of the geometric path below the target. -/
theorem path_steps (Cbegin Cstep C : ℚ) (hb : 0 < Cbegin) (hs : 1 < Cstep) :
    ∃ K : Nat, ∀ k : Nat, Cbegin * Cstep ^ k < C ↔ k < K := by
  have hex : ∃ K : Nat, ¬ (Cbegin * Cstep ^ K < C) := by
    obtain ⟨K, hK⟩ := pow_unbounded_of_one_lt (C / Cbegin) hs
    refine ⟨K, ?_⟩
    rw [not_lt]
    have := (div_lt_iff₀ hb).1 hK
    linarith
  classical
  refine ⟨Nat.find hex, fun k => ⟨fun h => ?_, fun h => ?_⟩⟩
  · by_contra hk
    have hle : Nat.find hex ≤ k := not_lt.1 hk
    have h1 := Nat.find_spec hex
    have hmono : Cstep ^ Nat.find hex ≤ Cstep ^ k := pow_le_pow_right₀ (le_of_lt hs) hle
    have := mul_le_mul_of_nonneg_left hmono (le_of_lt hb)
    exact h1 (lt_of_le_of_lt this h)
  · exact not_not.1 (Nat.find_min hex h)

theorem c_svc_path_run (solver : ℚ → ℚ → List ℚ × List ℚ → List ℚ × List ℚ)
    (x : List (List svm_node)) (y : List Int) (n l : Nat) (Cp Cn Cstep Cbegin Cn0 : ℚ) :
    ∀ (m k : Nat) (s : path_state) (fuel : Nat),
      s.Cpj = Cbegin * Cstep ^ k → s.Cnj = Cn0 * Cstep ^ k →
      (∀ j, k ≤ j → j < k + m → Cbegin * Cstep ^ j < Cp) →
      ¬ (Cbegin * Cstep ^ (k + m) < Cp) → m ≤ fuel →
      ∃ r, c_svc_path solver x y n l Cp Cn Cstep fuel s = some r ∧
        r.calls = s.calls ++
          (List.range' k m).map (fun j => (Cbegin * Cstep ^ j, Cn0 * Cstep ^ j)) := by
  intro m
  induction m with
  | zero =>
    intro k s fuel h1 _ _ h4 _
    have hn : ¬ s.Cpj < Cp := by rw [h1]; simpa using h4
    refine ⟨s, ?_, by simp⟩
    cases fuel with
    | zero => rw [c_svc_path, if_neg hn]
    | succ f => rw [c_svc_path, if_neg hn]
  | succ m ih =>
    intro k s fuel h1 h2 h3 h4 h5
    have hlt : s.Cpj < Cp := by rw [h1]; exact h3 k (le_refl _) (by omega)
    obtain ⟨f, rfl⟩ : ∃ f, fuel = f + 1 := ⟨fuel - 1, by omega⟩
    rw [c_svc_path, if_pos hlt]
    obtain ⟨r, e1, e2⟩ := ih (k + 1)
      { alpha := (c_svc_rescale x y n l Cp Cn Cstep s.Cpj s.Cnj
            (solver s.Cpj s.Cnj (s.alpha, s.w))).1
        w := (c_svc_rescale x y n l Cp Cn Cstep s.Cpj s.Cnj
            (solver s.Cpj s.Cnj (s.alpha, s.w))).2
        Cpj := s.Cpj * Cstep
        Cnj := s.Cnj * Cstep
        calls := s.calls ++ [(s.Cpj, s.Cnj)] } f
      (by simp only [h1]; ring) (by simp only [h2]; ring)
      (fun j hj1 hj2 => h3 j (by omega) (by omega))
      (by rw [show k + 1 + m = k + (m + 1) by omega]; exact h4) (by omega)
    refine ⟨r, e1, ?_⟩
    rw [e2, List.range'_succ, List.map_cons, h1, h2]
    simp

theorem svr_path_run (solver : ℚ → ℚ → List ℚ × List ℚ → List ℚ × List ℚ)
    (x : List (List svm_node)) (y : List Int) (n l : Nat) (C Cstep Cbegin : ℚ) :
    ∀ (m k : Nat) (s : path_state) (fuel : Nat),
      s.Cpj = Cbegin * Cstep ^ k →
      (∀ j, k ≤ j → j < k + m → Cbegin * Cstep ^ j < C) →
      ¬ (Cbegin * Cstep ^ (k + m) < C) → m ≤ fuel →
      ∃ r, svr_path solver x y n l C Cstep fuel s = some r ∧
        r.calls = s.calls ++
          (List.range' k m).map (fun j => (Cbegin * Cstep ^ j, Cbegin * Cstep ^ j)) := by
  intro m
  induction m with
  | zero =>
    intro k s fuel h1 _ h4 _
    have hn : ¬ s.Cpj < C := by rw [h1]; simpa using h4
    refine ⟨s, ?_, by simp⟩
    cases fuel with
    | zero => rw [svr_path, if_neg hn]
    | succ f => rw [svr_path, if_neg hn]
  | succ m ih =>
    intro k s fuel h1 h3 h4 h5
    have hlt : s.Cpj < C := by rw [h1]; exact h3 k (le_refl _) (by omega)
    obtain ⟨f, rfl⟩ : ∃ f, fuel = f + 1 := ⟨fuel - 1, by omega⟩
    rw [svr_path, if_pos hlt]
    obtain ⟨r, e1, e2⟩ := ih (k + 1)
      { alpha := (svr_rescale x y n l C Cstep s.Cpj (solver s.Cpj s.Cpj (s.alpha, s.w))).1
        w := (svr_rescale x y n l C Cstep s.Cpj (solver s.Cpj s.Cpj (s.alpha, s.w))).2
        Cpj := s.Cpj * Cstep
        Cnj := s.Cnj
        calls := s.calls ++ [(s.Cpj, s.Cpj)] } f
      (by simp only [h1]; ring)
      (fun j hj1 hj2 => h3 j (by omega) (by omega))
      (by rw [show k + 1 + m = k + (m + 1) by omega]; exact h4) (by omega)
    refine ⟨r, e1, ?_⟩
    rw [e2, List.range'_succ, List.map_cons, h1]
    simp

/-! ## The adapters: lemmas -/

theorem Cache.write_spec (c : Cache α) (i j : Nat) (v : α) :
    (c.write i j v).size = c.size ∧ (c.write i j v).head.length = c.head.length ∧
    (∀ r, (c.write i j v).get_next r = c.get_next r) ∧
    (∀ r, (c.write i j v).get_prev r = c.get_prev r) ∧
    (∀ p, lenAt (c.write i j v).contents p = lenAt c.contents p) ∧
    (∀ p, dataAt (c.write i j v).contents p =
      if p = i then (dataAt c.contents p).set j (some v) else dataAt c.contents p) := by
  unfold Cache.write
  cases hi : c.head[i]? with
  | none =>
    refine ⟨rfl, rfl, fun _ => rfl, fun _ => rfl, fun _ => rfl, fun p => ?_⟩
    by_cases hp : p = i
    · subst hp
      simp [dataAt, Cache.contents_getElem?, hi]
    · rw [if_neg hp]
  | some h =>
    have hil : i < c.head.length := (List.getElem?_eq_some.1 hi).1
    refine ⟨rfl, by simp, fun r => ?_, fun r => ?_, fun p => ?_, fun p => ?_⟩
    · cases r with
      | null => rfl
      | lru_head => rfl
      | head k =>
        simp only [Cache.get_next]
        by_cases hk : k = i
        · subst hk; simp [hi, hil]
        · rw [List.getElem?_set_ne (Ne.symm hk)]
    · cases r with
      | null => rfl
      | lru_head => rfl
      | head k =>
        simp only [Cache.get_prev]
        by_cases hk : k = i
        · subst hk; simp [hi, hil]
        · rw [List.getElem?_set_ne (Ne.symm hk)]
    · simp only [lenAt, Cache.contents_getElem?]
      by_cases hp : p = i
      · subst hp; simp [hi, hil]
      · rw [List.getElem?_set_ne (Ne.symm hp)]
    · simp only [dataAt, Cache.contents_getElem?]
      by_cases hp : p = i
      · subst hp; simp [hi, hil]
      · rw [List.getElem?_set_ne (Ne.symm hp), if_neg hp]

theorem Cache.write_total (c : Cache α) (i j : Nat) (v : α) :
    (c.write i j v).total = c.total := by
  have h := (Cache.write_spec c i j v).2.2.2.2.1
  have hl := (Cache.write_spec c i j v).2.1
  rw [Cache.total_eq, Cache.total_eq, totalLen, totalLen]
  congr 1
  apply List.ext_getElem?
  intro p
  have := h p
  simp only [lenAt] at this
  rw [List.getElem?_map, List.getElem?_map]
  cases h1 : (c.write i j v).contents[p]? with
  | none =>
    cases h2 : c.contents[p]? with
    | none => rfl
    | some e =>
      have l1 := List.getElem?_eq_none_iff.1 h1
      have l2 := (List.getElem?_eq_some.1 h2).1
      rw [Cache.contents_length] at l1 l2
      omega
  | some e1 =>
    cases h2 : c.contents[p]? with
    | none =>
      have l1 := (List.getElem?_eq_some.1 h1).1
      have l2 := List.getElem?_eq_none_iff.1 h2
      rw [Cache.contents_length] at l1 l2
      omega
    | some e2 =>
      rw [h1, h2] at this
      simp only [Option.map_some', Option.some.injEq]
      exact this

/-- Everything the fill loop of `get_Q` does to the cache. -/
theorem Cache.fill_spec (c : Cache α) (i : Nat) (start len : Int) (val : Nat → α) :
    (c.fill i start len val).size = c.size ∧
    (c.fill i start len val).total = c.total ∧
    (c.fill i start len val).head.length = c.head.length ∧
    (∀ r, (c.fill i start len val).get_next r = c.get_next r) ∧
    (∀ r, (c.fill i start len val).get_prev r = c.get_prev r) ∧
    (∀ p, lenAt (c.fill i start len val).contents p = lenAt c.contents p) ∧
    (∀ p, p ≠ i → dataAt (c.fill i start len val).contents p = dataAt c.contents p) ∧
    (dataAt (c.fill i start len val).contents i).length = (dataAt c.contents i).length ∧
    (∀ j : Nat, (dataAt (c.fill i start len val).contents i)[j]? =
      if start.toNat ≤ j ∧ j < len.toNat ∧ j < (dataAt c.contents i).length
      then some (some (val j)) else (dataAt c.contents i)[j]?) := by
  unfold Cache.fill
  by_cases hle : start.toNat ≤ len.toNat
  · refine for_loop_induction
      (fun n (t : Cache α) => t.size = c.size ∧ t.total = c.total ∧
        t.head.length = c.head.length ∧
        (∀ r, t.get_next r = c.get_next r) ∧ (∀ r, t.get_prev r = c.get_prev r) ∧
        (∀ p, lenAt t.contents p = lenAt c.contents p) ∧
        (∀ p, p ≠ i → dataAt t.contents p = dataAt c.contents p) ∧
        (dataAt t.contents i).length = (dataAt c.contents i).length ∧
        (∀ j : Nat, (dataAt t.contents i)[j]? =
          if start.toNat ≤ j ∧ j < n ∧ j < (dataAt c.contents i).length
          then some (some (val j)) else (dataAt c.contents i)[j]?))
      start.toNat len.toNat _ c hle
      ⟨rfl, rfl, rfl, fun _ => rfl, fun _ => rfl, fun _ => rfl, fun _ _ => rfl, rfl,
        fun j => by rw [if_neg (by omega)]⟩ ?_
    intro n t hn1 hn2 ⟨h1, h2, h3, h4, h5, h6, h7, h8, h9⟩
    obtain ⟨w1, w2, w3, w4, w5, w6⟩ := Cache.write_spec t i n (val n)
    refine ⟨w1.trans h1, (Cache.write_total t i n (val n)).trans h2, w2.trans h3,
      fun r => (w3 r).trans (h4 r), fun r => (w4 r).trans (h5 r),
      fun p => (w5 p).trans (h6 p), fun p hp => ?_, ?_, fun j => ?_⟩
    · rw [w6 p, if_neg hp]; exact h7 p hp
    · rw [w6 i, if_pos rfl, List.length_set]; exact h8
    · rw [w6 i, if_pos rfl]
      by_cases hjn : j = n
      · subst hjn
        by_cases hjl : j < (dataAt c.contents i).length
        · rw [List.getElem?_set_self (by rw [h8]; exact hjl), if_pos ⟨hn1, by omega, hjl⟩]
        · rw [if_neg (by omega), List.getElem?_eq_none (by rw [List.length_set, h8]; omega),
            List.getElem?_eq_none (by omega)]
      · rw [List.getElem?_set_ne (Ne.symm hjn), h9 j]
        by_cases hc : start.toNat ≤ j ∧ j < n ∧ j < (dataAt c.contents i).length
        · rw [if_pos hc, if_pos ⟨hc.1, by omega, hc.2.2⟩]
        · rw [if_neg hc, if_neg (by omega)]
  · rw [for_loop_of_le _ _ _ _ (by omega)]
    exact ⟨rfl, rfl, rfl, fun _ => rfl, fun _ => rfl, fun _ => rfl, fun _ _ => rfl, rfl,
      fun j => by rw [if_neg (by omega)]⟩

theorem Cache.fill_wf {c : Cache α} {L : List Nat} (h : c.WF L) (i : Nat) (start len : Int)
    (val : Nat → α) : (c.fill i start len val).WF L := by
  obtain ⟨-, -, f3, f4, f5, f6, f7, f8, -⟩ := Cache.fill_spec c i start len val
  refine ⟨Cache.chain_congr f4 f5 h.chain, fun k hk => ?_, fun k hk => ?_⟩
  · rw [f6 k]; exact h.cached k (by rw [← f3]; exact hk)
  · rw [f6 k]
    by_cases hki : k = i
    · subst hki; rw [f8]; exact h.buf k (by rw [← f3]; exact hk)
    · rw [f7 k hki]; exact h.buf k (by rw [← f3]; exact hk)

theorem totalLen_eq_sum (ct : List (List (Option α) × Int)) :
    totalLen ct = ∑ k in Finset.range ct.length, lenAt ct k := by
  induction ct using List.reverseRecOn with
  | nil => rfl
  | append_singleton r e ih =>
    rw [List.length_append, List.length_singleton, Finset.sum_range_succ]
    have e1 : totalLen (r ++ [e]) = totalLen r + e.2 := by simp [totalLen]
    have e2 : lenAt (r ++ [e]) r.length = e.2 := by simp [lenAt]
    rw [e1, e2, ih]
    congr 1
    apply Finset.sum_congr rfl
    intro k hk
    have hk' := Finset.mem_range.1 hk
    simp [lenAt, List.getElem?_append_left hk']

theorem WFv.total_eq_lru {ct : List (List (Option α) × Int)} {L : List Nat} (h : WFv ct L) :
    totalLen ct = (L.map (lenAt ct)).sum := by
  rw [totalLen_eq_sum, ← List.sum_toFinset _ h.nodup]
  symm
  apply Finset.sum_subset
  · intro k hk
    rw [List.mem_toFinset] at hk
    exact Finset.mem_range.2 (h.valid k hk)
  · intro k hk hnk
    rw [List.mem_toFinset] at hnk
    by_contra hne
    exact hnk ((h.cached k (Finset.mem_range.1 hk)).2 hne)

theorem WFv.length_le {ct : List (List (Option α) × Int)} {L : List Nat} (h : WFv ct L) :
    L.length ≤ ct.length := by
  rw [← List.toFinset_card_of_nodup h.nodup]
  calc L.toFinset.card ≤ (Finset.range ct.length).card := by
        apply Finset.card_le_card
        intro k hk
        rw [List.mem_toFinset] at hk
        exact Finset.mem_range.2 (h.valid k hk)
    _ = ct.length := Finset.card_range _

theorem WFv.sum_erase {ct : List (List (Option α) × Int)} {L : List Nat} (h : WFv ct L)
    (i : Nat) : ((L.erase i).map (lenAt ct)).sum = totalLen ct - lenAt ct i := by
  rw [h.total_eq_lru]
  by_cases hi : i ∈ L
  · have := List.sum_map_erase (lenAt ct) hi
    linarith
  · rw [List.erase_of_not_mem hi]
    have : lenAt ct i = 0 := by
      by_cases hl : i < ct.length
      · by_contra hne; exact hi ((h.cached i hl).2 hne)
      · exact lenAt_of_not_lt hl
    rw [this, sub_zero]



theorem Cache.Holds.congr {c : Cache ℚ} {l : Nat} {val val' : Nat → Nat → ℚ}
    (h : c.Holds l val) (he : ∀ p j, p < l → j < l → val p j = val' p j) : c.Holds l val' := by
  refine ⟨h.wf, h.len, h.bound, fun p j hj => ?_, h.budget⟩
  rw [h.cells p j hj]
  have hjl : j < l := by have := h.bound p; omega
  have hpl : p < l := by
    by_contra hp
    have : lenAt c.contents p = 0 :=
      lenAt_of_not_lt (by rw [Cache.contents_length, h.len]; exact hp)
    omega
  rw [he p j hpl hjl]

theorem Cache.Holds_new (sizeof_head_t l : Nat) (size_ : Int) (val : Nat → Nat → ℚ)
    (hb : (l : Int) ≤ (Cache.new sizeof_head_t l size_ : Cache ℚ).size) :
    (Cache.new sizeof_head_t l size_ : Cache ℚ).Holds l val := by
  have h0 : ∀ p, lenAt (Cache.new sizeof_head_t l size_ : Cache ℚ).contents p = 0 := by
    intro p
    by_cases hp : p < l
    · simp [lenAt, Cache.contents, Cache.new, hp]
    · exact lenAt_of_not_lt (by simpa [Cache.contents, Cache.new] using hp)
  refine ⟨⟨[], Cache.WF_new sizeof_head_t l size_⟩, by simp [Cache.new], fun p => ?_,
    fun p j hj => ?_, ?_⟩
  · rw [h0 p]; exact Int.natCast_nonneg _
  · rw [h0 p] at hj; omega
  · have : (Cache.new sizeof_head_t l size_ : Cache ℚ).total = 0 := by
      simp [Cache.total, Cache.new]
    rw [this, zero_add]; exact hb

/-- On a cache that holds `val`, a request for at most `l` values of a record returns when
the fuel covers `l` records. -/
theorem Cache.Holds.request_returns {c : Cache ℚ} {l : Nat} {val : Nat → Nat → ℚ}
    (h : c.Holds l val) (fuel i : Nat) (len : Int) (hi : i < l) (hlen : len ≤ (l : Int))
    (hf : l ≤ fuel) : ∃ r, c.get_data fuel i len = some r := by
  obtain ⟨L, hwf⟩ := h.wf
  have hv := hwf.toWFv
  have hL : L.length ≤ l := by
    have := hv.length_le
    rw [Cache.contents_length, h.len] at this
    exact this
  refine Cache.get_data_returns hwf (by rw [h.len]; exact hi) (by omega) ?_
  rw [hv.sum_erase i, ← Cache.total_eq]
  have := h.budget
  linarith

theorem Cache.Holds.exchange_returns {c : Cache ℚ} {l : Nat} {val : Nat → Nat → ℚ}
    (h : c.Holds l val) (fuel i j : Nat) (hi : i < l) (hj : j < l) (hf : l ≤ fuel) :
    ∃ c', c.swap_index fuel i j = some c' := by
  obtain ⟨L, hwf⟩ := h.wf
  have hL : L.length ≤ l := by
    have := hwf.toWFv.length_le
    rw [Cache.contents_length, h.len] at this
    exact this
  exact Cache.swap_index_returns hwf (by rw [h.len]; exact hi) (by rw [h.len]; exact hj)
    (by omega)

/-- The request of `get_Q`: `get_data` followed by the fill loop from a position `lo` that is
not behind the returned one.  The cache still holds `val`, and the first `len` cells of the
requested column hold the values of the column. -/
theorem Cache.Holds.fetch {c : Cache ℚ} {l : Nat} {val : Nat → Nat → ℚ} (h : c.Holds l val)
    (fuel i : Nat) (len : Int) (hi : i < l) (h1 : 1 ≤ len) (hlen : len ≤ (l : Int))
    (c' : Cache ℚ) (start lo : Int) (hg : c.get_data fuel i len = some (c', start))
    (hle : lo ≤ start) :
    start = min (lenAt c.contents i) len ∧
    (c'.fill i lo len (val i)).Holds l val ∧
    (start < len → lenAt (c'.fill i lo len (val i)).contents i = len) ∧
    (¬ start < len → c'.Holds l val) ∧
    (∀ j : Nat, (j : Int) < len →
      (dataAt (c'.fill i lo len (val i)).contents i)[j]? = some (some (val i j))) ∧
    (¬ start < len → ∀ j : Nat, (j : Int) < len →
      (dataAt c'.contents i)[j]? = some (some (val i j))) ∧
    lenAt c'.contents i = max (lenAt c.contents i) len := by
  obtain ⟨L, hwf⟩ := h.wf
  have hil : i < c.head.length := by rw [h.len]; exact hi
  obtain ⟨k, -, -, g3, -, g5, g6, g7, g8, -, -, -, g12⟩ := Cache.get_data_spec hwf hg
  have hwf' := g12 h1
  have hwfv := hwf.toWFv
  have hlen0 : 0 ≤ lenAt c.contents i :=
    lenAt_nonneg_of_buf (hwf.buf i hil)
  -- the cache after `get_data`, before the fill
  have hkeep : ∀ j : Nat, (j : Int) < lenAt c.contents i →
      (dataAt c'.contents i)[j]? = some (some (val i j)) := by
    intro j hj
    rw [Cache.get_data_keeps_cells hwf hil hg j hj]
    exact h.cells i j hj
  have hother : ∀ p j : Nat, p ≠ i → (j : Int) < lenAt c'.contents p →
      (dataAt c'.contents p)[j]? = some (some (val p j)) := by
    intro p j hp hj
    rw [g6 p, if_neg hp] at hj
    rw [g7 p, if_neg hp]
    by_cases hev : p ∈ (L.erase i).take k
    · rw [if_pos hev] at hj; omega
    · rw [if_neg hev] at hj ⊢
      exact h.cells p j hj
  have hbound' : ∀ p, lenAt c'.contents p ≤ (l : Int) := by
    intro p
    rw [g6 p]
    by_cases hp : p = i
    · rw [if_pos hp]; exact max_le (h.bound i) hlen
    · rw [if_neg hp]
      by_cases hev : p ∈ (L.erase i).take k
      · rw [if_pos hev]; exact Int.natCast_nonneg _
      · rw [if_neg hev]; exact h.bound p
  have hleni : lenAt c'.contents i = max (lenAt c.contents i) len := by
    rw [g6 i, if_pos rfl]
  have hbud' : (l : Int) ≤ c'.total + c'.size := by
    obtain ⟨_, _, ht, _⟩ := Cache.get_data_wf hwf h1 hg
    rw [ht]; exact h.budget
  have hbuf' := hwf'.buf i (by rw [g5]; exact hil)
  obtain ⟨f1, f2, f3, -, -, f6, f7, f8, f9⟩ := Cache.fill_spec c' i lo len (val i)
  have hfill : (c'.fill i lo len (val i)).Holds l val := by
    refine ⟨⟨_, Cache.fill_wf hwf' i lo len (val i)⟩, by rw [f3, g5, h.len],
      fun p => by rw [f6 p]; exact hbound' p, fun p j hj => ?_, by rw [f1, f2]; exact hbud'⟩
    rw [f6 p] at hj
    by_cases hp : p = i
    · subst hp
      rw [f9 j]
      by_cases hc : lo.toNat ≤ j ∧ j < len.toNat ∧ j < (dataAt c'.contents p).length
      · rw [if_pos hc]
      · rw [if_neg hc]
        have hjd : j < (dataAt c'.contents p).length := by
          have : ((dataAt c'.contents p).length : Int) = lenAt c'.contents p := hbuf'
          omega
        have hj2 : (j : Int) < lenAt c.contents p := by
          rw [hleni] at hj
          by_contra hcon
          have hjl : (j : Int) < len := by
            rcases max_cases (lenAt c.contents p) len with ⟨e, _⟩ | ⟨e, _⟩ <;> omega
          have : lo ≤ (j : Int) := by
            have : start ≤ lenAt c.contents p := by rw [g3]; exact min_le_left _ _
            omega
          exact hc ⟨by omega, by omega, hjd⟩
        exact hkeep j hj2
    · rw [f7 p hp]; exact hother p j hp hj
  have hnofill : ¬ start < len → c'.Holds l val := by
    intro hns
    refine ⟨⟨_, hwf'⟩, by rw [g5, h.len], hbound', fun p j hj => ?_, hbud'⟩
    by_cases hp : p = i
    · subst hp
      have hge : len ≤ lenAt c.contents p := by
        rw [g3] at hns
        rcases min_cases (lenAt c.contents p) len with ⟨e, _⟩ | ⟨e, _⟩ <;> omega
      rw [hleni, max_eq_left hge] at hj
      exact hkeep j hj
    · exact hother p j hp hj
  refine ⟨g3, hfill, fun hs => ?_, hnofill, fun j hj => ?_, fun hns j hj => ?_, hleni⟩
  · rw [f6 i, hleni]
    rw [g3] at hs
    rcases min_cases (lenAt c.contents i) len with ⟨e, _⟩ | ⟨e, _⟩ <;>
      rcases max_cases (lenAt c.contents i) len with ⟨e', _⟩ | ⟨e', _⟩ <;> omega
  · apply hfill.cells i j
    rw [f6 i, hleni]
    exact lt_of_lt_of_le hj (le_max_right _ _)
  · apply (hnofill hns).cells i j
    rw [hleni]
    exact lt_of_lt_of_le hj (le_max_right _ _)

theorem swap_src_eq_swap_pos (i j m : Nat) : swap_src i j m = swap_pos i j m := rfl

/-- `Cache::swap_index(i, j)` on a cache that holds `val`: the cache then holds the values of
`val` at the exchanged positions. -/
theorem Cache.Holds.swap_holds {c : Cache ℚ} {l : Nat} {val : Nat → Nat → ℚ} (h : c.Holds l val)
    (fuel i j : Nat) (hi : i < l) (hj : j < l) (c' : Cache ℚ)
    (hs : c.swap_index fuel i j = some c') :
    c'.Holds l (fun p r => val (swap_pos i j p) (swap_pos i j r)) := by
  obtain ⟨L, hwf⟩ := h.wf
  by_cases hij : i = j
  · subst hij
    simp only [Cache.swap_index, if_true, Option.some.injEq] at hs
    subst hs
    have e : ∀ k, swap_pos i i k = k := by
      intro k; unfold swap_pos; split_ifs with h1 <;> simp [h1]
    simp only [e]
    exact h
  · obtain ⟨-, -, s3, s4, -, s6, s7, s8⟩ := Cache.swap_index_spec hwf hij hs
    have hlen' : c'.head.length = l := by rw [s3, h.len]
    refine ⟨⟨_, s6⟩, hlen', fun p => ?_, fun p r hr => ?_, by rw [s4]; exact h.budget⟩
    · rw [s7 p]
      split_ifs
      · exact Int.natCast_nonneg _
      · exact h.bound _
    · have hp : p < c.head.length := by
        by_contra hp
        have : lenAt c'.contents p = 0 :=
          lenAt_of_not_lt (by rw [Cache.contents_length, s3]; exact hp)
        omega
      rw [s7 p] at hr
      obtain ⟨d1, -, d3⟩ := s8 p hp
      rw [swap_src_eq_swap_pos] at hr d1 d3
      by_cases hcut : ((min i j : Nat) : Int) < lenAt c.contents (swap_pos i j p) ∧
          lenAt c.contents (swap_pos i j p) ≤ ((max i j : Nat) : Int)
      · rw [if_pos hcut] at hr; omega
      · rw [if_neg hcut] at hr
        by_cases hsmall : lenAt c.contents (swap_pos i j p) ≤ ((min i j : Nat) : Int)
        · rw [d1 hsmall]
          have hri : r ≠ i := by
            intro e; subst e
            have : ((min r j : Nat) : Int) ≤ (r : Int) := by
              exact_mod_cast min_le_left r j
            omega
          have hrj : r ≠ j := by
            intro e; subst e
            have : ((min i r : Nat) : Int) ≤ (r : Int) := by
              exact_mod_cast min_le_right i r
            omega
          have : swap_pos i j r = r := by unfold swap_pos; rw [if_neg hri, if_neg hrj]
          rw [this]
          exact h.cells _ r hr
        · have hbig : ((max i j : Nat) : Int) < lenAt c.contents (swap_pos i j p) := by
            by_contra hnb
            exact hcut ⟨not_le.1 hsmall, not_lt.1 hnb⟩
          rw [d3 hbig r]
          have hmi : (i : Int) ≤ ((max i j : Nat) : Int) := by exact_mod_cast le_max_left i j
          have hmj : (j : Int) ≤ ((max i j : Nat) : Int) := by exact_mod_cast le_max_right i j
          by_cases hri : r = i
          · rw [if_pos hri]
            have : swap_pos i j r = j := by unfold swap_pos; rw [if_pos hri]
            rw [this]
            exact h.cells _ j (by omega)
          · rw [if_neg hri]
            by_cases hrj : r = j
            · rw [if_pos hrj]
              have : swap_pos i j r = i := by unfold swap_pos; rw [if_neg hri, if_pos hrj]
              rw [this]
              exact h.cells _ i (by omega)
            · rw [if_neg hrj]
              have : swap_pos i j r = r := by unfold swap_pos; rw [if_neg hri, if_neg hrj]
              rw [this]
              exact h.cells _ r hr

theorem swap_pos_self (i k : Nat) : swap_pos i i k = k := by
  unfold swap_pos; split_ifs with h1 <;> simp [h1]

theorem Kernel.Sized.swap_sized {k : Kernel} {l : Nat} (h : k.Sized l) (i j : Nat) :
    (k.swap_index i j).Sized l := by
  refine ⟨by simp [Kernel.swap_index, length_swap_at, h.1], fun s hs => ?_⟩
  simp only [Kernel.swap_index, Option.map_eq_some'] at hs
  obtain ⟨s0, h0, rfl⟩ := hs
  rw [length_swap_at]; exact h.2 s0 h0

/-- After `Kernel::swap_index(i, j)` the kernel of two positions is the kernel that the
exchanged positions had before. -/
theorem Kernel.kernel_function_swap (E : svm_enums) (m : libm) {k : Kernel} {l : Nat}
    (h : k.Sized l) (i j : Nat) (hi : i < l) (hj : j < l) (p r : Nat) :
    (k.swap_index i j).kernel_function E m p r =
      k.kernel_function E m (swap_pos i j p) (swap_pos i j r) := by
  have hx : ∀ t, (k.swap_index i j).x.getD t [] = k.x.getD (swap_pos i j t) [] := by
    intro t
    exact swap_at_getD k.x i j t [] (by rw [h.1]; exact hi) (by rw [h.1]; exact hj)
  have hs : ∀ t, ((k.swap_index i j).x_square.getD []).getD t 0 =
      (k.x_square.getD []).getD (swap_pos i j t) 0 := by
    intro t
    cases hq : k.x_square with
    | none =>
      simp [Kernel.swap_index, hq]
    | some s =>
      simp only [Kernel.swap_index, hq, Option.map_some', Option.getD_some]
      exact swap_at_getD s i j t 0 (by rw [h.2 s hq]; exact hi) (by rw [h.2 s hq]; exact hj)
  have ht : (k.swap_index i j).kernel_type = k.kernel_type := rfl
  have hg : (k.swap_index i j).gamma = k.gamma := rfl
  have hc : (k.swap_index i j).coef0 = k.coef0 := rfl
  have hd : (k.swap_index i j).degree = k.degree := rfl
  simp only [Kernel.kernel_function, Kernel.kernel_linear, Kernel.kernel_poly,
    Kernel.kernel_rbf, Kernel.rbf_arg, Kernel.kernel_sigmoid, hx, hs, ht, hg, hc, hd]

theorem Kernel.Sized_new (E : svm_enums) (l : Nat) (x : List (List svm_node))
    (param : svm_parameter) (hx : l ≤ x.length) : (Kernel.new E l x param).Sized l := by
  refine ⟨by simp [Kernel.new, hx], fun s hs => ?_⟩
  simp only [Kernel.new] at hs
  split_ifs at hs with h1
  simp only [Option.some.injEq] at hs
  subst hs
  exact (norms_spec l _).1

theorem BSVC_Q.entry_swap (E : svm_enums) (m : libm) (q : BSVC_Q) (l : Nat)
    (hy : q.y.length = l) (hk : q.kernel.Sized l) (c : Cache ℚ) (i j : Nat) (hi : i < l)
    (hj : j < l) (p r : Nat) :
    BSVC_Q.entry E m { q with cache := c, kernel := q.kernel.swap_index i j,
                               y := swap_at q.y i j } p r =
      q.entry E m (swap_pos i j p) (swap_pos i j r) := by
  simp only [BSVC_Q.entry]
  rw [Kernel.kernel_function_swap E m hk i j hi hj,
    swap_at_getD q.y i j p 0 (by rw [hy]; exact hi) (by rw [hy]; exact hj),
    swap_at_getD q.y i j r 0 (by rw [hy]; exact hi) (by rw [hy]; exact hj)]

/-- Everything `BSVC_Q::get_Q(i, len)` does on a coherent state with a kernel that is not the
callback. -/
theorem BSVC_Q.get_Q_spec_svc (E : svm_enums) (m : libm) (q : BSVC_Q) (l : Nat)
    (h : q.Coherent E m l) (hk : q.ktype ≠ 4) (fuel i : Nat) (len : Int) (hi : i < l)
    (hlen : len ≤ (l : Int)) :
    (l ≤ fuel → ∃ r, q.get_Q E m fuel i len = some r) ∧
    ∀ q' col, q.get_Q E m fuel i len = some (q', col) →
      (1 ≤ len → q'.Coherent E m l) ∧ q'.ktype = q.ktype ∧ q'.y = q.y ∧ q'.kernel = q.kernel ∧
      ∀ j : Nat, (j : Int) < len → col[j]? = some (some (q.entry E m i j)) := by
  obtain ⟨hc, hy, hs⟩ := h
  constructor
  · intro hf
    obtain ⟨⟨c, start⟩, hr⟩ := hc.request_returns fuel i len hi hlen hf
    simp only [BSVC_Q.get_Q, hr]
    split_ifs <;> exact ⟨_, rfl⟩
  · intro q' col hq
    simp only [BSVC_Q.get_Q] at hq
    cases hg : q.cache.get_data fuel i len with
    | none => simp [hg] at hq
    | some r =>
      obtain ⟨c, start⟩ := r
      simp only [hg] at hq
      by_cases h1 : 1 ≤ len
      · obtain ⟨-, f2, -, f4, f5, f6, -⟩ :=
          hc.fetch fuel i len hi h1 hlen c start start hg (le_refl _)
        by_cases hst : start < len
        · rw [if_pos ⟨hst, hk⟩] at hq
          simp only [Option.some.injEq, Prod.mk.injEq] at hq
          obtain ⟨rfl, rfl⟩ := hq
          exact ⟨fun _ => ⟨f2, hy, hs⟩, rfl, rfl, rfl, f5⟩
        · rw [if_neg (fun e => hst e.1), if_neg hk] at hq
          simp only [Option.some.injEq, Prod.mk.injEq] at hq
          obtain ⟨rfl, rfl⟩ := hq
          exact ⟨fun _ => ⟨f4 hst, hy, hs⟩, rfl, rfl, rfl, f6 hst⟩
      · split_ifs at hq <;>
        · simp only [Option.some.injEq, Prod.mk.injEq] at hq
          obtain ⟨rfl, rfl⟩ := hq
          exact ⟨fun e => absurd e h1, rfl, rfl, rfl, fun j hj => by omega⟩

/-- Everything `BSVC_Q::swap_index(i, j)` does on a coherent state. -/
theorem BSVC_Q.swap_index_spec_svc (E : svm_enums) (m : libm) (q : BSVC_Q) (l : Nat)
    (h : q.Coherent E m l) (fuel i j : Nat) (hi : i < l) (hj : j < l) :
    (l ≤ fuel → ∃ q', q.swap_index fuel i j = some q') ∧
    ∀ q', q.swap_index fuel i j = some q' →
      q'.Coherent E m l ∧ q'.ktype = q.ktype ∧
      q.cache.swap_index fuel i j = some q'.cache ∧
      q'.kernel = q.kernel.swap_index i j ∧ q'.y = swap_at q.y i j ∧
      ∀ p r, q'.entry E m p r = q.entry E m (swap_pos i j p) (swap_pos i j r) := by
  obtain ⟨hc, hy, hs⟩ := h
  constructor
  · intro hf
    obtain ⟨c, hr⟩ := hc.exchange_returns fuel i j hi hj hf
    simp only [BSVC_Q.swap_index, hr]
    exact ⟨_, rfl⟩
  · intro q' hq
    simp only [BSVC_Q.swap_index] at hq
    cases hg : q.cache.swap_index fuel i j with
    | none => simp [hg] at hq
    | some c =>
      simp only [hg, Option.some.injEq] at hq
      subst hq
      have he := BSVC_Q.entry_swap E m q l hy hs c i j hi hj
      refine ⟨⟨?_, by simp [length_swap_at, hy], hs.swap_sized i j⟩, rfl, rfl, rfl, rfl, he⟩
      exact (hc.swap_holds fuel i j hi hj c hg).congr (fun p r _ _ => (he p r).symm)

theorem BSVC_Q.Coherent_new_svc (E : svm_enums) (m : libm) (sizeof_head_t l : Nat)
    (x : List (List svm_node)) (param : svm_parameter) (expr : Nat → Nat → ℚ) (y_ : List Int)
    (hx : l ≤ x.length) (hy : l ≤ y_.length)
    (hb : (l : Int) ≤ (Cache.new sizeof_head_t l (cache_bytes param) : Cache ℚ).size) :
    (BSVC_Q.new E sizeof_head_t l x param expr y_).Coherent E m l :=
  ⟨Cache.Holds_new sizeof_head_t l _ _ hb, by simp [BSVC_Q.new, hy],
    Kernel.Sized_new E l x param hx⟩

/-- A sequence of calls in range on a coherent `BSVC_Q` state returns when every call has
fuel for `l` records, and leaves a coherent state. -/
theorem BSVC_Q.run_spec_svc (E : svm_enums) (m : libm) (l : Nat) (calls : List QCall) :
    ∀ (q : BSVC_Q), q.Coherent E m l → q.ktype ≠ 4 → (∀ c ∈ calls, c.in_range l) →
      ((∀ c ∈ calls, l ≤ c.fuel) → ∃ q', q.run E m calls = some q') ∧
      ∀ q', q.run E m calls = some q' → q'.Coherent E m l ∧ q'.ktype ≠ 4 := by
  induction calls with
  | nil =>
    intro q h hk _
    refine ⟨fun _ => ⟨q, rfl⟩, fun q' hq => ?_⟩
    simp only [BSVC_Q.run, Option.some.injEq] at hq
    subst hq
    exact ⟨h, hk⟩
  | cons c r ih =>
    intro q h hk hreq
    have hc := hreq c (List.mem_cons_self _ _)
    have hstep : (l ≤ c.fuel → ∃ q1, q.call E m c = some q1) ∧
        ∀ q1, q.call E m c = some q1 → q1.Coherent E m l ∧ q1.ktype ≠ 4 := by
      cases c with
      | get_Q fuel i len =>
        obtain ⟨g1, g2⟩ := BSVC_Q.get_Q_spec_svc E m q l h hk fuel i len hc.1 hc.2.2
        refine ⟨fun hf => ?_, fun q1 hq1 => ?_⟩
        · obtain ⟨⟨q1, col⟩, hr⟩ := g1 hf
          exact ⟨q1, by simp [BSVC_Q.call, hr]⟩
        · simp only [BSVC_Q.call, Option.map_eq_some'] at hq1
          obtain ⟨⟨q2, col⟩, hr, rfl⟩ := hq1
          obtain ⟨k1, k2, -⟩ := g2 q2 col hr
          exact ⟨k1 hc.2.1, by rw [k2]; exact hk⟩
      | swap_index fuel i j =>
        obtain ⟨g1, g2⟩ := BSVC_Q.swap_index_spec_svc E m q l h fuel i j hc.1 hc.2
        refine ⟨fun hf => g1 hf, fun q1 hq1 => ?_⟩
        obtain ⟨k1, k2, -⟩ := g2 q1 hq1
        exact ⟨k1, by rw [k2]; exact hk⟩
    refine ⟨fun hf => ?_, fun q' hq => ?_⟩
    · obtain ⟨q1, h1⟩ := hstep.1 (hf c (List.mem_cons_self _ _))
      obtain ⟨k1, k2⟩ := hstep.2 q1 h1
      obtain ⟨q', h2⟩ := (ih q1 k1 k2 (fun d hd => hreq d (List.mem_cons_of_mem _ hd))).1
        (fun d hd => hf d (List.mem_cons_of_mem _ hd))
      exact ⟨q', by simp only [BSVC_Q.run, h1]; exact h2⟩
    · simp only [BSVC_Q.run] at hq
      cases h1 : q.call E m c with
      | none => simp [h1] at hq
      | some q1 =>
        simp only [h1] at hq
        obtain ⟨k1, k2⟩ := hstep.2 q1 h1
        exact (ih q1 k1 k2 (fun d hd => hreq d (List.mem_cons_of_mem _ hd))).2 q' hq

theorem getD_set_of_lt {β : Type} (w : List β) (i k : Nat) (v d : β) (hi : i < w.length) :
    (w.set i v).getD k d = if k = i then v else w.getD k d := by
  by_cases hki : k = i
  · subst hki
    rw [if_pos rfl, List.getD_eq_getElem?_getD, List.getElem?_set_self hi]; rfl
  · rw [if_neg hki, List.getD_eq_getElem?_getD, List.getElem?_set_ne (Ne.symm hki),
      ← List.getD_eq_getElem?_getD]

theorem mirror_table_spec (l : Nat) :
    (mirror_table l).1.length = 2 * l ∧ (mirror_table l).2.length = 2 * l ∧
    ∀ k, k < l → (mirror_table l).1.getD k 0 = 1 ∧ (mirror_table l).1.getD (k + l) 0 = -1 ∧
      (mirror_table l).2.getD k 0 = k ∧ (mirror_table l).2.getD (k + l) 0 = k := by
  unfold mirror_table
  refine for_loop_induction
    (fun n (t : List Int × List Nat) => t.1.length = 2 * l ∧ t.2.length = 2 * l ∧
      ∀ k, k < n → t.1.getD k 0 = 1 ∧ t.1.getD (k + l) 0 = -1 ∧
        t.2.getD k 0 = k ∧ t.2.getD (k + l) 0 = k)
    0 l _ _ (Nat.zero_le _) ⟨by simp, by simp, fun k hk => absurd hk (by omega)⟩ ?_
  intro n t _ hn ⟨h1, h2, h3⟩
  refine ⟨by simp [h1], by simp [h2], fun k hk => ?_⟩
  simp only []
  rw [getD_set_of_lt _ _ _ _ _ (by rw [List.length_set]; omega),
    getD_set_of_lt _ _ _ _ _ (by omega),
    getD_set_of_lt _ _ _ _ _ (by rw [List.length_set]; omega),
    getD_set_of_lt _ _ _ _ _ (by omega),
    getD_set_of_lt _ _ _ _ _ (by rw [List.length_set]; omega),
    getD_set_of_lt _ _ _ _ _ (by omega),
    getD_set_of_lt _ _ _ _ _ (by rw [List.length_set]; omega),
    getD_set_of_lt _ _ _ _ _ (by omega)]
  by_cases hkn : k = n
  · subst hkn
    rw [if_neg (by omega), if_pos rfl, if_pos rfl, if_neg (by omega), if_pos rfl, if_pos rfl]
    exact ⟨rfl, rfl, rfl, rfl⟩
  · obtain ⟨g1, g2, g3, g4⟩ := h3 k (by omega)
    rw [if_neg (by omega), if_neg hkn, if_neg (by omega), if_neg (by omega),
      if_neg (by omega), if_neg hkn, if_neg (by omega), if_neg (by omega)]
    exact ⟨g1, g2, g3, g4⟩

theorem BSVR_Q.Mirrored_new (E : svm_enums) (sizeof_head_t l : Nat) (x : List (List svm_node))
    (param : svm_parameter) : (BSVR_Q.new E sizeof_head_t l x param).Mirrored := by
  obtain ⟨-, -, h⟩ := mirror_table_spec l
  refine ⟨fun p => p, fun p hp => hp, fun p r _ _ e => e, fun j hj => ?_⟩
  have hl : (BSVR_Q.new E sizeof_head_t l x param).l = l := rfl
  rw [hl] at hj ⊢
  simp only [BSVR_Q.new]
  by_cases hjl : j < l
  · rw [if_pos hjl, if_pos hjl]
    exact ⟨(h j hjl).1, (h j hjl).2.2.1⟩
  · rw [if_neg hjl, if_neg hjl]
    have e : j = (j - l) + l := by omega
    obtain ⟨-, g2, -, g4⟩ := h (j - l) (by omega)
    rw [← e] at g2 g4
    exact ⟨g2, g4⟩

theorem BSVR_Q.Mirrored.index_lt {a : BSVR_Q} (h : a.Mirrored) (j : Nat) (hj : j < 2 * a.l) :
    a.index.getD j 0 < a.l := by
  obtain ⟨pi, h1, -, h3⟩ := h
  rw [(h3 j hj).2]
  have := h1 j hj
  split_ifs <;> omega

theorem BSVR_Q.Mirrored.swap_mirrored {a : BSVR_Q} (h : a.Mirrored) (hs : a.sign.length = 2 * a.l)
    (hx : a.index.length = 2 * a.l) (i j : Nat) (hi : i < 2 * a.l) (hj : j < 2 * a.l) :
    (a.swap_index i j).Mirrored := by
  obtain ⟨pi, h1, h2, h3⟩ := h
  have hl : (a.swap_index i j).l = a.l := rfl
  refine ⟨fun p => pi (swap_pos i j p), fun p hp => ?_, fun p r hp hr e => ?_, fun p hp => ?_⟩
  · rw [hl] at hp ⊢
    exact h1 _ (swap_pos_lt i j p _ hi hj hp)
  · rw [hl] at hp hr
    have := h2 _ _ (swap_pos_lt i j p _ hi hj hp) (swap_pos_lt i j r _ hi hj hr) e
    have e2 := congrArg (swap_pos i j) this
    rw [swap_pos_swap_pos, swap_pos_swap_pos] at e2
    exact e2
  · rw [hl] at hp ⊢
    simp only [BSVR_Q.swap_index]
    rw [swap_at_getD a.sign i j p 0 (by omega) (by omega),
      swap_at_getD a.index i j p 0 (by omega) (by omega)]
    exact h3 _ (swap_pos_lt i j p _ hi hj hp)

theorem reorder_loop_spec (g : Nat → Option ℚ) (buf : List (Option ℚ)) (n : Nat) :
    (for_loop 0 n (fun j b => b.set j (g j)) buf).length = buf.length ∧
    ∀ j, j < n → j < buf.length →
      (for_loop 0 n (fun j b => b.set j (g j)) buf)[j]? = some (g j) := by
  refine for_loop_induction
    (fun k (b : List (Option ℚ)) => b.length = buf.length ∧
      ∀ j, j < k → j < buf.length → b[j]? = some (g j))
    0 n _ buf (Nat.zero_le _) ⟨rfl, fun j hj => absurd hj (by omega)⟩ ?_
  intro k t _ _ ⟨h1, h2⟩
  refine ⟨by simp [h1], fun j hj hjb => ?_⟩
  by_cases hjk : j = k
  · subst hjk
    rw [List.getElem?_set_self (by omega)]
  · rw [List.getElem?_set_ne (Ne.symm hjk)]
    exact h2 j (by omega) hjb

/-- The reorder loop of `BSVR_Q::get_Q` on a column whose first `l` cells hold `val`. -/
theorem BSVR_Q.reorder_spec (a : BSVR_Q) (i : Nat) (len : Int) (data buf : List (Option ℚ))
    (val : Nat → ℚ) (hm : a.Mirrored) (hb : buf.length = 2 * a.l)
    (hlen : len ≤ ((2 * a.l : Nat) : Int))
    (hd : ∀ j : Nat, j < a.l → data[j]? = some (some (val j))) :
    (a.reorder i len data buf).length = 2 * a.l ∧
    ∀ j : Nat, (j : Int) < len → (a.reorder i len data buf)[j]? =
      some (some (signed_cell (a.sign.getD i 0) (a.sign.getD j 0) (val (a.index.getD j 0)))) := by
  obtain ⟨r1, r2⟩ := reorder_loop_spec
    (fun j => (data.getD (a.index.getD j 0) none).map
      (fun v => signed_cell (a.sign.getD i 0) (a.sign.getD j 0) v)) buf len.toNat
  refine ⟨r1.trans hb, fun j hj => ?_⟩
  have hj2 : j < 2 * a.l := by omega
  rw [BSVR_Q.reorder, r2 j (by omega) (by omega)]
  have e : data.getD (a.index.getD j 0) none = some (val (a.index.getD j 0)) := by
    rw [List.getD_eq_getElem?_getD, hd _ (hm.index_lt j hj2)]
    rfl
  rw [e]
  rfl

theorem BSVR_Q.Coherent_new_svr (E : svm_enums) (m : libm) (sizeof_head_t l : Nat)
    (x : List (List svm_node)) (param : svm_parameter) (hq : 1 ≤ param.qpsize)
    (hb : (l : Int) ≤ (Cache.new sizeof_head_t l (cache_bytes param) : Cache ℚ).size) :
    (BSVR_Q.new E sizeof_head_t l x param).Coherent E m := by
  obtain ⟨m1, m2, -⟩ := mirror_table_spec l
  refine ⟨Cache.Holds_new sizeof_head_t l _ _ hb, m1, m2,
    BSVR_Q.Mirrored_new E sizeof_head_t l x param, ?_, ?_, ?_, ?_⟩
  · simp only [BSVR_Q.new]; omega
  · simp only [BSVR_Q.new]; omega
  · simp [BSVR_Q.new]
  · intro b hb
    simp only [BSVR_Q.new] at hb
    rw [List.eq_of_mem_replicate hb]
    simp [BSVR_Q.new]

/-- `BSVR_Q::swap_index(i, j)` on a coherent state: only `sign` and `index` change. -/
theorem BSVR_Q.swap_index_spec_svr (E : svm_enums) (m : libm) (a : BSVR_Q) (h : a.Coherent E m)
    (i j : Nat) (hi : i < 2 * a.l) (hj : j < 2 * a.l) :
    (a.swap_index i j).Coherent E m ∧ (a.swap_index i j).l = a.l ∧
    (a.swap_index i j).cache = a.cache ∧ (a.swap_index i j).kernel = a.kernel ∧
    (a.swap_index i j).sign = swap_at a.sign i j ∧
    (a.swap_index i j).index = swap_at a.index i j := by
  obtain ⟨h1, h2, h3, h4, h5, h6, h7, h8⟩ := h
  exact ⟨⟨h1, by simp [BSVR_Q.swap_index, length_swap_at, h2],
    by simp [BSVR_Q.swap_index, length_swap_at, h3], h4.swap_mirrored h2 h3 i j hi hj, h5, h6, h7, h8⟩,
    rfl, rfl, rfl, rfl, rfl⟩

/-- Everything `BSVR_Q::get_Q(i, len)` does on a coherent state. -/
theorem BSVR_Q.get_Q_spec_svr (E : svm_enums) (m : libm) (a : BSVR_Q) (h : a.Coherent E m)
    (fuel i : Nat) (len : Int) (hi : i < 2 * a.l) (hlen : len ≤ ((2 * a.l : Nat) : Int)) :
    (a.l ≤ fuel → ∃ r, a.get_Q E m fuel i len = some r) ∧
    ∀ a' col n, a.get_Q E m fuel i len = some (a', col, n) →
      a'.Coherent E m ∧ a'.l = a.l ∧ a'.kernel = a.kernel ∧ a'.sign = a.sign ∧
      a'.index = a.index ∧
      (∀ j : Nat, (j : Int) < len → col[j]? =
        some (some (signed_cell (a.sign.getD i 0) (a.sign.getD j 0)
          (shifted_entry E m a.kernel (a.index.getD i 0) (a.index.getD j 0))))) ∧
      n = (if lenAt a.cache.contents (a.index.getD i 0) = (a.l : Int) then 0 else a.l) ∧
      lenAt a'.cache.contents (a.index.getD i 0) = (a.l : Int) := by
  obtain ⟨h1, h2, h3, h4, h5, h6, h7, h8⟩ := h
  have hri : a.index.getD i 0 < a.l := h4.index_lt i hi
  have hl1 : (1 : Int) ≤ (a.l : Int) := by omega
  have hbuf : ∃ buf, a.buffer[a.next_buffer]? = some buf ∧ buf.length = 2 * a.l := by
    have hlt : a.next_buffer < a.buffer.length := by omega
    exact ⟨_, List.getElem?_eq_getElem hlt, h8 _ (List.getElem_mem hlt)⟩
  obtain ⟨buf, hb1, hb2⟩ := hbuf
  have hq0 : ¬ a.q = 0 := by omega
  constructor
  · intro hf
    obtain ⟨⟨c, start⟩, hr⟩ := h1.request_returns fuel (a.index.getD i 0) a.l hri (le_refl _) hf
    simp only [BSVR_Q.get_Q, hr, hb1, if_neg hq0]
    split_ifs <;> exact ⟨_, rfl⟩
  · intro a' col n hq
    cases hg : a.cache.get_data fuel (a.index.getD i 0) a.l with
    | none =>
      rw [BSVR_Q.get_Q, hg] at hq
      exact absurd hq (by simp)
    | some r =>
      obtain ⟨c, start⟩ := r
      rw [BSVR_Q.get_Q, hg] at hq
      simp only [hb1, if_neg hq0] at hq
      obtain ⟨g3, -, -, f4, -, f6, f7⟩ :=
        h1.fetch fuel (a.index.getD i 0) a.l hri hl1 (le_refl _) c start start hg (le_refl _)
      have hlen0 : 0 ≤ lenAt a.cache.contents (a.index.getD i 0) := by
        obtain ⟨L, hwf⟩ := h1.wf
        exact lenAt_nonneg_of_buf (hwf.buf _ (by rw [h1.len]; exact hri))
      have hbd := h1.bound (a.index.getD i 0)
      have hst0 : (0 : Int) ≤ start := by
        rw [g3]; exact le_min hlen0 (by omega)
      obtain ⟨-, e2, e3, -, e5, -, -⟩ :=
        h1.fetch fuel (a.index.getD i 0) a.l hri hl1 (le_refl _) c start 0 hg hst0
      have hbufs : ∀ (b1 : List (Option ℚ)), b1.length = 2 * a.l →
          ∀ b ∈ a.buffer.set a.next_buffer b1, b.length = 2 * a.l := by
        intro b1 hb b hbm
        rcases List.mem_or_eq_of_mem_set hbm with hm | rfl
        · exact h8 b hm
        · exact hb
      have hnb : (a.next_buffer + 1) % a.q < a.q := Nat.mod_lt _ (by omega)
      by_cases hst : start < (a.l : Int)
      · rw [if_pos hst] at hq
        simp only [Option.some.injEq, Prod.mk.injEq] at hq
        obtain ⟨rfl, rfl, rfl⟩ := hq
        obtain ⟨r1, r2⟩ := a.reorder_spec i len
          (dataAt (c.fill (a.index.getD i 0) 0 a.l
            (fun j => shifted_entry E m a.kernel (a.index.getD i 0) j)).contents
            (a.index.getD i 0)) buf
          (fun j => shifted_entry E m a.kernel (a.index.getD i 0) j) h4 hb2 hlen
          (fun j hj => e5 j (by omega))
        refine ⟨⟨e2, h2, h3, h4, h5, hnb, by simp [h7], hbufs _ r1⟩, rfl, rfl, rfl, rfl, r2,
          ?_, e3 hst⟩
        rw [if_neg]
        intro e
        rw [g3, e, min_self] at hst
        omega
      · rw [if_neg hst] at hq
        simp only [Option.some.injEq, Prod.mk.injEq] at hq
        obtain ⟨rfl, rfl, rfl⟩ := hq
        obtain ⟨r1, r2⟩ := a.reorder_spec i len (dataAt c.contents (a.index.getD i 0)) buf
          (fun j => shifted_entry E m a.kernel (a.index.getD i 0) j) h4 hb2 hlen
          (fun j hj => f6 hst j (by omega))
        have hfull : lenAt a.cache.contents (a.index.getD i 0) = (a.l : Int) := by
          rw [g3] at hst
          rcases min_cases (lenAt a.cache.contents (a.index.getD i 0)) (a.l : Int) with
            ⟨e, _⟩ | ⟨e, _⟩ <;> omega
        refine ⟨⟨f4 hst, h2, h3, h4, h5, hnb, by simp [h7], hbufs _ r1⟩, rfl, rfl, rfl, rfl, r2,
          by rw [if_pos hfull], ?_⟩
        rw [f7, hfull, max_self]

/-- A sequence of calls in range on a coherent `BSVR_Q` state returns when every call has
fuel for `l` records, and leaves a coherent state with the same evaluator. -/
theorem BSVR_Q.run_spec_svr (E : svm_enums) (m : libm) (calls : List QCall) :
    ∀ (a : BSVR_Q), a.Coherent E m → (∀ c ∈ calls, c.positions_below (2 * a.l)) →
      ((∀ c ∈ calls, a.l ≤ c.fuel) → ∃ a', a.run E m calls = some a') ∧
      ∀ a', a.run E m calls = some a' →
        a'.Coherent E m ∧ a'.l = a.l ∧ a'.kernel = a.kernel := by
  induction calls with
  | nil =>
    intro a h _
    refine ⟨fun _ => ⟨a, rfl⟩, fun a' ha => ?_⟩
    simp only [BSVR_Q.run, Option.some.injEq] at ha
    subst ha
    exact ⟨h, rfl, rfl⟩
  | cons c r ih =>
    intro a h hreq
    have hc := hreq c (List.mem_cons_self _ _)
    have hstep : (a.l ≤ c.fuel → ∃ a1, a.call E m c = some a1) ∧
        ∀ a1, a.call E m c = some a1 → a1.Coherent E m ∧ a1.l = a.l ∧ a1.kernel = a.kernel := by
      cases c with
      | get_Q fuel i len =>
        obtain ⟨g1, g2⟩ := BSVR_Q.get_Q_spec_svr E m a h fuel i len hc.1
          (by have := hc.2; exact this)
        refine ⟨fun hf => ?_, fun a1 ha1 => ?_⟩
        · obtain ⟨⟨a1, col⟩, hr⟩ := g1 hf
          exact ⟨a1, by simp [BSVR_Q.call, hr]⟩
        · simp only [BSVR_Q.call, Option.map_eq_some'] at ha1
          obtain ⟨⟨a2, col, n⟩, hr, rfl⟩ := ha1
          obtain ⟨k1, k2, k3, -⟩ := g2 a2 col n hr
          exact ⟨k1, k2, k3⟩
      | swap_index fuel i j =>
        obtain ⟨k1, k2, -, k3, -⟩ := BSVR_Q.swap_index_spec_svr E m a h i j hc.1 hc.2
        refine ⟨fun _ => ⟨_, rfl⟩, fun a1 ha1 => ?_⟩
        simp only [BSVR_Q.call, Option.some.injEq] at ha1
        subst ha1
        exact ⟨k1, k2, k3⟩
    refine ⟨fun hf => ?_, fun a' ha => ?_⟩
    · obtain ⟨a1, e1⟩ := hstep.1 (hf c (List.mem_cons_self _ _))
      obtain ⟨k1, k2, _⟩ := hstep.2 a1 e1
      obtain ⟨a', e2⟩ := (ih a1 k1
        (fun d hd => by rw [k2]; exact hreq d (List.mem_cons_of_mem _ hd))).1
        (fun d hd => by rw [k2]; exact hf d (List.mem_cons_of_mem _ hd))
      exact ⟨a', by simp only [BSVR_Q.run, e1]; exact e2⟩
    · simp only [BSVR_Q.run] at ha
      cases e1 : a.call E m c with
      | none => simp [e1] at ha
      | some a1 =>
        simp only [e1] at ha
        obtain ⟨k1, k2, k3⟩ := hstep.2 a1 e1
        obtain ⟨j1, j2, j3⟩ := (ih a1 k1
          (fun d hd => by rw [k2]; exact hreq d (List.mem_cons_of_mem _ hd))).2 a' ha
        exact ⟨j1, j2.trans k2, j3.trans k3⟩

theorem ONE_CLASS_Q.Coherent_new_one (E : svm_enums) (m : libm) (sizeof_head_t l : Nat)
    (x : List (List svm_node)) (param : svm_parameter) (hx : l ≤ x.length)
    (hb : (l : Int) ≤ (Cache.new sizeof_head_t l (cache_bytes param) : Cache ℚ).size) :
    (ONE_CLASS_Q.new E sizeof_head_t l x param).Coherent E m l :=
  ⟨Cache.Holds_new sizeof_head_t l _ _ hb, Kernel.Sized_new E l x param hx⟩

/-- Everything `ONE_CLASS_Q::get_Q(i, len)` does on a coherent state. -/
theorem ONE_CLASS_Q.get_Q_spec_one (E : svm_enums) (m : libm) (q : ONE_CLASS_Q) (l : Nat)
    (h : q.Coherent E m l) (fuel i : Nat) (len : Int) (hi : i < l) (hlen : len ≤ (l : Int)) :
    (l ≤ fuel → ∃ r, q.get_Q E m fuel i len = some r) ∧
    ∀ q' col, q.get_Q E m fuel i len = some (q', col) →
      (1 ≤ len → q'.Coherent E m l) ∧ q'.kernel = q.kernel ∧
      ∀ j : Nat, (j : Int) < len → col[j]? = some (some (q.entry E m i j)) := by
  obtain ⟨hc, hs⟩ := h
  constructor
  · intro hf
    obtain ⟨⟨c, start⟩, hr⟩ := hc.request_returns fuel i len hi hlen hf
    simp only [ONE_CLASS_Q.get_Q, hr]
    split_ifs <;> exact ⟨_, rfl⟩
  · intro q' col hq
    simp only [ONE_CLASS_Q.get_Q] at hq
    cases hg : q.cache.get_data fuel i len with
    | none => simp [hg] at hq
    | some r =>
      obtain ⟨c, start⟩ := r
      simp only [hg] at hq
      by_cases h1 : 1 ≤ len
      · obtain ⟨-, f2, -, f4, f5, f6, -⟩ :=
          hc.fetch fuel i len hi h1 hlen c start start hg (le_refl _)
        by_cases hst : start < len
        · rw [if_pos hst] at hq
          simp only [Option.some.injEq, Prod.mk.injEq] at hq
          obtain ⟨rfl, rfl⟩ := hq
          exact ⟨fun _ => ⟨f2, hs⟩, rfl, f5⟩
        · rw [if_neg hst] at hq
          simp only [Option.some.injEq, Prod.mk.injEq] at hq
          obtain ⟨rfl, rfl⟩ := hq
          exact ⟨fun _ => ⟨f4 hst, hs⟩, rfl, f6 hst⟩
      · split_ifs at hq <;>
        · simp only [Option.some.injEq, Prod.mk.injEq] at hq
          obtain ⟨rfl, rfl⟩ := hq
          exact ⟨fun e => absurd e h1, rfl, fun j hj => by omega⟩

/-- Everything `ONE_CLASS_Q::swap_index(i, j)` does on a coherent state. -/
theorem ONE_CLASS_Q.swap_index_spec_one (E : svm_enums) (m : libm) (q : ONE_CLASS_Q) (l : Nat)
    (h : q.Coherent E m l) (fuel i j : Nat) (hi : i < l) (hj : j < l) :
    (l ≤ fuel → ∃ q', q.swap_index fuel i j = some q') ∧
    ∀ q', q.swap_index fuel i j = some q' →
      q'.Coherent E m l ∧ q.cache.swap_index fuel i j = some q'.cache ∧
      q'.kernel = q.kernel.swap_index i j ∧
      ∀ p r, q'.entry E m p r = q.entry E m (swap_pos i j p) (swap_pos i j r) := by
  obtain ⟨hc, hs⟩ := h
  constructor
  · intro hf
    obtain ⟨c, hr⟩ := hc.exchange_returns fuel i j hi hj hf
    simp only [ONE_CLASS_Q.swap_index, hr]
    exact ⟨_, rfl⟩
  · intro q' hq
    simp only [ONE_CLASS_Q.swap_index] at hq
    cases hg : q.cache.swap_index fuel i j with
    | none => simp [hg] at hq
    | some c =>
      simp only [hg, Option.some.injEq] at hq
      subst hq
      have he : ∀ p r, ONE_CLASS_Q.entry E m
          { cache := c, kernel := q.kernel.swap_index i j } p r =
          q.entry E m (swap_pos i j p) (swap_pos i j r) := fun p r =>
        congrArg to_float (Kernel.kernel_function_swap E m hs i j hi hj p r)
      refine ⟨⟨?_, hs.swap_sized i j⟩, rfl, rfl, he⟩
      exact (hc.swap_holds fuel i j hi hj c hg).congr (fun p r _ _ => (he p r).symm)

/-! ## Claims on the validation, the kernels and the linear solver -/

/-- C22 (counterexample): a parameter set that satisfies every listed condition is rejected
with the message of the cache-size check. -/
theorem validation_completeness_counterexample :
    (no_cache_param.svm_type = sample_enums.C_SVC ∧
      no_cache_param.kernel_type = sample_enums.RBF ∧
      0 < no_cache_param.eps ∧ 0 < no_cache_param.C ∧ 0 ≤ no_cache_param.p ∧
      no_cache_param.shrinking = 1 ∧ 2 ≤ no_cache_param.qpsize ∧
      0 < no_cache_param.Cbegin ∧ 1 < no_cache_param.Cstep) ∧
    svm_check_parameterb sample_enums no_cache_param = some "cache_size <= 0" := by
  refine ⟨⟨rfl, rfl, ?_, ?_, ?_, rfl, by decide, ?_, ?_⟩, ?_⟩ <;>
    norm_num [svm_check_parameterb, sample_enums, no_cache_param]

/-- C22 (amended): a parameter set with `svm_type` and `kernel_type` among the enumerators,
`cache_size > 0` unless the kernel is linear, `eps > 0`, `C > 0`, `p ≥ 0`, `shrinking` 0 or
1, `qpsize ≥ 2`, `Cbegin > 0` and `Cstep > 1` is accepted, so a message is returned only when
one of these conditions is violated; and the value returned is always the message of the
first failing check in the order svm type, kernel type, cache size, eps, C, p, shrinking,
qpsize, Cbegin, Cstep (`none` when no check fails). -/
theorem validation_completeness (E : svm_enums) (param : svm_parameter) :
    ((param.svm_type = E.C_SVC ∨ param.svm_type = E.EPSILON_SVR ∨ param.svm_type = E.KBB ∨
        param.svm_type = E.SPOC) →
      (param.kernel_type = E.LINEAR ∨ param.kernel_type = E.POLY ∨
        param.kernel_type = E.RBF ∨ param.kernel_type = E.SIGMOID) →
      (param.kernel_type ≠ E.LINEAR → 0 < param.cache_size) →
      0 < param.eps → 0 < param.C → 0 ≤ param.p →
      (param.shrinking = 0 ∨ param.shrinking = 1) → 2 ≤ param.qpsize →
      0 < param.Cbegin → 1 < param.Cstep →
      svm_check_parameterb E param = none) ∧
    svm_check_parameterb E param = first_failing (parameter_checks E param) := by
  constructor
  · intro h1 h2 h3 h4 h5 h6 h7 h8 h9 h10
    simp only [svm_check_parameterb]
    rw [if_neg (by rintro ⟨a, b, c, d⟩; rcases h1 with h | h | h | h <;> contradiction),
      if_neg (by rintro ⟨a, b, c, d⟩; rcases h2 with h | h | h | h <;> contradiction),
      if_neg (by rintro ⟨a, b⟩; exact absurd (h3 a) (not_lt.2 b)),
      if_neg (not_le.2 h4), if_neg (not_le.2 h5),
      if_neg (by rintro ⟨_, b⟩; exact absurd h6 (not_le.2 b)),
      if_neg (by rintro ⟨a, b⟩; rcases h7 with h | h <;> contradiction),
      if_neg (by rintro ⟨_, b⟩; exact absurd h8 (not_le.2 b)),
      if_neg (by rintro ⟨_, b⟩; exact absurd h9 (not_lt.2 b)),
      if_neg (by rintro ⟨_, b⟩; exact absurd h10 (not_lt.2 b))]
  · simp only [svm_check_parameterb, parameter_checks, first_failing_cons, first_failing_nil]

/-- C26: `Kernel::dot` is a total function of its two arrays (the merge loop ends after at
most `length px + length py` passes); on two feature vectors with strictly increasing indices
it returns the sum, over the indices present in both vectors, of the product of the two
values; and it is symmetric in its arguments. -/
theorem kernel_dot_spec (px py : List svm_node) (hx : Increasing px) (hy : Increasing py) :
    dot px py =
      ∑ k in (px.map (fun n => n.index)).toFinset ∩ (py.map (fun n => n.index)).toFinset,
        component px k * component py k ∧
    dot px py = dot py px :=
  ⟨by rw [dot_spec px py hx hy, common_sum_by_index px py hx], dot_comm px py⟩

/-- Witness of C26: two vectors with the common indices 3 and 4. -/
theorem kernel_dot_spec_witness :
    Increasing [⟨1, 2⟩, ⟨3, 5⟩, ⟨4, 1⟩] ∧ Increasing [⟨0, 7⟩, ⟨3, 2⟩, ⟨4, 3⟩] ∧
    dot [⟨1, 2⟩, ⟨3, 5⟩, ⟨4, 1⟩] [⟨0, 7⟩, ⟨3, 2⟩, ⟨4, 3⟩] =
      ∑ k in ([⟨1, 2⟩, ⟨3, 5⟩, ⟨4, 1⟩].map (fun n : svm_node => n.index)).toFinset ∩
          ([⟨0, 7⟩, ⟨3, 2⟩, ⟨4, 3⟩].map (fun n : svm_node => n.index)).toFinset,
        component [⟨1, 2⟩, ⟨3, 5⟩, ⟨4, 1⟩] k * component [⟨0, 7⟩, ⟨3, 2⟩, ⟨4, 3⟩] k ∧
    dot [⟨1, 2⟩, ⟨3, 5⟩, ⟨4, 1⟩] [⟨0, 7⟩, ⟨3, 2⟩, ⟨4, 3⟩] =
      dot [⟨0, 7⟩, ⟨3, 2⟩, ⟨4, 3⟩] [⟨1, 2⟩, ⟨3, 5⟩, ⟨4, 1⟩] :=
  ⟨by decide, by decide,
    kernel_dot_spec [⟨1, 2⟩, ⟨3, 5⟩, ⟨4, 1⟩] [⟨0, 7⟩, ⟨3, 2⟩, ⟨4, 3⟩] (by decide) (by decide)⟩

/-- C27: for two feature vectors with strictly increasing indices the sum accumulated by the
three loops of the RBF case of `Kernel::k_function` equals `dot(x,x) + dot(y,y) - 2*dot(x,y)`;
for the points `i, j < l` of a `Kernel` object built for the RBF kernel this is the argument
`x_square[i] + x_square[j] - 2*dot(x[i],x[j])` of `Kernel::kernel_rbf`, so `k_function` on the
two points and the member `kernel_function` return the same value (for every function
`exp`). -/
theorem rbf_consistency (E : svm_enums) (m : libm) (l : Nat) (x_ : List (List svm_node))
    (param : svm_parameter) (i j : Nat) (hi : i < l) (hj : j < l)
    (hinc : ∀ k, k < l → Increasing (x_.getD k []))
    (hrbf : param.kernel_type = E.RBF) (h1 : E.RBF ≠ E.LINEAR) (h2 : E.RBF ≠ E.POLY) :
    rbf_sum (x_.getD i []) (x_.getD j []) =
      dot (x_.getD i []) (x_.getD i []) + dot (x_.getD j []) (x_.getD j []) -
        2 * dot (x_.getD i []) (x_.getD j []) ∧
    (Kernel.new E l x_ param).rbf_arg i j = rbf_sum (x_.getD i []) (x_.getD j []) ∧
    k_function E m (x_.getD i []) (x_.getD j []) param =
      (Kernel.new E l x_ param).kernel_function E m i j := by
  have e1 := rbf_sum_spec (x_.getD i []) (x_.getD j []) (hinc i hi) (hinc j hj)
  have e2 : (Kernel.new E l x_ param).rbf_arg i j = rbf_sum (x_.getD i []) (x_.getD j []) := by
    rw [e1]
    simp only [Kernel.rbf_arg, Kernel.new, if_pos hrbf, Option.getD_some]
    rw [(norms_spec l (x_.take l)).2 i hi, (norms_spec l (x_.take l)).2 j hj,
      getD_take x_ l i [] hi, getD_take x_ l j [] hj]
  refine ⟨e1, e2, ?_⟩
  have k1 : (Kernel.new E l x_ param).kernel_type = E.RBF := hrbf
  have k2 : (Kernel.new E l x_ param).gamma = param.gamma := rfl
  rw [k_function, Kernel.kernel_function, hrbf, k1, if_neg h1, if_neg h2, if_pos rfl,
    if_neg h1, if_neg h2, if_pos rfl, Kernel.kernel_rbf, e2, k2]

/-- Witness of C27: two points in a `Kernel` object for the RBF kernel. -/
theorem rbf_consistency_witness :
    rbf_sum ([[⟨1, 2⟩, ⟨3, 5⟩], [⟨0, 7⟩, ⟨3, 2⟩]].getD 0 [])
        ([[⟨1, 2⟩, ⟨3, 5⟩], [⟨0, 7⟩, ⟨3, 2⟩]].getD 1 []) =
      dot ([[⟨1, 2⟩, ⟨3, 5⟩], [⟨0, 7⟩, ⟨3, 2⟩]].getD 0 [])
          ([[⟨1, 2⟩, ⟨3, 5⟩], [⟨0, 7⟩, ⟨3, 2⟩]].getD 0 []) +
        dot ([[⟨1, 2⟩, ⟨3, 5⟩], [⟨0, 7⟩, ⟨3, 2⟩]].getD 1 [])
          ([[⟨1, 2⟩, ⟨3, 5⟩], [⟨0, 7⟩, ⟨3, 2⟩]].getD 1 []) -
        2 * dot ([[⟨1, 2⟩, ⟨3, 5⟩], [⟨0, 7⟩, ⟨3, 2⟩]].getD 0 [])
          ([[⟨1, 2⟩, ⟨3, 5⟩], [⟨0, 7⟩, ⟨3, 2⟩]].getD 1 []) :=
  (rbf_consistency sample_enums ⟨fun a _ => a, fun a => a, fun a => a⟩ 2
    [[⟨1, 2⟩, ⟨3, 5⟩], [⟨0, 7⟩, ⟨3, 2⟩]] regression_param 0 1 (by decide) (by decide)
    (by intro k hk; interval_cases k <;> decide) rfl (by decide) (by decide)).1

/-- C23 (divergence): the 1 × 1 matrix `[1]` is turned by `sparsifyb` into one point with the
node `(0, 1)`.  With `y = 1`, `alpha = 1`, `b = -1` the array `w` built by the update
statements is `[2, 0]`, which is the weight vector of the text; the sub-problem matrix of the
solver holds `dot + 1 = 2` for the point, so the gradient of the claim is `-1 + 1*2 = 1`, but
the value the solver computes through `w` is `3`: the node of index 0 shares the slot `w[0]`
with the bias. -/
theorem linear_gradient_bias_collision :
    sparsifyb [1] 1 1 = [[⟨0, 1⟩]] ∧
    add_point [0, 0] [⟨0, 1⟩] ((1 : Int) * (1 : ℚ)) = [2, 0] ∧
    (∀ k, ([2, 0] : List ℚ).getD k 0 = weight 1 [[⟨0, 1⟩]] [1] [1] k) ∧
    linear_Q_diag [[⟨0, 1⟩]] 0 = 2 ∧
    linear_gradient [2, 0] [[⟨0, 1⟩]] [1] [-1] 0 = 3 ∧
    ([-1] : List ℚ).getD 0 0 + ∑ j in Finset.range 1,
      ([1] : List ℚ).getD j 0 * linear_Q [[⟨0, 1⟩]] [1] 0 j = 1 := by
  refine ⟨sparsifyb_unit, ?_, weight_unit, ?_, ?_, ?_⟩
  · simpa using add_point_unit
  · simp [linear_Q_diag, dot, dot_loop]
    try norm_num
  · simp [linear_gradient, w_loop]
    try norm_num
  · simp [linear_Q, dot, dot_loop]
    try norm_num

/-- C24: the rescale step number `k` of the path of `solve_c_svc` (`Cpj = Cbegin*Cstep^k`,
`Cnj = Cbegin*Cn/Cp*Cstep^k`, with `Cp, Cn, Cbegin > 0` and `Cstep > 1`), on arrays `alpha` of
`l` and `w` of `n + 1` entries and feature vectors with strictly increasing indices in
`[0, n]`.  If every `alpha[i]` lies in `[0, Cpj]` (`y_i = +1`) or `[0, Cnj]` (`y_i = -1`) and
`w` is the weight vector of `alpha`, then after the step every `alpha[i]` lies in the box of
the next value (`Cpj*Cstep` and `Cnj*Cstep`, or `Cp` and `Cn` on the last step, where
`Cpj*Cstep >= Cp`), a variable at its upper bound is at its new upper bound, and `w` is the
weight vector of the new `alpha`. -/
theorem warm_start_rescale (x : List (List svm_node)) (prob_y : List ℚ) (n l : Nat)
    (Cp Cn Cbegin Cstep : ℚ) (k : Nat) (alpha w : List ℚ)
    (hCp : 0 < Cp) (hCn : 0 < Cn) (hCb : 0 < Cbegin) (hCs : 1 < Cstep)
    (hal : alpha.length = l) (hwl : w.length = n + 1)
    (hx : ∀ i, i < l → Increasing (x.getD i []) ∧
      ∀ a ∈ x.getD i [], 0 ≤ a.index ∧ a.index ≤ (n : Int))
    (hbox : ∀ i, i < l → 0 ≤ alpha.getD i 0 ∧
      ((labels prob_y).getD i 0 = 1 → alpha.getD i 0 ≤ Cbegin * Cstep ^ k) ∧
      ((labels prob_y).getD i 0 = -1 → alpha.getD i 0 ≤ Cbegin * Cn / Cp * Cstep ^ k))
    (hw : ∀ j, w.getD j 0 = weight l x (labels prob_y) alpha j) :
    (∀ i, i < l →
      0 ≤ (c_svc_rescale x (labels prob_y) n l Cp Cn Cstep (Cbegin * Cstep ^ k)
        (Cbegin * Cn / Cp * Cstep ^ k) (alpha, w)).1.getD i 0 ∧
      ((labels prob_y).getD i 0 = 1 →
        (c_svc_rescale x (labels prob_y) n l Cp Cn Cstep (Cbegin * Cstep ^ k)
          (Cbegin * Cn / Cp * Cstep ^ k) (alpha, w)).1.getD i 0 ≤
          (if Cbegin * Cstep ^ k * Cstep ≥ Cp then Cp else Cbegin * Cstep ^ k * Cstep) ∧
        (alpha.getD i 0 = Cbegin * Cstep ^ k →
          (c_svc_rescale x (labels prob_y) n l Cp Cn Cstep (Cbegin * Cstep ^ k)
            (Cbegin * Cn / Cp * Cstep ^ k) (alpha, w)).1.getD i 0 =
            (if Cbegin * Cstep ^ k * Cstep ≥ Cp then Cp else Cbegin * Cstep ^ k * Cstep))) ∧
      ((labels prob_y).getD i 0 = -1 →
        (c_svc_rescale x (labels prob_y) n l Cp Cn Cstep (Cbegin * Cstep ^ k)
          (Cbegin * Cn / Cp * Cstep ^ k) (alpha, w)).1.getD i 0 ≤
          (if Cbegin * Cstep ^ k * Cstep ≥ Cp then Cn
            else Cbegin * Cn / Cp * Cstep ^ k * Cstep) ∧
        (alpha.getD i 0 = Cbegin * Cn / Cp * Cstep ^ k →
          (c_svc_rescale x (labels prob_y) n l Cp Cn Cstep (Cbegin * Cstep ^ k)
            (Cbegin * Cn / Cp * Cstep ^ k) (alpha, w)).1.getD i 0 =
            (if Cbegin * Cstep ^ k * Cstep ≥ Cp then Cn
              else Cbegin * Cn / Cp * Cstep ^ k * Cstep)))) ∧
    ∀ j, (c_svc_rescale x (labels prob_y) n l Cp Cn Cstep (Cbegin * Cstep ^ k)
        (Cbegin * Cn / Cp * Cstep ^ k) (alpha, w)).2.getD j 0 =
      weight l x (labels prob_y)
        (c_svc_rescale x (labels prob_y) n l Cp Cn Cstep (Cbegin * Cstep ^ k)
          (Cbegin * Cn / Cp * Cstep ^ k) (alpha, w)).1 j := by
  obtain ⟨-, g2, g3⟩ := c_svc_rescale_spec x (labels prob_y) n l Cp Cn Cstep
    (Cbegin * Cstep ^ k) (Cbegin * Cn / Cp * Cstep ^ k) alpha w hal hwl hx hw
  refine ⟨fun i hi => ?_, g3⟩
  obtain ⟨b0, b1, b2⟩ := hbox i hi
  have hpk : 0 < Cstep ^ k := pow_pos (by linarith) k
  have hCpj : 0 < Cbegin * Cstep ^ k := mul_pos hCb hpk
  have hCnj : 0 < Cbegin * Cn / Cp * Cstep ^ k :=
    mul_pos (div_pos (mul_pos hCb hCn) hCp) hpk
  have hratio : Cbegin * Cn / Cp * Cstep ^ k * (Cp / (Cbegin * Cstep ^ k)) = Cn := by
    field_simp
    ring
  have hq : 0 < Cp / (Cbegin * Cstep ^ k) := div_pos hCp hCpj
  rw [g2 i hi]
  by_cases hlast : Cbegin * Cstep ^ k * Cstep ≥ Cp
  · simp only [if_pos hlast, rescale_alpha]
    refine ⟨?_, fun hy => ⟨?_, fun he => ?_⟩, fun hy => ⟨?_, fun he => ?_⟩⟩
    · split_ifs
      · exact le_of_lt hCp
      · exact le_of_lt hCn
      · exact mul_nonneg b0 (le_of_lt hq)
    · by_cases hge : alpha.getD i 0 ≥ Cbegin * Cstep ^ k
      · rw [if_pos ⟨hy, hge⟩]
      · rw [if_neg (fun h => hge h.2), if_neg (fun h => by rw [hy] at h; exact absurd h.1 (by decide))]
        have : alpha.getD i 0 * (Cp / (Cbegin * Cstep ^ k)) ≤
            Cbegin * Cstep ^ k * (Cp / (Cbegin * Cstep ^ k)) :=
          mul_le_mul_of_nonneg_right (le_of_lt (not_le.1 hge)) (le_of_lt hq)
        have e : Cbegin * Cstep ^ k * (Cp / (Cbegin * Cstep ^ k)) = Cp := by field_simp
        linarith
    · rw [if_pos ⟨hy, le_of_eq he.symm⟩]
    · have hn1 : ¬ ((labels prob_y).getD i 0 = 1 ∧ alpha.getD i 0 ≥ Cbegin * Cstep ^ k) := by
        intro h; rw [hy] at h; exact absurd h.1 (by decide)
      rw [if_neg hn1]
      by_cases hge : alpha.getD i 0 ≥ Cbegin * Cn / Cp * Cstep ^ k
      · rw [if_pos ⟨hy, hge⟩]
      · rw [if_neg (fun h => hge h.2)]
        have : alpha.getD i 0 * (Cp / (Cbegin * Cstep ^ k)) ≤
            Cbegin * Cn / Cp * Cstep ^ k * (Cp / (Cbegin * Cstep ^ k)) :=
          mul_le_mul_of_nonneg_right (le_of_lt (not_le.1 hge)) (le_of_lt hq)
        linarith
    · have hn1 : ¬ ((labels prob_y).getD i 0 = 1 ∧ alpha.getD i 0 ≥ Cbegin * Cstep ^ k) := by
        intro h; rw [hy] at h; exact absurd h.1 (by decide)
      rw [if_neg hn1, if_pos ⟨hy, le_of_eq he.symm⟩]
  · simp only [if_neg hlast]
    have hs0 : 0 ≤ Cstep := by linarith
    refine ⟨mul_nonneg b0 hs0, fun hy => ⟨mul_le_mul_of_nonneg_right (b1 hy) hs0,
      fun he => by rw [he]⟩, fun hy => ⟨mul_le_mul_of_nonneg_right (b2 hy) hs0,
      fun he => by rw [he]⟩⟩

theorem weight_sample (j : Nat) :
    ([1, 1] : List ℚ).getD j 0 = weight 1 [[⟨1, 1⟩]] (labels [1]) [1] j := by
  rcases j with _ | _ | j
  · simp [weight, component, labels]
  · simp [weight, component, labels]
  · have e : ¬ ((1 : Int) = (j : Int) + 1 + 1) := by omega
    simp [weight, component, e]

/-- Witness of C24: one point with the node `(1, 1)`, label `+1` and `alpha = 1 = Cbegin`,
on the first step of the path from `Cbegin = 1` to `Cp = Cn = 4` with `Cstep = 2`. -/
theorem warm_start_rescale_witness :
    0 ≤ (c_svc_rescale [[⟨1, 1⟩]] (labels [1]) 1 1 4 4 2 (1 * 2 ^ 0) (1 * 4 / 4 * 2 ^ 0)
        ([1], [1, 1])).1.getD 0 0 ∧
    (c_svc_rescale [[⟨1, 1⟩]] (labels [1]) 1 1 4 4 2 (1 * 2 ^ 0) (1 * 4 / 4 * 2 ^ 0)
        ([1], [1, 1])).2.getD 1 0 =
      weight 1 [[⟨1, 1⟩]] (labels [1])
        (c_svc_rescale [[⟨1, 1⟩]] (labels [1]) 1 1 4 4 2 (1 * 2 ^ 0) (1 * 4 / 4 * 2 ^ 0)
          ([1], [1, 1])).1 1 :=
  have h := warm_start_rescale [[⟨1, 1⟩]] [1] 1 1 4 4 1 2 0 [1] [1, 1] (by norm_num)
    (by norm_num) (by norm_num) (by norm_num) rfl rfl
    (by intro i hi; interval_cases i; exact ⟨by decide, by decide⟩)
    (by intro i hi; interval_cases i; norm_num)
    weight_sample
  ⟨(h.1 0 (by decide)).1, h.2 1⟩


/-! ## Claims on the adapters -/

theorem line_budget :
    ((3 : Nat) : Int) ≤ (Cache.new 32 3 (cache_bytes line_param) : Cache ℚ).size := by
  decide!

/-- C33: after every sequence of returning `get_data` calls with `len ≥ 1` and `swap_index`
calls on a freshly constructed cache, the recency list is circular and doubly linked
(consecutive nodes of the ring `lru_head, head[k_1], ..., head[k_n], lru_head` are linked by
`next` and `prev`), no record occurs twice in it, and a record is in the list if and only if
its filled length is greater than 0. -/
theorem recency_list_well_formed (sizeof_head_t l_ : Nat) (size_ : Int) (calls : List Call)
    (c : Cache α) (hreq : ∀ x ∈ calls, x.requests_data)
    (hrun : (Cache.new sizeof_head_t l_ size_ : Cache α).run calls = some c) :
    ∃ L : List Nat, List.Chain' (Linked c) (ring L) ∧ L.Nodup ∧
      ∀ k, k ∈ L ↔ 0 < lenAt c.contents k := by
  obtain ⟨L, hwf, -, -⟩ :=
    Cache.run_wf calls _ [] c (Cache.WF_new sizeof_head_t l_ size_) hreq hrun
  refine ⟨L, hwf.chain.1, hwf.chain.2, fun k => ?_⟩
  rw [hwf.mem_iff k]
  by_cases hk : k < c.head.length
  · have h0 := lenAt_nonneg_of_buf (hwf.buf k hk)
    constructor
    · intro h; exact lt_of_le_of_ne h0 (Ne.symm h)
    · intro h; exact ne_of_gt h
  · have : lenAt c.contents k = 0 := by
      apply lenAt_of_not_lt
      rw [Cache.contents_length]; exact hk
    rw [this]; simp

theorem recency_list_well_formed_witness :
    ∃ c : Cache Nat,
      (Cache.new 32 5 188 : Cache Nat).run
        [Call.get_data 5 0 5, Call.get_data 5 1 2, Call.swap_index 5 0 1,
          Call.get_data 5 2 4, Call.get_data 5 1 3] = some c ∧
      ∃ L : List Nat, List.Chain' (Linked c) (ring L) ∧ L.Nodup ∧
        ∀ k, k ∈ L ↔ 0 < lenAt c.contents k :=
  ⟨_, rfl, recency_list_well_formed 32 5 188
    [Call.get_data 5 0 5, Call.get_data 5 1 2, Call.swap_index 5 0 1, Call.get_data 5 2 4,
      Call.get_data 5 1 3] _ (by decide) rfl⟩

theorem free_old_space_fixpoint (c : Cache α) (more : Int) (k : Nat)
    (hs : c.size < more) (hn : c.lru_next = Ptr.head k)
    (hfix : (c.lru_delete (Ptr.head k)).bind (fun c1 => c1.release k) = some c) :
    ∀ fuel, Cache.free_old_space fuel c more = none := by
  intro fuel
  induction fuel with
  | zero => simp [Cache.free_old_space, hs]
  | succ n ih =>
    rw [Cache.free_old_space, if_pos hs, hn]
    cases hd : c.lru_delete (Ptr.head k) with
    | none => rw [hd] at hfix; simp at hfix
    | some c1 =>
      rw [hd] at hfix
      have hr : c1.release k = some c := hfix
      simp only [hd, hr]
      exact ih

/-- On a fresh cache whose budget is less than the requested length, the first request
selects the sentinel in the loop `while(size < more)`. -/
theorem Cache.new_first_request (s l : Nat) (z len : Int) (hl : 0 < l) (hpos : 0 < len)
    (hb : (Cache.new s l z : Cache α).size < len) (fuel : Nat) :
    (Cache.new s l z : Cache α).get_data fuel 0 len = none := by
  have hh : (Cache.new s l z : Cache α).head[0]? =
      some { prev := Ptr.null, next := Ptr.null, data := [], len := 0 } := by
    simp [Cache.new, List.getElem?_replicate, hl]
  have hn : (Cache.new s l z : Cache α).lru_next = Ptr.lru_head := rfl
  generalize (Cache.new s l z : Cache α) = c at hb hh hn
  have hf : Cache.free_old_space fuel c len = none := by
    cases fuel with
    | zero => simp [Cache.free_old_space, hb]
    | succ n => simp [Cache.free_old_space, hb, hn]
  simp [Cache.get_data, hh, hf, hpos]

theorem small_cache_budget :
    (Cache.new 32 30000 (cache_bytes small_cache_param) : Cache ℚ).size = 22144 := by
  have e : cache_bytes small_cache_param = 1048576 := by decide!
  simp only [Cache.new, e]
  norm_num

theorem huge_cache_budget :
    cache_bytes huge_cache_param = -2147483648 ∧
    (Cache.new 32 3 (cache_bytes huge_cache_param) : Cache ℚ).size = -536870936 := by
  have e : cache_bytes huge_cache_param = -2147483648 := by decide!
  refine ⟨e, ?_⟩
  simp only [Cache.new, e]
  norm_num

/-- C34 (counterexample): (1) the parameter set `small_cache_param` with `cache_size = 1` is
accepted, and for `l = 30000` and `sizeof(head_t) = 32` the budget is
`1048576/4 - 30000*32/4 = 22144 < l`, so the first request for a full column (`len = l`)
finds `size < more` with an empty list and the loop selects the sentinel; (2) with a budget
of 4 values, after two requests of length 0 for record 0 and a request of length 2 for
record 1 the request of 3 values for record 2 never leaves the loop, although the budget is
at least the requested length; (3) the parameter set `huge_cache_param` with
`cache_size = 2048` is accepted, the product `2048 * 2^20 = 2^31` is outside the range of the
32-bit `int` and the conversion gives `-2^31`, so for `l = 3` and `sizeof(head_t) = 32` the
budget is `-536870936` and the first request of one value selects the sentinel. -/
theorem eviction_loop_counterexample :
    (svm_check_parameterb sample_enums small_cache_param = none ∧
      0 < small_cache_param.cache_size ∧
      (Cache.new 32 30000 (cache_bytes small_cache_param) : Cache ℚ).size < 30000 ∧
      (Cache.new 32 30000 (cache_bytes small_cache_param) : Cache ℚ).lru_next = Ptr.lru_head ∧
      never_returns (fun fuel =>
        (Cache.new 32 30000 (cache_bytes small_cache_param) : Cache ℚ).get_data fuel 0 30000)) ∧
    ((3 : Int) ≤ (Cache.new 32 3 112 : Cache Nat).size ∧
      ∃ c, twice_linked_cache = some c ∧
        never_returns (fun fuel => c.get_data fuel 2 3)) ∧
    (svm_check_parameterb sample_enums huge_cache_param = none ∧
      cache_bytes huge_cache_param = -2147483648 ∧
      (Cache.new 32 3 (cache_bytes huge_cache_param) : Cache ℚ).size = -536870936 ∧
      never_returns (fun fuel =>
        (Cache.new 32 3 (cache_bytes huge_cache_param) : Cache ℚ).get_data fuel 0 1)) := by
  have hb : (Cache.new 32 30000 (cache_bytes small_cache_param) : Cache ℚ).size < 30000 := by
    rw [small_cache_budget]; decide
  refine ⟨⟨by decide!, by decide!, hb, rfl, ?_⟩, ⟨by decide, ?_⟩,
    by decide!, huge_cache_budget.1, huge_cache_budget.2, fun fuel => ?_⟩
  · intro fuel
    exact Cache.new_first_request 32 30000 _ 30000 (by decide) (by decide) hb fuel
  · refine ⟨twice_linked_state, by decide, ?_⟩
    intro fuel
    have hf := free_old_space_fixpoint twice_linked_state 3 0 (by decide) rfl (by decide) fuel
    simp [Cache.get_data, twice_linked_state] at hf ⊢
    rw [hf]
  · exact Cache.new_first_request 32 3 _ 1 (by decide) (by decide)
      (by rw [huge_cache_budget.2]; decide) fuel

theorem Cache.run_length (calls : List Call) :
    ∀ (c : Cache α) (L : List Nat) (c' : Cache α), c.WF L →
      (∀ x ∈ calls, x.requests_data) → c.run calls = some c' →
      c'.head.length = c.head.length := by
  induction calls with
  | nil =>
    intro c L c' _ _ h
    simp only [Cache.run, Option.some.injEq] at h
    subst h; rfl
  | cons x r ih =>
    intro c L c' hwf hreq h
    simp only [Cache.run] at h
    cases hx : c.call x with
    | none => simp [hx] at h
    | some c1 =>
      simp only [hx] at h
      have hstep : (∃ L1, c1.WF L1) ∧ c1.head.length = c.head.length := by
        cases x with
        | get_data fuel index len =>
          simp only [Cache.call, Option.map_eq_some'] at hx
          obtain ⟨⟨c2, p⟩, hg, rfl⟩ := hx
          obtain ⟨L1, h1, -⟩ := Cache.get_data_wf hwf (hreq _ (List.mem_cons_self _ _)) hg
          obtain ⟨k, -, -, -, -, hl, -⟩ := Cache.get_data_spec hwf hg
          exact ⟨⟨L1, h1⟩, hl⟩
        | swap_index fuel i j =>
          obtain ⟨L1, h1, -⟩ := Cache.swap_index_wf hwf hx
          refine ⟨⟨L1, h1⟩, ?_⟩
          by_cases hij : i = j
          · simp only [Cache.call, Cache.swap_index, hij, if_true, Option.some.injEq] at hx
            subst hx; rfl
          · exact (Cache.swap_index_spec hwf hij hx).2.2.1
      obtain ⟨⟨L1, hwf1⟩, hl1⟩ := hstep
      rw [ih c1 L1 c' hwf1 (fun y hy => hreq y (List.mem_cons_of_mem _ hy)) h, hl1]

/-- The loop `while(size < more)` is left with `size >= more`. -/
theorem Cache.free_old_space_size (more : Int) : ∀ (fuel : Nat) (c c2 : Cache α),
    Cache.free_old_space fuel c more = some c2 → more ≤ c2.size := by
  intro fuel
  induction fuel with
  | zero =>
    intro c c2 h
    simp only [Cache.free_old_space] at h
    by_cases hs : c.size < more
    · rw [if_pos hs] at h; simp at h
    · rw [if_neg hs] at h
      simp only [Option.some.injEq] at h
      subst h; exact not_lt.mp hs
  | succ n ih =>
    intro c c2 h
    simp only [Cache.free_old_space] at h
    by_cases hs : c.size < more
    · rw [if_pos hs] at h
      cases hn : c.lru_next with
      | null => rw [hn] at h; simp at h
      | lru_head => rw [hn] at h; simp at h
      | head k =>
        rw [hn] at h
        dsimp only at h
        cases hd : c.lru_delete (Ptr.head k) with
        | none => rw [hd] at h; simp at h
        | some c1 =>
          rw [hd] at h
          dsimp only at h
          cases hr : c1.release k with
          | none => rw [hr] at h; simp at h
          | some c3 =>
            rw [hr] at h
            exact ih c3 c2 h
    · rw [if_neg hs] at h
      simp only [Option.some.injEq] at h
      subst h; exact not_lt.mp hs

/-- A request that returns has passed the loop `while(size < more)`. -/
theorem Cache.get_data_passes_loop {c : Cache α} {fuel index : Nat} {len : Int}
    {r : Cache α × Int} (h : c.get_data fuel index len = some r) :
    ∃ c1 more, c.before_loop index len = some (c1, more) ∧
      (0 < more → ∃ c2, c1.free_old_space fuel more = some c2 ∧ more ≤ c2.size) := by
  unfold Cache.get_data at h
  unfold Cache.before_loop
  cases h0 : c.head[index]? with
  | none => rw [h0] at h; simp at h
  | some e0 =>
    rw [h0] at h
    dsimp only at h ⊢
    cases h1 : (if e0.len ≠ 0 then c.lru_delete (Ptr.head index) else some c) with
    | none => rw [h1] at h; simp at h
    | some c1 =>
      rw [h1] at h
      dsimp only at h ⊢
      cases h2 : c1.head[index]? with
      | none => rw [h2] at h; simp at h
      | some e1 =>
        rw [h2] at h
        dsimp only at h ⊢
        refine ⟨c1, len - e1.len, rfl, fun hm => ?_⟩
        rw [if_pos hm] at h
        cases h3 : c1.free_old_space fuel (len - e1.len) with
        | none => rw [h3] at h; simp at h
        | some c2 => exact ⟨c2, rfl, Cache.free_old_space_size _ fuel c1 c2 h3⟩


/-- C34 (amended): on a cache that was constructed for `l` records with the budget of
`param.cache_size` (the argument `(int)(cache_size*2^20)` is the 32-bit conversion) and has
served `get_data` calls with `len ≥ 1` and `swap_index` calls, a
request `get_data(index, len)` for a record `index < l` whose length is at most the budget
computed by the constructor returns when the loop has fuel for `l` passes: the loop
`while(size < more)` ends with `size ≥ more` and every pass evicts a record of the array,
never the sentinel (the model has no result for a pass that selects the sentinel). -/
theorem eviction_loop_safety (sizeof_head_t l : Nat) (param : svm_parameter)
    (calls : List Call) (c : Cache α) (fuel index : Nat) (len : Int)
    (hreq : ∀ x ∈ calls, x.requests_data)
    (hrun : (Cache.new sizeof_head_t l (cache_bytes param) : Cache α).run calls = some c)
    (hi : index < l) (hf : l ≤ fuel)
    (hb : len ≤ (Cache.new sizeof_head_t l (cache_bytes param) : Cache α).size) :
    (∃ r, c.get_data fuel index len = some r) ∧
    ∃ c1 more, c.before_loop index len = some (c1, more) ∧
      (0 < more → ∃ c2, c1.free_old_space fuel more = some c2 ∧ more ≤ c2.size) := by
  have hwf0 : (Cache.new sizeof_head_t l (cache_bytes param) : Cache α).WF [] :=
    Cache.WF_new sizeof_head_t l (cache_bytes param)
  obtain ⟨L, hwf, ht, -⟩ := Cache.run_wf calls _ [] c hwf0 hreq hrun
  have hlen : c.head.length = l := by
    rw [Cache.run_length calls _ [] c hwf0 hreq hrun]
    simp [Cache.new]
  have h0 : (Cache.new sizeof_head_t l (cache_bytes param) : Cache α).total = 0 := by
    simp [Cache.total, Cache.new]
  rw [h0, zero_add] at ht
  have hv := hwf.toWFv
  have hL : L.length ≤ l := by
    have := hv.length_le
    rw [Cache.contents_length, hlen] at this
    exact this
  have hret : ∃ r, c.get_data fuel index len = some r := by
    refine Cache.get_data_returns hwf (by rw [hlen]; exact hi) (by omega) ?_
    rw [hv.sum_erase index, ← Cache.total_eq]
    linarith
  obtain ⟨r, hr⟩ := hret
  exact ⟨⟨r, hr⟩, Cache.get_data_passes_loop hr⟩

theorem eviction_loop_safety_witness :
    (Cache.new 32 5 (cache_bytes tiny_cache_param) : Cache Nat).run
        [Call.get_data 5 0 5, Call.get_data 5 1 2, Call.swap_index 5 0 1] = some warm_cache ∧
      (∃ r, warm_cache.get_data 5 2 4 = some r) ∧
      ∃ c1 more, warm_cache.before_loop 2 4 = some (c1, more) ∧
        (0 < more → ∃ c2, c1.free_old_space 5 more = some c2 ∧ more ≤ c2.size) :=
  ⟨by decide!, eviction_loop_safety 32 5 tiny_cache_param
    [Call.get_data 5 0 5, Call.get_data 5 1 2, Call.swap_index 5 0 1] warm_cache 5 2 4
    (by decide) (by decide!) (by decide) (by decide) (by decide!)⟩

/-! ## The linear term of `Solver_B::Solve` and the cadence of shrinking -/

theorem reload_value (l q : Nat) (hl : 1 ≤ l) (hq : 1 ≤ q) :
    min ((l : Int) * 2 / (q : Int)) (2000 / (q : Int)) =
      max 1 (min (2 * (l : Int)) 2000) / (q : Int) := by
  have hq0 : (0 : Int) < q := by exact_mod_cast hq
  have hl0 : (1 : Int) ≤ l := by exact_mod_cast hl
  have e1 : max 1 (min (2 * (l : Int)) 2000) = min (2 * (l : Int)) 2000 := by
    apply max_eq_right
    exact le_min (by omega) (by norm_num)
  rw [e1]
  by_cases h : 2 * (l : Int) ≤ 2000
  · rw [min_eq_left h, min_eq_left]
    · congr 1; ring
    · exact Int.ediv_le_ediv hq0 (by omega)
  · rw [min_eq_right (by omega : (2000 : Int) ≤ 2 * (l : Int)), min_eq_right]
    exact Int.ediv_le_ediv hq0 (by omega)

/-- A pass that is not a convergence reset goes on with the counter decremented or
reloaded. -/
theorem Solve_iteration_steady {σ : Type} (ops : SolverOps σ) (shrinking : Bool) (s : σ)
    (counter : Int) (h : convergence_reset ops shrinking s counter = false) :
    ∃ s', Solve_iteration ops shrinking s counter =
      Step.next s' (if counter - 1 = 0 then ops.reload s else counter - 1) := by
  unfold convergence_reset at h
  simp only [decide_eq_false_iff_not] at h
  unfold Solve_iteration convergence_check
  simp only []
  rw [if_neg h]
  exact ⟨_, rfl⟩

/-- Passes without a reset that start with a counter above their number count down. -/
theorem plain_passes {σ : Type} (ops : SolverOps σ) (shrinking : Bool) :
    ∀ (j : Nat) (s : σ) (c : Int) (s' : σ) (c' : Int), (j : Int) < c →
      steady ops shrinking j s c = true →
      loop_head ops shrinking j s c = some (s', c') → c' = c - j := by
  intro j
  induction j with
  | zero =>
    intro s c s' c' _ _ h
    simp only [loop_head, Option.some.injEq, Prod.mk.injEq] at h
    rw [← h.2]; simp
  | succ n ih =>
    intro s c s' c' hc hst h
    simp only [steady, Bool.and_eq_true, Bool.not_eq_true'] at hst
    obtain ⟨t, ht⟩ := Solve_iteration_steady ops shrinking s c hst.1
    have hne : ¬ (c - 1 = 0) := by push_cast at hc; omega
    rw [if_neg hne] at ht
    rw [ht] at hst
    simp only [loop_head, ht] at h
    have := ih t (c - 1) s' c' (by push_cast at hc ⊢; omega) hst.2 h
    rw [this]; push_cast; ring

/-! ## The rows of `sparsifyb` -/

theorem sparsify_row_eq (x : List ℚ) (c i : Nat) :
    sparsify_row x c i = nonzero_entries x c i := by
  unfold sparsify_row nonzero_entries
  refine for_loop_induction
    (fun n (row : List svm_node) => row =
      ((List.range n).filter (fun k => decide (x.getD (i * c + k) 0 ≠ 0))).map
        (fun (k : Nat) => (⟨(k : Int), x.getD (i * c + k) 0⟩ : svm_node)))
    0 c _ [] (Nat.zero_le _) rfl ?_
  intro n row _ _ h
  beta_reduce
  rw [List.range_succ, List.filter_append, List.map_append, ← h]
  by_cases hz : x.getD (i * c + n) 0 ≠ 0
  · rw [if_pos hz, List.filter_cons_of_pos (by simpa using hz)]
    rfl
  · rw [if_neg hz, List.filter_cons_of_neg (by simpa using hz)]
    simp

theorem sparsifyb_row (x : List ℚ) (r c i : Nat) (hi : i < r) :
    (sparsifyb x r c).getD i [] = sparsify_row x c i := by
  unfold sparsifyb
  have key := for_loop_induction
    (fun n (sparse : List (List svm_node)) => sparse.length = r ∧
      ∀ j, j < n → sparse.getD j [] = sparsify_row x c j)
    0 r (fun i sparse => sparse.set i (sparsify_row x c i)) (List.replicate r [])
    (Nat.zero_le _) ⟨by simp, fun j hj => absurd hj (Nat.not_lt_zero _)⟩ ?_
  · exact key.2 i hi
  · intro n sparse _ hn ⟨h1, h2⟩
    refine ⟨by simp [h1], fun j hj => ?_⟩
    by_cases hjn : j = n
    · subst hjn
      rw [List.getD_eq_getElem?_getD, List.getElem?_set_self (by omega)]; rfl
    · rw [List.getD_eq_getElem?_getD, List.getElem?_set_ne (Ne.symm hjn),
        ← List.getD_eq_getElem?_getD]
      exact h2 j (by omega)

theorem nonzero_entries_increasing (x : List ℚ) (c i : Nat) :
    Increasing (nonzero_entries x c i) := by
  unfold nonzero_entries Increasing
  constructor
  · intro n hn
    rw [List.mem_map] at hn
    obtain ⟨k, -, rfl⟩ := hn
    show (k : Int) ≠ -1
    omega
  · rw [List.pairwise_map]
    apply List.Pairwise.filter
    have := List.pairwise_lt_range c
    exact this.imp (fun h => Int.ofNat_lt.mpr h)

theorem component_map_filter (x : List ℚ) (c i k : Nat) (L : List Nat) (hL : L.Nodup) :
    component ((L.filter (fun k => decide (x.getD (i * c + k) 0 ≠ 0))).map
      (fun (k : Nat) => (⟨(k : Int), x.getD (i * c + k) 0⟩ : svm_node))) (k : Int) =
      if k ∈ L then x.getD (i * c + k) 0 else 0 := by
  induction L with
  | nil => simp [component]
  | cons a L ih =>
    have hn := List.nodup_cons.mp hL
    by_cases hz : x.getD (i * c + a) 0 ≠ 0
    · rw [List.filter_cons_of_pos (by simpa using hz), List.map_cons]
      by_cases hak : a = k
      · subst hak
        rw [if_pos (List.mem_cons_self _ _)]
        exact component_cons_eq _ _
      · rw [component_cons_ne _ _ _ (by show (a : Int) ≠ k; omega), ih hn.2]
        simp [List.mem_cons, Ne.symm hak]
    · rw [List.filter_cons_of_neg (by simpa using hz), ih hn.2]
      by_cases hak : a = k
      · subst hak
        rw [if_neg hn.1, if_pos (List.mem_cons_self _ _)]
        exact (not_not.mp hz).symm
      · simp [List.mem_cons, Ne.symm hak]

theorem component_nonzero_entries (x : List ℚ) (c i k : Nat) :
    component (nonzero_entries x c i) (k : Int) =
      if k < c then x.getD (i * c + k) 0 else 0 := by
  unfold nonzero_entries
  rw [component_map_filter x c i k (List.range c) (List.nodup_range c)]
  simp only [List.mem_range]

/-- The merge loop of `dot` on the rows of `sparsifyb` computes the dense dot product. -/
theorem dot_nonzero_entries (x : List ℚ) (c i j : Nat) :
    dot (nonzero_entries x c i) (nonzero_entries x c j) = dense_dot x c i j := by
  rw [dot_spec _ _ (nonzero_entries_increasing x c i) (nonzero_entries_increasing x c j),
    common_sum]
  unfold dense_dot
  have hi : nonzero_entries x c i =
      ((List.range c).filter (fun k => decide (x.getD (i * c + k) 0 ≠ 0))).map
        (fun (k : Nat) => (⟨(k : Int), x.getD (i * c + k) 0⟩ : svm_node)) := rfl
  have hpy : ∀ k : Nat, component (nonzero_entries x c j) (k : Int) =
      if k < c then x.getD (j * c + k) 0 else 0 := component_nonzero_entries x c j
  generalize nonzero_entries x c j = py at hpy ⊢
  rw [hi, List.map_map]
  have e : ∀ L : List Nat, (∀ k ∈ L, k < c) →
      ((L.filter (fun k => decide (x.getD (i * c + k) 0 ≠ 0))).map
        ((fun n => n.value * component py n.index) ∘
          (fun (k : Nat) => (⟨(k : Int), x.getD (i * c + k) 0⟩ : svm_node)))).sum =
      (L.map (fun k => x.getD (i * c + k) 0 * x.getD (j * c + k) 0)).sum := by
    intro L
    induction L with
    | nil => intro _; rfl
    | cons a L ih =>
      intro hL
      have ha := hL a (List.mem_cons_self _ _)
      have ih' := ih (fun k hk => hL k (List.mem_cons_of_mem _ hk))
      by_cases hz : x.getD (i * c + a) 0 ≠ 0
      · rw [List.filter_cons_of_pos (by simpa using hz), List.map_cons, List.sum_cons, ih',
          List.map_cons, List.sum_cons]
        congr 1
        show x.getD (i * c + a) 0 * component py (a : Int) = _
        rw [hpy a, if_pos ha]
      · rw [List.filter_cons_of_neg (by simpa using hz), ih', List.map_cons, List.sum_cons,
          not_not.mp hz, zero_mul, zero_add]
  exact e (List.range c) (fun k hk => List.mem_range.mp hk)

/-- The closing nodes do not change the result of the merge loop. -/
theorem dot_loop_closing (t u : svm_node) (ht : t.index = -1) (hu : u.index = -1) :
    ∀ (px py : List svm_node) (s : ℚ),
      dot_loop (px ++ [t]) (py ++ [u]) s = dot_loop px py s := by
  intro px py s
  induction px, py, s using dot_loop.induct with
  | case1 py s =>
    cases py with
    | nil => simp [dot_loop, ht]
    | cons b py => simp [dot_loop, ht]
  | case2 a px s =>
    simp [dot_loop, hu]
  | case3 a px b py s hab he ih =>
    simp only [List.cons_append]
    rw [dot_loop, dot_loop, if_pos hab, if_pos hab, if_pos he, if_pos he]
    exact ih
  | case4 a px b py s hab he hgt ih =>
    simp only [List.cons_append] at ih ⊢
    rw [dot_loop, if_pos hab, if_neg he, if_pos hgt, ih]
    conv_rhs => rw [dot_loop, if_pos hab, if_neg he, if_pos hgt]
  | case5 a px b py s hab he hgt ih =>
    simp only [List.cons_append] at ih ⊢
    rw [dot_loop, if_pos hab, if_neg he, if_neg hgt, ih]
    conv_rhs => rw [dot_loop, if_pos hab, if_neg he, if_neg hgt]
  | case6 a px b py s hab =>
    simp only [List.cons_append]
    rw [dot_loop, dot_loop, if_neg hab, if_neg hab]

/-- C38: for every dense `r × c` matrix `x` and rows `i, j < r`, row `i` of the result of
`sparsifyb` lists exactly the non-zero entries of the dense row `i` as pairs of column index
and value, by strictly increasing index (no index in front of the closing node is `-1`), and
the array ends with the closing node of index `-1`; `Kernel::dot` of two such arrays, with or
without their closing nodes in the model, is the dense dot product of the two rows. -/
theorem sparsifyb_round_trip (x : List ℚ) (r c i j : Nat) (v u : ℚ) (hi : i < r)
    (hj : j < r) :
    (sparsifyb x r c).getD i [] = nonzero_entries x c i ∧
    Increasing ((sparsifyb x r c).getD i []) ∧
    sparsify_array x c i v = nonzero_entries x c i ++ [⟨-1, v⟩] ∧
    dot (sparsify_array x c i v) (sparsify_array x c j u) = dense_dot x c i j ∧
    dot ((sparsifyb x r c).getD i []) ((sparsifyb x r c).getD j []) = dense_dot x c i j := by
  have ei := (sparsifyb_row x r c i hi).trans (sparsify_row_eq x c i)
  have ej := (sparsifyb_row x r c j hj).trans (sparsify_row_eq x c j)
  refine ⟨ei, ?_, ?_, ?_, ?_⟩
  · rw [ei]; exact nonzero_entries_increasing x c i
  · rw [sparsify_array, sparsify_row_eq]
  · rw [sparsify_array, sparsify_array, dot, dot_loop_closing _ _ rfl rfl, sparsify_row_eq,
      sparsify_row_eq]
    exact dot_nonzero_entries x c i j
  · rw [ei, ej]; exact dot_nonzero_entries x c i j

theorem sparsifyb_round_trip_witness :
    (sparsifyb [1, 0, 2, 0, 3, 4] 2 3).getD 0 [] = nonzero_entries [1, 0, 2, 0, 3, 4] 3 0 ∧
    Increasing ((sparsifyb [1, 0, 2, 0, 3, 4] 2 3).getD 0 []) ∧
    sparsify_array [1, 0, 2, 0, 3, 4] 3 0 7 =
      nonzero_entries [1, 0, 2, 0, 3, 4] 3 0 ++ [⟨-1, 7⟩] ∧
    dot (sparsify_array [1, 0, 2, 0, 3, 4] 3 0 7) (sparsify_array [1, 0, 2, 0, 3, 4] 3 1 9) =
      dense_dot [1, 0, 2, 0, 3, 4] 3 0 1 ∧
    dot ((sparsifyb [1, 0, 2, 0, 3, 4] 2 3).getD 0 [])
      ((sparsifyb [1, 0, 2, 0, 3, 4] 2 3).getD 1 []) = dense_dot [1, 0, 2, 0, 3, 4] 3 0 1 :=
  sparsifyb_round_trip [1, 0, 2, 0, 3, 4] 2 3 0 1 7 9 (by decide) (by decide)

theorem sparsifyb_sample :
    sparsifyb [1, 0, 2, 0, 3, 4] 2 3 = [[⟨0, 1⟩, ⟨2, 2⟩], [⟨1, 3⟩, ⟨2, 4⟩]] ∧
    dense_dot [1, 0, 2, 0, 3, 4] 3 0 1 = 8 := by
  decide!

/-! ## The bucketed update of the gradient in `Solver_MB::Solve` -/

theorem for_loop_set_at_spec (g : Nat → ℚ → ℚ) (xs : List ℚ) (lo hi : Nat) :
    (for_loop lo hi (fun i a => a.set i (g i (a.getD i 0))) xs).length = xs.length ∧
    ∀ j, (for_loop lo hi (fun i a => a.set i (g i (a.getD i 0))) xs).getD j 0 =
      if lo ≤ j ∧ j < hi ∧ j < xs.length then g j (xs.getD j 0) else xs.getD j 0 := by
  by_cases hle : lo ≤ hi
  · refine for_loop_induction
      (fun n (a : List ℚ) => a.length = xs.length ∧ ∀ j, a.getD j 0 =
        if lo ≤ j ∧ j < n ∧ j < xs.length then g j (xs.getD j 0) else xs.getD j 0)
      lo hi _ xs hle ⟨rfl, fun j => ?_⟩ ?_
    · rw [if_neg]; omega
    · rintro i t h1 h2 ⟨hl, hg⟩
      refine ⟨by simp [hl], fun j => ?_⟩
      by_cases hji : j = i
      · subst hji
        by_cases hjl : j < xs.length
        · rw [List.getD_eq_getElem?_getD, List.getElem?_set_self (by omega), hg j,
            if_neg (by omega), if_pos ⟨h1, Nat.lt_succ_self j, hjl⟩]
          rfl
        · rw [List.getD_eq_getElem?_getD, List.getElem?_eq_none (by simp; omega),
            if_neg (by omega), List.getD_eq_getElem?_getD,
            List.getElem?_eq_none (by omega)]
      · rw [List.getD_eq_getElem?_getD, List.getElem?_set_ne (Ne.symm hji),
          ← List.getD_eq_getElem?_getD, hg j]
        by_cases hc : lo ≤ j ∧ j < i ∧ j < xs.length
        · rw [if_pos hc, if_pos ⟨hc.1, by omega, hc.2.2⟩]
        · rw [if_neg hc, if_neg (by omega)]
  · rw [for_loop_of_le _ _ _ _ (by omega)]
    refine ⟨rfl, fun j => ?_⟩
    rw [if_neg]; omega

/-- Position `j` lies in the active range of bucket `m`. -/
theorem Solver_MB.add_bucket_spec (s : Solver_MB) (QB_i : Int → ℚ) (m : Nat) (t : ℚ)
    (G : List ℚ) :
    (s.add_bucket QB_i (m : Int) t G).length = G.length ∧
    ∀ j : Nat, (s.add_bucket QB_i (m : Int) t G).getD j 0 =
      if s.start1.getD m 0 ≤ (j : Int) ∧ (j : Int) < s.start1.getD (m + 1) 0 ∧ j < G.length
      then G.getD j 0 + t * QB_i (s.real_i.getD j 0) else G.getD j 0 := by
  unfold Solver_MB.add_bucket
  have e1 : ((m : Int)).toNat = m := Int.toNat_natCast m
  have e2 : ((m : Int) + 1).toNat = m + 1 := by omega
  rw [e1, e2]
  have key := for_loop_set_at_spec (fun j v => v + t * QB_i (s.real_i.getD j 0)) G
    (s.start1.getD m 0).toNat (s.start1.getD (m + 1) 0).toNat
  refine ⟨key.1, fun j => ?_⟩
  rw [key.2 j]
  by_cases hc : s.start1.getD m 0 ≤ (j : Int) ∧ (j : Int) < s.start1.getD (m + 1) 0 ∧
      j < G.length
  · rw [if_pos hc, if_pos ⟨by omega, by omega, hc.2.2⟩]
  · rw [if_neg hc, if_neg (by omega)]

theorem Solver_MB.sub_bucket_spec (s : Solver_MB) (QB_i : Int → ℚ) (m : Nat) (t : ℚ)
    (G : List ℚ) :
    (s.sub_bucket QB_i (m : Int) t G).length = G.length ∧
    ∀ j : Nat, (s.sub_bucket QB_i (m : Int) t G).getD j 0 =
      if s.start1.getD m 0 ≤ (j : Int) ∧ (j : Int) < s.start1.getD (m + 1) 0 ∧ j < G.length
      then G.getD j 0 - t * QB_i (s.real_i.getD j 0) else G.getD j 0 := by
  unfold Solver_MB.sub_bucket
  have e1 : ((m : Int)).toNat = m := Int.toNat_natCast m
  have e2 : ((m : Int) + 1).toNat = m + 1 := by omega
  rw [e1, e2]
  have key := for_loop_set_at_spec (fun j v => v - t * QB_i (s.real_i.getD j 0)) G
    (s.start1.getD m 0).toNat (s.start1.getD (m + 1) 0).toNat
  refine ⟨key.1, fun j => ?_⟩
  rw [key.2 j]
  by_cases hc : s.start1.getD m 0 ≤ (j : Int) ∧ (j : Int) < s.start1.getD (m + 1) 0 ∧
      j < G.length
  · rw [if_pos hc, if_pos ⟨by omega, by omega, hc.2.2⟩]
  · rw [if_neg hc, if_neg (by omega)]

/-- The active ranges of two different buckets are disjoint when `start1` does not
decrease. -/
theorem bucket_ranges_disjoint (start1 : List Int) (t m m0 j : Nat)
    (hmono : ∀ b : Nat, b < t → start1.getD b 0 ≤ start1.getD (b + 1) 0)
    (hm : m < t) (hm0 : m0 < t) (hne : m ≠ m0)
    (h0 : start1.getD m0 0 ≤ (j : Int) ∧ (j : Int) < start1.getD (m0 + 1) 0) :
    ¬ (start1.getD m 0 ≤ (j : Int) ∧ (j : Int) < start1.getD (m + 1) 0) := by
  intro h
  rcases Nat.lt_or_gt_of_ne hne with hlt | hgt
  · have := mono_chain start1 t hmono (m + 1) m0 (by omega) (by omega)
    omega
  · have := mono_chain start1 t hmono (m0 + 1) m (by omega) (by omega)
    omega

theorem indicator_step (c : Prop) [Decidable c] (a yB yyB k : Nat) :
    (if c ∧ a < k + 1 ∧ a ≠ yB ∧ a ≠ yyB then (1 : ℚ) else 0) =
      (if c ∧ a < k ∧ a ≠ yB ∧ a ≠ yyB then 1 else 0) +
        (if (k ≠ yB ∧ k ≠ yyB) ∧ k = a ∧ c then 1 else 0) := by
  by_cases hc : c
  · rcases Nat.lt_trichotomy a k with h | h | h
    · have h1 : a < k + 1 := by omega
      have h2 : ¬ k = a := by omega
      simp [hc, h, h1, h2]
    · subst h
      simp [hc]
    · have h1 : ¬ a < k + 1 := by omega
      have h2 : ¬ a < k := by omega
      have h3 : ¬ k = a := by omega
      simp [hc, h1, h2, h3]
  · simp [hc]

/-- The effect of one bucket loop on a position `j` of bucket `m0`. -/
theorem Solver_MB.add_bucket_at (s : Solver_MB) (QB_i : Int → ℚ) (m m0 j : Nat) (t : ℚ)
    (G : List ℚ)
    (hmono : ∀ b : Nat, b < s.nr_class * s.nr_class →
      s.start1.getD b 0 ≤ s.start1.getD (b + 1) 0)
    (hm : m < s.nr_class * s.nr_class) (hm0 : m0 < s.nr_class * s.nr_class)
    (h0 : s.start1.getD m0 0 ≤ (j : Int) ∧ (j : Int) < s.start1.getD (m0 + 1) 0)
    (hj : j < G.length) :
    (s.add_bucket QB_i (m : Int) t G).length = G.length ∧
    (s.add_bucket QB_i (m : Int) t G).getD j 0 =
      G.getD j 0 + (if m = m0 then 1 else 0) * (t * QB_i (s.real_i.getD j 0)) := by
  obtain ⟨k1, k2⟩ := s.add_bucket_spec QB_i m t G
  refine ⟨k1, ?_⟩
  rw [k2 j]
  by_cases e : m = m0
  · subst e
    rw [if_pos ⟨h0.1, h0.2, hj⟩, if_pos rfl, one_mul]
  · have := bucket_ranges_disjoint s.start1 _ m m0 j hmono hm hm0 e h0
    rw [if_neg (fun h => this ⟨h.1, h.2.1⟩), if_neg e, zero_mul, add_zero]

theorem Solver_MB.sub_bucket_at (s : Solver_MB) (QB_i : Int → ℚ) (m m0 j : Nat) (t : ℚ)
    (G : List ℚ)
    (hmono : ∀ b : Nat, b < s.nr_class * s.nr_class →
      s.start1.getD b 0 ≤ s.start1.getD (b + 1) 0)
    (hm : m < s.nr_class * s.nr_class) (hm0 : m0 < s.nr_class * s.nr_class)
    (h0 : s.start1.getD m0 0 ≤ (j : Int) ∧ (j : Int) < s.start1.getD (m0 + 1) 0)
    (hj : j < G.length) :
    (s.sub_bucket QB_i (m : Int) t G).length = G.length ∧
    (s.sub_bucket QB_i (m : Int) t G).getD j 0 =
      G.getD j 0 - (if m = m0 then 1 else 0) * (t * QB_i (s.real_i.getD j 0)) := by
  obtain ⟨k1, k2⟩ := s.sub_bucket_spec QB_i m t G
  refine ⟨k1, ?_⟩
  rw [k2 j]
  by_cases e : m = m0
  · subst e
    rw [if_pos ⟨h0.1, h0.2, hj⟩, if_pos rfl, one_mul]
  · have := bucket_ranges_disjoint s.start1 _ m m0 j hmono hm hm0 e h0
    rw [if_neg (fun h => this ⟨h.1, h.2.1⟩), if_neg e, zero_mul, sub_zero]

theorem flat_eq_iff (nr i j i2 j2 : Nat) (hj : j < nr) (hj2 : j2 < nr) :
    i2 * nr + j2 = i * nr + j ↔ i2 = i ∧ j2 = j :=
  ⟨flat_inj nr i j i2 j2 hj hj2, fun h => by rw [h.1, h.2]⟩

/-- The update of `G` for one changed variable with labels `(yB, yyB)`, at a position `j` of
the active range of bucket `(a, b)`. -/
theorem Solver_MB.update_G_buckets_at (s : Solver_MB) (QB_i : Int → ℚ) (d : ℚ)
    (yB yyB a b j : Nat) (hy : yB < s.nr_class) (hyy : yyB < s.nr_class)
    (ha : a < s.nr_class) (hb : b < s.nr_class)
    (hmono : ∀ m : Nat, m < s.nr_class * s.nr_class →
      s.start1.getD m 0 ≤ s.start1.getD (m + 1) 0)
    (hin : s.start1.getD (a * s.nr_class + b) 0 ≤ (j : Int) ∧
      (j : Int) < s.start1.getD (a * s.nr_class + b + 1) 0)
    (hj : j < s.G.length) :
    (s.update_G_buckets QB_i d (yB : Int) (yyB : Int)).getD j 0 =
      s.G.getD j 0 +
        (2 * (if yyB = a ∧ yB = b then (1 : ℚ) else 0) -
          2 * (if yB = a ∧ yyB = b then 1 else 0) +
          (if yB = b ∧ a ≠ yB ∧ a ≠ yyB then 1 else 0) +
          (if yyB = a ∧ b ≠ yB ∧ b ≠ yyB then 1 else 0) -
          (if yB = a ∧ b ≠ yB ∧ b ≠ yyB then 1 else 0) -
          (if yyB = b ∧ a ≠ yB ∧ a ≠ yyB then 1 else 0)) *
        (d * QB_i (s.real_i.getD j 0)) := by
  set nr := s.nr_class with hnr
  set q := QB_i (s.real_i.getD j 0) with hq
  have hm0 := flat_lt nr a b ha hb
  unfold Solver_MB.update_G_buckets
  simp only []
  rw [← hnr]
  have c1 : ((yyB : Int) * (nr : Int) + (yB : Int)) = ((yyB * nr + yB : Nat) : Int) := by
    push_cast; ring
  have c2 : ((yB : Int) * (nr : Int) + (yyB : Int)) = ((yB * nr + yyB : Nat) : Int) := by
    push_cast; ring
  rw [c1, c2]
  obtain ⟨l1, g1⟩ := s.add_bucket_at QB_i (yyB * nr + yB) (a * nr + b) j (2 * d) s.G hmono
    (flat_lt nr yyB yB hyy hy) hm0 hin hj
  obtain ⟨l2, g2⟩ := s.sub_bucket_at QB_i (yB * nr + yyB) (a * nr + b) j (2 * d)
    (s.add_bucket QB_i ((yyB * nr + yB : Nat) : Int) (2 * d) s.G) hmono
    (flat_lt nr yB yyB hy hyy) hm0 hin (by rw [l1]; exact hj)
  rw [g1] at g2
  generalize s.sub_bucket QB_i ((yB * nr + yyB : Nat) : Int) (2 * d)
    (s.add_bucket QB_i ((yyB * nr + yB : Nat) : Int) (2 * d) s.G) = G2 at l2 g2 ⊢
  rw [l1] at l2
  have key := for_loop_induction
    (fun m (G : List ℚ) => G.length = s.G.length ∧ G.getD j 0 = G2.getD j 0 +
      ((if yB = b ∧ a < m ∧ a ≠ yB ∧ a ≠ yyB then (1 : ℚ) else 0) +
        (if yyB = a ∧ b < m ∧ b ≠ yB ∧ b ≠ yyB then 1 else 0) -
        (if yB = a ∧ b < m ∧ b ≠ yB ∧ b ≠ yyB then 1 else 0) -
        (if yyB = b ∧ a < m ∧ a ≠ yB ∧ a ≠ yyB then 1 else 0)) * (d * q))
    0 nr
    (fun k G =>
      if (k : Int) ≠ (yB : Int) ∧ (k : Int) ≠ (yyB : Int) then
        let G3 := s.add_bucket QB_i ((k : Int) * (nr : Int) + (yB : Int)) d G
        let G4 := s.add_bucket QB_i ((yyB : Int) * (nr : Int) + (k : Int)) d G3
        let G5 := s.sub_bucket QB_i ((yB : Int) * (nr : Int) + (k : Int)) d G4
        s.sub_bucket QB_i ((k : Int) * (nr : Int) + (yyB : Int)) d G5
      else G) G2 (Nat.zero_le _) ⟨l2, by simp⟩ ?_
  · rw [key.2, g2]
    simp only [flat_eq_iff nr a b yyB yB hb hy, flat_eq_iff nr a b yB yyB hb hyy, ha, hb,
      true_and]
    ring
  · intro k G _ hk ⟨hl, hg⟩
    beta_reduce
    rw [indicator_step (yB = b) a yB yyB k, indicator_step (yyB = a) b yB yyB k,
      indicator_step (yB = a) b yB yyB k, indicator_step (yyB = b) a yB yyB k]
    by_cases hset : (k : Int) ≠ (yB : Int) ∧ (k : Int) ≠ (yyB : Int)
    · have hset' : k ≠ yB ∧ k ≠ yyB := ⟨fun e => hset.1 (by rw [e]), fun e => hset.2 (by rw [e])⟩
      rw [if_pos hset]
      simp only []
      have d1 : ((k : Int) * (nr : Int) + (yB : Int)) = ((k * nr + yB : Nat) : Int) := by
        push_cast; ring
      have d2 : ((yyB : Int) * (nr : Int) + (k : Int)) = ((yyB * nr + k : Nat) : Int) := by
        push_cast; ring
      have d3 : ((yB : Int) * (nr : Int) + (k : Int)) = ((yB * nr + k : Nat) : Int) := by
        push_cast; ring
      have d4 : ((k : Int) * (nr : Int) + (yyB : Int)) = ((k * nr + yyB : Nat) : Int) := by
        push_cast; ring
      rw [d1, d2, d3, d4]
      obtain ⟨m1, e1⟩ := s.add_bucket_at QB_i (k * nr + yB) (a * nr + b) j d G hmono
        (flat_lt nr k yB hk hy) hm0 hin (by rw [hl]; exact hj)
      obtain ⟨m2, e2⟩ := s.add_bucket_at QB_i (yyB * nr + k) (a * nr + b) j d _ hmono
        (flat_lt nr yyB k hyy hk) hm0 hin (by rw [m1, hl]; exact hj)
      obtain ⟨m3, e3⟩ := s.sub_bucket_at QB_i (yB * nr + k) (a * nr + b) j d _ hmono
        (flat_lt nr yB k hy hk) hm0 hin (by rw [m2, m1, hl]; exact hj)
      obtain ⟨m4, e4⟩ := s.sub_bucket_at QB_i (k * nr + yyB) (a * nr + b) j d _ hmono
        (flat_lt nr k yyB hk hyy) hm0 hin (by rw [m3, m2, m1, hl]; exact hj)
      refine ⟨by rw [m4, m3, m2, m1, hl], ?_⟩
      rw [e4, e3, e2, e1, hg]
      simp only [flat_eq_iff nr a b k yB hb hy, flat_eq_iff nr a b yyB k hb hk,
        flat_eq_iff nr a b yB k hb hk, flat_eq_iff nr a b k yyB hb hyy, hset', true_and,
        ne_eq, not_false_eq_true, and_self]
      have w1 : (yyB = a ∧ k = b) ↔ (k = b ∧ yyB = a) := and_comm
      have w2 : (yB = a ∧ k = b) ↔ (k = b ∧ yB = a) := and_comm
      simp only [w1, w2]
      ring
    · have hset' : ¬ (k ≠ yB ∧ k ≠ yyB) := by
        intro h
        exact hset ⟨fun e => h.1 (by exact_mod_cast e), fun e => h.2 (by exact_mod_cast e)⟩
      rw [if_neg hset]
      refine ⟨hl, ?_⟩
      rw [hg]
      simp only [hset', false_and, if_false, add_zero]

theorem bucket_scalar_eq_yyy (yB yyB a b : Nat) (hne : yB ≠ yyB) (hab : a ≠ b) :
    bucket_scalar yB yyB a b = Solver_MB.yyy (yB : Int) (yyB : Int) (b : Int) (a : Int) := by
  unfold bucket_scalar Solver_MB.yyy
  simp only [Nat.cast_inj]
  split_ifs <;> omega

theorem bucket_scalar_cast (yB yyB a b : Nat) (hne : yB ≠ yyB) (hab : a ≠ b) :
    ((bucket_scalar yB yyB a b : Int) : ℚ) =
      2 * (if yyB = a ∧ yB = b then (1 : ℚ) else 0) -
        2 * (if yB = a ∧ yyB = b then 1 else 0) +
        (if yB = b ∧ a ≠ yB ∧ a ≠ yyB then 1 else 0) +
        (if yyB = a ∧ b ≠ yB ∧ b ≠ yyB then 1 else 0) -
        (if yB = a ∧ b ≠ yB ∧ b ≠ yyB then 1 else 0) -
        (if yyB = b ∧ a ≠ yB ∧ a ≠ yyB then 1 else 0) := by
  unfold bucket_scalar
  have s1 : (b = yB) = (yB = b) := propext eq_comm
  have s2 : (a = yyB) = (yyB = a) := propext eq_comm
  have s3 : (a = yB) = (yB = a) := propext eq_comm
  have s4 : (b = yyB) = (yyB = b) := propext eq_comm
  simp only [s1, s2, s3, s4, ne_eq]
  by_cases h1 : yB = b <;> by_cases h2 : yyB = a <;> by_cases h3 : yB = a <;>
    by_cases h4 : yyB = b <;> simp [h1, h2, h3, h4, hab, Ne.symm hab] <;> omega

/-- C37: in the update of `G` of `Solver_MB::Solve` for a changed variable with labels
`(yB, yyB)`, `yB ≠ yyB`, every position `j` of the active range of a bucket `(a, b)`,
`a ≠ b`, receives `G[j] += c * (d * QB_i[real_i[j]])` where the scalar `c` is the one that
the specification lists (`+2`, `-2`, `+1`, `-1` or no update), and `c` equals
`yyy(yB, yyB, b, a)`, which is the coefficient of the sub-problem matrix for the changed
variable and a variable with the labels `y = b`, `yy = a` of the bucket. -/
theorem bucketed_update_coefficient (s : Solver_MB) (QB_i : Int → ℚ) (d : ℚ)
    (yB yyB a b j : Nat) (hy : yB < s.nr_class) (hyy : yyB < s.nr_class) (hne : yB ≠ yyB)
    (ha : a < s.nr_class) (hb : b < s.nr_class) (hab : a ≠ b)
    (hmono : ∀ m : Nat, m < s.nr_class * s.nr_class →
      s.start1.getD m 0 ≤ s.start1.getD (m + 1) 0)
    (hin : s.start1.getD (a * s.nr_class + b) 0 ≤ (j : Int) ∧
      (j : Int) < s.start1.getD (a * s.nr_class + b + 1) 0)
    (hj : j < s.G.length) :
    (s.update_G_buckets QB_i d (yB : Int) (yyB : Int)).getD j 0 =
      s.G.getD j 0 + (bucket_scalar yB yyB a b : ℚ) * (d * QB_i (s.real_i.getD j 0)) ∧
    bucket_scalar yB yyB a b = Solver_MB.yyy (yB : Int) (yyB : Int) (b : Int) (a : Int) ∧
    ∀ Bi : Nat, s.y.getD Bi 0 = (yB : Int) → s.yy.getD Bi 0 = (yyB : Int) →
      s.y.getD j 0 = (b : Int) → s.yy.getD j 0 = (a : Int) →
      s.pair_coefficient Bi j = bucket_scalar yB yyB a b := by
  refine ⟨?_, bucket_scalar_eq_yyy yB yyB a b hne hab, ?_⟩
  · rw [Solver_MB.update_G_buckets_at s QB_i d yB yyB a b j hy hyy ha hb hmono hin hj,
      bucket_scalar_cast yB yyB a b hne hab]
  · intro Bi h1 h2 h3 h4
    rw [Solver_MB.pair_coefficient, h1, h2, h3, h4, bucket_scalar_eq_yyy yB yyB a b hne hab]

theorem bucketed_update_coefficient_witness :
    (mb_flat.update_G_buckets (fun _ => 1) 1 ((1 : Nat) : Int) ((0 : Nat) : Int)).getD 1 0 =
      mb_flat.G.getD 1 0 +
        (bucket_scalar 1 0 0 2 : ℚ) * (1 * (fun _ => (1 : ℚ)) (mb_flat.real_i.getD 1 0)) ∧
    bucket_scalar 1 0 0 2 =
      Solver_MB.yyy ((1 : Nat) : Int) ((0 : Nat) : Int) ((2 : Nat) : Int) ((0 : Nat) : Int) ∧
    ∀ Bi : Nat, mb_flat.y.getD Bi 0 = ((1 : Nat) : Int) →
      mb_flat.yy.getD Bi 0 = ((0 : Nat) : Int) →
      mb_flat.y.getD 1 0 = ((2 : Nat) : Int) → mb_flat.yy.getD 1 0 = ((0 : Nat) : Int) →
      mb_flat.pair_coefficient Bi 1 = bucket_scalar 1 0 0 2 :=
  bucketed_update_coefficient mb_flat (fun _ => 1) 1 1 0 0 2 1 (by decide) (by decide)
    (by decide) (by decide) (by decide) (by decide) (by decide) (by decide) (by decide)

theorem mb_flat_update :
    mb_flat.update_G_buckets (fun _ => 1) 1 1 0 = [2, 1, -2, -1, -1, 1] ∧
    (List.range 6).map (fun j => mb_flat.pair_coefficient 0 j) = [2, 1, -2, -1, -1, 1] := by
  decide!

/-! ## The sub-problem and the selection of `Solver_SPOC` -/

theorem prefix_loop_le (rest : List ℚ) : ∀ (phi : ℚ) (r : Nat),
    (prefix_loop phi r rest).2 ≤ r + rest.length := by
  induction rest with
  | nil => intro phi r; simp [prefix_loop]
  | cons d rest ih =>
    intro phi r
    simp only [prefix_loop]
    split_ifs
    · have := ih (phi + d) (r + 1)
      simp only [List.length_cons]
      omega
    · simp

/-- The prefix loop with a strict start: every accepted entry stays strictly above the
running mean. -/
theorem prefix_loop_strict (AC : ℚ) : ∀ (rest P : List ℚ) (phi : ℚ),
    P ≠ [] → phi = P.sum - AC → (P ++ rest).Sorted (fun a b => a ≥ b) →
    (∀ x, x ∈ P → phi < (P.length : ℚ) * x) →
    ∃ P1 rest1, P ++ rest = P1 ++ rest1 ∧
      P1.length = (prefix_loop phi (P.length - 1) rest).2 + 1 ∧
      (prefix_loop phi (P.length - 1) rest).1 = P1.sum - AC ∧
      (∀ x, x ∈ P1 → (prefix_loop phi (P.length - 1) rest).1 < (P1.length : ℚ) * x) ∧
      (∀ x, x ∈ rest1 → (P1.length : ℚ) * x ≤ (prefix_loop phi (P.length - 1) rest).1) := by
  intro rest
  induction rest with
  | nil =>
    intro P phi hP hphi _ hle
    have hlen : 0 < P.length := List.length_pos.mpr hP
    refine ⟨P, [], rfl, ?_, hphi, hle, fun x hx => absurd hx (List.not_mem_nil _)⟩
    simp only [prefix_loop]; omega
  | cons d rest ih =>
    intro P phi hP hphi hs hle
    have hlen : 0 < P.length := List.length_pos.mpr hP
    have hcast : ((P.length - 1 : Nat) : ℚ) + 1 = (P.length : ℚ) := by
      have : P.length - 1 + 1 = P.length := by omega
      exact_mod_cast this
    simp only [prefix_loop]
    rw [hcast]
    have hsort := List.pairwise_append.mp hs
    by_cases ht : phi < (P.length : ℚ) * d
    · rw [if_pos ht]
      have e1 : P.length - 1 + 1 = (P ++ [d]).length - 1 := by
        rw [List.length_append, List.length_singleton]; omega
      rw [e1]
      have e2 : P ++ d :: rest = (P ++ [d]) ++ rest := by simp
      rw [e2]
      apply ih (P ++ [d]) (phi + d) (by simp)
      · rw [List.sum_append, List.sum_singleton, hphi]; ring
      · rw [← e2]; exact hs
      · intro x hx
        rw [List.length_append, List.length_singleton]
        push_cast
        rcases List.mem_append.mp hx with hx | hx
        · have h1 := hle x hx
          have h2 : x ≥ d := hsort.2.2 x hx d (List.mem_cons_self _ _)
          linarith
        · rw [List.mem_singleton] at hx
          subst hx
          linarith
    · rw [if_neg ht]
      refine ⟨P, d :: rest, rfl, by omega, hphi, hle, fun x hx => ?_⟩
      have hxd : x ≤ d := by
        rcases List.mem_cons.mp hx with rfl | hx'
        · exact le_refl _
        · exact (List.pairwise_cons.mp hsort.2.1).1 x hx'
      have hn : (0 : ℚ) ≤ (P.length : ℚ) := Nat.cast_nonneg _
      have := mul_le_mul_of_nonneg_left hxd hn
      linarith [not_lt.mp ht]

theorem filter_accepted (P R : List ℚ) (phi : ℚ) (hP : ∀ x ∈ P, phi < x)
    (hR : ∀ x ∈ R, x ≤ phi) : (P ++ R).filter (fun x => decide (phi < x)) = P := by
  rw [List.filter_append]
  have h1 : P.filter (fun x => decide (phi < x)) = P := by
    rw [List.filter_eq_self]
    intro x hx
    simpa using hP x hx
  have h2 : R.filter (fun x => decide (phi < x)) = [] := by
    rw [List.filter_eq_nil_iff]
    intro x hx
    simpa using hR x hx
  rw [h1, h2, List.append_nil]

/-- The accepted prefix of `solve_sub_problem`: the first `r + 1` entries of the sorted array
are not below the cutoff and the others are not above it; they are strictly above it when
`A*C > 0`. -/
theorem Solver_SPOC.accepted_spec (A : ℚ) (B : List ℚ) (C : ℚ) (hB : B ≠ [])
    (hAC : 0 ≤ A * C) :
    Solver_SPOC.last_accepted A B C + 1 ≤ B.length ∧
    (∀ x ∈ (compar_sort B).take (Solver_SPOC.last_accepted A B C + 1),
      Solver_SPOC.cutoff A B C ≤ x) ∧
    (∀ x ∈ (compar_sort B).drop (Solver_SPOC.last_accepted A B C + 1),
      x ≤ Solver_SPOC.cutoff A B C) ∧
    (0 < A * C → ∀ x ∈ (compar_sort B).take (Solver_SPOC.last_accepted A B C + 1),
      Solver_SPOC.cutoff A B C < x) := by
  have hperm : (compar_sort B).Perm B := List.perm_insertionSort _ B
  have hsorted : (compar_sort B).Sorted (fun a b => a ≥ b) :=
    List.sorted_insertionSort (fun a b => a ≥ b) B
  have hlenD : (compar_sort B).length = B.length := hperm.length_eq
  unfold Solver_SPOC.cutoff Solver_SPOC.last_accepted
  simp only []
  cases hD : compar_sort B with
  | nil =>
    rw [hD] at hperm
    exact absurd hperm.symm.eq_nil hB
  | cons d0 tail =>
    rw [hD] at hsorted hlenD
    simp only [List.headD_cons, List.tail_cons]
    obtain ⟨P1, rest1, e, hlen, hphi, hP, hR⟩ := prefix_loop_spec (A * C) tail [d0]
      (d0 - A * C) (by simp) (by simp) hsorted
      (by
        intro x hx
        rw [List.mem_singleton] at hx
        subst hx
        simp only [List.length_singleton, Nat.cast_one, one_mul]
        linarith)
    have hstrict : 0 < A * C → ∀ x, x ∈ P1 →
        (prefix_loop (d0 - A * C) 0 tail).1 < (P1.length : ℚ) * x := by
      intro hpos
      obtain ⟨P2, rest2, e', hlen', -, hP', -⟩ := prefix_loop_strict (A * C) tail [d0]
        (d0 - A * C) (by simp) (by simp) hsorted
        (by
          intro x hx
          rw [List.mem_singleton] at hx
          subst hx
          simp only [List.length_singleton, Nat.cast_one, one_mul]
          linarith)
      simp only [List.length_singleton, Nat.sub_self] at hlen hlen' hP'
      have hl : P2.length = P1.length := by rw [hlen, hlen']
      have hP12 : P2 = P1 := by
        have := congrArg (List.take P1.length) (e.symm.trans e')
        rw [List.take_left' rfl, List.take_left' hl] at this
        exact this.symm
      rw [hP12] at hP'
      exact hP'
    simp only [List.length_singleton, Nat.sub_self] at hlen hphi hP hR
    simp only [List.singleton_append] at e
    generalize prefix_loop (d0 - A * C) 0 tail = res at hlen hphi hP hR hstrict ⊢
    have hn : ((res.2 : ℚ) + 1) = (P1.length : ℚ) := by
      rw [hlen]; push_cast; ring
    have hpos : (0 : ℚ) < (P1.length : ℚ) := by
      rw [← hn]; positivity
    have htake : (d0 :: tail).take (res.2 + 1) = P1 := by
      rw [e, ← hlen, List.take_left' rfl]
    have hdrop : (d0 :: tail).drop (res.2 + 1) = rest1 := by
      rw [e, ← hlen, List.drop_left' rfl]
    rw [htake, hdrop, hn]
    refine ⟨?_, ?_, ?_, ?_⟩
    · rw [← hlenD, e, List.length_append, ← hlen]; omega
    · intro x hx
      rw [div_le_iff₀ hpos]
      have := hP x hx
      linarith
    · intro x hx
      rw [le_div_iff₀ hpos]
      have := hR x hx
      linarith
    · intro hAC' x hx
      rw [div_lt_iff₀ hpos]
      have := hstrict hAC' x hx
      linarith

theorem Solver_SPOC.solve_sub_problem_nonpos (A : ℚ) (B : List ℚ) (C : ℚ) (hA : 0 < A)
    (m : Nat) : (Solver_SPOC.solve_sub_problem A B C).getD m 0 ≤ 0 := by
  unfold Solver_SPOC.solve_sub_problem
  rw [List.getD_eq_getElem?_getD, List.getElem?_map]
  cases hm : B[m]? with
  | none => simp
  | some b =>
    simp only [Option.map_some', Option.getD_some]
    exact div_nonpos_of_nonpos_of_nonneg (min_le_left _ _) (le_of_lt hA)

theorem list_sum_pos (L : List Nat) (f : Nat → ℚ) (h0 : ∀ m ∈ L, 0 ≤ f m)
    (h1 : ∃ m ∈ L, 0 < f m) : 0 < (L.map f).sum := by
  induction L with
  | nil => obtain ⟨m, hm, _⟩ := h1; exact absurd hm (List.not_mem_nil _)
  | cons a L ih =>
    rw [List.map_cons, List.sum_cons]
    have hrest : 0 ≤ (L.map f).sum :=
      List.sum_nonneg (by
        intro x hx
        rw [List.mem_map] at hx
        obtain ⟨m, hm, rfl⟩ := hx
        exact h0 m (List.mem_cons_of_mem _ hm))
    obtain ⟨m, hm, hpos⟩ := h1
    rcases List.mem_cons.mp hm with rfl | hm'
    · linarith
    · have := ih (fun k hk => h0 k (List.mem_cons_of_mem _ hk)) ⟨m, hm', hpos⟩
      have := h0 a (List.mem_cons_self _ _)
      linarith

/-- A simplex-feasible point has a free coordinate when the bounds are positive. -/
theorem Solver_SPOC.Feasible.free_coordinate {s : Solver_SPOC} {C : List ℚ} {i : Nat}
    (h : s.Feasible C i) (hC : ∀ m, m < s.nr_class → 0 < C.getD m 0) :
    ∃ m, m < s.nr_class ∧ s.alpha_status.getD (i * s.nr_class + m) false = true := by
  obtain ⟨⟨hy0, hy1⟩, hsum, hneg, hle, hst⟩ := h
  by_contra hno
  push_neg at hno
  have hall : ∀ m, m < s.nr_class →
      s.alpha.getD (i * s.nr_class + m) 0 ≥ Solver_SPOC.get_C s.y C i m := by
    intro m hm
    have h1 := hno m hm
    rw [hst m hm] at h1
    unfold Solver_SPOC.status_of at h1
    by_contra hlt
    rw [if_neg hlt] at h1
    exact h1 rfl
  have hyn : s.y.getD i 0 = (((s.y.getD i 0).toNat : Nat) : Int) :=
    (Int.toNat_of_nonneg hy0).symm
  have hynlt : (s.y.getD i 0).toNat < s.nr_class := by omega
  have hpos : 0 < ((List.range s.nr_class).map
      (fun m => s.alpha.getD (i * s.nr_class + m) 0)).sum := by
    apply list_sum_pos
    · intro m hm
      have hm' := List.mem_range.mp hm
      have := hall m hm'
      unfold Solver_SPOC.get_C at this
      split_ifs at this with hc
      · have := hC m hm'
        linarith
      · exact this
    · refine ⟨(s.y.getD i 0).toNat, List.mem_range.mpr hynlt, ?_⟩
      have := hall _ hynlt
      unfold Solver_SPOC.get_C at this
      rw [if_pos hyn] at this
      have := hC _ hynlt
      linarith
  linarith

/-- The inner loop of `select_working_set`: `lb` is the largest gradient entry of the point
and `ub` the smallest one over the free coordinates. -/
theorem Solver_SPOC.bounds_spec (s : Solver_SPOC) (i : Nat)
    (hfree : ∃ m, m < s.nr_class ∧ s.alpha_status.getD (i * s.nr_class + m) false = true) :
    ∃ L U : ℚ, s.bounds i = (Ext.fin L, Ext.fin U) ∧
      (∀ m, m < s.nr_class → s.G.getD (i * s.nr_class + m) 0 ≤ L) ∧
      (∃ m, m < s.nr_class ∧ s.G.getD (i * s.nr_class + m) 0 = L) ∧
      (∀ m, m < s.nr_class → s.alpha_status.getD (i * s.nr_class + m) false = true →
        U ≤ s.G.getD (i * s.nr_class + m) 0) ∧
      (∃ m, m < s.nr_class ∧ s.alpha_status.getD (i * s.nr_class + m) false = true ∧
        s.G.getD (i * s.nr_class + m) 0 = U) := by
  have key := for_loop_induction
    (fun n (p : Ext × Ext) =>
      (n = 0 → p.1 = Ext.neg_inf) ∧
      (0 < n → ∃ L, p.1 = Ext.fin L ∧
        (∀ m, m < n → s.G.getD (i * s.nr_class + m) 0 ≤ L) ∧
        ∃ m, m < n ∧ s.G.getD (i * s.nr_class + m) 0 = L) ∧
      ((∀ m, m < n → s.alpha_status.getD (i * s.nr_class + m) false = false) →
        p.2 = Ext.pos_inf) ∧
      ((∃ m, m < n ∧ s.alpha_status.getD (i * s.nr_class + m) false = true) →
        ∃ U, p.2 = Ext.fin U ∧
          (∀ m, m < n → s.alpha_status.getD (i * s.nr_class + m) false = true →
            U ≤ s.G.getD (i * s.nr_class + m) 0) ∧
          ∃ m, m < n ∧ s.alpha_status.getD (i * s.nr_class + m) false = true ∧
            s.G.getD (i * s.nr_class + m) 0 = U))
    0 s.nr_class
    (fun m p =>
      let g := s.G.getD (i * s.nr_class + m) 0
      (Ext.max_fin g p.1,
        if s.alpha_status.getD (i * s.nr_class + m) false then Ext.min_fin g p.2 else p.2))
    (Ext.neg_inf, Ext.pos_inf) (Nat.zero_le _)
    ⟨fun _ => rfl, fun h => absurd h (Nat.lt_irrefl _), fun _ => rfl,
      fun ⟨m, hm, _⟩ => absurd hm (Nat.not_lt_zero _)⟩ ?_
  · obtain ⟨m0, hm0, hf0⟩ := hfree
    have hn : 0 < s.nr_class := by omega
    obtain ⟨L, hL, hL1, hL2⟩ := key.2.1 hn
    obtain ⟨U, hU, hU1, hU2⟩ := key.2.2.2 ⟨m0, hm0, hf0⟩
    refine ⟨L, U, ?_, hL1, hL2, hU1, hU2⟩
    unfold Solver_SPOC.bounds
    exact Prod.ext hL hU
  · rintro n p - hn ⟨h1, h2, h3, h4⟩
    dsimp only
    refine ⟨fun h => absurd h (Nat.succ_ne_zero _), fun _ => ?_, ?_, ?_⟩
    · rcases Nat.eq_zero_or_pos n with h0 | hpos
      · rw [h1 h0]
        refine ⟨_, rfl, fun m hm => ?_, n, Nat.lt_succ_self _, rfl⟩
        have : m = n := by omega
        rw [this]
      · obtain ⟨L, hL, hL1, m1, hm1, hL2⟩ := h2 hpos
        rw [hL]
        refine ⟨_, rfl, fun m hm => ?_, ?_⟩
        · rcases Nat.lt_succ_iff_lt_or_eq.mp hm with hlt | heq
          · exact le_trans (hL1 m hlt) (le_max_right _ _)
          · rw [heq]; exact le_max_left _ _
        · rcases le_total (s.G.getD (i * s.nr_class + n) 0) L with hle | hle
          · exact ⟨m1, by omega, by rw [hL2, max_eq_right hle]⟩
          · exact ⟨n, Nat.lt_succ_self _, by rw [max_eq_left hle]⟩
    · intro hall
      have hn' := hall n (Nat.lt_succ_self _)
      rw [hn']
      simp only [Bool.false_eq_true, if_false]
      exact h3 (fun m hm => hall m (by omega))
    · rintro ⟨m1, hm1, hf1⟩
      by_cases hfn : s.alpha_status.getD (i * s.nr_class + n) false = true
      · rw [hfn]
        simp only [if_true]
        by_cases hprev : ∃ m, m < n ∧ s.alpha_status.getD (i * s.nr_class + m) false = true
        · obtain ⟨U, hU, hU1, m2, hm2, hf2, hU2⟩ := h4 hprev
          rw [hU]
          refine ⟨_, rfl, fun m hm hf => ?_, ?_⟩
          · rcases Nat.lt_succ_iff_lt_or_eq.mp hm with hlt | heq
            · exact le_trans (min_le_right _ _) (hU1 m hlt hf)
            · rw [heq]; exact min_le_left _ _
          · rcases le_total (s.G.getD (i * s.nr_class + n) 0) U with hle | hle
            · exact ⟨n, Nat.lt_succ_self _, hfn, by rw [min_eq_left hle]⟩
            · exact ⟨m2, by omega, hf2, by rw [hU2, min_eq_right hle]⟩
        · push_neg at hprev
          have hp2 := h3 (fun m hm => by
            have := hprev m hm
            simpa using this)
          rw [hp2]
          refine ⟨_, rfl, fun m hm hf => ?_, n, Nat.lt_succ_self _, hfn, rfl⟩
          rcases Nat.lt_succ_iff_lt_or_eq.mp hm with hlt | heq
          · exact absurd hf (hprev m hlt)
          · rw [heq]
      · have hfn' : s.alpha_status.getD (i * s.nr_class + n) false = false := by
          simpa using hfn
        rw [hfn']
        simp only [Bool.false_eq_true, if_false]
        have hm1' : m1 < n := by
          rcases Nat.lt_succ_iff_lt_or_eq.mp hm1 with hlt | heq
          · exact hlt
          · rw [heq] at hf1; exact absurd hf1 hfn
        obtain ⟨U, hU, hU1, m2, hm2, hf2, hU2⟩ := h4 ⟨m1, hm1', hf1⟩
        refine ⟨U, hU, fun m hm hf => ?_, m2, by omega, hf2, hU2⟩
        rcases Nat.lt_succ_iff_lt_or_eq.mp hm with hlt | heq
        · exact hU1 m hlt hf
        · rw [heq] at hf; exact absurd hf hfn

/-- The outer loop of `select_working_set` when the violation `lb - ub` of every point is a
number `w i`: the function returns the largest one and the first position that has it. -/
theorem Solver_SPOC.select_working_set_spoc (s : Solver_SPOC) (active_size q0 : Nat)
    (w : Nat → ℚ)
    (hw : ∀ i, i < active_size → Ext.sub (s.bounds i).1 (s.bounds i).2 = Ext.fin (w i))
    (h1 : 1 ≤ active_size) :
    (s.select_working_set active_size q0).2 < active_size ∧
    (s.select_working_set active_size q0).1 =
      Ext.fin (w (s.select_working_set active_size q0).2) ∧
    ∀ i, i < active_size → w i ≤ w (s.select_working_set active_size q0).2 := by
  have key := for_loop_induction
    (fun n (p : Ext × Nat) =>
      (n = 0 → p.1 = Ext.neg_inf) ∧
      (0 < n → p.2 < n ∧ p.1 = Ext.fin (w p.2) ∧ ∀ i, i < n → w i ≤ w p.2))
    0 active_size
    (fun i p =>
      let b := s.bounds i
      if Ext.lt p.1 (Ext.sub b.1 b.2) then (Ext.sub b.1 b.2, i) else p)
    (Ext.neg_inf, q0) (Nat.zero_le _)
    ⟨fun _ => rfl, fun h => absurd h (Nat.lt_irrefl _)⟩ ?_
  · exact key.2 (by omega)
  · rintro n p - hn ⟨h0, hpos⟩
    dsimp only
    rw [hw n hn]
    refine ⟨fun h => absurd h (Nat.succ_ne_zero _), fun _ => ?_⟩
    rcases Nat.eq_zero_or_pos n with hz | hp
    · rw [h0 hz]
      rw [if_pos (show Ext.lt Ext.neg_inf (Ext.fin (w n)) = true from rfl)]
      refine ⟨Nat.lt_succ_self _, rfl, fun i hi => ?_⟩
      have : i = n := by omega
      rw [this]
    · obtain ⟨hq, hv, hmax⟩ := hpos hp
      rw [hv]
      simp only [Ext.lt]
      by_cases hlt : w p.2 < w n
      · rw [if_pos (by simpa using hlt)]
        refine ⟨Nat.lt_succ_self _, rfl, fun i hi => ?_⟩
        rcases Nat.lt_succ_iff_lt_or_eq.mp hi with hi' | hi'
        · exact le_trans (hmax i hi') (le_of_lt hlt)
        · rw [hi']
      · rw [if_neg (by simpa using hlt)]
        refine ⟨by omega, hv, fun i hi => ?_⟩
        rcases Nat.lt_succ_iff_lt_or_eq.mp hi with hi' | hi'
        · exact hmax i hi'
        · rw [hi']; exact not_lt.mp hlt

/-- C36: when every `C[m]` is positive and every active point is simplex-feasible, every
active point has a free coordinate, and for `active_size ≥ 1`
`Solver_SPOC::select_working_set` assigns `q` a position below `active_size` and returns a
number `v ≥ 0`: for every active point `lb` is the largest of its gradient entries and `ub`
the smallest one over its free coordinates, `lb - ub ≤ v`, and `lb - ub = v` at the
point `q`. -/
theorem spoc_selects_a_point (s : Solver_SPOC) (C : List ℚ) (active_size q0 : Nat)
    (hC : ∀ m, m < s.nr_class → 0 < C.getD m 0)
    (hfeas : ∀ i, i < active_size → s.Feasible C i) (h1 : 1 ≤ active_size) :
    (∀ i, i < active_size →
      ∃ m, m < s.nr_class ∧ s.alpha_status.getD (i * s.nr_class + m) false = true) ∧
    ∃ v : ℚ, (s.select_working_set active_size q0).1 = Ext.fin v ∧ 0 ≤ v ∧
      (s.select_working_set active_size q0).2 < active_size ∧
      (∀ i, i < active_size → ∃ L U : ℚ, s.bounds i = (Ext.fin L, Ext.fin U) ∧
        (∀ m, m < s.nr_class → s.G.getD (i * s.nr_class + m) 0 ≤ L) ∧
        (∃ m, m < s.nr_class ∧ s.G.getD (i * s.nr_class + m) 0 = L) ∧
        (∀ m, m < s.nr_class → s.alpha_status.getD (i * s.nr_class + m) false = true →
          U ≤ s.G.getD (i * s.nr_class + m) 0) ∧
        (∃ m, m < s.nr_class ∧ s.alpha_status.getD (i * s.nr_class + m) false = true ∧
          s.G.getD (i * s.nr_class + m) 0 = U) ∧
        L - U ≤ v ∧ (i = (s.select_working_set active_size q0).2 → L - U = v)) := by
  have hfree : ∀ i, i < active_size →
      ∃ m, m < s.nr_class ∧ s.alpha_status.getD (i * s.nr_class + m) false = true :=
    fun i hi => (hfeas i hi).free_coordinate hC
  have hb : ∀ i, ∃ L U : ℚ, i < active_size → (s.bounds i = (Ext.fin L, Ext.fin U) ∧
      (∀ m, m < s.nr_class → s.G.getD (i * s.nr_class + m) 0 ≤ L) ∧
      (∃ m, m < s.nr_class ∧ s.G.getD (i * s.nr_class + m) 0 = L) ∧
      (∀ m, m < s.nr_class → s.alpha_status.getD (i * s.nr_class + m) false = true →
        U ≤ s.G.getD (i * s.nr_class + m) 0) ∧
      (∃ m, m < s.nr_class ∧ s.alpha_status.getD (i * s.nr_class + m) false = true ∧
        s.G.getD (i * s.nr_class + m) 0 = U)) := by
    intro i
    by_cases hi : i < active_size
    · obtain ⟨L, U, h⟩ := s.bounds_spec i (hfree i hi)
      exact ⟨L, U, fun _ => h⟩
    · exact ⟨0, 0, fun h => absurd h hi⟩
  choose L U hLU using hb
  have hw : ∀ i, i < active_size →
      Ext.sub (s.bounds i).1 (s.bounds i).2 = Ext.fin (L i - U i) := by
    intro i hi
    rw [(hLU i hi).1]
    rfl
  obtain ⟨hq, hv, hmax⟩ :=
    s.select_working_set_spoc active_size q0 (fun i => L i - U i) hw h1
  refine ⟨hfree, _, hv, ?_, hq, fun i hi => ?_⟩
  · obtain ⟨-, -, ⟨m1, hm1, hL⟩, hU1, ⟨m2, hm2, hf2, hU⟩⟩ := hLU _ hq
    obtain ⟨-, hL1, -, -, -⟩ := hLU _ hq
    have := hL1 m2 hm2
    rw [hU] at this
    show 0 ≤ L _ - U _
    linarith
  · obtain ⟨hbd, hL1, hL2, hU1, hU2⟩ := hLU i hi
    exact ⟨L i, U i, hbd, hL1, hL2, hU1, hU2, hmax i hi, fun e => by rw [e]⟩

theorem spoc_selects_a_point_witness :
    (∀ i, i < 2 →
      ∃ m, m < spoc_pair.nr_class ∧
        spoc_pair.alpha_status.getD (i * spoc_pair.nr_class + m) false = true) ∧
    ∃ v : ℚ, (spoc_pair.select_working_set 2 7).1 = Ext.fin v ∧ 0 ≤ v ∧
      (spoc_pair.select_working_set 2 7).2 < 2 ∧
      (∀ i, i < 2 → ∃ L U : ℚ, spoc_pair.bounds i = (Ext.fin L, Ext.fin U) ∧
        (∀ m, m < spoc_pair.nr_class → spoc_pair.G.getD (i * spoc_pair.nr_class + m) 0 ≤ L) ∧
        (∃ m, m < spoc_pair.nr_class ∧ spoc_pair.G.getD (i * spoc_pair.nr_class + m) 0 = L) ∧
        (∀ m, m < spoc_pair.nr_class →
          spoc_pair.alpha_status.getD (i * spoc_pair.nr_class + m) false = true →
          U ≤ spoc_pair.G.getD (i * spoc_pair.nr_class + m) 0) ∧
        (∃ m, m < spoc_pair.nr_class ∧
          spoc_pair.alpha_status.getD (i * spoc_pair.nr_class + m) false = true ∧
          spoc_pair.G.getD (i * spoc_pair.nr_class + m) 0 = U) ∧
        L - U ≤ v ∧ (i = (spoc_pair.select_working_set 2 7).2 → L - U = v)) :=
  spoc_selects_a_point spoc_pair [1, 1, 1] 2 7 (by decide!) (by decide!) (by decide)

theorem spoc_pair_selection :
    spoc_pair.select_working_set 2 7 = (Ext.fin 4, 1) ∧
    spoc_pair.bounds 0 = (Ext.fin 3, Ext.fin 3) ∧ spoc_pair.bounds 1 = (Ext.fin 5, Ext.fin 1) := by
  decide!

/-! ## The entry point `lala3` -/

/-- In the cases `C_SVC` and `EPSILON_SVR` of `lala3` the buffer of the caller is not
written, whatever the solver computes. -/
theorem lala3_keeps_buffer (E : svm_enums)
    (linear svr : ℚ → ℚ → List ℚ × List ℚ → List ℚ × List ℚ) (mb spoc : List ℚ → List ℚ)
    (x : List (List svm_node)) (prob_y : List ℚ) (n l : Nat) (param : svm_parameter)
    (alpha : List ℚ) (nr_class fuel : Nat) (r : lala3_result)
    (ht : param.svm_type = E.C_SVC ∨ param.svm_type = E.EPSILON_SVR)
    (h : lala3 E linear svr mb spoc x prob_y n l param alpha nr_class fuel = some r) :
    r.alpha = alpha := by
  unfold lala3 at h
  by_cases h1 : param.svm_type = E.C_SVC
  · rw [if_pos h1] at h
    split_ifs at h
    · split at h
      · exact absurd h (by simp)
      · simp only [Option.some.injEq] at h; rw [← h]
    · simp only [Option.some.injEq] at h; rw [← h]
  · have h2 : param.svm_type = E.EPSILON_SVR := ht.resolve_left h1
    rw [if_neg h1, if_pos h2] at h
    split_ifs at h
    · split at h
      · exact absurd h (by simp)
      · simp only [Option.some.injEq] at h; rw [← h]
    · simp only [Option.some.injEq] at h; rw [← h]

/-- In the cases `KBB` and `SPOC` of `lala3` the buffer of the caller holds the array that
the solver has filled. -/
theorem lala3_multiclass_buffer (E : svm_enums)
    (linear svr : ℚ → ℚ → List ℚ × List ℚ → List ℚ × List ℚ) (mb spoc : List ℚ → List ℚ)
    (x : List (List svm_node)) (prob_y : List ℚ) (n l : Nat) (param : svm_parameter)
    (alpha : List ℚ) (nr_class fuel : Nat)
    (h0 : param.svm_type ≠ E.C_SVC) (h3 : param.svm_type ≠ E.EPSILON_SVR)
    (ht : param.svm_type = E.KBB ∨ param.svm_type = E.SPOC) :
    ∃ r, lala3 E linear svr mb spoc x prob_y n l param alpha nr_class fuel = some r ∧
      r.solution = some r.alpha := by
  unfold lala3
  rw [if_neg h0, if_neg h3]
  by_cases h1 : param.svm_type = E.KBB
  · rw [if_pos h1]
    exact ⟨_, rfl, rfl⟩
  · rw [if_neg h1, if_pos (ht.resolve_left h1)]
    exact ⟨_, rfl, rfl⟩

/-- C31 (divergence): `lala3` is called with a buffer that holds the value 7 for the problem
of the single point `x = (1)`, label `+1`.  For box classification and for box regression
with the linear kernel the solver fills a local array (with the value `1/2` here) and the
buffer of the caller still holds 7 when `lala3` returns; with the RBF kernel no solver is called at
all.  For `KBB` and `SPOC` the buffer is zeroed and filled by the solver. -/
theorem lala3_discards_solution :
    lala3 sample_enums half_solver half_solver quarter_solver quarter_solver
      [[⟨1, 1⟩]] [1] 1 1 linear_param [7] 2 4 =
        some { alpha := [7], solution := some [1 / 2] } ∧
    lala3 sample_enums half_solver half_solver quarter_solver quarter_solver
      [[⟨1, 1⟩]] [1] 1 1 linear_regression_param [7] 2 4 =
        some { alpha := [7], solution := some [1 / 2, 1 / 2] } ∧
    lala3 sample_enums half_solver half_solver quarter_solver quarter_solver
      [[⟨1, 1⟩]] [1] 1 1 small_cache_param [7] 2 4 =
        some { alpha := [7], solution := none } ∧
    lala3 sample_enums half_solver half_solver quarter_solver quarter_solver
      [[⟨1, 1⟩]] [1] 1 1 kbb_param [7] 2 4 =
        some { alpha := [1 / 4], solution := some [1 / 4] } ∧
    lala3 sample_enums half_solver half_solver quarter_solver quarter_solver
      [[⟨1, 1⟩]] [1] 1 1 spoc_param [7, 7] 2 4 =
        some { alpha := [1 / 4, 1 / 4], solution := some [1 / 4, 1 / 4] } := by
  decide!


/-! ## The loop skeleton: gated invariants and the count of the calls of `do_shrinking` -/

/-- An invariant of the loop `while(1)` that `do_shrinking` has to keep only when shrinking
is enabled. -/
theorem loop_head_invariant_gated {σ : Type} (ops : SolverOps σ) (shrinking : Bool)
    (P R : σ → Prop)
    (hdo : shrinking = true → ∀ s, P s → P (ops.do_shrinking s))
    (hsel : ∀ s, P s → R (ops.select_working_set s).2)
    (hrec : ∀ s, R s → P (ops.full_active (ops.reconstruct_gradient s)))
    (hfail : ∀ s, R s → R (ops.recheck_failed s))
    (hupd : ∀ s, R s → P (ops.update s)) (n : Nat) :
    ∀ (s : σ) (c : Int) (s' : σ) (c' : Int), P s →
      loop_head ops shrinking n s c = some (s', c') → P s' := by
  induction n with
  | zero =>
    intro s c s' c' hP h
    simp only [loop_head, Option.some.injEq, Prod.mk.injEq] at h
    rw [← h.1]; exact hP
  | succ n ih =>
    intro s c s' c' hP h
    simp only [loop_head] at h
    cases hstep : Solve_iteration ops shrinking s c with
    | done t => rw [hstep] at h; exact absurd h (by simp)
    | next t c1 =>
      rw [hstep] at h
      refine ih t c1 s' c' ?_ h
      have hP1 : P (if c - 1 = 0 then (if shrinking then ops.do_shrinking s else s) else s) := by
        split_ifs with h1 h2
        · exact hdo h2 s hP
        · exact hP
        · exact hP
      unfold Solve_iteration at hstep
      exact convergence_check_invariant ops P R hsel hrec hfail hupd _ _ _ _ hP1 hstep

/-- The state in which the loop `while(1)` is left: some pass `n < fuel` starts in a state
`t` that satisfies the invariant, its first selection returns less than `eps`, and the exit
state is the result of the second selection, made after `reconstruct_gradient` and
`active_size = l`, which returned less than `eps` as well. -/
theorem Solve_loop_exit_gated {σ : Type} (ops : SolverOps σ) (shrinking : Bool)
    (P R : σ → Prop)
    (hdo : shrinking = true → ∀ s, P s → P (ops.do_shrinking s))
    (hsel : ∀ s, P s → R (ops.select_working_set s).2)
    (hrec : ∀ s, R s → P (ops.full_active (ops.reconstruct_gradient s)))
    (hfail : ∀ s, R s → R (ops.recheck_failed s))
    (hupd : ∀ s, R s → P (ops.update s)) (fuel : Nat) (s : σ) (c : Int) (s' : σ)
    (hP : P s) (h : Solve_loop ops shrinking fuel s c = some s') :
    ∃ (n : Nat) (t : σ) (ct : Int) (u : σ), n < fuel ∧
      loop_head ops shrinking n s c = some (t, ct) ∧
      u = (ops.select_working_set
        (if ct - 1 = 0 then (if shrinking then ops.do_shrinking t else t) else t)).2 ∧
      R u ∧
      (ops.select_working_set
        (if ct - 1 = 0 then (if shrinking then ops.do_shrinking t else t) else t)).1 <
          ops.eps u ∧
      s' = (ops.select_working_set (ops.full_active (ops.reconstruct_gradient u))).2 ∧
      (ops.select_working_set (ops.full_active (ops.reconstruct_gradient u))).1 <
        ops.eps s' ∧
      R s' := by
  obtain ⟨n, t, ct, hn, hhead, hdone⟩ := (Solve_loop_iff _ _ _ _ _ _).mp h
  have ht := loop_head_invariant_gated ops shrinking P R hdo hsel hrec hfail hupd n s c t ct
    hP hhead
  have hP1 : P (if ct - 1 = 0 then (if shrinking then ops.do_shrinking t else t) else t) := by
    split_ifs with h1 h2
    · exact hdo h2 t ht
    · exact ht
    · exact ht
  unfold Solve_iteration at hdone
  obtain ⟨e1, e2, e3⟩ := convergence_check_done _ _ _ _ hdone
  refine ⟨n, t, ct, _, hn, hhead, rfl, hsel _ hP1, e1, e2, e3, ?_⟩
  rw [e2]
  exact hsel _ (hrec _ (hsel _ hP1))

/-- One pass of the loop on the state with the number of calls: the pass of the loop on the
state, and one call more when the pass starts with `counter = 1` and shrinking is
enabled. -/
theorem Solve_iteration_counted {σ : Type} (ops : SolverOps σ) (shrinking : Bool) (s : σ)
    (n : Nat) (c : Int) :
    Solve_iteration (counted ops) shrinking (s, n) c =
      match Solve_iteration ops shrinking s c with
      | Step.done s' =>
        Step.done (s', n + (if c - 1 = 0 ∧ shrinking = true then 1 else 0))
      | Step.next s' c' =>
        Step.next (s', n + (if c - 1 = 0 ∧ shrinking = true then 1 else 0)) c' := by
  unfold Solve_iteration convergence_check counted
  by_cases hc : c - 1 = 0
  · cases shrinking
    · simp only [hc, if_true, Bool.false_eq_true, if_false, and_false, Nat.add_zero]
      split_ifs <;> rfl
    · simp only [hc, if_true, and_self]
      split_ifs <;> rfl
  · simp only [hc, if_false, false_and, Nat.add_zero]
    split_ifs <;> rfl

theorem Solver_B.shrink_loop_qpsize (n : Nat) : ∀ (s : Solver_B) (k : Nat) (Gm : ℚ),
    (Solver_B.shrink_loop n s k Gm).qpsize = s.qpsize := by
  induction n with
  | zero => intro s k Gm; rfl
  | succ n ih =>
    intro s k Gm
    simp only [Solver_B.shrink_loop]
    split_ifs <;> first | rfl | (rw [ih]; rfl) | (rw [ih])

theorem Solver_B.unshrink_loop_qpsize (n : Nat) : ∀ (s : Solver_B) (k : Int) (Gm : ℚ),
    (Solver_B.unshrink_loop n s k Gm).qpsize = s.qpsize := by
  induction n with
  | zero => intro s k Gm; rfl
  | succ n ih =>
    intro s k Gm
    simp only [Solver_B.unshrink_loop]
    split_ifs <;> first | rfl | (rw [ih]; rfl) | (rw [ih])

theorem Solver_B.reconstruct_gradient_qpsize (s : Solver_B) :
    s.reconstruct_gradient.qpsize = s.qpsize := by
  unfold Solver_B.reconstruct_gradient
  split <;> rfl

theorem Solver_B.do_shrinking_qpsize (s : Solver_B) : s.do_shrinking.qpsize = s.qpsize := by
  unfold Solver_B.do_shrinking
  dsimp only []
  split_ifs
  · rfl
  · rw [Solver_B.shrink_loop_qpsize]; rfl
  · rw [Solver_B.unshrink_loop_qpsize, Solver_B.reconstruct_gradient_qpsize]
    show (Solver_B.shrink_loop _ _ _ _).qpsize = _
    rw [Solver_B.shrink_loop_qpsize]; rfl

theorem Solver_B.update_qpsize (solvebqp : BQP → List ℚ) (shrinking : Bool) (s : Solver_B) :
    (Solver_B.update solvebqp shrinking s).qpsize = s.qpsize := by
  unfold Solver_B.update
  dsimp only []
  rw [(Solver_B.update_status_frame _ _ _).1]
  show (s.update_G _).qpsize = s.qpsize
  rw [(Solver_B.update_G_frame _ _).1]

/-- A pass of the loop of `Solver_B::Solve` that is not a convergence reset keeps `l` and
`qpsize`. -/
theorem Solver_B.steady_pass_frame (solvebqp : BQP → List ℚ) (shrinking : Bool)
    (s : Solver_B) (c : Int)
    (h : convergence_reset (Solver_B.ops solvebqp shrinking) shrinking s c = false) :
    ∃ s', Solve_iteration (Solver_B.ops solvebqp shrinking) shrinking s c =
        Step.next s' (if c - 1 = 0 then min ((s.l : Int) * 2 / s.qpsize) (2000 / s.qpsize)
          else c - 1) ∧
      s'.l = s.l ∧ s'.qpsize = s.qpsize := by
  unfold convergence_reset at h
  simp only [decide_eq_false_iff_not] at h
  unfold Solve_iteration convergence_check
  simp only []
  rw [if_neg h]
  refine ⟨_, rfl, ?_, ?_⟩
  · show (Solver_B.update solvebqp shrinking (Solver_B.select_working_set _).2).l = _
    rw [Solver_B.update_l]
    show (if c - 1 = 0 then (if shrinking = true then s.do_shrinking else s) else s).l = s.l
    split_ifs <;> first | rfl | exact Solver_B.do_shrinking_l s
  · show (Solver_B.update solvebqp shrinking (Solver_B.select_working_set _).2).qpsize = _
    rw [Solver_B.update_qpsize]
    show (if c - 1 = 0 then (if shrinking = true then s.do_shrinking else s) else s).qpsize =
      s.qpsize
    split_ifs <;> first | rfl | exact Solver_B.do_shrinking_qpsize s

/-- The number of calls of `do_shrinking` in the first `k` passes of the loop of
`Solver_B::Solve` with shrinking enabled, none of which is a convergence reset, from a head
with `counter = c`, `1 ≤ c ≤ v + 1`, where `v ≥ 1` is the reload value: `(k + v - c) / v`,
that is, one call in the pass number `c` and one in every `v`-th pass after it.  The states
and counters are those of the loop without the count. -/
theorem Solver_B.shrink_calls (solvebqp : BQP → List ℚ) (v : Nat) (hv : 1 ≤ v) :
    ∀ (k : Nat) (s : Solver_B) (n0 c : Nat),
      (v : Int) = min ((s.l : Int) * 2 / s.qpsize) (2000 / s.qpsize) →
      1 ≤ c → c ≤ v + 1 →
      steady (Solver_B.ops solvebqp true) true k s c = true →
      (loop_head (counted (Solver_B.ops solvebqp true)) true k (s, n0) c).map
          (fun r => r.1.2) = some (n0 + (k + v - c) / v) ∧
      (loop_head (counted (Solver_B.ops solvebqp true)) true k (s, n0) c).map
          (fun r => (r.1.1, r.2)) = loop_head (Solver_B.ops solvebqp true) true k s c := by
  intro k
  induction k with
  | zero =>
    intro s n0 c _ hc1 hc2 _
    simp only [loop_head, Option.map_some', Option.some.injEq]
    refine ⟨?_, trivial⟩
    have : (0 + v - c) / v = 0 := Nat.div_eq_of_lt (by omega)
    rw [this]; rfl
  | succ k ih =>
    intro s n0 c hvs hc1 hc2 hst
    simp only [steady, Bool.and_eq_true, Bool.not_eq_true'] at hst
    obtain ⟨s', hs', hl', hq'⟩ := Solver_B.steady_pass_frame solvebqp true s c hst.1
    have hcnt := Solve_iteration_counted (Solver_B.ops solvebqp true) true s n0 c
    rw [hs'] at hcnt hst
    simp only [loop_head, hcnt, hs']
    have hvs' : (v : Int) = min ((s'.l : Int) * 2 / s'.qpsize) (2000 / s'.qpsize) := by
      rw [hl', hq']; exact hvs
    by_cases hc : (c : Int) - 1 = 0
    · have hc0 : c = 1 := by omega
      subst hc0
      simp only [hc, if_true, and_self] at hst ⊢
      rw [← hvs] at hst ⊢
      obtain ⟨i1, i2⟩ := ih s' (n0 + 1) v hvs' hv (by omega) hst.2
      refine ⟨?_, i2⟩
      rw [i1]
      congr 1
      have e1 : (k + v - v) / v = k / v := by rw [Nat.add_sub_cancel]
      have e2 : (k + 1 + v - 1) / v = k / v + 1 := by
        have : k + 1 + v - 1 = k + v := by omega
        rw [this, Nat.add_div_right _ (by omega)]
      rw [e1, e2]; omega
    · have hc2' : 2 ≤ c := by omega
      simp only [hc, if_false, false_and, Nat.add_zero] at hst ⊢
      have hcast : ((c : Int) - 1) = ((c - 1 : Nat) : Int) := by omega
      rw [hcast] at hst ⊢
      obtain ⟨i1, i2⟩ := ih s' n0 (c - 1) hvs' (by omega) (by omega) hst.2
      refine ⟨?_, i2⟩
      rw [i1]
      have e : k + v - (c - 1) = k + 1 + v - c := by omega
      rw [e]
/-! ## The linear term and the order of the variables in a run of `Solver_B::Solve` -/

theorem Solver_B.Tracks_swap (s : Solver_B) (l : Nat) (y_ : List Int) (b_ : List ℚ)
    (i j a : Nat) (hi : i < l) (hj : j < l) (ha : a ≤ l) (h : s.Tracks l y_ b_) :
    Solver_B.Tracks { s.swap_index i j with active_size := a } l y_ b_ := by
  obtain ⟨h1, h2, h3⟩ := h
  obtain ⟨o1, o2, o3, o4⟩ := Solver_B.order_swap s l y_ i j a hi hj ha h1
  have hlen : s.active_set.length = l := by
    rw [h1.1.1.length_eq, List.length_range, h1.2.1]
  refine ⟨⟨o1, o2, o3, o4⟩, ?_, fun p hp => ?_⟩
  · show (swap_at s.b i j).length = l
    rw [length_swap_at, h2]
  · show (swap_at s.b i j).getD p 0 = b_.getD ((swap_at s.active_set i j).getD p 0) 0
    rw [swap_at_getD s.b i j p 0 (by omega) (by omega),
      swap_at_getD s.active_set i j p 0 (by omega) (by omega)]
    exact h3 _ (swap_pos_lt i j p l hi hj hp)

theorem Solver_B.Tracks_shrink_loop (l : Nat) (y_ : List Int) (b_ : List ℚ) (n : Nat) :
    ∀ (s : Solver_B) (k : Nat) (Gm : ℚ), s.Tracks l y_ b_ →
      (Solver_B.shrink_loop n s k Gm).Tracks l y_ b_ := by
  induction n with
  | zero => intro s k Gm h; exact h
  | succ n ih =>
    intro s k Gm h
    rw [Solver_B.shrink_loop_succ]
    by_cases hk : k < s.active_size
    · rw [if_pos hk]
      by_cases hr : s.shrink_rule Gm k = true
      · rw [if_pos hr]
        apply ih
        have hl := h.1.2.1
        have hA := h.1.2.2.1
        exact Solver_B.Tracks_swap s l y_ b_ k (s.active_size - 1) (s.active_size - 1)
          (by omega) (by omega) (by omega) h
      · rw [if_neg hr]
        exact ih s (k + 1) Gm h
    · rw [if_neg hk]; exact h

theorem Solver_B.Tracks_unshrink_loop (l : Nat) (y_ : List Int) (b_ : List ℚ) (n : Nat) :
    ∀ (s : Solver_B) (k : Int) (Gm : ℚ), k < l → s.Tracks l y_ b_ →
      (Solver_B.unshrink_loop n s k Gm).Tracks l y_ b_ := by
  induction n with
  | zero => intro s k Gm _ h; exact h
  | succ n ih =>
    intro s k Gm hkl h
    have hl := h.1.2.1
    have hmove : (k : Int) ≥ s.active_size →
        Solver_B.Tracks
          { s.swap_index k.toNat s.active_size with active_size := s.active_size + 1 }
          l y_ b_ := by
      intro hk
      exact Solver_B.Tracks_swap s l y_ b_ k.toNat s.active_size (s.active_size + 1)
        (by omega) (by omega) (by omega) h
    simp only [Solver_B.unshrink_loop, Solver_B.unshrink_one]
    by_cases hk : k ≥ (s.active_size : Int)
    · rw [if_pos hk]
      by_cases hlo : s.is_lower_bound k.toNat = true
      · rw [if_pos hlo]
        split_ifs
        · exact ih s (k - 1) Gm (by omega) h
        · exact ih _ k Gm hkl (hmove hk)
      · rw [if_neg hlo]
        by_cases hup : s.is_upper_bound k.toNat = true
        · rw [if_pos hup]
          split_ifs
          · exact ih s (k - 1) Gm (by omega) h
          · exact ih _ k Gm hkl (hmove hk)
        · rw [if_neg hup]
          exact ih s (k - 1) Gm (by omega) h
    · rw [if_neg hk]; exact h

theorem Solver_B.reconstruct_gradient_eq (s : Solver_B) :
    s.reconstruct_gradient = { s with G := s.reconstruct_gradient.G } := by
  unfold Solver_B.reconstruct_gradient
  split_ifs <;> rfl

theorem Solver_B.Tracks_reconstruct_gradient (s : Solver_B) (l : Nat) (y_ : List Int)
    (b_ : List ℚ) (h : s.Tracks l y_ b_) : s.reconstruct_gradient.Tracks l y_ b_ := by
  obtain ⟨h1, h2, h3⟩ := h
  have o := Solver_B.order_reconstruct_gradient s l y_ h1
  have e := Solver_B.reconstruct_gradient_eq s
  have eb : s.reconstruct_gradient.b = s.b := by rw [e]
  have ea : s.reconstruct_gradient.active_set = s.active_set := by rw [e]
  exact ⟨o, by rw [eb]; exact h2, fun p hp => by rw [eb, ea]; exact h3 p hp⟩

theorem Solver_B.Tracks_do_shrinking (s : Solver_B) (l : Nat) (y_ : List Int) (b_ : List ℚ)
    (h : s.Tracks l y_ b_) : s.do_shrinking.Tracks l y_ b_ := by
  have h0 : s.select_working_set.2.Tracks l y_ b_ := h
  unfold Solver_B.do_shrinking
  simp only []
  split_ifs
  · exact h0
  · exact Solver_B.Tracks_shrink_loop l y_ b_ _ _ _ _ h0
  · have h1 := Solver_B.Tracks_shrink_loop l y_ b_ s.select_working_set.2.active_size
      s.select_working_set.2 0 s.select_working_set.1 h0
    obtain ⟨s2, hs2⟩ : ∃ s2 : Solver_B, s2 = Solver_B.reconstruct_gradient
        { Solver_B.shrink_loop s.select_working_set.2.active_size s.select_working_set.2 0
            s.select_working_set.1 with unshrinked := true } := ⟨_, rfl⟩
    have h2 : s2.Tracks l y_ b_ := by
      rw [hs2]
      exact Solver_B.Tracks_reconstruct_gradient _ l y_ b_ h1
    rw [← hs2]
    exact Solver_B.Tracks_unshrink_loop l y_ b_ (s2.l - s2.active_size) s2 ((s2.l : Int) - 1)
      s.select_working_set.1 (by have := h2.1.2.1; omega) h2

/-- The update of one pass of the loop of `Solver_B::Solve` writes neither `b` nor
`active_set`. -/
theorem Solver_B.update_b (solvebqp : BQP → List ℚ) (shrinking : Bool) (s : Solver_B) :
    (Solver_B.update solvebqp shrinking s).b = s.b ∧
    (Solver_B.update solvebqp shrinking s).active_set = s.active_set := by
  unfold Solver_B.update
  dsimp only []
  constructor
  · rw [(Solver_B.update_status_frame _ _ _).1]
    show (s.update_G _).b = s.b
    rw [(Solver_B.update_G_frame _ _).1]
  · rw [(Solver_B.update_status_frame _ _ _).1]
    show (s.update_G _).active_set = s.active_set
    rw [(Solver_B.update_G_frame _ _).1]

theorem Solver_B.Tracks_update (solvebqp : BQP → List ℚ) (shrinking : Bool) (s : Solver_B)
    (l : Nat) (y_ : List Int) (b_ : List ℚ) (h : s.Tracks l y_ b_) :
    (Solver_B.update solvebqp shrinking s).Tracks l y_ b_ := by
  obtain ⟨h1, h2, h3⟩ := h
  obtain ⟨eb, ea⟩ := Solver_B.update_b solvebqp shrinking s
  exact ⟨Solver_B.order_update solvebqp shrinking s l y_ h1, by rw [eb]; exact h2,
    fun p hp => by rw [eb, ea]; exact h3 p hp⟩

/-- The state before the loop of `Solver_B::Solve` holds the caller's array `b_` as `b`. -/
theorem Solver_B.init_b (l : Nat) (Q : Nat → Nat → ℚ) (b_ : List ℚ) (y_ : List Int)
    (alpha_ : List ℚ) (Cp Cn eps : ℚ) (shrinking : Bool) (qpsize : Nat) :
    (Solver_B.init l Q b_ y_ alpha_ Cp Cn eps shrinking qpsize).b = b_ := by
  unfold Solver_B.init
  simp only []
  refine for_loop_induction (fun _ (t : Solver_B) => t.b = b_) 0 l _ _ (Nat.zero_le _) ?_ ?_
  · refine for_loop_induction (fun _ (t : Solver_B) => t.b = b_) 0 l _ _ (Nat.zero_le _) rfl ?_
    intro i t _ _ h
    unfold Solver_B.update_alpha_status
    split_ifs <;> exact h
  · intro i t _ _ h
    beta_reduce at h ⊢
    split_ifs <;> exact h

theorem Solver_B.Tracks_init (l : Nat) (Q : Nat → Nat → ℚ) (b_ : List ℚ) (y_ : List Int)
    (alpha_ : List ℚ) (Cp Cn eps : ℚ) (shrinking : Bool) (qpsize : Nat)
    (hb : b_.length = l) :
    (Solver_B.init l Q b_ y_ alpha_ Cp Cn eps shrinking qpsize).Tracks l y_ b_ := by
  obtain ⟨o1, o2⟩ := Solver_B.order_init l Q b_ y_ alpha_ Cp Cn eps shrinking qpsize
  have eb := Solver_B.init_b l Q b_ y_ alpha_ Cp Cn eps shrinking qpsize
  refine ⟨o2, by rw [eb]; exact hb, fun p hp => ?_⟩
  rw [eb, o1]
  have e : (List.range l).getD p 0 = p := by
    rw [List.getD_eq_getElem?_getD, List.getElem?_range hp]
    rfl
  rw [e]

/-- The state in which the loop of `Solver_B::Solve` is left on arrays of `l` entries keeps
the order of the run. -/
theorem Solver_B.Tracks_exit (solvebqp : BQP → List ℚ) (shrinking : Bool) (l : Nat)
    (Q : Nat → Nat → ℚ) (b_ : List ℚ) (y_ : List Int) (alpha_ : List ℚ) (Cp Cn eps : ℚ)
    (qpsize : Nat) (fuel : Nat) (c0 : Int) (s : Solver_B) (hb : b_.length = l)
    (h : Solve_loop (Solver_B.ops solvebqp shrinking) shrinking fuel
      (Solver_B.init l Q b_ y_ alpha_ Cp Cn eps shrinking qpsize) c0 = some s) :
    s.Tracks l y_ b_ := by
  obtain ⟨n, t, ct, u, -, -, -, -, -, -, -, hR⟩ :=
    Solve_loop_exit_gated (Solver_B.ops solvebqp shrinking) shrinking
      (fun s => s.Tracks l y_ b_) (fun s => s.Tracks l y_ b_)
      (fun _ u hu => Solver_B.Tracks_do_shrinking u l y_ b_ hu)
      (fun u hu => hu)
      (fun u hu => by
        obtain ⟨⟨r1, r2, _, r4⟩, r5, r6⟩ := Solver_B.Tracks_reconstruct_gradient u l y_ b_ hu
        exact ⟨⟨r1, r2, le_refl _, r4⟩, r5, r6⟩)
      (fun u hu => hu)
      (fun u hu => Solver_B.Tracks_update solvebqp shrinking u l y_ b_ hu)
      fuel _ c0 s (Solver_B.Tracks_init l Q b_ y_ alpha_ Cp Cn eps shrinking qpsize hb) h
  exact hR

/-- Without shrinking the loop of `Solver_B::Solve` is left with the array `b` as the caller
passed it. -/
theorem Solver_B.linear_term_kept (solvebqp : BQP → List ℚ) (l : Nat)
    (Q : Nat → Nat → ℚ) (b_ : List ℚ) (y_ : List Int) (alpha_ : List ℚ) (Cp Cn eps : ℚ)
    (qpsize : Nat) (fuel : Nat) (c0 : Int) (s : Solver_B)
    (h : Solve_loop (Solver_B.ops solvebqp false) false fuel
      (Solver_B.init l Q b_ y_ alpha_ Cp Cn eps false qpsize) c0 = some s) :
    s.b = b_ := by
  obtain ⟨n, t, ct, u, -, -, -, -, -, -, -, hR⟩ :=
    Solve_loop_exit_gated (Solver_B.ops solvebqp false) false
      (fun s => s.b = b_) (fun s => s.b = b_)
      (fun hf => absurd hf (by decide))
      (fun u hu => hu)
      (fun u hu => by
        show (u.reconstruct_gradient).b = b_
        rw [Solver_B.reconstruct_gradient_eq]
        exact hu)
      (fun u hu => hu)
      (fun u hu => by
        show (Solver_B.update solvebqp false u).b = b_
        rw [(Solver_B.update_b solvebqp false u).1]
        exact hu)
      fuel _ c0 s (Solver_B.init_b l Q b_ y_ alpha_ Cp Cn eps false qpsize) h
  exact hR

/-- The result of `Solver_B::Solve` and the state in which its loop was left. -/
theorem Solver_B.Solve_exit_state (solvebqp : BQP → List ℚ) (shrinking : Bool) (fuel l : Nat)
    (Q : Nat → Nat → ℚ) (b_ : List ℚ) (y_ : List Int) (alpha_ : List ℚ) (Cp Cn eps : ℚ)
    (qpsize : Nat) (out b : List ℚ) (obj : ℚ)
    (h : Solver_B.Solve solvebqp fuel l Q b_ y_ alpha_ Cp Cn eps shrinking qpsize =
      some (out, b, obj)) :
    ∃ s : Solver_B,
      Solve_loop (Solver_B.ops solvebqp shrinking) shrinking fuel
        (Solver_B.init l Q b_ y_ alpha_ Cp Cn eps shrinking qpsize)
        (min ((l : Int) * 2 / qpsize) (2000 / qpsize) + 1) = some s ∧
      out = put_back l s.active_set s.alpha alpha_ ∧ b = s.b := by
  unfold Solver_B.Solve at h
  simp only [] at h
  cases hr : Solve_loop (Solver_B.ops solvebqp shrinking) shrinking fuel
      (Solver_B.init l Q b_ y_ alpha_ Cp Cn eps shrinking qpsize)
      (min ((l : Int) * 2 / qpsize) (2000 / qpsize) + 1) with
  | none => rw [hr] at h; exact absurd h (by simp)
  | some s =>
    rw [hr] at h
    simp only [Option.some.injEq, Prod.mk.injEq] at h
    exact ⟨s, rfl, h.1.symm, h.2.1.symm⟩

/-- The run of `Solver_B::Solve` on two variables with linear term `[5, -1]` in which
shrinking exchanges the two positions. -/
theorem Solve_swapped :
    Solver_B.Solve solvebqp_diag 4 2 two_point_Q [5, -1] [1, 1] [0, 0] 1 1 (1 / 1000) true 5 =
      some ([0, 1 / 2], [-1, 5], -1 / 4) := by
  decide!

/-- The state in which the loop of that run is left. -/
theorem Solve_loop_swapped :
    (Solve_loop (Solver_B.ops solvebqp_diag true) true 4
      (Solver_B.init 2 two_point_Q [5, -1] [1, 1] [0, 0] 1 1 (1 / 1000) true 5)
      (min (((2 : Nat) : Int) * 2 / ((5 : Nat) : Int)) (2000 / ((5 : Nat) : Int)) + 1)).map
        (fun s => (s.active_set, s.alpha, s.b)) = some ([1, 0], [1 / 2, 0], [-1, 5]) := by
  decide!
/-! ## Rounding to a floating-point format -/

theorem pow2_eq_zpow (e : Int) : pow2 e = (2 : ℚ) ^ e := by
  unfold pow2
  by_cases h : 0 ≤ e
  · rw [if_pos h]
    obtain ⟨n, rfl⟩ := Int.eq_ofNat_of_zero_le h
    simp
  · rw [if_neg h]
    obtain ⟨n, hn⟩ : ∃ n : Nat, e = -(n : Int) := ⟨(-e).toNat, by omega⟩
    subst hn
    simp

theorem pow2_pos (e : Int) : 0 < pow2 e := by
  rw [pow2_eq_zpow]
  positivity

theorem pow2_add (a b : Int) : pow2 (a + b) = pow2 a * pow2 b := by
  rw [pow2_eq_zpow, pow2_eq_zpow, pow2_eq_zpow, zpow_add₀ (by norm_num : (2 : ℚ) ≠ 0)]

theorem pow2_lt_iff (a b : Int) : pow2 a < pow2 b ↔ a < b := by
  rw [pow2_eq_zpow, pow2_eq_zpow]
  exact zpow_lt_zpow_iff_right₀ (by norm_num : (1 : ℚ) < 2)

/-- The nearest integer of a number that is at most the integer `K` is at most `K`. -/
theorem round_half_even_le (r : ℚ) (K : Int) (h : r ≤ (K : ℚ)) : round_half_even r ≤ K := by
  have hf : ⌊r⌋ ≤ K := by
    have := Int.floor_le r
    exact_mod_cast (Int.floor_le_iff.mpr (by linarith [Int.floor_le r]) : ⌊r⌋ ≤ K)
  have hfl : (⌊r⌋ : ℚ) ≤ r := Int.floor_le r
  have key : ⌊r⌋ = K → r - ⌊r⌋ = 0 := by
    intro hK
    rw [hK] at hfl ⊢
    linarith
  unfold round_half_even
  split_ifs with h1 h2 h3
  all_goals first
    | exact hf
    | (by_contra hc
       have hK : ⌊r⌋ = K := by omega
       have h0 := key hK
       rw [h0] at h1
       norm_num at h1)

/-- Rounding keeps the sign of a number that is not positive. -/
theorem round_to_nonpos (p : Nat) (emin : Int) (x : ℚ) (h : x ≤ 0) :
    round_to p emin x ≤ 0 := by
  unfold round_to
  by_cases h0 : x = 0
  · rw [if_pos h0]
  · rw [if_neg h0]
    simp only []
    have hp := pow2_pos (max (floor_log2 |x| - ((p : Int) - 1)) emin)
    have hr : round_half_even (x / pow2 (max (floor_log2 |x| - ((p : Int) - 1)) emin)) ≤ 0 :=
      round_half_even_le _ 0 (by
        push_cast
        exact div_nonpos_of_nonpos_of_nonneg h (le_of_lt hp))
    have hr' : ((round_half_even
        (x / pow2 (max (floor_log2 |x| - ((p : Int) - 1)) emin)) : Int) : ℚ) ≤ 0 := by
      exact_mod_cast hr
    exact mul_nonpos_of_nonpos_of_nonneg hr' (le_of_lt hp)

theorem log2_loop_spec : ∀ (fuel n : Nat), 1 ≤ n → n < 2 ^ fuel →
    2 ^ log2_loop fuel n ≤ n ∧ n < 2 ^ (log2_loop fuel n + 1) := by
  intro fuel
  induction fuel with
  | zero => intro n h1 h2; simp at h2; omega
  | succ f ih =>
    intro n h1 h2
    unfold log2_loop
    by_cases hn : n < 2
    · rw [if_pos hn]
      have : n = 1 := by omega
      subst this
      simp
    · rw [if_neg hn]
      have hh : n / 2 < 2 ^ f := by
        rw [pow_succ] at h2
        omega
      obtain ⟨i1, i2⟩ := ih (n / 2) (by omega) hh
      constructor
      · rw [pow_succ]; omega
      · rw [pow_succ]; omega

theorem log2_loop_self (n : Nat) (h : 1 ≤ n) :
    2 ^ log2_loop n n ≤ n ∧ n < 2 ^ (log2_loop n n + 1) :=
  log2_loop_spec n n h (Nat.lt_two_pow n)

/-- The exponent computed by `floor_log2` is the one of the binade of `x`. -/
theorem floor_log2_spec (x : ℚ) (hx : 0 < x) :
    pow2 (floor_log2 x) ≤ x ∧ x < pow2 (floor_log2 x + 1) := by
  have hnum : 0 < x.num := Rat.num_pos.mpr hx
  have hn1 : 1 ≤ x.num.toNat := by omega
  have hd1 : 1 ≤ x.den := x.den_pos
  obtain ⟨a1, a2⟩ := log2_loop_self x.num.toNat hn1
  obtain ⟨b1, b2⟩ := log2_loop_self x.den hd1
  have hxe : x = (x.num.toNat : ℚ) / (x.den : ℚ) := by
    have : ((x.num.toNat : Nat) : ℚ) = (x.num : ℚ) := by
      have : ((x.num.toNat : Nat) : Int) = x.num := Int.toNat_of_nonneg (le_of_lt hnum)
      exact_mod_cast this
    rw [this]
    exact (Rat.num_div_den x).symm
  unfold floor_log2
  simp only []
  generalize log2_loop x.num.toNat x.num.toNat = a at a1 a2 ⊢
  generalize log2_loop x.den x.den = b at b1 b2 ⊢
  have hden : (0 : ℚ) < (x.den : ℚ) := by exact_mod_cast hd1
  have A1 : ((2 : ℚ) ^ a) ≤ (x.num.toNat : ℚ) := by exact_mod_cast a1
  have A2 : (x.num.toNat : ℚ) < (2 : ℚ) ^ (a + 1) := by exact_mod_cast a2
  have B1 : ((2 : ℚ) ^ b) ≤ (x.den : ℚ) := by exact_mod_cast b1
  have B2 : (x.den : ℚ) < (2 : ℚ) ^ (b + 1) := by exact_mod_cast b2
  have hup : x < pow2 ((a : Int) - (b : Int) + 1) := by
    rw [pow2_eq_zpow, hxe, div_lt_iff₀ hden]
    have e : (2 : ℚ) ^ ((a : Int) - (b : Int) + 1) * (2 : ℚ) ^ b = (2 : ℚ) ^ (a + 1) := by
      rw [← zpow_natCast (2 : ℚ) b, ← zpow_add₀ (by norm_num : (2 : ℚ) ≠ 0),
        ← zpow_natCast (2 : ℚ) (a + 1)]
      congr 1
      push_cast
      ring
    calc (x.num.toNat : ℚ) < (2 : ℚ) ^ (a + 1) := A2
      _ = (2 : ℚ) ^ ((a : Int) - (b : Int) + 1) * (2 : ℚ) ^ b := e.symm
      _ ≤ (2 : ℚ) ^ ((a : Int) - (b : Int) + 1) * (x.den : ℚ) :=
        mul_le_mul_of_nonneg_left B1 (by positivity)
  have hlow : pow2 ((a : Int) - (b : Int) - 1) ≤ x := by
    rw [pow2_eq_zpow, hxe, le_div_iff₀ hden]
    have e : (2 : ℚ) ^ ((a : Int) - (b : Int) - 1) * (2 : ℚ) ^ (b + 1) = (2 : ℚ) ^ a := by
      rw [← zpow_natCast (2 : ℚ) (b + 1), ← zpow_add₀ (by norm_num : (2 : ℚ) ≠ 0),
        ← zpow_natCast (2 : ℚ) a]
      congr 1
      push_cast
      ring
    calc (2 : ℚ) ^ ((a : Int) - (b : Int) - 1) * (x.den : ℚ)
        ≤ (2 : ℚ) ^ ((a : Int) - (b : Int) - 1) * (2 : ℚ) ^ (b + 1) :=
          mul_le_mul_of_nonneg_left (le_of_lt B2) (by positivity)
      _ = (2 : ℚ) ^ a := e
      _ ≤ (x.num.toNat : ℚ) := A1
  by_cases ht : pow2 ((a : Int) - (b : Int)) ≤ x
  · rw [if_pos ht]
    exact ⟨ht, hup⟩
  · rw [if_neg ht]
    refine ⟨hlow, ?_⟩
    have : (a : Int) - (b : Int) - 1 + 1 = (a : Int) - (b : Int) := by ring
    rw [this]
    exact not_le.mp ht

theorem floor_log2_mono (x y : ℚ) (hx : 0 < x) (hxy : x ≤ y) :
    floor_log2 x ≤ floor_log2 y := by
  obtain ⟨x1, -⟩ := floor_log2_spec x hx
  obtain ⟨-, y2⟩ := floor_log2_spec y (lt_of_lt_of_le hx hxy)
  have : pow2 (floor_log2 x) < pow2 (floor_log2 y + 1) := by linarith
  have := (pow2_lt_iff _ _).mp this
  omega

/-- Rounding does not carry a number across a number of the format: when `C ≥ 0` is a
fixed point of the rounding and `x ≤ C`, the rounded `x` is at most `C`. -/
theorem round_to_le_of_fixed (p : Nat) (emin : Int) (x C : ℚ) (hC : 0 ≤ C)
    (hfix : round_to p emin C = C) (hx : x ≤ C) : round_to p emin x ≤ C := by
  by_cases hx0 : x ≤ 0
  · exact le_trans (round_to_nonpos p emin x hx0) hC
  · have hxpos : 0 < x := not_le.mp hx0
    have hCpos : 0 < C := lt_of_lt_of_le hxpos hx
    have hq : max (floor_log2 |x| - ((p : Int) - 1)) emin ≤
        max (floor_log2 |C| - ((p : Int) - 1)) emin := by
      rw [abs_of_pos hxpos, abs_of_pos hCpos]
      have := floor_log2_mono x C hxpos hx
      exact max_le_max (by omega) (le_refl _)
    unfold round_to at hfix ⊢
    rw [if_neg (ne_of_gt hCpos)] at hfix
    rw [if_neg (ne_of_gt hxpos)]
    simp only [] at hfix ⊢
    generalize max (floor_log2 |x| - ((p : Int) - 1)) emin = qx at hq ⊢
    generalize max (floor_log2 |C| - ((p : Int) - 1)) emin = qC at hq hfix
    generalize round_half_even (C / pow2 qC) = kC at hfix
    obtain ⟨n, hn⟩ : ∃ n : Nat, qC = qx + (n : Int) := ⟨(qC - qx).toNat, by omega⟩
    have hpx := pow2_pos qx
    have hpn : pow2 (n : Int) = ((2 ^ n : Nat) : ℚ) := by
      rw [pow2_eq_zpow, zpow_natCast]; push_cast; rfl
    have hCK : C = ((kC * (2 ^ n : Nat) : Int) : ℚ) * pow2 qx := by
      rw [← hfix, hn, pow2_add, hpn]
      push_cast
      ring
    have hle : x / pow2 qx ≤ ((kC * (2 ^ n : Nat) : Int) : ℚ) := by
      rw [div_le_iff₀ hpx, ← hCK]
      exact hx
    have hr := round_half_even_le _ _ hle
    have hr' : ((round_half_even (x / pow2 qx) : Int) : ℚ) ≤
        ((kC * (2 ^ n : Nat) : Int) : ℚ) := by exact_mod_cast hr
    calc ((round_half_even (x / pow2 qx) : Int) : ℚ) * pow2 qx
        ≤ ((kC * (2 ^ n : Nat) : Int) : ℚ) * pow2 qx :=
          mul_le_mul_of_nonneg_right hr' (le_of_lt hpx)
      _ = C := hCK.symm

/-! ## The order of the variables in a run of `Solver_B_linear::Solve` -/

/-- A loop that stores one value in every pass keeps the length of the array. -/
theorem for_loop_store_length {β : Type} (k : Nat → Nat) (g : Nat → List β → β) (lo hi : Nat)
    (xs : List β) :
    (for_loop lo hi (fun i a => a.set (k i) (g i a)) xs).length = xs.length := by
  by_cases hle : lo ≤ hi
  · exact for_loop_induction (fun _ (a : List β) => a.length = xs.length) lo hi _ xs hle rfl
      (fun i t _ _ h => by simp [h])
  · rw [for_loop_of_le _ _ _ _ (by omega)]

/-- A loop that stores a value at the position of its counter keeps the length. -/
theorem for_loop_set_length {β : Type} (g : Nat → List β → β) (lo hi : Nat) (xs : List β) :
    (for_loop lo hi (fun i a => a.set i (g i a)) xs).length = xs.length :=
  for_loop_store_length (fun i => i) g lo hi xs

/-- The order invariant passes to a state with the same `l`, labels, `active_set`,
`active_size` and lengths of the arrays. -/
theorem Solver_B_linear_state.InOrder_congr (s t : Solver_B_linear_state) (l : Nat)
    (y_ : List Int) (h : s.InOrder l y_) (h1 : t.core.l = s.core.l) (h2 : t.core.y = s.core.y)
    (h3 : t.core.active_set = s.core.active_set) (h4 : t.active_size = s.active_size)
    (h5 : t.core.alpha.length = s.core.alpha.length)
    (h6 : t.core.G.length = s.core.G.length)
    (h7 : t.core.alpha_status.length = s.core.alpha_status.length) : t.InOrder l y_ := by
  obtain ⟨⟨a1, a2, a3, a4, a5⟩, b1, b2, b3⟩ := h
  refine ⟨⟨by rw [h3, h1]; exact a1, by rw [h5, h1]; exact a2, by rw [h6, h1]; exact a3,
    by rw [h7, h1]; exact a4, by rw [h2, h1]; exact a5⟩, by rw [h1]; exact b1,
    by rw [h4]; exact b2, fun p hp => by rw [h2, h3]; exact b3 p hp⟩

/-- The order invariant after `swap_index(i, j)` and a new `active_size`. -/
theorem Solver_B_linear_state.InOrder_swap (s : Solver_B_linear_state) (l : Nat)
    (y_ : List Int) (i j a : Nat) (hi : i < l) (hj : j < l) (ha : a ≤ l)
    (h : s.InOrder l y_) :
    Solver_B_linear_state.InOrder { s.swap_index i j with active_size := a } l y_ := by
  obtain ⟨h1, h2, h3, h4⟩ := h
  obtain ⟨o1, o2, _⟩ := Solver_B_linear.Ordered_swap_index_linear s.core i j (by omega)
    (by omega) h1
  obtain ⟨g1, _, _, _, g5⟩ := h1
  have hlen : s.core.active_set.length = s.core.l := by rw [g1.length_eq, List.length_range]
  refine ⟨o1, by rw [← h2]; exact o2, ha, fun p hp => ?_⟩
  show (swap_at s.core.y i j).getD p 0 = y_.getD ((swap_at s.core.active_set i j).getD p 0) 0
  rw [swap_at_getD s.core.y i j p 0 (by omega) (by omega),
    swap_at_getD s.core.active_set i j p 0 (by omega) (by omega)]
  exact h4 _ (swap_pos_lt i j p l hi hj hp)

/-- The shrinking loop of `do_shrinking` keeps the order invariant. -/
theorem Solver_B_linear_state.InOrder_shrink_loop (l : Nat) (y_ : List Int) (n : Nat) :
    ∀ (s : Solver_B_linear_state) (k : Nat) (Gm : ℚ), s.InOrder l y_ →
      (Solver_B_linear_state.shrink_loop n s k Gm).InOrder l y_ := by
  induction n with
  | zero => intro s k Gm h; exact h
  | succ n ih =>
    intro s k Gm h
    have hA := h.2.2.1
    have hmove : k < s.active_size →
        Solver_B_linear_state.InOrder
          (Solver_B_linear_state.shrink_one { s with active_size := s.active_size - 1 } k)
          l y_ := by
      intro hk
      exact Solver_B_linear_state.InOrder_swap s l y_ k (s.active_size - 1)
        (s.active_size - 1) (by omega) (by omega) (by omega) h
    simp only [Solver_B_linear_state.shrink_loop]
    by_cases hk : k < s.active_size
    · rw [if_pos hk]
      split_ifs
      · exact ih s (k + 1) Gm h
      · exact ih _ k Gm (hmove hk)
      · exact ih s (k + 1) Gm h
      · exact ih _ k Gm (hmove hk)
      · exact ih s (k + 1) Gm h
    · rw [if_neg hk]; exact h

/-- The unshrinking loop of `do_shrinking` keeps the order invariant. -/
theorem Solver_B_linear_state.InOrder_unshrink_loop (l : Nat) (y_ : List Int) (n : Nat) :
    ∀ (s : Solver_B_linear_state) (k : Int) (Gm : ℚ), k < l → s.InOrder l y_ →
      (Solver_B_linear_state.unshrink_loop n s k Gm).InOrder l y_ := by
  induction n with
  | zero => intro s k Gm _ h; exact h
  | succ n ih =>
    intro s k Gm hkl h
    have hmove : (k : Int) ≥ s.active_size →
        Solver_B_linear_state.InOrder
          { Solver_B_linear_state.unshrink_one s k.toNat with
            active_size := s.active_size + 1 } l y_ := by
      intro hk
      exact Solver_B_linear_state.InOrder_swap s l y_ k.toNat s.active_size
        (s.active_size + 1) (by omega) (by omega) (by omega) h
    simp only [Solver_B_linear_state.unshrink_loop]
    by_cases hk : k ≥ (s.active_size : Int)
    · rw [if_pos hk]
      split_ifs
      · exact ih s (k - 1) Gm (by omega) h
      · exact ih _ k Gm hkl (hmove hk)
      · exact ih s (k - 1) Gm (by omega) h
      · exact ih _ k Gm hkl (hmove hk)
      · exact ih s (k - 1) Gm (by omega) h
    · rw [if_neg hk]; exact h

/-- `reconstruct_gradient` keeps the order invariant. -/
theorem Solver_B_linear_state.InOrder_reconstruct_gradient (s : Solver_B_linear_state)
    (l : Nat) (y_ : List Int) (h : s.InOrder l y_) : s.reconstruct_gradient.InOrder l y_ :=
  Solver_B_linear_state.InOrder_congr s _ l y_ h rfl rfl rfl rfl rfl
    (for_loop_set_length _ _ _ _) rfl

/-- `do_shrinking` keeps the order invariant. -/
theorem Solver_B_linear_state.InOrder_do_shrinking (s : Solver_B_linear_state) (l : Nat)
    (y_ : List Int) (h : s.InOrder l y_) : s.do_shrinking.InOrder l y_ := by
  have h0 : s.select_working_set.2.InOrder l y_ := h
  unfold Solver_B_linear_state.do_shrinking
  simp only []
  split_ifs
  · exact h0
  · exact Solver_B_linear_state.InOrder_shrink_loop l y_ _ _ _ _ h0
  · have h1 := Solver_B_linear_state.InOrder_shrink_loop l y_ s.select_working_set.2.active_size
      s.select_working_set.2 0 s.select_working_set.1 h0
    obtain ⟨s2, hs2⟩ : ∃ s2 : Solver_B_linear_state,
        s2 = Solver_B_linear_state.reconstruct_gradient
          { Solver_B_linear_state.shrink_loop s.select_working_set.2.active_size
              s.select_working_set.2 0 s.select_working_set.1 with unshrinked := true } :=
      ⟨_, rfl⟩
    have h2 : s2.InOrder l y_ := by
      rw [hs2]
      exact Solver_B_linear_state.InOrder_reconstruct_gradient _ l y_ h1
    rw [← hs2]
    exact Solver_B_linear_state.InOrder_unshrink_loop l y_ (s2.core.l - s2.active_size) s2
      ((s2.core.l : Int) - 1) s.select_working_set.1 (by have := h2.2.1; omega) h2

/-- The update of one pass of the loop of `Solver_B_linear::Solve` keeps the order
invariant. -/
theorem Solver_B_linear_state.InOrder_update (solvebqp : BQP → List ℚ)
    (s : Solver_B_linear_state) (l : Nat) (y_ : List Int) (h : s.InOrder l y_) :
    (Solver_B_linear_state.update solvebqp s).InOrder l y_ := by
  unfold Solver_B_linear_state.update
  dsimp only []
  generalize solvebqp s.subproblem = x
  have key := for_loop_induction
    (fun _ (t : Solver_B_linear_state) => t.core.l = s.core.l ∧ t.core.y = s.core.y ∧
      t.core.active_set = s.core.active_set ∧ t.active_size = s.active_size ∧
      t.core.alpha.length = s.core.alpha.length ∧ t.core.G.length = s.core.G.length ∧
      t.core.alpha_status.length = s.core.alpha_status.length)
    0 s.working_set.length (Solver_B_linear_state.update_w_step x) s (Nat.zero_le _)
    ⟨rfl, rfl, rfl, rfl, rfl, rfl, rfl⟩
    (by
      rintro i t _ _ ⟨a1, a2, a3, a4, a5, a6, a7⟩
      unfold Solver_B_linear_state.update_w_step
      dsimp only []
      split_ifs
      · refine ⟨a1, a2, a3, a4, ?_, a6, ?_⟩
        · simp [Solver_B_linear_state.update_alpha_status, a5]
        · simp [Solver_B_linear_state.update_alpha_status, a7]
      · exact ⟨a1, a2, a3, a4, a5, a6, a7⟩)
  obtain ⟨a1, a2, a3, a4, a5, a6, a7⟩ := key
  exact Solver_B_linear_state.InOrder_congr s _ l y_ h a1 a2 a3 a4 a5
    ((for_loop_set_length _ _ _ _).trans a6) a7

/-- The state before the loop of `Solver_B_linear::Solve` satisfies the order invariant,
with `active_set` the identity. -/
theorem Solver_B_linear_state.InOrder_init (l : Nat) (x_ : List (List svm_node))
    (b_ : List ℚ) (y_ : List Int) (alpha_ w : List ℚ) (Cp Cn eps : ℚ) (qpsize : Nat) :
    (Solver_B_linear_state.init l x_ b_ y_ alpha_ w Cp Cn eps qpsize).core.active_set =
      List.range l ∧
    (Solver_B_linear_state.init l x_ b_ y_ alpha_ w Cp Cn eps qpsize).InOrder l y_ := by
  unfold Solver_B_linear_state.init
  dsimp only []
  have key := for_loop_induction
    (fun _ (t : Solver_B_linear_state) => t.core.l = l ∧
      t.core.y = (List.range l).map (fun i => y_.getD i 0) ∧
      t.core.active_set = List.range l ∧ t.active_size = l ∧
      t.core.alpha.length = l ∧ t.core.G.length = l ∧ t.core.alpha_status.length = l)
    0 l (fun i s => s.update_alpha_status i)
    { core :=
        { l := l, y := (List.range l).map (fun i => y_.getD i 0),
          G := List.replicate l 0, alpha_status := List.replicate l Status.LOWER_BOUND,
          alpha := (List.range l).map (fun i => alpha_.getD i 0),
          b := (List.range l).map (fun i => b_.getD i 0), active_set := List.range l,
          x := List.range l },
      rows := x_, active_size := l, eps := eps, unshrinked := false, qpsize := qpsize,
      working_set := [], Cp := Cp, Cn := Cn, w := w } (Nat.zero_le _)
    ⟨rfl, rfl, rfl, rfl, by simp, by simp, by simp⟩
    (by
      rintro i t _ _ ⟨a1, a2, a3, a4, a5, a6, a7⟩
      exact ⟨a1, a2, a3, a4, a5, a6,
        by simp [Solver_B_linear_state.update_alpha_status, a7]⟩)
  generalize for_loop 0 l (fun i (s : Solver_B_linear_state) => s.update_alpha_status i) _ = s1
    at key ⊢
  obtain ⟨a1, a2, a3, a4, a5, a6, a7⟩ := key
  have hs1 : s1.InOrder l y_ := by
    refine ⟨⟨by rw [a3, a1], by rw [a5, a1], by rw [a6, a1], by rw [a7, a1],
      by rw [a2, a1]; simp⟩, a1, by rw [a4], fun p hp => ?_⟩
    rw [a2, a3]
    simp [List.getD_eq_getElem?_getD, List.getElem?_range hp, hp]
  refine ⟨a3, Solver_B_linear_state.InOrder_congr s1 _ l y_ hs1 rfl rfl rfl rfl rfl ?_ rfl⟩
  show (if _ then _ else _ : List ℚ).length = _
  split_ifs
  · rw [for_loop_set_length, for_loop_set_length]
  · rw [for_loop_set_length]

/-- The state in which the loop of `Solver_B_linear::Solve` is left satisfies the order
invariant. -/
theorem Solver_B_linear_state.InOrder_exit (solvebqp : BQP → List ℚ) (fuel l : Nat)
    (x_ : List (List svm_node)) (b_ : List ℚ) (y_ : List Int) (alpha_ w : List ℚ)
    (Cp Cn eps : ℚ) (shrinking : Bool) (qpsize : Nat) (s : Solver_B_linear_state)
    (h : Solver_B_linear_state.Solve_loop solvebqp fuel l x_ b_ y_ alpha_ w Cp Cn eps shrinking
      qpsize = some s) : s.InOrder l y_ := by
  obtain ⟨n, t, ct, u, -, -, -, -, -, -, -, hR⟩ :=
    Solve_loop_exit_gated (Solver_B_linear_state.ops solvebqp) shrinking
      (fun t => t.InOrder l y_) (fun t => t.InOrder l y_)
      (fun _ t ht => Solver_B_linear_state.InOrder_do_shrinking t l y_ ht)
      (fun t ht => ht)
      (fun t ht => by
        have := Solver_B_linear_state.InOrder_reconstruct_gradient t l y_ ht
        exact ⟨this.1, this.2.1, by show t.reconstruct_gradient.core.l ≤ l; rw [this.2.1],
          this.2.2.2⟩)
      (fun t ht => ht)
      (fun t ht => Solver_B_linear_state.InOrder_update solvebqp t l y_ ht)
      fuel _ _ s (Solver_B_linear_state.InOrder_init l x_ b_ y_ alpha_ w Cp Cn eps qpsize).2 h
  exact hR

/-! ## The order of the variables in a run of `Solver_SPOC::Solve` -/

/-- The order invariant passes to a state with the same `l`, `nr_class`, labels,
`active_set`, `active_size` and lengths of the arrays. -/
theorem Solver_SPOC_state.InOrder_congr_block (s t : Solver_SPOC_state) (l nr : Nat)
    (y_ : List Int) (h : s.InOrder l nr y_) (h1 : t.core.l = s.core.l)
    (h0 : t.core.nr_class = s.core.nr_class) (h2 : t.core.y = s.core.y)
    (h3 : t.core.active_set = s.core.active_set) (h4 : t.active_size = s.active_size)
    (h5 : t.core.alpha.length = s.core.alpha.length)
    (h6 : t.core.G.length = s.core.G.length)
    (h7 : t.core.alpha_status.length = s.core.alpha_status.length) : t.InOrder l nr y_ := by
  obtain ⟨⟨a1, a2, a3, a4, a5⟩, b1, b0, b2, b3⟩ := h
  refine ⟨⟨by rw [h3, h1]; exact a1, by rw [h5, h1, h0]; exact a2,
    by rw [h6, h1, h0]; exact a3, by rw [h7, h1, h0]; exact a4, by rw [h2, h1]; exact a5⟩,
    by rw [h1]; exact b1, by rw [h0]; exact b0, by rw [h4]; exact b2,
    fun p hp => by rw [h2, h3]; exact b3 p hp⟩

/-- The order invariant after `swap_index(i, j)` and a new `active_size`. -/
theorem Solver_SPOC_state.InOrder_swap_block (s : Solver_SPOC_state) (l nr : Nat)
    (y_ : List Int) (i j a : Nat) (hi : i < l) (hj : j < l) (ha : a ≤ l)
    (h : s.InOrder l nr y_) :
    Solver_SPOC_state.InOrder { s.swap_index i j with active_size := a } l nr y_ := by
  obtain ⟨h1, h2, h0, h3, h4⟩ := h
  obtain ⟨o1, o2, o3, _⟩ := Solver_SPOC.Ordered_swap_index_block s.core i j (by omega)
    (by omega) h1
  obtain ⟨g1, _, _, _, g5⟩ := h1
  have hlen : s.core.active_set.length = s.core.l := by rw [g1.length_eq, List.length_range]
  refine ⟨o1, by rw [← h2]; exact o2, by rw [← h0]; exact o3, ha, fun p hp => ?_⟩
  show (swap_at s.core.y i j).getD p 0 = y_.getD ((swap_at s.core.active_set i j).getD p 0) 0
  rw [swap_at_getD s.core.y i j p 0 (by omega) (by omega),
    swap_at_getD s.core.active_set i j p 0 (by omega) (by omega)]
  exact h4 _ (swap_pos_lt i j p l hi hj hp)

/-- The shrinking loop of `Solver_SPOC::do_shrinking` keeps the order invariant. -/
theorem Solver_SPOC_state.InOrder_shrink_loop_block (l nr : Nat) (y_ : List Int) (n : Nat) :
    ∀ (s : Solver_SPOC_state) (i : Nat) (Gm : Ext), s.InOrder l nr y_ →
      (Solver_SPOC_state.shrink_loop n s i Gm).InOrder l nr y_ := by
  induction n with
  | zero => intro s i Gm h; exact h
  | succ n ih =>
    intro s i Gm h
    have hA := h.2.2.2.1
    simp only [Solver_SPOC_state.shrink_loop]
    by_cases hk : i < s.active_size
    · rw [if_pos hk]
      split_ifs
      · exact ih s (i + 1) Gm h
      · exact ih _ i Gm (Solver_SPOC_state.InOrder_swap_block s l nr y_ i (s.active_size - 1)
          (s.active_size - 1) (by omega) (by omega) (by omega) h)
    · rw [if_neg hk]; exact h

/-- The unshrinking loop of `Solver_SPOC::do_shrinking` keeps the order invariant. -/
theorem Solver_SPOC_state.InOrder_unshrink_loop_block (l nr : Nat) (y_ : List Int) (n : Nat) :
    ∀ (s : Solver_SPOC_state) (i : Int) (Gm : Ext), i < l → s.InOrder l nr y_ →
      (Solver_SPOC_state.unshrink_loop n s i Gm).InOrder l nr y_ := by
  induction n with
  | zero => intro s i Gm _ h; exact h
  | succ n ih =>
    intro s i Gm hil h
    simp only [Solver_SPOC_state.unshrink_loop]
    by_cases hk : i ≥ (s.active_size : Int)
    · rw [if_pos hk]
      split_ifs
      · exact ih s (i - 1) Gm (by omega) h
      · exact ih _ i Gm hil (Solver_SPOC_state.InOrder_swap_block s l nr y_ i.toNat s.active_size
          (s.active_size + 1) (by omega) (by omega) (by omega) h)
    · rw [if_neg hk]; exact h

/-- The gradient that `Solve` and `reconstruct_gradient` fill in has the length of `G`. -/
theorem Solver_SPOC.fill_gradient_length (s : Solver_SPOC) (lo hi : Nat) :
    (s.fill_gradient lo hi).length = s.G.length := by
  unfold Solver_SPOC.fill_gradient
  dsimp only []
  have inner : ∀ (i m : Nat) (G : List ℚ),
      (for_loop lo s.l
        (fun j G'' => G''.set (j * s.nr_class + m)
          (G''.getD (j * s.nr_class + m) 0 + s.alpha.getD (i * s.nr_class + m) 0 * s.Q i j))
        G).length = G.length := by
    intro i m G
    exact for_loop_store_length (fun j => j * s.nr_class + m) _ lo s.l G
  have mid : ∀ (i : Nat) (G : List ℚ),
      (for_loop 0 s.nr_class
        (fun m G' =>
          if |s.alpha.getD (i * s.nr_class + m) 0| ≠ 0 then
            for_loop lo s.l
              (fun j G'' => G''.set (j * s.nr_class + m)
                (G''.getD (j * s.nr_class + m) 0 +
                  s.alpha.getD (i * s.nr_class + m) 0 * s.Q i j)) G'
          else G') G).length = G.length := by
    intro i G
    exact for_loop_induction (fun _ (a : List ℚ) => a.length = G.length) 0 s.nr_class _ G
      (Nat.zero_le _) rfl
      (fun m t _ _ h => by
        beta_reduce
        split_ifs
        · rw [inner, h]
        · exact h)
  have outer := for_loop_induction
    (fun _ (a : List ℚ) => a.length = s.G.length) 0 hi
    (fun i G =>
      for_loop 0 s.nr_class
        (fun m G' =>
          if |s.alpha.getD (i * s.nr_class + m) 0| ≠ 0 then
            for_loop lo s.l
              (fun j G'' => G''.set (j * s.nr_class + m)
                (G''.getD (j * s.nr_class + m) 0 +
                  s.alpha.getD (i * s.nr_class + m) 0 * s.Q i j)) G'
          else G') G)
    (for_loop lo s.l
      (fun i G => G.set (((i * s.nr_class : Nat) : Int) + s.y.getD i 0).toNat 0)
      (for_loop (lo * s.nr_class) (s.l * s.nr_class) (fun i G => G.set i 1) s.G))
    (Nat.zero_le _)
    (by
      beta_reduce
      rw [for_loop_store_length
          (fun i => (((i * s.nr_class : Nat) : Int) + s.y.getD i 0).toNat)
          (fun _ _ => (0 : ℚ)) lo s.l,
        for_loop_set_length (fun _ _ => (1 : ℚ))])
    (fun i t _ _ h => by
      beta_reduce at h ⊢
      rw [mid, h])
  exact outer

/-- `reconstruct_gradient` keeps the order invariant. -/
theorem Solver_SPOC_state.InOrder_reconstruct_gradient_block (s : Solver_SPOC_state)
    (l nr : Nat) (y_ : List Int) (h : s.InOrder l nr y_) :
    s.reconstruct_gradient.InOrder l nr y_ := by
  unfold Solver_SPOC_state.reconstruct_gradient
  split_ifs
  · exact h
  · exact Solver_SPOC_state.InOrder_congr_block s _ l nr y_ h rfl rfl rfl rfl rfl rfl
      (Solver_SPOC.fill_gradient_length _ _ _) rfl

/-- `do_shrinking` keeps the order invariant. -/
theorem Solver_SPOC_state.InOrder_do_shrinking_block (s : Solver_SPOC_state) (l nr : Nat)
    (y_ : List Int) (h : s.InOrder l nr y_) : s.do_shrinking.InOrder l nr y_ := by
  unfold Solver_SPOC_state.do_shrinking
  simp only []
  split_ifs
  · exact h
  · exact Solver_SPOC_state.InOrder_shrink_loop_block l nr y_ _ _ _ _ h
  · have h1 := Solver_SPOC_state.InOrder_shrink_loop_block l nr y_ s.active_size s 0
      (s.core.select_working_set s.active_size 0).1 h
    obtain ⟨s2, hs2⟩ : ∃ s2 : Solver_SPOC_state,
        s2 = Solver_SPOC_state.reconstruct_gradient
          { Solver_SPOC_state.shrink_loop s.active_size s 0
              (s.core.select_working_set s.active_size 0).1 with unshrinked := true } :=
      ⟨_, rfl⟩
    have h2 : s2.InOrder l nr y_ := by
      rw [hs2]
      exact Solver_SPOC_state.InOrder_reconstruct_gradient_block _ l nr y_ h1
    rw [← hs2]
    exact Solver_SPOC_state.InOrder_unshrink_loop_block l nr y_ (s2.core.l - s2.active_size) s2
      ((s2.core.l : Int) - 1) (s.core.select_working_set s.active_size 0).1
      (by have := h2.2.1; omega) h2

/-- The update of one pass of the loop of `Solver_SPOC::Solve` keeps the order
invariant. -/
theorem Solver_SPOC_state.InOrder_update_block (s : Solver_SPOC_state) (l nr : Nat)
    (y_ : List Int) (h : s.InOrder l nr y_) : s.update.InOrder l nr y_ := by
  unfold Solver_SPOC_state.update
  dsimp only []
  generalize Solver_SPOC.new_nu _ _ _ _ _ = nu
  have key := for_loop_induction
    (fun _ (t : Solver_SPOC_state) => t.core.l = s.core.l ∧
      t.core.nr_class = s.core.nr_class ∧ t.core.y = s.core.y ∧
      t.core.active_set = s.core.active_set ∧ t.active_size = s.active_size ∧
      t.core.alpha.length = s.core.alpha.length ∧ t.core.G.length = s.core.G.length ∧
      t.core.alpha_status.length = s.core.alpha_status.length)
    0 s.core.nr_class
    (fun m (t : Solver_SPOC_state) =>
      if |nu.getD m 0 - t.core.alpha.getD (s.q * s.core.nr_class + m) 0| >
          1 / 1000000000000 then
        { (Solver_SPOC_state.update_alpha_status
            { t with core :=
              { t.core with alpha :=
                  t.core.alpha.set (s.q * s.core.nr_class + m) (nu.getD m 0) } } s.q m) with
          core :=
            { (Solver_SPOC_state.update_alpha_status
                { t with core :=
                  { t.core with alpha :=
                      t.core.alpha.set (s.q * s.core.nr_class + m) (nu.getD m 0) } }
                s.q m).core with
              G := (for_loop 0
                (Solver_SPOC_state.update_alpha_status
                  { t with core :=
                    { t.core with alpha :=
                        t.core.alpha.set (s.q * s.core.nr_class + m) (nu.getD m 0) } }
                  s.q m).active_size
                (fun i G => G.set (i * s.core.nr_class + m)
                  (G.getD (i * s.core.nr_class + m) 0 +
                    (nu.getD m 0 - t.core.alpha.getD (s.q * s.core.nr_class + m) 0) *
                      (Solver_SPOC_state.update_alpha_status
                        { t with core :=
                          { t.core with alpha :=
                              t.core.alpha.set (s.q * s.core.nr_class + m) (nu.getD m 0) } }
                        s.q m).core.Q s.q i))
                (Solver_SPOC_state.update_alpha_status
                  { t with core :=
                    { t.core with alpha :=
                        t.core.alpha.set (s.q * s.core.nr_class + m) (nu.getD m 0) } }
                  s.q m).core.G) } }
      else t)
    { s with nu := nu } (Nat.zero_le _)
    ⟨rfl, rfl, rfl, rfl, rfl, rfl, rfl, rfl⟩
    (by
      rintro m t _ _ ⟨a1, a0, a2, a3, a4, a5, a6, a7⟩
      beta_reduce
      split_ifs
      · refine ⟨a1, a0, a2, a3, a4, ?_, ?_, ?_⟩
        · simp [Solver_SPOC_state.update_alpha_status, a5]
        · refine (for_loop_store_length (fun i => i * s.core.nr_class + m) _ 0 _ _).trans ?_
          simp [Solver_SPOC_state.update_alpha_status, a6]
        · simp [Solver_SPOC_state.update_alpha_status, a7]
      · exact ⟨a1, a0, a2, a3, a4, a5, a6, a7⟩)
  obtain ⟨a1, a0, a2, a3, a4, a5, a6, a7⟩ := key
  exact Solver_SPOC_state.InOrder_congr_block s _ l nr y_ h a1 a0 a2 a3 a4 a5 a6 a7

/-- The state before the loop of `Solver_SPOC::Solve` satisfies the order invariant, with
`active_set` the identity. -/
theorem Solver_SPOC_state.InOrder_init_block (l : Nat) (Q : Nat → Nat → ℚ) (alpha_ : List ℚ)
    (y_ : List Int) (C_ : List ℚ) (eps : ℚ) (nr_class : Nat) (q0 : Nat) (nu0 : List ℚ) :
    (Solver_SPOC_state.init l Q alpha_ y_ C_ eps nr_class q0 nu0).core.active_set =
      List.range l ∧
    (Solver_SPOC_state.init l Q alpha_ y_ C_ eps nr_class q0 nu0).InOrder l nr_class y_ := by
  unfold Solver_SPOC_state.init
  dsimp only []
  have inner : ∀ (i : Nat) (s : Solver_SPOC_state),
      (for_loop 0 nr_class (fun m (t : Solver_SPOC_state) => t.update_alpha_status i m)
          s).core.l = s.core.l ∧
      (for_loop 0 nr_class (fun m (t : Solver_SPOC_state) => t.update_alpha_status i m)
          s).core.nr_class = s.core.nr_class ∧
      (for_loop 0 nr_class (fun m (t : Solver_SPOC_state) => t.update_alpha_status i m)
          s).core.y = s.core.y ∧
      (for_loop 0 nr_class (fun m (t : Solver_SPOC_state) => t.update_alpha_status i m)
          s).core.active_set = s.core.active_set ∧
      (for_loop 0 nr_class (fun m (t : Solver_SPOC_state) => t.update_alpha_status i m)
          s).active_size = s.active_size ∧
      (for_loop 0 nr_class (fun m (t : Solver_SPOC_state) => t.update_alpha_status i m)
          s).core.alpha.length = s.core.alpha.length ∧
      (for_loop 0 nr_class (fun m (t : Solver_SPOC_state) => t.update_alpha_status i m)
          s).core.G.length = s.core.G.length ∧
      (for_loop 0 nr_class (fun m (t : Solver_SPOC_state) => t.update_alpha_status i m)
          s).core.alpha_status.length = s.core.alpha_status.length := by
    intro i s
    exact for_loop_induction
      (fun _ (t : Solver_SPOC_state) => t.core.l = s.core.l ∧
        t.core.nr_class = s.core.nr_class ∧ t.core.y = s.core.y ∧
        t.core.active_set = s.core.active_set ∧ t.active_size = s.active_size ∧
        t.core.alpha.length = s.core.alpha.length ∧ t.core.G.length = s.core.G.length ∧
        t.core.alpha_status.length = s.core.alpha_status.length)
      0 nr_class _ s (Nat.zero_le _) ⟨rfl, rfl, rfl, rfl, rfl, rfl, rfl, rfl⟩
      (by
        rintro m t _ _ ⟨a1, a0, a2, a3, a4, a5, a6, a7⟩
        exact ⟨a1, a0, a2, a3, a4, a5, a6,
          by simp [Solver_SPOC_state.update_alpha_status, a7]⟩)
  have key := for_loop_induction
    (fun _ (t : Solver_SPOC_state) => t.core.l = l ∧ t.core.nr_class = nr_class ∧
      t.core.y = (List.range l).map (fun i => y_.getD i 0) ∧
      t.core.active_set = List.range l ∧ t.active_size = l ∧
      t.core.alpha.length = l * nr_class ∧ t.core.G.length = l * nr_class ∧
      t.core.alpha_status.length = l * nr_class)
    0 l
    (fun i (s : Solver_SPOC_state) =>
      for_loop 0 nr_class (fun m (t : Solver_SPOC_state) => t.update_alpha_status i m) s)
    { core :=
        { l := l, nr_class := nr_class, y := (List.range l).map (fun i => y_.getD i 0),
          active_set := List.range l, G := List.replicate (l * nr_class) 0,
          alpha := (List.range (l * nr_class)).map (fun i => alpha_.getD i 0),
          alpha_status := List.replicate (l * nr_class) false, Q := Q },
      active_size := l, eps := eps, C := C_, unshrinked := false, q := q0, nu := nu0 }
    (Nat.zero_le _)
    ⟨rfl, rfl, rfl, rfl, rfl, by simp, by simp, by simp⟩
    (by
      rintro i t _ _ ⟨a1, a0, a2, a3, a4, a5, a6, a7⟩
      obtain ⟨b1, b0, b2, b3, b4, b5, b6, b7⟩ := inner i t
      beta_reduce
      exact ⟨by rw [b1, a1], by rw [b0, a0], by rw [b2, a2], by rw [b3, a3], by rw [b4, a4],
        by rw [b5, a5], by rw [b6, a6], by rw [b7, a7]⟩)
  generalize for_loop 0 l
    (fun i (s : Solver_SPOC_state) =>
      for_loop 0 nr_class (fun m (t : Solver_SPOC_state) => t.update_alpha_status i m) s) _ = s1
    at key ⊢
  obtain ⟨a1, a0, a2, a3, a4, a5, a6, a7⟩ := key
  have hs1 : s1.InOrder l nr_class y_ := by
    refine ⟨⟨by rw [a3, a1], by rw [a5, a1, a0], by rw [a6, a1, a0], by rw [a7, a1, a0],
      by rw [a2, a1]; simp⟩, a1, a0, by rw [a4], fun p hp => ?_⟩
    rw [a2, a3]
    simp [List.getD_eq_getElem?_getD, List.getElem?_range hp, hp]
  exact ⟨a3, Solver_SPOC_state.InOrder_congr_block s1 _ l nr_class y_ hs1 rfl rfl rfl rfl rfl rfl
    (Solver_SPOC.fill_gradient_length _ _ _) rfl⟩

/-- One pass of the loop of `Solver_SPOC::Solve` keeps the order invariant, whether it
leaves the loop or not. -/
theorem Solver_SPOC_state.InOrder_iteration (shrinking : Bool) (s : Solver_SPOC_state)
    (c : Int) (l nr : Nat) (y_ : List Int) (h : s.InOrder l nr y_) :
    (∀ s', Solver_SPOC_state.Solve_iteration shrinking s c = Step.done s' →
      s'.InOrder l nr y_) ∧
    (∀ s' c', Solver_SPOC_state.Solve_iteration shrinking s c = Step.next s' c' →
      s'.InOrder l nr y_) := by
  have hpre : Solver_SPOC_state.InOrder
      (if c - 1 = 0 then (if shrinking then s.do_shrinking else s) else s) l nr y_ := by
    split_ifs
    · exact Solver_SPOC_state.InOrder_do_shrinking_block s l nr y_ h
    · exact h
    · exact h
  unfold Solver_SPOC_state.Solve_iteration
  simp only []
  generalize (if c - 1 = 0 then (if shrinking then s.do_shrinking else s) else s) = pre
    at hpre ⊢
  have h1 : pre.select_working_set.2.InOrder l nr y_ := hpre
  have h2 : pre.select_working_set.2.reconstruct_gradient.full_active.InOrder l nr y_ := by
    have := Solver_SPOC_state.InOrder_reconstruct_gradient_block _ l nr y_ h1
    exact ⟨this.1, this.2.1, this.2.2.1,
      by show pre.select_working_set.2.reconstruct_gradient.core.l ≤ l; rw [this.2.1],
      this.2.2.2.2⟩
  have h3 : (Solver_SPOC_state.select_working_set
      pre.select_working_set.2.reconstruct_gradient.full_active).2.InOrder l nr y_ := h2
  constructor
  · intro s' hs
    split_ifs at hs
    rw [← Step.done.inj hs]; exact h3
  · intro s' c' hs
    split_ifs at hs
    all_goals
      rw [← (Step.next.inj hs).1]
      first
        | exact Solver_SPOC_state.InOrder_update_block _ l nr y_ h3
        | exact Solver_SPOC_state.InOrder_update_block _ l nr y_ h1

/-- The state in which the loop of `Solver_SPOC::Solve` is left satisfies the order
invariant. -/
theorem Solver_SPOC_state.InOrder_loop (shrinking : Bool) (l nr : Nat) (y_ : List Int)
    (fuel : Nat) :
    ∀ (s : Solver_SPOC_state) (c : Int) (s' : Solver_SPOC_state), s.InOrder l nr y_ →
      Solver_SPOC_state.loop shrinking fuel s c = some s' → s'.InOrder l nr y_ := by
  induction fuel with
  | zero => intro s c s' _ h; simp [Solver_SPOC_state.loop] at h
  | succ fuel ih =>
    intro s c s' hs h
    simp only [Solver_SPOC_state.loop] at h
    cases hstep : Solver_SPOC_state.Solve_iteration shrinking s c with
    | done t =>
      rw [hstep] at h
      rw [← Option.some.inj h]
      exact (Solver_SPOC_state.InOrder_iteration shrinking s c l nr y_ hs).1 t hstep
    | next t c1 =>
      rw [hstep] at h
      exact ih t c1 s'
        ((Solver_SPOC_state.InOrder_iteration shrinking s c l nr y_ hs).2 t c1 hstep) h

/-- The write-back of a run of `Solver_B_linear::Solve` on arrays of `l` entries, tied to
the state `s` in which the loop was left. -/
theorem Solver_B_linear_state.Solve_order_linear (solvebqp : BQP → List ℚ) (fuel l : Nat)
    (x_ : List (List svm_node)) (b_ : List ℚ) (y_ : List Int) (alpha_ w : List ℚ)
    (Cp Cn eps : ℚ) (shrinking : Bool) (qpsize : Nat) (s : Solver_B_linear_state)
    (hal : alpha_.length = l)
    (h : Solver_B_linear_state.Solve_loop solvebqp fuel l x_ b_ y_ alpha_ w Cp Cn eps shrinking
      qpsize = some s) :
    s.core.active_set.Perm (List.range l) ∧
    (∀ p, p < l → s.core.y.getD p 0 = y_.getD (s.core.active_set.getD p 0) 0) ∧
    (put_back l s.core.active_set s.core.alpha alpha_).length = l ∧
    ∀ o, o < l → ∃ p, p < l ∧ s.core.active_set[p]? = some o ∧
      (∀ q, s.core.active_set[q]? = some o → q = p) ∧
      (put_back l s.core.active_set s.core.alpha alpha_)[o]? = s.core.alpha[p]? := by
  obtain ⟨o1, o2, -, o4⟩ := Solver_B_linear_state.InOrder_exit solvebqp fuel l x_ b_ y_ alpha_
    w Cp Cn eps shrinking qpsize s h
  obtain ⟨g1, g2⟩ := Solver_B_linear.put_back_origin_linear s.core alpha_ o1
    (by rw [o2]; exact hal)
  rw [o2] at g1 g2
  have hperm : s.core.active_set.Perm (List.range l) := by rw [← o2]; exact o1.1
  refine ⟨hperm, o4, g1, fun o ho => ?_⟩
  obtain ⟨p1, p2, p3⟩ := perm_range_position s.core.active_set l o hperm ho
  exact ⟨_, p1, p2, p3, g2 o ho⟩

/-- The write-back of a run of `Solver_SPOC::Solve` on `l` points with `nr_class` classes,
tied to the state `s` in which the loop was left. -/
theorem Solver_SPOC_state.Solve_order_block (fuel l : Nat) (Q : Nat → Nat → ℚ)
    (alpha_ : List ℚ) (y_ : List Int) (C_ : List ℚ) (eps : ℚ) (shrinking : Bool)
    (nr_class q0 : Nat) (nu0 : List ℚ) (s : Solver_SPOC_state)
    (hal : alpha_.length = l * nr_class)
    (h : Solver_SPOC_state.Solve_loop fuel l Q alpha_ y_ C_ eps shrinking nr_class q0 nu0 =
      some s) :
    s.core.active_set.Perm (List.range l) ∧
    (∀ p, p < l → s.core.y.getD p 0 = y_.getD (s.core.active_set.getD p 0) 0) ∧
    (put_back_block l nr_class s.core.active_set s.core.alpha alpha_).length = l * nr_class ∧
    ∀ o, o < l → ∃ p, p < l ∧ s.core.active_set[p]? = some o ∧
      (∀ q, s.core.active_set[q]? = some o → q = p) ∧
      ∀ m, m < nr_class →
        (put_back_block l nr_class s.core.active_set s.core.alpha alpha_)[o * nr_class + m]? =
          s.core.alpha[p * nr_class + m]? := by
  obtain ⟨o1, o2, o0, -, o4⟩ := Solver_SPOC_state.InOrder_loop shrinking l nr_class y_ fuel _ _
    s (Solver_SPOC_state.InOrder_init_block l Q alpha_ y_ C_ eps nr_class q0 nu0).2 h
  obtain ⟨g1, g2⟩ := Solver_SPOC.put_back_origin_block s.core alpha_ o1
    (by rw [o2, o0]; exact hal)
  rw [o2, o0] at g1 g2
  have hperm : s.core.active_set.Perm (List.range l) := by rw [← o2]; exact o1.1
  refine ⟨hperm, o4, g1, fun o ho => ?_⟩
  obtain ⟨p1, p2, p3⟩ := perm_range_position s.core.active_set l o hperm ho
  refine ⟨_, p1, p2, p3, fun m hm => ?_⟩
  have := g2 o m ho hm
  rw [this]
  show (s.core.record (s.core.active_set.indexOf o) m).2.1 = _
  unfold Solver_SPOC.record
  rw [o0]

/-! ## The regression adapter and the swap of the adapters -/

/-- A sequence of calls in range on a coherent `ONE_CLASS_Q` state returns when every call has
fuel for `l` records, and leaves a coherent state. -/
theorem ONE_CLASS_Q.run_spec_one (E : svm_enums) (m : libm) (l : Nat) (calls : List QCall) :
    ∀ (q : ONE_CLASS_Q), q.Coherent E m l → (∀ c ∈ calls, c.in_range l) →
      ((∀ c ∈ calls, l ≤ c.fuel) → ∃ q', q.run E m calls = some q') ∧
      ∀ q', q.run E m calls = some q' → q'.Coherent E m l := by
  induction calls with
  | nil =>
    intro q h _
    refine ⟨fun _ => ⟨q, rfl⟩, fun q' hq => ?_⟩
    simp only [ONE_CLASS_Q.run, Option.some.injEq] at hq
    subst hq
    exact h
  | cons c r ih =>
    intro q h hreq
    have hc := hreq c (List.mem_cons_self _ _)
    have hstep : (l ≤ c.fuel → ∃ q1, q.call E m c = some q1) ∧
        ∀ q1, q.call E m c = some q1 → q1.Coherent E m l := by
      cases c with
      | get_Q fuel i len =>
        obtain ⟨g1, g2⟩ := ONE_CLASS_Q.get_Q_spec_one E m q l h fuel i len hc.1 hc.2.2
        refine ⟨fun hf => ?_, fun q1 hq1 => ?_⟩
        · obtain ⟨⟨q1, col⟩, hr⟩ := g1 hf
          exact ⟨q1, by simp [ONE_CLASS_Q.call, hr]⟩
        · simp only [ONE_CLASS_Q.call, Option.map_eq_some'] at hq1
          obtain ⟨⟨q2, col⟩, hr, rfl⟩ := hq1
          exact (g2 q2 col hr).1 hc.2.1
      | swap_index fuel i j =>
        obtain ⟨g1, g2⟩ := ONE_CLASS_Q.swap_index_spec_one E m q l h fuel i j hc.1 hc.2
        exact ⟨fun hf => g1 hf, fun q1 hq1 => (g2 q1 hq1).1⟩
    refine ⟨fun hf => ?_, fun q' hq => ?_⟩
    · obtain ⟨q1, h1⟩ := hstep.1 (hf c (List.mem_cons_self _ _))
      obtain ⟨q', h2⟩ := (ih q1 (hstep.2 q1 h1)
        (fun d hd => hreq d (List.mem_cons_of_mem _ hd))).1
        (fun d hd => hf d (List.mem_cons_of_mem _ hd))
      exact ⟨q', by simp only [ONE_CLASS_Q.run, h1]; exact h2⟩
    · simp only [ONE_CLASS_Q.run] at hq
      cases h1 : q.call E m c with
      | none => simp [h1] at hq
      | some q1 =>
        simp only [h1] at hq
        exact (ih q1 (hstep.2 q1 h1) (fun d hd => hreq d (List.mem_cons_of_mem _ hd))).2 q' hq

/-- C30 (counterexample): two or three points on a line with the linear kernel.  (1) On a
`BONE_CLASS_Q` object the column of position 0 is requested (`[2, 3]`), then
`swap_index(0, 1)` is called: the cache is the same as before, and the next `get_Q(0, 2)`
hands out the cached `[2, 3]`, although the values computed afresh for position 0 are now
`5` and `3`.  (2) On a `BSVR_Q` object with the column of point 0 cached, `swap_index(0, 1)`
leaves the cache and the array `x` of the evaluator as they are, while
`Cache::swap_index(0, 1)` would change the cache.  (3) On a `BSVC_Q` object, after the
requests `get_Q(0,0)`, `get_Q(1,3)`, `get_Q(0,0)` the call `swap_index(0,2)` returns and
exchanges the labels and the evaluator state, but the cached column of position 1 is still
`[3, 5, 7]` where the values computed afresh are `7, 5, 3`.  (4) On a `BSVC_Q` object with
the callback kernel, whose values `REAL(ans)[j]` for the argument `i+1` are `10*i + j` here,
the column `[0, 1]` of position 0 is cached; after `swap_index(0, 1)` the cache holds `[1, 0]`
for position 1 and `get_Q(1, 2)` hands it out, where the values of the callback for position
1 are `10` and `11`. -/
theorem swap_atomicity_counterexample :
    ((BONE_CLASS_Q.get_Q sample_enums sample_libm 2
        (ONE_CLASS_Q.new sample_enums 32 2 line_points line_param) 0 2).bind
      (fun r => (BONE_CLASS_Q.get_Q sample_enums sample_libm 2
          (BONE_CLASS_Q.swap_index r.1 0 1) 0 2).map
        (fun r2 => (r.2, decide ((BONE_CLASS_Q.swap_index r.1 0 1).cache = r.1.cache), r2.2,
          shifted_entry sample_enums sample_libm (BONE_CLASS_Q.swap_index r.1 0 1).kernel 0 0,
          shifted_entry sample_enums sample_libm (BONE_CLASS_Q.swap_index r.1 0 1).kernel 0 1)))
      = some ([some 2, some 3], true, [some 2, some 3], 5, 3)) ∧
    (((BSVR_Q.new sample_enums 32 2 line_points line_param).get_Q sample_enums sample_libm 2
        0 4).map
      (fun r => (decide ((r.1.swap_index 0 1).cache = r.1.cache),
        decide ((r.1.swap_index 0 1).kernel.x = r.1.kernel.x),
        decide (r.1.cache.swap_index 2 0 1 = some r.1.cache))) =
      some (true, true, false)) ∧
    (((BSVC_Q.new sample_enums 32 3 line_points line_param (fun _ _ => 0) [1, 1, 1]).run
        sample_enums sample_libm
        [QCall.get_Q 3 0 0, QCall.get_Q 3 1 3, QCall.get_Q 3 0 0, QCall.swap_index 3 0 2]).map
      (fun q => (dataAt q.cache.contents 1, lenAt q.cache.contents 1,
        q.entry sample_enums sample_libm 1 0, q.entry sample_enums sample_libm 1 1,
        q.entry sample_enums sample_libm 1 2)) =
      some ([some 3, some 5, some 7], 3, 7, 5, 3)) ∧
    (((BSVC_Q.new sample_enums 32 2 line_points callback_param
          (fun i j => 10 * (i : ℚ) + (j : ℚ)) [1, 1]).run sample_enums sample_libm
        [QCall.get_Q 2 0 2, QCall.swap_index 2 0 1]).bind
      (fun q => (q.get_Q sample_enums sample_libm 2 1 2).map
        (fun r => (r.2, q.callback_entry 1 0, q.callback_entry 1 1))) =
      some ([some 1, some 0], 10, 11)) := by
  refine ⟨by decide!, by decide!, by decide!, by decide!⟩

/-- C30 (amended): on adapters built by the constructor for `l` points with a kernel type
other than the callback and a cache budget of at least one column, and used since then only
by calls `get_Q` with `1 ≤ len ≤ l` (for `BSVR_Q`: any `len ≤ 2l`, with `qpsize ≥ 1`) and
`swap_index` on positions in range that returned: `BSVC_Q::swap_index(i, j)` and
`ONE_CLASS_Q::swap_index(i, j)` with `i, j < l` return (given fuel for `l` records) and
exchange the cache state by `Cache::swap_index`, the evaluator state by `Kernel::swap_index`
(`x[i], x[j]` and `x_square[i], x_square[j]`) and, for `BSVC_Q`, the labels `y[i]` and `y[j]`;
the value of every pair of positions is then the former value of the exchanged positions, and
every filled cell of a cached column holds the value that the adapter computes afresh for it
in the new state.  `BSVR_Q::swap_index(p, r)` with `p, r < 2l` exchanges only
`sign[p], sign[r]` and `index[p], index[r]`; it leaves the cache and the evaluator, which are
addressed through `index`, as they are, and every filled cell of a cached column holds the
value that the adapter computes afresh for the underlying point. -/
theorem swap_atomicity (E : svm_enums) (m : libm) (sizeof_head_t l : Nat)
    (x : List (List svm_node)) (param : svm_parameter) (expr : Nat → Nat → ℚ) (y_ : List Int)
    (cc co cr : List QCall) (q : BSVC_Q) (o : ONE_CLASS_Q) (a : BSVR_Q) (fuel i j p r : Nat)
    (hx : l ≤ x.length) (hy : l ≤ y_.length)
    (hb : (l : Int) ≤ (Cache.new sizeof_head_t l (cache_bytes param) : Cache ℚ).size)
    (hk : param.kernel_type ≠ 4) (hq : 1 ≤ param.qpsize)
    (hcc : ∀ c ∈ cc, c.in_range l) (hco : ∀ c ∈ co, c.in_range l)
    (hcr : ∀ c ∈ cr, c.positions_below (2 * l))
    (hrc : (BSVC_Q.new E sizeof_head_t l x param expr y_).run E m cc = some q)
    (hro : (ONE_CLASS_Q.new E sizeof_head_t l x param).run E m co = some o)
    (hrr : (BSVR_Q.new E sizeof_head_t l x param).run E m cr = some a)
    (hi : i < l) (hj : j < l) (hp : p < 2 * l) (hr : r < 2 * l) :
    ((l ≤ fuel → ∃ q', q.swap_index fuel i j = some q') ∧
      ∀ q', q.swap_index fuel i j = some q' →
        q.cache.swap_index fuel i j = some q'.cache ∧
        q'.kernel = q.kernel.swap_index i j ∧ q'.y = swap_at q.y i j ∧
        (∀ u v, q'.entry E m u v = q.entry E m (swap_pos i j u) (swap_pos i j v)) ∧
        ∀ u v : Nat, (v : Int) < lenAt q'.cache.contents u →
          (dataAt q'.cache.contents u)[v]? = some (some (q'.entry E m u v))) ∧
    ((l ≤ fuel → ∃ o', o.swap_index fuel i j = some o') ∧
      ∀ o', o.swap_index fuel i j = some o' →
        o.cache.swap_index fuel i j = some o'.cache ∧
        o'.kernel = o.kernel.swap_index i j ∧
        (∀ u v, o'.entry E m u v = o.entry E m (swap_pos i j u) (swap_pos i j v)) ∧
        ∀ u v : Nat, (v : Int) < lenAt o'.cache.contents u →
          (dataAt o'.cache.contents u)[v]? = some (some (o'.entry E m u v))) ∧
    ((a.swap_index p r).cache = a.cache ∧ (a.swap_index p r).kernel = a.kernel ∧
      (a.swap_index p r).sign = swap_at a.sign p r ∧
      (a.swap_index p r).index = swap_at a.index p r ∧
      ∀ u v : Nat, (v : Int) < lenAt (a.swap_index p r).cache.contents u →
        (dataAt (a.swap_index p r).cache.contents u)[v]? =
          some (some (shifted_entry E m (a.swap_index p r).kernel u v))) := by
  have h0 := BSVC_Q.Coherent_new_svc E m sizeof_head_t l x param expr y_ hx hy hb
  obtain ⟨hqc, -⟩ := (BSVC_Q.run_spec_svc E m l cc _ h0 hk hcc).2 q hrc
  have h1 := ONE_CLASS_Q.Coherent_new_one E m sizeof_head_t l x param hx hb
  have hoc := (ONE_CLASS_Q.run_spec_one E m l co _ h1 hco).2 o hro
  have h2 := BSVR_Q.Coherent_new_svr E m sizeof_head_t l x param hq hb
  obtain ⟨hac, hal, -⟩ := (BSVR_Q.run_spec_svr E m cr _ h2 hcr).2 a hrr
  have hal' : a.l = l := hal
  refine ⟨?_, ?_, ?_⟩
  · obtain ⟨g1, g2⟩ := BSVC_Q.swap_index_spec_svc E m q l hqc fuel i j hi hj
    refine ⟨g1, fun q' hs => ?_⟩
    obtain ⟨k1, -, k3, k4, k5, k6⟩ := g2 q' hs
    exact ⟨k3, k4, k5, k6, fun u v hv => k1.1.cells u v hv⟩
  · obtain ⟨g1, g2⟩ := ONE_CLASS_Q.swap_index_spec_one E m o l hoc fuel i j hi hj
    refine ⟨g1, fun o' hs => ?_⟩
    obtain ⟨k1, k2, k3, k4⟩ := g2 o' hs
    exact ⟨k2, k3, k4, fun u v hv => k1.1.cells u v hv⟩
  · obtain ⟨k1, -, k3, k4, k5, k6⟩ := BSVR_Q.swap_index_spec_svr E m a hac p r
      (by rw [hal']; exact hp) (by rw [hal']; exact hr)
    exact ⟨k3, k4, k5, k6, fun u v hv => k1.1.cells u v hv⟩

/-- Witness of C30 (amended): three points on a line; a full column and a swap on each of
the three adapters, then the swap of the positions 0 and 2. -/
theorem swap_atomicity_witness :
    match (BSVC_Q.new sample_enums 32 3 line_points line_param (fun _ _ => 0) [1, 1, 1]).run
        sample_enums sample_libm [QCall.get_Q 3 1 3, QCall.swap_index 3 0 1],
      (ONE_CLASS_Q.new sample_enums 32 3 line_points line_param).run
        sample_enums sample_libm [QCall.get_Q 3 2 3, QCall.swap_index 3 1 2],
      (BSVR_Q.new sample_enums 32 3 line_points line_param).run
        sample_enums sample_libm [QCall.get_Q 3 4 6, QCall.swap_index 3 0 5] with
    | some q, some o, some a =>
      ((3 ≤ 3 → ∃ q', q.swap_index 3 0 2 = some q') ∧
        ∀ q', q.swap_index 3 0 2 = some q' →
          q.cache.swap_index 3 0 2 = some q'.cache ∧
          q'.kernel = q.kernel.swap_index 0 2 ∧ q'.y = swap_at q.y 0 2 ∧
          (∀ u v, q'.entry sample_enums sample_libm u v =
            q.entry sample_enums sample_libm (swap_pos 0 2 u) (swap_pos 0 2 v)) ∧
          ∀ u v : Nat, (v : Int) < lenAt q'.cache.contents u →
            (dataAt q'.cache.contents u)[v]? =
              some (some (q'.entry sample_enums sample_libm u v))) ∧
      ((3 ≤ 3 → ∃ o', o.swap_index 3 0 2 = some o') ∧
        ∀ o', o.swap_index 3 0 2 = some o' →
          o.cache.swap_index 3 0 2 = some o'.cache ∧
          o'.kernel = o.kernel.swap_index 0 2 ∧
          (∀ u v, o'.entry sample_enums sample_libm u v =
            o.entry sample_enums sample_libm (swap_pos 0 2 u) (swap_pos 0 2 v)) ∧
          ∀ u v : Nat, (v : Int) < lenAt o'.cache.contents u →
            (dataAt o'.cache.contents u)[v]? =
              some (some (o'.entry sample_enums sample_libm u v))) ∧
      ((a.swap_index 1 4).cache = a.cache ∧ (a.swap_index 1 4).kernel = a.kernel ∧
        (a.swap_index 1 4).sign = swap_at a.sign 1 4 ∧
        (a.swap_index 1 4).index = swap_at a.index 1 4 ∧
        ∀ u v : Nat, (v : Int) < lenAt (a.swap_index 1 4).cache.contents u →
          (dataAt (a.swap_index 1 4).cache.contents u)[v]? =
            some (some (shifted_entry sample_enums sample_libm (a.swap_index 1 4).kernel u v)))
    | _, _, _ => False := by
  cases hc : (BSVC_Q.new sample_enums 32 3 line_points line_param (fun _ _ => 0)
      [1, 1, 1]).run sample_enums sample_libm [QCall.get_Q 3 1 3, QCall.swap_index 3 0 1] with
  | none =>
    have hsome : ((BSVC_Q.new sample_enums 32 3 line_points line_param (fun _ _ => 0)
        [1, 1, 1]).run sample_enums sample_libm
        [QCall.get_Q 3 1 3, QCall.swap_index 3 0 1]).isSome = true := by decide!
    rw [hc] at hsome
    exact absurd hsome (by decide)
  | some q =>
    cases ho : (ONE_CLASS_Q.new sample_enums 32 3 line_points line_param).run
        sample_enums sample_libm [QCall.get_Q 3 2 3, QCall.swap_index 3 1 2] with
    | none =>
      have hsome : ((ONE_CLASS_Q.new sample_enums 32 3 line_points line_param).run
          sample_enums sample_libm
          [QCall.get_Q 3 2 3, QCall.swap_index 3 1 2]).isSome = true := by decide!
      rw [ho] at hsome
      exact absurd hsome (by decide)
    | some o =>
      cases hr : (BSVR_Q.new sample_enums 32 3 line_points line_param).run
          sample_enums sample_libm [QCall.get_Q 3 4 6, QCall.swap_index 3 0 5] with
      | none =>
        have hsome : ((BSVR_Q.new sample_enums 32 3 line_points line_param).run
            sample_enums sample_libm
            [QCall.get_Q 3 4 6, QCall.swap_index 3 0 5]).isSome = true := by decide!
        rw [hr] at hsome
        exact absurd hsome (by decide)
      | some a =>
        exact swap_atomicity sample_enums sample_libm 32 3 line_points line_param
          (fun _ _ => 0) [1, 1, 1] [QCall.get_Q 3 1 3, QCall.swap_index 3 0 1]
          [QCall.get_Q 3 2 3, QCall.swap_index 3 1 2]
          [QCall.get_Q 3 4 6, QCall.swap_index 3 0 5] q o a 3 0 2 1 4
          (by decide) (by decide) line_budget (by decide) (by decide)
          (by intro c hc; simp at hc; rcases hc with rfl | rfl <;> simp [QCall.in_range])
          (by intro c hc; simp at hc; rcases hc with rfl | rfl <;> simp [QCall.in_range])
          (by intro c hc; simp at hc; rcases hc with rfl | rfl <;>
            simp [QCall.positions_below])
          hc ho hr (by decide) (by decide) (by decide) (by decide)

/-- C32: for `l ≥ 1` and `qpsize ≥ 1` the reload value `min(l*2/qpsize, 2000/qpsize)` of
`Solver_B::Solve` equals `max(1, min(2*l, 2000))/qpsize` (integer division); and when this
value `v` is at least 1 and shrinking is enabled, then from a head of the loop with
`counter = c`, `1 ≤ c ≤ v + 1` (`c = v + 1` at the start of `Solve`, `c = 1` after a
convergence reset), as long as no pass is a convergence reset, `do_shrinking` is called in
the pass number `c` and then in every `v`-th pass: the number of calls made in the first `k`
passes is `(k + v - c) / v`.  The calls are counted by the operations `counted`, which run
the loop of `Solver_B::Solve` on the same states and counters. -/
theorem shrink_cadence (l q : Nat) (hl : 1 ≤ l) (hq : 1 ≤ q) :
    min ((l : Int) * 2 / (q : Int)) (2000 / (q : Int)) =
      max 1 (min (2 * (l : Int)) 2000) / (q : Int) ∧
    ∀ (solvebqp : BQP → List ℚ) (s : Solver_B) (v k n0 c : Nat),
      s.l = l → s.qpsize = q →
      (v : Int) = min ((l : Int) * 2 / (q : Int)) (2000 / (q : Int)) → 1 ≤ v →
      1 ≤ c → c ≤ v + 1 →
      steady (Solver_B.ops solvebqp true) true k s c = true →
      (loop_head (counted (Solver_B.ops solvebqp true)) true k (s, n0) c).map
          (fun r => r.1.2) = some (n0 + (k + v - c) / v) ∧
      (loop_head (counted (Solver_B.ops solvebqp true)) true k (s, n0) c).map
          (fun r => (r.1.1, r.2)) = loop_head (Solver_B.ops solvebqp true) true k s c := by
  refine ⟨reload_value l q hl hq, ?_⟩
  intro solvebqp s v k n0 c hsl hsq hv hv1 hc1 hc2 hst
  exact Solver_B.shrink_calls solvebqp v hv1 k s n0 c (by rw [hsl, hsq]; exact hv) hc1 hc2 hst

/-- Witness of C32: the two points with `Cp = Cn = 1e-13`, where no pass is a convergence
reset: `l = 2`, `qpsize = 2`, reload value 2; in the first five passes from `counter = 1`
there are three calls of `do_shrinking` (passes 1, 3 and 5), and in the first five passes
from `counter = 3`, the value at the start of `Solve`, there are two (passes 3 and 5). -/
theorem shrink_cadence_witness :
    min (((2 : Nat) : Int) * 2 / ((2 : Nat) : Int)) (2000 / ((2 : Nat) : Int)) =
      max 1 (min (2 * ((2 : Nat) : Int)) 2000) / ((2 : Nat) : Int) ∧
    tiny_init.l = 2 ∧ tiny_init.qpsize = 2 ∧
    steady (Solver_B.ops solvebqp_diag true) true 5 tiny_init 1 = true ∧
    (loop_head (counted (Solver_B.ops solvebqp_diag true)) true 5 (tiny_init, 0) 1).map
        (fun r => r.1.2) = some 3 ∧
    (loop_head (counted (Solver_B.ops solvebqp_diag true)) true 5 (tiny_init, 0) 3).map
        (fun r => r.1.2) = some 2 :=
  ⟨(shrink_cadence 2 2 (by decide) (by decide)).1, by decide!, by decide!, by decide!,
    ((shrink_cadence 2 2 (by decide) (by decide)).2 solvebqp_diag tiny_init 2 5 0 1
      (by decide!) (by decide!) (by decide) (by decide) (by decide) (by decide)
      (by decide!)).1,
    ((shrink_cadence 2 2 (by decide) (by decide)).2 solvebqp_diag tiny_init 2 5 0 3
      (by decide!) (by decide!) (by decide) (by decide) (by decide) (by decide)
      (by decide!)).1⟩

/-- The result of `Solver_B::Solve` on arrays of `l` entries, tied to the state `s` in which
the loop was left: `active_set` is a permutation of `0..l-1` consistent with the labels and
the linear term, and the coefficient returned at the original index `active_set[p]` is
`alpha[p]`. -/
theorem Solver_B.Solve_order_run (solvebqp : BQP → List ℚ) (shrinking : Bool) (fuel l : Nat)
    (Q : Nat → Nat → ℚ) (b_ : List ℚ) (y_ : List Int) (alpha_ : List ℚ) (Cp Cn eps : ℚ)
    (qpsize : Nat) (out b : List ℚ) (obj : ℚ) (hal : alpha_.length = l)
    (h : Solver_B.Solve solvebqp fuel l Q b_ y_ alpha_ Cp Cn eps shrinking qpsize =
      some (out, b, obj)) :
    ∃ s : Solver_B,
      Solve_loop (Solver_B.ops solvebqp shrinking) shrinking fuel
        (Solver_B.init l Q b_ y_ alpha_ Cp Cn eps shrinking qpsize)
        (min ((l : Int) * 2 / qpsize) (2000 / qpsize) + 1) = some s ∧
      s.Ordered ∧ s.l = l ∧
      (∀ p, p < l → s.y.getD p 0 = y_.getD (s.active_set.getD p 0) 0) ∧
      out = put_back l s.active_set s.alpha alpha_ ∧ b = s.b ∧ out.length = l ∧
      (∀ o, o < l → out[o]? = (s.origin_record o).2.1) := by
  obtain ⟨s, hr, h1, h2⟩ := Solver_B.Solve_exit_state solvebqp shrinking fuel l Q b_ y_
    alpha_ Cp Cn eps qpsize out b obj h
  obtain ⟨o1, o2, _, o4⟩ := Solver_B.order_exit solvebqp shrinking l Q b_ y_ alpha_ Cp Cn eps
    qpsize fuel _ s hr
  obtain ⟨g1, g2⟩ := Solver_B.put_back_origin s alpha_ o1 (by rw [o2]; exact hal)
  rw [o2] at g1 g2
  exact ⟨s, hr, o1, o2, o4, h1, h2, by rw [h1]; exact g1, fun o ho => by rw [h1]; exact g2 o ho⟩

/-- C8: the loop "initialize active set" yields the identity and `Solver_B::Solve` starts
with it; whenever `Solver_B::Solve` returns, the state `s` in which its loop was left has an
`active_set` that is a permutation of `0..l-1` with `y[p] = y_[active_set[p]]` at every
position, every original index `o` stands at exactly one position `p` of `active_set`, and
the array returned as `alpha_` is the write-back of that state: it holds `alpha[p]` at
`alpha_[o]`.  In `Solver_B`, `Solver_B_linear` and `Solver_SPOC`, any sequence of calls
`swap_index(i, j)` with `i, j < l` keeps `active_set` a permutation of `0..l-1` and keeps,
for every original index, the entries of `active_set`, `alpha`, `G`, `alpha_status` and `y`
found at the position where `active_set` holds that index; and the write-back of
`Solver_B_linear` and of `Solver_SPOC` returns at every original index the coefficient so
found.  Likewise, whenever the loop of `Solver_B_linear::Solve` or of `Solver_SPOC::Solve`
is left, in the state `s`, `active_set` is a permutation of `0..l-1` consistent with the
labels, every original index `o` stands at exactly one position `p`, and the write-back of
that state into an array `alpha_` of `l` (of `l*nr_class`) entries holds `alpha[p]` at
`alpha_[o]` (the entries `alpha[p*nr_class+m]` at `alpha_[o*nr_class+m]`). -/
theorem output_ordering (solvebqp : BQP → List ℚ) (shrinking : Bool) (fuel l : Nat)
    (Q : Nat → Nat → ℚ) (b_ : List ℚ) (y_ : List Int) (alpha_ : List ℚ) (Cp Cn eps : ℚ)
    (qpsize : Nat) (out b : List ℚ) (obj : ℚ) (hal : alpha_.length = l)
    (h : Solver_B.Solve solvebqp fuel l Q b_ y_ alpha_ Cp Cn eps shrinking qpsize =
      some (out, b, obj)) :
    initial_active_set l = List.range l ∧
    (Solver_B.init l Q b_ y_ alpha_ Cp Cn eps shrinking qpsize).active_set = List.range l ∧
    (∃ s : Solver_B,
      Solve_loop (Solver_B.ops solvebqp shrinking) shrinking fuel
        (Solver_B.init l Q b_ y_ alpha_ Cp Cn eps shrinking qpsize)
        (min ((l : Int) * 2 / qpsize) (2000 / qpsize) + 1) = some s ∧
      s.active_set.Perm (List.range l) ∧
      (∀ p, p < l → s.y.getD p 0 = y_.getD (s.active_set.getD p 0) 0) ∧
      out = put_back l s.active_set s.alpha alpha_ ∧ out.length = l ∧
      ∀ o, o < l → ∃ p, p < l ∧ s.active_set[p]? = some o ∧
        (∀ q, s.active_set[q]? = some o → q = p) ∧ out[o]? = s.alpha[p]?) ∧
    (∀ (s : Solver_B) (es : List (Nat × Nat)), s.Ordered →
      (∀ e, e ∈ es → e.1 < s.l ∧ e.2 < s.l) →
      (s.swaps es).Ordered ∧
        ∀ o, o < s.l → (s.swaps es).origin_record o = s.origin_record o) ∧
    (∀ (s : Solver_B_linear) (es : List (Nat × Nat)), s.Ordered →
      (∀ e, e ∈ es → e.1 < s.l ∧ e.2 < s.l) →
      (s.swaps es).Ordered ∧
        ∀ o, o < s.l → (s.swaps es).origin_record o = s.origin_record o) ∧
    (∀ (s : Solver_B_linear) (a : List ℚ), s.Ordered → a.length = s.l →
      ∀ o, o < s.l →
        (put_back s.l s.active_set s.alpha a)[o]? = (s.origin_record o).2.1) ∧
    (∀ (s : Solver_SPOC) (es : List (Nat × Nat)), s.Ordered →
      (∀ e, e ∈ es → e.1 < s.l ∧ e.2 < s.l) →
      (s.swaps es).Ordered ∧
        ∀ o m, o < s.l → m < s.nr_class →
          (s.swaps es).origin_record o m = s.origin_record o m) ∧
    (∀ (s : Solver_SPOC) (a : List ℚ), s.Ordered → a.length = s.l * s.nr_class →
      ∀ o m, o < s.l → m < s.nr_class →
        (put_back_block s.l s.nr_class s.active_set s.alpha a)[o * s.nr_class + m]? =
          (s.origin_record o m).2.1) ∧
    (∀ (solver : BQP → List ℚ) (fuel' l' : Nat) (x_ : List (List svm_node)) (b' : List ℚ)
        (y' : List Int) (alpha' w : List ℚ) (Cp' Cn' eps' : ℚ) (shrinking' : Bool)
        (qpsize' : Nat) (s : Solver_B_linear_state), alpha'.length = l' →
      Solver_B_linear_state.Solve_loop solver fuel' l' x_ b' y' alpha' w Cp' Cn' eps'
        shrinking' qpsize' = some s →
      s.core.active_set.Perm (List.range l') ∧
      (∀ p, p < l' → s.core.y.getD p 0 = y'.getD (s.core.active_set.getD p 0) 0) ∧
      (put_back l' s.core.active_set s.core.alpha alpha').length = l' ∧
      ∀ o, o < l' → ∃ p, p < l' ∧ s.core.active_set[p]? = some o ∧
        (∀ q, s.core.active_set[q]? = some o → q = p) ∧
        (put_back l' s.core.active_set s.core.alpha alpha')[o]? = s.core.alpha[p]?) ∧
    (∀ (fuel' l' : Nat) (Q' : Nat → Nat → ℚ) (alpha' : List ℚ) (y' : List Int)
        (C' : List ℚ) (eps' : ℚ) (shrinking' : Bool) (nr_class q0 : Nat) (nu0 : List ℚ)
        (s : Solver_SPOC_state), alpha'.length = l' * nr_class →
      Solver_SPOC_state.Solve_loop fuel' l' Q' alpha' y' C' eps' shrinking' nr_class q0 nu0 =
        some s →
      s.core.active_set.Perm (List.range l') ∧
      (∀ p, p < l' → s.core.y.getD p 0 = y'.getD (s.core.active_set.getD p 0) 0) ∧
      (put_back_block l' nr_class s.core.active_set s.core.alpha alpha').length =
        l' * nr_class ∧
      ∀ o, o < l' → ∃ p, p < l' ∧ s.core.active_set[p]? = some o ∧
        (∀ q, s.core.active_set[q]? = some o → q = p) ∧
        ∀ m, m < nr_class →
          (put_back_block l' nr_class s.core.active_set s.core.alpha alpha')[o * nr_class +
            m]? = s.core.alpha[p * nr_class + m]?) := by
  refine ⟨initial_active_set_eq l,
    (Solver_B.order_init l Q b_ y_ alpha_ Cp Cn eps shrinking qpsize).1, ?_,
    fun s es hs hes => ⟨(Solver_B.Ordered_swaps es s hes hs).1,
      (Solver_B.Ordered_swaps es s hes hs).2.2⟩,
    fun s es hs hes => ⟨(Solver_B_linear.Ordered_swaps_linear es s hes hs).1,
      (Solver_B_linear.Ordered_swaps_linear es s hes hs).2.2⟩,
    fun s a hs ha => (Solver_B_linear.put_back_origin_linear s a hs ha).2,
    fun s es hs hes => ⟨(Solver_SPOC.Ordered_swaps_block es s hes hs).1,
      (Solver_SPOC.Ordered_swaps_block es s hes hs).2.2.2⟩,
    fun s a hs ha => (Solver_SPOC.put_back_origin_block s a hs ha).2,
    fun solver fuel' l' x_ b' y' alpha' w Cp' Cn' eps' shrinking' qpsize' s hal' hs =>
      Solver_B_linear_state.Solve_order_linear solver fuel' l' x_ b' y' alpha' w Cp' Cn' eps'
        shrinking' qpsize' s hal' hs,
    fun fuel' l' Q' alpha' y' C' eps' shrinking' nr_class q0 nu0 s hal' hs =>
      Solver_SPOC_state.Solve_order_block fuel' l' Q' alpha' y' C' eps' shrinking' nr_class q0
        nu0 s hal' hs⟩
  obtain ⟨s, hr, o1, o2, o3, o4, -, o5, o6⟩ := Solver_B.Solve_order_run solvebqp shrinking
    fuel l Q b_ y_ alpha_ Cp Cn eps qpsize out b obj hal h
  have hperm : s.active_set.Perm (List.range l) := by rw [← o2]; exact o1.1
  refine ⟨s, hr, hperm, o3, o4, o5, fun o ho => ?_⟩
  obtain ⟨p1, p2, p3⟩ := perm_range_position s.active_set l o hperm ho
  exact ⟨_, p1, p2, p3, o6 o ho⟩

/-- Witness of C8: the run on two variables with linear term `[5, -1]`, in which shrinking
exchanges the two positions: the loop is left with `active_set = [1, 0]` and
`alpha = [1/2, 0]`, and the array returned is `[0, 1/2]`; and the same problem in
`Solver_B_linear` (points `(1)` and `(-1)` with the labels `+1`), where the loop is left
with the same `active_set` and `alpha` and the write-back gives `[0, 1/2]`. -/
theorem output_ordering_witness :
    Solver_B.Solve solvebqp_diag 4 2 two_point_Q [5, -1] [1, 1] [0, 0] 1 1 (1 / 1000) true 5 =
      some ([0, 1 / 2], [-1, 5], -1 / 4) ∧
    (∃ s : Solver_B,
      Solve_loop (Solver_B.ops solvebqp_diag true) true 4
        (Solver_B.init 2 two_point_Q [5, -1] [1, 1] [0, 0] 1 1 (1 / 1000) true 5)
        (min (((2 : Nat) : Int) * 2 / ((5 : Nat) : Int)) (2000 / ((5 : Nat) : Int)) + 1) =
          some s ∧
      s.active_set = [1, 0] ∧ s.alpha = [1 / 2, 0] ∧
      s.active_set.Perm (List.range 2) ∧
      (∀ p, p < 2 → s.y.getD p 0 = ([1, 1] : List Int).getD (s.active_set.getD p 0) 0) ∧
      ([0, 1 / 2] : List ℚ) = put_back 2 s.active_set s.alpha [0, 0] ∧
      ([0, 1 / 2] : List ℚ).length = 2 ∧
      ∀ o, o < 2 → ∃ p, p < 2 ∧ s.active_set[p]? = some o ∧
        (∀ q, s.active_set[q]? = some o → q = p) ∧
        ([0, 1 / 2] : List ℚ)[o]? = s.alpha[p]?) ∧
    (∃ s : Solver_B_linear_state,
      Solver_B_linear_state.Solve_loop solvebqp_diag 4 2 [[⟨1, 1⟩], [⟨1, -1⟩]] [5, -1] [1, 1]
        [0, 0] [0, 0] 1 1 (1 / 1000) true 5 = some s ∧
      s.core.active_set = [1, 0] ∧ s.core.alpha = [1 / 2, 0] ∧
      put_back 2 s.core.active_set s.core.alpha [0, 0] = [0, 1 / 2] ∧
      s.core.active_set.Perm (List.range 2) ∧
      ∀ o, o < 2 → ∃ p, p < 2 ∧ s.core.active_set[p]? = some o ∧
        (∀ q, s.core.active_set[q]? = some o → q = p) ∧
        (put_back 2 s.core.active_set s.core.alpha [0, 0])[o]? = s.core.alpha[p]?) := by
  refine ⟨Solve_swapped, ?_, ?_⟩
  · obtain ⟨s, hr, h1, h2, h3, h4, h5⟩ :=
      (output_ordering solvebqp_diag true 4 2 two_point_Q [5, -1] [1, 1] [0, 0] 1 1 (1 / 1000)
        5 [0, 1 / 2] [-1, 5] (-1 / 4) rfl Solve_swapped).2.2.1
    have hs := Solve_loop_swapped
    rw [hr] at hs
    simp only [Option.map_some', Option.some.injEq, Prod.mk.injEq] at hs
    exact ⟨s, hr, hs.1, hs.2.1, h1, h2, h3, h4, h5⟩
  · have hv : (Solver_B_linear_state.Solve_loop solvebqp_diag 4 2 [[⟨1, 1⟩], [⟨1, -1⟩]]
        [5, -1] [1, 1] [0, 0] [0, 0] 1 1 (1 / 1000) true 5).map
        (fun s => (s.core.active_set, s.core.alpha,
          put_back 2 s.core.active_set s.core.alpha [0, 0])) =
        some ([1, 0], [1 / 2, 0], [0, 1 / 2]) := by decide!
    obtain ⟨s, hs, hval⟩ := Option.map_eq_some'.mp hv
    obtain ⟨g1, -, -, g4⟩ :=
      (output_ordering solvebqp_diag true 4 2 two_point_Q [5, -1] [1, 1] [0, 0] 1 1 (1 / 1000)
        5 [0, 1 / 2] [-1, 5] (-1 / 4) rfl Solve_swapped).2.2.2.2.2.2.2.2.1
        solvebqp_diag 4 2 [[⟨1, 1⟩], [⟨1, -1⟩]] [5, -1] [1, 1] [0, 0] [0, 0] 1 1 (1 / 1000)
        true 5 s rfl hs
    exact ⟨s, hs, congrArg Prod.fst hval, congrArg (fun p => p.2.1) hval,
      congrArg (fun p => p.2.2) hval, g1, g4⟩

/-- C39 (counterexample): on two variables with `Q = diag(2, 2)`, linear term
`b_ = [5, -1]`, `Cp = Cn = 1`, shrinking enabled and `qpsize = 5` (so that `l*2/qpsize = 0`
and the first pass of the loop calls `do_shrinking`), `Solver_B::Solve` shrinks variable 0,
which swaps positions 0 and 1 of every array, `b` included; `b` is the caller's array
(`b = b_`), the positions are not swapped back, and the call returns with `b_ = [-1, 5]`.
The solution is put back in the original order (`alpha_ = [0, 1/2]`).  Without shrinking the
same call leaves `b_` as it was. -/
theorem linear_term_aliased :
    Solver_B.Solve solvebqp_diag 4 2 two_point_Q [5, -1] [1, 1] [0, 0] 1 1 (1 / 1000) true 5 =
      some ([0, 1 / 2], [-1, 5], -1 / 4) ∧
    Solver_B.Solve solvebqp_diag 4 2 two_point_Q [5, -1] [1, 1] [0, 0] 1 1 (1 / 1000) false 5 =
      some ([0, 1 / 2], [5, -1], -1 / 4) := by
  constructor <;> decide!

/-- C39 (amended): whenever `Solver_B::Solve` returns on a linear-term array `b_` of `l`
entries, the array holds the values it had on entry, re-ordered like the variables: with
the state `s` in which the loop was left, `b_[p]` on return is the former `b_[active_set[p]]`
for every `p < l`, so the array on return is a permutation of the array on entry; and in
every run with shrinking disabled the array is unchanged. -/
theorem linear_term_frame (solvebqp : BQP → List ℚ) (shrinking : Bool) (fuel l : Nat)
    (Q : Nat → Nat → ℚ) (b_ : List ℚ) (y_ : List Int) (alpha_ : List ℚ) (Cp Cn eps : ℚ)
    (qpsize : Nat) (out b : List ℚ) (obj : ℚ) (hb : b_.length = l)
    (h : Solver_B.Solve solvebqp fuel l Q b_ y_ alpha_ Cp Cn eps shrinking qpsize =
      some (out, b, obj)) :
    (shrinking = false → b = b_) ∧
    b.length = l ∧ b.Perm b_ ∧
    ∃ s : Solver_B,
      Solve_loop (Solver_B.ops solvebqp shrinking) shrinking fuel
        (Solver_B.init l Q b_ y_ alpha_ Cp Cn eps shrinking qpsize)
        (min ((l : Int) * 2 / qpsize) (2000 / qpsize) + 1) = some s ∧
      b = s.b ∧ s.active_set.Perm (List.range l) ∧
      ∀ p, p < l → b.getD p 0 = b_.getD (s.active_set.getD p 0) 0 := by
  obtain ⟨s, hr, -, h2⟩ := Solver_B.Solve_exit_state solvebqp shrinking fuel l Q b_ y_
    alpha_ Cp Cn eps qpsize out b obj h
  obtain ⟨⟨t1, t2, -, -⟩, t5, t6⟩ := Solver_B.Tracks_exit solvebqp shrinking l Q b_ y_ alpha_
    Cp Cn eps qpsize fuel _ s hb hr
  have hperm : s.active_set.Perm (List.range l) := by rw [← t2]; exact t1.1
  have hlen : s.active_set.length = l := by rw [hperm.length_eq, List.length_range]
  have e1 : s.b = s.active_set.map (fun i => b_.getD i 0) := by
    apply List.ext_getElem? 
    intro p
    by_cases hp : p < l
    · rw [List.getElem?_map, List.getElem?_eq_getElem (by omega : p < s.b.length),
        List.getElem?_eq_getElem (by omega : p < s.active_set.length)]
      have := t6 p hp
      rw [List.getD_eq_getElem _ _ (by omega : p < s.b.length),
        List.getD_eq_getElem _ _ (by omega : p < s.active_set.length)] at this
      simp only [Option.map_some', this]
    · rw [List.getElem?_map, List.getElem?_eq_none (by omega), List.getElem?_eq_none (by omega)]
      rfl
  have e2 : b_ = (List.range l).map (fun i => b_.getD i 0) := by
    apply List.ext_getElem?
    intro p
    by_cases hp : p < l
    · rw [List.getElem?_map, List.getElem?_range hp,
        List.getElem?_eq_getElem (by omega : p < b_.length)]
      simp only [Option.map_some', List.getD_eq_getElem _ _ (by omega : p < b_.length)]
    · rw [List.getElem?_map, List.getElem?_eq_none (by omega),
        List.getElem?_eq_none (by rw [List.length_range]; omega)]
      rfl
  refine ⟨fun hs => ?_, by rw [h2]; exact t5, ?_, s, hr, h2, hperm,
    fun p hp => by rw [h2]; exact t6 p hp⟩
  · subst hs
    rw [h2]
    exact Solver_B.linear_term_kept solvebqp l Q b_ y_ alpha_ Cp Cn eps qpsize fuel _ s hr
  · rw [h2, e1]
    conv_rhs => rw [e2]
    exact hperm.map _

/-- Witness of C39 (amended): the run in which shrinking exchanges the two positions, and
the same run without shrinking. -/
theorem linear_term_frame_witness :
    (([-1, 5] : List ℚ).length = 2 ∧ ([-1, 5] : List ℚ).Perm [5, -1] ∧
      ∃ s : Solver_B,
        Solve_loop (Solver_B.ops solvebqp_diag true) true 4
          (Solver_B.init 2 two_point_Q [5, -1] [1, 1] [0, 0] 1 1 (1 / 1000) true 5)
          (min (((2 : Nat) : Int) * 2 / ((5 : Nat) : Int)) (2000 / ((5 : Nat) : Int)) + 1) =
            some s ∧
        ([-1, 5] : List ℚ) = s.b ∧ s.active_set.Perm (List.range 2) ∧
        ∀ p, p < 2 → ([-1, 5] : List ℚ).getD p 0 =
          ([5, -1] : List ℚ).getD (s.active_set.getD p 0) 0) ∧
    (false = false → ([5, -1] : List ℚ) = [5, -1]) :=
  ⟨(linear_term_frame solvebqp_diag true 4 2 two_point_Q [5, -1] [1, 1] [0, 0] 1 1
      (1 / 1000) 5 [0, 1 / 2] [-1, 5] (-1 / 4) rfl Solve_swapped).2,
    (linear_term_frame solvebqp_diag false 4 2 two_point_Q [5, -1] [1, 1] [0, 0] 1 1
      (1 / 1000) 5 [0, 1 / 2] [5, -1] (-1 / 4) rfl (by decide!)).1⟩

/-! ## The validation of the parameters -/

theorem prefix_loop_double_le (rest : List ℚ) : ∀ (phi : ℚ) (r : Nat),
    (prefix_loop_double phi r rest).2 ≤ r + rest.length := by
  induction rest with
  | nil => intro phi r; simp [prefix_loop_double]
  | cons d rest ih =>
    intro phi r
    simp only [prefix_loop_double]
    split_ifs
    · have := ih (to_double (phi + d)) (r + 1)
      simp only [List.length_cons]
      omega
    · simp

theorem Solver_SPOC.last_accepted_double_le (A : ℚ) (B : List ℚ) (C : ℚ) (hB : B ≠ []) :
    Solver_SPOC.last_accepted_double A B C ≤ B.length - 1 := by
  have hperm : (compar_sort B).Perm B := List.perm_insertionSort _ B
  have hlen : (compar_sort B).length = B.length := hperm.length_eq
  unfold Solver_SPOC.last_accepted_double
  simp only []
  have := prefix_loop_double_le (compar_sort B).tail
    (to_double ((compar_sort B).headD 0 - to_double (A * C))) 0
  rw [List.length_tail, hlen] at this
  omega

theorem Solver_SPOC.solve_sub_problem_double_nonpos (A : ℚ) (B : List ℚ) (C : ℚ) (hA : 0 < A)
    (m : Nat) : (Solver_SPOC.solve_sub_problem_double A B C).getD m 0 ≤ 0 := by
  unfold Solver_SPOC.solve_sub_problem_double
  rw [List.getD_eq_getElem?_getD, List.getElem?_map]
  cases hm : B[m]? with
  | none => simp
  | some b =>
    simp only [Option.map_some', Option.getD_some]
    exact round_to_nonpos _ _ _
      (div_nonpos_of_nonpos_of_nonneg (min_le_left _ _) (le_of_lt hA))

/-- C35 (counterexample): (1) for `A = 1`, `C = 0` and `B = [3, 1]` the loop ends with `r = 0`
and `phi = 3`: the accepted prefix is the entry `D[0] = 3`, but no coordinate has
`B[m] > phi`.  (2) In `double` arithmetic, for `A = 1`, `C = 1e-20 > 0` and `B = [1, 0]` the
difference `D[0] - A*C` rounds to `D[0] = 1`, the loop ends with `r = 0` and `phi = 1`, and
again no coordinate has `B[m] > phi`; in exact arithmetic the cutoff is below 1. -/
theorem water_filling_counterexample :
    (Solver_SPOC.last_accepted 1 [3, 1] 0 = 0 ∧ Solver_SPOC.cutoff 1 [3, 1] 0 = 3 ∧
      (compar_sort [3, 1]).take (Solver_SPOC.last_accepted 1 [3, 1] 0 + 1) = [3] ∧
      ([3, 1] : List ℚ).filter (fun x => decide (Solver_SPOC.cutoff 1 [3, 1] 0 < x)) = []) ∧
    (0 < tiny_double ∧ to_double tiny_double = tiny_double ∧
      Solver_SPOC.last_accepted_double 1 [1, 0] tiny_double = 0 ∧
      Solver_SPOC.cutoff_double 1 [1, 0] tiny_double = 1 ∧
      (compar_sort [1, 0]).take (Solver_SPOC.last_accepted_double 1 [1, 0] tiny_double + 1) =
        [1] ∧
      ([1, 0] : List ℚ).filter
        (fun x => decide (Solver_SPOC.cutoff_double 1 [1, 0] tiny_double < x)) = [] ∧
      Solver_SPOC.cutoff 1 [1, 0] tiny_double < 1) := by
  refine ⟨by decide!, by decide!, by decide!, by decide!, by decide!, by decide!, by decide!,
    by decide!⟩

/-- C35 (amended): for `A > 0`, `C = C[y[q]] ≥ 0` and `B` of length `nr_class ≥ 1`, in exact
arithmetic the prefix loop of `solve_sub_problem` ends with `r ≤ nr_class - 1` (so that the
last entry read is `D[r+1]` with `r + 1 ≤ nr_class`); every accepted entry `D[0..r]` is at
least `phi` and every other entry is at most `phi`, and when `C > 0` the accepted prefix is
exactly the part of the sorted array with `D[m] > phi`, as many entries as there are
coordinates with `B[m] > phi`; `nu[m] ≤ 0` for every `m` before the closing adjustment and
`nu[m] ≤ get_C(q, m)` for every `m` after it.  In `double` arithmetic (finite values,
`C` a `double`) the loop ends with `r ≤ nr_class - 1` as well, `nu[m] ≤ 0` before the closing
adjustment and `nu[m] ≤ get_C(q, m)` after it. -/
theorem water_filling (A : ℚ) (B : List ℚ) (y : List Int) (Cs : List ℚ) (q : Nat)
    (hA : 0 < A) (hC : 0 ≤ Cs.getD (y.getD q 0).toNat 0) (hB : B ≠ [])
    (hy : 0 ≤ y.getD q 0) :
    Solver_SPOC.last_accepted A B (Cs.getD (y.getD q 0).toNat 0) ≤ B.length - 1 ∧
    (∀ x ∈ (compar_sort B).take
        (Solver_SPOC.last_accepted A B (Cs.getD (y.getD q 0).toNat 0) + 1),
      Solver_SPOC.cutoff A B (Cs.getD (y.getD q 0).toNat 0) ≤ x) ∧
    (∀ x ∈ (compar_sort B).drop
        (Solver_SPOC.last_accepted A B (Cs.getD (y.getD q 0).toNat 0) + 1),
      x ≤ Solver_SPOC.cutoff A B (Cs.getD (y.getD q 0).toNat 0)) ∧
    (0 < Cs.getD (y.getD q 0).toNat 0 →
      (compar_sort B).take (Solver_SPOC.last_accepted A B (Cs.getD (y.getD q 0).toNat 0) + 1) =
        (compar_sort B).filter
          (fun x => decide (Solver_SPOC.cutoff A B (Cs.getD (y.getD q 0).toNat 0) < x)) ∧
      (B.filter
          (fun x => decide (Solver_SPOC.cutoff A B (Cs.getD (y.getD q 0).toNat 0) < x))).length =
        Solver_SPOC.last_accepted A B (Cs.getD (y.getD q 0).toNat 0) + 1) ∧
    (∀ m, (Solver_SPOC.solve_sub_problem A B (Cs.getD (y.getD q 0).toNat 0)).getD m 0 ≤ 0) ∧
    (∀ (nu : List ℚ) (m : Nat),
      (Solver_SPOC.new_nu A B (Cs.getD (y.getD q 0).toNat 0) (y.getD q 0).toNat nu).getD m 0 ≤
        Solver_SPOC.get_C y Cs q m) ∧
    Solver_SPOC.last_accepted_double A B (Cs.getD (y.getD q 0).toNat 0) ≤ B.length - 1 ∧
    (∀ m, (Solver_SPOC.solve_sub_problem_double A B
      (Cs.getD (y.getD q 0).toNat 0)).getD m 0 ≤ 0) ∧
    (to_double (Cs.getD (y.getD q 0).toNat 0) = Cs.getD (y.getD q 0).toNat 0 →
      ∀ (nu : List ℚ) (m : Nat),
        (Solver_SPOC.new_nu_double A B (Cs.getD (y.getD q 0).toNat 0) (y.getD q 0).toNat
          nu).getD m 0 ≤ Solver_SPOC.get_C y Cs q m) := by
  generalize hCd : Cs.getD (y.getD q 0).toNat 0 = C at hC ⊢
  obtain ⟨h1, h2, h3, h4⟩ := Solver_SPOC.accepted_spec A B C hB (mul_nonneg (le_of_lt hA) hC)
  have hsub := Solver_SPOC.solve_sub_problem_nonpos A B C hA
  have hsubd := Solver_SPOC.solve_sub_problem_double_nonpos A B C hA
  have hAabs : |A| > 0 := abs_pos.mpr (ne_of_gt hA)
  have hyq : y.getD q 0 = (((y.getD q 0).toNat : Nat) : Int) := (Int.toNat_of_nonneg hy).symm
  refine ⟨by omega, h2, h3, ?_, hsub, ?_, Solver_SPOC.last_accepted_double_le A B C hB,
    hsubd, ?_⟩
  · intro hpos
    have h4' := h4 (mul_pos hA hpos)
    have hsplit := List.take_append_drop (Solver_SPOC.last_accepted A B C + 1) (compar_sort B)
    have hf := filter_accepted _ _ (Solver_SPOC.cutoff A B C) h4' h3
    rw [hsplit] at hf
    refine ⟨hf.symm, ?_⟩
    have hperm : (compar_sort B).Perm B := List.perm_insertionSort _ B
    rw [← (hperm.filter _).length_eq, hf, List.length_take, hperm.length_eq]
    omega
  · intro nu m
    unfold Solver_SPOC.new_nu Solver_SPOC.get_C
    simp only [if_pos hAabs]
    generalize (y.getD q 0).toNat = yq at hyq hCd ⊢
    by_cases hm : m = yq
    · subst hm
      rw [if_pos hyq, hCd]
      by_cases hlt : m < (Solver_SPOC.solve_sub_problem A B C).length
      · rw [List.getD_eq_getElem?_getD, List.getElem?_set_self hlt]
        simp only [Option.getD_some]
        linarith [hsub m]
      · rw [List.getD_eq_getElem?_getD, List.getElem?_eq_none (by simp; omega)]
        simpa using hC
    · rw [if_neg (by rw [hyq]; intro e; exact hm (by exact_mod_cast e.symm)),
        List.getD_eq_getElem?_getD, List.getElem?_set_ne (Ne.symm hm),
        ← List.getD_eq_getElem?_getD]
      exact hsub m
  · intro hfix nu m
    unfold Solver_SPOC.new_nu_double Solver_SPOC.get_C
    simp only [if_pos hAabs]
    generalize (y.getD q 0).toNat = yq at hyq hCd ⊢
    by_cases hm : m = yq
    · subst hm
      rw [if_pos hyq, hCd]
      by_cases hlt : m < (Solver_SPOC.solve_sub_problem_double A B C).length
      · rw [List.getD_eq_getElem?_getD, List.getElem?_set_self hlt]
        simp only [Option.getD_some]
        exact round_to_le_of_fixed 53 (-1074) _ C hC hfix (by linarith [hsubd m])
      · rw [List.getD_eq_getElem?_getD, List.getElem?_eq_none (by simp; omega)]
        simpa using hC
    · rw [if_neg (by rw [hyq]; intro e; exact hm (by exact_mod_cast e.symm)),
        List.getD_eq_getElem?_getD, List.getElem?_set_ne (Ne.symm hm),
        ← List.getD_eq_getElem?_getD]
      exact hsubd m

/-- Witness of C35 (amended): `A = 2`, `B = [1, 4, 3]`, true class 1 with `C = 2`. -/
theorem water_filling_witness :
    Solver_SPOC.last_accepted 2 [1, 4, 3]
        (([1, 2, 1] : List ℚ).getD (([0, 1] : List Int).getD 1 0).toNat 0) ≤
      ([1, 4, 3] : List ℚ).length - 1 ∧
    Solver_SPOC.last_accepted 2 [1, 4, 3] 2 = 1 ∧ Solver_SPOC.cutoff 2 [1, 4, 3] 2 = 3 / 2 ∧
    Solver_SPOC.new_nu 2 [1, 4, 3] 2 1 [0, 0, 0] = [0, 3 / 4, -3 / 4] ∧
    Solver_SPOC.last_accepted_double 2 [1, 4, 3]
        (([1, 2, 1] : List ℚ).getD (([0, 1] : List Int).getD 1 0).toNat 0) ≤
      ([1, 4, 3] : List ℚ).length - 1 ∧
    Solver_SPOC.new_nu_double 2 [1, 4, 3] 2 1 [0, 0, 0] = [0, 3 / 4, -3 / 4] :=
  ⟨(water_filling 2 [1, 4, 3] [0, 1] [1, 2, 1] 1 (by norm_num) (by decide!) (by simp)
    (by decide)).1, by decide!, by decide!, by decide!,
    (water_filling 2 [1, 4, 3] [0, 1] [1, 2, 1] 1 (by norm_num) (by decide!) (by simp)
    (by decide)).2.2.2.2.2.2.1, by decide!⟩
/-! ## The length of the warm-start path -/

/-- The path loop of `solve_c_svc` in exact arithmetic: the calls and the arrays. -/
theorem c_svc_path_result (solver : ℚ → ℚ → List ℚ × List ℚ → List ℚ × List ℚ)
    (x : List (List svm_node)) (y : List Int) (n l : Nat) (Cp Cn Cstep Cbegin Cn0 : ℚ) :
    ∀ (m k : Nat) (s : path_state) (fuel : Nat),
      s.Cpj = Cbegin * Cstep ^ k → s.Cnj = Cn0 * Cstep ^ k →
      (∀ j, k ≤ j → j < k + m → Cbegin * Cstep ^ j < Cp) →
      ¬ (Cbegin * Cstep ^ (k + m) < Cp) → m ≤ fuel →
      ∃ r, c_svc_path solver x y n l Cp Cn Cstep fuel s = some r ∧
        r.calls = s.calls ++
          (List.range' k m).map (fun j => (Cbegin * Cstep ^ j, Cn0 * Cstep ^ j)) ∧
        (r.alpha, r.w) =
          spec_c_svc_steps solver x y n l Cp Cn Cstep Cbegin Cn0 m k (s.alpha, s.w) := by
  intro m
  induction m with
  | zero =>
    intro k s fuel h1 _ _ h4 _
    have hn : ¬ s.Cpj < Cp := by rw [h1]; simpa using h4
    refine ⟨s, ?_, by simp, rfl⟩
    cases fuel with
    | zero => rw [c_svc_path, if_neg hn]
    | succ f => rw [c_svc_path, if_neg hn]
  | succ m ih =>
    intro k s fuel h1 h2 h3 h4 h5
    have hlt : s.Cpj < Cp := by rw [h1]; exact h3 k (le_refl _) (by omega)
    obtain ⟨f, rfl⟩ : ∃ f, fuel = f + 1 := ⟨fuel - 1, by omega⟩
    rw [c_svc_path, if_pos hlt]
    obtain ⟨r, e1, e2, e3⟩ := ih (k + 1)
      { alpha := (c_svc_rescale x y n l Cp Cn Cstep s.Cpj s.Cnj
            (solver s.Cpj s.Cnj (s.alpha, s.w))).1
        w := (c_svc_rescale x y n l Cp Cn Cstep s.Cpj s.Cnj
            (solver s.Cpj s.Cnj (s.alpha, s.w))).2
        Cpj := s.Cpj * Cstep
        Cnj := s.Cnj * Cstep
        calls := s.calls ++ [(s.Cpj, s.Cnj)] } f
      (by simp only [h1]; ring) (by simp only [h2]; ring)
      (fun j hj1 hj2 => h3 j (by omega) (by omega))
      (by rw [show k + 1 + m = k + (m + 1) by omega]; exact h4) (by omega)
    refine ⟨r, e1, ?_, ?_⟩
    · rw [e2, List.range'_succ, List.map_cons, h1, h2]
      simp
    · rw [e3, spec_c_svc_steps, h1, h2]

/-- The path loop of `solve_epsilon_svr` in exact arithmetic: the calls and the arrays. -/
theorem svr_path_result (solver : ℚ → ℚ → List ℚ × List ℚ → List ℚ × List ℚ)
    (x : List (List svm_node)) (y : List Int) (n l : Nat) (C Cstep Cbegin : ℚ) :
    ∀ (m k : Nat) (s : path_state) (fuel : Nat),
      s.Cpj = Cbegin * Cstep ^ k →
      (∀ j, k ≤ j → j < k + m → Cbegin * Cstep ^ j < C) →
      ¬ (Cbegin * Cstep ^ (k + m) < C) → m ≤ fuel →
      ∃ r, svr_path solver x y n l C Cstep fuel s = some r ∧
        r.calls = s.calls ++
          (List.range' k m).map (fun j => (Cbegin * Cstep ^ j, Cbegin * Cstep ^ j)) ∧
        (r.alpha, r.w) = spec_svr_steps solver x y n l C Cstep Cbegin m k (s.alpha, s.w) := by
  intro m
  induction m with
  | zero =>
    intro k s fuel h1 _ h4 _
    have hn : ¬ s.Cpj < C := by rw [h1]; simpa using h4
    refine ⟨s, ?_, by simp, rfl⟩
    cases fuel with
    | zero => rw [svr_path, if_neg hn]
    | succ f => rw [svr_path, if_neg hn]
  | succ m ih =>
    intro k s fuel h1 h3 h4 h5
    have hlt : s.Cpj < C := by rw [h1]; exact h3 k (le_refl _) (by omega)
    obtain ⟨f, rfl⟩ : ∃ f, fuel = f + 1 := ⟨fuel - 1, by omega⟩
    rw [svr_path, if_pos hlt]
    obtain ⟨r, e1, e2, e3⟩ := ih (k + 1)
      { alpha := (svr_rescale x y n l C Cstep s.Cpj (solver s.Cpj s.Cpj (s.alpha, s.w))).1
        w := (svr_rescale x y n l C Cstep s.Cpj (solver s.Cpj s.Cpj (s.alpha, s.w))).2
        Cpj := s.Cpj * Cstep
        Cnj := s.Cnj
        calls := s.calls ++ [(s.Cpj, s.Cpj)] } f
      (by simp only [h1]; ring)
      (fun j hj1 hj2 => h3 j (by omega) (by omega))
      (by rw [show k + 1 + m = k + (m + 1) by omega]; exact h4) (by omega)
    refine ⟨r, e1, ?_, ?_⟩
    · rw [e2, List.range'_succ, List.map_cons, h1]
      simp
    · rw [e3, spec_svr_steps, h1]

/-- A rounded path loop whose product `Cpj*Cstep` rounds back to `Cpj < Cp` never ends. -/
theorem c_svc_path_rounded_stuck (rd : ℚ → ℚ)
    (solver : ℚ → ℚ → List ℚ × List ℚ → List ℚ × List ℚ)
    (x : List (List svm_node)) (y : List Int) (n l : Nat) (Cp Cn Cstep c : ℚ)
    (hc : c < Cp) (hfix : rd (c * Cstep) = c) :
    ∀ (fuel : Nat) (s : path_state), s.Cpj = c →
      c_svc_path_rounded rd solver x y n l Cp Cn Cstep fuel s = none := by
  intro fuel
  induction fuel with
  | zero =>
    intro s hs
    rw [c_svc_path_rounded, if_pos (by rw [hs]; exact hc)]
  | succ f ih =>
    intro s hs
    rw [c_svc_path_rounded, if_pos (by rw [hs]; exact hc)]
    exact ih _ (by simp only [hs, hfix])

theorem svr_path_rounded_stuck (rd : ℚ → ℚ)
    (solver : ℚ → ℚ → List ℚ × List ℚ → List ℚ × List ℚ)
    (x : List (List svm_node)) (y : List Int) (n l : Nat) (C Cstep c : ℚ)
    (hc : c < C) (hfix : rd (c * Cstep) = c) :
    ∀ (fuel : Nat) (s : path_state), s.Cpj = c →
      svr_path_rounded rd solver x y n l C Cstep fuel s = none := by
  intro fuel
  induction fuel with
  | zero =>
    intro s hs
    rw [svr_path_rounded, if_pos (by rw [hs]; exact hc)]
  | succ f ih =>
    intro s hs
    rw [svr_path_rounded, if_pos (by rw [hs]; exact hc)]
    exact ih _ (by simp only [hs, hfix])

/-- C25 (counterexample): in `double` arithmetic, (1) with `Cbegin = 0.1`, `Cstep = 3` and the
target `2.7` (the `double` values), the products `Cpj *= Cstep` give
`0.30000000000000004`, `0.9000000000000001` and `2.7000000000000006`, which is not below the
target: `solve_c_svc` and `solve_epsilon_svr` call the solver at three values of the path and
once at the target, although `Cbegin*Cstep^3` is below the target, so that the count of the
`k` with `Cbegin*Cstep^k < C` is four; the values of the calls are not `Cbegin*Cstep^k`.
(2) With `Cbegin = 2^-1074`, the smallest positive `double`, `Cstep = 1 + 2^-52 > 1` and the
target `1`, the product `Cpj*Cstep` rounds to `Cpj`, and the loops never end. -/
theorem warm_start_path_length_counterexample :
    ((solve_c_svc_linear_rounded to_double idle_solver [] [] 0 0 (to_double (27 / 10))
        (to_double (27 / 10)) (to_double (1 / 10)) 3 5).map
        (fun r => r.calls.map Prod.fst) =
      some [3602879701896397 / 36028797018963968, 5404319552844596 / 18014398509481984,
        8106479329266894 / 9007199254740992, to_double (27 / 10)] ∧
      (solve_epsilon_svr_linear_rounded to_double idle_solver [] 0 0 (to_double (27 / 10))
        (to_double (1 / 10)) 3 5).map (fun r => r.calls.length) = some 4 ∧
      to_double (1 / 10) * 3 ^ 3 < to_double (27 / 10) ∧
      to_double (1 / 10) * 3 ≠ 5404319552844596 / 18014398509481984) ∧
    (0 < pow2 (-1074) ∧ 1 < 1 + pow2 (-52) ∧
      to_double (pow2 (-1074)) = pow2 (-1074) ∧ to_double (1 + pow2 (-52)) = 1 + pow2 (-52) ∧
      never_returns (fun fuel => solve_c_svc_linear_rounded to_double idle_solver [] [] 0 0
        1 1 (pow2 (-1074)) (1 + pow2 (-52)) fuel) ∧
      never_returns (fun fuel => solve_epsilon_svr_linear_rounded to_double idle_solver [] 0 0
        1 (pow2 (-1074)) (1 + pow2 (-52)) fuel)) := by
  have hfix : to_double (pow2 (-1074) * (1 + pow2 (-52))) = pow2 (-1074) := by decide!
  have hlt : pow2 (-1074) < 1 := by decide!
  refine ⟨⟨by decide!, by decide!, by decide!, by decide!⟩, by decide!, by decide!,
    by decide!, by decide!, fun fuel => ?_, fun fuel => ?_⟩
  · simp only [solve_c_svc_linear_rounded]
    rw [c_svc_path_rounded_stuck to_double idle_solver [] (labels []) 0 0 1 1
      (1 + pow2 (-52)) (pow2 (-1074)) hlt hfix fuel _ rfl]
  · simp only [solve_epsilon_svr_linear_rounded]
    rw [svr_path_rounded_stuck to_double idle_solver (mirror_x 0 []) (mirror_y 0) 0 0 1
      (1 + pow2 (-52)) (pow2 (-1074)) hlt hfix fuel _ rfl]

/-- C25 (amended): in exact arithmetic, for `Cbegin > 0` and `Cstep > 1` the path loops of
`solve_c_svc` (target `Cp`) and of `solve_epsilon_svr` (target `C`) end: there is a number `K`
with `Cbegin*Cstep^k` below the target exactly for `k < K`, and with fuel for `K` passes the
function returns, having called the solver at `Cbegin*Cstep^k` for `k = 0, ..., K-1` in this
order (once each; `solve_c_svc` with the second bound `Cbegin*Cn/Cp*Cstep^k`), each call
followed by the rescale step, and then once more at the target itself: the arrays `alpha`
and `w` that it returns are those of this sequence of calls, for every solver.  When
`Cbegin` is not below the target, `K = 0` and the only call is the one at the target.  The
solver is a parameter of the loop, taken as a function that returns. -/
theorem warm_start_path_length (solver : ℚ → ℚ → List ℚ × List ℚ → List ℚ × List ℚ)
    (x : List (List svm_node)) (prob_y : List ℚ) (n l : Nat) (Cp Cn C Cbegin Cstep : ℚ)
    (hb : 0 < Cbegin) (hs : 1 < Cstep) :
    (∃ K : Nat, (∀ k : Nat, Cbegin * Cstep ^ k < Cp ↔ k < K) ∧ (Cp ≤ Cbegin → K = 0) ∧
      ∀ fuel, K ≤ fuel →
        ∃ r, solve_c_svc_linear solver x prob_y n l Cp Cn Cbegin Cstep fuel = some r ∧
          r.calls = (List.range K).map
            (fun k => (Cbegin * Cstep ^ k, Cbegin * Cn / Cp * Cstep ^ k)) ++ [(Cp, Cn)] ∧
          (r.alpha, r.w) = solver Cp Cn
            (spec_c_svc_steps solver x (labels prob_y) n l Cp Cn Cstep Cbegin
              (Cbegin * Cn / Cp) K 0
              (for_loop 0 l (fun i a => a.set i 0) (List.replicate l 0),
                for_loop 0 (n + 1) (fun i w => w.set i 0) (List.replicate (n + 1) 0)))) ∧
    (∃ K : Nat, (∀ k : Nat, Cbegin * Cstep ^ k < C ↔ k < K) ∧ (C ≤ Cbegin → K = 0) ∧
      ∀ fuel, K ≤ fuel →
        ∃ r, solve_epsilon_svr_linear solver x n l C Cbegin Cstep fuel = some r ∧
          r.calls = (List.range K).map
            (fun k => (Cbegin * Cstep ^ k, Cbegin * Cstep ^ k)) ++ [(C, C)] ∧
          (r.alpha, r.w) = solver C C
            (spec_svr_steps solver (mirror_x l x) (mirror_y l) n l C Cstep Cbegin K 0
              (for_loop 0 l (fun i a => (a.set i 0).set (i + l) 0)
                  (List.replicate (2 * l) 0),
                for_loop 0 (n + 1) (fun i w => w.set i 0) (List.replicate (n + 1) 0)))) := by
  have hzero : ∀ (T : ℚ) (K : Nat), (∀ k : Nat, Cbegin * Cstep ^ k < T ↔ k < K) →
      T ≤ Cbegin → K = 0 := by
    intro T K hK hT
    by_contra hne
    have := (hK 0).2 (Nat.pos_of_ne_zero hne)
    simp only [pow_zero, mul_one] at this
    linarith
  constructor
  · obtain ⟨K, hK⟩ := path_steps Cbegin Cstep Cp hb hs
    refine ⟨K, hK, hzero Cp K hK, fun fuel hf => ?_⟩
    obtain ⟨r, e1, e2, e3⟩ := c_svc_path_result solver x (labels prob_y) n l Cp Cn Cstep Cbegin
      (Cbegin * Cn / Cp) K 0
      { alpha := for_loop 0 l (fun i a => a.set i 0) (List.replicate l 0)
        w := for_loop 0 (n + 1) (fun i w => w.set i 0) (List.replicate (n + 1) 0)
        Cpj := Cbegin
        Cnj := Cbegin * Cn / Cp
        calls := [] } fuel (by simp) (by simp)
      (fun j _ hj => (hK j).2 (by omega))
      (fun h => absurd ((hK (0 + K)).1 h) (by omega)) hf
    refine ⟨_, by rw [solve_c_svc_linear, e1], ?_, ?_⟩
    · simp only [e2, List.nil_append, List.range_eq_range']
    · simp only []
      rw [← e3]
  · obtain ⟨K, hK⟩ := path_steps Cbegin Cstep C hb hs
    refine ⟨K, hK, hzero C K hK, fun fuel hf => ?_⟩
    obtain ⟨r, e1, e2, e3⟩ := svr_path_result solver (mirror_x l x) (mirror_y l) n l C Cstep
      Cbegin K 0
      { alpha := for_loop 0 l (fun i a => (a.set i 0).set (i + l) 0) (List.replicate (2 * l) 0)
        w := for_loop 0 (n + 1) (fun i w => w.set i 0) (List.replicate (n + 1) 0)
        Cpj := Cbegin
        Cnj := Cbegin
        calls := [] } fuel (by simp)
      (fun j _ hj => (hK j).2 (by omega))
      (fun h => absurd ((hK (0 + K)).1 h) (by omega)) hf
    refine ⟨_, by rw [solve_epsilon_svr_linear, e1], ?_, ?_⟩
    · simp only [e2, List.nil_append, List.range_eq_range']
    · simp only []
      rw [← e3]

/-- Witness of C25 (amended): the path from `Cbegin = 1` with `Cstep = 2` to the targets
`Cp = 4` and `C = 4`, with a solver that adds the bound of each call to `alpha[0]`. -/
theorem warm_start_path_length_witness :
    (∃ K : Nat, (∀ k : Nat, (1 : ℚ) * 2 ^ k < 4 ↔ k < K) ∧ ((4 : ℚ) ≤ 1 → K = 0) ∧
      ∀ fuel, K ≤ fuel →
        ∃ r, solve_c_svc_linear tally_solver [] [1] 0 1 4 4 1 2 fuel = some r ∧
          r.calls = (List.range K).map
            (fun k => ((1 : ℚ) * 2 ^ k, (1 : ℚ) * 4 / 4 * 2 ^ k)) ++ [(4, 4)] ∧
          (r.alpha, r.w) = tally_solver 4 4
            (spec_c_svc_steps tally_solver [] (labels [1]) 0 1 4 4 2 1 ((1 : ℚ) * 4 / 4) K 0
              (for_loop 0 1 (fun i a => a.set i 0) (List.replicate 1 0),
                for_loop 0 (0 + 1) (fun i w => w.set i 0) (List.replicate (0 + 1) 0)))) ∧
    (solve_c_svc_linear tally_solver [] [1] 0 1 4 4 1 2 2).map
      (fun r => (r.alpha, r.calls)) = some ([8], [(1, 1), (2, 2), (4, 4)]) :=
  ⟨(warm_start_path_length tally_solver [] [1] 0 1 4 4 4 1 2 (by norm_num) (by norm_num)).1,
    by decide!⟩
/-! ## The exit of the four `Solve` loops -/

/-- The loop of `Solver_SPOC::Solve` returns exactly when one of the first `fuel` passes
leaves it. -/
theorem Solver_SPOC_state.loop_iff (shrinking : Bool) (fuel : Nat) :
    ∀ (s : Solver_SPOC_state) (counter : Int) (s' : Solver_SPOC_state),
      Solver_SPOC_state.loop shrinking fuel s counter = some s' ↔
        ∃ n t c, n < fuel ∧ Solver_SPOC_state.head shrinking n s counter = some (t, c) ∧
          Solver_SPOC_state.Solve_iteration shrinking t c = Step.done s' := by
  induction fuel with
  | zero =>
    intro s c s'
    simp [Solver_SPOC_state.loop]
  | succ fuel ih =>
    intro s c s'
    simp only [Solver_SPOC_state.loop]
    cases hstep : Solver_SPOC_state.Solve_iteration shrinking s c with
    | done t =>
      simp only [Option.some.injEq]
      constructor
      · rintro rfl
        exact ⟨0, s, c, Nat.succ_pos _, rfl, hstep⟩
      · rintro ⟨n, t', c', -, hh, hd⟩
        cases n with
        | zero =>
          simp only [Solver_SPOC_state.head, Option.some.injEq, Prod.mk.injEq] at hh
          obtain ⟨rfl, rfl⟩ := hh
          rw [hstep] at hd
          exact Step.done.inj hd
        | succ n => simp [Solver_SPOC_state.head, hstep] at hh
    | next t c1 =>
      simp only []
      rw [ih t c1 s']
      constructor
      · rintro ⟨n, t', c', hn, hh, hd⟩
        exact ⟨n + 1, t', c', Nat.succ_lt_succ hn,
          by simp [Solver_SPOC_state.head, hstep, hh], hd⟩
      · rintro ⟨n, t', c', hn, hh, hd⟩
        cases n with
        | zero =>
          simp only [Solver_SPOC_state.head, Option.some.injEq, Prod.mk.injEq] at hh
          obtain ⟨rfl, rfl⟩ := hh
          rw [hstep] at hd
          exact Step.noConfusion hd
        | succ n =>
          simp only [Solver_SPOC_state.head, hstep] at hh
          exact ⟨n, t', c', Nat.lt_of_succ_lt_succ hn, hh, hd⟩

/-- The value that `Solver_SPOC::select_working_set` returns does not depend on the content
of `q` before the call. -/
theorem Solver_SPOC.select_working_set_any_q (s : Solver_SPOC) (active_size q0 q1 : Nat) :
    (s.select_working_set active_size q0).1 = (s.select_working_set active_size q1).1 := by
  have key := for_loop_induction
    (fun _ (p : (Ext × Nat) × (Ext × Nat)) => p.1.1 = p.2.1)
    0 active_size
    (fun i p =>
      ((if Ext.lt p.1.1 (Ext.sub (s.bounds i).1 (s.bounds i).2) then
          (Ext.sub (s.bounds i).1 (s.bounds i).2, i) else p.1),
       (if Ext.lt p.2.1 (Ext.sub (s.bounds i).1 (s.bounds i).2) then
          (Ext.sub (s.bounds i).1 (s.bounds i).2, i) else p.2)))
    ((Ext.neg_inf, q0), (Ext.neg_inf, q1)) (Nat.zero_le _) rfl
    (fun i t _ _ h => by
      simp only [h]
      split_ifs <;> simp_all)
  have pair : ∀ n, for_loop 0 n
      (fun i (p : (Ext × Nat) × (Ext × Nat)) =>
        ((if Ext.lt p.1.1 (Ext.sub (s.bounds i).1 (s.bounds i).2) then
            (Ext.sub (s.bounds i).1 (s.bounds i).2, i) else p.1),
         (if Ext.lt p.2.1 (Ext.sub (s.bounds i).1 (s.bounds i).2) then
            (Ext.sub (s.bounds i).1 (s.bounds i).2, i) else p.2)))
      ((Ext.neg_inf, q0), (Ext.neg_inf, q1)) =
      (s.select_working_set n q0, s.select_working_set n q1) := by
    intro n
    induction n with
    | zero => simp [for_loop, Solver_SPOC.select_working_set]
    | succ n ih =>
      rw [for_loop_succ _ _ _ _ (Nat.zero_le _), ih]
      simp only [Solver_SPOC.select_working_set]
      rw [for_loop_succ _ _ _ _ (Nat.zero_le _), for_loop_succ _ _ _ _ (Nat.zero_le _)]
  rw [pair] at key
  exact key

/-- A pass of the loop of `Solver_SPOC::Solve` that reaches `break`: both selections
returned less than `eps`, and the exit state is the result of the second one. -/
theorem Solver_SPOC_state.Solve_iteration_done (shrinking : Bool) (t : Solver_SPOC_state)
    (ct : Int) (s' : Solver_SPOC_state)
    (h : Solver_SPOC_state.Solve_iteration shrinking t ct = Step.done s') :
    Ext.lt (Solver_SPOC_state.select_working_set
        (if ct - 1 = 0 then (if shrinking then t.do_shrinking else t) else t)).1
      (Ext.fin (Solver_SPOC_state.select_working_set
        (if ct - 1 = 0 then (if shrinking then t.do_shrinking else t) else t)).2.eps) = true ∧
    s' = (Solver_SPOC_state.select_working_set
      (Solver_SPOC_state.select_working_set
        (if ct - 1 = 0 then (if shrinking then t.do_shrinking else t)
          else t)).2.reconstruct_gradient.full_active).2 ∧
    Ext.lt (Solver_SPOC_state.select_working_set
      (Solver_SPOC_state.select_working_set
        (if ct - 1 = 0 then (if shrinking then t.do_shrinking else t)
          else t)).2.reconstruct_gradient.full_active).1
      (Ext.fin s'.eps) = true := by
  unfold Solver_SPOC_state.Solve_iteration at h
  simp only [] at h
  generalize (if ct - 1 = 0 then (if shrinking then t.do_shrinking else t) else t) = pre at h ⊢
  by_cases c1 : Ext.lt pre.select_working_set.1 (Ext.fin pre.select_working_set.2.eps) = true
  · rw [if_pos c1] at h
    by_cases c2 : Ext.lt (Solver_SPOC_state.select_working_set
        pre.select_working_set.2.reconstruct_gradient.full_active).1
        (Ext.fin (Solver_SPOC_state.select_working_set
          pre.select_working_set.2.reconstruct_gradient.full_active).2.eps) = true
    · rw [if_pos c2] at h
      refine ⟨c1, (Step.done.inj h).symm, ?_⟩
      rw [← Step.done.inj h]; exact c2
    · rw [if_neg c2] at h
      exact Step.noConfusion h
  · rw [if_neg c1] at h
    exact Step.noConfusion h

/-- C7 (counterexample): the termination part fails.  On the two points `(1,0) → +1`,
`(-1,0) → -1` with the linear kernel, `Cp = Cn = 1e-13`, `eps = 1e-3`, `qpsize = 2`,
shrinking enabled and an exact `solvebqp`, `Solver_B::Solve` never leaves its loop (every
step `d` has `|d| <= 1e-12` and is discarded, so the violation stays `1`). -/
theorem Solve_termination_counterexample :
    never_returns (fun fuel => Solver_B.Solve solvebqp_diag fuel 2 two_point_Q [-1, -1]
      [1, -1] [0, 0] tiny_C tiny_C (1 / 1000) true 2) := by
  intro fuel
  simp only [Solver_B.Solve, init_tiny, Solve_loop_tiny]

/-- C7 (amended): when the loop `while(1)` of `Solver_B::Solve`, `Solver_B_linear::Solve`,
`Solver_MB::Solve` or `Solver_SPOC::Solve` is left, from whatever state and counter it was
entered, the exit state has `active_size = l` and `select_working_set` on it returns less
than `eps`; and the loop was left in a pass (the pass after `n < fuel` passes, entered in
the state `t` with the counter `ct`) in which the first `select_working_set`, made after the
shrinking step of the pass, returned less than `eps` and left the state `u`, and the exit
state is the one that `select_working_set` leaves when it is called on the result of
`reconstruct_gradient` on `u` with `active_size = l`, so that the gradient of the exit state
is the reconstructed one.  Nothing bounds the number of passes: the loop need not be
left. -/
theorem Solve_two_phase_exit :
    (∀ (solvebqp : BQP → List ℚ) (shrinking : Bool) (fuel : Nat) (s : Solver_B)
        (counter : Int) (s' : Solver_B),
      Solve_loop (Solver_B.ops solvebqp shrinking) shrinking fuel s counter = some s' →
        s'.active_size = s'.l ∧ s'.select_working_set.1 < s'.eps ∧
        ∃ (n : Nat) (t : Solver_B) (ct : Int) (u : Solver_B), n < fuel ∧
          loop_head (Solver_B.ops solvebqp shrinking) shrinking n s counter = some (t, ct) ∧
          u = (Solver_B.select_working_set
            (if ct - 1 = 0 then (if shrinking then t.do_shrinking else t) else t)).2 ∧
          (Solver_B.select_working_set
            (if ct - 1 = 0 then (if shrinking then t.do_shrinking else t) else t)).1 < u.eps ∧
          s' = (Solver_B.select_working_set
            { u.reconstruct_gradient with active_size := u.reconstruct_gradient.l }).2 ∧
          s'.G = u.reconstruct_gradient.G) ∧
    (∀ (solvebqp : BQP → List ℚ) (shrinking : Bool) (fuel : Nat) (s : Solver_B_linear_state)
        (counter : Int) (s' : Solver_B_linear_state),
      Solve_loop (Solver_B_linear_state.ops solvebqp) shrinking fuel s counter = some s' →
        s'.active_size = s'.core.l ∧ s'.select_working_set.1 < s'.eps ∧
        ∃ (n : Nat) (t : Solver_B_linear_state) (ct : Int) (u : Solver_B_linear_state),
          n < fuel ∧
          loop_head (Solver_B_linear_state.ops solvebqp) shrinking n s counter =
            some (t, ct) ∧
          u = (Solver_B_linear_state.select_working_set
            (if ct - 1 = 0 then (if shrinking then t.do_shrinking else t) else t)).2 ∧
          (Solver_B_linear_state.select_working_set
            (if ct - 1 = 0 then (if shrinking then t.do_shrinking else t) else t)).1 < u.eps ∧
          s' = (Solver_B_linear_state.select_working_set
            { u.reconstruct_gradient with active_size := u.reconstruct_gradient.core.l }).2 ∧
          s'.core.G = u.reconstruct_gradient.core.G) ∧
    (∀ (solvebqp : BQP → List ℚ) (shrinking : Bool) (fuel : Nat) (s : Solver_MB_state)
        (counter : Int) (s' : Solver_MB_state),
      Solve_loop (Solver_MB_state.ops solvebqp shrinking) shrinking fuel s counter = some s' →
        s'.core.active_size = s'.core.l ∧ s'.select_working_set.1 < s'.eps ∧
        ∃ (n : Nat) (t : Solver_MB_state) (ct : Int) (u : Solver_MB_state), n < fuel ∧
          loop_head (Solver_MB_state.ops solvebqp shrinking) shrinking n s counter =
            some (t, ct) ∧
          u = (Solver_MB_state.select_working_set
            (if ct - 1 = 0 then (if shrinking then t.do_shrinking else t) else t)).2 ∧
          (Solver_MB_state.select_working_set
            (if ct - 1 = 0 then (if shrinking then t.do_shrinking else t) else t)).1 < u.eps ∧
          s' = (Solver_MB_state.select_working_set
            { u.reconstruct_gradient with
              core := { u.reconstruct_gradient.core with
                active_size := u.reconstruct_gradient.core.l } }).2 ∧
          s'.core.G = u.reconstruct_gradient.core.G) ∧
    (∀ (shrinking : Bool) (fuel : Nat) (s : Solver_SPOC_state) (counter : Int)
        (s' : Solver_SPOC_state),
      Solver_SPOC_state.loop shrinking fuel s counter = some s' →
        s'.active_size = s'.core.l ∧
        Ext.lt s'.select_working_set.1 (Ext.fin s'.eps) = true ∧
        ∃ (n : Nat) (t : Solver_SPOC_state) (ct : Int) (u : Solver_SPOC_state), n < fuel ∧
          Solver_SPOC_state.head shrinking n s counter = some (t, ct) ∧
          u = (Solver_SPOC_state.select_working_set
            (if ct - 1 = 0 then (if shrinking then t.do_shrinking else t) else t)).2 ∧
          Ext.lt (Solver_SPOC_state.select_working_set
            (if ct - 1 = 0 then (if shrinking then t.do_shrinking else t) else t)).1
            (Ext.fin u.eps) = true ∧
          s' = (Solver_SPOC_state.select_working_set
            u.reconstruct_gradient.full_active).2 ∧
          s'.core.G = u.reconstruct_gradient.core.G) := by
  refine ⟨?_, ?_, ?_, ?_⟩
  · intro solvebqp shrinking fuel s counter s' h
    obtain ⟨n, t, ct, u, hn, hhead, hu, -, h1, h2, h3, -⟩ :=
      Solve_loop_exit_gated (Solver_B.ops solvebqp shrinking) shrinking
        (fun _ => True) (fun _ => True) (fun _ _ _ => trivial) (fun _ _ => trivial)
        (fun _ _ => trivial) (fun _ _ => trivial) (fun _ _ => trivial) fuel s counter s'
        trivial h
    refine ⟨by rw [h2]; rfl, ?_, n, t, ct, u, hn, hhead, hu, h1, h2, by rw [h2]; rfl⟩
    have e : s'.select_working_set.1 = ((Solver_B.ops solvebqp shrinking).select_working_set
        ((Solver_B.ops solvebqp shrinking).full_active
          ((Solver_B.ops solvebqp shrinking).reconstruct_gradient u))).1 := by
      rw [h2]; rfl
    rw [e]; exact h3
  · intro solvebqp shrinking fuel s counter s' h
    obtain ⟨n, t, ct, u, hn, hhead, hu, -, h1, h2, h3, -⟩ :=
      Solve_loop_exit_gated (Solver_B_linear_state.ops solvebqp) shrinking
        (fun _ => True) (fun _ => True) (fun _ _ _ => trivial) (fun _ _ => trivial)
        (fun _ _ => trivial) (fun _ _ => trivial) (fun _ _ => trivial) fuel s counter s'
        trivial h
    refine ⟨by rw [h2]; rfl, ?_, n, t, ct, u, hn, hhead, hu, h1, h2, by rw [h2]; rfl⟩
    have e : s'.select_working_set.1 =
        ((Solver_B_linear_state.ops solvebqp).select_working_set
          ((Solver_B_linear_state.ops solvebqp).full_active
            ((Solver_B_linear_state.ops solvebqp).reconstruct_gradient u))).1 := by
      rw [h2]; rfl
    rw [e]; exact h3
  · intro solvebqp shrinking fuel s counter s' h
    obtain ⟨n, t, ct, u, hn, hhead, hu, -, h1, h2, h3, -⟩ :=
      Solve_loop_exit_gated (Solver_MB_state.ops solvebqp shrinking) shrinking
        (fun _ => True) (fun _ => True) (fun _ _ _ => trivial) (fun _ _ => trivial)
        (fun _ _ => trivial) (fun _ _ => trivial) (fun _ _ => trivial) fuel s counter s'
        trivial h
    refine ⟨by rw [h2]; rfl, ?_, n, t, ct, u, hn, hhead, hu, h1, h2, by rw [h2]; rfl⟩
    have e : s'.select_working_set.1 =
        ((Solver_MB_state.ops solvebqp shrinking).select_working_set
          ((Solver_MB_state.ops solvebqp shrinking).full_active
            ((Solver_MB_state.ops solvebqp shrinking).reconstruct_gradient u))).1 := by
      rw [h2]; rfl
    rw [e]; exact h3
  · intro shrinking fuel s counter s' h
    obtain ⟨n, t, ct, hn, hhead, hdone⟩ := (Solver_SPOC_state.loop_iff _ _ _ _ _).mp h
    obtain ⟨c1, h2, c2⟩ := Solver_SPOC_state.Solve_iteration_done shrinking t ct s' hdone
    refine ⟨by rw [h2]; rfl, ?_, n, t, ct, _, hn, hhead, rfl, c1, h2, by rw [h2]; rfl⟩
    have e : s'.select_working_set.1 = (Solver_SPOC_state.select_working_set
        (Solver_SPOC_state.select_working_set
          (if ct - 1 = 0 then (if shrinking then t.do_shrinking else t)
            else t)).2.reconstruct_gradient.full_active).1 := by
      rw [h2]
      exact Solver_SPOC.select_working_set_any_q _ _ _ _
    rw [e]
    exact c2
/-- Witness for C7: four runs that leave the loop in their second or third pass.  The two
points `(1,0) → +1`, `(-1,0) → -1` with `C = 1` in `Solver_B` (kernel matrix) and in
`Solver_B_linear` (feature vectors); two classes with one point each in `Solver_MB`; one
point with two classes in `Solver_SPOC`. -/
theorem Solve_two_phase_exit_witness :
    (∃ s' : Solver_B,
      Solve_loop (Solver_B.ops solvebqp_diag true) true 2
        (Solver_B.init 2 two_point_Q [-1, -1] [1, -1] [0, 0] 1 1 (1 / 1000) true 2) 3 =
          some s' ∧
      s'.active_size = s'.l ∧ s'.select_working_set.1 < s'.eps ∧ s'.alpha = [1 / 2, 1 / 2]) ∧
    (∃ s' : Solver_B_linear_state,
      Solver_B_linear_state.Solve_loop solvebqp_diag 3 2 [[⟨1, 1⟩], [⟨1, -1⟩]] [-1, -1]
        [1, -1] [0, 0] [0, 0] 1 1 (1 / 1000) true 2 = some s' ∧
      s'.active_size = s'.core.l ∧ s'.select_working_set.1 < s'.eps ∧
      s'.core.alpha = [1 / 2, 1 / 2] ∧ s'.w = [0, 1] ∧ s'.core.G = [0, 0]) ∧
    (∃ s' : Solver_MB_state,
      Solver_MB_state.Solve_loop solvebqp_diag 2 2 (fun i j => if i = j then 1 else 0) (-1)
        [0, 0] [1, 0] [1, 1] (1 / 1000) true 2 2 [1, 1] = some s' ∧
      s'.core.active_size = s'.core.l ∧ s'.select_working_set.1 < s'.eps ∧
      s'.core.alpha = [1 / 2, 1 / 2] ∧ s'.core.G = [0, 0]) ∧
    (∃ s' : Solver_SPOC_state,
      Solver_SPOC_state.Solve_loop 2 1 (fun _ _ => 1) [0, 0] [0] [1, 1] (1 / 1000) true 2 0
        [0, 0] = some s' ∧
      s'.active_size = s'.core.l ∧
      Ext.lt s'.select_working_set.1 (Ext.fin s'.eps) = true ∧
      s'.core.alpha = [1 / 2, -1 / 2] ∧ s'.core.G = [1 / 2, 1 / 2]) := by
  refine ⟨?_, ?_, ?_, ?_⟩
  · have hv : (Solve_loop (Solver_B.ops solvebqp_diag true) true 2
        (Solver_B.init 2 two_point_Q [-1, -1] [1, -1] [0, 0] 1 1 (1 / 1000) true 2) 3).map
        (fun s => s.alpha) = some [1 / 2, 1 / 2] := by decide!
    obtain ⟨s', hs', hval⟩ := Option.map_eq_some'.mp hv
    exact ⟨s', hs', (Solve_two_phase_exit.1 solvebqp_diag true 2 _ 3 s' hs').1,
      (Solve_two_phase_exit.1 solvebqp_diag true 2 _ 3 s' hs').2.1, hval⟩
  · have hv : (Solver_B_linear_state.Solve_loop solvebqp_diag 3 2 [[⟨1, 1⟩], [⟨1, -1⟩]]
        [-1, -1] [1, -1] [0, 0] [0, 0] 1 1 (1 / 1000) true 2).map
        (fun s => (s.core.alpha, s.w, s.core.G)) = some ([1 / 2, 1 / 2], [0, 1], [0, 0]) := by
      decide!
    obtain ⟨s', hs', hval⟩ := Option.map_eq_some'.mp hv
    exact ⟨s', hs', (Solve_two_phase_exit.2.1 solvebqp_diag true 3 _ _ s' hs').1,
      (Solve_two_phase_exit.2.1 solvebqp_diag true 3 _ _ s' hs').2.1,
      congrArg Prod.fst hval, congrArg (fun p => p.2.1) hval, congrArg (fun p => p.2.2) hval⟩
  · have hv : (Solver_MB_state.Solve_loop solvebqp_diag 2 2 (fun i j => if i = j then 1 else 0)
        (-1) [0, 0] [1, 0] [1, 1] (1 / 1000) true 2 2 [1, 1]).map
        (fun s => (s.core.alpha, s.core.G)) = some ([1 / 2, 1 / 2], [0, 0]) := by decide!
    obtain ⟨s', hs', hval⟩ := Option.map_eq_some'.mp hv
    exact ⟨s', hs', (Solve_two_phase_exit.2.2.1 solvebqp_diag true 2 _ _ s' hs').1,
      (Solve_two_phase_exit.2.2.1 solvebqp_diag true 2 _ _ s' hs').2.1,
      congrArg Prod.fst hval, congrArg Prod.snd hval⟩
  · have hv : (Solver_SPOC_state.Solve_loop 2 1 (fun _ _ => 1) [0, 0] [0] [1, 1] (1 / 1000)
        true 2 0 [0, 0]).map (fun s => (s.core.alpha, s.core.G)) =
        some ([1 / 2, -1 / 2], [1 / 2, 1 / 2]) := by decide!
    obtain ⟨s', hs', hval⟩ := Option.map_eq_some'.mp hv
    exact ⟨s', hs', (Solve_two_phase_exit.2.2.2 true 2 _ _ s' hs').1,
      (Solve_two_phase_exit.2.2.2 true 2 _ _ s' hs').2.1,
      congrArg Prod.fst hval, congrArg Prod.snd hval⟩

end Kernlab
